import Mathlib

/-!
# texturecam: filters, decision forests and their persistence

A shallow embedding of the C sources of the texture-classification forest
(`tc_image.c`, `tc_filter.c`, `tc_node.c`, `tc_tree.c`, `tc_forest.c`,
`tc_io.c`) together with theorems about them.

Conventions of the embedding.

* C `int` and `int64_t` values are `Int`.  Signed overflow is undefined
  behaviour in C and is not modelled: sums and products are exact.
* `pixel_t` (`uint8_t`) is `Fin 256`.
* `float` is an abstract carrier `M.F` of a `FloatOps` record holding the
  operations the sources apply to it.  The facts about IEEE-754 arithmetic
  that proofs rely on are collected in `FloatLaws`; each of them holds for
  binary32 with NaN and infinities included.  `ratOps` is an executable
  instance with exact rational arithmetic.
* Pointers into a tree's node array are `Option Int`: `none` is `NULL`,
  `some i` is `&(tree->nodes[i])`.
* Loops that may fail to terminate (`while (1)` walks) take a fuel argument.
  A result `none` means the C behaviour is not defined by the model: the
  fuel ran out, or memory outside an array was addressed.
-/

namespace TextureCam

/-! ## Constants -/

/-- Status code `ERR` of `tc_image.h`. -/
def ERR : Int := 0

/-- Status code `OK` of `tc_image.h`. -/
def OK : Int := 1

/-- Capacity of the per-class arrays, `MAX_N_CLASSES` of `tc_image.h`. -/
def MAX_N_CLASSES : Nat := 8

/-- Reserved label `ERROR_CLASS` of `tc_dataset.h`. -/
def ERROR_CLASS : Int := 255

/-- Sentinel `TC_FILTER_NODATA` of `tc_filter.h`. -/
def TC_FILTER_NODATA : Int := 999999

/-- Scale `TC_FIXEDPT_PRECIS_FACTOR` of `tc_filter.h`, the value `(pixel_t) 100`. -/
def TC_FIXEDPT_PRECIS_FACTOR : Int := 100

/-- Size `TC_FILTER_STRINGSIZE` of the buffer a filter is printed into. -/
def TC_FILTER_STRINGSIZE : Nat := 32

/-- Node capacity `MAX_TREE_NODES` of a tree. -/
def MAX_TREE_NODES : Nat := 512

/-- Size `BUF_SIZE` of the line buffers of `tc_io.h`. -/
@[irreducible] def BUF_SIZE : Nat := 256

def TC_FILTER_RAW : Int := 0
def TC_FILTER_SUM : Int := 1
def TC_FILTER_DIFF : Int := 2
def TC_FILTER_ABS : Int := 3
def TC_FILTER_RATIO : Int := 4
def TC_FILTER_RECT : Int := 5

/-! ## Floating point -/

/-- The operations the sources perform on `float` values. -/
structure FloatOps where
  /-- The carrier of `float` values. -/
  F : Type
  /-- Conversion `(float) n` of an integer. -/
  ofInt : Int → F
  /-- The literal `MIN_PROB` of `tc_image.h`. -/
  MIN_PROB : F
  /-- Addition `x + y`. -/
  add : F → F → F
  /-- Division `x / y`. -/
  div : F → F → F
  /-- Comparison `x > y`. -/
  gt : F → F → Bool
  /-- Comparison `x == y`. -/
  eq : F → F → Bool
  /-- Output of the conversion `%8f` of `fprintf`. -/
  fmt_8f : F → List Char
  /-- The call `sscanf(s, " %f", &x)` on the C string `s`: the value stored
  when the call returns 1, `none` otherwise. -/
  scan_f : List Char → Option F

/-- Facts about IEEE-754 arithmetic used by the proofs.  A value `x` with
`eq x x = true` is one that is not a NaN. -/
structure FloatLaws (M : FloatOps) : Prop where
  gt_irrefl : ∀ a, M.gt a a = false
  gt_trans : ∀ a b c, M.gt a b = true → M.gt b c = true → M.gt a c = true
  gt_cotrans : ∀ a b c, M.eq b b = true → M.gt c a = true →
    M.gt b a = true ∨ M.gt c b = true
  MIN_PROB_pos : M.gt M.MIN_PROB (M.ofInt 0) = true
  add_zero_zero : M.add (M.ofInt 0) (M.ofInt 0) = M.ofInt 0
  div_pos_gt : ∀ p (n : Int), M.gt p (M.ofInt 0) = true → 0 < n →
    M.gt (M.div p (M.ofInt n)) (M.ofInt (-1)) = true
  div_pos_eq : ∀ p (n : Int), M.gt p (M.ofInt 0) = true →
    M.eq (M.div p (M.ofInt n)) (M.div p (M.ofInt n)) = true

/-! ## Images (`tc_image.h`, `tc_image.c`) -/

/-- The basic bit depth `pixel_t`. -/
abbrev pixel_t := Fin 256

/-- The struct `tc_image`: row-major storage with interleaved channels. -/
structure tc_image where
  rows : Int
  cols : Int
  chans : Int
  data : List pixel_t

/-- Offset of `(row, col, chan)` in the pixel array, as computed by `tc_get`. -/
def tc_index (img : tc_image) (row col chan : Int) : Int :=
  row * (img.cols * img.chans) + col * img.chans + chan * 1

/-- The function `tc_get`: the pixel at `(row, col, chan)`, promoted to `int`. -/
def tc_get (img : tc_image) (row col chan : Int) : Int :=
  ((img.data.getD (tc_index img row col chan).toNat 0).val : Int)

/-! ## Filters (`tc_filter.h`, `tc_filter.c`) -/

/-- The struct `tc_filter`. -/
structure tc_filter where
  function : Int
  rowA : Int
  colA : Int
  chanA : Int
  rowB : Int
  colB : Int
  chanB : Int
deriving DecidableEq, Repr

/-- The function `tc_filter_pixel`.  The first component is the status, the
second the content of `*result` after the call; `result` is its content
before the call. -/
def tc_filter_pixel (filter : tc_filter) (image : tc_image) (r c : Int)
    (result : Int) : Int × Int :=
  let rowA := filter.rowA + r
  let colA := filter.colA + c
  let chanA := filter.chanA
  let rowB := filter.rowB + r
  let colB := filter.colB + c
  let chanB := filter.chanB
  if rowA ≥ image.rows ∨ rowA < 0 ∨ colA ≥ image.cols ∨ colA < 0 ∨
      chanA ≥ image.chans ∨ chanA < 0 then
    (ERR, TC_FILTER_NODATA)
  else if filter.function ≠ TC_FILTER_RAW ∧
      (rowB ≥ image.rows ∨ rowB < 0 ∨ colB ≥ image.cols ∨ colB < 0 ∨
        chanB ≥ image.chans ∨ chanB < 0) then
    (ERR, TC_FILTER_NODATA)
  else if filter.function = TC_FILTER_RAW then
    (OK, tc_get image rowA colA chanA)
  else if filter.function = TC_FILTER_SUM then
    (OK, tc_get image rowA colA chanA + tc_get image rowB colB chanB)
  else if filter.function = TC_FILTER_DIFF then
    (OK, tc_get image rowA colA chanA - tc_get image rowB colB chanB)
  else if filter.function = TC_FILTER_ABS then
    (OK, ((tc_get image rowA colA chanA - tc_get image rowB colB chanB).natAbs : Int))
  else if filter.function = TC_FILTER_RATIO then
    let diff := tc_get image rowA colA chanA * TC_FIXEDPT_PRECIS_FACTOR -
      tc_get image rowB colB chanB * TC_FIXEDPT_PRECIS_FACTOR
    (OK, Int.tdiv diff (tc_get image rowA colA chanA + 1))
  else if filter.function = TC_FILTER_RECT then
    (OK, tc_get image rowA colA chanA + tc_get image rowB colB chanA -
      tc_get image rowA colB chanA - tc_get image rowB colA chanA)
  else
    (ERR, result)

/-- Position `(row, col)` and channel `chan` lie inside the image. -/
def in_image (img : tc_image) (row col chan : Int) : Prop :=
  0 ≤ row ∧ row < img.rows ∧ 0 ≤ col ∧ col < img.cols ∧ 0 ≤ chan ∧ chan < img.chans

instance (img : tc_image) (row col chan : Int) : Decidable (in_image img row col chan) := by
  unfold in_image
  infer_instance

/-! ## Formatted output and input (`snprintf`, `fprintf`, `sscanf` of the C library)

Text is a list of characters; a C string is its content without the
terminating NUL.  The conversions follow ISO C: `%i` and `%d` print a signed
decimal numeral without leading zeros; on input `%d` reads a decimal numeral
and `%i` detects the base from a `0x` or `0` prefix, both after skipping
white space.  A numeral too large for `long` is clamped and the result is
stored into an `int` by truncation, as glibc does. -/

/-- The decimal digits of `n`, most significant first; `fuel` bounds the
number of digits. -/
def dec_digits : Nat → Nat → List Char
  | 0, _ => []
  | fuel + 1, n =>
    if n < 10 then [Nat.digitChar n]
    else dec_digits fuel (n / 10) ++ [Nat.digitChar (n % 10)]

/-- Output of `%u`-style printing of a natural number. -/
def fmt_nat (n : Nat) : List Char :=
  dec_digits (n + 1) n

/-- Output of the conversions `%i` and `%d`. -/
def fmt_int (x : Int) : List Char :=
  if x < 0 then '-' :: fmt_nat x.natAbs else fmt_nat x.natAbs

/-- The predicate `isspace` in the C locale. -/
def isspace (c : Char) : Bool :=
  c = ' ' || c = '\t' || c = '\n' || c = '\x0b' || c = '\x0c' || c = '\r'

/-- Decimal digit characters. -/
def is_dec_digit (c : Char) : Bool :=
  decide ('0'.toNat ≤ c.toNat ∧ c.toNat ≤ '9'.toNat)

/-- Octal digit characters. -/
def is_oct_digit (c : Char) : Bool :=
  decide ('0'.toNat ≤ c.toNat ∧ c.toNat ≤ '7'.toNat)

/-- Hexadecimal digit characters. -/
def is_hex_digit (c : Char) : Bool :=
  is_dec_digit c || decide ('a'.toNat ≤ c.toNat ∧ c.toNat ≤ 'f'.toNat) ||
    decide ('A'.toNat ≤ c.toNat ∧ c.toNat ≤ 'F'.toNat)

/-- Value of a digit character in any base up to 16. -/
def digit_val (c : Char) : Nat :=
  if is_dec_digit c then c.toNat - '0'.toNat
  else if decide ('a'.toNat ≤ c.toNat ∧ c.toNat ≤ 'f'.toNat) then c.toNat - 'a'.toNat + 10
  else c.toNat - 'A'.toNat + 10

/-- Value of a digit sequence in the given base. -/
def digits_val (base : Nat) (ds : List Char) : Nat :=
  ds.foldl (fun acc c => acc * base + digit_val c) 0

/-- Clamping of a numeral to the range of `long`, as `strtol` does. -/
def clamp_long (v : Int) : Int :=
  if v < -9223372036854775808 then -9223372036854775808
  else if v > 9223372036854775807 then 9223372036854775807
  else v

/-- Truncation of a `long` to `int`. -/
def to_int32 (v : Int) : Int :=
  (v + 2147483648) % 4294967296 - 2147483648

/-- An optional sign in front of a numeral: the sign and the rest. -/
def scan_sign (s : List Char) : Bool × List Char :=
  match s with
  | [] => (false, [])
  | c :: t => if c = '-' then (true, t) else if c = '+' then (false, t) else (false, c :: t)

/-- The stored value of a numeral with the given sign and magnitude. -/
def scan_value (neg : Bool) (mag : Nat) : Int :=
  to_int32 (clamp_long (if neg then -(mag : Int) else (mag : Int)))

/-- A decimal numeral at the head of the input, after the sign. -/
def scan_dec (neg : Bool) (s : List Char) : Option (Int × List Char) :=
  if s.takeWhile is_dec_digit = [] then none
  else some (scan_value neg (digits_val 10 (s.takeWhile is_dec_digit)),
    s.dropWhile is_dec_digit)

/-- The conversion `%d` of `sscanf`: the value stored and the unread input,
or `none` on a matching failure. -/
def scan_d (s : List Char) : Option (Int × List Char) :=
  scan_dec (scan_sign (s.dropWhile isspace)).1 (scan_sign (s.dropWhile isspace)).2

/-- A numeral with base prefix at the head of the input, after the sign:
`0x` or `0X` starts a hexadecimal numeral, any other `0` an octal one. -/
def scan_base (neg : Bool) (s : List Char) : Option (Int × List Char) :=
  match s with
  | [] => none
  | d :: t =>
    if d = '0' then
      match t with
      | [] => some (scan_value neg 0, [])
      | c :: t2 =>
        if c = 'x' ∨ c = 'X' then
          if t2.takeWhile is_hex_digit = [] then none
          else some (scan_value neg (digits_val 16 (t2.takeWhile is_hex_digit)),
            t2.dropWhile is_hex_digit)
        else
          some (scan_value neg (digits_val 8 ((d :: c :: t2).takeWhile is_oct_digit)),
            (d :: c :: t2).dropWhile is_oct_digit)
    else scan_dec neg (d :: t)

/-- The conversion `%i` of `sscanf`: as `%d`, with the base taken from the
prefix of the numeral. -/
def scan_i (s : List Char) : Option (Int × List Char) :=
  scan_base (scan_sign (s.dropWhile isspace)).1 (scan_sign (s.dropWhile isspace)).2

/-- Directives of the `sscanf` formats that read integers. -/
inductive ScanDir where
  /-- An ordinary character, to be matched exactly. -/
  | lit (c : Char)
  /-- White space in the format: skips any white space of the input. -/
  | ws
  /-- The conversion `%i`. -/
  | conv_i
  /-- The conversion `%d`. -/
  | conv_d

/-- The function `sscanf` on a format of integer conversions: the values
stored, in order.  Its return value is their number (`EOF` counts as none:
every caller compares the return value with the number of conversions). -/
def sscanf_ints : List ScanDir → List Char → List Int
  | [], _ => []
  | ScanDir.lit _ :: _, [] => []
  | ScanDir.lit c :: ds, c2 :: rest => if c = c2 then sscanf_ints ds rest else []
  | ScanDir.ws :: ds, s => sscanf_ints ds (s.dropWhile isspace)
  | ScanDir.conv_i :: ds, s =>
    match scan_i s with
    | some (v, rest) => v :: sscanf_ints ds rest
    | none => []
  | ScanDir.conv_d :: ds, s =>
    match scan_d s with
    | some (v, rest) => v :: sscanf_ints ds rest
    | none => []

/-- The text `snprintf` is asked to produce for the format
`"F%i_(%i,%i,%i)_(%i,%i,%i)"` of `tc_filter_tostring`. -/
def tc_filter_text (f : tc_filter) : List Char :=
  'F' :: (fmt_int f.function ++ ('_' :: '(' :: (fmt_int f.rowA ++ (',' ::
    (fmt_int f.colA ++ (',' :: (fmt_int f.chanA ++ (')' :: '_' :: '(' ::
    (fmt_int f.rowB ++ (',' :: (fmt_int f.colB ++ (',' ::
    (fmt_int f.chanB ++ [')'])))))))))))))

/-- The function `tc_filter_tostring`: the status and the content of `str`.
`snprintf` stores at most `TC_FILTER_STRINGSIZE - 1` characters and returns
the length of the whole text. -/
def tc_filter_tostring (f : tc_filter) : Int × List Char :=
  let text := tc_filter_text f
  if (text.length : Int) < 18 then (ERR, text.take (TC_FILTER_STRINGSIZE - 1))
  else (OK, text.take (TC_FILTER_STRINGSIZE - 1))

/-- The format `"F%i_(%i,%i,%i)_(%i,%i,%i)"` as a directive list. -/
def filter_format : List ScanDir :=
  [ScanDir.lit 'F', ScanDir.conv_i, ScanDir.lit '_', ScanDir.lit '(', ScanDir.conv_i,
   ScanDir.lit ',', ScanDir.conv_i, ScanDir.lit ',', ScanDir.conv_i, ScanDir.lit ')',
   ScanDir.lit '_', ScanDir.lit '(', ScanDir.conv_i, ScanDir.lit ',', ScanDir.conv_i,
   ScanDir.lit ',', ScanDir.conv_i, ScanDir.lit ')']

/-- The fields of a filter after `sscanf` stored the values `vals` into
`function`, `rowA`, `colA`, `chanA`, `rowB`, `colB`, `chanB`, in this order. -/
def store_filter (f : tc_filter) (vals : List Int) : tc_filter :=
  { function := vals.getD 0 f.function, rowA := vals.getD 1 f.rowA,
    colA := vals.getD 2 f.colA, chanA := vals.getD 3 f.chanA,
    rowB := vals.getD 4 f.rowB, colB := vals.getD 5 f.colB,
    chanB := vals.getD 6 f.chanB }

/-- The function `tc_filter_fromstring`: the status and the filter left in
`*filter`, whose previous content is `f`. -/
def tc_filter_fromstring (f : tc_filter) (str : List Char) : Int × tc_filter :=
  let vals := sscanf_ints filter_format str
  if (vals.length : Int) ≠ 7 then (ERR, store_filter f vals) else (OK, store_filter f vals)

/-- The default filter of `tc_init_filter`. -/
def tc_init_filter : tc_filter :=
  { function := TC_FILTER_RAW, rowA := 0, colA := 0, chanA := 0,
    rowB := 0, colB := 0, chanB := 0 }

/-- A C `int`. -/
def is_int (x : Int) : Prop :=
  -2147483648 ≤ x ∧ x ≤ 2147483647

instance (x : Int) : Decidable (is_int x) := by
  unfold is_int
  infer_instance

/-- All fields of the filter are C `int` values. -/
def filter_ints (f : tc_filter) : Prop :=
  is_int f.function ∧ is_int f.rowA ∧ is_int f.colA ∧ is_int f.chanA ∧
    is_int f.rowB ∧ is_int f.colB ∧ is_int f.chanB

instance (f : tc_filter) : Decidable (filter_ints f) := by
  unfold filter_ints
  infer_instance

/-- The input `rest` cannot continue a numeral read by `%i` or `%d`: it is
empty or starts with a character that is neither a digit nor `x` nor `X`. -/
def ends_numeral (rest : List Char) : Prop :=
  ∀ c t, rest = c :: t → is_dec_digit c = false ∧ c ≠ 'x' ∧ c ≠ 'X'

/-! ## Exact rational arithmetic as an instance of `FloatOps` -/

/-- Rounding of a non-negative rational to the nearest integer, ties to even. -/
def round_half_even (q : ℚ) : Int :=
  if q - ⌊q⌋ < 1 / 2 then ⌊q⌋
  else if 1 / 2 < q - ⌊q⌋ then ⌊q⌋ + 1
  else if ⌊q⌋ % 2 = 0 then ⌊q⌋ else ⌊q⌋ + 1

/-- The last `w` decimal digits of `n`, with leading zeros. -/
def pad_digits : Nat → Nat → List Char
  | 0, _ => []
  | w + 1, n => pad_digits w (n / 10) ++ [Nat.digitChar (n % 10)]

/-- The number of millionths `%f` prints for `x`: `|x| * 10^6` rounded to
the nearest integer, ties to even. -/
def millionths (x : ℚ) : Nat :=
  (round_half_even (|x| * 1000000)).toNat

/-- Output of `%f` for a rational: sign, integer part, point and six decimals. -/
def fmt_f6 (x : ℚ) : List Char :=
  (if x < 0 then ['-'] else []) ++
    (fmt_nat (millionths x / 1000000) ++ ('.' :: pad_digits 6 (millionths x % 1000000)))

/-- Padding with blanks on the left to a minimum field width. -/
def pad_left (w : Nat) (s : List Char) : List Char :=
  List.replicate (w - s.length) ' ' ++ s

/-- A decimal floating literal at the head of the input: digits, an optional
point with digits, an optional exponent.  The value read is exact. -/
def scan_decimal (s : List Char) : Option ℚ :=
  let s2 := scan_sign (s.dropWhile isspace)
  let ip := s2.2.takeWhile is_dec_digit
  let r1 := s2.2.dropWhile is_dec_digit
  let fp := match r1 with
    | [] => []
    | c :: t => if c = '.' then t.takeWhile is_dec_digit else []
  let r2 := match r1 with
    | [] => []
    | c :: t => if c = '.' then t.dropWhile is_dec_digit else c :: t
  let ex : Int := match r2 with
    | [] => 0
    | c :: t =>
      if c = 'e' ∨ c = 'E' then
        if (scan_sign t).2.takeWhile is_dec_digit = [] then 0
        else if (scan_sign t).1 then
          -((digits_val 10 ((scan_sign t).2.takeWhile is_dec_digit) : Nat) : Int)
        else ((digits_val 10 ((scan_sign t).2.takeWhile is_dec_digit) : Nat) : Int)
      else 0
  if ip = [] ∧ fp = [] then none
  else
    some ((if s2.1 then -1 else 1) *
      ((digits_val 10 ip : ℚ) + (digits_val 10 fp : ℚ) / 10 ^ fp.length) * 10 ^ ex)

/-- Exact rational arithmetic as a `FloatOps`: values are printed as `%8f`
does and decimal literals are read without rounding. -/
@[reducible] def ratOps : FloatOps where
  F := ℚ
  ofInt := fun n => (n : ℚ)
  MIN_PROB := 2678636961808078 / 10 ^ 48
  add := fun x y => x + y
  div := fun x y => x / y
  gt := fun x y => decide (x > y)
  eq := fun x y => decide (x = y)
  fmt_8f := fun x => pad_left 8 (fmt_f6 x)
  scan_f := scan_decimal

/-- The binary exponent of the binary32 format for `q`: the largest `k` in
`[-126, 127]` with `2 ^ k ≤ |q|`, and `-126` for the subnormal range. -/
def f32_exponent (q : ℚ) : Int :=
  ((List.range 254).map fun (k : Nat) => (k : Int) - 126).foldl
    (fun e k => if (2 : ℚ) ^ k ≤ |q| then k else e) (-126)

/-- Rounding of a rational to the nearest binary32 value, ties to even: the
result has 24 significant bits at the exponent of `q`.  Overflow to infinity
is not modelled. -/
def round_f32 (q : ℚ) : ℚ :=
  (if q < 0 then -1 else 1) *
    ((round_half_even (|q| / 2 ^ (f32_exponent q - 23)) : ℚ) * 2 ^ (f32_exponent q - 23))

/-- Rational values with the rounding `rnd` applied to every result that is
stored into a `float`: `round_f32` gives binary32 arithmetic on finite
values.  Values are printed as `%8f` does; `sscanf` reads the decimal
literal exactly and stores its rounding. -/
@[reducible] def decOps (rnd : ℚ → ℚ) : FloatOps where
  F := ℚ
  ofInt := fun n => rnd (n : ℚ)
  MIN_PROB := rnd (2678636961808078 / 10 ^ 48)
  add := fun x y => rnd (x + y)
  div := fun x y => rnd (x / y)
  gt := fun x y => decide (x > y)
  eq := fun x y => decide (x = y)
  fmt_8f := fun x => pad_left 8 (fmt_f6 x)
  scan_f := fun s => (scan_decimal s).map rnd

/-! ## Nodes, trees and forests -/

/-- The struct `tc_node`, without the training bucket `data`. -/
structure tc_node (F : Type) where
  class_counts : List F
  class_probs : List F
  MAP_class : Int
  high : Option Int
  low : Option Int
  expandable : Int
  filter : tc_filter
  threshold : Int

/-- The function `tc_isleaf`. -/
def tc_isleaf {F : Type} (node : tc_node F) : Bool :=
  node.high.isNone

/-- The struct `tc_tree`: `nodes` holds the part of the node array that has
been written. -/
structure tc_tree (F : Type) where
  nodes : List (tc_node F)
  nnodes : Int

/-- The struct `tc_forest`, without the unused member `colormap`. -/
structure tc_forest (F : Type) where
  trees : List (tc_tree F)
  ntrees : Int
  nclasses : Int
  filterset : Int
  winsize : Int

/-! ## Line input (`tc_io.c`) -/

/-- The terminating character of a C string. -/
def NUL : Char := Char.ofNat 0

/-- A buffer of `BUF_SIZE` characters as `malloc` returns it: its content
`mem` is arbitrary. -/
def malloc_buf (mem : List Char) : List Char :=
  (mem ++ List.replicate BUF_SIZE NUL).take BUF_SIZE

/-- The C string held by a buffer: its content up to the first NUL. -/
def cstr (buf : List Char) : List Char :=
  buf.takeWhile fun c => c != NUL

/-- The `for` loop of `tc_getline_io`: `n` iterations are left, `i` is the
loop counter.  `fread` stores the next character of the stream in
`buffer[i]`, and stores nothing at the end of the stream.  The result is the
final counter, the buffer and the rest of the stream. -/
def getline_loop (delim : Char) : Nat → Nat → List Char → List Char →
    Nat × List Char × List Char
  | 0, i, buffer, io => (i, buffer, io)
  | n + 1, i, buffer, io =>
    let buffer2 := match io with
      | [] => buffer
      | ch :: _ => buffer.set i ch
    if buffer2.getD i NUL = delim ∨ buffer2.getD i NUL = '\n' then (i, buffer2, io.tail)
    else getline_loop delim n (i + 1) buffer2 io.tail

/-- The function `tc_getline_io`: status, buffer and rest of the stream.
When the loop ends without a delimiter the C code inspects the byte after the
buffer; it is taken to be no delimiter. -/
def tc_getline_io (io buffer : List Char) (buf_size : Nat) (delim : Char) :
    Int × List Char × List Char :=
  let r := getline_loop delim buf_size 0 buffer io
  if r.2.1.getD r.1 NUL ≠ delim ∧ r.2.1.getD r.1 NUL ≠ '\n' then (ERR, r.2.1, r.2.2)
  else (OK, r.2.1.set r.1 NUL, r.2.2)

/-- Ordinary characters of a format as directives. -/
def lits (s : List Char) : List ScanDir :=
  s.map ScanDir.lit

/-- The format `"%d "`. -/
def format_d : List ScanDir := [ScanDir.conv_d, ScanDir.ws]

/-- The format `"%i "`. -/
def format_i : List ScanDir := [ScanDir.conv_i, ScanDir.ws]

/-- The format `"nnodes %d\n"`. -/
def format_nnodes : List ScanDir :=
  lits ['n', 'n', 'o', 'd', 'e', 's'] ++ [ScanDir.ws, ScanDir.conv_d, ScanDir.ws]

/-- The format `"tree %d\n"`. -/
def format_tree : List ScanDir :=
  lits ['t', 'r', 'e', 'e'] ++ [ScanDir.ws, ScanDir.conv_d, ScanDir.ws]

/-- The format `"forest %i %i %i %i\n"`. -/
def format_forest : List ScanDir :=
  lits ['f', 'o', 'r', 'e', 's', 't'] ++
    [ScanDir.ws, ScanDir.conv_i, ScanDir.ws, ScanDir.conv_i, ScanDir.ws, ScanDir.conv_i,
     ScanDir.ws, ScanDir.conv_i, ScanDir.ws]

/-- The format `"colormap %i\n"`. -/
def format_colormap : List ScanDir :=
  lits ['c', 'o', 'l', 'o', 'r', 'm', 'a', 'p'] ++ [ScanDir.ws, ScanDir.conv_i, ScanDir.ws]

/-! ## Reading and writing filters, trees and forests -/

/-- The function `tc_write_filter`: status and the text written.  The
`fprintf` of the string fails only when it writes nothing. -/
def tc_write_filter (f : tc_filter) : Int × List Char :=
  if (tc_filter_tostring f).1 = ERR then (ERR, [])
  else if ((tc_filter_tostring f).2.length : Int) < 1 then (ERR, (tc_filter_tostring f).2)
  else (OK, (tc_filter_tostring f).2)

/-- The function `tc_read_filter`: status, the filter left in `*filter`
(previously `f`) and the rest of the stream. -/
def tc_read_filter (mem : List Char) (f : tc_filter) (io : List Char) :
    Int × tc_filter × List Char :=
  let g := tc_getline_io io (malloc_buf mem) BUF_SIZE ' '
  if g.1 = ERR then (ERR, f, g.2.2)
  else
    let vals := sscanf_ints filter_format (cstr g.2.1)
    if (vals.length : Int) ≠ 7 then (ERR, store_filter f vals, g.2.2)
    else (OK, store_filter f vals, g.2.2)

/-- The node a pointer refers to, if it lies in the written part of the array. -/
def tc_deref {F : Type} (tree : tc_tree F) (p : Option Int) : Option (tc_node F) :=
  match p with
  | none => none
  | some i => if 0 ≤ i then tree.nodes[i.toNat]? else none

/-- The struct `tc_colormap`. -/
structure tc_colormap where
  nclasses : Int
  colordepth : Int
  colormap : List (List pixel_t)

/-- Content of memory that was allocated and never written: the characters
of a fresh buffer, a node and a tree of a fresh node array or tree array, a
pixel of a fresh colormap row. -/
structure Uninit (F : Type) where
  mem : List Char
  node : tc_node F
  tree : tc_tree F
  pix : pixel_t

/-- The function `tc_init_node`. -/
def tc_init_node (M : FloatOps) : tc_node M.F :=
  { class_counts := List.replicate MAX_N_CLASSES (M.ofInt 0),
    class_probs := List.replicate MAX_N_CLASSES (M.ofInt 0),
    MAP_class := ERROR_CLASS, high := none, low := none, expandable := 1,
    filter := tc_init_filter, threshold := 0 }

/-- The function `tc_init_tree`. -/
def tc_init_tree (M : FloatOps) : tc_tree M.F :=
  { nodes := [tc_init_node M], nnodes := 1 }

/-- The function `tc_init_forest`; `none` is the status `ERR`, returned when
an allocation fails: a negative `ntrees` asks for more memory than exists. -/
def tc_init_forest (M : FloatOps) (ntrees filterset nclasses winsize : Int) :
    Option (tc_forest M.F) :=
  if ntrees < 0 then none
  else some { trees := List.replicate ntrees.toNat (tc_init_tree M), ntrees := ntrees,
              nclasses := nclasses, filterset := filterset, winsize := winsize }

/-- The tally loop of `tc_update_probs` over the classes `1 .. nclasses-1`:
total count, largest count and its index. -/
def tally_counts (M : FloatOps) (counts : List M.F) (nclasses : Int) : M.F × M.F × Int :=
  (List.range nclasses.toNat).tail.foldl
    (fun st i =>
      (M.add st.1 (counts.getD i (M.ofInt 0)),
        if M.gt (counts.getD i (M.ofInt 0)) st.2.1 then
          (counts.getD i (M.ofInt 0), (i : Int))
        else st.2))
    (M.ofInt 0, M.ofInt (-1), 0)

/-- The function `tc_update_probs`. -/
def tc_update_probs (M : FloatOps) (node : tc_node M.F) (nclasses : Int) : tc_node M.F :=
  let counts := node.class_counts.set 0 (M.ofInt 0)
  let t := tally_counts M counts nclasses
  { node with
    class_counts := counts,
    MAP_class := t.2.2,
    class_probs := (List.range nclasses.toNat).tail.foldl
      (fun probs i =>
        probs.set i (if M.eq t.1 (M.ofInt 0) then M.ofInt 0
          else M.div (counts.getD i (M.ofInt 0)) t.1))
      (node.class_probs.set 0 (M.ofInt 0)) }

/-- The text `fprintf` writes for the child indices of a node in
`tc_write_tree`: `0 0` for a leaf, the offsets of the two pointers from the
root otherwise. -/
def write_children {F : Type} (node : tc_node F) : List Char :=
  if tc_isleaf node then ['0', ' ', '0', ' ']
  else fmt_int (node.high.getD 0) ++ (' ' :: (fmt_int (node.low.getD 0) ++ [' ']))

/-- The text of the class counts of a node in `tc_write_tree`: `" %8f"` for
each class below `nclasses`. -/
def write_counts (M : FloatOps) (counts : List M.F) (nclasses : Int) : List Char :=
  ((List.range nclasses.toNat).map fun j =>
    ' ' :: M.fmt_8f (counts.getD j (M.ofInt 0))).flatten

/-- The record `tc_write_tree` writes for node `i`. -/
def write_node (M : FloatOps) (i : Nat) (node : tc_node M.F) (nclasses : Int) :
    List Char :=
  fmt_int (i : Int) ++ (' ' :: (fmt_int node.MAP_class ++ (' ' ::
    (fmt_int (to_int32 node.threshold) ++ (' ' :: (write_children node ++
    ((tc_write_filter node.filter).2 ++
    (write_counts M node.class_counts nclasses ++ ['\n']))))))))

/-- The node records of `tc_write_tree` from node `i` on, `n` of them. -/
def write_nodes (M : FloatOps) (U : Uninit M.F) (tree : tc_tree M.F) (nclasses : Int) :
    Nat → Nat → List Char
  | 0, _ => []
  | n + 1, i =>
    write_node M i (tree.nodes.getD i U.node) nclasses ++ write_nodes M U tree nclasses n (i + 1)

/-- The function `tc_write_tree`: status and the text written. -/
def tc_write_tree (M : FloatOps) (U : Uninit M.F) (tree : tc_tree M.F) (nclasses : Int) :
    Int × List Char :=
  (OK, ['n', 'n', 'o', 'd', 'e', 's', ' '] ++ (fmt_int tree.nnodes ++
    ('\n' :: write_nodes M U tree nclasses tree.nnodes.toNat 0)))

/-- The tree blocks of `tc_write_forest` from tree `i` on, `n` of them. -/
def write_trees (M : FloatOps) (U : Uninit M.F) (forest : tc_forest M.F) :
    Nat → Nat → List Char
  | 0, _ => []
  | n + 1, i =>
    ['\n', 't', 'r', 'e', 'e', ' '] ++ (fmt_int (i : Int) ++ ('\n' ::
      ((tc_write_tree M U (forest.trees.getD i U.tree) forest.nclasses).2 ++
        write_trees M U forest n (i + 1))))

/-- One row of the colormap block: `"%d "` for each channel, then a newline. -/
def write_color_row (row : List pixel_t) (colordepth : Int) : List Char :=
  ((List.range colordepth.toNat).map fun j =>
    fmt_int ((row.getD j 0).val : Int) ++ [' ']).flatten ++ ['\n']

/-- The colormap block of `tc_write_forest`. -/
def write_colormap (map : tc_colormap) (nclasses : Int) : List Char :=
  ['\n', 'c', 'o', 'l', 'o', 'r', 'm', 'a', 'p', ' '] ++ (fmt_int map.colordepth ++
    ('\n' :: ((List.range nclasses.toNat).map fun i =>
      write_color_row (map.colormap.getD i []) map.colordepth).flatten))

/-- The header line `"forest %i %i %i %i\n"` of `tc_write_forest`. -/
def write_header {F : Type} (forest : tc_forest F) : List Char :=
  ['f', 'o', 'r', 'e', 's', 't', ' '] ++ (fmt_int forest.ntrees ++ (' ' ::
    (fmt_int forest.filterset ++ (' ' :: (fmt_int forest.nclasses ++ (' ' ::
    (fmt_int forest.winsize ++ ['\n'])))))))

/-- The colormap block of `tc_write_forest`, written when `colormap` is not
`NULL`. -/
def write_colormap_opt (colormap : Option tc_colormap) (nclasses : Int) : List Char :=
  match colormap with
  | none => []
  | some map => write_colormap map nclasses

/-- The function `tc_write_forest` on a non-`NULL` forest and file: status
and the text written; `colormap` is `none` for `NULL`. -/
def tc_write_forest (M : FloatOps) (U : Uninit M.F) (forest : tc_forest M.F)
    (colormap : Option tc_colormap) : Int × List Char :=
  (OK, write_header forest ++ (write_trees M U forest forest.ntrees.toNat 0 ++
    write_colormap_opt colormap forest.nclasses))

/-- One integer field of a node record in `tc_read_tree`: a `tc_getline_io`
up to a blank and an `sscanf` with `"%d "`.  The result is the value, the
buffer and the rest of the stream, or `none` when either call fails. -/
def read_field_d (io buffer : List Char) : Option (Int × List Char × List Char) :=
  if (tc_getline_io io buffer BUF_SIZE ' ').1 ≠ OK then none
  else
    match sscanf_ints format_d (cstr (tc_getline_io io buffer BUF_SIZE ' ').2.1) with
    | [v] => some (v, (tc_getline_io io buffer BUF_SIZE ' ').2.1,
        (tc_getline_io io buffer BUF_SIZE ' ').2.2)
    | _ => none

/-- The loop of `tc_read_tree` over the class counts of a node: `n` counts
are left, `j` is the loop counter.  The delimiter is a blank except for the
last count, which is read through to the newline. -/
def read_counts (M : FloatOps) (nclasses : Int) :
    Nat → Nat → List M.F → List Char → List Char →
    Option (List M.F × List Char × List Char)
  | 0, _, counts, buffer, io => some (counts, buffer, io)
  | n + 1, j, counts, buffer, io =>
    if (tc_getline_io io buffer BUF_SIZE
        (if (j : Int) = nclasses - 1 then '\n' else ' ')).1 ≠ OK then none
    else
      match M.scan_f (cstr (tc_getline_io io buffer BUF_SIZE
          (if (j : Int) = nclasses - 1 then '\n' else ' ')).2.1) with
      | none => none
      | some v =>
        read_counts M nclasses n (j + 1) (counts.set j v)
          (tc_getline_io io buffer BUF_SIZE
            (if (j : Int) = nclasses - 1 then '\n' else ' ')).2.1
          (tc_getline_io io buffer BUF_SIZE
            (if (j : Int) = nclasses - 1 then '\n' else ' ')).2.2

/-- The loop of `tc_read_tree` that zeroes the counts from `nclasses` on. -/
def zero_counts (M : FloatOps) (counts : List M.F) (nclasses : Int) : List M.F :=
  (List.range MAX_N_CLASSES).foldl
    (fun cs (j : Nat) => if nclasses ≤ (j : Int) then cs.set j (M.ofInt 0) else cs) counts

/-- The pointers `tc_read_tree` stores for the indices read: a leaf when
`highind` is 0. -/
def read_children (highind lowind : Int) : Option Int × Option Int :=
  if highind = 0 then (none, none) else (some highind, some lowind)

/-- The body of the node loop of `tc_read_tree` for node `i`, whose memory
held `old`.  The result is the node, the buffer and the rest of the stream;
`none` stands for the return of `ERR`. -/
def read_node (M : FloatOps) (mem : List Char) (nclasses : Int) (i : Nat)
    (old : tc_node M.F) (buffer io : List Char) :
    Option (tc_node M.F × List Char × List Char) :=
  match read_field_d io buffer with
  | none => none
  | some (my_index, b1, io1) =>
    if (i : Int) ≠ my_index then none
    else
      match read_field_d io1 b1 with
      | none => none
      | some (MAP_class, b2, io2) =>
        match read_field_d io2 b2 with
        | none => none
        | some (threshold, b3, io3) =>
          match read_field_d io3 b3 with
          | none => none
          | some (highind, b4, io4) =>
            match read_field_d io4 b4 with
            | none => none
            | some (lowind, b5, io5) =>
              if (tc_read_filter mem old.filter io5).1 ≠ OK then none
              else
                match read_counts M nclasses nclasses.toNat 0 old.class_counts b5
                    (tc_read_filter mem old.filter io5).2.2 with
                | none => none
                | some (counts, b6, io6) =>
                  some (tc_update_probs M
                    { old with
                      threshold := threshold, MAP_class := MAP_class,
                      high := (read_children highind lowind).1,
                      low := (read_children highind lowind).2,
                      filter := (tc_read_filter mem old.filter io5).2.1,
                      class_counts := zero_counts M counts nclasses } nclasses, b6, io6)

/-- The node loop of `tc_read_tree`: `n` nodes are left, `i` is the loop
counter, `nodes` the node array. -/
def read_nodes (M : FloatOps) (U : Uninit M.F) (nclasses : Int) :
    Nat → Nat → List (tc_node M.F) → List Char → List Char →
    Option (List (tc_node M.F) × List Char)
  | 0, _, nodes, _, io => some (nodes, io)
  | n + 1, i, nodes, buffer, io =>
    match read_node M U.mem nclasses i (nodes.getD i U.node) buffer io with
    | none => none
    | some (node, b, io2) =>
      read_nodes M U nclasses n (i + 1)
        (if i < nodes.length then nodes.set i node else nodes ++ [node]) b io2

/-- The function `tc_read_tree` on the tree `tree`: the tree read and the
rest of the stream; `none` stands for the return of `ERR`.  The number of
nodes is not compared with `MAX_TREE_NODES`: the nodes read are stored one
after the other. -/
def tc_read_tree (M : FloatOps) (U : Uninit M.F) (tree : tc_tree M.F) (io : List Char)
    (nclasses : Int) : Option (tc_tree M.F × List Char) :=
  if (tc_getline_io io (malloc_buf U.mem) BUF_SIZE '\n').1 ≠ OK then none
  else
    match sscanf_ints format_nnodes
        (cstr (tc_getline_io io (malloc_buf U.mem) BUF_SIZE '\n').2.1) with
    | [nnodes] =>
      match read_nodes M U nclasses nnodes.toNat 0 tree.nodes
          (tc_getline_io io (malloc_buf U.mem) BUF_SIZE '\n').2.1
          (tc_getline_io io (malloc_buf U.mem) BUF_SIZE '\n').2.2 with
      | none => none
      | some (nodes, io2) => some ({ nodes := nodes, nnodes := nnodes }, io2)
    | _ => none

/-- The tree loop of `tc_read_forest`: `n` trees are left, `i` is the loop
counter, `trees` the tree array.  A line is skipped, the line `tree <i>` is
read and compared with the counter, then the tree is read. -/
def read_trees (M : FloatOps) (U : Uninit M.F) (nclasses : Int) :
    Nat → Nat → List (tc_tree M.F) → List Char → List Char →
    Option (List (tc_tree M.F) × List Char × List Char)
  | 0, _, trees, buffer, io => some (trees, buffer, io)
  | n + 1, i, trees, buffer, io =>
    if Int.land (tc_getline_io io buffer BUF_SIZE '\n').1
        (tc_getline_io (tc_getline_io io buffer BUF_SIZE '\n').2.2
          (tc_getline_io io buffer BUF_SIZE '\n').2.1 BUF_SIZE '\n').1 = ERR then none
    else
      match sscanf_ints format_tree
          (cstr (tc_getline_io (tc_getline_io io buffer BUF_SIZE '\n').2.2
            (tc_getline_io io buffer BUF_SIZE '\n').2.1 BUF_SIZE '\n').2.1) with
      | [my_index] =>
        if (i : Int) ≠ my_index then none
        else
          match tc_read_tree M U (trees.getD i U.tree)
              (tc_getline_io (tc_getline_io io buffer BUF_SIZE '\n').2.2
                (tc_getline_io io buffer BUF_SIZE '\n').2.1 BUF_SIZE '\n').2.2 nclasses with
          | none => none
          | some (tree, io2) =>
            read_trees M U nclasses n (i + 1) (trees.set i tree)
              (tc_getline_io (tc_getline_io io buffer BUF_SIZE '\n').2.2
                (tc_getline_io io buffer BUF_SIZE '\n').2.1 BUF_SIZE '\n').2.1 io2
      | _ => none

/-- The function `tc_init_colormap`: row 0 is the unlabeled class. -/
def tc_init_colormap (pix : pixel_t) (nchans : Int) : tc_colormap :=
  { nclasses := 1, colordepth := nchans,
    colormap := List.replicate nchans.toNat 0 ::
      List.replicate (MAX_N_CLASSES - 1) (List.replicate nchans.toNat pix) }

/-- The conversion of an `int` to `pixel_t`. -/
def int_to_pixel (v : Int) : pixel_t :=
  Fin.ofNat (v % 256).toNat

/-- The channel loop of the colormap part of `tc_read_forest`. -/
def read_color_row : Nat → Nat → List pixel_t → List Char → List Char →
    Option (List pixel_t × List Char × List Char)
  | 0, _, row, buffer, io => some (row, buffer, io)
  | n + 1, j, row, buffer, io =>
    if (tc_getline_io io buffer BUF_SIZE ' ').1 = ERR then none
    else
      match sscanf_ints format_i (cstr (tc_getline_io io buffer BUF_SIZE ' ').2.1) with
      | [tmp] =>
        read_color_row n (j + 1) (row.set j (int_to_pixel tmp))
          (tc_getline_io io buffer BUF_SIZE ' ').2.1 (tc_getline_io io buffer BUF_SIZE ' ').2.2
      | _ => none

/-- The class loop of the colormap part of `tc_read_forest`: after the
channels of a row the rest of the line has to be empty. -/
def read_color_rows : Nat → Nat → tc_colormap → List Char → List Char →
    Option (tc_colormap × List Char × List Char)
  | 0, _, map, buffer, io => some (map, buffer, io)
  | n + 1, i, map, buffer, io =>
    match read_color_row map.colordepth.toNat 0 (map.colormap.getD i []) buffer io with
    | none => none
    | some (row, b, io2) =>
      if (tc_getline_io io2 b BUF_SIZE '\n').1 = ERR ∨
          (tc_getline_io io2 b BUF_SIZE '\n').2.1.getD 0 NUL ≠ NUL then none
      else
        read_color_rows n (i + 1)
          { map with colormap := map.colormap.set i row, nclasses := map.nclasses + 1 }
          (tc_getline_io io2 b BUF_SIZE '\n').2.1 (tc_getline_io io2 b BUF_SIZE '\n').2.2

/-- The colormap part of `tc_read_forest`, entered with the buffer and the
stream left by the tree loop: `none` stands for the return of `ERR`,
`some none` for a stream without colormap. -/
def read_colormap (pix : pixel_t) (nclasses : Int) (buffer io : List Char) :
    Option (Option tc_colormap) :=
  if Int.land (tc_getline_io io buffer BUF_SIZE '\n').1
      (tc_getline_io (tc_getline_io io buffer BUF_SIZE '\n').2.2
        (tc_getline_io io buffer BUF_SIZE '\n').2.1 BUF_SIZE '\n').1 = OK then
    match sscanf_ints format_colormap
        (cstr (tc_getline_io (tc_getline_io io buffer BUF_SIZE '\n').2.2
          (tc_getline_io io buffer BUF_SIZE '\n').2.1 BUF_SIZE '\n').2.1) with
    | [colordepth] =>
      match read_color_rows nclasses.toNat 0 (tc_init_colormap pix colordepth)
          (tc_getline_io (tc_getline_io io buffer BUF_SIZE '\n').2.2
            (tc_getline_io io buffer BUF_SIZE '\n').2.1 BUF_SIZE '\n').2.1
          (tc_getline_io (tc_getline_io io buffer BUF_SIZE '\n').2.2
            (tc_getline_io io buffer BUF_SIZE '\n').2.1 BUF_SIZE '\n').2.2 with
      | none => none
      | some (map, _, _) => some (some map)
    | _ => some none
  else some none

/-- The function `tc_read_forest`: the forest and the colormap read; `none`
stands for the return of `ERR`. -/
def tc_read_forest (M : FloatOps) (U : Uninit M.F) (io : List Char) :
    Option (tc_forest M.F × Option tc_colormap) :=
  if (tc_getline_io io (malloc_buf U.mem) BUF_SIZE '\n').1 = ERR then none
  else
    match sscanf_ints format_forest
        (cstr (tc_getline_io io (malloc_buf U.mem) BUF_SIZE '\n').2.1) with
    | [ntrees, filterset, nclasses, winsize] =>
      match tc_init_forest M ntrees filterset nclasses winsize with
      | none => none
      | some forest =>
        match read_trees M U forest.nclasses forest.ntrees.toNat 0 forest.trees
            (tc_getline_io io (malloc_buf U.mem) BUF_SIZE '\n').2.1
            (tc_getline_io io (malloc_buf U.mem) BUF_SIZE '\n').2.2 with
        | none => none
        | some (trees, b, io2) =>
          match read_colormap U.pix forest.nclasses b io2 with
          | none => none
          | some map => some ({ forest with trees := trees }, map)
    | _ => none

/-! ## Growing a forest (`tc_filter.c`, `tc_train.c`)

The values returned by `rand()` are a list consumed from the front.  Of the
trainer only the effect on the tree structure is modelled: which split wins
depends on the data set and is left open. -/

def TC_FILTERSET_POINTS : Int := 0
def TC_FILTERSET_RATIOS : Int := 1
def TC_FILTERSET_RECTANGLES : Int := 2
def TC_FILTER_NFUNCTIONS : Int := 6
def MIN_THRESH : Int := -255
def N_THRESH : Int := 512

/-- The functions `infm` and `supm` of `tc_filter.c`. -/
def infm (a b : Int) : Int := if a ≤ b then a else b

def supm (a b : Int) : Int := if a ≥ b then a else b

/-- The `do ... while` loop of `tc_randomize_filter` that draws a function
other than `TC_FILTER_RECT`: the function and the unused random values, or
`none` when the values run out. -/
def pick_function : List Int → Option (Int × List Int)
  | [] => none
  | r :: rs =>
    if Int.tmod r TC_FILTER_NFUNCTIONS ≠ TC_FILTER_RAW ∧
        Int.tmod r TC_FILTER_NFUNCTIONS ≠ TC_FILTER_SUM ∧
        Int.tmod r TC_FILTER_NFUNCTIONS ≠ TC_FILTER_DIFF ∧
        Int.tmod r TC_FILTER_NFUNCTIONS ≠ TC_FILTER_ABS ∧
        Int.tmod r TC_FILTER_NFUNCTIONS ≠ TC_FILTER_RATIO then pick_function rs
    else some (Int.tmod r TC_FILTER_NFUNCTIONS, rs)

/-- The channels drawn by the points and ratios families. -/
def pick_channels (rands : List Int) (chans crosschannel : Int) :
    Option (Int × Int × List Int) :=
  match rands with
  | [] => none
  | r1 :: rs =>
    if crosschannel ≠ 0 then
      match rs with
      | [] => none
      | r2 :: rs2 => some (Int.tmod r1 chans, Int.tmod r2 chans, rs2)
    else some (Int.tmod r1 chans, Int.tmod r1 chans, rs)

/-- The function `tc_randomize_filter`: status, the filter left in `*filter`
(previously `filter`) and the unused random values; `none` when the random
values run out. -/
def tc_randomize_filter (rands : List Int) (filter : tc_filter)
    (chans filterset winsize crosschannel : Int) : Option (Int × tc_filter × List Int) :=
  if filterset = TC_FILTERSET_POINTS then
    match pick_channels rands chans crosschannel with
    | none => none
    | some (chanA, chanB, rs) =>
      match pick_function rs with
      | none => none
      | some (function, rs2) =>
        match rs2 with
        | a :: b :: c :: d :: rest =>
          some (OK, { function := function,
                      rowA := Int.tmod a winsize - Int.tdiv winsize 2,
                      colA := Int.tmod c winsize - Int.tdiv winsize 2, chanA := chanA,
                      rowB := Int.tmod b winsize - Int.tdiv winsize 2,
                      colB := Int.tmod d winsize - Int.tdiv winsize 2, chanB := chanB }, rest)
        | _ => none
  else if filterset = TC_FILTERSET_RATIOS then
    match pick_channels rands chans crosschannel with
    | none => none
    | some (chanA, chanB, rs2) =>
      match rs2 with
      | a :: b :: c :: d :: rest =>
        some (OK, { function := TC_FILTER_RATIO,
                    rowA := Int.tmod a winsize - Int.tdiv winsize 2,
                    colA := Int.tmod c winsize - Int.tdiv winsize 2, chanA := chanA,
                    rowB := Int.tmod b winsize - Int.tdiv winsize 2,
                    colB := Int.tmod d winsize - Int.tdiv winsize 2, chanB := chanB }, rest)
      | _ => none
  else if filterset = TC_FILTERSET_RECTANGLES then
    if crosschannel ≠ 0 then some (ERR, filter, rands)
    else
      match rands with
      | ch :: a :: b :: c :: d :: rest =>
        some (OK, { function := TC_FILTER_RECT,
                    rowA := infm (Int.tmod a (winsize * 2) - (Int.tdiv winsize 2 * 2 - 1))
                      (Int.tmod b (winsize * 2) - (Int.tdiv winsize 2 * 2 - 1)),
                    colA := infm (Int.tmod c (winsize * 2) - (Int.tdiv winsize 2 * 2 - 1))
                      (Int.tmod d (winsize * 2) - (Int.tdiv winsize 2 * 2 - 1)),
                    chanA := Int.tmod ch chans,
                    rowB := supm (Int.tmod a (winsize * 2) - (Int.tdiv winsize 2 * 2 - 1))
                      (Int.tmod b (winsize * 2) - (Int.tdiv winsize 2 * 2 - 1)),
                    colB := supm (Int.tmod c (winsize * 2) - (Int.tdiv winsize 2 * 2 - 1))
                      (Int.tmod d (winsize * 2) - (Int.tdiv winsize 2 * 2 - 1)),
                    chanB := Int.tmod ch chans }, rest)
      | _ => none
  else some (ERR, filter, rands)

/-- The function `index_to_threshold`. -/
def index_to_threshold (thresh_ind min : Int) : Int :=
  thresh_ind + min

/-- The tree after `tc_grow` installed a split on node `n` (previously
`node`): the node receives filter and threshold, and two fresh leaves are
appended as its low and high child. -/
def split_node (M : FloatOps) (t : tc_tree M.F) (n : Nat) (node : tc_node M.F)
    (flt : tc_filter) (thr : Int) : tc_tree M.F :=
  { nodes := t.nodes.set n { node with threshold := thr, filter := flt,
                                        low := some t.nnodes, high := some (t.nnodes + 1) } ++
      [tc_init_node M, tc_init_node M],
    nnodes := t.nnodes + 2 }

/-- What one pass of `tc_grow` may do to a tree.  The candidate filter of a
trainer is an uninitialised struct `f0` handed to `tc_randomize_filter`,
whose status is ignored; the threshold of a split is `index_to_threshold` of
an index the threshold loop visits. -/
inductive tree_grows (M : FloatOps) : tc_tree M.F → tc_tree M.F → Prop where
  /-- The tree is full, or `tc_grow` returned before reaching it. -/
  | unchanged (t : tc_tree M.F) : tree_grows M t t
  /-- No trainer found a valid split: the node is marked. -/
  | unexpandable (t : tc_tree M.F) (n : Nat) (node : tc_node M.F) :
      t.nodes[n]? = some node →
      tree_grows M t { t with nodes := t.nodes.set n { node with expandable := 0 } }
  /-- The winning split is installed. -/
  | split (t : tc_tree M.F) (n : Nat) (node : tc_node M.F) (rands rest : List Int)
      (f0 flt : tc_filter) (chans filterset winsize crosschannel status thresh_ind : Int) :
      ¬ t.nnodes ≥ MAX_TREE_NODES - 2 →
      t.nodes[n]? = some node →
      (∀ r ∈ rands, 0 ≤ r ∧ r ≤ 2147483647) →
      filter_ints f0 →
      0 < chans → is_int chans → 0 < winsize → is_int (winsize * 2) →
      tc_randomize_filter rands f0 chans filterset winsize crosschannel =
        some (status, flt, rest) →
      1 ≤ thresh_ind → thresh_ind < N_THRESH - 1 →
      tree_grows M t (split_node M t n node flt (index_to_threshold thresh_ind MIN_THRESH))

/-- Two nodes that differ at most in class counts, class probabilities and
MAP class, the members `tc_tally_classes` writes; the MAP class is a C `int`. -/
def same_split {F : Type} (a b : tc_node F) : Prop :=
  b.threshold = a.threshold ∧ b.filter = a.filter ∧ b.high = a.high ∧ b.low = a.low ∧
    b.expandable = a.expandable ∧ is_int b.MAP_class

/-- What `tc_tally_classes` may do to a tree. -/
def tree_tallied {F : Type} (a b : tc_tree F) : Prop :=
  b.nnodes = a.nnodes ∧ List.Forall₂ same_split a.nodes b.nodes

/-- The forests the trainer builds: `tc_init_forest` with a class count the
data set can have, followed by passes of `tc_grow` and of `tc_tally_classes`. -/
inductive Built (M : FloatOps) : tc_forest M.F → Prop where
  | init (ntrees filterset nclasses winsize : Int) (forest : tc_forest M.F) :
      is_int ntrees → is_int filterset → is_int winsize →
      0 ≤ nclasses → nclasses ≤ MAX_N_CLASSES →
      tc_init_forest M ntrees filterset nclasses winsize = some forest →
      Built M forest
  | grow (forest : tc_forest M.F) (trees : List (tc_tree M.F)) :
      Built M forest → List.Forall₂ (tree_grows M) forest.trees trees →
      Built M { forest with trees := trees }
  | tally (forest : tc_forest M.F) (trees : List (tc_tree M.F)) :
      Built M forest → List.Forall₂ tree_tallied forest.trees trees →
      Built M { forest with trees := trees }

/-- Node `n` has the threshold, filter, leaf status and child pointers of
node `m`. -/
def node_match {F : Type} (m n : tc_node F) : Prop :=
  n.threshold = m.threshold ∧ n.filter = m.filter ∧ tc_isleaf n = tc_isleaf m ∧
    n.high = m.high ∧ n.low = m.low

/-- Tree `t` has the node count of tree `s` and node by node the same
threshold, filter, leaf status and child pointers. -/
def tree_match {F : Type} (s t : tc_tree F) : Prop :=
  t.nnodes = s.nnodes ∧ List.Forall₂ node_match s.nodes t.nodes

/-- The structure of a forest `b` agrees with that of `a`: same header
values, and tree by tree the same node count and node by node the same
threshold, filter, leaf status and child pointers. -/
def same_forest_structure {F : Type} (a b : tc_forest F) : Prop :=
  b.ntrees = a.ntrees ∧ b.filterset = a.filterset ∧ b.nclasses = a.nclasses ∧
    b.winsize = a.winsize ∧ List.Forall₂ tree_match a.trees b.trees

/-- Every class count of node `n` from class 1 below `nclasses` is the value
`sscanf` reads from the text `fprintf` writes with `%8f` for that count of
node `m`. -/
def counts_reread (M : FloatOps) (nclasses : Int) (m n : tc_node M.F) : Prop :=
  ∀ j : Nat, 1 ≤ j → (j : Int) < nclasses →
    M.scan_f (M.fmt_8f (m.class_counts.getD j (M.ofInt 0))) =
      some (n.class_counts.getD j (M.ofInt 0))

/-- The value `tc_update_probs` stores in `class_probs[i]` for a class `i`
from 1 below `nclasses`, given the counts it tallies. -/
def update_prob (M : FloatOps) (counts : List M.F) (nclasses : Int) (i : Nat) : M.F :=
  if M.eq (tally_counts M counts nclasses).1 (M.ofInt 0) then M.ofInt 0
  else M.div (counts.getD i (M.ofInt 0)) (tally_counts M counts nclasses).1

/-- The class probabilities of the node are those `tc_update_probs` computes
from its class counts: zero for class 0 and `update_prob` for the classes
from 1 below `nclasses`. -/
def probs_updated (M : FloatOps) (nclasses : Int) (node : tc_node M.F) : Prop :=
  node.class_probs.getD 0 (M.ofInt 0) = M.ofInt 0 ∧
    ∀ i : Nat, 1 ≤ i → (i : Int) < nclasses →
      node.class_probs.getD i (M.ofInt 0) = update_prob M node.class_counts nclasses i

/-- The two class arrays of the node have at least `nclasses` entries, as
the arrays of `MAX_N_CLASSES` entries do for every forest that can be
classified. -/
def node_room {F : Type} (nclasses : Int) (node : tc_node F) : Prop :=
  nclasses.toNat ≤ node.class_counts.length ∧ nclasses.toNat ≤ node.class_probs.length

/-- Node `n` decides as node `m` does in `tc_forest_classify`: same filter,
threshold and child pointers, and the same class probabilities below
`nclasses`. -/
def same_decision (M : FloatOps) (nclasses : Int) (m n : tc_node M.F) : Prop :=
  n.threshold = m.threshold ∧ n.filter = m.filter ∧ n.high = m.high ∧ n.low = m.low ∧
    ∀ i : Nat, (i : Int) < nclasses →
      n.class_probs.getD i (M.ofInt 0) = m.class_probs.getD i (M.ofInt 0)

/-- Forest `b` decides as forest `a`: same tree and class counts and, tree by
tree and node by node, the same decision. -/
def same_decisions (M : FloatOps) (a b : tc_forest M.F) : Prop :=
  b.ntrees = a.ntrees ∧ b.nclasses = a.nclasses ∧
    List.Forall₂ (fun s t => List.Forall₂ (same_decision M a.nclasses) s.nodes t.nodes)
      a.trees b.trees

/-- Tree `t` holds, node by node, the counts `sscanf` reads from the texts
written for tree `s`, and the probabilities `tc_update_probs` computes from
them. -/
def tree_reread (M : FloatOps) (U : Uninit M.F) (nclasses : Int) (s t : tc_tree M.F) : Prop :=
  ∀ k, k < s.nodes.length →
    counts_reread M nclasses (s.nodes.getD k U.node) (t.nodes.getD k U.node) ∧
      probs_updated M nclasses (t.nodes.getD k U.node)

/-- Every class count of the forest from class 1 on is read back exactly
from the text `%8f` writes for it: the count is a binary32 value with at
most six decimals. -/
def counts_exact (M : FloatOps) (forest : tc_forest M.F) : Prop :=
  ∀ tree ∈ forest.trees, ∀ node ∈ tree.nodes, ∀ j : Nat, 1 ≤ j → (j : Int) < forest.nclasses →
    M.scan_f (M.fmt_8f (node.class_counts.getD j (M.ofInt 0))) =
      some (node.class_counts.getD j (M.ofInt 0))

/-- The class probabilities of every node of the forest are those
`tc_update_probs` computes from its counts, as after `tc_tally_classes`. -/
def forest_tallied (M : FloatOps) (forest : tc_forest M.F) : Prop :=
  ∀ tree ∈ forest.trees, ∀ node ∈ tree.nodes, probs_updated M forest.nclasses node

/-- No character of the text is a newline or NUL. -/
def line_chars (s : List Char) : Prop :=
  ∀ c ∈ s, c ≠ '\n' ∧ c ≠ NUL

/-- No character of the text is a blank, a newline or NUL. -/
def plain_chars (s : List Char) : Prop :=
  ∀ c ∈ s, c ≠ ' ' ∧ c ≠ '\n' ∧ c ≠ NUL

/-- A text that `tc_getline_io` can return as one field: shorter than the
buffer and free of blanks, newlines and NUL. -/
def plain_text (s : List Char) : Prop :=
  s.length < BUF_SIZE ∧ ∀ c ∈ s, c ≠ ' ' ∧ c ≠ '\n' ∧ c ≠ NUL

/-- The value prints with `%8f` as one field that `sscanf` reads back as a
number; so do all finite values of IEEE arithmetic. -/
def printable (M : FloatOps) (x : M.F) : Prop :=
  plain_text (M.fmt_8f x) ∧ (M.scan_f (M.fmt_8f x)).isSome = true

instance (s : List Char) : Decidable (plain_text s) := by
  unfold plain_text
  infer_instance

instance (M : FloatOps) (x : M.F) : Decidable (printable M x) := by
  unfold printable
  infer_instance

/-- Every class count of every node of the forest is printable. -/
def counts_printable (M : FloatOps) (forest : tc_forest M.F) : Prop :=
  ∀ tree ∈ forest.trees, ∀ node ∈ tree.nodes, ∀ j : Nat, (j : Int) < forest.nclasses →
    printable M (node.class_counts.getD j (M.ofInt 0))

/-- Every filter of the forest has a text that fits the string buffer of
`tc_filter_tostring`. -/
def filters_fit {F : Type} (forest : tc_forest F) : Prop :=
  ∀ tree ∈ forest.trees, ∀ node ∈ tree.nodes,
    (tc_filter_text node.filter).length ≤ TC_FILTER_STRINGSIZE - 1

/-- The texts `ts` each preceded by a blank, followed by `rest`: the shape
of the class counts at the end of a node record. -/
def counts_stream (ts : List (List Char)) (rest : List Char) : List Char :=
  match ts with
  | [] => rest
  | t :: ts2 => ' ' :: (t ++ counts_stream ts2 rest)

/-- The members of a node that `tc_write_tree` prints as integers are C
`int` values, the text of the filter fits its buffer, and the node is either
a leaf without children or has two children of which the high one is not the
root. -/
def node_ok {F : Type} (node : tc_node F) : Prop :=
  is_int node.MAP_class ∧ is_int node.threshold ∧ filter_ints node.filter ∧
    (tc_filter_text node.filter).length ≤ TC_FILTER_STRINGSIZE - 1 ∧
    ((node.high = none ∧ node.low = none) ∨
      ∃ h l, node.high = some h ∧ node.low = some l ∧ h ≠ 0 ∧ is_int h ∧ is_int l)

/-- The node count of the tree is the number of nodes written, a C `int`
and at least 1, and every node is `node_ok`. -/
def tree_ok {F : Type} (tree : tc_tree F) : Prop :=
  tree.nnodes = (tree.nodes.length : Int) ∧ is_int tree.nnodes ∧ 1 ≤ tree.nnodes ∧
    ∀ node ∈ tree.nodes, node_ok node

/-- The header values of the forest are C `int` values, the class count is
within the capacity of the class arrays, the tree count is the number of
trees, and every tree is `tree_ok`. -/
def forest_ok {F : Type} (forest : tc_forest F) : Prop :=
  is_int forest.ntrees ∧ is_int forest.filterset ∧ is_int forest.nclasses ∧
    is_int forest.winsize ∧ 0 ≤ forest.nclasses ∧ forest.nclasses ≤ MAX_N_CLASSES ∧
    forest.ntrees = (forest.trees.length : Int) ∧ ∀ tree ∈ forest.trees, tree_ok tree

/-- As `node_ok`, without the bound on the text of the filter. -/
def node_shape {F : Type} (node : tc_node F) : Prop :=
  is_int node.MAP_class ∧ is_int node.threshold ∧ filter_ints node.filter ∧
    ((node.high = none ∧ node.low = none) ∨
      ∃ h l, node.high = some h ∧ node.low = some l ∧ h ≠ 0 ∧ is_int h ∧ is_int l)

/-- As `tree_ok`, without the bound on the texts of the filters. -/
def tree_shape {F : Type} (tree : tc_tree F) : Prop :=
  tree.nnodes = (tree.nodes.length : Int) ∧ is_int tree.nnodes ∧ 1 ≤ tree.nnodes ∧
    ∀ node ∈ tree.nodes, node_shape node

/-- As `forest_ok`, without the bound on the texts of the filters. -/
def forest_shape {F : Type} (forest : tc_forest F) : Prop :=
  is_int forest.ntrees ∧ is_int forest.filterset ∧ is_int forest.nclasses ∧
    is_int forest.winsize ∧ 0 ≤ forest.nclasses ∧ forest.nclasses ≤ MAX_N_CLASSES ∧
    forest.ntrees = (forest.trees.length : Int) ∧ ∀ tree ∈ forest.trees, tree_shape tree

/-- The line buffer of `tc_read_forest` holds the start of a line that is
not the colormap header. -/
def stale_head (b : List Char) : Prop :=
  ∃ c tail, b = c :: tail ∧ c ≠ '\n' ∧ c ≠ NUL ∧ c ≠ 'c'

/-- Outcome of walking one tree from a node. -/
inductive WalkResult (F : Type) where
  /-- A leaf was reached. -/
  | leaf (node : tc_node F)
  /-- A filter evaluation returned `ERR`. -/
  | nodata
  /-- The fuel ran out or a pointer left the node array. -/
  | stuck

/-- The `while (1)` loop of `tc_forest_classify`, started at the node `p`
points to. -/
def tc_walk {F : Type} (tree : tc_tree F) (image : tc_image) (r c : Int) :
    Nat → Option Int → WalkResult F
  | 0, _ => WalkResult.stuck
  | fuel + 1, p =>
    match tc_deref tree p with
    | none => WalkResult.stuck
    | some node =>
      if tc_isleaf node then WalkResult.leaf node
      else
        let res := tc_filter_pixel node.filter image r c 0
        if res.1 = ERR then WalkResult.nodata
        else if res.2 > node.threshold then tc_walk tree image r c fuel node.high
        else tc_walk tree image r c fuel node.low

/-- The statement `class_probs[i] += node->class_probs[i]` for `i < nclasses`. -/
def accumulate_probs (M : FloatOps) (probs : List M.F) (leaf : tc_node M.F) : List M.F :=
  (List.range probs.length).map fun i =>
    M.add (probs.getD i (M.ofInt 0)) (leaf.class_probs.getD i (M.ofInt 0))

/-- State of the MAP loop of `tc_forest_classify`. -/
structure MapState (F : Type) where
  best_prob : F
  pixel_class : Int
  class_probs : List F

/-- One iteration of the MAP loop of `tc_forest_classify`. -/
def map_step (M : FloatOps) (ntrees : Int) (st : MapState M.F) (i : Nat) : MapState M.F :=
  let p := st.class_probs.getD i (M.ofInt 0)
  if M.gt p (M.ofInt 0) && M.gt p M.MIN_PROB then
    let q := M.div p (M.ofInt ntrees)
    let probs := st.class_probs.set i q
    if M.gt q st.best_prob then
      { best_prob := q, pixel_class := (i : Int), class_probs := probs }
    else
      { st with class_probs := probs }
  else st

/-- The MAP loop of `tc_forest_classify`. -/
def map_loop (M : FloatOps) (ntrees : Int) (probs : List M.F) : MapState M.F :=
  (List.range probs.length).foldl (map_step M ntrees)
    { best_prob := M.ofInt (-1), pixel_class := ERROR_CLASS, class_probs := probs }

/-- The final copy `class_probs_out[i] = class_probs[i]` for `i < nclasses`. -/
def copy_probs {F : Type} (out : List F) (probs : List F) : List F :=
  probs ++ out.drop probs.length

/-- What `tc_forest_classify` leaves behind. -/
structure ClassifyResult (F : Type) where
  status : Int
  pixel_class : Int
  class_probs_out : Option (List F)

/-- The loop over the trees of `tc_forest_classify`: `t` is the loop counter,
`n` the number of iterations left, `probs` the local array `class_probs`.
The result is `none` when the behaviour is not defined, `some (Sum.inl res)`
when the function returned from inside the loop and `some (Sum.inr probs)`
when the loop ran to its end. -/
def classify_trees (M : FloatOps) (fuel : Nat) (forest : tc_forest M.F)
    (image : tc_image) (r c : Int) (out : Option (List M.F)) :
    Nat → Nat → List M.F → Option (ClassifyResult M.F ⊕ List M.F)
  | _, 0, probs => some (Sum.inr probs)
  | t, n + 1, probs =>
    match forest.trees[t]? with
    | none => none
    | some tree =>
      match tc_walk tree image r c fuel (some 0) with
      | WalkResult.stuck => none
      | WalkResult.nodata =>
        some (Sum.inl { status := OK, pixel_class := ERROR_CLASS, class_probs_out := out })
      | WalkResult.leaf node =>
        classify_trees M fuel forest image r c out (t + 1) n (accumulate_probs M probs node)

/-- The function `tc_forest_classify` on non-`NULL` `forest`, `image` and
`pixel_class`.  `class_probs_out` is the caller's buffer (`none` for `NULL`);
`fuel` bounds the length of each tree walk.  A forest with more than
`MAX_N_CLASSES` classes overruns the local array and has no defined result. -/
def tc_forest_classify (M : FloatOps) (fuel : Nat) (forest : tc_forest M.F)
    (image : tc_image) (r c : Int) (class_probs_out : Option (List M.F)) :
    Option (ClassifyResult M.F) :=
  if forest.nclasses > MAX_N_CLASSES then none
  else
    let probs0 := List.replicate forest.nclasses.toNat (M.ofInt 0)
    match classify_trees M fuel forest image r c class_probs_out 0 forest.ntrees.toNat probs0 with
    | none => none
    | some (Sum.inl res) => some res
    | some (Sum.inr probs) =>
      let st := map_loop M forest.ntrees probs
      some { status := OK, pixel_class := st.pixel_class,
             class_probs_out := class_probs_out.map fun buf => copy_probs buf st.class_probs }

/-- The outcomes of two tree walks agree: both reach leaves that decide the
same way, or both meet a failing filter, or both are stuck. -/
def walks_agree (M : FloatOps) (nclasses : Int) (a b : WalkResult M.F) : Prop :=
  match a, b with
  | WalkResult.leaf m, WalkResult.leaf n => same_decision M nclasses m n
  | WalkResult.nodata, WalkResult.nodata => True
  | WalkResult.stuck, WalkResult.stuck => True
  | _, _ => False

/-- Invariant of the MAP loop of `tc_forest_classify` before iteration `k`,
in terms of the array `probs` the loop started from: entries below `k` that
exceed `MIN_PROB` have been divided by `ntrees`, the others are untouched, and
the class chosen so far is the lowest index below `k` whose divided entry is
maximal among those exceeding `MIN_PROB`. -/
def MapInv (M : FloatOps) (ntrees : Int) (probs : List M.F) (k : Nat)
    (st : MapState M.F) : Prop :=
  st.class_probs.length = probs.length ∧
  (∀ i, st.class_probs.getD i (M.ofInt 0) =
    if i < k ∧ M.gt (probs.getD i (M.ofInt 0)) M.MIN_PROB = true then
      M.div (probs.getD i (M.ofInt 0)) (M.ofInt ntrees)
    else probs.getD i (M.ofInt 0)) ∧
  ((st.pixel_class = ERROR_CLASS ∧ st.best_prob = M.ofInt (-1) ∧
      ∀ i, i < k → M.gt (probs.getD i (M.ofInt 0)) M.MIN_PROB = false) ∨
   (∃ m, m < k ∧ st.pixel_class = (m : Int) ∧
      st.best_prob = M.div (probs.getD m (M.ofInt 0)) (M.ofInt ntrees) ∧
      M.gt (probs.getD m (M.ofInt 0)) M.MIN_PROB = true ∧
      (∀ j, j < k → M.gt (probs.getD j (M.ofInt 0)) M.MIN_PROB = true →
        M.gt (M.div (probs.getD j (M.ofInt 0)) (M.ofInt ntrees))
          (M.div (probs.getD m (M.ofInt 0)) (M.ofInt ntrees)) = false) ∧
      (∀ j, j < m → M.gt (probs.getD j (M.ofInt 0)) M.MIN_PROB = true →
        M.gt (M.div (probs.getD m (M.ofInt 0)) (M.ofInt ntrees))
          (M.div (probs.getD j (M.ofInt 0)) (M.ofInt ntrees)) = true)))

/-- The sum over the trees, in forest order and starting from `0.0`, of the
entry `class_probs[i]` of the reached leaf. -/
def leaf_sum (M : FloatOps) (leaves : List (tc_node M.F)) (i : Nat) : M.F :=
  leaves.foldl (fun acc lf => M.add acc (lf.class_probs.getD i (M.ofInt 0))) (M.ofInt 0)

/-! ## Training data and the final tally (`tc_dataset.h`, `tc_train.c`) -/

/-- The struct `tc_datum`.  The member `next` is kept apart, in the array of
links of the training state. -/
structure tc_datum where
  image : Int
  r : Int
  c : Int
  label : Int
deriving DecidableEq, Repr

/-- The struct `tc_dataset`. -/
structure tc_dataset where
  ndata : Int
  nimages : Int
  nclasses : Int
  data : List tc_datum
  images : List tc_image
  labels : List tc_image
  represented : List Int
  classes : List (List Int)

/-- The statement `node->class_counts[label] += 1.0f / ((float) represented[label])`
of `tc_tally_classes` on the node at index `i`. -/
def tally_add (M : FloatOps) (ds : tc_dataset) (label : Int) (nodes : List (tc_node M.F))
    (i : Nat) : List (tc_node M.F) :=
  match nodes[i]? with
  | none => nodes
  | some node =>
    nodes.set i { node with
      class_counts := node.class_counts.set label.toNat
        (M.add (node.class_counts.getD label.toNat (M.ofInt 0))
          (M.div (M.ofInt 1) (M.ofInt (ds.represented.getD label.toNat 0)))) }

/-- The loop `while (!tc_isleaf(node))` of `tc_tally_classes` for one datum in
one tree, at the node of index `i`: a failing filter ends the walk, otherwise
the child is entered and its count incremented.  The result is `none` when
the fuel runs out or a pointer leaves the node array. -/
def tally_walk (M : FloatOps) (ds : tc_dataset) (image : tc_image) (d : tc_datum) :
    Nat → Nat → List (tc_node M.F) → Option (List (tc_node M.F))
  | 0, _, _ => none
  | fuel + 1, i, nodes =>
    match nodes[i]? with
    | none => none
    | some node =>
      if tc_isleaf node then some nodes
      else if (tc_filter_pixel node.filter image d.r d.c 0).1 = ERR then some nodes
      else
        match (if (tc_filter_pixel node.filter image d.r d.c 0).2 > node.threshold
          then node.high else node.low) with
        | none => none
        | some j =>
          if j < 0 then none
          else tally_walk M ds image d fuel j.toNat (tally_add M ds d.label nodes j.toNat)

/-- The body of the loop over the trees in `tc_tally_classes` for one datum:
the count of the root is incremented and the datum walks down the tree. -/
def tally_datum (M : FloatOps) (ds : tc_dataset) (d : tc_datum) (tree : tc_tree M.F) :
    Option (tc_tree M.F) :=
  match ds.images[d.image.toNat]? with
  | none => none
  | some image =>
    (tally_walk M ds image d (tree.nodes.length + 1) 0
      (tally_add M ds d.label tree.nodes 0)).map fun nodes => { tree with nodes := nodes }

/-- The first loop of `tc_tally_classes` on one node: counts and probabilities
of the classes below `nclasses` are set to zero. -/
def tally_zero (M : FloatOps) (nclasses : Int) (node : tc_node M.F) : tc_node M.F :=
  { node with
    class_counts := (List.range nclasses.toNat).foldl
      (fun cs c => cs.set c (M.ofInt 0)) node.class_counts,
    class_probs := (List.range nclasses.toNat).foldl
      (fun ps c => ps.set c (M.ofInt 0)) node.class_probs }

/-- The loop of `tc_tally_classes` over the data: every datum is propagated
through every tree. -/
def tally_data (M : FloatOps) (ds : tc_dataset) :
    List tc_datum → List (tc_tree M.F) → Option (List (tc_tree M.F))
  | [], trees => some trees
  | d :: rest, trees =>
    match trees.mapM (tally_datum M ds d) with
    | none => none
    | some trees2 => tally_data M ds rest trees2

/-- The function `tc_tally_classes` on a forest whose trees hold `nnodes`
nodes each: zero the counts, propagate the first `ndata` data, update the
probabilities.  The result is `none` when a walk is not defined. -/
def tc_tally_classes (M : FloatOps) (ds : tc_dataset) (forest : tc_forest M.F) :
    Option (tc_forest M.F) :=
  match tally_data M ds (ds.data.take ds.ndata.toNat)
      (forest.trees.map fun tree =>
        { tree with nodes := tree.nodes.map (tally_zero M forest.nclasses) }) with
  | none => none
  | some trees =>
    some { forest with
      trees := trees.map fun tree =>
        { tree with nodes := tree.nodes.map fun node =>
            tc_update_probs M node forest.nclasses } }

/-! ## Training: buckets and growing (`tc_train.c`)

Every node owns a bucket of training data, a list linked through the member
`next` of `tc_datum` and anchored in the member `data` of `tc_node`.  A
pointer to a datum is its index in the array `dataset->data`.  The links of
a tree are kept in `NodeLinks`: `next[i]` is `data[i].next` and `heads[n]` is
`nodes[n].data`.  The component `dropped` is a ghost: it records the data a
failing filter removed from the buckets. -/

def TC_TRAIN_MIN_SPLIT : Int := 32
def TC_TRAIN_MIN_SAMPLES : Int := 32

/-- The links of the data and the bucket anchors of the nodes of one tree. -/
structure NodeLinks where
  next : List (Option Nat)
  heads : List (Option Nat)
  dropped : List Nat

/-- The loop `while (i != NULL) { i = i->next; ... }` over a bucket: the data
visited, or `none` when the loop has not ended after `fuel` iterations. -/
def tc_bucket (next : List (Option Nat)) : Nat → Option Nat → Option (List Nat)
  | _, none => some []
  | 0, some _ => none
  | fuel + 1, some i => (tc_bucket next fuel (next.getD i none)).map fun l => i :: l

/-- The loop of `tc_propagate_node` over the bucket of `node`, at the datum
`cur`: a datum whose filter evaluation fails is left out, the others are
pushed on the bucket of the high or of the low child.  The result is `none`
when a pointer is not valid or the loop has not ended after `fuel`
iterations. -/
def propagate_loop {F : Type} (ds : tc_dataset) (node : tc_node F) :
    Nat → Option Nat → NodeLinks → Option NodeLinks
  | _, none, st => some st
  | 0, some _, _ => none
  | fuel + 1, some cur, st =>
    match ds.data[cur]? with
    | none => none
    | some d =>
      match ds.images[d.image.toNat]? with
      | none => none
      | some image =>
        if (tc_filter_pixel node.filter image d.r d.c 0).1 ≠ ERR then
          match (if (tc_filter_pixel node.filter image d.r d.c 0).2 > node.threshold
            then node.high else node.low) with
          | none => none
          | some j =>
            if j < 0 ∨ (st.heads.length : Int) ≤ j ∨ st.next.length ≤ cur then none
            else
              propagate_loop ds node fuel (st.next.getD cur none)
                { st with next := st.next.set cur (st.heads.getD j.toNat none),
                          heads := st.heads.set j.toNat (some cur) }
        else
          propagate_loop ds node fuel (st.next.getD cur none)
            { st with dropped := st.dropped ++ [cur] }

/-- The function `tc_propagate_node` on the node of index `n`.  A bucket of
distinct data has at most as many elements as there are data, which bounds
the loop. -/
def tc_propagate_node {F : Type} (ds : tc_dataset) (tree : tc_tree F) (n : Nat)
    (st : NodeLinks) : Option NodeLinks :=
  match tree.nodes[n]? with
  | none => none
  | some node =>
    if ¬ tc_isleaf node ∧ st.heads.getD n none ≠ none then
      (propagate_loop ds node (st.next.length + 1) (st.heads.getD n none) st).map
        fun st2 => { st2 with heads := st2.heads.set n none }
    else some st

/-- One iteration of the loop of `tc_next_expansion`: the size of the bucket
of node `n` is counted and compared with the best size so far. -/
def next_expansion_step {F : Type} (tree : tc_tree F) (st : NodeLinks)
    (acc : Option (Option Nat × Int)) (n : Nat) : Option (Option Nat × Int) :=
  match acc with
  | none => none
  | some (best_node, best_size) =>
    match tc_bucket st.next (st.next.length + 1) (st.heads.getD n none) with
    | none => none
    | some b =>
      match tree.nodes[n]? with
      | none => none
      | some node =>
        if node.expandable ≠ 0 ∧ (b.length : Int) > best_size then
          some (some n, (b.length : Int))
        else some (best_node, best_size)

/-- The function `tc_next_expansion`: the index of the expandable node with
the largest bucket of more than `TC_TRAIN_MIN_SAMPLES` data, `some none` for
`NULL`, and `none` when a size loop does not end. -/
def tc_next_expansion {F : Type} (tree : tc_tree F) (st : NodeLinks) : Option (Option Nat) :=
  ((List.range tree.nnodes.toNat).foldl (next_expansion_step tree st)
    (some (none, TC_TRAIN_MIN_SAMPLES))).map fun r => r.1

/-- What the body of the loop of `tc_grow` did for one tree. -/
inductive GrowOutcome (F : Type) where
  /-- The tree is full: `continue`. -/
  | full
  /-- No node can be expanded: `return ERR`. -/
  | stop
  /-- The body ran to its end, leaving the tree and the links given. -/
  | grown (tree : tc_tree F) (st : NodeLinks)

/-- The body of the loop of `tc_grow` for one tree.  The argument `search`
stands for the parallel split search and the reduce step on the bucket of
the node to expand: the filter and threshold of the winning trainer, or
`none` when no trainer is valid.  The result is `none` when a loop does not
end or a pointer is not valid. -/
def tc_grow_tree (M : FloatOps) (search : List Nat → Option (tc_filter × Int))
    (ds : tc_dataset) (tree : tc_tree M.F) (st : NodeLinks) : Option (GrowOutcome M.F) :=
  if tree.nnodes ≥ MAX_TREE_NODES - 2 then some GrowOutcome.full
  else
    match tc_next_expansion tree st with
    | none => none
    | some none => some GrowOutcome.stop
    | some (some n) =>
      match tree.nodes[n]?, tc_bucket st.next (st.next.length + 1) (st.heads.getD n none) with
      | some node, some subset =>
        match search subset with
        | none =>
          some (GrowOutcome.grown
            { tree with nodes := tree.nodes.set n { node with expandable := 0 } } st)
        | some (flt, thr) =>
          (tc_propagate_node ds (split_node M tree n node flt thr) n
            { st with heads := st.heads ++ [none, none] }).map fun st2 =>
              GrowOutcome.grown (split_node M tree n node flt thr) st2
      | _, _ => none
/-- The memory that training changes: the forest, the links of the data, the
bucket anchors of the nodes of every tree and, as a ghost, the data dropped
from the buckets of every tree. -/
structure TrainState (F : Type) where
  forest : tc_forest F
  next : List (Option Nat)
  heads : List (List (Option Nat))
  dropped : List (List Nat)

/-- The loop over the trees of `tc_grow`: `t` is the loop counter, `k` the
number of iterations left, `search t` the outcome of the split search for
tree `t`.  The result is the status returned and the memory left. -/
def grow_loop (M : FloatOps) (search : Nat → List Nat → Option (tc_filter × Int))
    (ds : tc_dataset) : Nat → Nat → TrainState M.F → Option (Int × TrainState M.F)
  | 0, _, s => some (OK, s)
  | k + 1, t, s =>
    match s.forest.trees[t]?, s.heads[t]?, s.dropped[t]? with
    | some tree, some hd, some dr =>
      match tc_grow_tree M (search t) ds tree { next := s.next, heads := hd, dropped := dr } with
      | none => none
      | some GrowOutcome.full => grow_loop M search ds k (t + 1) s
      | some GrowOutcome.stop => some (ERR, s)
      | some (GrowOutcome.grown tree2 st2) =>
        grow_loop M search ds k (t + 1)
          { forest := { s.forest with trees := s.forest.trees.set t tree2 },
            next := st2.next, heads := s.heads.set t st2.heads,
            dropped := s.dropped.set t st2.dropped }
    | _, _, _ => none

/-- The function `tc_grow` on a non-`NULL` data set and forest. -/
def tc_grow (M : FloatOps) (search : Nat → List Nat → Option (tc_filter × Int))
    (ds : tc_dataset) (s : TrainState M.F) : Option (Int × TrainState M.F) :=
  grow_loop M search ds s.forest.ntrees.toNat 0 s

/-- The conversion `(int) x` of a `float`: truncation toward zero. -/
def float_to_int (x : ℚ) : Int :=
  Int.tdiv x.num (x.den : Int)

/-- The tree `tc_assign_evenly` computes for datum `i`:
`(int)((float)(i*ntrees)/(float)(ndata))`, with the rounding `rnd` of the
values stored into a `float`. -/
def assign_index (rnd : ℚ → ℚ) (ntrees ndata : Int) (i : Nat) : Int :=
  float_to_int (rnd (rnd (((i : Int) * ntrees : Int) : ℚ) / rnd (ndata : ℚ)))

/-- One iteration of the first loop of `tc_assign_evenly`: datum `i` is pushed
on the bucket of the root of its tree.  The result is `none` when the tree
computed is not a tree of the forest. -/
def assign_step {F : Type} (rnd : ℚ → ℚ) (ntrees ndata : Int)
    (acc : Option (TrainState F)) (i : Nat) : Option (TrainState F) :=
  match acc with
  | none => none
  | some s =>
    if assign_index rnd ntrees ndata i < 0 ∨ ntrees ≤ assign_index rnd ntrees ndata i ∨
        s.next.length ≤ i then none
    else
      match s.heads[(assign_index rnd ntrees ndata i).toNat]? with
      | none => none
      | some hd =>
        some { s with
          next := s.next.set i (hd.getD 0 none),
          heads := s.heads.set (assign_index rnd ntrees ndata i).toNat (hd.set 0 (some i)) }

/-- The function `tc_assign_evenly`: the first loop pushes every datum on a
root bucket, the second counts the size of every root bucket.  The result is
`none` when a tree index is out of range or a size loop does not end. -/
def tc_assign_evenly {F : Type} (rnd : ℚ → ℚ) (ds : tc_dataset) (s : TrainState F) :
    Option (TrainState F) :=
  match (List.range ds.ndata.toNat).foldl (assign_step rnd s.forest.ntrees ds.ndata) (some s) with
  | none => none
  | some s2 =>
    if (List.range s2.forest.ntrees.toNat).all fun t =>
        (tc_bucket s2.next (s2.next.length + 1) ((s2.heads.getD t []).getD 0 none)).isSome then
      some s2
    else none

/-- The memory when training starts: the forest of `tc_init_forest`, whose
roots have empty buckets, and the links `next0` of the data set. -/
def train_start {F : Type} (forest : tc_forest F) (next0 : List (Option Nat)) : TrainState F :=
  { forest := forest, next := next0, heads := forest.trees.map fun _ => [none],
    dropped := forest.trees.map fun _ => [] }

/-- The memory states of the trainer: `tc_init_forest` and `tc_assign_evenly`
on a data set of `ndata` data, followed by passes of `tc_grow` with any
outcome of the split searches. -/
inductive Trained (M : FloatOps) (rnd : ℚ → ℚ) (ds : tc_dataset) : TrainState M.F → Prop where
  | start (ntrees filterset nclasses winsize : Int) (forest : tc_forest M.F)
      (next0 : List (Option Nat)) (s : TrainState M.F) :
      tc_init_forest M ntrees filterset nclasses winsize = some forest →
      next0.length = ds.ndata.toNat →
      tc_assign_evenly rnd ds (train_start forest next0) = some s →
      Trained M rnd ds s
  | grow (s s2 : TrainState M.F) (search : Nat → List Nat → Option (tc_filter × Int))
      (status : Int) :
      Trained M rnd ds s → tc_grow M search ds s = some (status, s2) →
      Trained M rnd ds s2

/-- The trees of the trainer: `tc_init_tree` followed by passes of the body
of `tc_grow`, with any links and any outcome of the split searches. -/
inductive Grown (M : FloatOps) : tc_tree M.F → Prop where
  | init : Grown M (tc_init_tree M)
  | step (tree tree2 : tc_tree M.F) (search : List Nat → Option (tc_filter × Int))
      (ds : tc_dataset) (st st2 : NodeLinks) :
      Grown M tree → tc_grow_tree M search ds tree st = some (GrowOutcome.grown tree2 st2) →
      Grown M tree2
/-- The tree is well formed: the node count is the number of nodes written,
odd and at most 511, and every node has no child or both, the low child at
an index `l` above its own and the high child at `l + 1`, inside the tree. -/
def tree_wf {F : Type} (tree : tc_tree F) : Prop :=
  tree.nnodes = (tree.nodes.length : Int) ∧ tree.nnodes % 2 = 1 ∧ tree.nnodes ≤ 511 ∧
  ∀ (k : Nat) (node : tc_node F), tree.nodes[k]? = some node →
    (node.high = none ∧ node.low = none) ∨
    ∃ l : Int, node.low = some l ∧ node.high = some (l + 1) ∧ (k : Int) < l ∧
      l + 1 < tree.nnodes

/-- The bucket anchored at `p` is the `NULL`-terminated list of the data `L`:
`p` points to the first, the link of each datum to the one after it, and the
link of the last is `NULL`. -/
def is_list (next : List (Option Nat)) : Option Nat → List Nat → Prop
  | p, [] => p = none
  | p, i :: L => p = some i ∧ is_list next (next.getD i none) L

/-- Status and result of the filter of `node` at the pixel of datum `i`, as
`tc_propagate_node` evaluates it. -/
def datum_eval {F : Type} (ds : tc_dataset) (node : tc_node F) (i : Nat) : Int × Int :=
  match ds.data[i]? with
  | none => (ERR, 0)
  | some d =>
    match ds.images[d.image.toNat]? with
    | none => (ERR, 0)
    | some image => tc_filter_pixel node.filter image d.r d.c 0

/-- Datum `i` is dropped at `node`: the filter evaluation fails. -/
def goes_nowhere {F : Type} (ds : tc_dataset) (node : tc_node F) (i : Nat) : Bool :=
  decide ((datum_eval ds node i).1 = ERR)

/-- Datum `i` goes to the high child of `node`: the result exceeds the threshold. -/
def goes_high {F : Type} (ds : tc_dataset) (node : tc_node F) (i : Nat) : Bool :=
  decide ((datum_eval ds node i).1 ≠ ERR ∧ (datum_eval ds node i).2 > node.threshold)

/-- Datum `i` goes to the low child of `node`: the result is at most the threshold. -/
def goes_low {F : Type} (ds : tc_dataset) (node : tc_node F) (i : Nat) : Bool :=
  decide ((datum_eval ds node i).1 ≠ ERR ∧ (datum_eval ds node i).2 ≤ node.threshold)

/-- Datum `i` is a datum of the data set and its image is one of the images. -/
def datum_ok (ds : tc_dataset) (i : Nat) : Bool :=
  match ds.data[i]? with
  | none => false
  | some d => (ds.images[d.image.toNat]?).isSome

/-- Every datum of the list is a datum of the data set with a link and an
image. -/
def data_valid (ds : tc_dataset) (next : List (Option Nat)) (L : List Nat) : Prop :=
  ∀ i ∈ L, i < next.length ∧ datum_ok ds i = true

/-- Datum `i` is a datum of the data set that `tc_assign_evenly` puts on tree
`t` of a forest of `ntrees` trees. -/
def assigned (rnd : ℚ → ℚ) (ntrees : Int) (ds : tc_dataset) (t i : Nat) : Prop :=
  i < ds.ndata.toNat ∧ assign_index rnd ntrees ds.ndata i = (t : Int)

/-- The bucket of node `k` of tree `t` as the size loops of the trainer walk
it; empty when the walk does not end. -/
def bucket_of {F : Type} (s : TrainState F) (t k : Nat) : List Nat :=
  (tc_bucket s.next (s.next.length + 1) ((s.heads.getD t []).getD k none)).getD []

/-- The buckets of one tree: every node has an anchor, the anchors are the
heads of lists `B k` of data of the set `A` that are not dropped, every datum
of `A` is dropped or in a bucket, two buckets share no datum, and the bucket
of a node with children is empty. -/
def tree_inv {F : Type} (next hd : List (Option Nat)) (dr : List Nat) (tree : tc_tree F)
    (A : Nat → Prop) : Prop :=
  tree.nodes.length = hd.length ∧ tree.nnodes = (hd.length : Int) ∧
  ∃ B : Nat → List Nat,
    (∀ k, is_list next (hd.getD k none) (B k)) ∧
    (∀ k node, tree.nodes[k]? = some node → tc_isleaf node = false → B k = []) ∧
    (∀ k, ∀ i ∈ B k, A i ∧ i ∉ dr) ∧
    (∀ i, A i → i ∈ dr ∨ ∃ k, i ∈ B k) ∧
    (∀ k k2, k ≠ k2 → ∀ i ∈ B k, i ∉ B k2) ∧
    (∀ i ∈ dr, A i)

/-- The buckets of the forest: every datum has a link, every tree has anchors
and a list of dropped data, and the buckets of tree `t` hold the data
assigned to `t`. -/
def train_inv {F : Type} (rnd : ℚ → ℚ) (ds : tc_dataset) (s : TrainState F) : Prop :=
  s.next.length = ds.ndata.toNat ∧ s.forest.ntrees = (s.forest.trees.length : Int) ∧
  s.heads.length = s.forest.trees.length ∧ s.dropped.length = s.forest.trees.length ∧
  ∀ t tree hd dr, s.forest.trees[t]? = some tree → s.heads[t]? = some hd →
    s.dropped[t]? = some dr →
    tree_inv s.next hd dr tree (assigned rnd s.forest.ntrees ds t)

/-! ## Training: the split search (`tc_train.c`)

The arrays `counts` and `accum_counts` of `N_THRESH * nclasses` floats are
lists of one row of `N_THRESH` floats per class: the element
`label * N_THRESH + ind` is element `ind` of row `label`.  The arrays
`log_counts` and `accum_log_counts` are written and never read.  A `float`
is a rational number, and `rnd` rounds what is stored into a `float`. -/

/-- The function `get_threshold_index`. -/
def get_threshold_index (threshold min n : Int) : Int :=
  if (if threshold - min < 0 then 0 else threshold - min) ≥ n then n - 1
  else (if threshold - min < 0 then 0 else threshold - min)

/-- The first loop of `tc_split_search`: the largest of the counts
`represented[0 .. nclasses-1]`, as a `float`. -/
def max_represented (rnd : ℚ → ℚ) (ds : tc_dataset) : ℚ :=
  (List.range ds.nclasses.toNat).foldl
    (fun m i =>
      if rnd ((ds.represented.getD i 0 : Int) : ℚ) > m then
        rnd ((ds.represented.getD i 0 : Int) : ℚ)
      else m) 0

/-- The value `mass_scale[i]` of `tc_split_search`. -/
def mass_scale (rnd : ℚ → ℚ) (ds : tc_dataset) (i : Nat) : ℚ :=
  rnd (max_represented rnd ds / rnd ((ds.represented.getD i 0 : Int) : ℚ))

/-- The statement `counts[(label*N_THRESH)+((int) (result_ind))] += m`. -/
def counts_add (rnd : ℚ → ℚ) (counts : List (List ℚ)) (label ind : Nat) (m : ℚ) :
    List (List ℚ) :=
  counts.set label
    ((counts.getD label []).set ind (rnd ((counts.getD label []).getD ind 0 + m)))

/-- What datum `i` adds to the counts of the candidate filter: its label, the
index of its filter result and the mass of its label; `none` when the filter
evaluation fails.  The result of the filter is read only after a successful
call, which has written it. -/
def search_entry (rnd : ℚ → ℚ) (ds : tc_dataset) (candidate : tc_filter) (i : Nat) :
    Option (Nat × Nat × ℚ) :=
  match ds.data[i]? with
  | none => none
  | some d =>
    match ds.images[d.image.toNat]? with
    | none => none
    | some image =>
      if (tc_filter_pixel candidate image d.r d.c 0).1 ≠ ERR then
        some (d.label.toNat,
          (get_threshold_index (tc_filter_pixel candidate image d.r d.c 0).2
            MIN_THRESH N_THRESH).toNat,
          mass_scale rnd ds d.label.toNat)
      else none

/-- One iteration of the loop `while (d != NULL)` of `tc_split_search`. -/
def search_tally_step (rnd : ℚ → ℚ) (ds : tc_dataset) (candidate : tc_filter)
    (counts : List (List ℚ)) (i : Nat) : List (List ℚ) :=
  match search_entry rnd ds candidate i with
  | none => counts
  | some e => counts_add rnd counts e.1 e.2.1 e.2.2

/-- The inner loop that fills `accum_counts` for one class, after element 0. -/
def accumulate (rnd : ℚ → ℚ) : ℚ → List ℚ → List ℚ
  | _, [] => []
  | acc, x :: xs => rnd (x + acc) :: accumulate rnd (rnd (x + acc)) xs

/-- The row of `accum_counts` of one class. -/
def accum_row (rnd : ℚ → ℚ) : List ℚ → List ℚ
  | [] => []
  | x :: xs => x :: accumulate rnd x xs

/-- The array `accum_counts` for the candidate filter on the bucket `L`. -/
def accum_counts (rnd : ℚ → ℚ) (ds : tc_dataset) (candidate : tc_filter) (L : List Nat) :
    List (List ℚ) :=
  (L.foldl (search_tally_step rnd ds candidate)
    (List.replicate ds.nclasses.toNat (List.replicate N_THRESH.toNat 0))).map (accum_row rnd)

/-- The array `lowdist_class_cnts` at the threshold index `thresh_ind`. -/
def lowdist_class_cnts (accum : List (List ℚ)) (nclasses thresh_ind : Nat) : List Int :=
  (List.range nclasses).map fun i => float_to_int ((accum.getD i []).getD thresh_ind 0)

/-- The array `highdist_class_cnts` at the threshold index `thresh_ind`. -/
def highdist_class_cnts (rnd : ℚ → ℚ) (accum : List (List ℚ)) (nclasses thresh_ind : Nat) :
    List Int :=
  (List.range nclasses).map fun i =>
    float_to_int (rnd ((accum.getD i []).getD (N_THRESH.toNat - 1) 0 -
      rnd ((float_to_int ((accum.getD i []).getD thresh_ind 0) : Int) : ℚ)))

/-- The score arithmetic of `tc_split_search`: the value `-9e99` stored in
the `float` `best_score`, the score of a split computed from the two arrays
of class counts, and the comparison `>`. -/
structure ScoreOps where
  /-- The carrier of the scores. -/
  S : Type
  /-- The value of `best_score` after `tc_init_trainer`. -/
  init : S
  /-- The value of `split_score` for the arrays `lowdist_class_cnts` and
  `highdist_class_cnts`. -/
  score : List Int → List Int → S
  /-- The comparison `a > b`. -/
  gt : S → S → Bool

/-- The members of the struct `tc_trainer` that the search writes. -/
structure tc_trainer (S : Type) where
  best_score : S
  best_threshold : Int
  best_filter : tc_filter
  valid : Int

/-- The function `tc_init_trainer` on a non-`NULL` bucket. -/
def tc_init_trainer (sc : ScoreOps) : tc_trainer sc.S :=
  { best_score := sc.init, best_threshold := -1, best_filter := tc_init_filter, valid := 0 }

/-- One iteration of the loop over `thresh_ind` of `tc_split_search`. -/
def search_threshold_step (sc : ScoreOps) (rnd : ℚ → ℚ) (nclasses : Nat)
    (candidate : tc_filter) (accum : List (List ℚ)) (tr : tc_trainer sc.S)
    (thresh_ind : Nat) : tc_trainer sc.S :=
  if (lowdist_class_cnts accum nclasses thresh_ind).sum < TC_TRAIN_MIN_SPLIT ∨
      (highdist_class_cnts rnd accum nclasses thresh_ind).sum < TC_TRAIN_MIN_SPLIT then tr
  else if sc.gt (sc.score (lowdist_class_cnts accum nclasses thresh_ind)
      (highdist_class_cnts rnd accum nclasses thresh_ind)) tr.best_score then
    { best_score := sc.score (lowdist_class_cnts accum nclasses thresh_ind)
        (highdist_class_cnts rnd accum nclasses thresh_ind),
      best_threshold := index_to_threshold (thresh_ind : Int) MIN_THRESH,
      best_filter := candidate, valid := 1 }
  else tr

/-- One iteration of the loop over the candidate filters of
`tc_split_search`, for the filter that `tc_randomize_filter` has drawn. -/
def search_candidate_step (sc : ScoreOps) (rnd : ℚ → ℚ) (ds : tc_dataset) (L : List Nat)
    (tr : tc_trainer sc.S) (candidate : tc_filter) : tc_trainer sc.S :=
  (List.range' 1 (N_THRESH.toNat - 2)).foldl
    (search_threshold_step sc rnd ds.nclasses.toNat candidate
      (accum_counts rnd ds candidate L)) tr

/-- The functions `tc_init_trainer` and `tc_split_search` on the bucket `L`,
for the candidate filters drawn in the search. -/
def tc_split_search (sc : ScoreOps) (rnd : ℚ → ℚ) (ds : tc_dataset) (L : List Nat)
    (candidates : List tc_filter) : tc_trainer sc.S :=
  candidates.foldl (search_candidate_step sc rnd ds L) (tc_init_trainer sc)

/-- One iteration of the reduce step of `tc_grow`. -/
def reduce_step (sc : ScoreOps) (trainers : List (tc_trainer sc.S)) (winner i : Nat) : Nat :=
  match trainers[winner]?, trainers[i]? with
  | some w, some t =>
    if (w.valid = 0 ∧ t.valid ≠ 0) ∨
        (w.valid ≠ 0 ∧ t.valid ≠ 0 ∧ sc.gt t.best_score w.best_score = true) then i
    else winner
  | _, _ => winner

/-- The split search of `tc_grow` on the bucket `L`: one trainer per thread,
each with the candidate filters it draws, and the reduce step.  The result
is the filter and the threshold that `tc_grow` installs, `none` when the
winner is not valid; without a thread there is no winner to read. -/
def tc_search (sc : ScoreOps) (rnd : ℚ → ℚ) (ds : tc_dataset)
    (candidates : List (List tc_filter)) (L : List Nat) : Option (tc_filter × Int) :=
  match (candidates.map (tc_split_search sc rnd ds L))[
      (List.range candidates.length).foldl
        (reduce_step sc (candidates.map (tc_split_search sc rnd ds L))) 0]? with
  | none => none
  | some w => if w.valid = 0 then none else some (w.best_filter, w.best_threshold)

/-- The value of `total_low` of `tc_split_search` for the filter `flt` on the
bucket `L` at the threshold index `t`. -/
def total_low (rnd : ℚ → ℚ) (ds : tc_dataset) (flt : tc_filter) (L : List Nat) (t : Nat) : Int :=
  (lowdist_class_cnts (accum_counts rnd ds flt L) ds.nclasses.toNat t).sum

/-- The value of `total_high` of `tc_split_search` for the filter `flt` on the
bucket `L` at the threshold index `t`. -/
def total_high (rnd : ℚ → ℚ) (ds : tc_dataset) (flt : tc_filter) (L : List Nat) (t : Nat) :
    Int :=
  (highdist_class_cnts rnd (accum_counts rnd ds flt L) ds.nclasses.toNat t).sum

/-- The mass of datum `i` when its filter result is on the side `side` of the
split, 0 when it is not or when the filter evaluation fails. -/
def side_mass (rnd : ℚ → ℚ) (ds : tc_dataset) (flt : tc_filter) (side : Int → Bool)
    (i : Nat) : ℚ :=
  match ds.data[i]? with
  | none => 0
  | some d =>
    match ds.images[d.image.toNat]? with
    | none => 0
    | some image =>
      if (tc_filter_pixel flt image d.r d.c 0).1 ≠ ERR ∧
          side (tc_filter_pixel flt image d.r d.c 0).2 = true then
        mass_scale rnd ds d.label.toNat
      else 0

/-- The total weight of the data of `L` whose filter result is at most `thr`. -/
def weight_low (rnd : ℚ → ℚ) (ds : tc_dataset) (flt : tc_filter) (thr : Int)
    (L : List Nat) : ℚ :=
  (L.map (side_mass rnd ds flt fun r => decide (r ≤ thr))).sum

/-- The total weight of the data of `L` whose filter result is above `thr`. -/
def weight_high (rnd : ℚ → ℚ) (ds : tc_dataset) (flt : tc_filter) (thr : Int)
    (L : List Nat) : ℚ :=
  (L.map (side_mass rnd ds flt fun r => decide (r > thr))).sum

/-- The label of every datum is a class of the data set with a positive count
`represented`. -/
def labels_ok (ds : tc_dataset) : Prop :=
  ∀ d ∈ ds.data, 0 ≤ d.label ∧ d.label < ds.nclasses ∧
    0 < ds.represented.getD d.label.toNat 0

/-! ## Sampling a data set (`tc_dataset.c`)

The values that the calls of `rand()` return are a list `rands`; a loop that
asks for a value when none is left has the result `none`. -/

def TC_RANDOM_SAMPLING : Int := 0
def TC_BALANCED_SAMPLING : Int := 1

/-- The loop `while (!label)` of `tc_random_dataset` for one datum: the datum
accepted and the values of `rand()` left.  The label read is replaced by 0
when it is no class or, in balanced mode, not the current label, and the
loop goes on while the label is 0.  Every iteration takes a value of
`rands`, so that `fuel` iterations are enough when `fuel` is its length. -/
def draw_datum (sampling_method nimages : Int) (images labels : List tc_image)
    (classes : List (List Int)) (current_label : Int) :
    Nat → List Int → Option (tc_datum × List Int)
  | 0, _ => none
  | _, [] => none
  | fuel + 1, x :: rs =>
    if sampling_method = TC_BALANCED_SAMPLING ∧
        (classes.getD (Int.tmod x nimages).toNat []).getD current_label.toNat 0 = 0 then
      draw_datum sampling_method nimages images labels classes current_label fuel rs
    else
      match rs, images[(Int.tmod x nimages).toNat]?, labels[(Int.tmod x nimages).toNat]? with
      | y :: z :: rs2, some image, some limage =>
        if (if tc_get limage (Int.tmod y image.rows) (Int.tmod z image.cols) 0 ≥ MAX_N_CLASSES ∨
              (sampling_method = TC_BALANCED_SAMPLING ∧
                tc_get limage (Int.tmod y image.rows) (Int.tmod z image.cols) 0 ≠
                  current_label) then 0
            else tc_get limage (Int.tmod y image.rows) (Int.tmod z image.cols) 0) = 0 then
          draw_datum sampling_method nimages images labels classes current_label fuel rs2
        else
          some ({ image := Int.tmod x nimages, r := Int.tmod y image.rows,
                  c := Int.tmod z image.cols,
                  label :=
                    if tc_get limage (Int.tmod y image.rows) (Int.tmod z image.cols) 0 ≥
                          MAX_N_CLASSES ∨
                        (sampling_method = TC_BALANCED_SAMPLING ∧
                          tc_get limage (Int.tmod y image.rows) (Int.tmod z image.cols) 0 ≠
                            current_label) then 0
                    else tc_get limage (Int.tmod y image.rows) (Int.tmod z image.cols) 0 },
            rs2)
      | _, _, _ => none

/-- The variables of the sampling loop of `tc_random_dataset`. -/
structure SampleState where
  data : List tc_datum
  represented : List Int
  nclasses : Int
  current_label : Int

/-- The statements of the sampling loop after the datum `d` is accepted;
`K` is the number of classes of the colormap. -/
def accept_datum (sampling_method K : Int) (s : SampleState) (d : tc_datum) : SampleState :=
  { data := s.data ++ [d],
    represented := s.represented.set d.label.toNat (s.represented.getD d.label.toNat 0 + 1),
    nclasses := if d.label + 1 > s.nclasses then d.label + 1 else s.nclasses,
    current_label :=
      if sampling_method = TC_BALANCED_SAMPLING then
        if Int.tmod (s.current_label + 1) K = 0 then Int.tmod (s.current_label + 1) K + 1
        else Int.tmod (s.current_label + 1) K
      else s.current_label }

/-- The loop `for (i=0; i<ndata; i++)` of `tc_random_dataset` with `n`
iterations left. -/
def sample_loop (sampling_method nimages K : Int) (images labels : List tc_image)
    (classes : List (List Int)) : Nat → SampleState → List Int → Option SampleState
  | 0, s, _ => some s
  | n + 1, s, rands =>
    match draw_datum sampling_method nimages images labels classes s.current_label
        rands.length rands with
    | none => none
    | some (d, rs) =>
      sample_loop sampling_method nimages K images labels classes n
        (accept_datum sampling_method K s d) rs

/-- The variables when the sampling loop starts: no datum, the counts and the
class number of `tc_init_dataset`, and the current label 1. -/
def sample_start : SampleState :=
  { data := [], represented := List.replicate MAX_N_CLASSES 0, nclasses := 1,
    current_label := 1 }

/-- The function `tc_random_dataset` after the images are read and labelled:
`classes` are the class counts of the label images and `K` is the number of
classes of the colormap.  The data set of `tc_init_dataset` is filled with
`ndata` data. -/
def tc_random_dataset (images labels : List tc_image) (classes : List (List Int))
    (K nimages ndata sampling_method : Int) (rands : List Int) : Option tc_dataset :=
  (sample_loop sampling_method nimages K images labels classes ndata.toNat sample_start
    rands).map fun s =>
    { ndata := ndata, nimages := nimages, nclasses := s.nclasses, data := s.data,
      images := images, labels := labels, represented := s.represented, classes := classes }

/-- The variables of the sampling loop after `i` data were accepted in
balanced mode with a colormap of `m + 1` classes: datum `j` has the label
`1 + j mod m`, the current label is `1 + i mod m`, and class `k` of
`1 .. m` was accepted once in each of the `i / m` completed rounds and once
more when it is below the current label. -/
def balanced_inv (m i : Nat) (s : SampleState) : Prop :=
  s.data.length = i ∧
  (∀ j d, s.data[j]? = some d → d.label = 1 + ((j % m : Nat) : Int)) ∧
  s.current_label = 1 + ((i % m : Nat) : Int) ∧
  s.represented.length = MAX_N_CLASSES ∧
  ∀ k : Nat, 1 ≤ k → k ≤ m →
    s.represented.getD k 0 = ((i / m : Nat) : Int) + (if k < 1 + i % m then 1 else 0)

/-- The values `h` of three calls of `rand()` select an image that holds the
class `cur` and in it a pixel of the label `cur`, which is a class. -/
def is_hit (nimages : Int) (images labels : List tc_image) (classes : List (List Int))
    (cur : Int) (h : Int × Int × Int) : Bool :=
  match images[(Int.tmod h.1 nimages).toNat]?, labels[(Int.tmod h.1 nimages).toNat]? with
  | some image, some limage =>
    decide ((classes.getD (Int.tmod h.1 nimages).toNat []).getD cur.toNat 0 ≠ 0 ∧
      tc_get limage (Int.tmod h.2.1 image.rows) (Int.tmod h.2.2 image.cols) 0 = cur ∧
      cur < MAX_N_CLASSES)
  | _, _ => false

/-- Every triple of the list is a hit for the label that is current when it
is drawn: `1 + i mod m` for the first, when `i` data were accepted before. -/
def hits_ok (nimages : Int) (images labels : List tc_image) (classes : List (List Int))
    (m : Nat) : Nat → List (Int × Int × Int) → Bool
  | _, [] => true
  | i, h :: hs =>
    is_hit nimages images labels classes (1 + ((i % m : Nat) : Int)) h &&
      hits_ok nimages images labels classes m (i + 1) hs

/-- The values of `rand()` of a list of triples, in the order of the calls. -/
def hit_values : List (Int × Int × Int) → List Int
  | [] => []
  | h :: hs => h.1 :: h.2.1 :: h.2.2 :: hit_values hs

/-- The members `next` of the data after the sampling loop of
`tc_random_dataset`: iteration `i` stores `NULL` when `i == ndata-1` and the
address of datum `i + 1` otherwise. -/
def sample_links (ndata : Int) : List (Option Nat) :=
  (List.range ndata.toNat).map fun (i : Nat) =>
    if (i : Int) = ndata - 1 then none else some (i + 1)

/-- The largest label of the data, 0 when there is no datum. -/
def max_label (data : List tc_datum) : Int :=
  data.foldl (fun m d => if d.label > m then d.label else m) 0

/-- The variables of the sampling loop between two iterations: every datum
has a label of `1 .. MAX_N_CLASSES-1` read from its label image, and
`represented` and `nclasses` count and bound the labels. -/
def sample_inv (labels : List tc_image) (s : SampleState) : Prop :=
  (∀ d ∈ s.data, 1 ≤ d.label ∧ d.label ≤ (MAX_N_CLASSES : Int) - 1 ∧
    ∃ limage, labels[d.image.toNat]? = some limage ∧ d.label = tc_get limage d.r d.c 0) ∧
  s.represented.length = MAX_N_CLASSES ∧
  (∀ k : Nat, s.represented.getD k 0 =
    ((s.data.filter fun d => decide (d.label = (k : Int))).length : Int)) ∧
  s.nclasses = 1 + max_label s.data ∧
  s.represented.sum = (s.data.length : Int)

/-- The `while (1)` loop of `tc_find_leaf`, started at the node `p` points
to.  The result is `some p` for the pointer returned, `some none` for `NULL`,
and `none` when the fuel runs out or a pointer leaves the node array. -/
def find_leaf_loop {F : Type} (tree : tc_tree F) (image : tc_image) (r c : Int) :
    Nat → Option Int → Option (Option Int)
  | 0, _ => none
  | fuel + 1, p =>
    match tc_deref tree p with
    | none => none
    | some node =>
      if tc_isleaf node then some p
      else
        let res := tc_filter_pixel node.filter image r c 0
        if res.1 = ERR then some none
        else if res.2 > node.threshold then find_leaf_loop tree image r c fuel node.high
        else find_leaf_loop tree image r c fuel node.low

/-- The function `tc_find_leaf` on a non-`NULL` tree and image: the loop
starts at `&tree->nodes[0]`. -/
def tc_find_leaf {F : Type} (tree : tc_tree F) (image : tc_image) (r c : Int) (fuel : Nat) :
    Option (Option Int) :=
  find_leaf_loop tree image r c fuel (some 0)

/-- The nodes the variable `node` of the loop of `tc_find_leaf` points to, in
the order of the iterations. -/
def find_leaf_visited {F : Type} (tree : tc_tree F) (image : tc_image) (r c : Int) :
    Nat → Option Int → List (tc_node F)
  | 0, _ => []
  | fuel + 1, p =>
    match tc_deref tree p with
    | none => []
    | some node =>
      if tc_isleaf node then [node]
      else
        let res := tc_filter_pixel node.filter image r c 0
        if res.1 = ERR then [node]
        else if res.2 > node.threshold then
          node :: find_leaf_visited tree image r c fuel node.high
        else node :: find_leaf_visited tree image r c fuel node.low

/-! ## Concatenating forests (`tc_catforest.c`) -/

/-- The header line `"forest %i %i %i\n"` that `main` of `tc_catforest.c`
writes. -/
def cat_header (ntrees filterset nclasses : Int) : List Char :=
  ['f', 'o', 'r', 'e', 's', 't', ' '] ++ (fmt_int ntrees ++ (' ' ::
    (fmt_int filterset ++ (' ' :: (fmt_int nclasses ++ ['\n'])))))

/-- The inner loop of the output loops of `tc_catforest.c` over the trees of
one forest, from tree `j` on, `n` of them; `tree` is the running counter. -/
def cat_trees (M : FloatOps) (U : Uninit M.F) (forest : tc_forest M.F) (nclasses : Int) :
    Nat → Nat → Int → List Char
  | 0, _, _ => []
  | n + 1, j, tree =>
    ['\n', 't', 'r', 'e', 'e', ' '] ++ (fmt_int tree ++ ('\n' ::
      ((tc_write_tree M U (forest.trees.getD j U.tree) nclasses).2 ++
        cat_trees M U forest nclasses n (j + 1) (tree + 1))))

/-- The outer loop of the output loops of `tc_catforest.c` over the forests. -/
def cat_forests (M : FloatOps) (U : Uninit M.F) (nclasses : Int) :
    List (tc_forest M.F) → Int → List Char
  | [], _ => []
  | f :: fs, tree =>
    cat_trees M U f nclasses f.ntrees.toNat 0 tree ++
      cat_forests M U nclasses fs (tree + (f.ntrees.toNat : Int))

/-- The loops `master_colormap->colormap[i][j] = colormaps[n]->colormap[i][j]`
of `tc_catforest.c` for the rows `lo ≤ i < hi` and the channels below the
color depth of `src`, on the rows of the master list.  A row that
`tc_init_colormap` did not allocate is not written. -/
def cat_copy_rows (pix : pixel_t) (src : tc_colormap) (lo hi : Nat)
    (rows : List (List pixel_t)) : List (List pixel_t) :=
  (List.range' lo (hi - lo)).foldl (fun rows i =>
    rows.set i ((List.range src.colordepth.toNat).foldl
      (fun row j => row.set j ((src.colormap.getD i []).getD j pix)) (rows.getD i []))) rows

/-- The master list after the copy of the rows `lo ≤ i < hi` of `src`. -/
def cat_copy_colors (pix : pixel_t) (master src : tc_colormap) (lo hi : Nat) : tc_colormap :=
  { master with colormap := cat_copy_rows pix src lo hi master.colormap }

/-- The colormap part of the loading loop of `tc_catforest.c` for the first
forest. -/
def cat_first_colormap (pix : pixel_t) (ignorecolors : Int) (cmap : Option tc_colormap) :
    Option tc_colormap :=
  match cmap with
  | none => none
  | some map =>
    if ignorecolors ≠ 0 then none
    else some (cat_copy_colors pix (tc_init_colormap pix map.colordepth) map 0
      map.nclasses.toNat)

/-- The colormap part of the loading loop of `tc_catforest.c` for a later
forest: the master list after the merge, or `none` when the master list is
`NULL` and gets dereferenced. -/
def cat_merge_colormap (pix : pixel_t) (ignorecolors : Int) (master : Option tc_colormap)
    (cmap : Option tc_colormap) : Option (Option tc_colormap) :=
  match cmap with
  | none => some master
  | some map =>
    if ignorecolors ≠ 0 then some master
    else
      match master with
      | none => none
      | some m =>
        if map.colordepth ≠ m.colordepth then some (some m)
        else some (some (cat_copy_colors pix m map m.nclasses.toNat map.nclasses.toNat))

/-- The loading loop of `tc_catforest.c` after the first forest `f0`, on the
forests and colormaps `tc_load_forest` returned: the sum of `ntrees` and the
master colormap, or `none` when the program exits because the filter sets or
the numbers of classes do not match, or dereferences `NULL`. -/
def cat_load {F : Type} (pix : pixel_t) (ignorecolors : Int) (f0 : tc_forest F) :
    List (tc_forest F × Option tc_colormap) → Int → Option tc_colormap →
    Option (Int × Option tc_colormap)
  | [], ntrees, master => some (ntrees, master)
  | (f, cmap) :: rest, ntrees, master =>
    if f0.filterset ≠ f.filterset then none
    else if f0.nclasses ≠ f.nclasses then none
    else
      match cat_merge_colormap pix ignorecolors master cmap with
      | none => none
      | some master2 => cat_load pix ignorecolors f0 rest (ntrees + f.ntrees) master2

/-- The program `tc_catforest.c` after the parsing of its arguments, on the
forests and colormaps `tc_load_forest` returned for the input files, the
first one apart: the status and the text written to the output file, or
`none` when the program exits before or dereferences `NULL`. -/
def catforest (M : FloatOps) (U : Uninit M.F) (ignorecolors : Int) (f0 : tc_forest M.F)
    (cmap0 : Option tc_colormap) (rest : List (tc_forest M.F × Option tc_colormap)) :
    Option (Int × List Char) :=
  match cat_load U.pix ignorecolors f0 rest (0 + f0.ntrees)
      (cat_first_colormap U.pix ignorecolors cmap0) with
  | none => none
  | some (ntrees, master) =>
    some (OK, cat_header ntrees f0.filterset f0.nclasses ++
      (cat_forests M U f0.nclasses (f0 :: rest.map fun p => p.1) 0 ++
        write_colormap_opt (if ignorecolors ≠ 0 then none else master) f0.nclasses))

/-- The sum of `ntrees` over the forests loaded after the first. -/
def cat_ntrees {F : Type} (rest : List (tc_forest F × Option tc_colormap)) : Int :=
  (rest.map fun p => p.1.ntrees).sum

/-- A value of the type `feature_t`, a 64-bit signed integer. -/
def is_int64 (x : Int) : Prop :=
  -9223372036854775808 ≤ x ∧ x ≤ 9223372036854775807

instance (x : Int) : Decidable (is_int64 x) := by
  unfold is_int64
  infer_instance

/-- The function `get_threshold_index` on the 64-bit values of `feature_t`:
the result is `none` when the subtraction `threshold - min` leaves the range
of the type, which C does not define. -/
def get_threshold_index_checked (threshold min n : Int) : Option Int :=
  if is_int64 (threshold - min) then some (get_threshold_index threshold min n) else none

/-- The value `clamp(x, lo, hi)` of the specification. -/
def spec_clamp (x lo hi : Int) : Int :=
  if x < lo then lo else if hi < x then hi else x

/-- The data that `tc_assign_evenly` puts on tree `t`, in the order of the
array of the data set. -/
def assigned_data (rnd : ℚ → ℚ) (ntrees ndata : Int) (t : Nat) : List Nat :=
  (List.range ndata.toNat).filter fun i => decide (assign_index rnd ntrees ndata i = (t : Int))

/-- The laws of the rounding to `float` that the index computation of
`tc_assign_evenly` rests on: the integers up to `2 ^ 24` are values of the
type, and the rounded value of a number between `2 ^ -24` and `2 ^ 24` is
off by at most the fraction `2 ^ -24` of the number. -/
structure RoundLaws (rnd : ℚ → ℚ) : Prop where
  int24 : ∀ n : Int, 0 ≤ n → n ≤ 16777216 → rnd (n : ℚ) = (n : ℚ)
  near : ∀ q : ℚ, 1 / 16777216 ≤ q → q ≤ 16777216 → |rnd q - q| ≤ q / 16777216

/-- The first datum of tree `t` when datum `i` goes to tree
`floor(i * ntrees / ndata)`: the least `i` with `t * ndata ≤ i * ntrees`. -/
def block_start (ntrees ndata : Int) (t : Nat) : Nat :=
  (((t : Int) * ndata + ntrees - 1) / ntrees).toNat

/-- The reduce step of `tc_grow` on the array of the finished trainers: the
value of `winner` after the loop. -/
def tc_reduce (sc : ScoreOps) (trainers : List (tc_trainer sc.S)) : Nat :=
  (List.range trainers.length).foldl (reduce_step sc trainers) 0

/-- What `tc_grow` reads from the winner of the reduce step: the filter and
the threshold to install, `none` when the winner is not valid or there is no
trainer. -/
def reduce_result (sc : ScoreOps) (trainers : List (tc_trainer sc.S)) :
    Option (tc_filter × Int) :=
  match trainers[tc_reduce sc trainers]? with
  | none => none
  | some w => if w.valid = 0 then none else some (w.best_filter, w.best_threshold)

/-- The comparison `>` of the scores is that of an order without
incomparable values, as the one of the `float` values other than NaN. -/
structure ScoreLaws (sc : ScoreOps) : Prop where
  irrefl : ∀ a, sc.gt a a = false
  trans : ∀ a b c, sc.gt a b = true → sc.gt b c = true → sc.gt a c = true
  neg_trans : ∀ a b c, sc.gt a c = true → sc.gt a b = true ∨ sc.gt b c = true

/-- The pairs of a candidate filter and a threshold index in the order in
which `tc_split_search` visits them: the candidates in turn, and for each the
indices `1, ..., N_THRESH - 2`. -/
def scan_pairs (candidates : List tc_filter) : List (tc_filter × Nat) :=
  candidates.flatMap fun cand => (List.range' 1 (N_THRESH.toNat - 2)).map fun t => (cand, t)

/-- The pair passes the test on the two totals: neither is below
`TC_TRAIN_MIN_SPLIT`. -/
def passes_gate (rnd : ℚ → ℚ) (ds : tc_dataset) (L : List Nat) (p : tc_filter × Nat) : Prop :=
  TC_TRAIN_MIN_SPLIT ≤ total_low rnd ds p.1 L p.2 ∧
    TC_TRAIN_MIN_SPLIT ≤ total_high rnd ds p.1 L p.2

instance (rnd : ℚ → ℚ) (ds : tc_dataset) (L : List Nat) (p : tc_filter × Nat) :
    Decidable (passes_gate rnd ds L p) := by
  unfold passes_gate
  infer_instance

/-- The value of `split_score` for the pair. -/
def pair_score (sc : ScoreOps) (rnd : ℚ → ℚ) (ds : tc_dataset) (L : List Nat)
    (p : tc_filter × Nat) : sc.S :=
  sc.score (lowdist_class_cnts (accum_counts rnd ds p.1 L) ds.nclasses.toNat p.2)
    (highdist_class_cnts rnd (accum_counts rnd ds p.1 L) ds.nclasses.toNat p.2)

/-- The trainer after the update for the pair. -/
def pair_trainer (sc : ScoreOps) (rnd : ℚ → ℚ) (ds : tc_dataset) (L : List Nat)
    (p : tc_filter × Nat) : tc_trainer sc.S :=
  { best_score := pair_score sc rnd ds L p,
    best_threshold := index_to_threshold (p.2 : Int) MIN_THRESH,
    best_filter := p.1, valid := 1 }

/-- The macro `SMALL` of `tc_image.h`, `10e-8f`: the binary32 value nearest
to `10 ^ (-7)`.  The file `tc_train.c` includes `tc_image.h` before its own
`#ifndef SMALL`. -/
def SMALL : ℚ := 14073749 / 140737488355328

/-- The arithmetic of the score of a split, on a field `α` of values: the
rounding `rnd` of a result stored into a `float`, the rounding `rnd64` of a
result of the type `double`, and the value the function `log` of `math.h`
returns for a `double`.  Every operation is evaluated in the type the usual
arithmetic conversions give it. -/
structure ScoreArith (α : Type) where
  rnd : α → α
  rnd64 : α → α
  log : α → α

/-- The value `((float)cnt) / ((float)total)` stored into `lowdist_prob_class`
or `highdist_prob_class`. -/
def prob_class {α : Type} [LinearOrderedField α] (A : ScoreArith α) (cnt total : Int) : α :=
  A.rnd (A.rnd (cnt : α) / A.rnd (total : α))

/-- The statement `entropy += prob * log(prob)` on a `float` `entropy`: the
product and the sum are of the type `double`. -/
def entropy_add {α : Type} [LinearOrderedField α] (A : ScoreArith α) (entropy prob : α) : α :=
  A.rnd (A.rnd64 (entropy + A.rnd64 (prob * A.log prob)))

/-- One iteration of the loop of `tc_split_search` over the classes that
computes `entropy_low` and `entropy_high`, for the counts `c` of the class
on the two sides. -/
def entropy_step {α : Type} [LinearOrderedField α] (A : ScoreArith α)
    (total_low total_high : Int) (e : α × α) (c : Int × Int) : α × α :=
  if ((SMALL : ℚ) : α) ≤ A.rnd (c.1 : α) ∧ ((SMALL : ℚ) : α) ≤ A.rnd (c.2 : α) then
    (entropy_add A e.1 (prob_class A c.1 total_low),
      entropy_add A e.2 (prob_class A c.2 total_high))
  else e

/-- The values of `entropy_low` and `entropy_high` after the loop over the
classes, for the arrays `lowdist_class_cnts` and `highdist_class_cnts`. -/
def class_entropies {α : Type} [LinearOrderedField α] (A : ScoreArith α)
    (low high : List Int) : α × α :=
  (low.zip high).foldl (entropy_step A low.sum high.sum) (0, 0)

/-- The value of `expected_posterior_entropy`. -/
def expected_posterior_entropy {α : Type} [LinearOrderedField α] (A : ScoreArith α)
    (low high : List Int) : α :=
  A.rnd (-(A.rnd (A.rnd (A.rnd (high.sum : α) * (class_entropies A low high).2) +
      A.rnd (A.rnd (low.sum : α) * (class_entropies A low high).1))) /
    A.rnd ((low.sum + high.sum : Int) : α))

/-- The value of `split_score`. -/
def split_score {α : Type} [LinearOrderedField α] (A : ScoreArith α) (low high : List Int) : α :=
  -expected_posterior_entropy A low high

/-- The score arithmetic of `tc_split_search` for the arithmetic `A`: the
value `-9e99` stored into the `float` `best_score` is below every value of
the format, the score is `split_score` and the comparison is `>`. -/
def entropy_score {α : Type} [LinearOrderedField α] (A : ScoreArith α) : ScoreOps :=
  { S := WithBot α, init := ⊥,
    score := fun low high => ((split_score A low high : α) : WithBot α),
    gt := fun a b => decide (b < a) }

/-- The array `lowdist_class_cnts` for the pair. -/
def pair_low (rnd : ℚ → ℚ) (ds : tc_dataset) (L : List Nat) (p : tc_filter × Nat) : List Int :=
  lowdist_class_cnts (accum_counts rnd ds p.1 L) ds.nclasses.toNat p.2

/-- The array `highdist_class_cnts` for the pair. -/
def pair_high (rnd : ℚ → ℚ) (ds : tc_dataset) (L : List Nat) (p : tc_filter × Nat) : List Int :=
  highdist_class_cnts rnd (accum_counts rnd ds p.1 L) ds.nclasses.toNat p.2

/-- The sum `Σ_k p_k · ln p_k` of the specification for one side of a split,
with `p_k = side_k / total`, over the classes whose counts on both sides are
not zero. -/
def spec_entropy {α : Type} [LinearOrderedField α] (log : α → α) (side other : List Int) : α :=
  ((side.zip other).map fun c =>
    if c.1 ≠ 0 ∧ c.2 ≠ 0 then
      ((c.1 : α) / (side.sum : α)) * log ((c.1 : α) / (side.sum : α))
    else 0).sum

/-- The score of the specification:
`(total_high · H_high + total_low · H_low) / (total_high + total_low)`. -/
def spec_split_score {α : Type} [LinearOrderedField α] (log : α → α) (low high : List Int) : α :=
  ((high.sum : α) * spec_entropy log high low + (low.sum : α) * spec_entropy log low high) /
    ((high.sum : α) + (low.sum : α))

/-- What the rounding to a floating-point format has in every rounding mode
to nearest: it is monotone, leaves the values of the format as they are, and
0 and 1 are values of the format. -/
structure RoundMono {α : Type} [LinearOrderedField α] (rnd : α → α) : Prop where
  mono : ∀ x y, x ≤ y → rnd x ≤ rnd y
  idem : ∀ x, rnd (rnd x) = rnd x
  zero : rnd 0 = 0
  one : rnd 1 = 1

/-- What the proofs about the sign of the score use of the arithmetic: the
rounding to `float` is monotone, `2 ^ 31` is a `float` and no value from
`2 ^ (-31)` on is rounded to 0; the rounding to `double` is monotone and
keeps 0; and `log` is not positive on `(0, 1]`. -/
structure ArithLaws {α : Type} [LinearOrderedField α] (A : ScoreArith α) : Prop where
  rnd : RoundMono A.rnd
  big : A.rnd 2147483648 = 2147483648
  tiny : ∀ x, 1 / 2147483648 ≤ x → 0 < A.rnd x
  rnd64_mono : ∀ x y, x ≤ y → A.rnd64 x ≤ A.rnd64 y
  rnd64_zero : A.rnd64 0 = 0
  log_nonpos : ∀ p, 0 < p → p ≤ 1 → A.log p ≤ 0

/-- The function `tc_num_leaves_below` on the node that `p` points to.  The
result is `none` when a pointer is not valid or the recursion is deeper than
`fuel`; `tc_isleaf` answers `ERR`, which is 0, for a `NULL` pointer, and the
node is read after that. -/
def tc_num_leaves_below {F : Type} (tree : tc_tree F) : Nat → Option Int → Option Int
  | 0, _ => none
  | _ + 1, none => none
  | fuel + 1, some j =>
    if j < 0 then none
    else
      match tree.nodes[j.toNat]? with
      | none => none
      | some node =>
        if tc_isleaf node then some 1
        else
          match tc_num_leaves_below tree fuel node.low,
            tc_num_leaves_below tree fuel node.high with
          | some a, some b => some (a + b)
          | _, _ => none

/-- The function `tc_num_leaves`, with the depth `fuel` allowed to the
recursion. -/
def tc_num_leaves {F : Type} (tree : tc_tree F) (fuel : Nat) : Option Int :=
  tc_num_leaves_below tree fuel (some 0)

/-- The nodes that the calls of `tc_num_leaves_below` visit, in the order of
the calls. -/
def nodes_below {F : Type} (tree : tc_tree F) : Nat → Option Int → Option (List Nat)
  | 0, _ => none
  | _ + 1, none => none
  | fuel + 1, some j =>
    if j < 0 then none
    else
      match tree.nodes[j.toNat]? with
      | none => none
      | some node =>
        if tc_isleaf node then some [j.toNat]
        else
          match nodes_below tree fuel node.low, nodes_below tree fuel node.high with
          | some a, some b => some (j.toNat :: (a ++ b))
          | _, _ => none

/-- Node `k` of the tree is a leaf. -/
def leaf_at {F : Type} (tree : tc_tree F) (k : Nat) : Bool :=
  match tree.nodes[k]? with
  | some node => tc_isleaf node
  | none => false

/-- The recursion of `tc_num_leaves` visits every node of the tree once. -/
def full_tree {F : Type} (tree : tc_tree F) : Prop :=
  tree.nnodes = (tree.nodes.length : Int) ∧
  ∃ L, nodes_below tree tree.nodes.length (some 0) = some L ∧
    L.Perm (List.range tree.nodes.length)

/-- The nodes that the loop `while (!tc_isleaf(node))` of `tc_tally_classes`
enters for the datum after the node of index `i`: on a result above the
threshold the high child, otherwise the low child, and none after a leaf or
a node whose filter evaluation fails. -/
def walk_tail {F : Type} (nodes : List (tc_node F)) (image : tc_image) (d : tc_datum) :
    Nat → Nat → List Nat
  | 0, _ => []
  | fuel + 1, i =>
    match nodes[i]? with
    | none => []
    | some node =>
      if tc_isleaf node then []
      else if (tc_filter_pixel node.filter image d.r d.c 0).1 = ERR then []
      else
        match (if (tc_filter_pixel node.filter image d.r d.c 0).2 > node.threshold
          then node.high else node.low) with
        | none => []
        | some j => if j < 0 then [] else j.toNat :: walk_tail nodes image d fuel j.toNat

/-- The nodes that the walk of the datum through the tree visits in
`tc_tally_classes`: the root and the nodes the loop enters. -/
def tally_path {F : Type} (ds : tc_dataset) (tree : tc_tree F) (d : tc_datum) : List Nat :=
  match ds.images[d.image.toNat]? with
  | none => []
  | some image => 0 :: walk_tail tree.nodes image d (tree.nodes.length + 1) 0

/-- The data of the class `k` among the first `ndata` data whose walk
through the tree visits node `n`. -/
def visitors {F : Type} (ds : tc_dataset) (tree : tc_tree F) (n k : Nat) : List tc_datum :=
  (ds.data.take ds.ndata.toNat).filter fun d =>
    decide (d.label = (k : Int)) && decide (n ∈ tally_path ds tree d)

/-- The second list has the nodes of the first with the same threshold,
filter and child pointers. -/
def links_kept {F : Type} (a b : List (tc_node F)) : Prop :=
  b.length = a.length ∧ ∀ (j : Nat) (nd : tc_node F), a[j]? = some nd →
    ∃ nd2, b[j]? = some nd2 ∧ node_match nd nd2

/-- Every node of the list has no child or both, the low child at an index
`l` above its own and the high child at `l + 1`, inside the list. -/
def links_wf {F : Type} (nodes : List (tc_node F)) : Prop :=
  ∀ (k : Nat) (node : tc_node F), nodes[k]? = some node →
    (node.high = none ∧ node.low = none) ∨
    ∃ l : Int, node.low = some l ∧ node.high = some (l + 1) ∧ (k : Int) < l ∧
      l + 1 < (nodes.length : Int)

/-- What the loop of `tc_tally_classes` over the data `data` makes of a tree,
in exact arithmetic: thresholds, filters, child pointers and probabilities
stay, and the count of class `k` at node `n` grows by the weight of the class
for every visit of a datum of the class to the node. -/
def tallied (ds : tc_dataset) (data : List tc_datum) (tree tree2 : tc_tree ℚ) : Prop :=
  tree2.nnodes = tree.nnodes ∧ links_kept tree.nodes tree2.nodes ∧
  ∀ (n : Nat) (nd : tc_node ℚ), tree.nodes[n]? = some nd →
    ∃ nd2, tree2.nodes[n]? = some nd2 ∧ nd2.class_counts.length = nd.class_counts.length ∧
      nd2.class_probs = nd.class_probs ∧
      ∀ k, k < nd.class_counts.length →
        nd2.class_counts.getD k 0 = nd.class_counts.getD k 0 +
          ((data.filter fun d => decide (d.label.toNat = k)).map fun d =>
            ((tally_path ds tree d).count n : ℚ) *
              (1 / ((ds.represented.getD k 0 : Int) : ℚ))).sum

/-- The data that `tc_tally_classes` reads are as its statements expect: the
label is an index of the arrays of `MAX_N_CLASSES` counts, the count
`represented` of the label is not zero, and the image is one of the set. -/
def tally_ok (ds : tc_dataset) : Prop :=
  ∀ d ∈ ds.data.take ds.ndata.toNat, 0 ≤ d.label ∧ d.label < (MAX_N_CLASSES : Int) ∧
    ds.represented.getD d.label.toNat 0 ≠ 0 ∧ (ds.images[d.image.toNat]?).isSome = true

/-- Tree `b` has the node count of tree `a` and node by node the threshold,
filter and child pointers of `a`, with room for `nclasses` classes; the
counts, the probabilities and the MAP classes are any. -/
def same_links (nclasses : Int) (a b : tc_tree ℚ) : Prop :=
  b.nnodes = a.nnodes ∧ links_kept a.nodes b.nodes ∧
    ∀ node ∈ b.nodes, node_room nclasses node

/-- The node that the loop `while (!tc_isleaf(node))` of `tc_tally_classes`
enters from the node of index `i`, if any. -/
def next_node {F : Type} (nodes : List (tc_node F)) (image : tc_image) (d : tc_datum)
    (i : Nat) : Option Nat :=
  match nodes[i]? with
  | none => none
  | some node =>
    if tc_isleaf node then none
    else if (tc_filter_pixel node.filter image d.r d.c 0).1 = ERR then none
    else
      match (if (tc_filter_pixel node.filter image d.r d.c 0).2 > node.threshold
        then node.high else node.low) with
      | none => none
      | some j => if j < 0 then none else some j.toNat

/-- The filter of node `n` of the tree fails on the datum. -/
def stops_at {F : Type} (ds : tc_dataset) (tree : tc_tree F) (n : Nat) (d : tc_datum) : Bool :=
  match ds.images[d.image.toNat]?, tree.nodes[n]? with
  | some image, some node => decide ((tc_filter_pixel node.filter image d.r d.c 0).1 = ERR)
  | _, _ => false

/-- The data of the class `k` among the first `ndata` data whose walk
through the tree visits node `n` and ends there on a failing filter. -/
def stopped {F : Type} (ds : tc_dataset) (tree : tc_tree F) (n k : Nat) : List tc_datum :=
  (ds.data.take ds.ndata.toNat).filter fun d =>
    decide (d.label = (k : Int)) && decide (n ∈ tally_path ds tree d) && stops_at ds tree n d

/-- No node is the child of two nodes. -/
def parents_unique {F : Type} (nodes : List (tc_node F)) : Prop :=
  ∀ (p q : Nat) (ndp ndq : tc_node F) (c : Int), nodes[p]? = some ndp → nodes[q]? = some ndq →
    (ndp.low = some c ∨ ndp.high = some c) → (ndq.low = some c ∨ ndq.high = some c) → p = q

/-- The class masses `low_k = accum[k][t]` of the specification for the
pair: the elements of `accum_counts` before their conversion to `int`. -/
def pair_mass_low (rnd : ℚ → ℚ) (ds : tc_dataset) (L : List Nat) (p : tc_filter × Nat) :
    List ℚ :=
  (List.range ds.nclasses.toNat).map fun k =>
    ((accum_counts rnd ds p.1 L).getD k []).getD p.2 0

/-- The class masses `high_k = accum[k][N_THRESH-1] − accum[k][t]` of the
specification for the pair. -/
def pair_mass_high (rnd : ℚ → ℚ) (ds : tc_dataset) (L : List Nat) (p : tc_filter × Nat) :
    List ℚ :=
  (List.range ds.nclasses.toNat).map fun k =>
    ((accum_counts rnd ds p.1 L).getD k []).getD (N_THRESH.toNat - 1) 0 -
      ((accum_counts rnd ds p.1 L).getD k []).getD p.2 0

/-- The sum `Σ_k p_k · ln p_k` of the specification on class masses, with
`p_k = side_k / total` and `total` the sum of the masses of the side, over
the classes whose masses on both sides are not zero. -/
def spec_mass_entropy {α : Type} [LinearOrderedField α] (log : α → α) (side other : List α) : α :=
  ((side.zip other).map fun c =>
    if c.1 ≠ 0 ∧ c.2 ≠ 0 then (c.1 / side.sum) * log (c.1 / side.sum) else 0).sum

/-- The score of the specification on class masses:
`(total_high · H_high + total_low · H_low) / (total_high + total_low)`. -/
def spec_mass_score {α : Type} [LinearOrderedField α] (log : α → α) (low high : List α) : α :=
  (high.sum * spec_mass_entropy log high low + low.sum * spec_mass_entropy log low high) /
    (high.sum + low.sum)

/-! ## Concrete objects used to evaluate the definitions -/

/-- A 2 x 2 image with one channel. -/
def exImage : tc_image :=
  { rows := 2, cols := 2, chans := 1, data := [10, 20, 30, 40] }

/-- A leaf with the given class probabilities, as `tc_init_node` followed by
`tc_update_probs` leaves it. -/
def exLeaf (counts probs : List ℚ) (cls : Int) : tc_node ℚ :=
  { class_counts := counts, class_probs := probs, MAP_class := cls,
    high := none, low := none, expandable := 1,
    filter := { function := TC_FILTER_RAW, rowA := 0, colA := 0, chanA := 0,
                rowB := 0, colB := 0, chanB := 0 },
    threshold := 0 }

/-- A split node comparing a pixel with its right neighbour. -/
def exSplit : tc_node ℚ :=
  { class_counts := [0, 4, 4, 0, 0, 0, 0, 0], class_probs := [0, 1/2, 1/2, 0, 0, 0, 0, 0],
    MAP_class := 1, high := some 2, low := some 1, expandable := 1,
    filter := { function := TC_FILTER_DIFF, rowA := 0, colA := 0, chanA := 0,
                rowB := 0, colB := 1, chanB := 0 },
    threshold := 0 }

/-- A tree with one split and two leaves. -/
def exTree : tc_tree ℚ :=
  { nodes := [exSplit, exLeaf [0, 3, 1, 0, 0, 0, 0, 0] [0, 3/4, 1/4, 0, 0, 0, 0, 0] 1,
              exLeaf [0, 1, 3, 0, 0, 0, 0, 0] [0, 1/4, 3/4, 0, 0, 0, 0, 0] 2],
    nnodes := 3 }

/-- A tree that is a single leaf. -/
def exLeafTree : tc_tree ℚ :=
  { nodes := [exLeaf [0, 1, 1, 0, 0, 0, 0, 0] [0, 1/2, 1/2, 0, 0, 0, 0, 0] 1], nnodes := 1 }

/-- A raw filter whose B offsets and channel are far outside any image. -/
def exRaw : tc_filter :=
  { function := TC_FILTER_RAW, rowA := 1, colA := 0, chanA := 0,
    rowB := 50, colB := -50, chanB := 9 }

/-- A rectangle filter on a summed-area table. -/
def exRect : tc_filter :=
  { function := TC_FILTER_RECT, rowA := 0, colA := 0, chanA := 0,
    rowB := 1, colB := 1, chanB := 0 }

/-- A ratio filter comparing a pixel with its right neighbour. -/
def exRatio : tc_filter :=
  { function := TC_FILTER_RATIO, rowA := 0, colA := 0, chanA := 0,
    rowB := 0, colB := 1, chanB := 0 }

/-- A filter whose text has 33 characters. -/
def exLongFilter : tc_filter :=
  { function := 0, rowA := -1000, colA := -100, chanA := 10,
    rowB := -100, colB := -100, chanB := 12 }

/-- A filter whose text has 34 characters. -/
def exLongFilter2 : tc_filter :=
  { function := 0, rowA := -1000, colA := -1000, chanA := 0,
    rowB := -1000, colB := -1000, chanB := 0 }

/-- A forest of two trees and three classes. -/
def exForest : tc_forest ℚ :=
  { trees := [exTree, exLeafTree], ntrees := 2, nclasses := 3, filterset := 0, winsize := 3 }

/-- The leaves the trees of `exForest` reach at pixel `(0, 0)` of `exImage`. -/
def exLeaves : List (tc_node ℚ) :=
  [exLeaf [0, 3, 1, 0, 0, 0, 0, 0] [0, 3/4, 1/4, 0, 0, 0, 0, 0] 1,
   exLeaf [0, 1, 1, 0, 0, 0, 0, 0] [0, 1/2, 1/2, 0, 0, 0, 0, 0] 1]

/-- Memory that was never written, for the rational instance. -/
def exU : Uninit ℚ :=
  { mem := ['c', 'o', 'l', 'o', 'r', 'm', 'a', 'p', ' ', '3', '\n'], node := exSplit,
    tree := exTree, pix := 9 }

/-- The tree `tc_grow` makes of a fresh tree by installing a split with the
filter `flt` at the threshold of index 255. -/
def exGrown (flt : tc_filter) : tc_tree ℚ :=
  split_node ratOps (tc_init_tree ratOps) 0 (tc_init_node ratOps) flt
    (index_to_threshold 255 MIN_THRESH)

/-- A forest of one tree grown with a window of 2001 pixels on images of 13
channels: the filter of its root is `exLongFilter`. -/
def exLongForest : tc_forest ℚ :=
  { trees := [exGrown exLongFilter], ntrees := 1, nclasses := 3, filterset := 0,
    winsize := 2001 }

/-- A colormap of three classes and three channels. -/
def exColormap : tc_colormap :=
  { nclasses := 3, colordepth := 3, colormap := [[0, 0, 0], [255, 0, 0], [0, 255, 7]] }

/-- The weight `1.0f / ((float) represented[label])` that `tc_tally_classes`
adds for a sample of a class with three samples, in binary32. -/
def exThird : ℚ :=
  (decOps round_f32).div ((decOps round_f32).ofInt 1) ((decOps round_f32).ofInt 3)

/-- The count of a node that `k` samples of that class reach: `k` additions of
the weight to the zero `tc_tally_classes` starts from. -/
def exTally (k : Nat) : ℚ :=
  (List.replicate k exThird).foldl (decOps round_f32).add ((decOps round_f32).ofInt 0)

/-- A tree of `tc_grow` after `tc_tally_classes` on a data set with three
samples of class 1: all three pass the root, one reaches the low leaf and two
the high leaf. -/
def exThirdsTree : tc_tree ℚ :=
  { nodes :=
      [{ exSplit with class_counts := [0, exTally 3, 0, 0, 0, 0, 0, 0],
                      class_probs := [0, 1, 0, 0, 0, 0, 0, 0] },
       exLeaf [0, exTally 1, 0, 0, 0, 0, 0, 0] [0, 1, 0, 0, 0, 0, 0, 0] 1,
       exLeaf [0, exTally 2, 0, 0, 0, 0, 0, 0] [0, 1, 0, 0, 0, 0, 0, 0] 1],
    nnodes := 3 }

/-- An image of one row and thirteen pixels. -/
def exRowImage : tc_image :=
  { rows := 1, cols := 13, chans := 1, data := [10, 20, 30, 40, 50, 60, 70, 80, 90, 100, 110, 120, 130] }

/-- The label image of `exRowImage`: three pixels of class 1, ten of class 2. -/
def exRowLabels : tc_image :=
  { rows := 1, cols := 13, chans := 1, data := [1, 1, 1, 2, 2, 2, 2, 2, 2, 2, 2, 2, 2] }

/-- A data set of thirteen samples, one at each pixel of `exRowImage`. -/
def exThirteen : tc_dataset :=
  { ndata := 13, nimages := 1, nclasses := 3,
    data := (List.range 13).map fun (i : Nat) =>
      { image := 0, r := 0, c := (i : Int), label := if i < 3 then 1 else 2 },
    images := [exRowImage], labels := [exRowLabels],
    represented := [0, 3, 10, 0, 0, 0, 0, 0], classes := [[0, 3, 10]] }

/-- The forest `tc_init_forest` makes for one tree and the three classes of
`exThirteen`; with thirteen samples no `tc_grow` pass changes it. -/
def exFresh : tc_forest ℚ :=
  { trees := [tc_init_tree (decOps round_f32)], ntrees := 1, nclasses := 3,
    filterset := TC_FILTERSET_POINTS, winsize := 61 }

/-- The forest of `exFresh` after `tc_tally_classes` on `exThirteen`, in
binary32 arithmetic. -/
def exTallied : tc_forest ℚ :=
  { trees := [{ nodes := [{ tc_init_node (decOps round_f32) with
                            class_counts := [0, 1, 8388609 / 8388608, 0, 0, 0, 0, 0],
                            class_probs := [0, 1 / 2, 8388609 / 16777216, 0, 0, 0, 0, 0],
                            MAP_class := 2 }],
                nnodes := 1 }],
    ntrees := 1, nclasses := 3, filterset := TC_FILTERSET_POINTS, winsize := 61 }

/-- The text of a tree of one node whose record names the children 5 and 7. -/
def exBadTreeText : List Char :=
  "nnodes 1\n0 1 0 5 7 F0_(0,0,0)_(0,0,0) 0.000000 1.000000\n".toList

/-- A tree of 513 leaves, one more than the node array of a `tc_tree` holds. -/
def exWideTree : tc_tree ℚ :=
  { nodes := List.replicate 513 (exLeaf [0, 1, 1, 0, 0, 0, 0, 0] [0, 1/2, 1/2, 0, 0, 0, 0, 0] 1),
    nnodes := 513 }

/-- A leaf with the counts 1, 3, 3 of the classes 1, 2, 3 before
`tc_update_probs`. -/
def exTie : tc_node ℚ :=
  exLeaf [0, 1, 3, 3, 0, 0, 0, 0] [0, 0, 0, 0, 0, 0, 0, 0] 0

/-- The sum of the counts of the classes from 1 below `nclasses`, in exact
arithmetic. -/
def count_sum (counts : List ℚ) (nclasses : Int) : ℚ :=
  ((List.range nclasses.toNat).tail.map fun i => counts.getD i 0).sum

/-- An image of one row and forty pixels with the values 0, 6, 12, ... -/
def exWideImage : tc_image :=
  { rows := 1, cols := 40, chans := 1, data := (List.range 40).map fun i => Fin.ofNat (i * 6) }

/-- A data set of forty data, one at each pixel of `exWideImage`, with the
labels 1 and 2 in turn. -/
def exForty : tc_dataset :=
  { ndata := 40, nimages := 1, nclasses := 3,
    data := (List.range 40).map fun (i : Nat) =>
      { image := 0, r := 0, c := (i : Int), label := 1 + ((i % 2 : Nat) : Int) },
    images := [exWideImage], labels := [exWideImage],
    represented := [0, 20, 20, 0, 0, 0, 0, 0], classes := [[0, 20, 20]] }

/-- The raw filter that reads the right neighbour of a pixel. -/
def exRight : tc_filter :=
  { function := TC_FILTER_RAW, rowA := 0, colA := 1, chanA := 0, rowB := 0, colB := 0, chanB := 0 }

/-- A split search that always returns `exRight` with the threshold 120. -/
def exSearch (_ : List Nat) : Option (tc_filter × Int) :=
  some (exRight, index_to_threshold 375 MIN_THRESH)

/-- The tree `tc_grow` makes of a fresh tree by installing the split of
`exSearch`. -/
def exSplitTree : tc_tree ℚ :=
  split_node ratOps (tc_init_tree ratOps) 0 (tc_init_node ratOps) exRight 120

/-- The links after `tc_assign_evenly` put the forty data of `exForty` on
the root of one tree: datum `i` is followed by datum `i - 1`. -/
def exLinks : NodeLinks :=
  { next := (List.range 40).map fun i => if i = 0 then none else some (i - 1),
    heads := [some 39], dropped := [] }

/-- The links the body of `tc_grow` leaves for `exLinks`. -/
def exLinks2 : NodeLinks :=
  match tc_grow_tree ratOps exSearch exForty (tc_init_tree ratOps) exLinks with
  | some (GrowOutcome.grown _ st) => st
  | _ => exLinks

/-- The root of `exSplitTree`. -/
def exSplitRoot : tc_node ℚ :=
  { tc_init_node ratOps with threshold := 120, filter := exRight, low := some 1, high := some 2 }

/-- The links of `exLinks` with the anchors of the two children of the root,
as `tc_init_node` leaves them. -/
def exLinksWide : NodeLinks :=
  { exLinks with heads := exLinks.heads ++ [none, none] }

/-- The forest `tc_init_forest` makes for one tree and three classes, in
exact arithmetic. -/
def exOneTree : tc_forest ℚ :=
  { trees := [tc_init_tree ratOps], ntrees := 1, nclasses := 3,
    filterset := TC_FILTERSET_POINTS, winsize := 61 }

/-- The memory after `tc_assign_evenly` put the forty data of `exForty` on the
root of the tree of `exOneTree`. -/
def exAssigned : TrainState ℚ :=
  { forest := exOneTree, next := exLinks.next, heads := [exLinks.heads], dropped := [[]] }

/-- The memory after one pass of `tc_grow` on `exAssigned` with the split of
`exSearch`. -/
def exGrownState : TrainState ℚ :=
  match tc_grow ratOps (fun _ => exSearch) exForty exAssigned with
  | some (_, s) => s
  | none => exAssigned

/-- An image of two rows and 55 columns: the first row is 34 pixels of value
0 and 21 of value 200, the second 34 pixels of value 254 and 21 of value 0. -/
def exPairImage : tc_image :=
  { rows := 2, cols := 55, chans := 1,
    data := (List.range 110).map fun j =>
      if j < 34 then 0 else if j < 55 then 200 else if j < 89 then 254 else 0 }

/-- The filter that subtracts from a pixel the pixel below it. -/
def exDiff : tc_filter :=
  { function := TC_FILTER_DIFF, rowA := 0, colA := 0, chanA := 0,
    rowB := 1, colB := 0, chanB := 0 }

/-- A data set of 55 data, one at each pixel of the first row of
`exPairImage`: 33 of class 1 followed by 22 of class 2. -/
def exSkewed : tc_dataset :=
  { ndata := 55, nimages := 1, nclasses := 3,
    data := (List.range 55).map fun (i : Nat) =>
      { image := 0, r := 0, c := (i : Int), label := if i < 33 then 1 else 2 },
    images := [exPairImage], labels := [exPairImage],
    represented := [0, 33, 22, 0, 0, 0, 0, 0], classes := [[0, 33, 22]] }

/-- The links after `tc_assign_evenly` put the data of `exSkewed` on the root
of one tree. -/
def exSkewedLinks : NodeLinks :=
  { next := (List.range 55).map fun i => if i = 0 then none else some (i - 1),
    heads := [some 54], dropped := [] }

/-- The tree `tc_grow` makes of a fresh tree by installing the filter
`exDiff` with the threshold -254. -/
def exSkewedTree : tc_tree ℚ :=
  split_node ratOps (tc_init_tree ratOps) 0 (tc_init_node ratOps) exDiff (-254)

/-- The links the body of `tc_grow` leaves for `exSkewedLinks` after
installing the filter `exDiff` with the threshold -254. -/
def exSkewedLinks2 : NodeLinks :=
  match tc_grow_tree ratOps (fun _ => some (exDiff, -254)) exSkewed (tc_init_tree ratOps)
    exSkewedLinks with
  | some (GrowOutcome.grown _ st) => st
  | _ => exSkewedLinks

/-- A score arithmetic in which every split has the score 0. -/
def exScore : ScoreOps :=
  { S := ℚ, init := -9 * 10 ^ 99, score := fun _ _ => 0, gt := fun a b => decide (a > b) }

/-- A label image of one row and ten pixels: nine of label 1 and one of label 2. -/
def exNineOne : tc_image :=
  { rows := 1, cols := 10, chans := 1,
    data := (List.range 10).map fun j => if j < 9 then 1 else 2 }

/-- Values of `rand()` for four data of the label image `exNineOne` in
balanced mode: two of the seven draws are rejected. -/
def exRands : List Int :=
  [7, 0, 9, 7, 0, 3, 7, 0, 5, 7, 0, 3, 7, 0, 9, 7, 0, 0, 7, 0, 9]

/-- The data set that `tc_random_dataset` returns for `exRands`. -/
def exSampled : tc_dataset :=
  { ndata := 4, nimages := 1, nclasses := 3,
    data := [{ image := 0, r := 0, c := 3, label := 1 }, { image := 0, r := 0, c := 9, label := 2 },
      { image := 0, r := 0, c := 0, label := 1 }, { image := 0, r := 0, c := 9, label := 2 }],
    images := [exNineOne], labels := [exNineOne],
    represented := [0, 2, 2, 0, 0, 0, 0, 0], classes := [[0, 9, 1]] }

/-- A 3 x 3 image with one channel and the values 10, 20, ..., 90. -/
def exNine : tc_image :=
  { rows := 3, cols := 3, chans := 1, data := [10, 20, 30, 40, 50, 60, 70, 80, 90] }

/-- The raw filter that reads the pixel one row down and one column right. -/
def exCenter : tc_filter :=
  { function := TC_FILTER_RAW, rowA := 1, colA := 1, chanA := 0, rowB := 0, colB := 0, chanB := 0 }

/-- A forest of one tree whose root is a split node with the filter
`exCenter`. -/
def exCenterForest : tc_forest ℚ :=
  { trees := [{ exTree with nodes := { exSplit with filter := exCenter } :: exTree.nodes.tail }],
    ntrees := 1, nclasses := 3, filterset := 0, winsize := 5 }
/-- The raw filter that reads the pixel one row up: from row 0 it leaves the
image. -/
def exAbove : tc_filter :=
  { function := TC_FILTER_RAW, rowA := -1, colA := 0, chanA := 0, rowB := 0, colB := 0, chanB := 0 }

/-- A forest of two trees: the leaf tree `exLeafTree`, then a tree whose root
is a split node with the filter `exAbove`. -/
def exAboveForest : tc_forest ℚ :=
  { trees := [exLeafTree, { exTree with nodes := { exSplit with filter := exAbove } :: exTree.nodes.tail }],
    ntrees := 2, nclasses := 3, filterset := 0, winsize := 5 }

/-- The links of a tree of one node whose root has the data `0, ..., n - 1`
in its bucket, in this order. -/
def exChain (n : Nat) : NodeLinks :=
  { next := sample_links (n : Int), heads := [if n = 0 then none else some 0], dropped := [] }

/-- A forest of three fresh trees, as `tc_init_forest` returns it. -/
def exThreeTrees : tc_forest ℚ :=
  { trees := List.replicate 3 (tc_init_tree ratOps), ntrees := 3, nclasses := 3,
    filterset := TC_FILTERSET_POINTS, winsize := 61 }

/-- Three finished trainers: the first is not valid, the other two are valid
with the same score. -/
def exTrainers : List (tc_trainer ℚ) :=
  [{ best_score := exScore.init, best_threshold := -1, best_filter := tc_init_filter, valid := 0 },
   { best_score := 0, best_threshold := 120, best_filter := exRight, valid := 1 },
   { best_score := 0, best_threshold := 7, best_filter := exRaw, valid := 1 }]

/-- Exact arithmetic with the function `p - 1` in the place of `log`: it is
0 at 1 and not positive on `(0, 1]`. -/
def exArith : ScoreArith ℚ :=
  { rnd := id, rnd64 := id, log := fun p => p - 1 }

/-- An image of two rows and 60 columns: the first row is 37 pixels of value
0 and 23 of value 200, the second 37 pixels of value 254 and 23 of value 0. -/
def exSixtyImage : tc_image :=
  { rows := 2, cols := 60, chans := 1,
    data := (List.range 120).map fun j =>
      if j < 37 then 0 else if j < 60 then 200 else if j < 97 then 254 else 0 }

/-- A data set of 60 data, one at each pixel of the first row of
`exSixtyImage`: 36 of class 1 followed by 24 of class 2, so that a datum of
class 2 has the mass 36/24 = 3/2 in the split search. -/
def exSixty : tc_dataset :=
  { ndata := 60, nimages := 1, nclasses := 3,
    data := (List.range 60).map fun (i : Nat) =>
      { image := 0, r := 0, c := (i : Int), label := if i < 36 then 1 else 2 },
    images := [exSixtyImage], labels := [exSixtyImage],
    represented := [0, 36, 24, 0, 0, 0, 0, 0], classes := [[0, 36, 24]] }

/-- A caller buffer for the class probabilities. -/
def exBuf : List ℚ := [7, 7, 7, 7, 7, 7, 7, 7]

/-! ## Theorems: classification -/

theorem classify_trees_nodata (M : FloatOps) (fuel : Nat) (image : tc_image) (r c : Int)
    (out : Option (List M.F)) (forest : tc_forest M.F) (t : tc_tree M.F) :
    ∀ (pre : List (tc_tree M.F)) (k n : Nat) (probs : List M.F),
      (∀ i, i < pre.length → forest.trees[k + i]? = pre[i]?) →
      forest.trees[k + pre.length]? = some t →
      pre.length < n →
      (∀ tr ∈ pre, ∃ node, tc_walk tr image r c fuel (some 0) = WalkResult.leaf node) →
      tc_walk t image r c fuel (some 0) = WalkResult.nodata →
      classify_trees M fuel forest image r c out k n probs =
        some (Sum.inl { status := OK, pixel_class := ERROR_CLASS, class_probs_out := out }) := by
  intro pre
  induction pre with
  | nil =>
    intro k n probs _ ht hn _ hno
    obtain ⟨m, rfl⟩ : ∃ m, n = m + 1 := ⟨n - 1, by simp at hn; omega⟩
    simp only [List.length_nil, Nat.add_zero] at ht
    simp [classify_trees, ht, hno]
  | cons tr pre ih =>
    intro k n probs hpre ht hn hleaf hno
    obtain ⟨m, rfl⟩ : ∃ m, n = m + 1 := ⟨n - 1, by simp at hn; omega⟩
    have h0 : forest.trees[k]? = some tr := by
      have := hpre 0 (by simp)
      simpa using this
    obtain ⟨node, hnode⟩ := hleaf tr (by simp)
    simp only [classify_trees, h0, hnode]
    apply ih
    · intro i hi
      have := hpre (i + 1) (by simp; omega)
      simpa [Nat.add_assoc, Nat.add_comm 1 i] using this
    · simpa [Nat.add_assoc, Nat.add_comm 1] using ht
    · simp at hn; omega
    · intro tr2 h2
      exact hleaf tr2 (by simp [h2])
    · exact hno

/-- C1: when the trees are walked in order and a split node of some tree
returns `ERR` from `tc_filter_pixel` (the walk of `t` ends in `nodata` after the
walks of the trees `pre` before it reached leaves), `tc_forest_classify`
returns `OK` with `*pixel_class = ERROR_CLASS`, leaves a supplied
`class_probs_out` buffer as it was, and does so whatever the later trees
`post` are: they are not visited. -/
theorem forest_classify_nodata_aborts (M : FloatOps) (fuel : Nat) (image : tc_image)
    (r c : Int) (out : Option (List M.F)) (pre post : List (tc_tree M.F)) (t : tc_tree M.F)
    (ntrees nclasses filterset winsize : Int)
    (hn : (pre.length : Int) < ntrees)
    (hcls : nclasses ≤ MAX_N_CLASSES)
    (hpre : ∀ tr ∈ pre, ∃ node, tc_walk tr image r c fuel (some 0) = WalkResult.leaf node)
    (ht : tc_walk t image r c fuel (some 0) = WalkResult.nodata) :
    tc_forest_classify M fuel
        { trees := pre ++ t :: post, ntrees := ntrees, nclasses := nclasses,
          filterset := filterset, winsize := winsize } image r c out =
      some { status := OK, pixel_class := ERROR_CLASS, class_probs_out := out } := by
  have hcls2 : ¬ nclasses > MAX_N_CLASSES := by omega
  simp only [tc_forest_classify, hcls2, if_false]
  rw [classify_trees_nodata M fuel image r c out _ t pre 0 ntrees.toNat _ _ _ _ hpre ht]
  · intro i hi
    simp [List.getElem?_append_left hi]
  · rw [Nat.zero_add, List.getElem?_append_right (Nat.le_refl _)]
    simp
  · omega

/-- C1 evaluated: the second tree of a forest fails at pixel `(0, 1)`. -/
theorem forest_classify_nodata_aborts_witness :
    tc_forest_classify ratOps 3
        { trees := [exLeafTree] ++ exTree :: [exTree], ntrees := 3, nclasses := 3,
          filterset := 0, winsize := 3 } exImage 0 1 (some exBuf) =
      some { status := OK, pixel_class := ERROR_CLASS,
             class_probs_out := some exBuf } :=
  forest_classify_nodata_aborts ratOps 3 exImage 0 1 (some exBuf)
    [exLeafTree] [exTree] exTree 3 3 0 3 (by decide) (by decide)
    (by
      intro tr htr
      simp only [List.mem_singleton] at htr
      subst htr
      exact ⟨_, rfl⟩)
    rfl

theorem gt_MIN_PROB_pos {M : FloatOps} (hM : FloatLaws M) (p : M.F)
    (h : M.gt p M.MIN_PROB = true) : M.gt p (M.ofInt 0) = true :=
  hM.gt_trans p M.MIN_PROB (M.ofInt 0) h hM.MIN_PROB_pos

theorem map_test_eq {M : FloatOps} (hM : FloatLaws M) (p : M.F) :
    (M.gt p (M.ofInt 0) && M.gt p M.MIN_PROB) = M.gt p M.MIN_PROB := by
  cases h : M.gt p M.MIN_PROB
  · simp
  · simp [gt_MIN_PROB_pos hM p h]

theorem getD_set_eq {α : Type} (l : List α) (k i : Nat) (v d : α) (hk : k < l.length) :
    (l.set k v).getD i d = if i = k then v else l.getD i d := by
  simp only [List.getD_eq_getElem?_getD, List.getElem?_set]
  by_cases h : i = k
  · subst h
    simp [hk]
  · have h2 : ¬ k = i := fun e => h e.symm
    simp [h, h2]

theorem mapInv_init (M : FloatOps) (ntrees : Int) (probs : List M.F) :
    MapInv M ntrees probs 0
      { best_prob := M.ofInt (-1), pixel_class := ERROR_CLASS, class_probs := probs } := by
  refine ⟨rfl, ?_, Or.inl ⟨rfl, rfl, ?_⟩⟩
  · intro i
    simp
  · intro i hi
    omega

theorem mapInv_step {M : FloatOps} (hM : FloatLaws M) (ntrees : Int) (probs : List M.F)
    (k : Nat) (st : MapState M.F) (hk : k < probs.length)
    (hpos : M.gt (probs.getD k (M.ofInt 0)) M.MIN_PROB = true → 0 < ntrees)
    (h : MapInv M ntrees probs k st) :
    MapInv M ntrees probs (k + 1) (map_step M ntrees st k) := by
  obtain ⟨hlen, hprobs, hbest⟩ := h
  have hpk : st.class_probs.getD k (M.ofInt 0) = probs.getD k (M.ofInt 0) := by
    rw [hprobs k]
    simp
  unfold map_step
  simp only [hpk, map_test_eq hM]
  cases hE : M.gt (probs.getD k (M.ofInt 0)) M.MIN_PROB
  · -- entry `k` does not exceed `MIN_PROB`: nothing changes
    simp only [Bool.false_eq_true, if_false]
    refine ⟨hlen, ?_, ?_⟩
    · intro i
      rw [hprobs i]
      by_cases hik : i = k
      · subst hik
        simp only [hE, Nat.lt_irrefl, false_and, and_false, Bool.false_eq_true, if_false]
      · exact if_congr (and_congr_left fun _ => by omega) rfl rfl
    · rcases hbest with ⟨hc, hb, hnone⟩ | ⟨m, hm, hc, hb, hEm, hmax, hlow⟩
      · refine Or.inl ⟨hc, hb, ?_⟩
        intro i hi
        by_cases hik : i = k
        · subst hik
          exact hE
        · exact hnone i (by omega)
      · refine Or.inr ⟨m, by omega, hc, hb, hEm, ?_, hlow⟩
        intro j hj hEj
        by_cases hjk : j = k
        · subst hjk
          rw [hE] at hEj
          exact absurd hEj (by simp)
        · exact hmax j (by omega) hEj
  · -- entry `k` exceeds `MIN_PROB`: it is divided and compared
    have hposk : 0 < ntrees := hpos hE
    have hset : ∀ i, (st.class_probs.set k
        (M.div (probs.getD k (M.ofInt 0)) (M.ofInt ntrees))).getD i (M.ofInt 0) =
        if i < k + 1 ∧ M.gt (probs.getD i (M.ofInt 0)) M.MIN_PROB = true then
          M.div (probs.getD i (M.ofInt 0)) (M.ofInt ntrees)
        else probs.getD i (M.ofInt 0) := by
      intro i
      rw [getD_set_eq _ _ _ _ _ (by omega)]
      by_cases hik : i = k
      · subst hik
        simp only [hE, Nat.lt_succ_self, and_self, if_true]
      · rw [if_neg hik, hprobs i]
        exact if_congr (and_congr_left fun _ => by omega) rfl rfl
    simp only [if_true]
    by_cases hgt : M.gt (M.div (probs.getD k (M.ofInt 0)) (M.ofInt ntrees)) st.best_prob = true
    · simp only [hgt, if_true]
      refine ⟨by simp [hlen], hset, Or.inr ⟨k, by omega, rfl, rfl, hE, ?_, ?_⟩⟩
      · intro j hj hEj
        by_cases hjk : j = k
        · subst hjk
          exact hM.gt_irrefl _
        · rcases hbest with ⟨_, _, hnone⟩ | ⟨m, hm, _, hb, _, hmax, _⟩
          · have := hnone j (by omega)
            rw [this] at hEj
            exact absurd hEj (by simp)
          · have h1 := hmax j (by omega) hEj
            rw [hb] at hgt
            cases h2 : M.gt (M.div (probs.getD j (M.ofInt 0)) (M.ofInt ntrees))
                (M.div (probs.getD k (M.ofInt 0)) (M.ofInt ntrees))
            · rfl
            · have := hM.gt_trans _ _ _ h2 hgt
              rw [this] at h1
              exact absurd h1 (by simp)
      · intro j hj hEj
        rcases hbest with ⟨_, _, hnone⟩ | ⟨m, hm, _, hb, _, hmax, _⟩
        · have := hnone j hj
          rw [this] at hEj
          exact absurd hEj (by simp)
        · have h1 := hmax j hj hEj
          rw [hb] at hgt
          have hnn := hM.div_pos_eq (probs.getD j (M.ofInt 0)) ntrees (gt_MIN_PROB_pos hM _ hEj)
          rcases hM.gt_cotrans _ _ _ hnn hgt with h3 | h3
          · rw [h3] at h1
            exact absurd h1 (by simp)
          · exact h3
    · have hgt2 : M.gt (M.div (probs.getD k (M.ofInt 0)) (M.ofInt ntrees)) st.best_prob = false := by
        simpa using hgt
      simp only [hgt2, Bool.false_eq_true, if_false]
      refine ⟨by simp [hlen], hset, ?_⟩
      rcases hbest with ⟨_, hb, _⟩ | ⟨m, hm, hc, hb, hEm, hmax, hlow⟩
      · have := hM.div_pos_gt (probs.getD k (M.ofInt 0)) ntrees (gt_MIN_PROB_pos hM _ hE) hposk
        rw [hb, this] at hgt2
        exact absurd hgt2 (by simp)
      · refine Or.inr ⟨m, by omega, hc, hb, hEm, ?_, hlow⟩
        intro j hj hEj
        by_cases hjk : j = k
        · subst hjk
          rw [← hb]
          exact hgt2
        · exact hmax j (by omega) hEj

theorem mapInv_fold {M : FloatOps} (hM : FloatLaws M) (ntrees : Int) (probs : List M.F)
    (hpos : ∀ i, i < probs.length →
      M.gt (probs.getD i (M.ofInt 0)) M.MIN_PROB = true → 0 < ntrees) :
    ∀ k, k ≤ probs.length →
      MapInv M ntrees probs k ((List.range k).foldl (map_step M ntrees)
        { best_prob := M.ofInt (-1), pixel_class := ERROR_CLASS, class_probs := probs }) := by
  intro k
  induction k with
  | zero =>
    intro _
    exact mapInv_init M ntrees probs
  | succ k ih =>
    intro hk
    rw [List.range_succ, List.foldl_append]
    exact mapInv_step hM ntrees probs k _ (by omega) (hpos k (by omega)) (ih (by omega))

theorem mapInv_loop {M : FloatOps} (hM : FloatLaws M) (ntrees : Int) (probs : List M.F)
    (hpos : ∀ i, i < probs.length →
      M.gt (probs.getD i (M.ofInt 0)) M.MIN_PROB = true → 0 < ntrees) :
    MapInv M ntrees probs probs.length (map_loop M ntrees probs) :=
  mapInv_fold hM ntrees probs hpos probs.length (Nat.le_refl _)

theorem accumulate_probs_length (M : FloatOps) (probs : List M.F) (leaf : tc_node M.F) :
    (accumulate_probs M probs leaf).length = probs.length := by
  simp [accumulate_probs]

theorem accumulate_probs_getD (M : FloatOps) (probs : List M.F) (leaf : tc_node M.F)
    (i : Nat) (hi : i < probs.length) :
    (accumulate_probs M probs leaf).getD i (M.ofInt 0) =
      M.add (probs.getD i (M.ofInt 0)) (leaf.class_probs.getD i (M.ofInt 0)) := by
  simp [accumulate_probs, List.getD_eq_getElem?_getD, hi]

theorem foldl_accumulate_length (M : FloatOps) (leaves : List (tc_node M.F)) :
    ∀ probs : List M.F, (leaves.foldl (accumulate_probs M) probs).length = probs.length := by
  induction leaves with
  | nil => intro probs; rfl
  | cons lf leaves ih =>
    intro probs
    rw [List.foldl_cons, ih, accumulate_probs_length]

theorem foldl_accumulate_getD (M : FloatOps) (leaves : List (tc_node M.F)) (i : Nat) :
    ∀ probs : List M.F, i < probs.length →
      (leaves.foldl (accumulate_probs M) probs).getD i (M.ofInt 0) =
        leaves.foldl (fun acc lf => M.add acc (lf.class_probs.getD i (M.ofInt 0)))
          (probs.getD i (M.ofInt 0)) := by
  induction leaves with
  | nil => intro probs _; rfl
  | cons lf leaves ih =>
    intro probs hi
    rw [List.foldl_cons, List.foldl_cons, ih _ (by rw [accumulate_probs_length]; exact hi),
      accumulate_probs_getD M probs lf i hi]

theorem classify_trees_leaves (M : FloatOps) (fuel : Nat) (image : tc_image) (r c : Int)
    (out : Option (List M.F)) (forest : tc_forest M.F) :
    ∀ (leaves : List (tc_node M.F)) (k : Nat) (probs : List M.F),
      (∀ i (h : i < leaves.length), ∃ tree, forest.trees[k + i]? = some tree ∧
        tc_walk tree image r c fuel (some 0) = WalkResult.leaf (leaves.get ⟨i, h⟩)) →
      classify_trees M fuel forest image r c out k leaves.length probs =
        some (Sum.inr (leaves.foldl (accumulate_probs M) probs)) := by
  intro leaves
  induction leaves with
  | nil =>
    intro k probs _
    simp [classify_trees]
  | cons lf leaves ih =>
    intro k probs h
    obtain ⟨tree, htree, hwalk⟩ := h 0 (by simp)
    simp only [Nat.add_zero] at htree
    simp only [List.get_eq_getElem, List.getElem_cons_zero] at hwalk
    simp only [List.length_cons, classify_trees, htree, hwalk, List.foldl_cons]
    apply ih
    intro i hi
    obtain ⟨tree2, htree2, hwalk2⟩ := h (i + 1) (by simp; omega)
    refine ⟨tree2, ?_, ?_⟩
    · rw [← htree2]
      congr 1
      omega
    · simpa using hwalk2

theorem final_probs_getD (M : FloatOps) (leaves : List (tc_node M.F)) (n i : Nat)
    (hi : i < n) :
    (leaves.foldl (accumulate_probs M) (List.replicate n (M.ofInt 0))).getD i (M.ofInt 0) =
      leaf_sum M leaves i := by
  rw [foldl_accumulate_getD M leaves i _ (by simpa using hi)]
  simp [leaf_sum, List.getD_eq_getElem?_getD, List.getElem?_replicate, hi]

theorem not_gt_zero_MIN_PROB {M : FloatOps} (hM : FloatLaws M) :
    M.gt (M.ofInt 0) M.MIN_PROB = false := by
  cases h : M.gt (M.ofInt 0) M.MIN_PROB
  · rfl
  · have := hM.gt_trans _ _ _ h hM.MIN_PROB_pos
    rw [hM.gt_irrefl] at this
    exact absurd this (by simp)

/-- The result of `tc_forest_classify` when every walk ends in a leaf. -/
theorem forest_classify_leaves_eq (M : FloatOps) (fuel : Nat) (forest : tc_forest M.F)
    (image : tc_image) (r c : Int) (out : Option (List M.F)) (leaves : List (tc_node M.F))
    (hcls : forest.nclasses ≤ MAX_N_CLASSES)
    (hlen : leaves.length = forest.ntrees.toNat)
    (hwalk : ∀ t (h : t < leaves.length), ∃ tree, forest.trees[t]? = some tree ∧
      tc_walk tree image r c fuel (some 0) = WalkResult.leaf (leaves.get ⟨t, h⟩)) :
    tc_forest_classify M fuel forest image r c out =
      some { status := OK,
             pixel_class := (map_loop M forest.ntrees (leaves.foldl (accumulate_probs M)
               (List.replicate forest.nclasses.toNat (M.ofInt 0)))).pixel_class,
             class_probs_out := out.map fun buf => copy_probs buf
               (map_loop M forest.ntrees (leaves.foldl (accumulate_probs M)
                 (List.replicate forest.nclasses.toNat (M.ofInt 0)))).class_probs } := by
  have hcls2 : ¬ forest.nclasses > MAX_N_CLASSES := by omega
  have h := classify_trees_leaves M fuel image r c out forest leaves 0
    (List.replicate forest.nclasses.toNat (M.ofInt 0))
    (by
      intro i hi
      obtain ⟨tree, h1, h2⟩ := hwalk i hi
      exact ⟨tree, by simpa using h1, h2⟩)
  rw [hlen] at h
  simp only [tc_forest_classify, hcls2, if_false, h]

theorem final_probs_pos {M : FloatOps} (hM : FloatLaws M) (leaves : List (tc_node M.F))
    (ntrees : Int) (n : Nat) (hlen : leaves.length = ntrees.toNat) :
    ∀ i, i < (leaves.foldl (accumulate_probs M) (List.replicate n (M.ofInt 0))).length →
      M.gt ((leaves.foldl (accumulate_probs M) (List.replicate n (M.ofInt 0))).getD i
        (M.ofInt 0)) M.MIN_PROB = true → 0 < ntrees := by
  intro i hi hE
  rw [foldl_accumulate_length, List.length_replicate] at hi
  rw [final_probs_getD M leaves n i hi] at hE
  by_contra hneg
  have hnil : leaves = [] := by
    apply List.eq_nil_of_length_eq_zero
    omega
  subst hnil
  simp only [leaf_sum, List.foldl_nil] at hE
  rw [not_gt_zero_MIN_PROB hM] at hE
  exact absurd hE (by simp)

/-- C2: when every tree walk reaches a leaf, `tc_forest_classify` returns `OK`
and the class is determined by the sums `leaf_sum M leaves i` of the reached
leaves: it is `ERROR_CLASS` when no sum of a class below `nclasses` exceeds
`MIN_PROB`; otherwise it is the index `k` below `nclasses` with
`leaf_sum k > MIN_PROB` such that no class exceeding `MIN_PROB` has a larger
quotient by `ntrees`, and every lower such class has a strictly smaller
quotient.  In particular the class is `ERROR_CLASS` or an index whose sum
exceeds `MIN_PROB`. -/
theorem forest_classify_map_class (M : FloatOps) (hM : FloatLaws M) (fuel : Nat)
    (forest : tc_forest M.F) (image : tc_image) (r c : Int) (out : Option (List M.F))
    (leaves : List (tc_node M.F))
    (hcls : forest.nclasses ≤ MAX_N_CLASSES)
    (hlen : leaves.length = forest.ntrees.toNat)
    (hwalk : ∀ t (h : t < leaves.length), ∃ tree, forest.trees[t]? = some tree ∧
      tc_walk tree image r c fuel (some 0) = WalkResult.leaf (leaves.get ⟨t, h⟩)) :
    ∃ res, tc_forest_classify M fuel forest image r c out = some res ∧ res.status = OK ∧
      ((res.pixel_class = ERROR_CLASS ∧
          ∀ i, i < forest.nclasses.toNat → M.gt (leaf_sum M leaves i) M.MIN_PROB = false) ∨
       (∃ k, k < forest.nclasses.toNat ∧ res.pixel_class = (k : Int) ∧
          M.gt (leaf_sum M leaves k) M.MIN_PROB = true ∧
          (∀ j, j < forest.nclasses.toNat → M.gt (leaf_sum M leaves j) M.MIN_PROB = true →
            M.gt (M.div (leaf_sum M leaves j) (M.ofInt forest.ntrees))
              (M.div (leaf_sum M leaves k) (M.ofInt forest.ntrees)) = false) ∧
          (∀ j, j < k → M.gt (leaf_sum M leaves j) M.MIN_PROB = true →
            M.gt (M.div (leaf_sum M leaves k) (M.ofInt forest.ntrees))
              (M.div (leaf_sum M leaves j) (M.ofInt forest.ntrees)) = true))) := by
  refine ⟨_, forest_classify_leaves_eq M fuel forest image r c out leaves hcls hlen hwalk,
    rfl, ?_⟩
  have hinv := mapInv_loop hM forest.ntrees
    (leaves.foldl (accumulate_probs M) (List.replicate forest.nclasses.toNat (M.ofInt 0)))
    (final_probs_pos hM leaves forest.ntrees forest.nclasses.toNat hlen)
  have hL : (leaves.foldl (accumulate_probs M)
      (List.replicate forest.nclasses.toNat (M.ofInt 0))).length = forest.nclasses.toNat := by
    rw [foldl_accumulate_length, List.length_replicate]
  rw [hL] at hinv
  obtain ⟨_, _, hbest⟩ := hinv
  rcases hbest with ⟨hc, _, hnone⟩ | ⟨m, hm, hc, _, hEm, hmax, hlow⟩
  · refine Or.inl ⟨hc, ?_⟩
    intro i hi
    have := hnone i hi
    rwa [final_probs_getD M leaves _ i hi] at this
  · refine Or.inr ⟨m, hm, hc, ?_, ?_, ?_⟩
    · rwa [final_probs_getD M leaves _ m hm] at hEm
    · intro j hj hEj
      have := hmax j hj (by rwa [final_probs_getD M leaves _ j hj])
      rwa [final_probs_getD M leaves _ j hj, final_probs_getD M leaves _ m hm] at this
    · intro j hj hEj
      have hjn : j < forest.nclasses.toNat := by omega
      have := hlow j hj (by rwa [final_probs_getD M leaves _ j hjn])
      rwa [final_probs_getD M leaves _ j hjn, final_probs_getD M leaves _ m hm] at this

/-- Exact rational arithmetic satisfies the laws. -/
theorem ratLaws : FloatLaws ratOps where
  gt_irrefl := by
    intro a
    simp
  gt_trans := by
    intro a b c h1 h2
    simp only [gt_iff_lt, decide_eq_true_eq] at h1 h2 ⊢
    exact lt_trans h2 h1
  gt_cotrans := by
    intro a b c _ h
    simp only [gt_iff_lt, decide_eq_true_eq] at h ⊢
    rcases lt_or_le a b with h1 | h1
    · exact Or.inl h1
    · exact Or.inr (lt_of_le_of_lt h1 h)
  MIN_PROB_pos := by
    simp only [gt_iff_lt, decide_eq_true_eq]
    norm_num
  add_zero_zero := by
    simp
  div_pos_gt := by
    intro p n hp hn
    simp only [gt_iff_lt, decide_eq_true_eq, Int.cast_zero, Int.cast_neg, Int.cast_one] at hp ⊢
    have hn2 : (0 : ℚ) < (n : ℚ) := by exact_mod_cast hn
    have : (0 : ℚ) < p / (n : ℚ) := div_pos hp hn2
    linarith
  div_pos_eq := by
    intro p n _
    simp

/-- C2 evaluated: two trees reach leaves at pixel `(0, 0)`. -/
theorem forest_classify_map_class_witness :
    ∃ res, tc_forest_classify ratOps 3 exForest exImage 0 0 none = some res ∧
      res.status = OK ∧
      (res.pixel_class = ERROR_CLASS ∨
        ∃ k : Nat, k < 3 ∧ res.pixel_class = (k : Int) ∧
          ratOps.gt (leaf_sum ratOps exLeaves k) ratOps.MIN_PROB = true) := by
  obtain ⟨res, h1, h2, h3⟩ := forest_classify_map_class ratOps ratLaws 3 exForest
    exImage 0 0 none exLeaves (by decide) (by decide)
    (by
      intro t h
      have ht : t = 0 ∨ t = 1 := by
        simp only [exLeaves, List.length_cons, List.length_nil] at h
        omega
      rcases ht with rfl | rfl
      · exact ⟨exTree, rfl, rfl⟩
      · exact ⟨exLeafTree, rfl, rfl⟩)
  refine ⟨res, h1, h2, ?_⟩
  rcases h3 with ⟨h, _⟩ | ⟨k, hk, hc, hE, _⟩
  · exact Or.inl h
  · exact Or.inr ⟨k, hk, hc, hE⟩

theorem copy_probs_getD {F : Type} (out probs : List F) (i : Nat) (d : F)
    (hi : i < probs.length) : (copy_probs out probs).getD i d = probs.getD i d := by
  simp [copy_probs, List.getD_eq_getElem?_getD, List.getElem?_append_left hi]

/-- C3 as stated fails: in a forest of two trees whose walks both reach leaves,
entry 1 of the caller buffer receives 5/8, the accumulated sum 5/4 divided
by `ntrees`, not the sum itself. -/
theorem forest_classify_probs_out_counterexample :
    (∀ t (h : t < exLeaves.length), ∃ tree, exForest.trees[t]? = some tree ∧
      tc_walk tree exImage 0 0 3 (some 0) = WalkResult.leaf (exLeaves.get ⟨t, h⟩)) ∧
    tc_forest_classify ratOps 3 exForest exImage 0 0 (some exBuf) =
      some { status := OK, pixel_class := 1,
             class_probs_out := some [0, 5/8, 3/8, 7, 7, 7, 7, 7] } ∧
    leaf_sum ratOps exLeaves 1 = 5/4 ∧
    ([0, 5/8, 3/8, 7, 7, 7, 7, 7] : List ℚ).getD 1 0 ≠ leaf_sum ratOps exLeaves 1 := by
  refine ⟨?_, ?_, ?_, ?_⟩
  · intro t h
    have ht : t = 0 ∨ t = 1 := by
      simp only [exLeaves, List.length_cons, List.length_nil] at h
      omega
    rcases ht with rfl | rfl
    · exact ⟨exTree, rfl, rfl⟩
    · exact ⟨exLeafTree, rfl, rfl⟩
  · with_unfolding_all rfl
  · with_unfolding_all rfl
  · have h : leaf_sum ratOps exLeaves 1 = 5/4 := by with_unfolding_all rfl
    rw [h]
    norm_num

/-- C3 amended: when every tree walk reaches a leaf and the caller supplies a
buffer, entry `i < nclasses` of the buffer receives `leaf_sum i / ntrees` when
`leaf_sum i > MIN_PROB`, and the sum `leaf_sum i` itself otherwise. -/
theorem forest_classify_probs_out (M : FloatOps) (hM : FloatLaws M) (fuel : Nat)
    (forest : tc_forest M.F) (image : tc_image) (r c : Int) (buf : List M.F)
    (leaves : List (tc_node M.F))
    (hcls : forest.nclasses ≤ MAX_N_CLASSES)
    (hlen : leaves.length = forest.ntrees.toNat)
    (hwalk : ∀ t (h : t < leaves.length), ∃ tree, forest.trees[t]? = some tree ∧
      tc_walk tree image r c fuel (some 0) = WalkResult.leaf (leaves.get ⟨t, h⟩)) :
    ∃ res out, tc_forest_classify M fuel forest image r c (some buf) = some res ∧
      res.status = OK ∧ res.class_probs_out = some out ∧
      ∀ i, i < forest.nclasses.toNat →
        out.getD i (M.ofInt 0) =
          if M.gt (leaf_sum M leaves i) M.MIN_PROB = true then
            M.div (leaf_sum M leaves i) (M.ofInt forest.ntrees)
          else leaf_sum M leaves i := by
  refine ⟨_, _, forest_classify_leaves_eq M fuel forest image r c (some buf) leaves hcls hlen
    hwalk, rfl, rfl, ?_⟩
  intro i hi
  have hinv := mapInv_loop hM forest.ntrees
    (leaves.foldl (accumulate_probs M) (List.replicate forest.nclasses.toNat (M.ofInt 0)))
    (final_probs_pos hM leaves forest.ntrees forest.nclasses.toNat hlen)
  have hL : (leaves.foldl (accumulate_probs M)
      (List.replicate forest.nclasses.toNat (M.ofInt 0))).length = forest.nclasses.toNat := by
    rw [foldl_accumulate_length, List.length_replicate]
  rw [hL] at hinv
  obtain ⟨hlen2, hprobs, _⟩ := hinv
  rw [copy_probs_getD _ _ _ _ (by rw [hlen2, hL]; exact hi), hprobs i,
    final_probs_getD M leaves _ i hi]
  exact if_congr (and_iff_right hi) rfl rfl

/-- C3 amended, evaluated on the forest of two trees. -/
theorem forest_classify_probs_out_witness :
    ∃ res out, tc_forest_classify ratOps 3 exForest exImage 0 0 (some exBuf) = some res ∧
      res.status = OK ∧ res.class_probs_out = some out ∧
      ∀ i, i < 3 →
        out.getD i (0 : ℚ) =
          if ratOps.gt (leaf_sum ratOps exLeaves i) ratOps.MIN_PROB = true then
            ratOps.div (leaf_sum ratOps exLeaves i) (ratOps.ofInt 2)
          else leaf_sum ratOps exLeaves i := by
  have h := forest_classify_probs_out ratOps ratLaws 3 exForest exImage 0 0 exBuf exLeaves
    (by decide) (by decide)
    (by
      intro t h
      have ht : t = 0 ∨ t = 1 := by
        simp only [exLeaves, List.length_cons, List.length_nil] at h
        omega
      rcases ht with rfl | rfl
      · exact ⟨exTree, rfl, rfl⟩
      · exact ⟨exLeafTree, rfl, rfl⟩)
  simpa [exForest] using h

theorem tc_deref_mem {F : Type} (tree : tc_tree F) (p : Option Int) (node : tc_node F)
    (h : tc_deref tree p = some node) : node ∈ tree.nodes := by
  unfold tc_deref at h
  cases p with
  | none => simp at h
  | some i =>
    simp only at h
    split at h
    · exact List.getElem?_mem h
    · simp at h

theorem tc_walk_leaf_mem {F : Type} (tree : tc_tree F) (image : tc_image) (r c : Int)
    (node : tc_node F) :
    ∀ (fuel : Nat) (p : Option Int),
      tc_walk tree image r c fuel p = WalkResult.leaf node →
      node ∈ tree.nodes ∧ tc_isleaf node = true := by
  intro fuel
  induction fuel with
  | zero =>
    intro p h
    simp [tc_walk] at h
  | succ fuel ih =>
    intro p h
    unfold tc_walk at h
    cases hd : tc_deref tree p with
    | none => simp [hd] at h
    | some nd =>
      simp only [hd] at h
      by_cases hleaf : tc_isleaf nd = true
      · simp only [hleaf, if_true] at h
        injection h with h
        subst h
        exact ⟨tc_deref_mem tree p nd hd, hleaf⟩
      · simp only [hleaf, Bool.false_eq_true, if_false] at h
        split at h
        · simp at h
        · split at h
          · exact ih _ h
          · exact ih _ h

theorem classify_trees_inl (M : FloatOps) (fuel : Nat) (image : tc_image) (r c : Int)
    (out : Option (List M.F)) (forest : tc_forest M.F) (res : ClassifyResult M.F) :
    ∀ (n k : Nat) (probs : List M.F),
      classify_trees M fuel forest image r c out k n probs = some (Sum.inl res) →
      res = { status := OK, pixel_class := ERROR_CLASS, class_probs_out := out } := by
  intro n
  induction n with
  | zero =>
    intro k probs h
    simp [classify_trees] at h
  | succ n ih =>
    intro k probs h
    unfold classify_trees at h
    cases ht : forest.trees[k]? with
    | none => simp [ht] at h
    | some tree =>
      simp only [ht] at h
      cases hw : tc_walk tree image r c fuel (some 0) with
      | stuck => simp [hw] at h
      | nodata =>
        simp only [hw, Option.some.injEq, Sum.inl.injEq] at h
        exact h.symm
      | leaf node =>
        simp only [hw] at h
        exact ih _ _ h

theorem classify_trees_inr (M : FloatOps) (fuel : Nat) (image : tc_image) (r c : Int)
    (out : Option (List M.F)) (forest : tc_forest M.F) (probs2 : List M.F) :
    ∀ (n k : Nat) (probs : List M.F),
      classify_trees M fuel forest image r c out k n probs = some (Sum.inr probs2) →
      ∃ leaves : List (tc_node M.F), leaves.length = n ∧
        (∀ i (h : i < leaves.length), ∃ tree, forest.trees[k + i]? = some tree ∧
          tc_walk tree image r c fuel (some 0) = WalkResult.leaf (leaves.get ⟨i, h⟩)) ∧
        probs2 = leaves.foldl (accumulate_probs M) probs := by
  intro n
  induction n with
  | zero =>
    intro k probs h
    simp only [classify_trees, Option.some.injEq, Sum.inr.injEq] at h
    exact ⟨[], rfl, by intro i hi; simp at hi, h.symm⟩
  | succ n ih =>
    intro k probs h
    unfold classify_trees at h
    cases ht : forest.trees[k]? with
    | none => simp [ht] at h
    | some tree =>
      simp only [ht] at h
      cases hw : tc_walk tree image r c fuel (some 0) with
      | stuck => simp [hw] at h
      | nodata => simp [hw] at h
      | leaf node =>
        simp only [hw] at h
        obtain ⟨leaves, hlen, hwalk, hp⟩ := ih _ _ h
        refine ⟨node :: leaves, by simp [hlen], ?_, by simpa using hp⟩
        intro i hi
        cases i with
        | zero => exact ⟨tree, by simpa using ht, by simpa using hw⟩
        | succ j =>
          obtain ⟨tree2, h1, h2⟩ := hwalk j (by simp at hi; omega)
          refine ⟨tree2, ?_, by simpa using h2⟩
          rw [← h1]
          congr 1
          omega

theorem leaf_sum_zero {M : FloatOps} (hM : FloatLaws M) (leaves : List (tc_node M.F))
    (h : ∀ lf ∈ leaves, lf.class_probs.getD 0 (M.ofInt 0) = M.ofInt 0) :
    leaf_sum M leaves 0 = M.ofInt 0 := by
  unfold leaf_sum
  induction leaves with
  | nil => rfl
  | cons lf leaves ih =>
    rw [List.foldl_cons, h lf (by simp), hM.add_zero_zero]
    exact ih (fun lf2 h2 => h lf2 (by simp [h2]))

/-- C4: in a forest whose leaves all have `class_probs[0] = 0`, whatever
`tc_forest_classify` returns is `ERROR_CLASS` or a class index in
`[1, nclasses)`; it is never class 0. -/
theorem forest_classify_never_class_zero (M : FloatOps) (hM : FloatLaws M) (fuel : Nat)
    (forest : tc_forest M.F) (image : tc_image) (r c : Int) (out : Option (List M.F))
    (res : ClassifyResult M.F)
    (hzero : ∀ tree ∈ forest.trees, ∀ node ∈ tree.nodes, tc_isleaf node = true →
      node.class_probs.getD 0 (M.ofInt 0) = M.ofInt 0)
    (hres : tc_forest_classify M fuel forest image r c out = some res) :
    res.status = OK ∧ res.pixel_class ≠ 0 ∧
      (res.pixel_class = ERROR_CLASS ∨
        (1 ≤ res.pixel_class ∧ res.pixel_class < forest.nclasses)) := by
  unfold tc_forest_classify at hres
  by_cases hcls : forest.nclasses > MAX_N_CLASSES
  · simp [hcls] at hres
  · simp only [hcls, if_false] at hres
    cases hct : classify_trees M fuel forest image r c out 0 forest.ntrees.toNat
        (List.replicate forest.nclasses.toNat (M.ofInt 0)) with
    | none => simp [hct] at hres
    | some v =>
      cases v with
      | inl res2 =>
        simp only [hct, Option.some.injEq] at hres
        have h2 := classify_trees_inl M fuel image r c out forest res2 _ _ _ hct
        subst hres
        subst h2
        exact ⟨rfl, by simp [ERROR_CLASS], Or.inl rfl⟩
      | inr probs =>
        simp only [hct, Option.some.injEq] at hres
        obtain ⟨leaves, hlen, hwalk, hp⟩ :=
          classify_trees_inr M fuel image r c out forest probs _ _ _ hct
        subst hp
        have hsum0 : leaf_sum M leaves 0 = M.ofInt 0 := by
          apply leaf_sum_zero hM
          intro lf hlf
          obtain ⟨i, hi, rfl⟩ := List.getElem_of_mem hlf
          obtain ⟨tree, h1, h2⟩ := hwalk i hi
          have hmem := tc_walk_leaf_mem tree image r c _ _ _ h2
          exact hzero tree (List.getElem?_mem h1) _ hmem.1 hmem.2
        have hinv := mapInv_loop hM forest.ntrees
          (leaves.foldl (accumulate_probs M)
            (List.replicate forest.nclasses.toNat (M.ofInt 0)))
          (final_probs_pos hM leaves forest.ntrees forest.nclasses.toNat hlen)
        have hL : (leaves.foldl (accumulate_probs M)
            (List.replicate forest.nclasses.toNat (M.ofInt 0))).length =
            forest.nclasses.toNat := by
          rw [foldl_accumulate_length, List.length_replicate]
        rw [hL] at hinv
        obtain ⟨_, _, hbest⟩ := hinv
        subst hres
        rcases hbest with ⟨hc, _, _⟩ | ⟨m, hm, hc, _, hEm, _, _⟩
        · refine ⟨rfl, ?_, Or.inl hc⟩
          show (map_loop M forest.ntrees _).pixel_class ≠ 0
          rw [hc]
          decide
        · rw [final_probs_getD M leaves _ m hm] at hEm
          have hm0 : m ≠ 0 := by
            intro h0
            subst h0
            rw [hsum0, not_gt_zero_MIN_PROB hM] at hEm
            exact absurd hEm (by simp)
          refine ⟨rfl, ?_, Or.inr ⟨?_, ?_⟩⟩
          · show (map_loop M forest.ntrees _).pixel_class ≠ 0
            rw [hc]
            omega
          · show 1 ≤ (map_loop M forest.ntrees _).pixel_class
            rw [hc]
            omega
          · show (map_loop M forest.ntrees _).pixel_class < forest.nclasses
            rw [hc]
            omega

/-- C4 evaluated on the forest of two trees at pixel `(0, 0)`. -/
theorem forest_classify_never_class_zero_witness :
    ∃ res, tc_forest_classify ratOps 3 exForest exImage 0 0 none = some res ∧
      res.pixel_class ≠ 0 ∧
      (res.pixel_class = ERROR_CLASS ∨
        (1 ≤ res.pixel_class ∧ res.pixel_class < exForest.nclasses)) := by
  have hres : tc_forest_classify ratOps 3 exForest exImage 0 0 none =
      some { status := OK, pixel_class := 1, class_probs_out := none } := by
    with_unfolding_all rfl
  have h := forest_classify_never_class_zero ratOps ratLaws 3 exForest exImage 0 0 none _
    (by
      intro tree htree node hnode _
      simp only [exForest, List.mem_cons, List.mem_singleton, List.not_mem_nil,
        or_false] at htree
      rcases htree with rfl | rfl
      · simp only [exTree, List.mem_cons, List.mem_singleton, List.not_mem_nil,
          or_false] at hnode
        rcases hnode with rfl | rfl | rfl <;> rfl
      · simp only [exLeafTree, List.mem_singleton] at hnode
        subst hnode
        rfl)
    hres
  exact ⟨_, hres, h.2.1, h.2.2⟩

/-! ## Theorems: filter evaluation -/

theorem tc_get_range (img : tc_image) (row col chan : Int) :
    0 ≤ tc_get img row col chan ∧ tc_get img row col chan ≤ 255 := by
  unfold tc_get
  have := (img.data.getD (tc_index img row col chan).toNat 0).isLt
  omega

/-- C5: `tc_filter_pixel` returns `ERR` with `*result = 999999` whenever
position or channel A is outside the image, for any filter kind; for every
kind other than `TC_FILTER_RAW` also whenever position or channel B is
outside; and a `TC_FILTER_RAW` filter with A inside returns `OK` whatever B
is. -/
theorem filter_pixel_nodata (filter : tc_filter) (image : tc_image) (r c result : Int) :
    (¬ in_image image (filter.rowA + r) (filter.colA + c) filter.chanA →
      tc_filter_pixel filter image r c result = (ERR, TC_FILTER_NODATA)) ∧
    (filter.function ≠ TC_FILTER_RAW →
      ¬ in_image image (filter.rowB + r) (filter.colB + c) filter.chanB →
      tc_filter_pixel filter image r c result = (ERR, TC_FILTER_NODATA)) ∧
    (filter.function = TC_FILTER_RAW →
      in_image image (filter.rowA + r) (filter.colA + c) filter.chanA →
      tc_filter_pixel filter image r c result =
        (OK, tc_get image (filter.rowA + r) (filter.colA + c) filter.chanA)) := by
  refine ⟨?_, ?_, ?_⟩
  · intro hA
    unfold tc_filter_pixel
    simp only
    rw [if_pos]
    unfold in_image at hA
    omega
  · intro hf hB
    unfold tc_filter_pixel
    simp only
    split
    · rfl
    · rw [if_pos]
      refine ⟨hf, ?_⟩
      unfold in_image at hB
      omega
  · intro hf hA
    unfold tc_filter_pixel
    simp only
    rw [if_neg, if_neg, if_pos hf]
    · intro h
      exact h.1 hf
    · unfold in_image at hA
      omega

/-- C5 evaluated: a difference filter reaching past the right border, and a raw
filter whose B offsets are far outside. -/
theorem filter_pixel_nodata_witness :
    tc_filter_pixel exSplit.filter exImage 0 1 0 = (ERR, TC_FILTER_NODATA) ∧
    tc_filter_pixel exRaw exImage 0 1 0 = (OK, 40) := by
  constructor
  · exact (filter_pixel_nodata exSplit.filter exImage 0 1 0).2.1 (by decide) (by decide)
  · exact (filter_pixel_nodata exRaw exImage 0 1 0).2.2 rfl (by decide)

theorem filter_pixel_checks_pass (filter : tc_filter) (image : tc_image) (r c : Int)
    (hA : in_image image (filter.rowA + r) (filter.colA + c) filter.chanA) :
    ¬ (filter.rowA + r ≥ image.rows ∨ filter.rowA + r < 0 ∨ filter.colA + c ≥ image.cols ∨
      filter.colA + c < 0 ∨ filter.chanA ≥ image.chans ∨ filter.chanA < 0) := by
  unfold in_image at hA
  omega

theorem filter_pixel_checks_pass_B (filter : tc_filter) (image : tc_image) (r c : Int)
    (hB : in_image image (filter.rowB + r) (filter.colB + c) filter.chanB) :
    ¬ (filter.function ≠ TC_FILTER_RAW ∧
      (filter.rowB + r ≥ image.rows ∨ filter.rowB + r < 0 ∨ filter.colB + c ≥ image.cols ∨
        filter.colB + c < 0 ∨ filter.chanB ≥ image.chans ∨ filter.chanB < 0)) := by
  unfold in_image at hB
  omega

/-- C6: when the bounds checks pass, `tc_filter_pixel` returns `OK` with
`A` for Raw, `A + B` for Sum, `A - B` (within `[-255, 255]`) for Diff,
`|A - B|` for Abs, and for Rect the four-corner sum
`I(rA,cA) + I(rB,cB) - I(rA,cB) - I(rB,cA)` read on channel `chanA`, every one
of the four reads lying inside the image. -/
theorem filter_pixel_in_bounds (filter : tc_filter) (image : tc_image) (r c result : Int)
    (hA : in_image image (filter.rowA + r) (filter.colA + c) filter.chanA) :
    (filter.function = TC_FILTER_RAW →
      tc_filter_pixel filter image r c result =
        (OK, tc_get image (filter.rowA + r) (filter.colA + c) filter.chanA)) ∧
    (in_image image (filter.rowB + r) (filter.colB + c) filter.chanB →
      (filter.function = TC_FILTER_SUM →
        tc_filter_pixel filter image r c result =
          (OK, tc_get image (filter.rowA + r) (filter.colA + c) filter.chanA +
            tc_get image (filter.rowB + r) (filter.colB + c) filter.chanB)) ∧
      (filter.function = TC_FILTER_DIFF →
        tc_filter_pixel filter image r c result =
          (OK, tc_get image (filter.rowA + r) (filter.colA + c) filter.chanA -
            tc_get image (filter.rowB + r) (filter.colB + c) filter.chanB) ∧
        -255 ≤ (tc_filter_pixel filter image r c result).2 ∧
        (tc_filter_pixel filter image r c result).2 ≤ 255) ∧
      (filter.function = TC_FILTER_ABS →
        tc_filter_pixel filter image r c result =
          (OK, |tc_get image (filter.rowA + r) (filter.colA + c) filter.chanA -
            tc_get image (filter.rowB + r) (filter.colB + c) filter.chanB|)) ∧
      (filter.function = TC_FILTER_RECT →
        tc_filter_pixel filter image r c result =
          (OK, tc_get image (filter.rowA + r) (filter.colA + c) filter.chanA +
            tc_get image (filter.rowB + r) (filter.colB + c) filter.chanA -
            tc_get image (filter.rowA + r) (filter.colB + c) filter.chanA -
            tc_get image (filter.rowB + r) (filter.colA + c) filter.chanA) ∧
        in_image image (filter.rowA + r) (filter.colA + c) filter.chanA ∧
        in_image image (filter.rowB + r) (filter.colB + c) filter.chanA ∧
        in_image image (filter.rowA + r) (filter.colB + c) filter.chanA ∧
        in_image image (filter.rowB + r) (filter.colA + c) filter.chanA)) := by
  have hcA := filter_pixel_checks_pass filter image r c hA
  refine ⟨?_, ?_⟩
  · intro hf
    unfold tc_filter_pixel
    simp only
    rw [if_neg hcA, if_neg (fun h => h.1 hf), if_pos hf]
  · intro hB
    have hcB := filter_pixel_checks_pass_B filter image r c hB
    refine ⟨?_, ?_, ?_, ?_⟩
    · intro hf
      unfold tc_filter_pixel
      simp only
      rw [if_neg hcA, if_neg hcB, if_neg (by rw [hf]; decide), if_pos hf]
    · intro hf
      have e : tc_filter_pixel filter image r c result =
          (OK, tc_get image (filter.rowA + r) (filter.colA + c) filter.chanA -
            tc_get image (filter.rowB + r) (filter.colB + c) filter.chanB) := by
        unfold tc_filter_pixel
        simp only
        rw [if_neg hcA, if_neg hcB, if_neg (by rw [hf]; decide), if_neg (by rw [hf]; decide),
          if_pos hf]
      have hA2 := tc_get_range image (filter.rowA + r) (filter.colA + c) filter.chanA
      have hB2 := tc_get_range image (filter.rowB + r) (filter.colB + c) filter.chanB
      rw [e]
      refine ⟨rfl, ?_, ?_⟩ <;> simp only <;> omega
    · intro hf
      unfold tc_filter_pixel
      simp only
      rw [if_neg hcA, if_neg hcB, if_neg (by rw [hf]; decide), if_neg (by rw [hf]; decide),
        if_neg (by rw [hf]; decide), if_pos hf, Int.natCast_natAbs]
    · intro hf
      refine ⟨?_, hA, ?_, ?_, ?_⟩
      · unfold tc_filter_pixel
        simp only
        rw [if_neg hcA, if_neg hcB, if_neg (by rw [hf]; decide), if_neg (by rw [hf]; decide),
          if_neg (by rw [hf]; decide), if_neg (by rw [hf]; decide),
          if_neg (by rw [hf]; decide), if_pos hf]
      · unfold in_image at hA hB ⊢
        omega
      · unfold in_image at hA hB ⊢
        omega
      · unfold in_image at hA hB ⊢
        omega

/-- C6 evaluated: the rectangle filter on the 2 x 2 image at pixel `(0, 0)`. -/
theorem filter_pixel_in_bounds_witness :
    tc_filter_pixel exRect exImage 0 0 0 = (OK, 10 + 40 - 20 - 30) ∧
      in_image exImage 0 1 0 ∧ in_image exImage 1 0 0 := by
  have h := ((filter_pixel_in_bounds exRect exImage 0 0 0 (by decide)).2 (by decide)).2.2.2 rfl
  exact ⟨h.1, h.2.2.2.1, h.2.2.2.2⟩

/-- C7: an in-bounds Ratio filter returns `OK` with the quotient, truncated
toward zero, of `100 * A - 100 * B` by `A + 1`, and the divisor lies in
`[1, 256]`. -/
theorem filter_pixel_ratio (filter : tc_filter) (image : tc_image) (r c result : Int)
    (hf : filter.function = TC_FILTER_RATIO)
    (hA : in_image image (filter.rowA + r) (filter.colA + c) filter.chanA)
    (hB : in_image image (filter.rowB + r) (filter.colB + c) filter.chanB) :
    tc_filter_pixel filter image r c result =
      (OK, Int.tdiv
        (100 * tc_get image (filter.rowA + r) (filter.colA + c) filter.chanA -
          100 * tc_get image (filter.rowB + r) (filter.colB + c) filter.chanB)
        (tc_get image (filter.rowA + r) (filter.colA + c) filter.chanA + 1)) ∧
    1 ≤ tc_get image (filter.rowA + r) (filter.colA + c) filter.chanA + 1 ∧
    tc_get image (filter.rowA + r) (filter.colA + c) filter.chanA + 1 ≤ 256 := by
  have hcA := filter_pixel_checks_pass filter image r c hA
  have hcB := filter_pixel_checks_pass_B filter image r c hB
  have hA2 := tc_get_range image (filter.rowA + r) (filter.colA + c) filter.chanA
  refine ⟨?_, by omega, by omega⟩
  unfold tc_filter_pixel
  simp only
  rw [if_neg hcA, if_neg hcB, if_neg (by rw [hf]; decide), if_neg (by rw [hf]; decide),
    if_neg (by rw [hf]; decide), if_neg (by rw [hf]; decide), if_pos hf]
  simp only [TC_FIXEDPT_PRECIS_FACTOR, Int.mul_comm]

/-- C7 evaluated: `A = 10`, `B = 20` gives `(1000 - 2000) / 11 = -90`. -/
theorem filter_pixel_ratio_witness :
    tc_filter_pixel exRatio exImage 0 0 0 = (OK, -90) :=
  (filter_pixel_ratio exRatio exImage 0 0 0 rfl (by decide) (by decide)).1

/-! ## Theorems: printing and reading numerals -/

theorem digitChar_spec (m : Nat) (h : m < 10) :
    is_dec_digit (Nat.digitChar m) = true ∧ digit_val (Nat.digitChar m) = m ∧
      (Nat.digitChar m = '0' → m = 0) := by
  interval_cases m <;> decide

theorem digits_val_append (base : Nat) (ds : List Char) (c : Char) :
    digits_val base (ds ++ [c]) = digits_val base ds * base + digit_val c := by
  simp [digits_val, List.foldl_append]

theorem dec_digits_spec :
    ∀ (fuel n : Nat), n < fuel →
      (∀ c ∈ dec_digits fuel n, is_dec_digit c = true) ∧
      digits_val 10 (dec_digits fuel n) = n ∧
      ∃ d ds, dec_digits fuel n = d :: ds ∧ (d = '0' → n = 0 ∧ ds = []) := by
  intro fuel
  induction fuel with
  | zero =>
    intro n h
    omega
  | succ fuel ih =>
    intro n hn
    unfold dec_digits
    by_cases h10 : n < 10
    · rw [if_pos h10]
      obtain ⟨h1, h2, h3⟩ := digitChar_spec n h10
      refine ⟨?_, ?_, Nat.digitChar n, [], rfl, fun e => ⟨h3 e, rfl⟩⟩
      · intro c hc
        simp only [List.mem_singleton] at hc
        rw [hc]
        exact h1
      · simp [digits_val, h2]
    · rw [if_neg h10]
      obtain ⟨i1, i2, d, ds, i3, i4⟩ := ih (n / 10) (by omega)
      obtain ⟨h1, h2, _⟩ := digitChar_spec (n % 10) (Nat.mod_lt _ (by omega))
      refine ⟨?_, ?_, d, ds ++ [Nat.digitChar (n % 10)], ?_, ?_⟩
      · intro c hc
        rw [List.mem_append] at hc
        rcases hc with hc | hc
        · exact i1 c hc
        · simp only [List.mem_singleton] at hc
          rw [hc]
          exact h1
      · rw [digits_val_append, i2, h2]
        omega
      · rw [i3]
        rfl
      · intro e
        have := (i4 e).1
        omega

theorem fmt_nat_spec (n : Nat) :
    (∀ c ∈ fmt_nat n, is_dec_digit c = true) ∧
      digits_val 10 (fmt_nat n) = n ∧
      ∃ d ds, fmt_nat n = d :: ds ∧ (d = '0' → n = 0 ∧ ds = []) :=
  dec_digits_spec (n + 1) n (by omega)

theorem takeWhile_append_stop {α : Type} (p : α → Bool) (ds rest : List α)
    (hds : ∀ c ∈ ds, p c = true) (hrest : ∀ c t, rest = c :: t → p c = false) :
    (ds ++ rest).takeWhile p = ds ∧ (ds ++ rest).dropWhile p = rest := by
  induction ds with
  | nil =>
    cases rest with
    | nil => simp
    | cons c t =>
      have := hrest c t rfl
      simp [List.takeWhile, List.dropWhile, this]
  | cons d ds ih =>
    have hd := hds d (by simp)
    have := ih (fun c hc => hds c (by simp [hc]))
    simp [List.takeWhile, List.dropWhile, hd, this.1, this.2]

theorem digit_not_special (c : Char) (h : is_dec_digit c = true) :
    isspace c = false ∧ c ≠ '-' ∧ c ≠ '+' := by
  unfold is_dec_digit at h
  have h1 := of_decide_eq_true h
  unfold isspace
  simp only [Bool.or_eq_false_iff, decide_eq_false_iff_not]
  refine ⟨⟨⟨⟨⟨⟨?_, ?_⟩, ?_⟩, ?_⟩, ?_⟩, ?_⟩, ?_, ?_⟩ <;>
    (intro e; subst e; revert h1; decide)

theorem oct_digit_is_dec (c : Char) (h : is_dec_digit c = false) : is_oct_digit c = false := by
  unfold is_dec_digit at h
  unfold is_oct_digit
  have h1 := of_decide_eq_false h
  apply decide_eq_false
  intro h2
  apply h1
  have : '7'.toNat ≤ '9'.toNat := by decide
  exact ⟨h2.1, Nat.le_trans h2.2 this⟩

theorem scan_value_int (x : Int) (hx : is_int x) :
    scan_value (decide (x < 0)) x.natAbs = x := by
  unfold is_int at hx
  unfold scan_value to_int32 clamp_long
  by_cases h : x < 0
  · simp only [h, decide_True, if_true]
    have e : -(x.natAbs : Int) = x := by omega
    rw [e]
    rw [if_neg (by omega), if_neg (by omega)]
    omega
  · simp only [h, decide_False, Bool.false_eq_true, if_false]
    have e : (x.natAbs : Int) = x := by omega
    rw [e]
    rw [if_neg (by omega), if_neg (by omega)]
    omega

theorem scan_dec_fmt_nat (neg : Bool) (m : Nat) (rest : List Char)
    (hrest : ends_numeral rest) :
    scan_dec neg (fmt_nat m ++ rest) = some (scan_value neg m, rest) := by
  obtain ⟨h1, h2, d, ds, h3, _⟩ := fmt_nat_spec m
  have ht := takeWhile_append_stop is_dec_digit (fmt_nat m) rest h1
    (fun c t e => (hrest c t e).1)
  unfold scan_dec
  rw [ht.1, ht.2, h2, if_neg (by rw [h3]; simp)]

theorem scan_base_fmt_nat (neg : Bool) (m : Nat) (rest : List Char)
    (hrest : ends_numeral rest) :
    scan_base neg (fmt_nat m ++ rest) = some (scan_value neg m, rest) := by
  obtain ⟨h1, h2, d, ds, h3, h4⟩ := fmt_nat_spec m
  by_cases hd : d = '0'
  · obtain ⟨hm, hds⟩ := h4 hd
    subst hm
    subst hds
    subst hd
    rw [h3]
    cases rest with
    | nil => simp [scan_base]
    | cons c t =>
      obtain ⟨r1, r2, r3⟩ := hrest c t rfl
      have r4 := oct_digit_is_dec c r1
      have r5 : is_oct_digit '0' = true := by decide
      have r6 : digit_val '0' = 0 := by decide
      simp [scan_base, r2, r3, List.takeWhile, List.dropWhile, r4, r5, digits_val, r6]
  · have e := scan_dec_fmt_nat neg m rest hrest
    rw [h3] at e ⊢
    simp only [List.cons_append] at e ⊢
    unfold scan_base
    simp only [hd, if_false]
    exact e

theorem fmt_int_shape (x : Int) :
    fmt_int x = (if x < 0 then ['-'] else []) ++ fmt_nat x.natAbs := by
  unfold fmt_int
  by_cases h : x < 0 <;> simp [h]

theorem scan_sign_fmt_int (x : Int) (rest : List Char) :
    (fmt_int x ++ rest).dropWhile isspace = fmt_int x ++ rest ∧
    scan_sign (fmt_int x ++ rest) = (decide (x < 0), fmt_nat x.natAbs ++ rest) := by
  obtain ⟨h1, _, d, ds, h3, _⟩ := fmt_nat_spec x.natAbs
  have hd : is_dec_digit d = true := h1 d (by rw [h3]; simp)
  obtain ⟨s1, s2, s3⟩ := digit_not_special d hd
  rw [fmt_int_shape]
  by_cases h : x < 0
  · have hsp : isspace '-' = false := by decide
    simp [h, scan_sign, List.dropWhile, hsp]
  · rw [h3]
    simp [h, scan_sign, List.dropWhile, s1, s2, s3]

theorem scan_i_fmt_int (x : Int) (hx : is_int x) (rest : List Char)
    (hrest : ends_numeral rest) :
    scan_i (fmt_int x ++ rest) = some (x, rest) := by
  obtain ⟨e1, e2⟩ := scan_sign_fmt_int x rest
  unfold scan_i
  rw [e1, e2]
  simp only
  rw [scan_base_fmt_nat _ _ _ hrest, scan_value_int x hx]

theorem scan_d_fmt_int (x : Int) (hx : is_int x) (rest : List Char)
    (hrest : ends_numeral rest) :
    scan_d (fmt_int x ++ rest) = some (x, rest) := by
  obtain ⟨e1, e2⟩ := scan_sign_fmt_int x rest
  unfold scan_d
  rw [e1, e2]
  simp only
  rw [scan_dec_fmt_nat _ _ _ hrest, scan_value_int x hx]

theorem ends_numeral_cons (c : Char) (t : List Char)
    (h : is_dec_digit c = false ∧ c ≠ 'x' ∧ c ≠ 'X') : ends_numeral (c :: t) := by
  intro c2 t2 e
  injection e with e1 _
  subst e1
  exact h

theorem ends_numeral_nil : ends_numeral [] := by
  intro c t e
  cases e

theorem scan_i_fmt_int_cons (x : Int) (hx : is_int x) (c : Char) (t : List Char)
    (hc : is_dec_digit c = false ∧ c ≠ 'x' ∧ c ≠ 'X') :
    scan_i (fmt_int x ++ c :: t) = some (x, c :: t) :=
  scan_i_fmt_int x hx (c :: t) (ends_numeral_cons c t hc)

theorem scan_d_fmt_int_cons (x : Int) (hx : is_int x) (c : Char) (t : List Char)
    (hc : is_dec_digit c = false ∧ c ≠ 'x' ∧ c ≠ 'X') :
    scan_d (fmt_int x ++ c :: t) = some (x, c :: t) :=
  scan_d_fmt_int x hx (c :: t) (ends_numeral_cons c t hc)

/-! ## Theorems: the text form of a filter -/

theorem sscanf_filter_text (f : tc_filter) (hf : filter_ints f) :
    sscanf_ints filter_format (tc_filter_text f) =
      [f.function, f.rowA, f.colA, f.chanA, f.rowB, f.colB, f.chanB] := by
  obtain ⟨h0, h1, h2, h3, h4, h5, h6⟩ := hf
  unfold filter_format tc_filter_text
  simp only [sscanf_ints, if_true,
    scan_i_fmt_int_cons _ h0 '_' _ (by decide),
    scan_i_fmt_int_cons _ h1 ',' _ (by decide),
    scan_i_fmt_int_cons _ h2 ',' _ (by decide),
    scan_i_fmt_int_cons _ h3 ')' _ (by decide),
    scan_i_fmt_int_cons _ h4 ',' _ (by decide),
    scan_i_fmt_int_cons _ h5 ',' _ (by decide),
    scan_i_fmt_int_cons _ h6 ')' _ (by decide)]

theorem fmt_int_length_pos (x : Int) : 1 ≤ (fmt_int x).length := by
  obtain ⟨_, _, d, ds, h3, _⟩ := fmt_nat_spec x.natAbs
  rw [fmt_int_shape, List.length_append, h3, List.length_cons]
  omega

theorem tc_filter_text_length (f : tc_filter) : 18 ≤ (tc_filter_text f).length := by
  have h0 := fmt_int_length_pos f.function
  have h1 := fmt_int_length_pos f.rowA
  have h2 := fmt_int_length_pos f.colA
  have h3 := fmt_int_length_pos f.chanA
  have h4 := fmt_int_length_pos f.rowB
  have h5 := fmt_int_length_pos f.colB
  have h6 := fmt_int_length_pos f.chanB
  unfold tc_filter_text
  simp only [List.length_cons, List.length_append, List.length_nil]
  omega

theorem tc_filter_tostring_eq (f : tc_filter) :
    tc_filter_tostring f = (OK, (tc_filter_text f).take (TC_FILTER_STRINGSIZE - 1)) := by
  have h := tc_filter_text_length f
  unfold tc_filter_tostring
  simp only
  rw [if_neg (by omega)]

theorem tc_filter_fromstring_text (g f : tc_filter) (hf : filter_ints f) :
    tc_filter_fromstring g (tc_filter_text f) = (OK, f) := by
  unfold tc_filter_fromstring
  simp only [sscanf_filter_text f hf]
  rfl

/-- C8 as stated fails for filters whose text is longer than 31 characters:
`tc_filter_tostring` returns `OK` but stores a truncated text, and
`tc_filter_fromstring` on it either returns `OK` with a different filter
(`chanB` is 1 instead of 12) or returns `ERR`. -/
theorem filter_round_trip_counterexample :
    (tc_filter_tostring exLongFilter).1 = OK ∧
    (tc_filter_tostring exLongFilter).2 ≠ tc_filter_text exLongFilter ∧
    tc_filter_fromstring tc_init_filter (tc_filter_tostring exLongFilter).2 =
      (OK, { exLongFilter with chanB := 1 }) ∧
    (tc_filter_fromstring tc_init_filter (tc_filter_tostring exLongFilter).2).2 ≠
      exLongFilter ∧
    (tc_filter_tostring exLongFilter2).1 = OK ∧
    (tc_filter_fromstring tc_init_filter (tc_filter_tostring exLongFilter2).2).1 = ERR := by
  decide

/-- C8 amended: `tc_filter_tostring` returns `OK` for every filter and stores
the first 31 characters of the text `F<function>_(rowA,colA,chanA)_(rowB,colB,chanB)`;
for a filter of C `int` fields whose text has at most 31 characters the stored
string is exactly that text, and `tc_filter_fromstring` applied to it returns
`OK` and yields the filter itself, whatever `*filter` held before. -/
theorem filter_round_trip (f g : tc_filter) :
    tc_filter_tostring f = (OK, (tc_filter_text f).take 31) ∧
    (filter_ints f → (tc_filter_text f).length ≤ 31 →
      tc_filter_tostring f = (OK, tc_filter_text f) ∧
      tc_filter_fromstring g (tc_filter_tostring f).2 = (OK, f)) := by
  refine ⟨tc_filter_tostring_eq f, ?_⟩
  intro hf hlen
  have e : tc_filter_tostring f = (OK, tc_filter_text f) := by
    rw [tc_filter_tostring_eq, List.take_of_length_le]
    simpa [TC_FILTER_STRINGSIZE] using hlen
  rw [e]
  exact ⟨rfl, tc_filter_fromstring_text g f hf⟩

/-- C8 amended, evaluated on the filter of the split node `exSplit`. -/
theorem filter_round_trip_witness :
    tc_filter_tostring exSplit.filter = (OK, "F2_(0,0,0)_(0,1,0)".toList) ∧
    tc_filter_fromstring exLongFilter (tc_filter_tostring exSplit.filter).2 =
      (OK, exSplit.filter) := by
  have h := (filter_round_trip exSplit.filter exLongFilter).2 (by decide) (by decide)
  exact ⟨h.1, h.2⟩

/-! ## Theorems: line input -/

theorem set_append_cons {α : Type} (p q : List α) (x y : α) :
    (p ++ y :: q).set p.length x = p ++ x :: q := by
  induction p with
  | nil => rfl
  | cons a p ih => simp [List.set, ih]

theorem getD_append_cons {α : Type} (p q : List α) (x d : α) :
    (p ++ x :: q).getD p.length d = x := by
  induction p with
  | nil => rfl
  | cons a p ih => simpa [List.getD_cons_succ] using ih

theorem getline_loop_field (delim d : Char) (rest : List Char)
    (hd : d = delim ∨ d = '\n') :
    ∀ (s : List Char) (n : Nat) (p q : List Char),
      (∀ c ∈ s, c ≠ delim ∧ c ≠ '\n') → s.length < q.length → s.length < n →
      getline_loop delim n p.length (p ++ q) (s ++ d :: rest) =
        (p.length + s.length, p ++ (s ++ d :: q.drop (s.length + 1)), rest) := by
  intro s
  induction s with
  | nil =>
    intro n p q _ hq hn
    obtain ⟨m, rfl⟩ : ∃ m, n = m + 1 := ⟨n - 1, by simp at hn; omega⟩
    obtain ⟨y, q2, rfl⟩ : ∃ y q2, q = y :: q2 := by
      cases q with
      | nil => simp at hq
      | cons y q2 => exact ⟨y, q2, rfl⟩
    simp only [List.nil_append, getline_loop, set_append_cons, getD_append_cons, hd, if_true,
      List.tail_cons, List.length_nil, Nat.add_zero, Nat.zero_add, List.drop_succ_cons,
      List.drop_zero]
  | cons c s ih =>
    intro n p q hs hq hn
    obtain ⟨m, rfl⟩ : ∃ m, n = m + 1 := ⟨n - 1, by simp at hn; omega⟩
    obtain ⟨y, q2, rfl⟩ : ∃ y q2, q = y :: q2 := by
      cases q with
      | nil => simp at hq
      | cons y q2 => exact ⟨y, q2, rfl⟩
    have hc := hs c (by simp)
    have hstep : ¬ (c = delim ∨ c = '\n') := by
      intro h
      rcases h with h | h
      · exact hc.1 h
      · exact hc.2 h
    simp only [List.cons_append, getline_loop, set_append_cons, getD_append_cons, hstep,
      if_false, List.tail_cons]
    have := ih m (p ++ [c]) q2 (fun c2 h2 => hs c2 (by simp [h2]))
      (by simp at hq; omega) (by simp at hn; omega)
    simp only [List.length_append, List.length_singleton, List.append_assoc,
      List.singleton_append] at this
    rw [this]
    simp only [List.length_cons, List.drop_succ_cons]
    congr 1
    omega

theorem getline_field (delim d : Char) (s rest buffer : List Char)
    (hd : d = delim ∨ d = '\n') (hs : ∀ c ∈ s, c ≠ delim ∧ c ≠ '\n')
    (hlen : s.length < buffer.length) (hbuf : buffer.length = BUF_SIZE) :
    tc_getline_io (s ++ d :: rest) buffer BUF_SIZE delim =
      (OK, s ++ NUL :: buffer.drop (s.length + 1), rest) := by
  have h := getline_loop_field delim d rest hd s BUF_SIZE [] buffer hs hlen
    (by rw [← hbuf]; exact hlen)
  simp only [List.length_nil, List.nil_append, Nat.zero_add] at h
  unfold tc_getline_io
  simp only [h, getD_append_cons, set_append_cons]
  have hneg : ¬ (d ≠ delim ∧ d ≠ '\n') := by
    intro hh
    rcases hd with e | e
    · exact hh.1 e
    · exact hh.2 e
  rw [if_neg hneg]

theorem getline_field_length (s buffer : List Char) (hlen : s.length < buffer.length) :
    (s ++ NUL :: buffer.drop (s.length + 1)).length = buffer.length := by
  simp only [List.length_append, List.length_cons, List.length_drop]
  omega

theorem cstr_field (s tail : List Char) (hs : ∀ c ∈ s, c ≠ NUL) :
    cstr (s ++ NUL :: tail) = s := by
  unfold cstr
  have h := takeWhile_append_stop (fun c => c != NUL) s (NUL :: tail)
    (by
      intro c hc
      simpa using hs c hc)
    (by
      intro c t e
      injection e with e1 _
      subst e1
      simp)
  exact h.1

theorem malloc_buf_length (mem : List Char) : (malloc_buf mem).length = BUF_SIZE := by
  unfold malloc_buf
  rw [List.length_take, List.length_append, List.length_replicate]
  omega

/-! ## Theorems: fields of the forest file -/

theorem digit_plain (c : Char) (h : is_dec_digit c = true) :
    c ≠ ' ' ∧ c ≠ '\n' ∧ c ≠ NUL := by
  unfold is_dec_digit at h
  have h1 := of_decide_eq_true h
  refine ⟨?_, ?_, ?_⟩ <;> (intro e; subst e; revert h1; decide)

theorem fmt_int_chars (x : Int) : ∀ c ∈ fmt_int x, c = '-' ∨ is_dec_digit c = true := by
  obtain ⟨h1, _, _⟩ := fmt_nat_spec x.natAbs
  intro c hc
  rw [fmt_int_shape, List.mem_append] at hc
  rcases hc with hc | hc
  · left
    by_cases hx : x < 0
    · simpa [hx] using hc
    · simp [hx] at hc
  · exact Or.inr (h1 c hc)

theorem fmt_int_plain_chars (x : Int) : ∀ c ∈ fmt_int x, c ≠ ' ' ∧ c ≠ '\n' ∧ c ≠ NUL := by
  intro c hc
  rcases fmt_int_chars x c hc with h | h
  · subst h
    decide
  · exact digit_plain c h

theorem dec_digits_length :
    ∀ (fuel n k : Nat), n < 10 ^ (k + 1) → (dec_digits fuel n).length ≤ k + 1 := by
  intro fuel
  induction fuel with
  | zero =>
    intro n k _
    simp [dec_digits]
  | succ fuel ih =>
    intro n k hn
    unfold dec_digits
    by_cases h10 : n < 10
    · simp [h10]
    · rw [if_neg h10, List.length_append, List.length_singleton]
      cases k with
      | zero => simp at hn; omega
      | succ k =>
        have : n / 10 < 10 ^ (k + 1) := by
          rw [Nat.div_lt_iff_lt_mul (by decide)]
          rw [Nat.pow_succ] at hn
          exact hn
        have := ih (n / 10) k this
        omega

theorem fmt_int_length (x : Int) (hx : is_int x) : (fmt_int x).length ≤ 11 := by
  unfold is_int at hx
  have h : (fmt_nat x.natAbs).length ≤ 10 := by
    apply dec_digits_length (x.natAbs + 1) x.natAbs 9
    have : x.natAbs ≤ 2147483648 := by omega
    calc x.natAbs ≤ 2147483648 := this
      _ < 10 ^ (9 + 1) := by decide
  rw [fmt_int_shape, List.length_append]
  by_cases hneg : x < 0 <;> simp [hneg] <;> omega

theorem fmt_int_plain (x : Int) (hx : is_int x) : plain_text (fmt_int x) := by
  refine ⟨?_, fmt_int_plain_chars x⟩
  have := fmt_int_length x hx
  unfold BUF_SIZE
  omega

theorem sscanf_format_d (v : Int) (hv : is_int v) :
    sscanf_ints format_d (fmt_int v) = [v] := by
  have h := scan_d_fmt_int v hv [] ends_numeral_nil
  rw [List.append_nil] at h
  simp [format_d, sscanf_ints, h]

theorem sscanf_format_i (v : Int) (hv : is_int v) :
    sscanf_ints format_i (fmt_int v) = [v] := by
  have h := scan_i_fmt_int v hv [] ends_numeral_nil
  rw [List.append_nil] at h
  simp [format_i, sscanf_ints, h]

theorem dropWhile_isspace_fmt_int (x : Int) (rest : List Char) :
    (' ' :: (fmt_int x ++ rest)).dropWhile isspace = fmt_int x ++ rest := by
  have h := (scan_sign_fmt_int x rest).1
  have hsp : isspace ' ' = true := by decide
  rw [List.dropWhile_cons, if_pos hsp, h]

/-- The step of `read_field_d` on a stream that starts with a printed
integer followed by a blank. -/
theorem read_field_d_fmt (v : Int) (hv : is_int v) (rest buffer : List Char)
    (hbuf : buffer.length = BUF_SIZE) :
    ∃ b, b.length = BUF_SIZE ∧
      read_field_d (fmt_int v ++ ' ' :: rest) buffer = some (v, b, rest) := by
  obtain ⟨hl, hc⟩ := fmt_int_plain v hv
  have hg := getline_field ' ' ' ' (fmt_int v) rest buffer (Or.inl rfl)
    (fun c h => ⟨(hc c h).1, (hc c h).2.1⟩) (by rw [hbuf]; exact hl) hbuf
  refine ⟨fmt_int v ++ NUL :: buffer.drop ((fmt_int v).length + 1), ?_, ?_⟩
  · rw [getline_field_length _ _ (by rw [hbuf]; exact hl), hbuf]
  · unfold read_field_d
    simp only [hg, cstr_field _ _ (fun c h => (hc c h).2.2), sscanf_format_d v hv]
    simp [OK]

theorem plain_chars_cons (c : Char) (s : List Char)
    (hc : c ≠ ' ' ∧ c ≠ '\n' ∧ c ≠ NUL) (hs : plain_chars s) : plain_chars (c :: s) := by
  intro c2 h2
  rcases List.mem_cons.mp h2 with e | e
  · rw [e]
    exact hc
  · exact hs c2 e

theorem plain_chars_append (s t : List Char) (hs : plain_chars s) (ht : plain_chars t) :
    plain_chars (s ++ t) := by
  intro c h
  rcases List.mem_append.mp h with e | e
  · exact hs c e
  · exact ht c e

theorem plain_chars_nil : plain_chars [] := by
  intro c h
  simp at h

theorem tc_filter_text_plain_chars (f : tc_filter) : plain_chars (tc_filter_text f) := by
  unfold tc_filter_text
  exact plain_chars_cons _ _ (by decide) <|
    plain_chars_append _ _ (fmt_int_plain_chars _) <|
    plain_chars_cons _ _ (by decide) <| plain_chars_cons _ _ (by decide) <|
    plain_chars_append _ _ (fmt_int_plain_chars _) <|
    plain_chars_cons _ _ (by decide) <|
    plain_chars_append _ _ (fmt_int_plain_chars _) <|
    plain_chars_cons _ _ (by decide) <|
    plain_chars_append _ _ (fmt_int_plain_chars _) <|
    plain_chars_cons _ _ (by decide) <| plain_chars_cons _ _ (by decide) <|
    plain_chars_cons _ _ (by decide) <|
    plain_chars_append _ _ (fmt_int_plain_chars _) <|
    plain_chars_cons _ _ (by decide) <|
    plain_chars_append _ _ (fmt_int_plain_chars _) <|
    plain_chars_cons _ _ (by decide) <|
    plain_chars_append _ _ (fmt_int_plain_chars _) <|
    plain_chars_cons _ _ (by decide) plain_chars_nil

theorem tc_write_filter_fit (f : tc_filter)
    (hlen : (tc_filter_text f).length ≤ TC_FILTER_STRINGSIZE - 1) :
    tc_write_filter f = (OK, tc_filter_text f) := by
  have h18 := tc_filter_text_length f
  have e : tc_filter_tostring f = (OK, tc_filter_text f) := by
    rw [tc_filter_tostring_eq, List.take_of_length_le hlen]
  unfold tc_write_filter
  rw [e]
  simp only
  rw [if_neg (by decide), if_neg (by omega)]

/-- The step of `tc_read_filter` on a stream that starts with the text of a
filter followed by a blank or a newline. -/
theorem tc_read_filter_text (mem : List Char) (g f : tc_filter) (d : Char)
    (rest : List Char) (hd : d = ' ' ∨ d = '\n') (hf : filter_ints f)
    (hlen : (tc_filter_text f).length ≤ TC_FILTER_STRINGSIZE - 1) :
    tc_read_filter mem g (tc_filter_text f ++ d :: rest) = (OK, f, rest) := by
  have hc := tc_filter_text_plain_chars f
  have hl : (tc_filter_text f).length < (malloc_buf mem).length := by
    rw [malloc_buf_length]
    unfold TC_FILTER_STRINGSIZE at hlen
    unfold BUF_SIZE
    omega
  have hg := getline_field ' ' d (tc_filter_text f) rest (malloc_buf mem) hd
    (fun c h => ⟨(hc c h).1, (hc c h).2.1⟩) hl (malloc_buf_length mem)
  unfold tc_read_filter
  simp only [hg, cstr_field _ _ (fun c h => (hc c h).2.2), sscanf_filter_text f hf]
  simp [OK, ERR, store_filter]

theorem flatten_counts_stream (ts : List (List Char)) (rest : List Char) :
    (ts.map fun t => ' ' :: t).flatten ++ rest = counts_stream ts rest := by
  induction ts with
  | nil => rfl
  | cons t ts ih =>
    simp only [List.map_cons, List.flatten_cons, counts_stream, List.cons_append,
      List.append_assoc, ih]

theorem counts_stream_head (ts : List (List Char)) (rest : List Char) :
    ∃ d tail, counts_stream ts ('\n' :: rest) = d :: tail ∧ (d = ' ' ∨ d = '\n') ∧
      (ts = [] → tail = rest) ∧
      (∀ t ts2, ts = t :: ts2 → tail = t ++ counts_stream ts2 ('\n' :: rest)) := by
  cases ts with
  | nil =>
    refine ⟨'\n', rest, rfl, Or.inr rfl, fun _ => rfl, ?_⟩
    intro t ts2 e
    cases e
  | cons t ts2 =>
    refine ⟨' ', t ++ counts_stream ts2 ('\n' :: rest), rfl, Or.inl rfl, ?_, ?_⟩
    · intro e
      cases e
    · intro t2 ts3 e
      injection e with e1 e2
      subst e1
      subst e2
      rfl

theorem read_counts_succ (M : FloatOps) (nclasses : Int) (n j : Nat) (cs : List M.F)
    (buffer io : List Char) :
    read_counts M nclasses (n + 1) j cs buffer io =
      if (tc_getline_io io buffer BUF_SIZE
          (if (j : Int) = nclasses - 1 then '\n' else ' ')).1 ≠ OK then none
      else
        match M.scan_f (cstr (tc_getline_io io buffer BUF_SIZE
            (if (j : Int) = nclasses - 1 then '\n' else ' ')).2.1) with
        | none => none
        | some v =>
          read_counts M nclasses n (j + 1) (cs.set j v)
            (tc_getline_io io buffer BUF_SIZE
              (if (j : Int) = nclasses - 1 then '\n' else ' ')).2.1
            (tc_getline_io io buffer BUF_SIZE
              (if (j : Int) = nclasses - 1 then '\n' else ' ')).2.2 := rfl

theorem getD_set_ne {α : Type} (l : List α) (k i : Nat) (v d : α) (h : i ≠ k) :
    (l.set k v).getD i d = l.getD i d := by
  have h2 : ¬ k = i := fun e => h e.symm
  simp [List.getD_eq_getElem?_getD, List.getElem?_set, h2]

/-! ## Theorems: `tc_update_probs` -/

theorem mem_range_tail (n k : Nat) : k ∈ (List.range n).tail ↔ 1 ≤ k ∧ k < n := by
  cases n with
  | zero => simp
  | succ n =>
    rw [List.range_succ_eq_map, List.tail_cons, List.mem_map]
    constructor
    · rintro ⟨a, ha, rfl⟩
      rw [List.mem_range] at ha
      omega
    · rintro ⟨h1, h2⟩
      exact ⟨k - 1, by rw [List.mem_range]; omega, by omega⟩

theorem foldl_set_getD {α : Type} (f : Nat → α) (d : α) :
    ∀ (l : List Nat) (ps : List α) (k : Nat),
      (l.foldl (fun ps i => ps.set i (f i)) ps).getD k d =
        if k ∈ l ∧ k < ps.length then f k else ps.getD k d := by
  intro l
  induction l with
  | nil =>
    intro ps k
    simp
  | cons i l ih =>
    intro ps k
    rw [List.foldl_cons, ih, List.length_set]
    by_cases hk : k < ps.length
    · by_cases hl : k ∈ l
      · rw [if_pos ⟨hl, hk⟩, if_pos ⟨List.mem_cons_of_mem _ hl, hk⟩]
      · rw [if_neg (fun h => hl h.1)]
        by_cases hi : k = i
        · subst hi
          rw [getD_set_eq _ _ _ _ _ hk, if_pos rfl, if_pos ⟨List.mem_cons_self _ _, hk⟩]
        · rw [getD_set_ne _ _ _ _ _ hi, if_neg]
          intro h
          rcases List.mem_cons.mp h.1 with e | e
          · exact hi e
          · exact hl e
    · rw [if_neg (fun h => hk h.2), if_neg (fun h => hk h.2),
        List.getD_eq_default _ _ (by rw [List.length_set]; omega),
        List.getD_eq_default _ _ (by omega)]

theorem foldl_congr_mem {α β : Type} (f g : β → α → β) :
    ∀ (l : List α) (b : β), (∀ x ∈ l, ∀ y, f y x = g y x) → l.foldl f b = l.foldl g b := by
  intro l
  induction l with
  | nil =>
    intro b _
    rfl
  | cons x l ih =>
    intro b h
    rw [List.foldl_cons, List.foldl_cons, h x (List.mem_cons_self _ _) b]
    exact ih _ (fun y hy => h y (List.mem_cons_of_mem _ hy))

/-- The tally of `tc_update_probs` reads only the counts of the classes from
1 below `nclasses`. -/
theorem tally_counts_congr (M : FloatOps) (cs₁ cs₂ : List M.F) (nclasses : Int)
    (h : ∀ i : Nat, 1 ≤ i → (i : Int) < nclasses →
      cs₁.getD i (M.ofInt 0) = cs₂.getD i (M.ofInt 0)) :
    tally_counts M cs₁ nclasses = tally_counts M cs₂ nclasses := by
  unfold tally_counts
  apply foldl_congr_mem
  intro i hi st
  rw [mem_range_tail] at hi
  rw [h i hi.1 (by omega)]

theorem update_prob_congr (M : FloatOps) (cs₁ cs₂ : List M.F) (nclasses : Int)
    (h : ∀ i : Nat, 1 ≤ i → (i : Int) < nclasses →
      cs₁.getD i (M.ofInt 0) = cs₂.getD i (M.ofInt 0))
    (i : Nat) (h1 : 1 ≤ i) (h2 : (i : Int) < nclasses) :
    update_prob M cs₁ nclasses i = update_prob M cs₂ nclasses i := by
  unfold update_prob
  rw [tally_counts_congr M cs₁ cs₂ nclasses h, h i h1 h2]

/-- What `tc_update_probs` leaves in the class probabilities of a node whose
array has room for `nclasses` entries. -/
theorem update_probs_updated (M : FloatOps) (node : tc_node M.F) (nclasses : Int)
    (hroom : nclasses.toNat ≤ node.class_probs.length) :
    probs_updated M nclasses (tc_update_probs M node nclasses) := by
  refine ⟨?_, ?_⟩
  · show List.getD (List.foldl _ _ _) 0 (M.ofInt 0) = M.ofInt 0
    rw [foldl_set_getD, if_neg (by rw [mem_range_tail]; omega)]
    by_cases h0 : 0 < node.class_probs.length
    · rw [getD_set_eq _ _ _ _ _ h0, if_pos rfl]
    · rw [List.getD_eq_default _ _ (by rw [List.length_set]; omega)]
  · intro i h1 h2
    show List.getD (List.foldl _ _ _) i (M.ofInt 0) = _
    rw [foldl_set_getD, if_pos ⟨by rw [mem_range_tail]; omega, by rw [List.length_set]; omega⟩]
    rfl

theorem foldl_set_length {α : Type} (f : Nat → α) :
    ∀ (l : List Nat) (ps : List α), (l.foldl (fun ps i => ps.set i (f i)) ps).length = ps.length := by
  intro l
  induction l with
  | nil =>
    intro ps
    rfl
  | cons i l ih =>
    intro ps
    rw [List.foldl_cons, ih, List.length_set]

theorem update_probs_length (M : FloatOps) (node : tc_node M.F) (nclasses : Int) :
    (tc_update_probs M node nclasses).class_probs.length = node.class_probs.length := by
  show List.length (List.foldl _ _ _) = _
  rw [foldl_set_length, List.length_set]

theorem zero_counts_fold (M : FloatOps) (nclasses : Int) (j : Nat) (hj : (j : Int) < nclasses) :
    ∀ (l : List Nat) (cs : List M.F),
      (l.foldl (fun cs (i : Nat) => if nclasses ≤ (i : Int) then cs.set i (M.ofInt 0) else cs)
        cs).getD j (M.ofInt 0) = cs.getD j (M.ofInt 0) := by
  intro l
  induction l with
  | nil =>
    intro cs
    rfl
  | cons i l ih =>
    intro cs
    rw [List.foldl_cons, ih]
    by_cases hi : nclasses ≤ (i : Int)
    · rw [if_pos hi, getD_set_ne]
      omega
    · rw [if_neg hi]

theorem zero_counts_fold_length (M : FloatOps) (nclasses : Int) :
    ∀ (l : List Nat) (cs : List M.F),
      (l.foldl (fun cs (i : Nat) => if nclasses ≤ (i : Int) then cs.set i (M.ofInt 0) else cs)
        cs).length = cs.length := by
  intro l
  induction l with
  | nil =>
    intro cs
    rfl
  | cons i l ih =>
    intro cs
    rw [List.foldl_cons, ih]
    by_cases hi : nclasses ≤ (i : Int)
    · rw [if_pos hi, List.length_set]
    · rw [if_neg hi]

theorem zero_counts_length (M : FloatOps) (cs : List M.F) (nclasses : Int) :
    (zero_counts M cs nclasses).length = cs.length :=
  zero_counts_fold_length M nclasses _ cs

/-- The loop that zeroes the counts from `nclasses` on leaves the counts
below `nclasses` as they are. -/
theorem zero_counts_getD (M : FloatOps) (cs : List M.F) (nclasses : Int) (j : Nat)
    (hj : (j : Int) < nclasses) :
    (zero_counts M cs nclasses).getD j (M.ofInt 0) = cs.getD j (M.ofInt 0) :=
  zero_counts_fold M nclasses j hj _ cs

/-- The count loop of `tc_read_tree` on the texts of printable counts: it
succeeds, consumes the texts, and entry `j + k` of the array holds the value
`sscanf` reads from the `k`-th text. -/
theorem read_counts_stream (M : FloatOps) (nclasses : Int) (rest : List Char) :
    ∀ (ts2 : List (List Char)) (t : List Char) (j : Nat) (buffer : List Char)
      (cs : List M.F),
      (∀ u ∈ t :: ts2, plain_text u ∧ (M.scan_f u).isSome = true) →
      buffer.length = BUF_SIZE →
      ((j + (t :: ts2).length : Nat) : Int) = nclasses →
      ∃ cs2 b, b.length = BUF_SIZE ∧
        read_counts M nclasses (t :: ts2).length j cs buffer
          (t ++ counts_stream ts2 ('\n' :: rest)) = some (cs2, b, rest) ∧
        cs2.length = cs.length ∧
        (∀ k, k < j → cs2.getD k (M.ofInt 0) = cs.getD k (M.ofInt 0)) ∧
        ∀ k, k < (t :: ts2).length → j + k < cs.length →
          M.scan_f ((t :: ts2).getD k []) = some (cs2.getD (j + k) (M.ofInt 0)) := by
  intro ts2
  induction ts2 with
  | nil =>
    intro t j buffer cs ht hbuf hj
    obtain ⟨⟨hl, hc⟩, hsome⟩ := ht t (by simp)
    have hlast : (j : Int) = nclasses - 1 := by
      simp only [List.length_singleton] at hj
      omega
    have hg := getline_field '\n' '\n' t rest buffer (Or.inl rfl)
      (fun c h => ⟨(hc c h).2.1, (hc c h).2.1⟩) (by rw [hbuf]; exact hl) hbuf
    obtain ⟨v, hv⟩ := Option.isSome_iff_exists.mp hsome
    refine ⟨cs.set j v, t ++ NUL :: buffer.drop (t.length + 1), ?_, ?_, ?_, ?_, ?_⟩
    · exact (getline_field_length t buffer (by rw [hbuf]; exact hl)).trans hbuf
    · show read_counts M nclasses (0 + 1) j cs buffer (t ++ '\n' :: rest) = _
      rw [read_counts_succ, if_pos hlast, hg]
      simp only [cstr_field _ _ (fun c h => (hc c h).2.2), hv, ne_eq, not_true_eq_false,
        if_false, read_counts]
    · exact List.length_set _ _ _
    · intro k hk
      exact getD_set_ne _ _ _ _ _ (by omega)
    · intro k hk hlen
      have hk0 : k = 0 := by
        simp only [List.length_singleton] at hk
        omega
      subst hk0
      rw [Nat.add_zero, getD_set_eq _ _ _ _ _ (by omega), if_pos rfl]
      exact hv
  | cons t1 ts3 ih =>
    intro t j buffer cs ht hbuf hj
    obtain ⟨⟨hl, hc⟩, hsome⟩ := ht t (by simp)
    have hnot : ¬ (j : Int) = nclasses - 1 := by
      simp only [List.length_cons] at hj
      omega
    have hg := getline_field ' ' ' ' t (t1 ++ counts_stream ts3 ('\n' :: rest)) buffer
      (Or.inl rfl) (fun c h => ⟨(hc c h).1, (hc c h).2.1⟩) (by rw [hbuf]; exact hl) hbuf
    obtain ⟨v, hv⟩ := Option.isSome_iff_exists.mp hsome
    obtain ⟨cs2, b, hb, hrec, hlen2, hlow, hval⟩ := ih t1 (j + 1)
      (t ++ NUL :: buffer.drop (t.length + 1)) (cs.set j v)
      (fun u hu => ht u (List.mem_cons_of_mem _ hu))
      ((getline_field_length t buffer (by rw [hbuf]; exact hl)).trans hbuf)
      (by simp only [List.length_cons] at hj ⊢; omega)
    refine ⟨cs2, b, hb, ?_, ?_, ?_, ?_⟩
    · rw [← hrec]
      show read_counts M nclasses ((t1 :: ts3).length + 1) j cs buffer
        (t ++ ' ' :: (t1 ++ counts_stream ts3 ('\n' :: rest))) = _
      rw [read_counts_succ, if_neg hnot, hg]
      simp only [cstr_field _ _ (fun c h => (hc c h).2.2), hv, ne_eq, not_true_eq_false,
        if_false]
    · rw [hlen2]
      exact List.length_set _ _ _
    · intro k hk
      rw [hlow k (by omega)]
      exact getD_set_ne _ _ _ _ _ (by omega)
    · intro k hk hlen
      cases k with
      | zero =>
        rw [Nat.add_zero, hlow j (by omega), getD_set_eq _ _ _ _ _ (by omega), if_pos rfl]
        exact hv
      | succ k =>
        have h := hval k (by simp only [List.length_cons] at hk ⊢; omega)
          (by rw [List.length_set]; omega)
        have e : j + (k + 1) = j + 1 + k := by omega
        rw [e]
        exact h

theorem to_int32_int (x : Int) (hx : is_int x) : to_int32 x = x := by
  unfold is_int at hx
  unfold to_int32
  omega

theorem is_int_to_int32 (x : Int) : is_int (to_int32 x) := by
  unfold is_int to_int32
  omega

theorem write_children_shape {F : Type} (node : tc_node F) (hn : node_ok node) :
    ∃ hi lo, is_int hi ∧ is_int lo ∧
      (∀ R, write_children node ++ R = fmt_int hi ++ ' ' :: (fmt_int lo ++ ' ' :: R)) ∧
      read_children hi lo = (node.high, node.low) := by
  obtain ⟨_, _, _, _, hch⟩ := hn
  rcases hch with ⟨h1, h2⟩ | ⟨h, l, h1, h2, h0, hh, hl⟩
  · refine ⟨0, 0, by decide, by decide, ?_, ?_⟩
    · intro R
      have : tc_isleaf node = true := by simp [tc_isleaf, h1]
      simp only [write_children, this, if_true]
      rfl
    · simp [read_children, h1, h2]
  · refine ⟨h, l, hh, hl, ?_, ?_⟩
    · intro R
      have : tc_isleaf node = false := by simp [tc_isleaf, h1]
      simp only [write_children, this, Bool.false_eq_true, if_false, h1, h2, Option.getD_some,
        List.append_assoc, List.cons_append, List.nil_append]
    · simp [read_children, h0, h1, h2]

theorem write_counts_stream (M : FloatOps) (counts : List M.F) (nclasses : Int)
    (rest : List Char) :
    (write_counts M counts nclasses ++ ['\n']) ++ rest =
      counts_stream ((List.range nclasses.toNat).map fun j =>
        M.fmt_8f (counts.getD j (M.ofInt 0))) ('\n' :: rest) := by
  rw [← flatten_counts_stream, List.map_map]
  simp only [write_counts, List.append_assoc, List.singleton_append]
  rfl

theorem read_node_succ (M : FloatOps) (mem : List Char) (nclasses : Int) (i : Nat)
    (old : tc_node M.F) (buffer io b1 io1 b2 io2 b3 io3 b4 io4 b5 io5 : List Char)
    (my_index MAP_class threshold highind lowind : Int)
    (h1 : read_field_d io buffer = some (my_index, b1, io1))
    (hi : (i : Int) = my_index)
    (h2 : read_field_d io1 b1 = some (MAP_class, b2, io2))
    (h3 : read_field_d io2 b2 = some (threshold, b3, io3))
    (h4 : read_field_d io3 b3 = some (highind, b4, io4))
    (h5 : read_field_d io4 b4 = some (lowind, b5, io5))
    (hf : (tc_read_filter mem old.filter io5).1 = OK) :
    read_node M mem nclasses i old buffer io =
      match read_counts M nclasses nclasses.toNat 0 old.class_counts b5
          (tc_read_filter mem old.filter io5).2.2 with
      | none => none
      | some (counts, b6, io6) =>
        some (tc_update_probs M
          { old with
            threshold := threshold, MAP_class := MAP_class,
            high := (read_children highind lowind).1,
            low := (read_children highind lowind).2,
            filter := (tc_read_filter mem old.filter io5).2.1,
            class_counts := zero_counts M counts nclasses } nclasses, b6, io6) := by
  unfold read_node
  simp only [h1, h2, h3, h4, h5, hi, hf, ne_eq, not_true_eq_false, if_false]

/-- The node step of `tc_read_tree` on the record `tc_write_tree` wrote for
a node: it succeeds, consumes exactly the record and restores threshold,
filter and child pointers. -/
theorem read_node_write (M : FloatOps) (mem : List Char) (nclasses : Int) (i : Nat)
    (node old : tc_node M.F) (buffer rest : List Char)
    (hi : is_int (i : Int)) (hn : node_ok node) (hcls : 0 ≤ nclasses)
    (hp : ∀ j : Nat, (j : Int) < nclasses →
      printable M (node.class_counts.getD j (M.ofInt 0)))
    (hbuf : buffer.length = BUF_SIZE) :
    ∃ node2 b, b.length = BUF_SIZE ∧
      read_node M mem nclasses i old buffer (write_node M i node nclasses ++ rest) =
        some (node2, b, rest) ∧
      node2.threshold = node.threshold ∧ node2.filter = node.filter ∧
      node2.high = node.high ∧ node2.low = node.low ∧
      node2.class_counts.length = old.class_counts.length ∧
      (∀ j : Nat, 1 ≤ j → (j : Int) < nclasses → j < old.class_counts.length →
        M.scan_f (M.fmt_8f (node.class_counts.getD j (M.ofInt 0))) =
          some (node2.class_counts.getD j (M.ofInt 0))) ∧
      node2.class_probs.length = old.class_probs.length ∧
      (nclasses.toNat ≤ old.class_probs.length → probs_updated M nclasses node2) := by
  obtain ⟨hi2, lo, hhi, hlo, hshape, hread⟩ := write_children_shape node hn
  obtain ⟨hmap, hthr, hfi, hfit, _⟩ := hn
  have hstream : write_node M i node nclasses ++ rest =
      fmt_int (i : Int) ++ ' ' :: (fmt_int node.MAP_class ++ ' ' ::
        (fmt_int (to_int32 node.threshold) ++ ' ' :: (fmt_int hi2 ++ ' ' :: (fmt_int lo ++ ' ' ::
          (tc_filter_text node.filter ++
            counts_stream ((List.range nclasses.toNat).map fun j =>
              M.fmt_8f (node.class_counts.getD j (M.ofInt 0))) ('\n' :: rest)))))) := by
    unfold write_node
    simp only [List.append_assoc, List.cons_append, hshape, tc_write_filter_fit _ hfit]
    rw [← write_counts_stream]
    simp only [List.append_assoc, List.cons_append, List.nil_append]
  obtain ⟨d, tail, hd, hdd, hnil, hcons⟩ := counts_stream_head
    ((List.range nclasses.toNat).map fun j =>
      M.fmt_8f (node.class_counts.getD j (M.ofInt 0))) rest
  rw [hstream, hd]
  obtain ⟨b1, hb1, e1⟩ := read_field_d_fmt (i : Int) hi
    (fmt_int node.MAP_class ++ ' ' :: (fmt_int (to_int32 node.threshold) ++ ' ' ::
      (fmt_int hi2 ++ ' ' :: (fmt_int lo ++ ' ' :: (tc_filter_text node.filter ++ d :: tail)))))
    buffer hbuf
  obtain ⟨b2, hb2, e2⟩ := read_field_d_fmt node.MAP_class hmap
    (fmt_int (to_int32 node.threshold) ++ ' ' ::
      (fmt_int hi2 ++ ' ' :: (fmt_int lo ++ ' ' :: (tc_filter_text node.filter ++ d :: tail))))
    b1 hb1
  obtain ⟨b3, hb3, e3⟩ := read_field_d_fmt (to_int32 node.threshold) (is_int_to_int32 _)
    (fmt_int hi2 ++ ' ' :: (fmt_int lo ++ ' ' :: (tc_filter_text node.filter ++ d :: tail)))
    b2 hb2
  obtain ⟨b4, hb4, e4⟩ := read_field_d_fmt hi2 hhi
    (fmt_int lo ++ ' ' :: (tc_filter_text node.filter ++ d :: tail)) b3 hb3
  obtain ⟨b5, hb5, e5⟩ := read_field_d_fmt lo hlo
    (tc_filter_text node.filter ++ d :: tail) b4 hb4
  have hfilt := tc_read_filter_text mem old.filter node.filter d tail hdd hfi hfit
  rw [read_node_succ M mem nclasses i old _ _ b1 _ b2 _ b3 _ b4 _ b5 _ _ _ _ _ _
    e1 rfl e2 e3 e4 e5 (by rw [hfilt])]
  rw [hfilt]
  simp only
  have hcounts : ∃ cs2 b, b.length = BUF_SIZE ∧
      read_counts M nclasses nclasses.toNat 0 old.class_counts b5 tail =
        some (cs2, b, rest) ∧ cs2.length = old.class_counts.length ∧
      ∀ j : Nat, (j : Int) < nclasses → j < old.class_counts.length →
        M.scan_f (M.fmt_8f (node.class_counts.getD j (M.ofInt 0))) =
          some (cs2.getD j (M.ofInt 0)) := by
    cases hts : (List.range nclasses.toNat).map fun j =>
        M.fmt_8f (node.class_counts.getD j (M.ofInt 0)) with
    | nil =>
      have hz : nclasses.toNat = 0 := by
        have := congrArg List.length hts
        simpa using this
      rw [hnil hts, hz]
      refine ⟨old.class_counts, b5, hb5, rfl, rfl, ?_⟩
      intro j hj
      omega
    | cons t ts2 =>
      have hlen : (t :: ts2).length = nclasses.toNat := by
        have := congrArg List.length hts
        simpa using this.symm
      rw [hcons t ts2 hts, ← hlen]
      obtain ⟨cs2, b, hb, hrc, hl2, _, hval⟩ :=
        read_counts_stream M nclasses rest ts2 t 0 b5 old.class_counts
          (by
            intro u hu
            rw [← hts, List.mem_map] at hu
            obtain ⟨j, hj, rfl⟩ := hu
            rw [List.mem_range] at hj
            exact hp j (by omega))
          hb5
          (by
            rw [Nat.zero_add, hlen]
            omega)
      refine ⟨cs2, b, hb, hrc, hl2, ?_⟩
      intro j hj hjl
      have hjn : j < nclasses.toNat := by omega
      have h := hval j (by rw [hlen]; exact hjn) (by omega)
      rw [Nat.zero_add, ← hts,
        List.getD_eq_getElem _ _ (by rw [List.length_map, List.length_range]; exact hjn),
        List.getElem_map, List.getElem_range] at h
      exact h
  obtain ⟨cs2, b, hb, hrc, hl2, hval⟩ := hcounts
  rw [hrc]
  refine ⟨_, b, hb, rfl, ?_, rfl, ?_, ?_, ?_, ?_, ?_, ?_⟩
  · show to_int32 node.threshold = node.threshold
    exact to_int32_int _ hthr
  · show (read_children hi2 lo).1 = node.high
    rw [hread]
  · show (read_children hi2 lo).2 = node.low
    rw [hread]
  · show ((zero_counts M cs2 nclasses).set 0 (M.ofInt 0)).length = old.class_counts.length
    rw [List.length_set, zero_counts_length, hl2]
  · intro j hj1 hj hjl
    show M.scan_f (M.fmt_8f (node.class_counts.getD j (M.ofInt 0))) =
      some (((zero_counts M cs2 nclasses).set 0 (M.ofInt 0)).getD j (M.ofInt 0))
    rw [getD_set_ne _ _ _ _ _ (by omega), zero_counts_getD M cs2 nclasses j hj]
    exact hval j hj hjl
  · exact update_probs_length M _ nclasses
  · intro hroom
    exact update_probs_updated M _ nclasses hroom

theorem line_chars_of_plain (s : List Char) (h : plain_chars s) : line_chars s :=
  fun c hc => ⟨(h c hc).2.1, (h c hc).2.2⟩

theorem line_chars_cons (c : Char) (s : List Char) (hc : c ≠ '\n' ∧ c ≠ NUL)
    (hs : line_chars s) : line_chars (c :: s) := by
  intro c2 h2
  rcases List.mem_cons.mp h2 with e | e
  · rw [e]
    exact hc
  · exact hs c2 e

theorem line_chars_append (s t : List Char) (hs : line_chars s) (ht : line_chars t) :
    line_chars (s ++ t) := by
  intro c h
  rcases List.mem_append.mp h with e | e
  · exact hs c e
  · exact ht c e

theorem getline_line (s rest buffer : List Char) (hs : line_chars s)
    (hlen : s.length < BUF_SIZE) (hbuf : buffer.length = BUF_SIZE) :
    tc_getline_io (s ++ '\n' :: rest) buffer BUF_SIZE '\n' =
        (OK, s ++ NUL :: buffer.drop (s.length + 1), rest) ∧
      (s ++ NUL :: buffer.drop (s.length + 1)).length = BUF_SIZE ∧
      cstr (s ++ NUL :: buffer.drop (s.length + 1)) = s :=
  ⟨getline_field '\n' '\n' s rest buffer (Or.inl rfl) (fun c h => ⟨(hs c h).1, (hs c h).1⟩)
      (by rw [hbuf]; exact hlen) hbuf,
    (getline_field_length s buffer (by rw [hbuf]; exact hlen)).trans hbuf,
    cstr_field _ _ (fun c h => (hs c h).2)⟩

theorem sscanf_ws_d (v : Int) (hv : is_int v) :
    sscanf_ints [ScanDir.ws, ScanDir.conv_d, ScanDir.ws] (' ' :: fmt_int v) = [v] := by
  have h1 := dropWhile_isspace_fmt_int v []
  have h2 := scan_d_fmt_int v hv [] ends_numeral_nil
  rw [List.append_nil] at h1 h2
  simp [sscanf_ints, h1, h2]

theorem sscanf_ws_i (v : Int) (hv : is_int v) :
    sscanf_ints [ScanDir.ws, ScanDir.conv_i, ScanDir.ws] (' ' :: fmt_int v) = [v] := by
  have h1 := dropWhile_isspace_fmt_int v []
  have h2 := scan_i_fmt_int v hv [] ends_numeral_nil
  rw [List.append_nil] at h1 h2
  simp [sscanf_ints, h1, h2]

theorem sscanf_format_nnodes (v : Int) (hv : is_int v) :
    sscanf_ints format_nnodes (['n', 'n', 'o', 'd', 'e', 's', ' '] ++ fmt_int v) = [v] := by
  have h := sscanf_ws_d v hv
  simp only [format_nnodes, lits, List.map, List.cons_append, List.nil_append, sscanf_ints,
    if_true]
  exact h

theorem sscanf_format_tree (v : Int) (hv : is_int v) :
    sscanf_ints format_tree (['t', 'r', 'e', 'e', ' '] ++ fmt_int v) = [v] := by
  have h := sscanf_ws_d v hv
  simp only [format_tree, lits, List.map, List.cons_append, List.nil_append, sscanf_ints,
    if_true]
  exact h

theorem sscanf_format_colormap (v : Int) (hv : is_int v) :
    sscanf_ints format_colormap (['c', 'o', 'l', 'o', 'r', 'm', 'a', 'p', ' '] ++ fmt_int v) =
      [v] := by
  have h := sscanf_ws_i v hv
  simp only [format_colormap, lits, List.map, List.cons_append, List.nil_append, sscanf_ints,
    if_true]
  exact h

theorem read_nodes_succ (M : FloatOps) (U : Uninit M.F) (nclasses : Int) (n i : Nat)
    (nodes : List (tc_node M.F)) (buffer io : List Char) :
    read_nodes M U nclasses (n + 1) i nodes buffer io =
      match read_node M U.mem nclasses i (nodes.getD i U.node) buffer io with
      | none => none
      | some (node, b, io2) =>
        read_nodes M U nclasses n (i + 1)
          (if i < nodes.length then nodes.set i node else nodes ++ [node]) b io2 := rfl

/-- The node loop of `tc_read_tree` on the records `tc_write_tree` wrote.
Under the condition `c` the count arrays of the node memory have room for
`nclasses` entries, and then the counts read are those of the texts; under
the condition `c₂` the probability arrays have room, and then the
probabilities are those `tc_update_probs` computes from the counts read. -/
theorem read_nodes_write (M : FloatOps) (U : Uninit M.F) (nclasses : Int)
    (src : tc_tree M.F) (rest : List Char) (c c₂ : Prop) (hcls : 0 ≤ nclasses)
    (hok : ∀ node ∈ src.nodes, node_ok node)
    (hp : ∀ node ∈ src.nodes, ∀ j : Nat, (j : Int) < nclasses →
      printable M (node.class_counts.getD j (M.ofInt 0)))
    (hint : is_int (src.nodes.length : Int)) :
    ∀ (n i : Nat) (acc : List (tc_node M.F)) (buffer : List Char),
      i + n = src.nodes.length → i ≤ acc.length → acc.length ≤ i + n →
      buffer.length = BUF_SIZE →
      (c → ∀ k, nclasses.toNat ≤ (acc.getD k U.node).class_counts.length) →
      (c₂ → ∀ k, nclasses.toNat ≤ (acc.getD k U.node).class_probs.length) →
      (∀ k, k < i → node_match (src.nodes.getD k U.node) (acc.getD k U.node) ∧
        (c → counts_reread M nclasses (src.nodes.getD k U.node) (acc.getD k U.node)) ∧
        (c₂ → probs_updated M nclasses (acc.getD k U.node))) →
      ∃ res, read_nodes M U nclasses n i acc buffer
          (write_nodes M U src nclasses n i ++ rest) = some (res, rest) ∧
        res.length = src.nodes.length ∧
        ∀ k, k < src.nodes.length →
          node_match (src.nodes.getD k U.node) (res.getD k U.node) ∧
          (c → counts_reread M nclasses (src.nodes.getD k U.node) (res.getD k U.node)) ∧
          (c₂ → probs_updated M nclasses (res.getD k U.node)) := by
  intro n
  induction n with
  | zero =>
    intro i acc buffer hin hle hge _ _ _ hm
    refine ⟨acc, rfl, by omega, ?_⟩
    intro k hk
    exact hm k (by omega)
  | succ n ih =>
    intro i acc buffer hin hle hge hbuf hroom hroom2 hm
    have hi : i < src.nodes.length := by omega
    have hmem : src.nodes.getD i U.node ∈ src.nodes := by
      rw [List.getD_eq_getElem _ _ hi]
      exact List.getElem_mem hi
    obtain ⟨node2, b, hb, hread, h1, h2, h3, h4, h5, h6, h7, h8⟩ :=
      read_node_write M U.mem nclasses i
        (src.nodes.getD i U.node) (acc.getD i U.node) buffer
        (write_nodes M U src nclasses n (i + 1) ++ rest)
        (by unfold is_int at hint ⊢; omega) (hok _ hmem) hcls (hp _ hmem) hbuf
    have hmatch : node_match (src.nodes.getD i U.node) node2 ∧
        (c → counts_reread M nclasses (src.nodes.getD i U.node) node2) ∧
        (c₂ → probs_updated M nclasses node2) := by
      refine ⟨⟨h1, h2, ?_, h3, h4⟩, ?_, ?_⟩
      · simp only [tc_isleaf, h3]
      · intro hc j hj1 hj
        have := hroom hc i
        exact h6 j hj1 hj (by omega)
      · intro hc
        exact h8 (hroom2 hc i)
    have hstream : write_nodes M U src nclasses (n + 1) i ++ rest =
        write_node M i (src.nodes.getD i U.node) nclasses ++
          (write_nodes M U src nclasses n (i + 1) ++ rest) := by
      simp only [write_nodes, List.append_assoc]
    rw [hstream, read_nodes_succ, hread]
    simp only
    by_cases hlt : i < acc.length
    · rw [if_pos hlt]
      apply ih (i + 1) (acc.set i node2) b (by omega) (by simp; omega) (by simp; omega) hb
      · intro hc k
        rw [getD_set_eq _ _ _ _ _ hlt]
        by_cases hki : k = i
        · rw [if_pos hki, h5]
          exact hroom hc i
        · rw [if_neg hki]
          exact hroom hc k
      · intro hc k
        rw [getD_set_eq _ _ _ _ _ hlt]
        by_cases hki : k = i
        · rw [if_pos hki, h7]
          exact hroom2 hc i
        · rw [if_neg hki]
          exact hroom2 hc k
      · intro k hk
        rw [getD_set_eq _ _ _ _ _ hlt]
        by_cases hki : k = i
        · rw [if_pos hki, hki]
          exact hmatch
        · rw [if_neg hki]
          exact hm k (by omega)
    · rw [if_neg hlt]
      have hlen : acc.length = i := by omega
      have hget : ∀ k, (acc ++ [node2]).getD k U.node =
          if k = i then node2 else acc.getD k U.node := by
        intro k
        rcases Nat.lt_trichotomy k i with hki | hki | hki
        · rw [List.getD_append _ _ _ _ (by omega), if_neg (by omega)]
        · rw [hki, List.getD_append_right _ _ _ _ (by omega), hlen, Nat.sub_self, if_pos rfl]
          rfl
        · rw [if_neg (by omega), List.getD_eq_default _ _ (by simp; omega),
            List.getD_eq_default _ _ (by omega)]
      apply ih (i + 1) (acc ++ [node2]) b (by omega) (by simp; omega) (by simp; omega) hb
      · intro hc k
        rw [hget]
        by_cases hki : k = i
        · rw [if_pos hki, h5]
          exact hroom hc i
        · rw [if_neg hki]
          exact hroom hc k
      · intro hc k
        rw [hget]
        by_cases hki : k = i
        · rw [if_pos hki, h7]
          exact hroom2 hc i
        · rw [if_neg hki]
          exact hroom2 hc k
      · intro k hk
        rw [hget]
        by_cases hki : k = i
        · rw [if_pos hki, hki]
          exact hmatch
        · rw [if_neg hki]
          exact hm k (by omega)

theorem forall₂_of_getD {α β : Type} (R : α → β → Prop) (l₁ : List α) (l₂ : List β)
    (d₁ : α) (d₂ : β) (hlen : l₂.length = l₁.length)
    (h : ∀ k, k < l₁.length → R (l₁.getD k d₁) (l₂.getD k d₂)) : List.Forall₂ R l₁ l₂ := by
  apply List.forall₂_of_length_eq_of_get hlen.symm
  intro i h1 h2
  have := h i h1
  rw [List.getD_eq_getElem _ _ h1, List.getD_eq_getElem _ _ h2] at this
  simpa using this

theorem line_chars_fmt_int (x : Int) : line_chars (fmt_int x) :=
  line_chars_of_plain _ (fmt_int_plain_chars x)

/-- The function `tc_read_tree` on the text `tc_write_tree` wrote for a tree
`src`: it succeeds, consumes exactly that text and restores the structure. -/
theorem tc_read_tree_write (M : FloatOps) (U : Uninit M.F) (nclasses : Int)
    (src target : tc_tree M.F) (rest : List Char) (hcls : 0 ≤ nclasses)
    (hsrc : tree_ok src)
    (hp : ∀ node ∈ src.nodes, ∀ j : Nat, (j : Int) < nclasses →
      printable M (node.class_counts.getD j (M.ofInt 0)))
    (htarget : target.nodes.length ≤ src.nodes.length) :
    ∃ t2, tc_read_tree M U target ((tc_write_tree M U src nclasses).2 ++ rest) nclasses =
        some (t2, rest) ∧ tree_match src t2 ∧
      ((∀ k, nclasses.toNat ≤ (target.nodes.getD k U.node).class_counts.length) →
        ∀ k, k < src.nodes.length →
          counts_reread M nclasses (src.nodes.getD k U.node) (t2.nodes.getD k U.node)) ∧
      ((∀ k, nclasses.toNat ≤ (target.nodes.getD k U.node).class_probs.length) →
        ∀ k, k < src.nodes.length → probs_updated M nclasses (t2.nodes.getD k U.node)) := by
  obtain ⟨hnn, hint, _, hok⟩ := hsrc
  have hstream : (tc_write_tree M U src nclasses).2 ++ rest =
      (['n', 'n', 'o', 'd', 'e', 's', ' '] ++ fmt_int src.nnodes) ++
        '\n' :: (write_nodes M U src nclasses src.nnodes.toNat 0 ++ rest) := by
    simp only [tc_write_tree, List.append_assoc, List.cons_append]
  have hline : line_chars (['n', 'n', 'o', 'd', 'e', 's', ' '] ++ fmt_int src.nnodes) :=
    line_chars_append _ _ (by intro c hc; revert c; decide) (line_chars_fmt_int _)
  have hlen : (['n', 'n', 'o', 'd', 'e', 's', ' '] ++ fmt_int src.nnodes).length < BUF_SIZE := by
    have := fmt_int_length src.nnodes hint
    simp only [List.length_append, List.length_cons, List.length_nil]
    unfold BUF_SIZE
    omega
  obtain ⟨hg, hgl, hgc⟩ := getline_line _
    (write_nodes M U src nclasses src.nnodes.toNat 0 ++ rest) (malloc_buf U.mem) hline hlen
    (malloc_buf_length U.mem)
  have hto : src.nnodes.toNat = src.nodes.length := by omega
  obtain ⟨res, hres, hrl, hrm⟩ := read_nodes_write M U nclasses src rest
    (∀ k, nclasses.toNat ≤ (target.nodes.getD k U.node).class_counts.length)
    (∀ k, nclasses.toNat ≤ (target.nodes.getD k U.node).class_probs.length) hcls hok hp
    (by rw [← hnn]; exact hint) src.nodes.length 0 target.nodes
    ((['n', 'n', 'o', 'd', 'e', 's', ' '] ++ fmt_int src.nnodes) ++
      NUL :: (malloc_buf U.mem).drop
        ((['n', 'n', 'o', 'd', 'e', 's', ' '] ++ fmt_int src.nnodes).length + 1))
    (by omega) (by omega) (by omega) hgl (fun hc => hc) (fun hc => hc) (fun k hk => by omega)
  refine ⟨{ nodes := res, nnodes := src.nnodes }, ?_,
    ⟨rfl, forall₂_of_getD _ _ _ U.node U.node hrl (fun k hk => (hrm k hk).1)⟩,
    fun hc k hk => (hrm k hk).2.1 hc, fun hc k hk => (hrm k hk).2.2 hc⟩
  unfold tc_read_tree
  rw [hstream, hg]
  simp only [hgc, sscanf_format_nnodes src.nnodes hint, hto, hres, ne_eq, not_true_eq_false,
    if_false]

theorem read_trees_succ (M : FloatOps) (U : Uninit M.F) (nclasses : Int) (n i : Nat)
    (trees : List (tc_tree M.F)) (buffer io : List Char) :
    read_trees M U nclasses (n + 1) i trees buffer io =
      if Int.land (tc_getline_io io buffer BUF_SIZE '\n').1
          (tc_getline_io (tc_getline_io io buffer BUF_SIZE '\n').2.2
            (tc_getline_io io buffer BUF_SIZE '\n').2.1 BUF_SIZE '\n').1 = ERR then none
      else
        match sscanf_ints format_tree
            (cstr (tc_getline_io (tc_getline_io io buffer BUF_SIZE '\n').2.2
              (tc_getline_io io buffer BUF_SIZE '\n').2.1 BUF_SIZE '\n').2.1) with
        | [my_index] =>
          if (i : Int) ≠ my_index then none
          else
            match tc_read_tree M U (trees.getD i U.tree)
                (tc_getline_io (tc_getline_io io buffer BUF_SIZE '\n').2.2
                  (tc_getline_io io buffer BUF_SIZE '\n').2.1 BUF_SIZE '\n').2.2 nclasses with
            | none => none
            | some (tree, io2) =>
              read_trees M U nclasses n (i + 1) (trees.set i tree)
                (tc_getline_io (tc_getline_io io buffer BUF_SIZE '\n').2.2
                  (tc_getline_io io buffer BUF_SIZE '\n').2.1 BUF_SIZE '\n').2.1 io2
        | _ => none := rfl

theorem getline_empty_line (rest buffer : List Char) (hbuf : buffer.length = BUF_SIZE) :
    tc_getline_io ('\n' :: rest) buffer BUF_SIZE '\n' = (OK, NUL :: buffer.drop 1, rest) ∧
      (NUL :: buffer.drop 1).length = BUF_SIZE := by
  have h := getline_line [] rest buffer (by intro c hc; simp at hc)
    (by unfold BUF_SIZE; simp) hbuf
  simpa using And.intro h.1 h.2.1

/-- The tree loop of `tc_read_forest` on the tree blocks `tc_write_forest`
wrote. -/
theorem read_trees_write (M : FloatOps) (U : Uninit M.F) (src : tc_forest M.F)
    (rest : List Char) (c : Prop) (hcls : 0 ≤ src.nclasses)
    (hok : ∀ tree ∈ src.trees, tree_ok tree) (hp : counts_printable M src)
    (hint : is_int (src.trees.length : Int)) :
    ∀ (n i : Nat) (acc : List (tc_tree M.F)) (buffer : List Char),
      i + n = src.trees.length → acc.length = src.trees.length →
      buffer.length = BUF_SIZE → stale_head buffer →
      (∀ k, i ≤ k → k < src.trees.length →
        (acc.getD k U.tree).nodes.length ≤ (src.trees.getD k U.tree).nodes.length) →
      (c → ∀ k, i ≤ k → k < src.trees.length →
        ∀ j, node_room src.nclasses ((acc.getD k U.tree).nodes.getD j U.node)) →
      (∀ k, k < i → tree_match (src.trees.getD k U.tree) (acc.getD k U.tree) ∧
        (c → tree_reread M U src.nclasses (src.trees.getD k U.tree) (acc.getD k U.tree))) →
      ∃ res b, read_trees M U src.nclasses n i acc buffer
          (write_trees M U src n i ++ rest) = some (res, b, rest) ∧
        res.length = src.trees.length ∧
        (∀ k, k < src.trees.length →
          tree_match (src.trees.getD k U.tree) (res.getD k U.tree) ∧
          (c → tree_reread M U src.nclasses (src.trees.getD k U.tree) (res.getD k U.tree))) ∧
        b.length = BUF_SIZE ∧ stale_head b := by
  intro n
  induction n with
  | zero =>
    intro i acc buffer hin hlen hbuf hst _ _ hm
    refine ⟨acc, buffer, rfl, hlen, ?_, hbuf, hst⟩
    intro k hk
    exact hm k (by omega)
  | succ n ih =>
    intro i acc buffer hin hlen hbuf hst htarget hroom hm
    have hi : i < src.trees.length := by omega
    have hmem : src.trees.getD i U.tree ∈ src.trees := by
      rw [List.getD_eq_getElem _ _ hi]
      exact List.getElem_mem hi
    have hiint : is_int (i : Int) := by
      unfold is_int at hint ⊢
      omega
    have hstream : write_trees M U src (n + 1) i ++ rest =
        '\n' :: ((['t', 'r', 'e', 'e', ' '] ++ fmt_int (i : Int)) ++ '\n' ::
          ((tc_write_tree M U (src.trees.getD i U.tree) src.nclasses).2 ++
            (write_trees M U src n (i + 1) ++ rest))) := by
      simp only [write_trees, List.append_assoc, List.cons_append, List.nil_append]
    obtain ⟨hg1, hg1l⟩ := getline_empty_line
      ((['t', 'r', 'e', 'e', ' '] ++ fmt_int (i : Int)) ++ '\n' ::
        ((tc_write_tree M U (src.trees.getD i U.tree) src.nclasses).2 ++
          (write_trees M U src n (i + 1) ++ rest))) buffer hbuf
    have hline : line_chars (['t', 'r', 'e', 'e', ' '] ++ fmt_int (i : Int)) :=
      line_chars_append _ _ (by intro c hc; revert c; decide) (line_chars_fmt_int _)
    have hll : (['t', 'r', 'e', 'e', ' '] ++ fmt_int (i : Int)).length < BUF_SIZE := by
      have := fmt_int_length (i : Int) hiint
      simp only [List.length_append, List.length_cons, List.length_nil]
      unfold BUF_SIZE
      omega
    obtain ⟨hg2, hg2l, hg2c⟩ := getline_line _
      ((tc_write_tree M U (src.trees.getD i U.tree) src.nclasses).2 ++
        (write_trees M U src n (i + 1) ++ rest)) (NUL :: buffer.drop 1) hline hll hg1l
    obtain ⟨t2, ht2, hmatch0, hcnt, hprb⟩ := tc_read_tree_write M U src.nclasses
      (src.trees.getD i U.tree) (acc.getD i U.tree)
      (write_trees M U src n (i + 1) ++ rest) hcls (hok _ hmem)
      (fun node hnode j hj => hp _ hmem node hnode j hj) (htarget i (Nat.le_refl _) hi)
    have hmatch : tree_match (src.trees.getD i U.tree) t2 ∧
        (c → tree_reread M U src.nclasses (src.trees.getD i U.tree) t2) :=
      ⟨hmatch0, fun hc k hk =>
        ⟨hcnt (fun j => (hroom hc i (Nat.le_refl _) hi j).1) k hk,
          hprb (fun j => (hroom hc i (Nat.le_refl _) hi j).2) k hk⟩⟩
    have hland : ¬ Int.land OK OK = ERR := by decide
    obtain ⟨res, b, hres, hrl, hrm, hbl, hbs⟩ := ih (i + 1) (acc.set i t2)
      ((['t', 'r', 'e', 'e', ' '] ++ fmt_int (i : Int)) ++ NUL ::
        (NUL :: buffer.drop 1).drop ((['t', 'r', 'e', 'e', ' '] ++ fmt_int (i : Int)).length + 1))
      (by omega) (by simp; omega) hg2l
      ⟨'t', _, rfl, by decide, by decide, by decide⟩
      (by
        intro k hk1 hk2
        rw [getD_set_eq _ _ _ _ _ (by omega), if_neg (by omega)]
        exact htarget k (by omega) hk2)
      (by
        intro hc k hk1 hk2
        rw [getD_set_eq _ _ _ _ _ (by omega), if_neg (by omega)]
        exact hroom hc k (by omega) hk2)
      (by
        intro k hk
        rw [getD_set_eq _ _ _ _ _ (by omega)]
        by_cases hki : k = i
        · rw [if_pos hki, hki]
          exact hmatch
        · rw [if_neg hki]
          exact hm k (by omega))
    refine ⟨res, b, ?_, hrl, hrm, hbl, hbs⟩
    rw [hstream, read_trees_succ, hg1]
    simp only
    rw [hg2]
    simp only
    rw [if_neg hland, hg2c, sscanf_format_tree (i : Int) hiint]
    simp only
    rw [if_neg (by simp), ht2]
    simp only
    rw [hres]

/-! ## Theorems: the colormap part of the forest file -/

theorem getline_loop_eof (delim : Char) (buffer : List Char) :
    ∀ (n i : Nat), ∃ k, getline_loop delim n i buffer [] = (k, buffer, []) ∧ i ≤ k ∧
      (k = i → n = 0 ∨ buffer.getD i NUL = delim ∨ buffer.getD i NUL = '\n') := by
  intro n
  induction n with
  | zero =>
    intro i
    exact ⟨i, rfl, Nat.le_refl _, fun _ => Or.inl rfl⟩
  | succ n ih =>
    intro i
    by_cases h : buffer.getD i NUL = delim ∨ buffer.getD i NUL = '\n'
    · refine ⟨i, ?_, Nat.le_refl _, fun _ => Or.inr h⟩
      simp only [getline_loop, h, if_true, List.tail_nil]
    · obtain ⟨k, hk, hle, _⟩ := ih (i + 1)
      refine ⟨k, ?_, by omega, fun e => by omega⟩
      simp only [getline_loop, h, if_false, List.tail_nil]
      exact hk

theorem getline_eof (b : List Char) (hst : stale_head b) :
    ∃ st b2, tc_getline_io [] b BUF_SIZE '\n' = (st, b2, []) ∧ stale_head b2 := by
  obtain ⟨k, hk, _, hk0⟩ := getline_loop_eof '\n' b BUF_SIZE 0
  obtain ⟨c, tail, rfl, hc1, hc2, hc3⟩ := hst
  unfold tc_getline_io
  rw [hk]
  simp only
  split
  · exact ⟨_, _, rfl, c, tail, rfl, hc1, hc2, hc3⟩
  · refine ⟨_, _, rfl, ?_⟩
    cases k with
    | zero =>
      exfalso
      rcases hk0 rfl with h | h | h
      · unfold BUF_SIZE at h
        omega
      · exact hc1 h
      · exact hc1 h
    | succ k => exact ⟨c, tail.set k NUL, rfl, hc1, hc2, hc3⟩

theorem sscanf_colormap_stale (b : List Char) (hst : stale_head b) :
    sscanf_ints format_colormap (cstr b) = [] := by
  obtain ⟨c, tail, rfl, _, hc2, hc3⟩ := hst
  have hne : (c != NUL) = true := by simpa using hc2
  have hcc : ¬ 'c' = c := fun e => hc3 e.symm
  simp only [cstr, List.takeWhile_cons, hne, if_true, format_colormap, lits, List.map,
    List.cons_append, sscanf_ints, hcc, if_false]

/-- At the end of the stream the colormap part of `tc_read_forest` finds no
colormap, whatever the line buffer holds after the last line read. -/
theorem read_colormap_eof (pix : pixel_t) (nclasses : Int) (b : List Char)
    (hst : stale_head b) : read_colormap pix nclasses b [] = some none := by
  obtain ⟨st1, b1, h1, hst1⟩ := getline_eof b hst
  obtain ⟨st2, b2, h2, hst2⟩ := getline_eof b1 hst1
  unfold read_colormap
  rw [h1]
  simp only
  rw [h2]
  simp only [sscanf_colormap_stale b2 hst2]
  split <;> rfl

theorem read_color_row_succ (n j : Nat) (row : List pixel_t) (buffer io : List Char) :
    read_color_row (n + 1) j row buffer io =
      if (tc_getline_io io buffer BUF_SIZE ' ').1 = ERR then none
      else
        match sscanf_ints format_i (cstr (tc_getline_io io buffer BUF_SIZE ' ').2.1) with
        | [tmp] =>
          read_color_row n (j + 1) (row.set j (int_to_pixel tmp))
            (tc_getline_io io buffer BUF_SIZE ' ').2.1
            (tc_getline_io io buffer BUF_SIZE ' ').2.2
        | _ => none := rfl

theorem read_color_row_write (rest : List Char) :
    ∀ (vs : List Int) (j : Nat) (row : List pixel_t) (buffer : List Char),
      (∀ v ∈ vs, is_int v) → buffer.length = BUF_SIZE →
      ∃ row2 b, b.length = BUF_SIZE ∧
        read_color_row vs.length j row buffer
          ((vs.map fun v => fmt_int v ++ [' ']).flatten ++ rest) = some (row2, b, rest) := by
  intro vs
  induction vs with
  | nil =>
    intro j row buffer _ hbuf
    exact ⟨row, buffer, hbuf, rfl⟩
  | cons v vs ih =>
    intro j row buffer hv hbuf
    have hvi := hv v (by simp)
    obtain ⟨hl, hc⟩ := fmt_int_plain v hvi
    have hg := getline_field ' ' ' ' (fmt_int v)
      ((vs.map fun v => fmt_int v ++ [' ']).flatten ++ rest) buffer (Or.inl rfl)
      (fun c h => ⟨(hc c h).1, (hc c h).2.1⟩) (by rw [hbuf]; exact hl) hbuf
    obtain ⟨row2, b, hb, hrec⟩ := ih (j + 1) (row.set j (int_to_pixel v))
      (fmt_int v ++ NUL :: buffer.drop ((fmt_int v).length + 1))
      (fun w hw => hv w (List.mem_cons_of_mem _ hw))
      ((getline_field_length _ buffer (by rw [hbuf]; exact hl)).trans hbuf)
    refine ⟨row2, b, hb, ?_⟩
    have hstream : ((v :: vs).map fun v => fmt_int v ++ [' ']).flatten ++ rest =
        fmt_int v ++ ' ' :: ((vs.map fun v => fmt_int v ++ [' ']).flatten ++ rest) := by
      simp only [List.map_cons, List.flatten_cons, List.append_assoc, List.singleton_append,
        List.cons_append, List.nil_append]
    rw [hstream, List.length_cons, read_color_row_succ, hg]
    simp only
    rw [if_neg (by decide), cstr_field _ _ (fun c h => (hc c h).2.2), sscanf_format_i v hvi]
    exact hrec

theorem read_color_rows_succ (n i : Nat) (map : tc_colormap) (buffer io : List Char) :
    read_color_rows (n + 1) i map buffer io =
      match read_color_row map.colordepth.toNat 0 (map.colormap.getD i []) buffer io with
      | none => none
      | some (row, b, io2) =>
        if (tc_getline_io io2 b BUF_SIZE '\n').1 = ERR ∨
            (tc_getline_io io2 b BUF_SIZE '\n').2.1.getD 0 NUL ≠ NUL then none
        else
          read_color_rows n (i + 1)
            { map with colormap := map.colormap.set i row, nclasses := map.nclasses + 1 }
            (tc_getline_io io2 b BUF_SIZE '\n').2.1
            (tc_getline_io io2 b BUF_SIZE '\n').2.2 := rfl

theorem read_color_rows_write (colordepth : Int) (rest : List Char) :
    ∀ (rs : List (List pixel_t)) (i : Nat) (map : tc_colormap) (buffer : List Char),
      map.colordepth = colordepth → buffer.length = BUF_SIZE →
      ∃ map2 b, read_color_rows rs.length i map buffer
        ((rs.map fun r => write_color_row r colordepth).flatten ++ rest) =
          some (map2, b, rest) := by
  intro rs
  induction rs with
  | nil =>
    intro i map buffer _ _
    exact ⟨map, buffer, rfl⟩
  | cons r rs ih =>
    intro i map buffer hd hbuf
    have hvals : ∀ v ∈ (List.range colordepth.toNat).map
        (fun j => ((r.getD j 0).val : Int)), is_int v := by
      intro v hv
      rw [List.mem_map] at hv
      obtain ⟨j, _, rfl⟩ := hv
      have := (r.getD j 0).isLt
      unfold is_int
      omega
    obtain ⟨row2, b, hb, hrow⟩ := read_color_row_write
      ('\n' :: ((rs.map fun r => write_color_row r colordepth).flatten ++ rest))
      ((List.range colordepth.toNat).map fun j => ((r.getD j 0).val : Int)) 0
      (map.colormap.getD i []) buffer hvals hbuf
    rw [List.length_map, List.length_range, List.map_map] at hrow
    obtain ⟨hg, hgl⟩ := getline_empty_line
      ((rs.map fun r => write_color_row r colordepth).flatten ++ rest) b hb
    obtain ⟨map2, b2, hrec⟩ := ih (i + 1)
      { map with colormap := map.colormap.set i row2, nclasses := map.nclasses + 1 }
      (NUL :: b.drop 1) hd hgl
    refine ⟨map2, b2, ?_⟩
    have hstream : ((r :: rs).map fun r => write_color_row r colordepth).flatten ++ rest =
        ((List.range colordepth.toNat).map
          ((fun v => fmt_int v ++ [' ']) ∘ fun j => ((r.getD j 0).val : Int))).flatten ++
          '\n' :: ((rs.map fun r => write_color_row r colordepth).flatten ++ rest) := by
      simp only [List.map_cons, List.flatten_cons, write_color_row, List.append_assoc,
        List.singleton_append]
      rfl
    rw [hstream, List.length_cons, read_color_rows_succ, hd, hrow]
    simp only
    rw [hg]
    simp only
    rw [if_neg (by simp [OK, ERR])]
    rw [← hrec, hd]

/-- The colormap part of `tc_read_forest` on the colormap block
`tc_write_forest` wrote: it succeeds. -/
theorem read_colormap_write (pix : pixel_t) (map : tc_colormap) (nclasses : Int)
    (buffer : List Char) (hd : is_int map.colordepth) (hbuf : buffer.length = BUF_SIZE) :
    ∃ map2, read_colormap pix nclasses buffer (write_colormap map nclasses) =
      some (some map2) := by
  have hstream : write_colormap map nclasses =
      '\n' :: ((['c', 'o', 'l', 'o', 'r', 'm', 'a', 'p', ' '] ++ fmt_int map.colordepth) ++
        '\n' :: ((((List.range nclasses.toNat).map fun i => map.colormap.getD i []).map
          fun r => write_color_row r map.colordepth).flatten ++ [])) := by
    simp only [write_colormap, List.append_assoc, List.cons_append, List.nil_append,
      List.append_nil, List.map_map]
    rfl
  obtain ⟨hg1, hg1l⟩ := getline_empty_line
    ((['c', 'o', 'l', 'o', 'r', 'm', 'a', 'p', ' '] ++ fmt_int map.colordepth) ++
      '\n' :: ((((List.range nclasses.toNat).map fun i => map.colormap.getD i []).map
        fun r => write_color_row r map.colordepth).flatten ++ [])) buffer hbuf
  have hline : line_chars
      (['c', 'o', 'l', 'o', 'r', 'm', 'a', 'p', ' '] ++ fmt_int map.colordepth) :=
    line_chars_append _ _ (by intro c hc; revert c; decide) (line_chars_fmt_int _)
  have hll : (['c', 'o', 'l', 'o', 'r', 'm', 'a', 'p', ' '] ++
      fmt_int map.colordepth).length < BUF_SIZE := by
    have := fmt_int_length map.colordepth hd
    simp only [List.length_append, List.length_cons, List.length_nil]
    unfold BUF_SIZE
    omega
  obtain ⟨hg2, hg2l, hg2c⟩ := getline_line _
    ((((List.range nclasses.toNat).map fun i => map.colormap.getD i []).map
      fun r => write_color_row r map.colordepth).flatten ++ []) (NUL :: buffer.drop 1)
    hline hll hg1l
  obtain ⟨map2, b2, hrows⟩ := read_color_rows_write map.colordepth []
    ((List.range nclasses.toNat).map fun i => map.colormap.getD i []) 0
    (tc_init_colormap pix map.colordepth) _ rfl hg2l
  rw [List.length_map, List.length_range] at hrows
  refine ⟨map2, ?_⟩
  have hland : Int.land OK OK = OK := by decide
  unfold read_colormap
  rw [hstream, hg1]
  simp only
  rw [hg2]
  simp only
  rw [if_pos hland, hg2c, sscanf_format_colormap map.colordepth hd]
  simp only
  rw [hrows]

/-! ## Theorems: writing a forest and reading it back -/

theorem sscanf_format_forest (a b c d : Int) (ha : is_int a) (hb : is_int b) (hc : is_int c)
    (hd : is_int d) :
    sscanf_ints format_forest
      (['f', 'o', 'r', 'e', 's', 't', ' '] ++ (fmt_int a ++ ' ' :: (fmt_int b ++ ' ' ::
        (fmt_int c ++ ' ' :: fmt_int d)))) = [a, b, c, d] := by
  have h4 := scan_i_fmt_int d hd [] ends_numeral_nil
  have h4d := dropWhile_isspace_fmt_int d []
  rw [List.append_nil] at h4 h4d
  have ef : format_forest =
      [ScanDir.lit 'f', ScanDir.lit 'o', ScanDir.lit 'r', ScanDir.lit 'e', ScanDir.lit 's',
       ScanDir.lit 't', ScanDir.ws, ScanDir.conv_i, ScanDir.ws, ScanDir.conv_i, ScanDir.ws,
       ScanDir.conv_i, ScanDir.ws, ScanDir.conv_i, ScanDir.ws] := rfl
  have et : ['f', 'o', 'r', 'e', 's', 't', ' '] ++ (fmt_int a ++ ' ' :: (fmt_int b ++ ' ' ::
      (fmt_int c ++ ' ' :: fmt_int d))) =
      'f' :: 'o' :: 'r' :: 'e' :: 's' :: 't' :: ' ' :: (fmt_int a ++ ' ' :: (fmt_int b ++
        ' ' :: (fmt_int c ++ ' ' :: fmt_int d))) := rfl
  rw [ef, et]
  simp only [sscanf_ints, if_true, dropWhile_isspace_fmt_int,
    scan_i_fmt_int_cons a ha ' ' _ (by decide), scan_i_fmt_int_cons b hb ' ' _ (by decide),
    scan_i_fmt_int_cons c hc ' ' _ (by decide), h4d, h4]

theorem write_forest_stream (M : FloatOps) (U : Uninit M.F) (src : tc_forest M.F)
    (colormap : Option tc_colormap) :
    (tc_write_forest M U src colormap).2 =
      (['f', 'o', 'r', 'e', 's', 't', ' '] ++ (fmt_int src.ntrees ++ ' ' ::
        (fmt_int src.filterset ++ ' ' :: (fmt_int src.nclasses ++ ' ' ::
          fmt_int src.winsize)))) ++ '\n' ::
        (write_trees M U src src.ntrees.toNat 0 ++
          write_colormap_opt colormap src.nclasses) := by
  simp only [tc_write_forest, write_header, List.append_assoc, List.cons_append,
    List.nil_append]

theorem getD_mem_or_default {α : Type} (l : List α) (k : Nat) (d : α) :
    l.getD k d ∈ d :: l := by
  by_cases h : k < l.length
  · rw [List.getD_eq_getElem _ _ h]
    exact List.mem_cons_of_mem _ (List.getElem_mem h)
  · rw [List.getD_eq_default _ _ (by omega)]
    exact List.mem_cons_self _ _

theorem init_or_default_room (M : FloatOps) (U : Uninit M.F) (nclasses : Int)
    (hmax : nclasses ≤ MAX_N_CLASSES) (hU : node_room nclasses U.node) :
    ∀ node ∈ U.node :: (tc_init_tree M).nodes, node_room nclasses node := by
  intro node hnode
  have h8 : ((MAX_N_CLASSES : Nat) : Int) = 8 := rfl
  simp only [tc_init_tree, List.mem_cons, List.mem_singleton, List.not_mem_nil, or_false]
    at hnode
  rcases hnode with e | e
  · rw [e]
    exact hU
  · rw [e]
    unfold node_room tc_init_node
    simp only [List.length_replicate]
    have h9 : MAX_N_CLASSES = 8 := rfl
    omega

/-- Reading back what `tc_write_forest` wrote for a forest that is
`forest_ok` and has printable counts succeeds and restores the structure. -/
theorem read_write_forest_ok (M : FloatOps) (U : Uninit M.F) (src : tc_forest M.F)
    (colormap : Option tc_colormap) (hok : forest_ok src) (hp : counts_printable M src)
    (hcm : ∀ map, colormap = some map → is_int map.colordepth) :
    (tc_write_forest M U src colormap).1 = OK ∧
    ∃ forest2 map2, tc_read_forest M U (tc_write_forest M U src colormap).2 =
        some (forest2, map2) ∧ same_forest_structure src forest2 ∧
      (node_room src.nclasses U.node → ∀ k, k < src.trees.length →
        tree_reread M U src.nclasses (src.trees.getD k U.tree) (forest2.trees.getD k U.tree)) := by
  refine ⟨rfl, ?_⟩
  obtain ⟨h1, h2, h3, h4, hc0, hc8, hnt, htrees⟩ := hok
  have hline : line_chars (['f', 'o', 'r', 'e', 's', 't', ' '] ++ (fmt_int src.ntrees ++
      ' ' :: (fmt_int src.filterset ++ ' ' :: (fmt_int src.nclasses ++ ' ' ::
        fmt_int src.winsize)))) :=
    line_chars_append _ _ (by intro c hc; revert c; decide) <|
      line_chars_append _ _ (line_chars_fmt_int _) <| line_chars_cons _ _ (by decide) <|
      line_chars_append _ _ (line_chars_fmt_int _) <| line_chars_cons _ _ (by decide) <|
      line_chars_append _ _ (line_chars_fmt_int _) <| line_chars_cons _ _ (by decide)
        (line_chars_fmt_int _)
  have hll : (['f', 'o', 'r', 'e', 's', 't', ' '] ++ (fmt_int src.ntrees ++
      ' ' :: (fmt_int src.filterset ++ ' ' :: (fmt_int src.nclasses ++ ' ' ::
        fmt_int src.winsize)))).length < BUF_SIZE := by
    have e1 := fmt_int_length _ h1
    have e2 := fmt_int_length _ h2
    have e3 := fmt_int_length _ h3
    have e4 := fmt_int_length _ h4
    simp only [List.length_append, List.length_cons, List.length_nil]
    unfold BUF_SIZE
    omega
  obtain ⟨hg, hgl, hgc⟩ := getline_line _
    (write_trees M U src src.ntrees.toNat 0 ++
      write_colormap_opt colormap src.nclasses) (malloc_buf U.mem) hline hll
    (malloc_buf_length U.mem)
  have hto : src.ntrees.toNat = src.trees.length := by omega
  have hinit : tc_init_forest M src.ntrees src.filterset src.nclasses src.winsize =
      some { trees := List.replicate src.trees.length (tc_init_tree M), ntrees := src.ntrees,
             nclasses := src.nclasses, filterset := src.filterset,
             winsize := src.winsize } := by
    unfold tc_init_forest
    rw [if_neg (by omega), hto]
  obtain ⟨res, b, hres, hrl, hrm, hbl, hbs⟩ := read_trees_write M U src
    (write_colormap_opt colormap src.nclasses) (node_room src.nclasses U.node) hc0 htrees hp
    (by rw [← hnt]; exact h1) src.trees.length 0
    (List.replicate src.trees.length (tc_init_tree M)) _ (by omega) (by simp) hgl
    ⟨'f', _, rfl, by decide, by decide, by decide⟩
    (by
      intro k _ hk
      have hmem : src.trees.getD k U.tree ∈ src.trees := by
        rw [List.getD_eq_getElem _ _ hk]
        exact List.getElem_mem hk
      obtain ⟨e1, _, e3, _⟩ := htrees _ hmem
      have hk2 : k < (List.replicate src.trees.length (tc_init_tree M)).length := by
        simpa using hk
      rw [List.getD_eq_getElem _ _ hk2, List.getElem_replicate]
      simp only [tc_init_tree, List.length_singleton]
      omega)
    (by
      intro hc k _ hk j
      have hk2 : k < (List.replicate src.trees.length (tc_init_tree M)).length := by
        simpa using hk
      rw [List.getD_eq_getElem _ _ hk2, List.getElem_replicate]
      exact init_or_default_room M U src.nclasses hc8 hc _
        (getD_mem_or_default (tc_init_tree M).nodes j U.node))
    (fun k hk => by omega)
  have hmap : ∃ map2, read_colormap U.pix src.nclasses b
      (write_colormap_opt colormap src.nclasses) = some map2 := by
    cases colormap with
    | none => exact ⟨none, read_colormap_eof U.pix src.nclasses b hbs⟩
    | some map =>
      obtain ⟨map2, hm⟩ := read_colormap_write U.pix map src.nclasses b (hcm map rfl) hbl
      exact ⟨some map2, hm⟩
  obtain ⟨map2, hm⟩ := hmap
  refine ⟨{ trees := res, ntrees := src.ntrees, nclasses := src.nclasses,
            filterset := src.filterset, winsize := src.winsize }, map2, ?_,
    ⟨rfl, rfl, rfl, rfl, forall₂_of_getD _ _ _ U.tree U.tree hrl (fun k hk => (hrm k hk).1)⟩,
    fun hc k hk => (hrm k hk).2 hc⟩
  unfold tc_read_forest
  rw [write_forest_stream, hg]
  simp only
  rw [if_neg (by decide), hgc, sscanf_format_forest _ _ _ _ h1 h2 h3 h4]
  simp only
  rw [hinit]
  simp only
  rw [hto, hres]
  simp only
  rw [hm]

/-! ## Theorems: the forests the trainer builds -/

theorem tmod_range (r b : Int) (hr : 0 ≤ r) (hb : 0 < b) :
    0 ≤ Int.tmod r b ∧ Int.tmod r b < b :=
  ⟨Int.tmod_nonneg b hr, Int.tmod_lt_of_pos r hb⟩

theorem tdiv_two_range (w : Int) (hw : 0 ≤ w) : 0 ≤ Int.tdiv w 2 ∧ Int.tdiv w 2 ≤ w := by
  rw [Int.tdiv_eq_ediv hw (by decide)]
  omega

theorem pick_function_spec :
    ∀ (rs : List Int) (f : Int) (rs2 : List Int),
      (∀ r ∈ rs, 0 ≤ r ∧ r ≤ 2147483647) → pick_function rs = some (f, rs2) →
      is_int f ∧ ∀ r ∈ rs2, 0 ≤ r ∧ r ≤ 2147483647 := by
  intro rs
  induction rs with
  | nil =>
    intro f rs2 _ h
    simp [pick_function] at h
  | cons r rs ih =>
    intro f rs2 hr h
    unfold pick_function at h
    split at h
    · exact ih f rs2 (fun x hx => hr x (List.mem_cons_of_mem _ hx)) h
    · simp only [Option.some.injEq, Prod.mk.injEq] at h
      obtain ⟨h1, h2⟩ := h
      subst h1
      subst h2
      have := tmod_range r TC_FILTER_NFUNCTIONS (hr r (by simp)).1 (by decide)
      refine ⟨?_, fun x hx => hr x (List.mem_cons_of_mem _ hx)⟩
      unfold is_int
      unfold TC_FILTER_NFUNCTIONS at this ⊢
      omega

theorem pick_channels_spec (rands : List Int) (chans crosschannel chanA chanB : Int)
    (rs : List Int) (hr : ∀ r ∈ rands, 0 ≤ r ∧ r ≤ 2147483647) (hc : 0 < chans)
    (hci : is_int chans)
    (h : pick_channels rands chans crosschannel = some (chanA, chanB, rs)) :
    is_int chanA ∧ is_int chanB ∧ ∀ r ∈ rs, 0 ≤ r ∧ r ≤ 2147483647 := by
  unfold is_int at hci
  unfold pick_channels at h
  cases rands with
  | nil => simp at h
  | cons r1 rs1 =>
    simp only at h
    have t1 := tmod_range r1 chans (hr r1 (by simp)).1 hc
    split at h
    · cases rs1 with
      | nil => simp at h
      | cons r2 rs2 =>
        simp only [Option.some.injEq, Prod.mk.injEq] at h
        obtain ⟨h1, h2, h3⟩ := h
        have t2 := tmod_range r2 chans (hr r2 (by simp)).1 hc
        subst h1
        subst h2
        subst h3
        refine ⟨?_, ?_, fun x hx => hr x (by simp [hx])⟩ <;> (unfold is_int; omega)
    · simp only [Option.some.injEq, Prod.mk.injEq] at h
      obtain ⟨h1, h2, h3⟩ := h
      subst h1
      subst h2
      subst h3
      refine ⟨?_, ?_, fun x hx => hr x (by simp [hx])⟩ <;> (unfold is_int; omega)

theorem offset_int (a winsize : Int) (ha : 0 ≤ a) (hw : 0 < winsize)
    (hwi : is_int (winsize * 2)) : is_int (Int.tmod a winsize - Int.tdiv winsize 2) := by
  have t1 := tmod_range a winsize ha hw
  have t2 := tdiv_two_range winsize (by omega)
  unfold is_int at hwi ⊢
  omega

theorem rect_offset_int (a winsize : Int) (ha : 0 ≤ a) (hw : 0 < winsize)
    (hwi : is_int (winsize * 2)) :
    is_int (Int.tmod a (winsize * 2) - (Int.tdiv winsize 2 * 2 - 1)) := by
  have t1 := tmod_range a (winsize * 2) ha (by omega)
  have t2 := tdiv_two_range winsize (by omega)
  unfold is_int at hwi ⊢
  omega

theorem infm_int (a b : Int) (ha : is_int a) (hb : is_int b) : is_int (infm a b) := by
  unfold infm
  split <;> assumption

theorem supm_int (a b : Int) (ha : is_int a) (hb : is_int b) : is_int (supm a b) := by
  unfold supm
  split <;> assumption

/-- Whatever `tc_randomize_filter` leaves in the candidate filter has C
`int` fields. -/
theorem randomize_filter_ints (rands rest : List Int) (f0 flt : tc_filter)
    (chans filterset winsize crosschannel status : Int)
    (hr : ∀ r ∈ rands, 0 ≤ r ∧ r ≤ 2147483647) (hf0 : filter_ints f0)
    (hc : 0 < chans) (hci : is_int chans) (hw : 0 < winsize) (hwi : is_int (winsize * 2))
    (h : tc_randomize_filter rands f0 chans filterset winsize crosschannel =
      some (status, flt, rest)) : filter_ints flt := by
  unfold tc_randomize_filter at h
  split at h
  · -- points
    cases hpc : pick_channels rands chans crosschannel with
    | none => simp [hpc] at h
    | some v =>
      obtain ⟨chanA, chanB, rs⟩ := v
      obtain ⟨hA, hB, hrs⟩ := pick_channels_spec rands chans crosschannel chanA chanB rs hr hc
        hci hpc
      simp only [hpc] at h
      cases hpf : pick_function rs with
      | none => simp [hpf] at h
      | some v2 =>
        obtain ⟨fn, rs2⟩ := v2
        obtain ⟨hfn, hrs2⟩ := pick_function_spec rs fn rs2 hrs hpf
        simp only [hpf] at h
        match rs2, hrs2, h with
        | a :: b :: c :: d :: rest2, hrs2, h =>
          simp only [Option.some.injEq, Prod.mk.injEq] at h
          obtain ⟨_, h2, _⟩ := h
          subst h2
          exact ⟨hfn, offset_int a winsize (hrs2 a (by simp)).1 hw hwi,
            offset_int c winsize (hrs2 c (by simp)).1 hw hwi, hA,
            offset_int b winsize (hrs2 b (by simp)).1 hw hwi,
            offset_int d winsize (hrs2 d (by simp)).1 hw hwi, hB⟩
        | [], _, h => simp at h
        | [_], _, h => simp at h
        | [_, _], _, h => simp at h
        | [_, _, _], _, h => simp at h
  · split at h
    · -- ratios
      cases hpc : pick_channels rands chans crosschannel with
      | none => simp [hpc] at h
      | some v =>
        obtain ⟨chanA, chanB, rs2⟩ := v
        obtain ⟨hA, hB, hrs2⟩ := pick_channels_spec rands chans crosschannel chanA chanB rs2
          hr hc hci hpc
        simp only [hpc] at h
        match rs2, hrs2, h with
        | a :: b :: c :: d :: rest2, hrs2, h =>
          simp only [Option.some.injEq, Prod.mk.injEq] at h
          obtain ⟨_, h2, _⟩ := h
          subst h2
          exact ⟨(by decide : is_int TC_FILTER_RATIO),
            offset_int a winsize (hrs2 a (by simp)).1 hw hwi,
            offset_int c winsize (hrs2 c (by simp)).1 hw hwi, hA,
            offset_int b winsize (hrs2 b (by simp)).1 hw hwi,
            offset_int d winsize (hrs2 d (by simp)).1 hw hwi, hB⟩
        | [], _, h => simp at h
        | [_], _, h => simp at h
        | [_, _], _, h => simp at h
        | [_, _, _], _, h => simp at h
    · split at h
      · -- rectangles
        split at h
        · simp only [Option.some.injEq, Prod.mk.injEq] at h
          obtain ⟨_, h2, _⟩ := h
          subst h2
          exact hf0
        · match rands, hr, h with
          | ch :: a :: b :: c :: d :: rest2, hr, h =>
            simp only [Option.some.injEq, Prod.mk.injEq] at h
            obtain ⟨_, h2, _⟩ := h
            subst h2
            have hch := tmod_range ch chans (hr ch (by simp)).1 hc
            have hchi : is_int (Int.tmod ch chans) := by
              unfold is_int at hci ⊢
              omega
            have ia := rect_offset_int a winsize (hr a (by simp)).1 hw hwi
            have ib := rect_offset_int b winsize (hr b (by simp)).1 hw hwi
            have ic := rect_offset_int c winsize (hr c (by simp)).1 hw hwi
            have id := rect_offset_int d winsize (hr d (by simp)).1 hw hwi
            exact ⟨(by decide : is_int TC_FILTER_RECT), infm_int _ _ ia ib,
              infm_int _ _ ic id, hchi,
              supm_int _ _ ia ib, supm_int _ _ ic id, hchi⟩
          | [], _, h => simp at h
          | [_], _, h => simp at h
          | [_, _], _, h => simp at h
          | [_, _, _], _, h => simp at h
          | [_, _, _, _], _, h => simp at h
      · simp only [Option.some.injEq, Prod.mk.injEq] at h
        obtain ⟨_, h2, _⟩ := h
        subst h2
        exact hf0

theorem init_node_shape (M : FloatOps) : node_shape (tc_init_node M) :=
  ⟨(by decide : is_int ERROR_CLASS), (by decide : is_int 0),
    (by decide : filter_ints tc_init_filter), Or.inl ⟨rfl, rfl⟩⟩

theorem forall₂_preserves {α : Type} (P : α → Prop) (R : α → α → Prop)
    (hstep : ∀ a b, P a → R a b → P b) :
    ∀ (l l2 : List α), List.Forall₂ R l l2 → (∀ a ∈ l, P a) → ∀ b ∈ l2, P b := by
  intro l l2 h
  induction h with
  | nil =>
    intro _ b hb
    simp at hb
  | cons hab _ ih =>
    intro hl b hb
    rcases List.mem_cons.mp hb with e | e
    · rw [e]
      exact hstep _ _ (hl _ (by simp)) hab
    · exact ih (fun a ha => hl a (List.mem_cons_of_mem _ ha)) b e

theorem tree_grows_shape (M : FloatOps) (t t2 : tc_tree M.F) (ht : tree_shape t)
    (h : tree_grows M t t2) : tree_shape t2 := by
  obtain ⟨hnn, hint, h1, hnodes⟩ := ht
  cases h with
  | unchanged => exact ⟨hnn, hint, h1, hnodes⟩
  | unexpandable n node hn =>
    refine ⟨by simpa using hnn, hint, h1, ?_⟩
    intro x hx
    rcases List.mem_or_eq_of_mem_set hx with e | e
    · exact hnodes x e
    · rw [e]
      exact hnodes node (List.getElem?_mem hn)
  | split n node rands rest f0 flt chans filterset winsize crosschannel status thresh_ind
      hfull hn hr hf0 hc hci hw hwi hrand ht1 ht2 =>
    have hflt := randomize_filter_ints rands rest f0 flt chans filterset winsize crosschannel
      status hr hf0 hc hci hw hwi hrand
    obtain ⟨hm, _, _, _⟩ := hnodes node (List.getElem?_mem hn)
    unfold is_int at hint
    have hcap : t.nnodes < 510 := by
      have : ((MAX_TREE_NODES : Nat) : Int) = 512 := rfl
      omega
    refine ⟨?_, ?_, ?_, ?_⟩
    · simp only [split_node, List.length_append, List.length_set, List.length_cons,
        List.length_nil]
      omega
    · show is_int (t.nnodes + 2)
      unfold is_int
      omega
    · show 1 ≤ t.nnodes + 2
      omega
    · intro x hx
      simp only [split_node, List.mem_append, List.mem_cons, List.not_mem_nil, or_false] at hx
      rcases hx with hx | hx | hx
      · rcases List.mem_or_eq_of_mem_set hx with e | e
        · exact hnodes x e
        · rw [e]
          refine ⟨hm, ?_, hflt, Or.inr ⟨t.nnodes + 1, t.nnodes, rfl, rfl, by omega, ?_, ?_⟩⟩
          · show is_int (index_to_threshold thresh_ind MIN_THRESH)
            unfold is_int index_to_threshold MIN_THRESH
            unfold N_THRESH at ht2
            omega
          · unfold is_int
            omega
          · unfold is_int
            omega
      · rw [hx]
        exact init_node_shape M
      · rw [hx]
        exact init_node_shape M

theorem same_split_shape {F : Type} :
    ∀ (l l2 : List (tc_node F)), List.Forall₂ same_split l l2 →
      (∀ a ∈ l, node_shape a) → ∀ b ∈ l2, node_shape b := by
  apply forall₂_preserves node_shape same_split
  intro a b ha hab
  obtain ⟨_, h2, h3, h4⟩ := ha
  obtain ⟨e1, e2, e3, e4, _, e6⟩ := hab
  refine ⟨e6, by rw [e1]; exact h2, by rw [e2]; exact h3, ?_⟩
  rw [e3, e4]
  exact h4

theorem tree_tallied_shape {F : Type} (a b : tc_tree F) (ha : tree_shape a)
    (h : tree_tallied a b) : tree_shape b := by
  obtain ⟨hnn, hint, h1, hnodes⟩ := ha
  obtain ⟨e1, e2⟩ := h
  refine ⟨?_, by rw [e1]; exact hint, by rw [e1]; exact h1,
    same_split_shape a.nodes b.nodes e2 hnodes⟩
  rw [e1, hnn, e2.length_eq]

/-- Every forest the trainer builds is `forest_shape`. -/
theorem built_shape (M : FloatOps) (forest : tc_forest M.F) (h : Built M forest) :
    forest_shape forest := by
  induction h with
  | init ntrees filterset nclasses winsize forest h1 h2 h3 h4 h5 hinit =>
    unfold tc_init_forest at hinit
    split at hinit
    · simp at hinit
    · injection hinit with hinit
      subst hinit
      refine ⟨h1, h2, ?_, h3, h4, h5, ?_, ?_⟩
      · show is_int nclasses
        unfold is_int
        have : ((MAX_N_CLASSES : Nat) : Int) = 8 := rfl
        omega
      · simp only [List.length_replicate]
        omega
      · intro tree htree
        rw [List.eq_of_mem_replicate htree]
        refine ⟨rfl, (by decide : is_int 1), (by decide : (1 : Int) ≤ 1), ?_⟩
        intro node hnode
        simp only [tc_init_tree, List.mem_singleton] at hnode
        rw [hnode]
        exact init_node_shape M
  | grow forest trees _ hg ih =>
    obtain ⟨h1, h2, h3, h4, h5, h6, h7, h8⟩ := ih
    refine ⟨h1, h2, h3, h4, h5, h6, ?_, ?_⟩
    · show forest.ntrees = (trees.length : Int)
      rw [h7, hg.length_eq]
    · exact forall₂_preserves tree_shape (tree_grows M)
        (fun a b ha hab => tree_grows_shape M a b ha hab) forest.trees trees hg h8
  | tally forest trees _ hg ih =>
    obtain ⟨h1, h2, h3, h4, h5, h6, h7, h8⟩ := ih
    refine ⟨h1, h2, h3, h4, h5, h6, ?_, ?_⟩
    · show forest.ntrees = (trees.length : Int)
      rw [h7, hg.length_eq]
    · exact forall₂_preserves tree_shape tree_tallied
        (fun a b ha hab => tree_tallied_shape a b ha hab) forest.trees trees hg h8

theorem forest_ok_of_shape {F : Type} (forest : tc_forest F) (hs : forest_shape forest)
    (hfit : filters_fit forest) : forest_ok forest := by
  obtain ⟨h1, h2, h3, h4, h5, h6, h7, h8⟩ := hs
  refine ⟨h1, h2, h3, h4, h5, h6, h7, ?_⟩
  intro tree htree
  obtain ⟨e1, e2, e3, e4⟩ := h8 tree htree
  refine ⟨e1, e2, e3, ?_⟩
  intro node hnode
  obtain ⟨n1, n2, n3, n4⟩ := e4 node hnode
  exact ⟨n1, n2, n3, hfit tree htree node hnode, n4⟩

theorem counts_printable_of_all (M : FloatOps) (forest : tc_forest M.F)
    (h0 : printable M (M.ofInt 0))
    (h : ∀ tree ∈ forest.trees, ∀ node ∈ tree.nodes, ∀ x ∈ node.class_counts,
      printable M x) : counts_printable M forest := by
  intro tree htree node hnode j _
  by_cases hj : j < node.class_counts.length
  · rw [List.getD_eq_getElem _ _ hj]
    exact h tree htree node hnode _ (List.getElem_mem hj)
  · rw [List.getD_eq_default _ _ (by omega)]
    exact h0

theorem exGrown_grows (rands : List Int) (flt : tc_filter)
    (chans winsize crosschannel : Int)
    (hr : ∀ r ∈ rands, 0 ≤ r ∧ r ≤ 2147483647) (hc : 0 < chans) (hci : is_int chans)
    (hw : 0 < winsize) (hwi : is_int (winsize * 2))
    (h : tc_randomize_filter rands tc_init_filter chans TC_FILTERSET_POINTS winsize
      crosschannel = some (OK, flt, [])) :
    tree_grows ratOps (tc_init_tree ratOps) (exGrown flt) :=
  tree_grows.split (tc_init_tree ratOps) 0 (tc_init_node ratOps) rands [] tc_init_filter flt
    chans TC_FILTERSET_POINTS winsize crosschannel OK 255 (by decide) rfl hr (by decide) hc hci
    hw hwi h (by decide) (by decide)

/-- The forest `exLongForest` is built by `tc_init_forest` and one pass of
`tc_grow` in which `rand()` returns 10, 12, 0, 0, 900, 900, 900. -/
theorem exLongForest_built : Built ratOps exLongForest :=
  Built.grow { trees := [tc_init_tree ratOps], ntrees := 1, nclasses := 3, filterset := 0,
               winsize := 2001 } [exGrown exLongFilter]
    (Built.init 1 0 3 2001 _ (by decide) (by decide) (by decide) (by decide) (by decide) rfl)
    (List.Forall₂.cons
      (exGrown_grows [10, 12, 0, 0, 900, 900, 900] exLongFilter 13 2001 1 (by decide)
        (by decide) (by decide) (by decide) (by decide) (by decide))
      List.Forall₂.nil)

/-- The forest `exForest` is built by `tc_init_forest`, one pass of `tc_grow`
that splits the root of the first tree, and `tc_tally_classes`. -/
theorem exForest_built : Built ratOps exForest :=
  Built.tally { trees := [exGrown exSplit.filter, tc_init_tree ratOps], ntrees := 2,
                nclasses := 3, filterset := 0, winsize := 3 } [exTree, exLeafTree]
    (Built.grow { trees := [tc_init_tree ratOps, tc_init_tree ratOps], ntrees := 2,
                  nclasses := 3, filterset := 0, winsize := 3 }
      [exGrown exSplit.filter, tc_init_tree ratOps]
      (Built.init 2 0 3 3 _ (by decide) (by decide) (by decide) (by decide) (by decide) rfl)
      (List.Forall₂.cons
        (exGrown_grows [0, 2, 2, 2, 2, 3] exSplit.filter 1 5 0 (by decide) (by decide)
          (by decide) (by decide) (by decide) (by decide))
        (List.Forall₂.cons (tree_grows.unchanged _) List.Forall₂.nil)))
    (List.Forall₂.cons
      ⟨rfl, List.Forall₂.cons ⟨by decide, rfl, rfl, rfl, rfl, by decide⟩
        (List.Forall₂.cons ⟨rfl, rfl, rfl, rfl, rfl, by decide⟩
          (List.Forall₂.cons ⟨rfl, rfl, rfl, rfl, rfl, by decide⟩ List.Forall₂.nil))⟩
      (List.Forall₂.cons
        ⟨rfl, List.Forall₂.cons ⟨rfl, rfl, rfl, rfl, rfl, by decide⟩ List.Forall₂.nil⟩
        List.Forall₂.nil))

/-- C9 as stated fails: the forest `exLongForest`, built by `tc_init_forest`
and one pass of `tc_grow` with a window of 2001 pixels, has printable counts
and is written with status `OK`, yet the forest read back has a root filter
with `chanB = 1` where the forest written has `chanB = 12`. -/
theorem forest_round_trip_counterexample :
    Built ratOps exLongForest ∧ counts_printable ratOps exLongForest ∧
    (tc_write_forest ratOps exU exLongForest none).1 = OK ∧
    (tc_read_forest ratOps exU (tc_write_forest ratOps exU exLongForest none).2).map
        (fun r => r.1.trees.map fun t => t.nodes.map fun n => n.filter) =
      some [[{ exLongFilter with chanB := 1 }, tc_init_filter, tc_init_filter]] ∧
    exLongForest.trees.map (fun t => t.nodes.map fun n => n.filter) =
      [[exLongFilter, tc_init_filter, tc_init_filter]] ∧
    ({ exLongFilter with chanB := 1 } : tc_filter) ≠ exLongFilter := by
  refine ⟨exLongForest_built, ?_, rfl, ?_, rfl, by decide⟩
  · apply counts_printable_of_all
    · with_unfolding_all decide
    · with_unfolding_all decide
  · set_option maxRecDepth 100000 in
    with_unfolding_all rfl

/-- C9 amended: for every forest built by `tc_init_forest`, passes of `tc_grow`
and `tc_tally_classes` in which the text of every filter has at most 31
characters (and whose class counts print as plain numbers, as all finite
values do), for every colormap argument and whatever the fresh buffers
hold, `tc_write_forest` returns `OK` and `tc_read_forest` on the text written
succeeds and yields a forest with the same `ntrees`, filter family,
`nclasses` and `winsize` and, tree by tree, the same `nnodes` and node by node
the same threshold, filter, leaf status and child indices. -/
theorem forest_round_trip (M : FloatOps) (U : Uninit M.F) (forest : tc_forest M.F)
    (colormap : Option tc_colormap) (hbuilt : Built M forest) (hfit : filters_fit forest)
    (hp : counts_printable M forest)
    (hcm : ∀ map, colormap = some map → is_int map.colordepth) :
    (tc_write_forest M U forest colormap).1 = OK ∧
    ∃ forest2 map2, tc_read_forest M U (tc_write_forest M U forest colormap).2 =
        some (forest2, map2) ∧ same_forest_structure forest forest2 := by
  obtain ⟨h1, forest2, map2, h2, h3, _⟩ := read_write_forest_ok M U forest colormap
    (forest_ok_of_shape forest (built_shape M forest hbuilt) hfit) hp hcm
  exact ⟨h1, forest2, map2, h2, h3⟩

/-- C9 amended, evaluated on the forest of two trees, written with a colormap. -/
theorem forest_round_trip_witness :
    (tc_write_forest ratOps exU exForest (some exColormap)).1 = OK ∧
    ∃ forest2 map2, tc_read_forest ratOps exU
        (tc_write_forest ratOps exU exForest (some exColormap)).2 = some (forest2, map2) ∧
      same_forest_structure exForest forest2 :=
  forest_round_trip ratOps exU exForest (some exColormap) exForest_built
    (by unfold filters_fit; decide)
    (counts_printable_of_all ratOps exForest (by with_unfolding_all decide)
      (by with_unfolding_all decide))
    (by
      intro map h
      injection h with h
      subst h
      decide)

/-! ## Class counts through `%8f` and `%f` -/

theorem round_half_even_near (q : ℚ) : |(round_half_even q : ℚ) - q| ≤ 1 / 2 := by
  have h1 : (⌊q⌋ : ℚ) ≤ q := Int.floor_le q
  have h2 : q < ⌊q⌋ + 1 := Int.lt_floor_add_one q
  unfold round_half_even
  rw [abs_le]
  split_ifs <;> push_cast <;> constructor <;> linarith

theorem round_half_even_nonneg (q : ℚ) (hq : 0 ≤ q) : 0 ≤ round_half_even q := by
  have h : 0 ≤ ⌊q⌋ := Int.floor_nonneg.mpr hq
  unfold round_half_even
  split_ifs <;> omega

theorem millionths_cast (x : ℚ) :
    ((millionths x : Nat) : ℚ) = (round_half_even (|x| * 1000000) : ℚ) := by
  unfold millionths
  have h := round_half_even_nonneg (|x| * 1000000) (by positivity)
  have h2 : ((round_half_even (|x| * 1000000)).toNat : Int) =
      round_half_even (|x| * 1000000) := Int.toNat_of_nonneg h
  exact_mod_cast h2

/-- The decimal `%f` prints for a non-negative `x` is within half a
millionth of `x`. -/
theorem millionths_near (x : ℚ) (hx : 0 ≤ x) :
    |(millionths x : ℚ) / 1000000 - x| ≤ 1 / 2000000 := by
  have h := round_half_even_near (|x| * 1000000)
  rw [← millionths_cast, abs_of_nonneg hx] at h
  rw [abs_le] at h ⊢
  constructor <;> linarith

theorem pad_digits_spec :
    ∀ (w n : Nat), (pad_digits w n).length = w ∧
      (∀ c ∈ pad_digits w n, is_dec_digit c = true) ∧
      digits_val 10 (pad_digits w n) = n % 10 ^ w := by
  intro w
  induction w with
  | zero =>
    intro n
    refine ⟨rfl, ?_, ?_⟩
    · intro c hc
      simp [pad_digits] at hc
    · simp [pad_digits, digits_val, Nat.mod_one]
  | succ w ih =>
    intro n
    obtain ⟨h1, h2, h3⟩ := ih (n / 10)
    obtain ⟨d1, d2, _⟩ := digitChar_spec (n % 10) (Nat.mod_lt _ (by decide))
    have e : pad_digits (w + 1) n = pad_digits w (n / 10) ++ [Nat.digitChar (n % 10)] := rfl
    rw [e]
    refine ⟨by simp [h1], ?_, ?_⟩
    · intro c hc
      rcases List.mem_append.mp hc with h | h
      · exact h2 c h
      · rw [List.mem_singleton] at h
        rw [h]
        exact d1
    · rw [digits_val_append, h3, d2, pow_succ, Nat.mul_comm (10 ^ w) 10, Nat.mod_mul]
      omega

/-- The value `sscanf` reads from an integer part, a point and six decimals. -/
theorem scan_decimal_fixed (a b : Nat) :
    scan_decimal (fmt_nat a ++ '.' :: pad_digits 6 b) =
      some ((a : ℚ) + ((b % 1000000 : Nat) : ℚ) / 1000000) := by
  obtain ⟨h1, h2, d, ds, h3, _⟩ := fmt_nat_spec a
  obtain ⟨p1, p2, p3⟩ := pad_digits_spec 6 b
  have hd : is_dec_digit d = true := h1 d (by rw [h3]; simp)
  obtain ⟨s1, s2, s3⟩ := digit_not_special d hd
  have hdrop : (fmt_nat a ++ '.' :: pad_digits 6 b).dropWhile isspace =
      fmt_nat a ++ '.' :: pad_digits 6 b := by
    rw [h3]
    simp [List.dropWhile, s1]
  have hsign : scan_sign (fmt_nat a ++ '.' :: pad_digits 6 b) =
      (false, fmt_nat a ++ '.' :: pad_digits 6 b) := by
    rw [h3]
    simp [scan_sign, s2, s3]
  have ht := takeWhile_append_stop is_dec_digit (fmt_nat a) ('.' :: pad_digits 6 b) h1
    (fun c t e => by
      injection e with e1 e2
      rw [← e1]
      decide)
  have ht2 := takeWhile_append_stop is_dec_digit (pad_digits 6 b) [] p2
    (fun c t e => by cases e)
  rw [List.append_nil] at ht2
  have hne : fmt_nat a ≠ [] := by
    rw [h3]
    simp
  unfold scan_decimal
  simp only [hdrop, hsign, ht.1, ht.2, ht2.1, ht2.2, if_true, hne, false_and, if_false, h2, p1,
    p3]
  norm_num

/-- The text `%8f` writes for a non-negative value: no padding, since the
integer part has at least one digit. -/
theorem fmt_8f_nonneg (x : ℚ) (hx : 0 ≤ x) :
    pad_left 8 (fmt_f6 x) =
      fmt_nat (millionths x / 1000000) ++ '.' :: pad_digits 6 (millionths x % 1000000) := by
  obtain ⟨_, _, d, ds, h3, _⟩ := fmt_nat_spec (millionths x / 1000000)
  obtain ⟨p1, _, _⟩ := pad_digits_spec 6 (millionths x % 1000000)
  have e : fmt_f6 x =
      fmt_nat (millionths x / 1000000) ++ '.' :: pad_digits 6 (millionths x % 1000000) := by
    unfold fmt_f6
    rw [if_neg (not_lt.mpr hx), List.nil_append]
  have hlen : 8 - (fmt_f6 x).length = 0 := by
    rw [e, h3]
    simp only [List.length_append, List.length_cons, p1]
    omega
  unfold pad_left
  rw [hlen, e]
  rfl

theorem millionths_split (x : ℚ) :
    ((millionths x / 1000000 : Nat) : ℚ) +
        ((millionths x % 1000000 % 1000000 : Nat) : ℚ) / 1000000 =
      (millionths x : ℚ) / 1000000 := by
  have h := Nat.div_add_mod (millionths x) 1000000
  have h2 : ((1000000 * (millionths x / 1000000) + millionths x % 1000000 : Nat) : ℚ) =
      (millionths x : ℚ) := by
    rw [h]
  rw [Nat.mod_mod]
  push_cast at h2
  linarith

/-- The value `sscanf` stores for the text `%8f` writes for a non-negative
value `x`: the rounding of `x` rounded to six decimals. -/
theorem scan_fmt_8f (rnd : ℚ → ℚ) (x : ℚ) (hx : 0 ≤ x) :
    (decOps rnd).scan_f ((decOps rnd).fmt_8f x) =
      some (rnd ((millionths x : ℚ) / 1000000)) := by
  show (scan_decimal (pad_left 8 (fmt_f6 x))).map rnd = _
  rw [fmt_8f_nonneg x hx, scan_decimal_fixed, millionths_split]
  rfl

/-- Every non-negative value in the range of binary32 prints with `%8f` as
one field that `sscanf` reads back. -/
theorem printable_nonneg (rnd : ℚ → ℚ) (x : ℚ) (hx : 0 ≤ x) (hmax : x < 2 ^ 128) :
    printable (decOps rnd) x := by
  refine ⟨?_, ?_⟩
  · show plain_text (pad_left 8 (fmt_f6 x))
    rw [fmt_8f_nonneg x hx]
    obtain ⟨h1, _, _⟩ := fmt_nat_spec (millionths x / 1000000)
    obtain ⟨p1, p2, _⟩ := pad_digits_spec 6 (millionths x % 1000000)
    have hnear := millionths_near x hx
    rw [abs_le] at hnear
    have hsplit := millionths_split x
    have hfrac : (0 : ℚ) ≤ ((millionths x % 1000000 % 1000000 : Nat) : ℚ) / 1000000 :=
      div_nonneg (Nat.cast_nonneg _) (by norm_num)
    have hq : ((millionths x / 1000000 : Nat) : ℚ) < 10 ^ 39 := by
      have : (2 : ℚ) ^ 128 + 1 < 10 ^ 39 := by norm_num
      linarith [hnear.2]
    have hn : millionths x / 1000000 < 10 ^ (38 + 1) := by
      exact_mod_cast hq
    have hlen := dec_digits_length (millionths x / 1000000 + 1) (millionths x / 1000000) 38 hn
    refine ⟨?_, ?_⟩
    · rw [List.length_append, List.length_cons, p1]
      unfold BUF_SIZE
      unfold fmt_nat
      omega
    · intro c hc
      rcases List.mem_append.mp hc with h | h
      · exact digit_plain c (h1 c h)
      · rcases List.mem_cons.mp h with h | h
        · rw [h]
          decide
        · exact digit_plain c (p2 c h)
  · rw [scan_fmt_8f rnd x hx]
    rfl

/-- C10 as stated fails: in binary32 arithmetic the tree `exThirdsTree`, tallied
from three samples of class 1, holds the counts `1`, `1.0f/3` and `2.0f/3`;
`tc_write_tree` prints them as `1.000000`, `0.333333` and `0.666667`, and the
count `tc_read_tree` stores for the second node differs from the count
written by more than one millionth of it.  A count of `1.0f/3000000` is
printed as `0.000000` and read back as zero. -/
theorem class_counts_round_trip_counterexample :
    exThirdsTree.nodes.map (fun n => n.class_counts.getD 1 0) =
      [1, 11184811 / 33554432, 11184811 / 16777216] ∧
    (tc_read_tree (decOps round_f32) exU (tc_init_tree (decOps round_f32))
        (tc_write_tree (decOps round_f32) exU exThirdsTree 2).2 2).map
        (fun r => r.1.nodes.map fun n => n.class_counts.getD 1 0) =
      some [1, 11184799 / 33554432, 699051 / 1048576] ∧
    (1 : ℚ) / 10 ^ 6 <
      |11184799 / 33554432 - 11184811 / 33554432| / (11184811 / 33554432) ∧
    (0 : ℚ) < round_f32 (1 / 3000000) ∧
    (decOps round_f32).scan_f ((decOps round_f32).fmt_8f (round_f32 (1 / 3000000))) =
      some 0 := by
  refine ⟨?_, ?_, ?_, ?_, ?_⟩
  · set_option maxRecDepth 100000 in
    with_unfolding_all rfl
  · set_option maxRecDepth 100000 in
    with_unfolding_all rfl
  · norm_num [abs_of_neg]
  · set_option maxRecDepth 100000 in
    with_unfolding_all decide
  · set_option maxRecDepth 100000 in
    with_unfolding_all rfl

/-- C10 amended: class counts survive persistence to six decimal places.  For
every rounding `rnd` of the values stored into a `float`, every tree whose
counts are non-negative and in the range of binary32, every node `k` and
every class `j` with `1 ≤ j < nclasses`, `tc_read_tree` on the record
`tc_write_tree` wrote succeeds and the count read back is the rounding of the
decimal printed, which is the original count rounded to a multiple of one
millionth and so differs from it by at most `5e-7` in absolute value.  The
relative error is not bounded. -/
theorem class_counts_round_trip (rnd : ℚ → ℚ) (U : Uninit (decOps rnd).F) (nclasses : Int)
    (src target : tc_tree (decOps rnd).F) (rest : List Char)
    (hcls : 0 ≤ nclasses) (hmax : nclasses ≤ MAX_N_CLASSES) (hsrc : tree_ok src)
    (hcounts : ∀ node ∈ src.nodes, node.class_counts.length = MAX_N_CLASSES ∧
      ∀ x ∈ node.class_counts, 0 ≤ x ∧ x < 2 ^ 128)
    (htarget : target.nodes.length ≤ src.nodes.length)
    (hroom : ∀ node ∈ U.node :: target.nodes, node.class_counts.length = MAX_N_CLASSES) :
    ∃ t2, tc_read_tree (decOps rnd) U target
        ((tc_write_tree (decOps rnd) U src nclasses).2 ++ rest) nclasses = some (t2, rest) ∧
      ∀ (k j : Nat), k < src.nodes.length → 1 ≤ j → (j : Int) < nclasses →
        (t2.nodes.getD k U.node).class_counts.getD j ((decOps rnd).ofInt 0) =
          rnd ((millionths ((src.nodes.getD k U.node).class_counts.getD j
            ((decOps rnd).ofInt 0)) : ℚ) / 1000000) ∧
        |(millionths ((src.nodes.getD k U.node).class_counts.getD j
            ((decOps rnd).ofInt 0)) : ℚ) / 1000000 -
          (src.nodes.getD k U.node).class_counts.getD j ((decOps rnd).ofInt 0)| ≤
            1 / 2000000 := by
  have h8 : ((MAX_N_CLASSES : Nat) : Int) = 8 := rfl
  have hrange : ∀ node ∈ src.nodes, ∀ j : Nat, (j : Int) < nclasses →
      0 ≤ node.class_counts.getD j ((decOps rnd).ofInt 0) ∧
        node.class_counts.getD j ((decOps rnd).ofInt 0) < 2 ^ 128 := by
    intro node hnode j hj
    obtain ⟨hlen, hx⟩ := hcounts node hnode
    have hjl : j < node.class_counts.length := by omega
    rw [List.getD_eq_getElem _ _ hjl]
    exact hx _ (List.getElem_mem hjl)
  obtain ⟨t2, hread, _, hcnt, _⟩ := tc_read_tree_write (decOps rnd) U nclasses src target rest
    hcls hsrc
    (fun node hnode j hj =>
      printable_nonneg rnd _ (hrange node hnode j hj).1 (hrange node hnode j hj).2)
    htarget
  refine ⟨t2, hread, ?_⟩
  intro k j hk hj1 hj
  have hmem : src.nodes.getD k U.node ∈ src.nodes := by
    rw [List.getD_eq_getElem _ _ hk]
    exact List.getElem_mem hk
  obtain ⟨hx0, _⟩ := hrange _ hmem j hj
  have h := hcnt
    (fun k2 => by
      have := hroom _ (getD_mem_or_default target.nodes k2 U.node)
      omega)
    k hk j hj1 hj
  rw [scan_fmt_8f rnd _ hx0] at h
  injection h with h
  exact ⟨h.symm, millionths_near _ hx0⟩

theorem exThirdsTree_ok : tree_ok exThirdsTree := by
  refine ⟨rfl, by decide, by decide, ?_⟩
  intro node hnode
  simp only [exThirdsTree, List.mem_cons, List.mem_singleton, List.not_mem_nil, or_false]
    at hnode
  rcases hnode with h | h | h
  · rw [h]
    exact ⟨by decide, by decide, by decide, by decide,
      Or.inr ⟨2, 1, rfl, rfl, by decide, by decide, by decide⟩⟩
  · rw [h]
    exact ⟨by decide, by decide, by decide, by decide, Or.inl ⟨rfl, rfl⟩⟩
  · rw [h]
    exact ⟨by decide, by decide, by decide, by decide, Or.inl ⟨rfl, rfl⟩⟩

/-- C10 amended, evaluated on the tree `exThirdsTree` in binary32 arithmetic,
read into a fresh tree. -/
theorem class_counts_round_trip_witness :
    ∃ t2, tc_read_tree (decOps round_f32) exU (tc_init_tree (decOps round_f32))
        ((tc_write_tree (decOps round_f32) exU exThirdsTree 2).2 ++ []) 2 = some (t2, []) ∧
      ∀ (k j : Nat), k < exThirdsTree.nodes.length → 1 ≤ j → (j : Int) < 2 →
        (t2.nodes.getD k exU.node).class_counts.getD j ((decOps round_f32).ofInt 0) =
          round_f32 ((millionths ((exThirdsTree.nodes.getD k exU.node).class_counts.getD j
            ((decOps round_f32).ofInt 0)) : ℚ) / 1000000) ∧
        |(millionths ((exThirdsTree.nodes.getD k exU.node).class_counts.getD j
            ((decOps round_f32).ofInt 0)) : ℚ) / 1000000 -
          (exThirdsTree.nodes.getD k exU.node).class_counts.getD j
            ((decOps round_f32).ofInt 0)| ≤ 1 / 2000000 :=
  class_counts_round_trip round_f32 exU 2 exThirdsTree (tc_init_tree (decOps round_f32)) []
    (by decide) (by decide) exThirdsTree_ok
    (by
      set_option maxRecDepth 100000 in
      with_unfolding_all decide)
    (by decide)
    (by
      set_option maxRecDepth 100000 in
      with_unfolding_all decide)

/-! ## Theorems: classification after a write/read cycle -/

theorem forall₂_getElem? {α β : Type} (R : α → β → Prop) (l₁ : List α) (l₂ : List β)
    (h : List.Forall₂ R l₁ l₂) :
    ∀ i : Nat, (l₁[i]? = none ∧ l₂[i]? = none) ∨
      ∃ a b, l₁[i]? = some a ∧ l₂[i]? = some b ∧ R a b := by
  induction h with
  | nil =>
    intro i
    exact Or.inl ⟨rfl, rfl⟩
  | cons hab _ ih =>
    intro i
    cases i with
    | zero => exact Or.inr ⟨_, _, by simp, by simp, hab⟩
    | succ i =>
      rcases ih i with h1 | h1
      · exact Or.inl (by simpa using h1)
      · exact Or.inr (by simpa using h1)

/-- Walks through two trees whose nodes decide the same way agree. -/
theorem tc_walk_congr (M : FloatOps) (nclasses : Int) (s t : tc_tree M.F)
    (h : List.Forall₂ (same_decision M nclasses) s.nodes t.nodes) (image : tc_image)
    (r c : Int) :
    ∀ (fuel : Nat) (p : Option Int),
      walks_agree M nclasses (tc_walk s image r c fuel p) (tc_walk t image r c fuel p) := by
  intro fuel
  induction fuel with
  | zero =>
    intro p
    simp [tc_walk, walks_agree]
  | succ fuel ih =>
    intro p
    have hderef : (tc_deref s p = none ∧ tc_deref t p = none) ∨
        ∃ a b, tc_deref s p = some a ∧ tc_deref t p = some b ∧ same_decision M nclasses a b := by
      cases p with
      | none => exact Or.inl ⟨rfl, rfl⟩
      | some i =>
        unfold tc_deref
        by_cases hi : 0 ≤ i
        · simp only [hi, if_true]
          exact forall₂_getElem? _ _ _ h i.toNat
        · simp only [hi, if_false]
          exact Or.inl ⟨trivial, trivial⟩
    rcases hderef with ⟨e1, e2⟩ | ⟨a, b, e1, e2, hab⟩
    · simp [tc_walk, e1, e2, walks_agree]
    · obtain ⟨h1, h2, h3, h4, h5⟩ := hab
      have hleaf : tc_isleaf b = tc_isleaf a := by
        simp only [tc_isleaf, h3]
      unfold tc_walk
      simp only [e1, e2, hleaf, h1, h2, h3, h4]
      by_cases hl : tc_isleaf a = true
      · simp only [hl, if_true]
        exact ⟨h1, h2, h3, h4, h5⟩
      · simp only [hl, Bool.false_eq_true, if_false]
        by_cases he : (tc_filter_pixel a.filter image r c 0).1 = ERR
        · simp only [he, if_true, walks_agree]
        · simp only [he, if_false]
          by_cases hg : (tc_filter_pixel a.filter image r c 0).2 > a.threshold
          · simp only [hg, if_true]
            exact ih a.high
          · simp only [hg, if_false]
            exact ih a.low

theorem accumulate_probs_congr (M : FloatOps) (nclasses : Int) (probs : List M.F)
    (a b : tc_node M.F) (hab : same_decision M nclasses a b)
    (hlen : probs.length = nclasses.toNat) :
    accumulate_probs M probs b = accumulate_probs M probs a := by
  unfold accumulate_probs
  apply List.map_congr_left
  intro i hi
  rw [List.mem_range] at hi
  rw [hab.2.2.2.2 i (by omega)]

/-- The loop over the trees gives the same result on two forests that
decide the same way. -/
theorem classify_trees_congr (M : FloatOps) (fuel : Nat) (a b : tc_forest M.F)
    (hab : same_decisions M a b) (image : tc_image) (r c : Int) (out : Option (List M.F)) :
    ∀ (n t : Nat) (probs : List M.F), probs.length = a.nclasses.toNat →
      classify_trees M fuel b image r c out t n probs =
        classify_trees M fuel a image r c out t n probs := by
  intro n
  induction n with
  | zero =>
    intro t probs _
    rfl
  | succ n ih =>
    intro t probs hlen
    unfold classify_trees
    rcases forall₂_getElem? _ _ _ hab.2.2 t with ⟨e1, e2⟩ | ⟨s1, s2, e1, e2, hs⟩
    · simp only [e1, e2]
    · simp only [e1, e2]
      have hw := tc_walk_congr M a.nclasses s1 s2 hs image r c fuel (some 0)
      cases h1 : tc_walk s1 image r c fuel (some 0) with
      | stuck =>
        cases h2 : tc_walk s2 image r c fuel (some 0) with
        | stuck => rfl
        | nodata => simp [walks_agree, h1, h2] at hw
        | leaf n2 => simp [walks_agree, h1, h2] at hw
      | nodata =>
        cases h2 : tc_walk s2 image r c fuel (some 0) with
        | stuck => simp [walks_agree, h1, h2] at hw
        | nodata => rfl
        | leaf n2 => simp [walks_agree, h1, h2] at hw
      | leaf n1 =>
        cases h2 : tc_walk s2 image r c fuel (some 0) with
        | stuck => simp [walks_agree, h1, h2] at hw
        | nodata => simp [walks_agree, h1, h2] at hw
        | leaf n2 =>
          simp only [walks_agree, h1, h2] at hw
          simp only
          rw [accumulate_probs_congr M a.nclasses probs n1 n2 hw hlen]
          exact ih (t + 1) _ (by rw [accumulate_probs_length]; exact hlen)

/-- Two forests that decide the same way classify every pixel the same way. -/
theorem forest_classify_congr (M : FloatOps) (fuel : Nat) (a b : tc_forest M.F)
    (hab : same_decisions M a b) (image : tc_image) (r c : Int) (out : Option (List M.F)) :
    tc_forest_classify M fuel b image r c out = tc_forest_classify M fuel a image r c out := by
  have h := classify_trees_congr M fuel a b hab image r c out a.ntrees.toNat 0
    (List.replicate a.nclasses.toNat (M.ofInt 0)) (List.length_replicate _ _)
  unfold tc_forest_classify
  rw [hab.1, hab.2.1]
  simp only [h]

theorem forall₂_getD {α β : Type} (R : α → β → Prop) (l₁ : List α) (l₂ : List β)
    (d₁ : α) (d₂ : β) (h : List.Forall₂ R l₁ l₂) :
    l₂.length = l₁.length ∧ ∀ k, k < l₁.length → R (l₁.getD k d₁) (l₂.getD k d₂) := by
  obtain ⟨hlen, hget⟩ := List.forall₂_iff_get.mp h
  refine ⟨hlen.symm, ?_⟩
  intro k hk
  have := hget k hk (by omega)
  rw [List.getD_eq_getElem _ _ hk, List.getD_eq_getElem _ _ (by omega : k < l₂.length)]
  simpa using this

/-- A node read back with the structure and the counts of the node written
decides as that node does, when the node written has the probabilities of
`tc_update_probs`. -/
theorem reread_same_decision (M : FloatOps) (nclasses : Int) (m n : tc_node M.F)
    (hmatch : node_match m n) (hcnt : counts_reread M nclasses m n)
    (hprb : probs_updated M nclasses n) (hm : probs_updated M nclasses m)
    (hexact : ∀ j : Nat, 1 ≤ j → (j : Int) < nclasses →
      M.scan_f (M.fmt_8f (m.class_counts.getD j (M.ofInt 0))) =
        some (m.class_counts.getD j (M.ofInt 0))) :
    same_decision M nclasses m n := by
  obtain ⟨h1, h2, _, h3, h4⟩ := hmatch
  refine ⟨h1, h2, h3, h4, ?_⟩
  intro i hi
  by_cases h0 : i = 0
  · rw [h0, hprb.1, hm.1]
  · have hi1 : 1 ≤ i := by omega
    rw [hprb.2 i hi1 hi, hm.2 i hi1 hi]
    apply update_prob_congr M _ _ nclasses _ i hi1 hi
    intro j hj1 hj
    have e := hcnt j hj1 hj
    rw [hexact j hj1 hj] at e
    injection e with e
    exact e.symm

/-- The forest read back from the text written for a forest with fitting
filters, exactly printed counts and tallied probabilities decides as the
forest written. -/
theorem read_write_same_decisions (M : FloatOps) (U : Uninit M.F) (src : tc_forest M.F)
    (colormap : Option tc_colormap) (hok : forest_ok src) (hp : counts_printable M src)
    (hcm : ∀ map, colormap = some map → is_int map.colordepth)
    (hexact : counts_exact M src) (htal : forest_tallied M src)
    (hU : node_room src.nclasses U.node) :
    ∃ forest2 map2, tc_read_forest M U (tc_write_forest M U src colormap).2 =
        some (forest2, map2) ∧ same_decisions M src forest2 := by
  obtain ⟨_, forest2, map2, hread, hstruct, hre⟩ := read_write_forest_ok M U src colormap hok hp hcm
  obtain ⟨e1, _, e3, _, htrees⟩ := hstruct
  refine ⟨forest2, map2, hread, e1, e3, ?_⟩
  obtain ⟨hlen, hget⟩ := forall₂_getD _ _ _ U.tree U.tree htrees
  apply forall₂_of_getD _ _ _ U.tree U.tree hlen
  intro k hk
  obtain ⟨_, hnodes⟩ := hget k hk
  obtain ⟨hnl, hng⟩ := forall₂_getD _ _ _ U.node U.node hnodes
  apply forall₂_of_getD _ _ _ U.node U.node hnl
  intro i hi
  have hmemt : src.trees.getD k U.tree ∈ src.trees := by
    rw [List.getD_eq_getElem _ _ hk]
    exact List.getElem_mem hk
  have hmemn : (src.trees.getD k U.tree).nodes.getD i U.node ∈ (src.trees.getD k U.tree).nodes := by
    rw [List.getD_eq_getElem _ _ hi]
    exact List.getElem_mem hi
  obtain ⟨hc, hpr⟩ := hre hU k hk i hi
  exact reread_same_decision M src.nclasses _ _ (hng i hi) hc hpr (htal _ hmemt _ hmemn)
    (hexact _ hmemt _ hmemn)

theorem counts_exact_of_all (M : FloatOps) (forest : tc_forest M.F)
    (h : ∀ tree ∈ forest.trees, ∀ node ∈ tree.nodes,
      ∀ j ∈ (List.range forest.nclasses.toNat).tail,
        M.scan_f (M.fmt_8f (node.class_counts.getD j (M.ofInt 0))) =
          some (node.class_counts.getD j (M.ofInt 0))) : counts_exact M forest := by
  intro tree htree node hnode j hj1 hj
  exact h tree htree node hnode j (by rw [mem_range_tail]; omega)

theorem forest_tallied_of_all (M : FloatOps) (forest : tc_forest M.F)
    (h : ∀ tree ∈ forest.trees, ∀ node ∈ tree.nodes,
      node.class_probs.getD 0 (M.ofInt 0) = M.ofInt 0 ∧
      ∀ i ∈ (List.range forest.nclasses.toNat).tail,
        node.class_probs.getD i (M.ofInt 0) =
          update_prob M node.class_counts forest.nclasses i) : forest_tallied M forest := by
  intro tree htree node hnode
  refine ⟨(h tree htree node hnode).1, ?_⟩
  intro i hi1 hi
  exact (h tree htree node hnode).2 i (by rw [mem_range_tail]; omega)

/-- The forest `exTallied` is built by `tc_init_forest` and `tc_tally_classes`. -/
theorem exTallied_built : Built (decOps round_f32) exTallied :=
  @Built.tally (decOps round_f32) exFresh exTallied.trees
    (@Built.init (decOps round_f32) 1 0 3 61 exFresh (by decide) (by decide) (by decide)
      (by decide) (by decide) rfl)
    (List.Forall₂.cons
      ⟨rfl, List.Forall₂.cons ⟨rfl, rfl, rfl, rfl, rfl, by decide⟩ List.Forall₂.nil⟩
      List.Forall₂.nil)

/-- C11 as stated fails.  The forest `exTallied` is what `tc_init_forest` and
`tc_tally_classes` make of a data set with three samples of class 1 and ten
of class 2 (too few for `tc_grow` to split), in binary32 arithmetic: the
count of class 2, ten additions of `1.0f/10`, is `1.00000012`.  On this
forest `tc_forest_classify` returns class 2.  Both counts are written as
`1.000000`, and on the forest read back it returns class 1. -/
theorem classify_round_trip_counterexample :
    tc_init_forest (decOps round_f32) 1 TC_FILTERSET_POINTS 3 61 = some exFresh ∧
    tc_tally_classes (decOps round_f32) exThirteen exFresh = some exTallied ∧
    Built (decOps round_f32) exTallied ∧
    (tc_forest_classify (decOps round_f32) 1 exTallied exRowImage 0 0 none).map
      (fun res => (res.status, res.pixel_class)) = some (OK, 2) ∧
    ((tc_read_forest (decOps round_f32) exU
        (tc_write_forest (decOps round_f32) exU exTallied none).2).bind
      fun rd => tc_forest_classify (decOps round_f32) 1 rd.1 exRowImage 0 0 none).map
      (fun res => (res.status, res.pixel_class)) = some (OK, 1) := by
  refine ⟨rfl, ?_, exTallied_built, ?_, ?_⟩
  · set_option maxRecDepth 100000 in
    with_unfolding_all rfl
  · set_option maxRecDepth 100000 in
    with_unfolding_all rfl
  · set_option maxRecDepth 100000 in
    with_unfolding_all rfl

/-- C11 amended: for every forest built by `tc_init_forest`, passes of `tc_grow`
and a final `tc_tally_classes`, in which the text of every filter has at most
31 characters and every class count is printed by `%8f` as a plain number
that is read back exactly (a count with at most six decimals), the forest
read back from the text written classifies every pixel of every image as the
forest written does: `tc_forest_classify` returns the same status, the same
class and the same probabilities. -/
theorem classify_round_trip (M : FloatOps) (U : Uninit M.F) (forest : tc_forest M.F)
    (colormap : Option tc_colormap) (hbuilt : Built M forest) (hfit : filters_fit forest)
    (hp : counts_printable M forest)
    (hcm : ∀ map, colormap = some map → is_int map.colordepth)
    (hexact : counts_exact M forest) (htal : forest_tallied M forest)
    (hU : node_room forest.nclasses U.node) :
    ∃ forest2 map2, tc_read_forest M U (tc_write_forest M U forest colormap).2 =
        some (forest2, map2) ∧
      ∀ (fuel : Nat) (image : tc_image) (r c : Int) (out : Option (List M.F)),
        tc_forest_classify M fuel forest2 image r c out =
          tc_forest_classify M fuel forest image r c out := by
  obtain ⟨forest2, map2, hread, hdec⟩ := read_write_same_decisions M U forest colormap
    (forest_ok_of_shape forest (built_shape M forest hbuilt) hfit) hp hcm hexact htal hU
  exact ⟨forest2, map2, hread, fun fuel image r c out =>
    forest_classify_congr M fuel forest forest2 hdec image r c out⟩

/-- C11 amended, evaluated on the forest of two trees, written with a colormap. -/
theorem classify_round_trip_witness :
    ∃ forest2 map2, tc_read_forest ratOps exU
        (tc_write_forest ratOps exU exForest (some exColormap)).2 = some (forest2, map2) ∧
      ∀ (fuel : Nat) (image : tc_image) (r c : Int) (out : Option (List ratOps.F)),
        tc_forest_classify ratOps fuel forest2 image r c out =
          tc_forest_classify ratOps fuel exForest image r c out :=
  classify_round_trip ratOps exU exForest (some exColormap) exForest_built
    (by unfold filters_fit; decide)
    (counts_printable_of_all ratOps exForest (by with_unfolding_all decide)
      (by with_unfolding_all decide))
    (by
      intro map h
      injection h with h
      subst h
      decide)
    (counts_exact_of_all ratOps exForest (by with_unfolding_all decide))
    (forest_tallied_of_all ratOps exForest (by with_unfolding_all decide))
    (by unfold node_room; decide)

/-! ## Theorems: what `tc_read_tree` accepts -/

theorem exWideTree_length : exWideTree.nodes.length = 513 :=
  List.length_replicate _ _

theorem exWideTree_ok : tree_ok exWideTree := by
  refine ⟨by rw [exWideTree_length]; rfl, by decide, by decide, ?_⟩
  intro node hnode
  rw [List.eq_of_mem_replicate hnode]
  exact ⟨by decide, by decide, by decide, by decide, Or.inl ⟨rfl, rfl⟩⟩

/-- C12 fails on the code: `tc_read_tree` returns `OK` for the text
`exBadTreeText` of a tree of one node whose children are the indices 5 and 7,
and stores them; and it returns `OK` for the text of a tree of 513 nodes, one
more than `MAX_TREE_NODES`, with `nnodes = 513`. -/
theorem read_tree_accepts_malformed :
    (tc_read_tree ratOps exU (tc_init_tree ratOps) exBadTreeText 2).map
      (fun rd => (rd.1.nnodes, rd.1.nodes.map fun n => (n.high, n.low))) =
        some (1, [(some 5, some 7)]) ∧
    (∃ t2, tc_read_tree ratOps exU (tc_init_tree ratOps)
        ((tc_write_tree ratOps exU exWideTree 2).2 ++ []) 2 = some (t2, []) ∧
      t2.nnodes = 513 ∧ t2.nodes.length = 513) ∧
    (513 : Int) > MAX_TREE_NODES := by
  refine ⟨?_, ?_, by decide⟩
  · set_option maxRecDepth 100000 in
    with_unfolding_all rfl
  · obtain ⟨t2, hread, hmatch, _⟩ := tc_read_tree_write ratOps exU 2 exWideTree
      (tc_init_tree ratOps) [] (by decide) exWideTree_ok
      (by
        intro node hnode j _
        rw [List.eq_of_mem_replicate hnode]
        have h : ∀ k : Nat, k < 8 → printable ratOps
            ((exLeaf [0, 1, 1, 0, 0, 0, 0, 0] [0, 1/2, 1/2, 0, 0, 0, 0, 0] 1).class_counts.getD k
              (ratOps.ofInt 0)) := by
          with_unfolding_all decide
        by_cases hj : j < 8
        · exact h j hj
        · rw [List.getD_eq_default _ _ (by simp [exLeaf]; omega)]
          with_unfolding_all decide)
      (by
        rw [exWideTree_length]
        decide)
    refine ⟨t2, hread, hmatch.1, ?_⟩
    rw [← hmatch.2.length_eq]
    exact exWideTree_length

/-! ## Theorems: the MAP class and the probabilities of `tc_update_probs` -/

theorem range_tail_two (m : Nat) :
    (List.range (m + 2)).tail = 1 :: ((List.range m).map Nat.succ).map Nat.succ := by
  rw [List.range_succ_eq_map, List.tail_cons, List.range_succ_eq_map, List.map_cons]

theorem tally_counts_set_zero (M : FloatOps) (cs : List M.F) (nclasses : Int) :
    tally_counts M (cs.set 0 (M.ofInt 0)) nclasses = tally_counts M cs nclasses :=
  tally_counts_congr M _ _ nclasses (fun i hi _ => getD_set_ne _ _ _ _ _ (by omega))

theorem update_probs_MAP (M : FloatOps) (node : tc_node M.F) (nclasses : Int) :
    (tc_update_probs M node nclasses).MAP_class = (tally_counts M node.class_counts nclasses).2.2 := by
  show (tally_counts M (node.class_counts.set 0 (M.ofInt 0)) nclasses).2.2 = _
  rw [tally_counts_set_zero]

theorem update_probs_counts_getD (M : FloatOps) (node : tc_node M.F) (nclasses : Int) (i : Nat)
    (hi : 1 ≤ i) :
    (tc_update_probs M node nclasses).class_counts.getD i (M.ofInt 0) =
      node.class_counts.getD i (M.ofInt 0) :=
  getD_set_ne _ _ _ _ _ (by omega)

theorem update_prob_set_zero (M : FloatOps) (cs : List M.F) (nclasses : Int) (i : Nat)
    (h1 : 1 ≤ i) (h2 : (i : Int) < nclasses) :
    update_prob M (cs.set 0 (M.ofInt 0)) nclasses i = update_prob M cs nclasses i :=
  update_prob_congr M _ _ nclasses (fun j hj _ => getD_set_ne _ _ _ _ _ (by omega)) i h1 h2

/-- The state of the tally loop over classes whose counts are all zero, once
the largest count seen is zero: the largest count and its index stay. -/
theorem tally_fold_zero (M : FloatOps) (cs : List M.F)
    (hirr : M.gt (M.ofInt 0) (M.ofInt 0) = false) :
    ∀ (l : List Nat) (st : M.F × M.F × Int),
      (∀ i ∈ l, cs.getD i (M.ofInt 0) = M.ofInt 0) → st.2.1 = M.ofInt 0 →
      (l.foldl (fun st i =>
        (M.add st.1 (cs.getD i (M.ofInt 0)),
          if M.gt (cs.getD i (M.ofInt 0)) st.2.1 then
            (cs.getD i (M.ofInt 0), (i : Int))
          else st.2)) st).2 = st.2 := by
  intro l
  induction l with
  | nil =>
    intro st _ _
    rfl
  | cons i l ih =>
    intro st hz hst
    rw [List.foldl_cons, ih _ (fun j hj => hz j (List.mem_cons_of_mem _ hj))]
    · simp only [hz i (List.mem_cons_self _ _), hst, hirr, Bool.false_eq_true, if_false]
    · simp only [hz i (List.mem_cons_self _ _), hst, hirr, Bool.false_eq_true, if_false]

/-- C13 as stated fails: on the node `tc_init_node` leaves, whose counts are
all zero, `tc_update_probs` with three classes sets the MAP class to 1, not
to 0; the total is zero and the probabilities stay zero. -/
theorem update_probs_zero_MAP_counterexample :
    (tally_counts ratOps (tc_init_node ratOps).class_counts 3).1 = 0 ∧
    (tc_update_probs ratOps (tc_init_node ratOps) 3).class_probs = [0, 0, 0, 0, 0, 0, 0, 0] ∧
    (tc_update_probs ratOps (tc_init_node ratOps) 3).MAP_class = 1 := by
  refine ⟨?_, ?_, ?_⟩ <;> with_unfolding_all rfl

/-- C13 amended: when the total `tc_update_probs` computes over the classes
from 1 below `nclasses` is zero, every class probability below `nclasses` is
left 0.  The MAP class is 0 when `nclasses ≤ 1`; for `nclasses ≥ 2` with all
those counts equal to 0 the MAP class is 1, the first class, whose count 0
exceeds the initial maximum `-1`. -/
theorem update_probs_zero_total (M : FloatOps) (node : tc_node M.F) (nclasses : Int)
    (hroom : nclasses.toNat ≤ node.class_probs.length)
    (hzero : M.eq (tally_counts M node.class_counts nclasses).1 (M.ofInt 0) = true) :
    (∀ i : Nat, (i : Int) < nclasses →
      (tc_update_probs M node nclasses).class_probs.getD i (M.ofInt 0) = M.ofInt 0) ∧
    (nclasses ≤ 1 → (tc_update_probs M node nclasses).MAP_class = 0) ∧
    (2 ≤ nclasses →
      (∀ i : Nat, 1 ≤ i → (i : Int) < nclasses →
        node.class_counts.getD i (M.ofInt 0) = M.ofInt 0) →
      M.gt (M.ofInt 0) (M.ofInt (-1)) = true → M.gt (M.ofInt 0) (M.ofInt 0) = false →
      (tc_update_probs M node nclasses).MAP_class = 1) := by
  obtain ⟨hp0, hpi⟩ := update_probs_updated M node nclasses hroom
  refine ⟨?_, ?_, ?_⟩
  · intro i hi
    by_cases h0 : i = 0
    · rw [h0]
      exact hp0
    · rw [hpi i (by omega) hi]
      show update_prob M (node.class_counts.set 0 (M.ofInt 0)) nclasses i = _
      rw [update_prob_set_zero M _ nclasses i (by omega) hi]
      unfold update_prob
      rw [if_pos hzero]
  · intro h1
    rw [update_probs_MAP]
    have e : (List.range nclasses.toNat).tail = [] := by
      have h : nclasses.toNat = 0 ∨ nclasses.toNat = 1 := by omega
      rcases h with h | h <;> rw [h] <;> rfl
    unfold tally_counts
    rw [e]
    rfl
  · intro h2 hz hneg hirr
    rw [update_probs_MAP]
    obtain ⟨m, hm⟩ : ∃ m, nclasses.toNat = m + 2 := ⟨nclasses.toNat - 2, by omega⟩
    have hmem : ∀ i ∈ (List.range nclasses.toNat).tail,
        node.class_counts.getD i (M.ofInt 0) = M.ofInt 0 := by
      intro i hi
      rw [mem_range_tail] at hi
      exact hz i hi.1 (by omega)
    unfold tally_counts
    rw [hm, range_tail_two] at hmem ⊢
    rw [List.foldl_cons, tally_fold_zero M node.class_counts hirr _ _
      (fun j hj => hmem j (List.mem_cons_of_mem _ hj))]
    · simp only [hmem 1 (List.mem_cons_self _ _), hneg, if_true]
      rfl
    · simp only [hmem 1 (List.mem_cons_self _ _), hneg, if_true]

/-- C13 amended, evaluated on a fresh node and three classes: the
probabilities are zero and the MAP class is 1. -/
theorem update_probs_zero_total_witness :
    (∀ i : Nat, (i : Int) < 3 →
      (tc_update_probs ratOps (tc_init_node ratOps) 3).class_probs.getD i (ratOps.ofInt 0) =
        ratOps.ofInt 0) ∧
    (tc_update_probs ratOps (tc_init_node ratOps) 3).MAP_class = 1 :=
  ⟨(update_probs_zero_total ratOps (tc_init_node ratOps) 3 (by decide)
      (by with_unfolding_all rfl)).1,
    (update_probs_zero_total ratOps (tc_init_node ratOps) 3 (by decide)
      (by with_unfolding_all rfl)).2.2 (by decide)
      (by
        intro i h1 h2
        have h3 : i < 3 := by omega
        interval_cases i <;> rfl)
      (by with_unfolding_all rfl) (by with_unfolding_all rfl)⟩

theorem range_tail_succ (n : Nat) (hn : 1 ≤ n) :
    (List.range (n + 1)).tail = (List.range n).tail ++ [n] := by
  rw [List.range_succ, List.tail_append_of_ne_nil]
  intro h
  have := congrArg List.length h
  simp at this
  omega

/-- Invariant of the tally loop of `tc_update_probs` after the classes from 1
below `n`: the largest count seen and its index are those of the lowest class
whose count no other count exceeds. -/
theorem tally_argmax (M : FloatOps) (L : FloatLaws M) (cs : List M.F)
    (hneg : M.gt (M.ofInt 0) (M.ofInt (-1)) = true) :
    ∀ n : Nat, 2 ≤ n →
      (∀ i : Nat, 1 ≤ i → i < n →
        M.gt (M.ofInt 0) (cs.getD i (M.ofInt 0)) = false ∧
        M.eq (cs.getD i (M.ofInt 0)) (cs.getD i (M.ofInt 0)) = true) →
      ∃ m : Nat, 1 ≤ m ∧ m < n ∧
        ((List.range n).tail.foldl (fun (st : M.F × M.F × Int) i =>
          (M.add st.1 (cs.getD i (M.ofInt 0)),
            if M.gt (cs.getD i (M.ofInt 0)) st.2.1 then
              (cs.getD i (M.ofInt 0), (i : Int))
            else st.2)) (M.ofInt 0, M.ofInt (-1), 0)).2 = (cs.getD m (M.ofInt 0), (m : Int)) ∧
        (∀ i : Nat, 1 ≤ i → i < n →
          M.gt (cs.getD i (M.ofInt 0)) (cs.getD m (M.ofInt 0)) = false) ∧
        (∀ i : Nat, 1 ≤ i → i < m →
          M.gt (cs.getD m (M.ofInt 0)) (cs.getD i (M.ofInt 0)) = true) := by
  intro n hn
  induction n, hn using Nat.le_induction with
  | base =>
    intro hnn
    obtain ⟨h1, h2⟩ := hnn 1 (by omega) (by omega)
    have hgt : M.gt (cs.getD 1 (M.ofInt 0)) (M.ofInt (-1)) = true := by
      rcases L.gt_cotrans _ _ _ h2 hneg with h | h
      · exact h
      · rw [h1] at h
        cases h
    refine ⟨1, by omega, by omega, ?_, ?_, ?_⟩
    · have e : (List.range 2).tail = [1] := rfl
      rw [e]
      simp only [List.foldl_cons, List.foldl_nil, hgt, if_true]
    · intro i hi1 hi2
      have : i = 1 := by omega
      rw [this]
      exact L.gt_irrefl _
    · intro i hi1 hi2
      omega
  | succ n hn ih =>
    intro hnn
    obtain ⟨m, hm1, hm2, hst, hmax, hlow⟩ := ih (fun i h1 h2 => hnn i h1 (by omega))
    obtain ⟨_, hnan⟩ := hnn n (by omega) (by omega)
    rw [range_tail_succ n (by omega), List.foldl_append, List.foldl_cons, List.foldl_nil]
    simp only [hst]
    by_cases hg : M.gt (cs.getD n (M.ofInt 0)) (cs.getD m (M.ofInt 0)) = true
    · refine ⟨n, by omega, by omega, ?_, ?_, ?_⟩
      · simp only [hg, if_true]
      · intro i hi1 hi2
        by_cases hin : i = n
        · rw [hin]
          exact L.gt_irrefl _
        · cases hc : M.gt (cs.getD i (M.ofInt 0)) (cs.getD n (M.ofInt 0)) with
          | false => rfl
          | true =>
            have := L.gt_trans _ _ _ hc hg
            rw [hmax i hi1 (by omega)] at this
            cases this
      · intro i hi1 hi2
        obtain ⟨_, hnani⟩ := hnn i hi1 (by omega)
        rcases L.gt_cotrans _ _ _ hnani hg with h | h
        · rw [hmax i hi1 (by omega)] at h
          cases h
        · exact h
    · have hg2 : M.gt (cs.getD n (M.ofInt 0)) (cs.getD m (M.ofInt 0)) = false := by
        cases hc : M.gt (cs.getD n (M.ofInt 0)) (cs.getD m (M.ofInt 0)) with
        | false => rfl
        | true => exact absurd hc hg
      refine ⟨m, hm1, by omega, ?_, ?_, hlow⟩
      · simp only [hg2, Bool.false_eq_true, if_false]
      · intro i hi1 hi2
        by_cases hin : i = n
        · rw [hin]
          exact hg2
        · exact hmax i hi1 (by omega)

/-- C14: for a node whose counts of the classes from 1 below `nclasses` are
not negative (and not NaN) and `nclasses ≥ 2`, the MAP class `tc_update_probs`
stores is the lowest class `m` in `[1, nclasses)` whose count no count of
those classes exceeds: no count is greater than that of `m`, and the count of
`m` is greater than every count of a lower class. -/
theorem update_probs_MAP_argmax (M : FloatOps) (L : FloatLaws M) (node : tc_node M.F)
    (nclasses : Int) (h2 : 2 ≤ nclasses)
    (hneg : M.gt (M.ofInt 0) (M.ofInt (-1)) = true)
    (hnn : ∀ i : Nat, 1 ≤ i → (i : Int) < nclasses →
      M.gt (M.ofInt 0) (node.class_counts.getD i (M.ofInt 0)) = false ∧
      M.eq (node.class_counts.getD i (M.ofInt 0)) (node.class_counts.getD i (M.ofInt 0)) = true) :
    ∃ m : Nat, (tc_update_probs M node nclasses).MAP_class = (m : Int) ∧
      1 ≤ m ∧ (m : Int) < nclasses ∧
      (∀ i : Nat, 1 ≤ i → (i : Int) < nclasses →
        M.gt ((tc_update_probs M node nclasses).class_counts.getD i (M.ofInt 0))
          ((tc_update_probs M node nclasses).class_counts.getD m (M.ofInt 0)) = false) ∧
      (∀ i : Nat, 1 ≤ i → i < m →
        M.gt ((tc_update_probs M node nclasses).class_counts.getD m (M.ofInt 0))
          ((tc_update_probs M node nclasses).class_counts.getD i (M.ofInt 0)) = true) := by
  obtain ⟨m, hm1, hm2, hst, hmax, hlow⟩ := tally_argmax M L node.class_counts hneg
    nclasses.toNat (by omega) (fun i h1 h2 => hnn i h1 (by omega))
  refine ⟨m, ?_, hm1, by omega, ?_, ?_⟩
  · rw [update_probs_MAP]
    unfold tally_counts
    rw [hst]
  · intro i hi1 hi2
    rw [update_probs_counts_getD M node nclasses i hi1,
      update_probs_counts_getD M node nclasses m hm1]
    exact hmax i hi1 (by omega)
  · intro i hi1 hi2
    rw [update_probs_counts_getD M node nclasses i hi1,
      update_probs_counts_getD M node nclasses m hm1]
    exact hlow i hi1 hi2

/-- C14, evaluated on a leaf with the counts 1, 3, 3 of the classes 1, 2, 3:
the MAP class is 2. -/
theorem update_probs_MAP_argmax_witness :
    ∃ m : Nat, (tc_update_probs ratOps exTie 4).MAP_class = (m : Int) ∧
      1 ≤ m ∧ (m : Int) < 4 ∧
      (∀ i : Nat, 1 ≤ i → (i : Int) < 4 →
        ratOps.gt ((tc_update_probs ratOps exTie 4).class_counts.getD i
            (ratOps.ofInt 0))
          ((tc_update_probs ratOps exTie 4).class_counts.getD m
            (ratOps.ofInt 0)) = false) ∧
      (∀ i : Nat, 1 ≤ i → i < m →
        ratOps.gt ((tc_update_probs ratOps exTie 4).class_counts.getD m
            (ratOps.ofInt 0))
          ((tc_update_probs ratOps exTie 4).class_counts.getD i
            (ratOps.ofInt 0)) = true) :=
  update_probs_MAP_argmax ratOps ratLaws exTie 4 (by decide)
    (by with_unfolding_all rfl)
    (by
      intro i h1 h2
      have h3 : i < 4 := by omega
      interval_cases i <;> exact ⟨by with_unfolding_all rfl, by with_unfolding_all rfl⟩)

theorem tally_fold_total (cs : List ℚ) :
    ∀ (l : List Nat) (st : ℚ × ℚ × Int),
      (l.foldl (fun (st : ℚ × ℚ × Int) i =>
        (st.1 + cs.getD i 0,
          if decide (cs.getD i 0 > st.2.1) = true then (cs.getD i 0, (i : Int)) else st.2))
        st).1 = st.1 + (l.map fun i => cs.getD i 0).sum := by
  intro l
  induction l with
  | nil =>
    intro st
    simp
  | cons i l ih =>
    intro st
    rw [List.foldl_cons, ih, List.map_cons, List.sum_cons]
    ring

/-- In exact arithmetic the total of `tc_update_probs` is the sum of the
counts of the classes from 1 below `nclasses`. -/
theorem tally_counts_total (cs : List ℚ) (nclasses : Int) :
    (tally_counts ratOps cs nclasses).1 = count_sum cs nclasses := by
  unfold tally_counts count_sum
  have h := tally_fold_total cs (List.range nclasses.toNat).tail (0, -1, 0)
  rw [zero_add] at h
  exact h

theorem update_prob_exact (cs : List ℚ) (nclasses : Int) (i : Nat) :
    update_prob ratOps cs nclasses i =
      if count_sum cs nclasses = 0 then 0 else cs.getD i 0 / count_sum cs nclasses := by
  unfold update_prob
  rw [tally_counts_total]
  by_cases h : count_sum cs nclasses = 0
  · rw [if_pos h, if_pos]
    · rfl
    · show decide (count_sum cs nclasses = ((0 : Int) : ℚ)) = true
      rw [h]
      simp
  · rw [if_neg h, if_neg]
    · rfl
    · show ¬ decide (count_sum cs nclasses = ((0 : Int) : ℚ)) = true
      simpa using h

theorem sum_map_div (f : Nat → ℚ) (t : ℚ) :
    ∀ l : List Nat, (l.map fun i => f i / t).sum = (l.map f).sum / t := by
  intro l
  induction l with
  | nil => simp
  | cons i l ih =>
    rw [List.map_cons, List.sum_cons, ih, List.map_cons, List.sum_cons, add_div]

theorem sum_map_congr_mem (f g : Nat → ℚ) :
    ∀ l : List Nat, (∀ i ∈ l, f i = g i) → (l.map f).sum = (l.map g).sum := by
  intro l h
  rw [List.map_congr_left h]

/-- C15: in exact arithmetic, after `tc_update_probs` on a node whose
probability array has room for `nclasses` entries, `class_counts[0]` and
`class_probs[0]` are 0; when the counts of the classes from 1 below `nclasses`
sum to a non-zero total each probability of those classes is its count
divided by the total and the probabilities sum to exactly 1; and all those
probabilities are 0 exactly when the counts sum to 0. -/
theorem update_probs_normalized (node : tc_node ℚ) (nclasses : Int)
    (hroom : nclasses.toNat ≤ node.class_probs.length) :
    (tc_update_probs ratOps node nclasses).class_counts.getD 0 0 = 0 ∧
    (tc_update_probs ratOps node nclasses).class_probs.getD 0 0 = 0 ∧
    (count_sum node.class_counts nclasses ≠ 0 →
      (∀ i : Nat, 1 ≤ i → (i : Int) < nclasses →
        (tc_update_probs ratOps node nclasses).class_probs.getD i 0 =
          node.class_counts.getD i 0 / count_sum node.class_counts nclasses) ∧
      count_sum (tc_update_probs ratOps node nclasses).class_probs nclasses = 1) ∧
    ((∀ i : Nat, 1 ≤ i → (i : Int) < nclasses →
        (tc_update_probs ratOps node nclasses).class_probs.getD i 0 = 0) ↔
      count_sum node.class_counts nclasses = 0) := by
  obtain ⟨hp0, hpi⟩ := update_probs_updated ratOps node nclasses hroom
  have hprob : ∀ i : Nat, 1 ≤ i → (i : Int) < nclasses →
      (tc_update_probs ratOps node nclasses).class_probs.getD i 0 =
        if count_sum node.class_counts nclasses = 0 then 0
        else node.class_counts.getD i 0 / count_sum node.class_counts nclasses := by
    intro i h1 h2
    have h := hpi i h1 h2
    rw [show (tc_update_probs ratOps node nclasses).class_counts =
      node.class_counts.set 0 (ratOps.ofInt 0) from rfl,
      update_prob_set_zero ratOps _ nclasses i h1 h2, update_prob_exact] at h
    exact h
  have hsum : count_sum node.class_counts nclasses ≠ 0 →
      count_sum (tc_update_probs ratOps node nclasses).class_probs nclasses = 1 := by
    intro ht
    have e : count_sum (tc_update_probs ratOps node nclasses).class_probs nclasses =
        ((List.range nclasses.toNat).tail.map fun i =>
          node.class_counts.getD i 0 / count_sum node.class_counts nclasses).sum := by
      unfold count_sum
      apply sum_map_congr_mem
      intro i hi
      rw [mem_range_tail] at hi
      have := hprob i hi.1 (by omega)
      rw [if_neg ht] at this
      exact this
    rw [e, sum_map_div]
    exact div_self ht
  refine ⟨?_, hp0, ?_, ?_⟩
  · show (node.class_counts.set 0 (ratOps.ofInt 0)).getD 0 0 = 0
    by_cases h0 : 0 < node.class_counts.length
    · rw [getD_set_eq _ _ _ _ _ h0, if_pos rfl]
      rfl
    · rw [List.getD_eq_default _ _ (by rw [List.length_set]; omega)]
  · intro ht
    refine ⟨?_, hsum ht⟩
    intro i h1 h2
    rw [hprob i h1 h2, if_neg ht]
  · constructor
    · intro hall
      by_contra ht
      have e : count_sum (tc_update_probs ratOps node nclasses).class_probs nclasses = 0 := by
        unfold count_sum
        apply List.sum_eq_zero
        intro x hx
        rw [List.mem_map] at hx
        obtain ⟨i, hi, rfl⟩ := hx
        rw [mem_range_tail] at hi
        exact hall i hi.1 (by omega)
      rw [hsum ht] at e
      exact one_ne_zero e
    · intro ht i h1 h2
      rw [hprob i h1 h2, if_pos ht]

/-- C15, evaluated on the counts 1, 3, 3 of the classes 1, 2, 3: the total is
not zero and the probabilities sum to 1. -/
theorem update_probs_normalized_witness :
    (tc_update_probs ratOps exTie 4).class_counts.getD 0 0 = 0 ∧
    (tc_update_probs ratOps exTie 4).class_probs.getD 0 0 = 0 ∧
    count_sum exTie.class_counts 4 ≠ 0 ∧
    count_sum (tc_update_probs ratOps exTie 4).class_probs 4 = 1 :=
  ⟨(update_probs_normalized exTie 4 (by decide)).1,
    (update_probs_normalized exTie 4 (by decide)).2.1,
    by with_unfolding_all decide,
    ((update_probs_normalized exTie 4 (by decide)).2.2.1 (by with_unfolding_all decide)).2⟩

/-! ## Theorems: the trees `tc_grow` builds -/

theorem tree_wf_init (M : FloatOps) : tree_wf (tc_init_tree M) := by
  refine ⟨rfl, ?_, ?_, ?_⟩
  · show (1 : Int) % 2 = 1
    decide
  · show (1 : Int) ≤ 511
    decide
  intro k node h
  cases k with
  | zero =>
    simp only [tc_init_tree, List.getElem?_cons_zero, Option.some.injEq] at h
    rw [← h]
    exact Or.inl ⟨rfl, rfl⟩
  | succ k =>
    simp [tc_init_tree] at h

/-- What the body of `tc_grow` can leave of a tree: the tree with one node
marked as not expandable, or the tree with a split installed on one of its
nodes, when the tree has fewer than `MAX_TREE_NODES - 2` nodes. -/
theorem tc_grow_tree_grown (M : FloatOps) (search : List Nat → Option (tc_filter × Int))
    (ds : tc_dataset) (tree tree2 : tc_tree M.F) (st st2 : NodeLinks)
    (h : tc_grow_tree M search ds tree st = some (GrowOutcome.grown tree2 st2)) :
    ¬ tree.nnodes ≥ MAX_TREE_NODES - 2 ∧
    ∃ n node, tree.nodes[n]? = some node ∧
      (tree2 = { tree with nodes := tree.nodes.set n { node with expandable := 0 } } ∨
        ∃ flt thr, tree2 = split_node M tree n node flt thr) := by
  unfold tc_grow_tree at h
  split at h
  · cases h
  · rename_i hfull
    refine ⟨hfull, ?_⟩
    split at h
    · cases h
    · cases h
    · rename_i n _
      split at h
      · rename_i node subset hnode _
        split at h
        · injection h with h
          injection h with h1 h2
          exact ⟨n, node, hnode, Or.inl h1.symm⟩
        · rename_i flt thr _
          cases hp : tc_propagate_node ds (split_node M tree n node flt thr) n
              { st with heads := st.heads ++ [none, none] } with
          | none =>
            rw [hp] at h
            cases h
          | some st3 =>
            rw [hp] at h
            injection h with h
            injection h with h1 h2
            exact ⟨n, node, hnode, Or.inr ⟨flt, thr, h1.symm⟩⟩
      · cases h

theorem tree_wf_unexpandable {F : Type} (tree : tc_tree F) (n : Nat) (node : tc_node F)
    (hwf : tree_wf tree) (hn : tree.nodes[n]? = some node) :
    tree_wf { tree with nodes := tree.nodes.set n { node with expandable := 0 } } := by
  obtain ⟨h1, h2, h3, h4⟩ := hwf
  refine ⟨?_, h2, h3, ?_⟩
  · show tree.nnodes = ((tree.nodes.set n _).length : Int)
    rw [List.length_set]
    exact h1
  · intro k nd hk
    show _ ∨ ∃ l : Int, _ ∧ _ ∧ _ ∧ l + 1 < tree.nnodes
    change (tree.nodes.set n { node with expandable := 0 })[k]? = some nd at hk
    rw [List.getElem?_set] at hk
    by_cases hkn : n = k
    · subst hkn
      rw [if_pos rfl] at hk
      split at hk
      · injection hk with hk
        rw [← hk]
        exact h4 n node hn
      · cases hk
    · rw [if_neg hkn] at hk
      exact h4 k nd hk

theorem tree_wf_split (M : FloatOps) (tree : tc_tree M.F) (n : Nat) (node : tc_node M.F)
    (flt : tc_filter) (thr : Int) (hwf : tree_wf tree)
    (hfull : ¬ tree.nnodes ≥ MAX_TREE_NODES - 2) (hn : tree.nodes[n]? = some node) :
    tree_wf (split_node M tree n node flt thr) := by
  obtain ⟨h1, h2, h3, h4⟩ := hwf
  have hmax : ((MAX_TREE_NODES : Nat) : Int) = 512 := rfl
  have hnlt : n < tree.nodes.length := by
    rcases Nat.lt_or_ge n tree.nodes.length with h | h
    · exact h
    · rw [List.getElem?_eq_none h] at hn
      cases hn
  refine ⟨?_, ?_, ?_, ?_⟩
  · show tree.nnodes + 2 = ((tree.nodes.set n _ ++ [tc_init_node M, tc_init_node M]).length : Int)
    rw [List.length_append, List.length_set]
    simp only [List.length_cons, List.length_nil]
    omega
  · show (tree.nnodes + 2) % 2 = 1
    omega
  · show tree.nnodes + 2 ≤ 511
    omega
  · intro k nd hk
    show _ ∨ ∃ l : Int, _ ∧ _ ∧ _ ∧ l + 1 < tree.nnodes + 2
    unfold split_node at hk
    simp only at hk
    by_cases hkl : k < tree.nodes.length
    · rw [List.getElem?_append_left (by rw [List.length_set]; exact hkl),
        List.getElem?_set] at hk
      by_cases hkn : n = k
      · subst hkn
        rw [if_pos rfl, if_pos hnlt] at hk
        injection hk with hk
        rw [← hk]
        exact Or.inr ⟨tree.nnodes, rfl, rfl, by omega, by omega⟩
      · rw [if_neg hkn] at hk
        rcases h4 k nd hk with h | ⟨l, e1, e2, e3, e4⟩
        · exact Or.inl h
        · exact Or.inr ⟨l, e1, e2, e3, by omega⟩
    · rw [List.getElem?_append_right (by rw [List.length_set]; omega), List.length_set] at hk
      have hmem : nd ∈ [tc_init_node M, tc_init_node M] := List.getElem?_mem hk
      simp only [List.mem_cons, List.mem_singleton, List.not_mem_nil, or_false, or_self]
        at hmem
      rw [hmem]
      exact Or.inl ⟨rfl, rfl⟩

/-- Every tree the trainer builds is well formed. -/
theorem grown_wf (M : FloatOps) (tree : tc_tree M.F) (h : Grown M tree) : tree_wf tree := by
  induction h with
  | init => exact tree_wf_init M
  | step tree tree2 search ds st st2 _ hstep ih =>
    obtain ⟨hfull, n, node, hn, h | ⟨flt, thr, h⟩⟩ :=
      tc_grow_tree_grown M search ds tree tree2 st st2 hstep
    · rw [h]
      exact tree_wf_unexpandable tree n node ih hn
    · rw [h]
      exact tree_wf_split M tree n node flt thr ih hfull hn

/-- In a well-formed tree every walk ends: a child lies above its parent, so
a walk from node `k` needs at most `nnodes - k` steps. -/
theorem tree_wf_walk {F : Type} (tree : tc_tree F) (hwf : tree_wf tree) (image : tc_image)
    (r c : Int) :
    ∀ (fuel k : Nat), k < tree.nodes.length → tree.nodes.length ≤ fuel + k →
      tc_walk tree image r c fuel (some (k : Int)) ≠ WalkResult.stuck := by
  obtain ⟨h1, _, _, h4⟩ := hwf
  intro fuel
  induction fuel with
  | zero =>
    intro k hk hf
    omega
  | succ fuel ih =>
    intro k hk hf
    obtain ⟨node, hnode⟩ : ∃ node, tree.nodes[k]? = some node :=
      ⟨_, List.getElem?_eq_getElem hk⟩
    have hd : tc_deref tree (some (k : Int)) = some node := by
      unfold tc_deref
      simp only [Int.natCast_nonneg, if_true, Int.toNat_ofNat]
      exact hnode
    unfold tc_walk
    simp only [hd]
    rcases h4 k _ hnode with ⟨e1, _⟩ | ⟨l, e1, e2, e3, e4⟩
    · have hl : tc_isleaf node = true := by
        simp [tc_isleaf, e1]
      simp [hl]
    · have hl : tc_isleaf node = false := by
        simp [tc_isleaf, e2]
      simp only [hl, Bool.false_eq_true, if_false, e1, e2]
      obtain ⟨l2, hl2⟩ : ∃ l2 : Nat, l = (l2 : Int) := ⟨l.toNat, by omega⟩
      subst hl2
      split
      · simp
      · split
        · have := ih (l2 + 1) (by omega) (by omega)
          simpa using this
        · exact ih l2 (by omega) (by omega)

theorem exSplitTree_grown :
    tc_grow_tree ratOps exSearch exForty (tc_init_tree ratOps) exLinks =
      some (GrowOutcome.grown exSplitTree exLinks2) := by
  set_option maxRecDepth 100000 in
  with_unfolding_all rfl

/-- C16: every tree reached from `tc_init_tree` by passes of the body of
`tc_grow` is well formed: `nnodes` is the number of nodes written, odd and at
most 511; every node has no child or both, the low child at an index above
its own and the high child right after it, both below `nnodes`; so no walk
through the tree cycles.  A tree with `nnodes ≥ 510` is left unchanged by
`tc_grow`, and a pass that changes a tree leaves `nnodes` or installs a split
whose low child is the old `nnodes` and whose high child is the old
`nnodes + 1`. -/
theorem grow_keeps_tree_well_formed (M : FloatOps) (tree : tc_tree M.F) (h : Grown M tree) :
    tree_wf tree ∧
    (∀ (image : tc_image) (r c : Int),
      tc_walk tree image r c tree.nodes.length (some 0) ≠ WalkResult.stuck) ∧
    (tree.nnodes ≥ 510 → ∀ search ds st,
      tc_grow_tree M search ds tree st = some GrowOutcome.full) ∧
    (∀ search ds st tree2 st2,
      tc_grow_tree M search ds tree st = some (GrowOutcome.grown tree2 st2) →
      tree2.nnodes = tree.nnodes ∨
      (tree2.nnodes = tree.nnodes + 2 ∧ ∃ (n : Nat) (node : tc_node M.F),
        (n : Int) < tree.nnodes ∧ tree2.nodes[n]? = some node ∧
        node.low = some tree.nnodes ∧ node.high = some (tree.nnodes + 1))) := by
  have hwf := grown_wf M tree h
  refine ⟨hwf, ?_, ?_, ?_⟩
  · intro image r c
    have hpos : 0 < tree.nodes.length := by
      obtain ⟨h1, h2, _, _⟩ := hwf
      omega
    exact tree_wf_walk tree hwf image r c tree.nodes.length 0 hpos (by omega)
  · intro hfull search ds st
    unfold tc_grow_tree
    have hmax : ((MAX_TREE_NODES : Nat) : Int) = 512 := rfl
    rw [if_pos (by omega)]
  · intro search ds st tree2 st2 hstep
    obtain ⟨_, n, node, hn, h | ⟨flt, thr, h⟩⟩ :=
      tc_grow_tree_grown M search ds tree tree2 st st2 hstep
    · rw [h]
      exact Or.inl rfl
    · rw [h]
      have hnlt : n < tree.nodes.length := by
        rcases Nat.lt_or_ge n tree.nodes.length with h | h
        · exact h
        · rw [List.getElem?_eq_none h] at hn
          cases hn
      refine Or.inr ⟨rfl, n,
        { node with threshold := thr, filter := flt, low := some tree.nnodes, high := some (tree.nnodes + 1) },
        by rw [hwf.1]; omega, ?_, rfl, rfl⟩
      unfold split_node
      simp only
      rw [List.getElem?_append_left (by rw [List.length_set]; exact hnlt), List.getElem?_set,
        if_pos rfl, if_pos hnlt]

/-- C16, evaluated on the tree the body of `tc_grow` makes of a fresh tree
with the forty data of `exForty` in the bucket of its root. -/
theorem grow_keeps_tree_well_formed_witness :
    tree_wf exSplitTree ∧
    (∀ (image : tc_image) (r c : Int),
      tc_walk exSplitTree image r c exSplitTree.nodes.length (some 0) ≠ WalkResult.stuck) ∧
    (exSplitTree.nnodes ≥ 510 → ∀ search ds st,
      tc_grow_tree ratOps search ds exSplitTree st = some GrowOutcome.full) ∧
    (∀ search ds st tree2 st2,
      tc_grow_tree ratOps search ds exSplitTree st = some (GrowOutcome.grown tree2 st2) →
      tree2.nnodes = exSplitTree.nnodes ∨
      (tree2.nnodes = exSplitTree.nnodes + 2 ∧ ∃ (n : Nat) (node : tc_node ratOps.F),
        (n : Int) < exSplitTree.nnodes ∧ tree2.nodes[n]? = some node ∧
        node.low = some exSplitTree.nnodes ∧ node.high = some (exSplitTree.nnodes + 1))) :=
  grow_keeps_tree_well_formed ratOps exSplitTree
    (Grown.step (tc_init_tree ratOps) exSplitTree exSearch exForty exLinks exLinks2
      Grown.init exSplitTree_grown)

/-! ## Theorems: buckets -/

theorem is_list_frame (next next2 : List (Option Nat)) :
    ∀ (L : List Nat) (p : Option Nat),
      (∀ i ∈ L, next2.getD i none = next.getD i none) → is_list next p L →
      is_list next2 p L := by
  intro L
  induction L with
  | nil =>
    intro p _ h
    exact h
  | cons i L ih =>
    intro p hf h
    obtain ⟨h1, h2⟩ := h
    refine ⟨h1, ?_⟩
    rw [hf i (List.mem_cons_self _ _)]
    exact ih _ (fun j hj => hf j (List.mem_cons_of_mem _ hj)) h2

theorem is_list_unique (next : List (Option Nat)) :
    ∀ (L₁ L₂ : List Nat) (p : Option Nat), is_list next p L₁ → is_list next p L₂ → L₁ = L₂ := by
  intro L₁
  induction L₁ with
  | nil =>
    intro L₂ p h1 h2
    cases L₂ with
    | nil => rfl
    | cons j L₂ =>
      have e1 : p = none := h1
      rw [e1] at h2
      cases h2.1
  | cons i L₁ ih =>
    intro L₂ p h1 h2
    cases L₂ with
    | nil =>
      have e2 : p = none := h2
      rw [e2] at h1
      cases h1.1
    | cons j L₂ =>
      obtain ⟨a1, a2⟩ := h1
      obtain ⟨b1, b2⟩ := h2
      rw [a1] at b1
      injection b1 with b1
      subst b1
      rw [ih L₂ _ a2 b2]

theorem is_list_suffix (next : List (Option Nat)) :
    ∀ (A B : List Nat) (p : Option Nat), is_list next p (A ++ B) → ∃ q, is_list next q B := by
  intro A
  induction A with
  | nil =>
    intro B p h
    exact ⟨p, h⟩
  | cons a A ih =>
    intro B p h
    exact ih B _ h.2

/-- A bucket holds every datum at most once. -/
theorem is_list_nodup (next : List (Option Nat)) :
    ∀ (L : List Nat) (p : Option Nat), is_list next p L → L.Nodup := by
  intro L
  induction L with
  | nil =>
    intro p _
    exact List.nodup_nil
  | cons i L ih =>
    intro p h
    obtain ⟨_, h2⟩ := h
    rw [List.nodup_cons]
    refine ⟨?_, ih _ h2⟩
    intro hmem
    obtain ⟨A, B, hAB⟩ := List.append_of_mem hmem
    rw [hAB] at h2
    obtain ⟨q, hq⟩ := is_list_suffix next A (i :: B) _ h2
    have hB : is_list next (next.getD i none) B := hq.2
    have := is_list_unique next _ _ _ h2 hB
    have hlen := congrArg List.length this
    simp at hlen
    omega

theorem tc_bucket_of_is_list (next : List (Option Nat)) :
    ∀ (L : List Nat) (fuel : Nat) (p : Option Nat), is_list next p L → L.length ≤ fuel →
      tc_bucket next fuel p = some L := by
  intro L
  induction L with
  | nil =>
    intro fuel p h _
    have e : p = none := h
    rw [e]
    cases fuel <;> rfl
  | cons i L ih =>
    intro fuel p h hf
    obtain ⟨h1, h2⟩ := h
    cases fuel with
    | zero => simp at hf
    | succ fuel =>
      rw [h1]
      show (tc_bucket next fuel (next.getD i none)).map _ = _
      rw [ih fuel _ h2 (by simpa using hf)]
      rfl

theorem is_list_of_tc_bucket (next : List (Option Nat)) :
    ∀ (fuel : Nat) (p : Option Nat) (L : List Nat), tc_bucket next fuel p = some L →
      is_list next p L := by
  intro fuel
  induction fuel with
  | zero =>
    intro p L h
    cases p with
    | none =>
      injection h with h
      rw [← h]
      rfl
    | some i => cases h
  | succ fuel ih =>
    intro p L h
    cases p with
    | none =>
      injection h with h
      rw [← h]
      rfl
    | some i =>
      change (tc_bucket next fuel (next.getD i none)).map _ = some L at h
      cases hb : tc_bucket next fuel (next.getD i none) with
      | none =>
        rw [hb] at h
        cases h
      | some L2 =>
        rw [hb] at h
        injection h with h
        rw [← h]
        exact ⟨rfl, ih _ _ hb⟩

/-- A list of distinct indices below `n` has at most `n` elements. -/
theorem nodup_length_le (L : List Nat) (n : Nat) (hnd : L.Nodup) (h : ∀ i ∈ L, i < n) :
    L.length ≤ n := by
  have hsub : L ⊆ List.range n := fun i hi => List.mem_range.mpr (h i hi)
  have := (List.subperm_of_subset hnd hsub).length_le
  simpa using this

theorem is_list_set (next : List (Option Nat)) (r : Nat) (v : Option Nat) (L : List Nat)
    (p : Option Nat) (hr : r ∉ L) (h : is_list next p L) : is_list (next.set r v) p L :=
  is_list_frame next _ L p
    (fun _ hi => getD_set_ne _ _ _ _ _ (fun e => hr (e ▸ hi))) h

theorem is_list_push (next : List (Option Nat)) (r : Nat) (p : Option Nat) (L : List Nat)
    (hr : r ∉ L) (hlt : r < next.length) (h : is_list next p L) :
    is_list (next.set r p) (some r) (r :: L) := by
  refine ⟨rfl, ?_⟩
  rw [getD_set_eq _ _ _ _ _ hlt, if_pos rfl]
  exact is_list_set next r p L p hr h

theorem propagate_loop_none {F : Type} (ds : tc_dataset) (node : tc_node F) (fuel : Nat)
    (st : NodeLinks) : propagate_loop ds node fuel none st = some st := by
  cases fuel <;> rfl

theorem propagate_loop_succ {F : Type} (ds : tc_dataset) (node : tc_node F) (fuel cur : Nat)
    (st : NodeLinks) (d : tc_datum) (image : tc_image) (hd : ds.data[cur]? = some d)
    (hi : ds.images[d.image.toNat]? = some image) :
    propagate_loop ds node (fuel + 1) (some cur) st =
      if (tc_filter_pixel node.filter image d.r d.c 0).1 ≠ ERR then
        match (if (tc_filter_pixel node.filter image d.r d.c 0).2 > node.threshold
          then node.high else node.low) with
        | none => none
        | some j =>
          if j < 0 ∨ (st.heads.length : Int) ≤ j ∨ st.next.length ≤ cur then none
          else
            propagate_loop ds node fuel (st.next.getD cur none)
              { st with next := st.next.set cur (st.heads.getD j.toNat none),
                        heads := st.heads.set j.toNat (some cur) }
      else
        propagate_loop ds node fuel (st.next.getD cur none)
          { st with dropped := st.dropped ++ [cur] } := by
  show (match ds.data[cur]? with
    | none => none
    | some d => _) = _
  rw [hd]
  show (match ds.images[d.image.toNat]? with
    | none => none
    | some image => _) = _
  rw [hi]
  try rfl

theorem datum_ok_spec (ds : tc_dataset) (i : Nat) (h : datum_ok ds i = true) :
    ∃ d, ds.data[i]? = some d ∧ ∃ image, ds.images[d.image.toNat]? = some image := by
  unfold datum_ok at h
  cases hd : ds.data[i]? with
  | none =>
    rw [hd] at h
    cases h
  | some d =>
    rw [hd] at h
    exact ⟨d, rfl, Option.isSome_iff_exists.mp h⟩

theorem datum_eval_eq {F : Type} (ds : tc_dataset) (node : tc_node F) (i : Nat)
    (d : tc_datum) (image : tc_image) (hd : ds.data[i]? = some d)
    (hi : ds.images[d.image.toNat]? = some image) :
    datum_eval ds node i = tc_filter_pixel node.filter image d.r d.c 0 := by
  unfold datum_eval
  rw [hd]
  simp only
  rw [hi]

theorem goes_cases {F : Type} (ds : tc_dataset) (node : tc_node F) (i : Nat) :
    (goes_nowhere ds node i = true ∧ goes_high ds node i = false ∧ goes_low ds node i = false) ∨
    (goes_nowhere ds node i = false ∧ goes_high ds node i = true ∧ goes_low ds node i = false) ∨
    (goes_nowhere ds node i = false ∧ goes_high ds node i = false ∧ goes_low ds node i = true) := by
  unfold goes_nowhere goes_high goes_low
  by_cases h1 : (datum_eval ds node i).1 = ERR
  · left
    simp [h1]
  · by_cases h2 : (datum_eval ds node i).2 > node.threshold
    · right; left
      have h3 : ¬ (datum_eval ds node i).2 ≤ node.threshold := by omega
      simp [h1, h2, h3]
    · right; right
      have h3 : (datum_eval ds node i).2 ≤ node.threshold := by omega
      simp [h1, h2, h3]

theorem propagate_loop_drop {F : Type} (ds : tc_dataset) (node : tc_node F) (fuel cur : Nat)
    (st : NodeLinks) (d : tc_datum) (image : tc_image) (hd : ds.data[cur]? = some d)
    (hi : ds.images[d.image.toNat]? = some image) (hg : goes_nowhere ds node cur = true) :
    propagate_loop ds node (fuel + 1) (some cur) st =
      propagate_loop ds node fuel (st.next.getD cur none)
        { st with dropped := st.dropped ++ [cur] } := by
  rw [propagate_loop_succ ds node fuel cur st d image hd hi]
  unfold goes_nowhere at hg
  rw [datum_eval_eq ds node cur d image hd hi] at hg
  have h1 : (tc_filter_pixel node.filter image d.r d.c 0).1 = ERR := of_decide_eq_true hg
  rw [if_neg (fun h => h h1)]

theorem propagate_loop_high {F : Type} (ds : tc_dataset) (node : tc_node F) (fuel cur : Nat)
    (st : NodeLinks) (d : tc_datum) (image : tc_image) (h : Nat)
    (hd : ds.data[cur]? = some d) (hi : ds.images[d.image.toNat]? = some image)
    (hg : goes_high ds node cur = true) (hhigh : node.high = some (h : Int))
    (hh : h < st.heads.length) (hc : cur < st.next.length) :
    propagate_loop ds node (fuel + 1) (some cur) st =
      propagate_loop ds node fuel (st.next.getD cur none)
        { st with next := st.next.set cur (st.heads.getD h none),
                  heads := st.heads.set h (some cur) } := by
  rw [propagate_loop_succ ds node fuel cur st d image hd hi]
  unfold goes_high at hg
  rw [datum_eval_eq ds node cur d image hd hi] at hg
  obtain ⟨h1, h2⟩ := of_decide_eq_true hg
  rw [if_pos h1, if_pos h2, hhigh]
  have h3 : ¬ ((h : Int) < 0 ∨ (st.heads.length : Int) ≤ (h : Int) ∨ st.next.length ≤ cur) := by
    omega
  simp only [if_neg h3, Int.toNat_ofNat]

theorem propagate_loop_low {F : Type} (ds : tc_dataset) (node : tc_node F) (fuel cur : Nat)
    (st : NodeLinks) (d : tc_datum) (image : tc_image) (l : Nat)
    (hd : ds.data[cur]? = some d) (hi : ds.images[d.image.toNat]? = some image)
    (hg : goes_low ds node cur = true) (hlow : node.low = some (l : Int))
    (hl : l < st.heads.length) (hc : cur < st.next.length) :
    propagate_loop ds node (fuel + 1) (some cur) st =
      propagate_loop ds node fuel (st.next.getD cur none)
        { st with next := st.next.set cur (st.heads.getD l none),
                  heads := st.heads.set l (some cur) } := by
  rw [propagate_loop_succ ds node fuel cur st d image hd hi]
  unfold goes_low at hg
  rw [datum_eval_eq ds node cur d image hd hi] at hg
  obtain ⟨h1, h2⟩ := of_decide_eq_true hg
  have h2b : ¬ (tc_filter_pixel node.filter image d.r d.c 0).2 > node.threshold := by omega
  rw [if_pos h1, if_neg h2b, hlow]
  have h3 : ¬ ((l : Int) < 0 ∨ (st.heads.length : Int) ≤ (l : Int) ∨ st.next.length ≤ cur) := by
    omega
  simp only [if_neg h3, Int.toNat_ofNat]

/-- The loop of `tc_propagate_node` on the rest `R` of a bucket: the data of
`R` are pushed one by one on the child buckets `Lo` and `Hi`, or dropped. -/
theorem propagate_loop_spec {F : Type} (ds : tc_dataset) (node : tc_node F) (h l : Nat)
    (hhigh : node.high = some (h : Int)) (hlow : node.low = some (l : Int)) (hhl : h ≠ l) :
    ∀ (R : List Nat) (fuel : Nat) (cur : Option Nat) (st : NodeLinks) (Lo Hi : List Nat),
      is_list st.next cur R → R.length ≤ fuel →
      is_list st.next (st.heads.getD l none) Lo → is_list st.next (st.heads.getD h none) Hi →
      (∀ i ∈ R, i ∉ Lo ∧ i ∉ Hi) → data_valid ds st.next R →
      h < st.heads.length → l < st.heads.length →
      ∃ st2, propagate_loop ds node fuel cur st = some st2 ∧
        is_list st2.next (st2.heads.getD l none) ((R.filter (goes_low ds node)).reverse ++ Lo) ∧
        is_list st2.next (st2.heads.getD h none) ((R.filter (goes_high ds node)).reverse ++ Hi) ∧
        st2.dropped = st.dropped ++ R.filter (goes_nowhere ds node) ∧
        st2.next.length = st.next.length ∧ st2.heads.length = st.heads.length ∧
        (∀ i, i ∉ R → st2.next.getD i none = st.next.getD i none) ∧
        (∀ k, k ≠ l → k ≠ h → st2.heads.getD k none = st.heads.getD k none) := by
  intro R
  induction R with
  | nil =>
    intro fuel cur st Lo Hi hR _ hLo hHi _ _ _ _
    have hc : cur = none := hR
    subst hc
    exact ⟨st, propagate_loop_none ds node fuel st, by simpa using hLo, by simpa using hHi,
      by simp, rfl, rfl, fun _ _ => rfl, fun _ _ _ => rfl⟩
  | cons r R ih =>
    intro fuel cur st Lo Hi hR hfuel hLo hHi hdis hval hh hl
    obtain ⟨hc, hR2⟩ := hR
    subst hc
    have hnd : (r :: R).Nodup := is_list_nodup st.next (r :: R) (some r) ⟨rfl, hR2⟩
    have hrR : r ∉ R := (List.nodup_cons.mp hnd).1
    obtain ⟨hrlt, hok⟩ := hval r (List.mem_cons_self _ _)
    obtain ⟨d, hd, image, hi⟩ := datum_ok_spec ds r hok
    have hvalR : ∀ nx : List (Option Nat), nx.length = st.next.length → data_valid ds nx R :=
      fun nx e i hiR => by
        rw [e]
        exact hval i (List.mem_cons_of_mem _ hiR)
    obtain ⟨hrLo, hrHi⟩ := hdis r (List.mem_cons_self _ _)
    obtain ⟨fuel, rfl⟩ : ∃ f, fuel = f + 1 := ⟨fuel - 1, by simp at hfuel; omega⟩
    have hfuel2 : R.length ≤ fuel := by simp at hfuel; omega
    rcases goes_cases ds node r with ⟨g1, g2, g3⟩ | ⟨g1, g2, g3⟩ | ⟨g1, g2, g3⟩
    · rw [propagate_loop_drop ds node fuel r st d image hd hi g1]
      obtain ⟨st2, e, a1, a2, a3, a4, a5, a6, a7⟩ :=
        ih fuel (st.next.getD r none) { st with dropped := st.dropped ++ [r] } Lo Hi hR2 hfuel2
          hLo hHi (fun i hiR => hdis i (List.mem_cons_of_mem _ hiR)) (hvalR _ rfl) hh hl
      refine ⟨st2, e, ?_, ?_, ?_, a4, a5, ?_, a7⟩
      · simpa [List.filter_cons, g3] using a1
      · simpa [List.filter_cons, g2] using a2
      · rw [a3]
        simp [List.filter_cons, g1]
      · intro i hiR
        exact a6 i (fun hm => hiR (List.mem_cons_of_mem _ hm))
    · rw [propagate_loop_high ds node fuel r st d image h hd hi g2 hhigh hh hrlt]
      obtain ⟨st2, e, a1, a2, a3, a4, a5, a6, a7⟩ :=
        ih fuel (st.next.getD r none)
          { st with next := st.next.set r (st.heads.getD h none),
                    heads := st.heads.set h (some r) } Lo (r :: Hi)
          (is_list_set st.next r _ R _ hrR hR2) hfuel2
          (by
            show is_list (st.next.set r _) ((st.heads.set h (some r)).getD l none) Lo
            rw [getD_set_ne _ _ _ _ _ (fun e => hhl e.symm)]
            exact is_list_set st.next r _ Lo _ hrLo hLo)
          (by
            show is_list (st.next.set r _) ((st.heads.set h (some r)).getD h none) (r :: Hi)
            rw [getD_set_eq _ _ _ _ _ hh, if_pos rfl]
            exact is_list_push st.next r _ Hi hrHi hrlt hHi)
          (fun i hiR => ⟨(hdis i (List.mem_cons_of_mem _ hiR)).1, fun hm => by
            rcases List.mem_cons.mp hm with e | hm2
            · exact hrR (e ▸ hiR)
            · exact (hdis i (List.mem_cons_of_mem _ hiR)).2 hm2⟩)
          (hvalR _ (by simp)) (by simpa using hh) (by simpa using hl)
      refine ⟨st2, e, ?_, ?_, ?_, ?_, ?_, ?_, ?_⟩
      · simpa [List.filter_cons, g3] using a1
      · simpa [List.filter_cons, g2] using a2
      · rw [a3]
        simp [List.filter_cons, g1]
      · simpa using a4
      · simpa using a5
      · intro i hiR
        rw [a6 i (fun hm => hiR (List.mem_cons_of_mem _ hm))]
        exact getD_set_ne _ _ _ _ _ (fun e => hiR (e ▸ List.mem_cons_self _ _))
      · intro k hkl hkh
        rw [a7 k hkl hkh]
        exact getD_set_ne _ _ _ _ _ hkh
    · rw [propagate_loop_low ds node fuel r st d image l hd hi g3 hlow hl hrlt]
      obtain ⟨st2, e, a1, a2, a3, a4, a5, a6, a7⟩ :=
        ih fuel (st.next.getD r none)
          { st with next := st.next.set r (st.heads.getD l none),
                    heads := st.heads.set l (some r) } (r :: Lo) Hi
          (is_list_set st.next r _ R _ hrR hR2) hfuel2
          (by
            show is_list (st.next.set r _) ((st.heads.set l (some r)).getD l none) (r :: Lo)
            rw [getD_set_eq _ _ _ _ _ hl, if_pos rfl]
            exact is_list_push st.next r _ Lo hrLo hrlt hLo)
          (by
            show is_list (st.next.set r _) ((st.heads.set l (some r)).getD h none) Hi
            rw [getD_set_ne _ _ _ _ _ hhl]
            exact is_list_set st.next r _ Hi _ hrHi hHi)
          (fun i hiR => ⟨fun hm => by
            rcases List.mem_cons.mp hm with e | hm2
            · exact hrR (e ▸ hiR)
            · exact (hdis i (List.mem_cons_of_mem _ hiR)).1 hm2,
            (hdis i (List.mem_cons_of_mem _ hiR)).2⟩)
          (hvalR _ (by simp)) (by simpa using hh) (by simpa using hl)
      refine ⟨st2, e, ?_, ?_, ?_, ?_, ?_, ?_, ?_⟩
      · simpa [List.filter_cons, g3] using a1
      · simpa [List.filter_cons, g2] using a2
      · rw [a3]
        simp [List.filter_cons, g1]
      · simpa using a4
      · simpa using a5
      · intro i hiR
        rw [a6 i (fun hm => hiR (List.mem_cons_of_mem _ hm))]
        exact getD_set_ne _ _ _ _ _ (fun e => hiR (e ▸ List.mem_cons_self _ _))
      · intro k hkl hkh
        rw [a7 k hkl hkh]
        exact getD_set_ne _ _ _ _ _ hkl

theorem filter_three_length {F : Type} (ds : tc_dataset) (node : tc_node F) (L : List Nat) :
    L.length = (L.filter (goes_low ds node)).length + (L.filter (goes_high ds node)).length +
      (L.filter (goes_nowhere ds node)).length := by
  induction L with
  | nil => rfl
  | cons r L ih =>
    rcases goes_cases ds node r with ⟨g1, g2, g3⟩ | ⟨g1, g2, g3⟩ | ⟨g1, g2, g3⟩ <;>
      simp only [List.filter_cons, g1, g2, g3, List.length_cons] <;> simp <;> omega

theorem data_valid_length (ds : tc_dataset) (next : List (Option Nat)) (p : Option Nat)
    (L : List Nat) (hL : is_list next p L) (hv : data_valid ds next L) :
    L.length ≤ next.length :=
  nodup_length_le L next.length (is_list_nodup next L p hL) (fun i hi => (hv i hi).1)

/-- The function `tc_propagate_node` on a node with two children whose buckets
are empty: the bucket `L` of the node is split among the children. -/
theorem tc_propagate_node_spec {F : Type} (ds : tc_dataset) (tree : tc_tree F) (n h l : Nat)
    (node : tc_node F) (st : NodeLinks) (L : List Nat)
    (hnode : tree.nodes[n]? = some node)
    (hhigh : node.high = some (h : Int)) (hlow : node.low = some (l : Int)) (hhl : h ≠ l)
    (hh : h < st.heads.length) (hl : l < st.heads.length)
    (hhe : st.heads.getD h none = none) (hle : st.heads.getD l none = none)
    (hL : is_list st.next (st.heads.getD n none) L) (hv : data_valid ds st.next L) :
    ∃ st2, tc_propagate_node ds tree n st = some st2 ∧
      st2.heads.getD n none = none ∧
      is_list st2.next (st2.heads.getD l none) (L.filter (goes_low ds node)).reverse ∧
      is_list st2.next (st2.heads.getD h none) (L.filter (goes_high ds node)).reverse ∧
      st2.dropped = st.dropped ++ L.filter (goes_nowhere ds node) ∧
      st2.next.length = st.next.length ∧ st2.heads.length = st.heads.length ∧
      (∀ i, i ∉ L → st2.next.getD i none = st.next.getD i none) ∧
      (∀ k, k ≠ l → k ≠ h → k ≠ n → st2.heads.getD k none = st.heads.getD k none) := by
  have hleaf : tc_isleaf node = false := by
    unfold tc_isleaf
    rw [hhigh]
    rfl
  unfold tc_propagate_node
  rw [hnode]
  simp only [hleaf]
  cases L with
  | nil =>
    have hn : st.heads.getD n none = none := hL
    refine ⟨st, ?_, hn, ?_, ?_, ?_, rfl, rfl, fun _ _ => rfl, fun _ _ _ _ => rfl⟩
    · rw [if_neg]
      intro hc
      exact hc.2 hn
    · rw [hle]
      exact rfl
    · rw [hhe]
      exact rfl
    · simp
  | cons r L =>
    have hn : st.heads.getD n none = some r := hL.1
    have hnh : n ≠ h := fun e => by
      rw [e, hhe] at hn
      cases hn
    have hnl : n ≠ l := fun e => by
      rw [e, hle] at hn
      cases hn
    obtain ⟨st2, e, a1, a2, a3, a4, a5, a6, a7⟩ :=
      propagate_loop_spec ds node h l hhigh hlow hhl (r :: L) (st.next.length + 1)
        (st.heads.getD n none) st [] [] hL
        (Nat.le_succ_of_le (data_valid_length ds st.next _ _ hL hv))
        (by rw [hle]; exact rfl) (by rw [hhe]; exact rfl)
        (fun _ _ => ⟨List.not_mem_nil _, List.not_mem_nil _⟩) hv hh hl
    rw [if_pos ⟨by simp, by rw [hn]; simp⟩, e]
    refine ⟨_, rfl, ?_, ?_, ?_, a3, a4, ?_, a6, ?_⟩
    · show (st2.heads.set n none).getD n none = none
      by_cases hlt : n < st2.heads.length
      · rw [getD_set_eq _ _ _ _ _ hlt, if_pos rfl]
      · simp [List.getD_eq_getElem?_getD, List.getElem?_set, hlt]
    · show is_list st2.next ((st2.heads.set n none).getD l none) _
      rw [getD_set_ne _ _ _ _ _ (fun e => hnl e.symm)]
      simpa using a1
    · show is_list st2.next ((st2.heads.set n none).getD h none) _
      rw [getD_set_ne _ _ _ _ _ (fun e => hnh e.symm)]
      simpa using a2
    · simpa using a5
    · intro k hkl hkh hkn
      show (st2.heads.set n none).getD k none = _
      rw [getD_set_ne _ _ _ _ _ hkn]
      exact a7 k hkl hkh

/-- C17: `tc_propagate_node` on a node with a low child `l` and a high child
`h` whose buckets are empty returns, the bucket of the node is empty
afterwards, the bucket of the low child holds exactly the data whose filter
evaluation succeeds with a result at most the threshold, the bucket of the
high child exactly those with a result above the threshold, the data whose
evaluation fails are in no bucket (they are appended to the ghost list
`dropped`), every datum of the bucket is in exactly one of the three, and the
size of the bucket before is the sum of the three sizes. -/
theorem propagate_conserves_samples {F : Type} (ds : tc_dataset) (tree : tc_tree F)
    (n h l : Nat) (node : tc_node F) (st : NodeLinks) (L : List Nat)
    (hnode : tree.nodes[n]? = some node)
    (hhigh : node.high = some (h : Int)) (hlow : node.low = some (l : Int)) (hhl : h ≠ l)
    (hh : h < st.heads.length) (hl : l < st.heads.length)
    (hhe : st.heads.getD h none = none) (hle : st.heads.getD l none = none)
    (hL : tc_bucket st.next (st.next.length + 1) (st.heads.getD n none) = some L)
    (hv : data_valid ds st.next L) :
    ∃ st2 Lo Hi, tc_propagate_node ds tree n st = some st2 ∧
      tc_bucket st2.next (st2.next.length + 1) (st2.heads.getD n none) = some [] ∧
      tc_bucket st2.next (st2.next.length + 1) (st2.heads.getD l none) = some Lo ∧
      tc_bucket st2.next (st2.next.length + 1) (st2.heads.getD h none) = some Hi ∧
      Lo = (L.filter (goes_low ds node)).reverse ∧
      Hi = (L.filter (goes_high ds node)).reverse ∧
      st2.dropped = st.dropped ++ L.filter (goes_nowhere ds node) ∧
      (∀ i ∈ L,
        (goes_nowhere ds node i = true ∧ i ∉ Lo ∧ i ∉ Hi) ∨
        (goes_nowhere ds node i = false ∧ i ∉ Lo ∧ i ∈ Hi ∧
          (datum_eval ds node i).2 > node.threshold) ∨
        (goes_nowhere ds node i = false ∧ i ∈ Lo ∧ i ∉ Hi ∧
          (datum_eval ds node i).2 ≤ node.threshold)) ∧
      L.length = Lo.length + Hi.length + (L.filter (goes_nowhere ds node)).length := by
  have hL2 := is_list_of_tc_bucket _ _ _ _ hL
  obtain ⟨st2, e, a1, a2, a3, a4, a5, a6, _, _⟩ :=
    tc_propagate_node_spec ds tree n h l node st L hnode hhigh hlow hhl hh hl hhe hle hL2 hv
  have hlen := data_valid_length ds st.next _ _ hL2 hv
  have hf := filter_three_length ds node L
  refine ⟨st2, _, _, e, ?_, ?_, ?_, rfl, rfl, a4, ?_, ?_⟩
  · rw [a1]
    rfl
  · refine tc_bucket_of_is_list _ _ _ _ a2 ?_
    rw [List.length_reverse, a5]
    omega
  · refine tc_bucket_of_is_list _ _ _ _ a3 ?_
    rw [List.length_reverse, a5]
    omega
  · intro i hi
    rcases goes_cases ds node i with ⟨g1, g2, g3⟩ | ⟨g1, g2, g3⟩ | ⟨g1, g2, g3⟩
    · left
      simp [g1, g2, g3]
    · right; left
      have := (of_decide_eq_true g2).2
      simp [g1, g2, g3, hi, this]
    · right; right
      have := (of_decide_eq_true g3).2
      simp [g1, g2, g3, hi, this]
  · simpa using hf

theorem exSplitTree_root : exSplitTree.nodes[0]? = some exSplitRoot := by
  with_unfolding_all rfl

theorem exLinksWide_bucket :
    tc_bucket exLinksWide.next (exLinksWide.next.length + 1) (exLinksWide.heads.getD 0 none) =
      some (List.range 40).reverse := by
  set_option maxRecDepth 100000 in
  with_unfolding_all rfl

theorem exLinksWide_valid : data_valid exForty exLinksWide.next (List.range 40).reverse := by
  unfold data_valid
  set_option maxRecDepth 100000 in
  with_unfolding_all decide

/-- C17, evaluated on the root of `exSplitTree` with the forty data of
`exForty` in its bucket: the data of the columns 0 to 19 go to the low child,
those of the columns 20 to 38 to the high child, and the datum of column 39,
whose right neighbour is outside the image, is dropped. -/
theorem propagate_conserves_samples_witness :
    ∃ st2 Lo Hi, tc_propagate_node exForty exSplitTree 0 exLinksWide = some st2 ∧
      tc_bucket st2.next (st2.next.length + 1) (st2.heads.getD 0 none) = some [] ∧
      tc_bucket st2.next (st2.next.length + 1) (st2.heads.getD 1 none) = some Lo ∧
      tc_bucket st2.next (st2.next.length + 1) (st2.heads.getD 2 none) = some Hi ∧
      Lo = ((List.range 40).reverse.filter (goes_low exForty exSplitRoot)).reverse ∧
      Hi = ((List.range 40).reverse.filter (goes_high exForty exSplitRoot)).reverse ∧
      st2.dropped = exLinksWide.dropped ++
        (List.range 40).reverse.filter (goes_nowhere exForty exSplitRoot) ∧
      (∀ i ∈ (List.range 40).reverse,
        (goes_nowhere exForty exSplitRoot i = true ∧ i ∉ Lo ∧ i ∉ Hi) ∨
        (goes_nowhere exForty exSplitRoot i = false ∧ i ∉ Lo ∧ i ∈ Hi ∧
          (datum_eval exForty exSplitRoot i).2 > exSplitRoot.threshold) ∨
        (goes_nowhere exForty exSplitRoot i = false ∧ i ∈ Lo ∧ i ∉ Hi ∧
          (datum_eval exForty exSplitRoot i).2 ≤ exSplitRoot.threshold)) ∧
      (List.range 40).reverse.length = Lo.length + Hi.length +
        ((List.range 40).reverse.filter (goes_nowhere exForty exSplitRoot)).length :=
  propagate_conserves_samples exForty exSplitTree 0 2 1 exSplitRoot exLinksWide
    (List.range 40).reverse exSplitTree_root rfl rfl (by decide) (by decide) (by decide)
    rfl rfl exLinksWide_bucket exLinksWide_valid

theorem exLinksWide_result :
    (tc_propagate_node exForty exSplitTree 0 exLinksWide).map
      (fun st2 => (st2.heads, st2.dropped)) = some ([none, some 0, some 20], [39]) := by
  set_option maxRecDepth 100000 in
  with_unfolding_all rfl

/-! ## Theorems: the buckets of the trainer -/

theorem is_list_none (next : List (Option Nat)) (L : List Nat) (h : is_list next none L) :
    L = [] := by
  cases L with
  | nil => rfl
  | cons i L => cases h.1

theorem getD_append_none (hd : List (Option Nat)) (k : Nat) :
    (hd ++ [none, none]).getD k none = hd.getD k none := by
  by_cases h : k < hd.length
  · simp [List.getD_eq_getElem?_getD, List.getElem?_append_left h]
  · have h2 : hd.length ≤ k := by omega
    rw [List.getD_eq_default hd none h2]
    simp only [List.getD_eq_getElem?_getD, List.getElem?_append_right h2]
    rcases Nat.lt_or_ge (k - hd.length) 2 with h3 | h3
    · interval_cases (k - hd.length) <;> rfl
    · rw [List.getElem?_eq_none (by simpa using h3)]
      rfl

theorem tree_inv_frame {F : Type} (next next2 hd : List (Option Nat)) (dr : List Nat)
    (tree : tc_tree F) (A : Nat → Prop)
    (hf : ∀ i, A i → next2.getD i none = next.getD i none)
    (h : tree_inv next hd dr tree A) : tree_inv next2 hd dr tree A := by
  obtain ⟨h1, h2, B, b1, b2, b3, b4, b5, b6⟩ := h
  exact ⟨h1, h2, B, fun k => is_list_frame next next2 (B k) _
    (fun i hi => hf i (b3 k i hi).1) (b1 k), b2, b3, b4, b5, b6⟩

theorem tree_inv_unexpandable {F : Type} (next hd : List (Option Nat)) (dr : List Nat)
    (tree : tc_tree F) (A : Nat → Prop) (n : Nat) (node : tc_node F)
    (hnode : tree.nodes[n]? = some node) (h : tree_inv next hd dr tree A) :
    tree_inv next hd dr { tree with nodes := tree.nodes.set n { node with expandable := 0 } }
      A := by
  obtain ⟨h1, h2, B, b1, b2, b3, b4, b5, b6⟩ := h
  refine ⟨by simpa using h1, h2, B, b1, ?_, b3, b4, b5, b6⟩
  intro k nodek hk hleaf
  simp only [List.getElem?_set] at hk
  by_cases hkn : n = k
  · subst hkn
    rw [if_pos rfl] at hk
    split at hk
    · cases hk
      exact b2 n node hnode hleaf
    · cases hk
  · rw [if_neg hkn] at hk
    exact b2 k nodek hk hleaf

theorem mem_filter_reverse (L : List Nat) (p : Nat → Bool) (i : Nat) :
    i ∈ (L.filter p).reverse ↔ i ∈ L ∧ p i = true := by
  simp [List.mem_filter]

theorem split_node_get (M : FloatOps) (tree : tc_tree M.F) (n : Nat)
    (node : tc_node M.F) (flt : tc_filter) (thr : Int) (hn : n < tree.nodes.length) :
    (split_node M tree n node flt thr).nodes[n]? =
      some { node with threshold := thr, filter := flt,
                       low := some tree.nnodes, high := some (tree.nnodes + 1) } := by
  unfold split_node
  simp only
  rw [List.getElem?_append_left (by simpa using hn)]
  simp [List.getElem?_set, hn]

theorem split_node_get_other (M : FloatOps) (tree : tc_tree M.F) (n k : Nat)
    (node nodek : tc_node M.F) (flt : tc_filter) (thr : Int) (hkn : k ≠ n)
    (h : (split_node M tree n node flt thr).nodes[k]? = some nodek) :
    tree.nodes[k]? = some nodek ∨ tc_isleaf nodek = true := by
  unfold split_node at h
  simp only at h
  by_cases hk : k < tree.nodes.length
  · rw [List.getElem?_append_left (by simpa using hk)] at h
    simp only [List.getElem?_set] at h
    rw [if_neg (fun e => hkn e.symm)] at h
    exact Or.inl h
  · right
    rw [List.getElem?_append_right (by simpa using hk)] at h
    have hm : nodek ∈ [tc_init_node M, tc_init_node M] := List.getElem?_mem h
    simp only [List.mem_cons, List.mem_singleton, List.not_mem_nil, or_false, or_self] at hm
    rw [hm]
    rfl

theorem goes_excl {F : Type} (ds : tc_dataset) (node : tc_node F) (i : Nat) :
    ¬ (goes_low ds node i = true ∧ goes_high ds node i = true) ∧
    ¬ (goes_low ds node i = true ∧ goes_nowhere ds node i = true) ∧
    ¬ (goes_high ds node i = true ∧ goes_nowhere ds node i = true) := by
  rcases goes_cases ds node i with ⟨g1, g2, g3⟩ | ⟨g1, g2, g3⟩ | ⟨g1, g2, g3⟩ <;>
    simp [g1, g2, g3]

/-- The buckets of a tree stay as `tree_inv` says when `tc_grow` installs a
split on node `n` and propagates its bucket. -/
theorem tree_inv_split (M : FloatOps) (ds : tc_dataset) (tree : tc_tree M.F) (n : Nat)
    (node : tc_node M.F) (flt : tc_filter) (thr : Int) (st st2 : NodeLinks) (A : Nat → Prop)
    (hnode : tree.nodes[n]? = some node)
    (hA : ∀ i, A i → i < st.next.length ∧ datum_ok ds i = true)
    (hinv : tree_inv st.next st.heads st.dropped tree A)
    (hp : tc_propagate_node ds (split_node M tree n node flt thr) n
      { st with heads := st.heads ++ [none, none] } = some st2) :
    tree_inv st2.next st2.heads st2.dropped (split_node M tree n node flt thr) A ∧
    st2.next.length = st.next.length ∧
    ∀ i, ¬ A i → st2.next.getD i none = st.next.getD i none := by
  obtain ⟨h1, h2, B, b1, b2, b3, b4, b5, b6⟩ := hinv
  have hn : n < tree.nodes.length := (List.getElem?_eq_some_iff.mp hnode).1
  have hnl : n < st.heads.length := h1 ▸ hn
  obtain ⟨node2, hnode2⟩ : ∃ node2 : tc_node M.F, node2 =
      { node with threshold := thr, filter := flt,
                  low := some tree.nnodes, high := some (tree.nnodes + 1) } := ⟨_, rfl⟩
  obtain ⟨st3, e, a1, a2, a3, a4, a5, a6, a7, a8⟩ :=
    tc_propagate_node_spec ds (split_node M tree n node flt thr) n (st.heads.length + 1)
      st.heads.length node2 { st with heads := st.heads ++ [none, none] } (B n)
      (hnode2 ▸ split_node_get M tree n node flt thr hn)
      (by rw [hnode2]; show some (tree.nnodes + 1) = _; rw [h2]; push_cast; rfl)
      (by rw [hnode2]; show some tree.nnodes = _; rw [h2])
      (by omega) (by simp) (by simp)
      (by
        show (st.heads ++ [none, none]).getD _ none = none
        rw [getD_append_none]
        exact List.getD_eq_default _ _ (by omega))
      (by
        show (st.heads ++ [none, none]).getD _ none = none
        rw [getD_append_none]
        exact List.getD_eq_default _ _ (by omega))
      (by
        show is_list st.next ((st.heads ++ [none, none]).getD n none) (B n)
        rw [getD_append_none]
        exact b1 n)
      (fun i hi => hA i (b3 n i hi).1)
  rw [e] at hp
  cases hp
  have hBl : B st.heads.length = [] := by
    have := b1 st.heads.length
    rw [List.getD_eq_default _ _ (le_refl _)] at this
    exact is_list_none _ _ this
  have hBh : B (st.heads.length + 1) = [] := by
    have := b1 (st.heads.length + 1)
    rw [List.getD_eq_default _ _ (by omega)] at this
    exact is_list_none _ _ this
  have hnl2 : n ≠ st.heads.length := by omega
  have hnh2 : n ≠ st.heads.length + 1 := by omega
  have a4b : st2.dropped = st.dropped ++ (B n).filter (goes_nowhere ds node2) := a4
  have a5b : st2.next.length = st.next.length := a5
  have a6b : st2.heads.length = st.heads.length + 2 := by simpa using a6
  have a7b : ∀ i, i ∉ B n → st2.next.getD i none = st.next.getD i none := a7
  have a8b : ∀ k, k ≠ st.heads.length → k ≠ st.heads.length + 1 → k ≠ n →
      st2.heads.getD k none = st.heads.getD k none := fun k x y z => by
    rw [a8 k x y z]
    exact getD_append_none _ _
  have mlo := mem_filter_reverse (B n) (goes_low ds node2)
  have mhi := mem_filter_reverse (B n) (goes_high ds node2)
  have mno : ∀ i, i ∈ (B n).filter (goes_nowhere ds node2) ↔
      i ∈ B n ∧ goes_nowhere ds node2 i = true := fun i => List.mem_filter
  generalize ((B n).filter (goes_low ds node2)).reverse = Lo at a2 mlo
  generalize ((B n).filter (goes_high ds node2)).reverse = Hi at a3 mhi
  generalize (B n).filter (goes_nowhere ds node2) = No at a4b mno
  have hmem : ∀ k i, i ∈ (if k = n then [] else if k = st.heads.length then Lo
      else if k = st.heads.length + 1 then Hi else B k) →
      (k = st.heads.length ∧ i ∈ B n ∧ goes_low ds node2 i = true) ∨
      (k = st.heads.length + 1 ∧ i ∈ B n ∧ goes_high ds node2 i = true) ∨
      (k ≠ n ∧ k ≠ st.heads.length ∧ k ≠ st.heads.length + 1 ∧ i ∈ B k) := by
    intro k i hi
    by_cases hkn : k = n
    · rw [if_pos hkn] at hi
      cases hi
    · rw [if_neg hkn] at hi
      by_cases hkl : k = st.heads.length
      · rw [if_pos hkl] at hi
        exact Or.inl ⟨hkl, (mlo i).mp hi⟩
      · rw [if_neg hkl] at hi
        by_cases hkh : k = st.heads.length + 1
        · rw [if_pos hkh] at hi
          exact Or.inr (Or.inl ⟨hkh, (mhi i).mp hi⟩)
        · rw [if_neg hkh] at hi
          exact Or.inr (Or.inr ⟨hkn, hkl, hkh, hi⟩)
  refine ⟨⟨?_, ?_, ?_⟩, a5b, fun i hi => a7b i (fun hm => hi (b3 n i hm).1)⟩
  · rw [a6b]
    unfold split_node
    simp [h1]
  · unfold split_node
    simp only
    rw [a6b, h2]
    simp
  · refine ⟨fun k => if k = n then [] else if k = st.heads.length then Lo
      else if k = st.heads.length + 1 then Hi else B k, ?_, ?_, ?_, ?_, ?_, ?_⟩
    · intro k
      by_cases hkn : k = n
      · subst hkn
        simp only [if_pos]
        rw [a1]
        exact rfl
      · by_cases hkl : k = st.heads.length
        · subst hkl
          simp only [if_neg hkn, if_pos]
          exact a2
        · by_cases hkh : k = st.heads.length + 1
          · subst hkh
            simp only [if_neg hkn, if_neg hkl, if_pos]
            exact a3
          · simp only [if_neg hkn, if_neg hkl, if_neg hkh]
            rw [a8b k hkl hkh hkn]
            exact is_list_frame st.next st2.next (B k) _
              (fun i hi => a7b i (b5 k n hkn i hi)) (b1 k)
    · intro k nodek hk hleaf
      by_cases hkn : k = n
      · simp only [if_pos hkn]
      · rcases split_node_get_other M tree n k node nodek flt thr hkn hk with h3 | h3
        · have hklt : k < tree.nodes.length := (List.getElem?_eq_some_iff.mp h3).1
          have hkl : k ≠ st.heads.length := by omega
          have hkh : k ≠ st.heads.length + 1 := by omega
          simp only [if_neg hkn, if_neg hkl, if_neg hkh]
          exact b2 k nodek h3 hleaf
        · rw [h3] at hleaf
          cases hleaf
    · intro k i hi
      rcases hmem k i hi with ⟨_, hiB, hg⟩ | ⟨_, hiB, hg⟩ | ⟨hkn, _, _, hiB⟩
      · refine ⟨(b3 n i hiB).1, ?_⟩
        rw [a4b, List.mem_append]
        rintro (hd | hd)
        · exact (b3 n i hiB).2 hd
        · exact (goes_excl ds node2 i).2.1 ⟨hg, ((mno i).mp hd).2⟩
      · refine ⟨(b3 n i hiB).1, ?_⟩
        rw [a4b, List.mem_append]
        rintro (hd | hd)
        · exact (b3 n i hiB).2 hd
        · exact (goes_excl ds node2 i).2.2 ⟨hg, ((mno i).mp hd).2⟩
      · refine ⟨(b3 k i hiB).1, ?_⟩
        rw [a4b, List.mem_append]
        rintro (hd | hd)
        · exact (b3 k i hiB).2 hd
        · exact b5 k n hkn i hiB ((mno i).mp hd).1
    · intro i hAi
      rcases b4 i hAi with hd | ⟨k, hk⟩
      · left
        rw [a4b]
        exact List.mem_append_left _ hd
      · by_cases hkn : k = n
        · subst hkn
          rcases goes_cases ds node2 i with ⟨g1, _, _⟩ | ⟨_, g2, _⟩ | ⟨_, _, g3⟩
          · left
            rw [a4b]
            exact List.mem_append_right _ ((mno i).mpr ⟨hk, g1⟩)
          · right
            refine ⟨st.heads.length + 1, ?_⟩
            beta_reduce
            rw [if_neg (fun e => hnh2 e.symm), if_neg (by omega), if_pos rfl]
            exact (mhi i).mpr ⟨hk, g2⟩
          · right
            refine ⟨st.heads.length, ?_⟩
            beta_reduce
            rw [if_neg (fun e => hnl2 e.symm), if_pos rfl]
            exact (mlo i).mpr ⟨hk, g3⟩
        · right
          refine ⟨k, ?_⟩
          have hkl : k ≠ st.heads.length := fun e => by
            rw [e, hBl] at hk
            cases hk
          have hkh : k ≠ st.heads.length + 1 := fun e => by
            rw [e, hBh] at hk
            cases hk
          beta_reduce
          rw [if_neg hkn, if_neg hkl, if_neg hkh]
          exact hk
    · intro k k2 hkk i hi hi2
      rcases hmem k i hi with ⟨e1, hiB, hg⟩ | ⟨e1, hiB, hg⟩ | ⟨hkn, hkl, hkh, hiB⟩ <;>
        rcases hmem k2 i hi2 with ⟨e2, hiB2, hg2⟩ | ⟨e2, hiB2, hg2⟩ | ⟨hkn2, hkl2, hkh2, hiB2⟩
      · exact hkk (e1.trans e2.symm)
      · exact (goes_excl ds node2 i).1 ⟨hg, hg2⟩
      · exact b5 k2 n hkn2 i hiB2 hiB
      · exact (goes_excl ds node2 i).1 ⟨hg2, hg⟩
      · exact hkk (e1.trans e2.symm)
      · exact b5 k2 n hkn2 i hiB2 hiB
      · exact b5 k n hkn i hiB hiB2
      · exact b5 k n hkn i hiB hiB2
      · exact b5 k k2 hkk i hiB hiB2
    · intro i hi
      rw [a4b, List.mem_append] at hi
      rcases hi with hd | hd
      · exact b6 i hd
      · exact (b3 n i ((mno i).mp hd).1).1

theorem tc_grow_tree_cases (M : FloatOps) (search : List Nat → Option (tc_filter × Int))
    (ds : tc_dataset) (tree tree2 : tc_tree M.F) (st st2 : NodeLinks)
    (h : tc_grow_tree M search ds tree st = some (GrowOutcome.grown tree2 st2)) :
    ∃ n node, tree.nodes[n]? = some node ∧
      ((tree2 = { tree with nodes := tree.nodes.set n { node with expandable := 0 } } ∧
          st2 = st) ∨
        ∃ flt thr, tree2 = split_node M tree n node flt thr ∧
          tc_propagate_node ds (split_node M tree n node flt thr) n
            { st with heads := st.heads ++ [none, none] } = some st2) := by
  unfold tc_grow_tree at h
  split at h
  · cases h
  · split at h
    · cases h
    · cases h
    · rename_i n _
      split at h
      · rename_i node subset hnode _
        split at h
        · injection h with h
          injection h with h1 h2
          exact ⟨n, node, hnode, Or.inl ⟨h1.symm, h2.symm⟩⟩
        · rename_i flt thr _
          cases hp : tc_propagate_node ds (split_node M tree n node flt thr) n
              { st with heads := st.heads ++ [none, none] } with
          | none =>
            rw [hp] at h
            cases h
          | some st3 =>
            rw [hp] at h
            injection h with h
            injection h with h1 h2
            exact ⟨n, node, hnode, Or.inr ⟨flt, thr, h1.symm, h2 ▸ hp⟩⟩
      · cases h

/-- The body of the loop of `tc_grow` keeps the buckets of its tree as
`tree_inv` says and changes the links of the data of this tree only. -/
theorem tc_grow_tree_inv (M : FloatOps) (search : List Nat → Option (tc_filter × Int))
    (ds : tc_dataset) (tree tree2 : tc_tree M.F) (st st2 : NodeLinks) (A : Nat → Prop)
    (hA : ∀ i, A i → i < st.next.length ∧ datum_ok ds i = true)
    (hinv : tree_inv st.next st.heads st.dropped tree A)
    (h : tc_grow_tree M search ds tree st = some (GrowOutcome.grown tree2 st2)) :
    tree_inv st2.next st2.heads st2.dropped tree2 A ∧
    st2.next.length = st.next.length ∧
    ∀ i, ¬ A i → st2.next.getD i none = st.next.getD i none := by
  obtain ⟨n, node, hnode, ⟨e1, e2⟩ | ⟨flt, thr, e1, e2⟩⟩ :=
    tc_grow_tree_cases M search ds tree tree2 st st2 h
  · subst e1 e2
    exact ⟨tree_inv_unexpandable _ _ _ tree A n node hnode hinv, rfl, fun _ _ => rfl⟩
  · subst e1
    exact tree_inv_split M ds tree n node flt thr st st2 A hnode hA hinv e2

theorem getElem?_set_cases {α : Type} (l : List α) (t k : Nat) (v x : α)
    (h : (l.set t v)[k]? = some x) : (k = t ∧ x = v) ∨ (k ≠ t ∧ l[k]? = some x) := by
  rw [List.getElem?_set] at h
  by_cases e : t = k
  · rw [if_pos e] at h
    split at h
    · exact Or.inl ⟨e.symm, (Option.some.inj h).symm⟩
    · cases h
  · rw [if_neg e] at h
    exact Or.inr ⟨fun e2 => e e2.symm, h⟩

/-- One step of the loop of `tc_grow` keeps `train_inv`. -/
theorem train_inv_grown (M : FloatOps) (rnd : ℚ → ℚ) (ds : tc_dataset)
    (search : List Nat → Option (tc_filter × Int)) (s : TrainState M.F) (t : Nat)
    (tree tree2 : tc_tree M.F) (hd : List (Option Nat)) (dr : List Nat) (st2 : NodeLinks)
    (hds : ∀ i, i < ds.ndata.toNat → datum_ok ds i = true)
    (hinv : train_inv rnd ds s)
    (ht : s.forest.trees[t]? = some tree) (hh : s.heads[t]? = some hd)
    (hdr : s.dropped[t]? = some dr)
    (hg : tc_grow_tree M search ds tree { next := s.next, heads := hd, dropped := dr } =
      some (GrowOutcome.grown tree2 st2)) :
    train_inv rnd ds
      { forest := { s.forest with trees := s.forest.trees.set t tree2 },
        next := st2.next, heads := s.heads.set t st2.heads,
        dropped := s.dropped.set t st2.dropped } := by
  obtain ⟨i1, i2, i3, i4, i5⟩ := hinv
  obtain ⟨g1, g2, g3⟩ := tc_grow_tree_inv M search ds tree tree2
    { next := s.next, heads := hd, dropped := dr } st2 (assigned rnd s.forest.ntrees ds t)
    (fun i hi => ⟨by show i < s.next.length; rw [i1]; exact hi.1, hds i hi.1⟩)
    (i5 t tree hd dr ht hh hdr) hg
  refine ⟨g2.trans i1, by simpa using i2, by simpa using i3, by simpa using i4, ?_⟩
  intro t2 tree3 hd3 dr3 ht3 hh3 hdr3
  rcases getElem?_set_cases _ _ _ _ _ ht3 with ⟨e1, e2⟩ | ⟨e1, e2⟩
  · subst e1
    rcases getElem?_set_cases _ _ _ _ _ hh3 with ⟨_, e3⟩ | ⟨e3, _⟩
    · rcases getElem?_set_cases _ _ _ _ _ hdr3 with ⟨_, e4⟩ | ⟨e4, _⟩
      · rw [e2, e3, e4]
        exact g1
      · exact absurd rfl e4
    · exact absurd rfl e3
  · rcases getElem?_set_cases _ _ _ _ _ hh3 with ⟨e3, _⟩ | ⟨_, e3⟩
    · exact absurd e3 e1
    · rcases getElem?_set_cases _ _ _ _ _ hdr3 with ⟨e4, _⟩ | ⟨_, e4⟩
      · exact absurd e4 e1
      · refine tree_inv_frame s.next st2.next hd3 dr3 tree3 _ ?_ (i5 t2 tree3 hd3 dr3 e2 e3 e4)
        intro i hi
        refine g3 i (fun hi2 => e1 ?_)
        have := hi.2.symm.trans hi2.2
        exact_mod_cast this

theorem grow_loop_inv (M : FloatOps) (rnd : ℚ → ℚ) (ds : tc_dataset)
    (search : Nat → List Nat → Option (tc_filter × Int))
    (hds : ∀ i, i < ds.ndata.toNat → datum_ok ds i = true) :
    ∀ (k t : Nat) (s : TrainState M.F) (r : Int × TrainState M.F),
      train_inv rnd ds s → grow_loop M search ds k t s = some r → train_inv rnd ds r.2 := by
  intro k
  induction k with
  | zero =>
    intro t s r hinv h
    cases h
    exact hinv
  | succ k ih =>
    intro t s r hinv h
    unfold grow_loop at h
    split at h
    · rename_i tree hd dr ht hh hdr
      split at h
      · cases h
      · exact ih (t + 1) s r hinv h
      · cases h
        exact hinv
      · rename_i tree2 st2 hg
        exact ih (t + 1) _ r
          (train_inv_grown M rnd ds (search t) s t tree tree2 hd dr st2 hds hinv ht hh hdr hg) h
    · cases h

theorem tc_grow_inv (M : FloatOps) (rnd : ℚ → ℚ) (ds : tc_dataset)
    (search : Nat → List Nat → Option (tc_filter × Int))
    (hds : ∀ i, i < ds.ndata.toNat → datum_ok ds i = true)
    (s : TrainState M.F) (r : Int × TrainState M.F)
    (hinv : train_inv rnd ds s) (h : tc_grow M search ds s = some r) : train_inv rnd ds r.2 :=
  grow_loop_inv M rnd ds search hds _ 0 s r hinv h

theorem assign_step_none {F : Type} (rnd : ℚ → ℚ) (ntrees ndata : Int) (l : List Nat) :
    l.foldl (assign_step rnd ntrees ndata) (none : Option (TrainState F)) = none := by
  induction l with
  | nil => rfl
  | cons i l ih => exact ih

/-- The first loop of `tc_assign_evenly` after `j` iterations: the root of
tree `t` holds the data below `j` whose tree is `t`. -/
theorem assign_loop_inv {F : Type} (rnd : ℚ → ℚ) (ds : tc_dataset) (s0 : TrainState F)
    (hnext : s0.next.length = ds.ndata.toNat)
    (hheads : ∀ (t : Nat) (hd : List (Option Nat)), s0.heads[t]? = some hd → hd = [none]) :
    ∀ (j : Nat) (s : TrainState F), j ≤ ds.ndata.toNat →
      (List.range j).foldl (assign_step rnd s0.forest.ntrees ds.ndata) (some s0) = some s →
      s.forest = s0.forest ∧ s.next.length = ds.ndata.toNat ∧
      s.heads.length = s0.heads.length ∧ s.dropped = s0.dropped ∧
      ∀ (t : Nat) (hd : List (Option Nat)), s.heads[t]? = some hd → ∃ L, hd.length = 1 ∧
        is_list s.next (hd.getD 0 none) L ∧
        ∀ i, i ∈ L ↔ (i < j ∧ assign_index rnd s0.forest.ntrees ds.ndata i = (t : Int)) := by
  intro j
  induction j with
  | zero =>
    intro s _ h
    cases h
    refine ⟨rfl, hnext, rfl, rfl, fun t hd hh => ⟨[], ?_, ?_, ?_⟩⟩
    · rw [hheads t hd hh]
      rfl
    · rw [hheads t hd hh]
      exact rfl
    · intro i
      simp
  | succ j ih =>
    intro s hj h
    rw [List.range_succ, List.foldl_append] at h
    cases hs : (List.range j).foldl (assign_step rnd s0.forest.ntrees ds.ndata) (some s0) with
    | none =>
      rw [hs] at h
      cases h
    | some s1 =>
      rw [hs] at h
      obtain ⟨c1, c2, c3, c4, c5⟩ := ih s1 (by omega) hs
      simp only [List.foldl_cons, List.foldl_nil] at h
      unfold assign_step at h
      simp only at h
      split at h
      · cases h
      · rename_i hcond
        split at h
        · cases h
        · rename_i hd0 hhd0
          cases h
          have ha0 : 0 ≤ assign_index rnd s0.forest.ntrees ds.ndata j := by omega
          have hjn : j < s1.next.length := by omega
          obtain ⟨L0, l1, l2, l3⟩ := c5 _ hd0 hhd0
          have hjL : ∀ (t : Nat) (hd : List (Option Nat)) (L : List Nat), (∀ i, i ∈ L ↔ (i < j ∧
              assign_index rnd s0.forest.ntrees ds.ndata i = (t : Int))) → j ∉ L :=
            fun t hd L hL hm => absurd ((hL j).mp hm).1 (lt_irrefl _)
          refine ⟨c1, by simpa using c2, by simpa using c3, c4, ?_⟩
          intro t hd hh
          rcases getElem?_set_cases _ _ _ _ _ hh with ⟨e1, e2⟩ | ⟨e1, e2⟩
          · refine ⟨j :: L0, by rw [e2]; simpa using l1, ?_, ?_⟩
            · rw [e2]
              have : (hd0.set 0 (some j)).getD 0 none = some j := by
                rw [getD_set_eq _ _ _ _ _ (by omega), if_pos rfl]
              rw [this]
              exact is_list_push s1.next j _ L0 (hjL _ hd0 L0 l3) hjn l2
            · intro i
              rw [List.mem_cons, l3 i, e1, Int.toNat_of_nonneg ha0]
              constructor
              · rintro (e | ⟨h1, h2⟩)
                · subst e
                  exact ⟨Nat.lt_succ_self _, rfl⟩
                · exact ⟨Nat.lt_succ_of_lt h1, h2⟩
              · rintro ⟨h1, h2⟩
                rcases Nat.lt_succ_iff_lt_or_eq.mp h1 with h3 | h3
                · exact Or.inr ⟨h3, h2⟩
                · exact Or.inl h3
          · obtain ⟨L, m1, m2, m3⟩ := c5 t hd e2
            refine ⟨L, m1, is_list_set s1.next j _ L _ (hjL t hd L m3) m2, ?_⟩
            intro i
            rw [m3 i]
            constructor
            · rintro ⟨h1, h2⟩
              exact ⟨Nat.lt_succ_of_lt h1, h2⟩
            · rintro ⟨h1, h2⟩
              rcases Nat.lt_succ_iff_lt_or_eq.mp h1 with h3 | h3
              · exact ⟨h3, h2⟩
              · exfalso
                subst h3
                apply e1
                rw [h2]
                rfl

/-- After `tc_assign_evenly` on the forest of `tc_init_forest` the buckets are
as `train_inv` says. -/
theorem tc_assign_evenly_inv (M : FloatOps) (rnd : ℚ → ℚ) (ds : tc_dataset)
    (ntrees filterset nclasses winsize : Int) (forest : tc_forest M.F)
    (next0 : List (Option Nat)) (s : TrainState M.F)
    (hinit : tc_init_forest M ntrees filterset nclasses winsize = some forest)
    (hnext : next0.length = ds.ndata.toNat)
    (h : tc_assign_evenly rnd ds (train_start forest next0) = some s) :
    train_inv rnd ds s := by
  unfold tc_init_forest at hinit
  split at hinit
  · cases hinit
  rename_i hnt
  injection hinit with hinit
  have htrees : forest.trees = List.replicate ntrees.toNat (tc_init_tree M) := by
    rw [← hinit]
  have hntrees : forest.ntrees = ntrees := by
    rw [← hinit]
  unfold tc_assign_evenly at h
  split at h
  · cases h
  rename_i s2 hfold
  split at h
  · cases h
    obtain ⟨c1, c2, c3, c4, c5⟩ := assign_loop_inv rnd ds (train_start forest next0) hnext
      (fun t hd hh => by
        have hm := List.getElem?_mem hh
        unfold train_start at hm
        simp only [List.mem_map] at hm
        obtain ⟨_, _, e⟩ := hm
        exact e.symm)
      ds.ndata.toNat s (le_refl _) hfold
    have d1 : s.forest = forest := c1
    have d3 : s.heads.length = forest.trees.length := by
      rw [c3]
      unfold train_start
      simp
    have d4 : s.dropped = forest.trees.map fun _ => [] := c4
    refine ⟨c2, ?_, ?_, ?_, ?_⟩
    · rw [d1, hntrees, htrees, List.length_replicate]
      omega
    · rw [d1]
      exact d3
    · rw [d4, d1]
      simp
    · intro t tree hd dr ht hh hdr
      rw [d1] at ht
      have htree : tree = tc_init_tree M := by
        have hm := List.getElem?_mem ht
        rw [htrees] at hm
        exact (List.mem_replicate.mp hm).2
      have hdr0 : dr = [] := by
        have hm := List.getElem?_mem hdr
        rw [d4] at hm
        simp only [List.mem_map] at hm
        obtain ⟨_, _, e⟩ := hm
        exact e.symm
      obtain ⟨L, l1, l2, l3⟩ := c5 t hd hh
      have l3b : ∀ i, i ∈ L ↔ (i < ds.ndata.toNat ∧
          assign_index rnd forest.ntrees ds.ndata i = (t : Int)) := l3
      subst htree hdr0
      rw [d1]
      refine ⟨l1.symm, by rw [l1]; rfl, fun k => if k = 0 then L else [], ?_, ?_, ?_, ?_, ?_, ?_⟩
      · intro k
        by_cases hk : k = 0
        · subst hk
          exact l2
        · beta_reduce
          rw [if_neg hk, List.getD_eq_default _ _ (by omega)]
          exact rfl
      · intro k node hk hleaf
        have hm := List.getElem?_mem hk
        have hnode : node = tc_init_node M := by
          simpa [tc_init_tree] using hm
        rw [hnode] at hleaf
        cases hleaf
      · intro k i hi
        beta_reduce at hi
        by_cases hk : k = 0
        · rw [if_pos hk] at hi
          exact ⟨(l3b i).mp hi, List.not_mem_nil _⟩
        · rw [if_neg hk] at hi
          cases hi
      · intro i hi
        exact Or.inr ⟨0, (l3b i).mpr hi⟩
      · intro k k2 hkk i hi hi2
        beta_reduce at hi hi2
        by_cases hk : k = 0
        · by_cases hk2 : k2 = 0
          · exact hkk (hk.trans hk2.symm)
          · rw [if_neg hk2] at hi2
            cases hi2
        · rw [if_neg hk] at hi
          cases hi
      · intro i hi
        cases hi
  · cases h

/-- Every memory state of the trainer has its buckets as `train_inv` says. -/
theorem trained_inv (M : FloatOps) (rnd : ℚ → ℚ) (ds : tc_dataset) (s : TrainState M.F)
    (hds : ∀ i, i < ds.ndata.toNat → datum_ok ds i = true) (h : Trained M rnd ds s) :
    train_inv rnd ds s := by
  induction h with
  | start ntrees filterset nclasses winsize forest next0 s hinit hnext hassign =>
    exact tc_assign_evenly_inv M rnd ds ntrees filterset nclasses winsize forest next0 s
      hinit hnext hassign
  | grow s s2 search status _ hgrow ih =>
    exact tc_grow_inv M rnd ds search hds s (status, s2) ih hgrow

theorem bucket_of_outside {F : Type} (s : TrainState F) (t k : Nat)
    (ht : s.heads.length ≤ t) :
    tc_bucket s.next (s.next.length + 1) ((s.heads.getD t []).getD k none) = some [] := by
  rw [List.getD_eq_default _ _ ht]
  rfl

/-- The buckets that the size loops walk are the lists of `tree_inv`. -/
theorem bucket_of_inside {F : Type} (rnd : ℚ → ℚ) (ds : tc_dataset) (s : TrainState F)
    (hinv : train_inv rnd ds s) (t : Nat) (ht : t < s.forest.trees.length) :
    ∃ (tree : tc_tree F) (dr : List Nat) (B : Nat → List Nat),
      s.forest.trees[t]? = some tree ∧ s.dropped.getD t [] = dr ∧
      (∀ k, tc_bucket s.next (s.next.length + 1) ((s.heads.getD t []).getD k none) =
        some (B k)) ∧
      (∀ k, (B k).Nodup) ∧
      (∀ k node, tree.nodes[k]? = some node → tc_isleaf node = false → B k = []) ∧
      (∀ k, ∀ i ∈ B k, assigned rnd s.forest.ntrees ds t i ∧ i ∉ dr) ∧
      (∀ i, assigned rnd s.forest.ntrees ds t i → i ∈ dr ∨ ∃ k, i ∈ B k) ∧
      (∀ k k2, k ≠ k2 → ∀ i ∈ B k, i ∉ B k2) ∧
      (∀ i ∈ dr, assigned rnd s.forest.ntrees ds t i) := by
  obtain ⟨i1, i2, i3, i4, i5⟩ := hinv
  have e1 : s.forest.trees[t]? = some s.forest.trees[t] := List.getElem?_eq_getElem ht
  have e2 : s.heads[t]? = some (s.heads.get ⟨t, by omega⟩) := List.getElem?_eq_getElem _
  have e3 : s.dropped[t]? = some (s.dropped.get ⟨t, by omega⟩) := List.getElem?_eq_getElem _
  obtain ⟨_, _, B, b1, b2, b3, b4, b5, b6⟩ := i5 t _ _ _ e1 e2 e3
  have g2 : s.heads.getD t [] = s.heads.get ⟨t, by omega⟩ := by
    rw [List.getD_eq_getElem?_getD, e2]
    rfl
  have g3 : s.dropped.getD t [] = s.dropped.get ⟨t, by omega⟩ := by
    rw [List.getD_eq_getElem?_getD, e3]
    rfl
  refine ⟨_, _, B, e1, g3, ?_, fun k => is_list_nodup _ _ _ (b1 k), b2, b3, b4, b5, b6⟩
  intro k
  rw [g2]
  refine tc_bucket_of_is_list _ _ _ _ (b1 k) (Nat.le_succ_of_le ?_)
  refine nodup_length_le _ _ (is_list_nodup _ _ _ (b1 k)) (fun i hi => ?_)
  rw [i1]
  exact (b3 k i hi).1.1

theorem exAssigned_trained : Trained ratOps id exForty exAssigned :=
  @Trained.start ratOps id exForty 1 TC_FILTERSET_POINTS 3 61 exOneTree (List.replicate 40 none)
    exAssigned (by with_unfolding_all rfl) (by with_unfolding_all rfl)
    (by
      set_option maxRecDepth 100000 in
      with_unfolding_all rfl)

theorem exGrownState_grow :
    tc_grow ratOps (fun _ => exSearch) exForty exAssigned = some (OK, exGrownState) := by
  set_option maxRecDepth 100000 in
  with_unfolding_all rfl

theorem exGrownState_trained : Trained ratOps id exForty exGrownState :=
  Trained.grow exAssigned exGrownState (fun _ => exSearch) OK exAssigned_trained
    exGrownState_grow

theorem exForty_ok : ∀ i, i < exForty.ndata.toNat → datum_ok exForty i = true := by
  set_option maxRecDepth 100000 in
  with_unfolding_all decide

theorem exGrownState_buckets :
    (exGrownState.forest.trees.map fun t => t.nnodes) = [3] ∧
    bucket_of exGrownState 0 0 = [] ∧
    bucket_of exGrownState 0 1 = List.range 20 ∧
    bucket_of exGrownState 0 2 = (List.range 19).map (fun i => i + 20) ∧
    exGrownState.dropped = [[39]] := by
  set_option maxRecDepth 100000 in
  with_unfolding_all decide

/-- C18: in every memory state of the trainer, reached by `tc_assign_evenly`
on the forest of `tc_init_forest` and any number of passes of `tc_grow` over a
data set whose data name images of the set, the walk of every bucket ends and
finds distinct data; a datum is in at most one bucket over all nodes of all
trees; the bucket of a node with children is empty; the data in the buckets
of tree `t` are exactly the data that `tc_assign_evenly` put on `t` and that
were not dropped from `t`; and the data dropped from `t` are data put on `t`. -/
theorem training_buckets_disjoint (M : FloatOps) (rnd : ℚ → ℚ) (ds : tc_dataset)
    (s : TrainState M.F) (hds : ∀ i, i < ds.ndata.toNat → datum_ok ds i = true)
    (h : Trained M rnd ds s) :
    (∀ t k, tc_bucket s.next (s.next.length + 1) ((s.heads.getD t []).getD k none) =
        some (bucket_of s t k) ∧ (bucket_of s t k).Nodup) ∧
    (∀ t k t2 k2 i, i ∈ bucket_of s t k → i ∈ bucket_of s t2 k2 → t = t2 ∧ k = k2) ∧
    (∀ t tree k node, s.forest.trees[t]? = some tree → tree.nodes[k]? = some node →
      tc_isleaf node = false → bucket_of s t k = []) ∧
    (∀ t i, t < s.forest.trees.length →
      ((∃ k, i ∈ bucket_of s t k) ↔
        (assigned rnd s.forest.ntrees ds t i ∧ i ∉ s.dropped.getD t []))) ∧
    (∀ t i, t < s.forest.trees.length → i ∈ s.dropped.getD t [] →
      assigned rnd s.forest.ntrees ds t i) := by
  have hinv := trained_inv M rnd ds s hds h
  have hlen : s.heads.length = s.forest.trees.length := hinv.2.2.1
  have hB : ∀ t, t < s.forest.trees.length →
      ∃ (tree : tc_tree M.F) (B : Nat → List Nat),
        s.forest.trees[t]? = some tree ∧
        (∀ k, tc_bucket s.next (s.next.length + 1) ((s.heads.getD t []).getD k none) =
          some (B k)) ∧
        (∀ k, bucket_of s t k = B k) ∧
        (∀ k, (B k).Nodup) ∧
        (∀ k node, tree.nodes[k]? = some node → tc_isleaf node = false → B k = []) ∧
        (∀ k, ∀ i ∈ B k, assigned rnd s.forest.ntrees ds t i ∧ i ∉ s.dropped.getD t []) ∧
        (∀ i, assigned rnd s.forest.ntrees ds t i →
          i ∈ s.dropped.getD t [] ∨ ∃ k, i ∈ B k) ∧
        (∀ k k2, k ≠ k2 → ∀ i ∈ B k, i ∉ B k2) ∧
        (∀ i ∈ s.dropped.getD t [], assigned rnd s.forest.ntrees ds t i) := by
    intro t ht
    obtain ⟨tree, dr, B, e1, e2, b0, b1, b2, b3, b4, b5, b6⟩ :=
      bucket_of_inside rnd ds s hinv t ht
    subst e2
    refine ⟨tree, B, e1, b0, fun k => ?_, b1, b2, b3, b4, b5, b6⟩
    unfold bucket_of
    rw [b0 k]
    rfl
  have hout : ∀ t k, ¬ t < s.forest.trees.length → bucket_of s t k = [] := by
    intro t k ht
    unfold bucket_of
    rw [bucket_of_outside s t k (by omega)]
    rfl
  refine ⟨?_, ?_, ?_, ?_, ?_⟩
  · intro t k
    by_cases ht : t < s.forest.trees.length
    · obtain ⟨_, B, _, b0, bo, b1, _⟩ := hB t ht
      rw [bo k]
      exact ⟨b0 k, b1 k⟩
    · rw [hout t k ht]
      exact ⟨bucket_of_outside s t k (by omega), List.nodup_nil⟩
  · intro t k t2 k2 i hi hi2
    by_cases ht : t < s.forest.trees.length
    · by_cases ht2 : t2 < s.forest.trees.length
      · obtain ⟨_, B, _, _, bo, _, _, b3, _, b5, _⟩ := hB t ht
        obtain ⟨_, B2, _, _, bo2, _, _, c3, _, _, _⟩ := hB t2 ht2
        rw [bo k] at hi
        rw [bo2 k2] at hi2
        have a1 := (b3 k i hi).1.2
        have a2 := (c3 k2 i hi2).1.2
        have e : t = t2 := by
          have := a1.symm.trans a2
          exact_mod_cast this
        subst e
        refine ⟨rfl, ?_⟩
        by_contra hk
        rw [← bo k] at hi
        rw [← bo2 k2] at hi2
        rw [bo k] at hi
        rw [bo k2] at hi2
        exact b5 k k2 hk i hi hi2
      · rw [hout t2 k2 ht2] at hi2
        cases hi2
    · rw [hout t k ht] at hi
      cases hi
  · intro t tree k node ht hk hleaf
    have htl : t < s.forest.trees.length := (List.getElem?_eq_some_iff.mp ht).1
    obtain ⟨tree2, B, e1, _, bo, _, b2, _⟩ := hB t htl
    rw [ht] at e1
    cases e1
    rw [bo k]
    exact b2 k node hk hleaf
  · intro t i ht
    obtain ⟨_, B, _, _, bo, _, _, b3, b4, _, _⟩ := hB t ht
    constructor
    · rintro ⟨k, hk⟩
      rw [bo k] at hk
      exact b3 k i hk
    · rintro ⟨ha, hd⟩
      rcases b4 i ha with hd2 | ⟨k, hk⟩
      · exact absurd hd2 hd
      · exact ⟨k, by rw [bo k]; exact hk⟩
  · intro t i ht hi
    obtain ⟨_, B, _, _, _, _, _, _, _, _, b6⟩ := hB t ht
    exact b6 i hi

/-- C18, evaluated on the memory after `tc_assign_evenly` and one pass of
`tc_grow` on the forty data of `exForty` and one tree. -/
theorem training_buckets_disjoint_witness :
    (∀ t k, tc_bucket exGrownState.next (exGrownState.next.length + 1) ((exGrownState.heads.getD t []).getD k none) =
        some (bucket_of exGrownState t k) ∧ (bucket_of exGrownState t k).Nodup) ∧
    (∀ t k t2 k2 i, i ∈ bucket_of exGrownState t k → i ∈ bucket_of exGrownState t2 k2 → t = t2 ∧ k = k2) ∧
    (∀ t tree k node, exGrownState.forest.trees[t]? = some tree → tree.nodes[k]? = some node →
      tc_isleaf node = false → bucket_of exGrownState t k = []) ∧
    (∀ t i, t < exGrownState.forest.trees.length →
      ((∃ k, i ∈ bucket_of exGrownState t k) ↔
        (assigned id exGrownState.forest.ntrees exForty t i ∧ i ∉ exGrownState.dropped.getD t []))) ∧
    (∀ t i, t < exGrownState.forest.trees.length → i ∈ exGrownState.dropped.getD t [] →
      assigned id exGrownState.forest.ntrees exForty t i) :=
  training_buckets_disjoint ratOps id exForty exGrownState exForty_ok exGrownState_trained

/-! ## Theorems: the split search -/

/-- The trainer is not valid, or its filter is one of `cands` and its threshold
is that of an index for which the two totals of the search reached the
minimum. -/
theorem search_threshold_inv (sc : ScoreOps) (rnd : ℚ → ℚ) (nclasses : Nat)
    (candidate : tc_filter) (accum : List (List ℚ)) (P : tc_filter → Int → Prop)
    (hP : ∀ t : Nat, 1 ≤ t → t ≤ 510 →
      ¬ ((lowdist_class_cnts accum nclasses t).sum < TC_TRAIN_MIN_SPLIT ∨
        (highdist_class_cnts rnd accum nclasses t).sum < TC_TRAIN_MIN_SPLIT) →
      P candidate (index_to_threshold (t : Int) MIN_THRESH)) :
    ∀ (ts : List Nat) (tr : tc_trainer sc.S), (∀ t ∈ ts, 1 ≤ t ∧ t ≤ 510) →
      (tr.valid ≠ 0 → P tr.best_filter tr.best_threshold) →
      ((ts.foldl (search_threshold_step sc rnd nclasses candidate accum) tr).valid ≠ 0 →
        P (ts.foldl (search_threshold_step sc rnd nclasses candidate accum) tr).best_filter
          (ts.foldl (search_threshold_step sc rnd nclasses candidate accum) tr).best_threshold) := by
  intro ts
  induction ts with
  | nil =>
    intro tr _ h
    exact h
  | cons t ts ih =>
    intro tr hts h
    rw [List.foldl_cons]
    refine ih _ (fun t2 ht2 => hts t2 (List.mem_cons_of_mem _ ht2)) ?_
    unfold search_threshold_step
    split
    · exact h
    · rename_i hc
      split
      · intro _
        exact hP t (hts t (List.mem_cons_self _ _)).1 (hts t (List.mem_cons_self _ _)).2 hc
      · exact h

theorem tc_split_search_inv (sc : ScoreOps) (rnd : ℚ → ℚ) (ds : tc_dataset) (L : List Nat) :
    ∀ (cands : List tc_filter) (tr : tc_trainer sc.S),
      (tr.valid ≠ 0 → ∃ t : Nat, 1 ≤ t ∧ t ≤ 510 ∧
        tr.best_threshold = index_to_threshold (t : Int) MIN_THRESH ∧
        TC_TRAIN_MIN_SPLIT ≤ total_low rnd ds tr.best_filter L t ∧
        TC_TRAIN_MIN_SPLIT ≤ total_high rnd ds tr.best_filter L t) →
      ((cands.foldl (search_candidate_step sc rnd ds L) tr).valid ≠ 0 → ∃ t : Nat,
        1 ≤ t ∧ t ≤ 510 ∧
        (cands.foldl (search_candidate_step sc rnd ds L) tr).best_threshold =
          index_to_threshold (t : Int) MIN_THRESH ∧
        TC_TRAIN_MIN_SPLIT ≤
          total_low rnd ds (cands.foldl (search_candidate_step sc rnd ds L) tr).best_filter L t ∧
        TC_TRAIN_MIN_SPLIT ≤
          total_high rnd ds (cands.foldl (search_candidate_step sc rnd ds L) tr).best_filter
            L t) := by
  intro cands
  induction cands with
  | nil =>
    intro tr h
    exact h
  | cons cand cands ih =>
    intro tr h
    rw [List.foldl_cons]
    refine ih _ ?_
    unfold search_candidate_step
    refine search_threshold_inv sc rnd ds.nclasses.toNat cand (accum_counts rnd ds cand L)
      (fun flt thr => ∃ t : Nat, 1 ≤ t ∧ t ≤ 510 ∧ thr = index_to_threshold (t : Int) MIN_THRESH ∧
        TC_TRAIN_MIN_SPLIT ≤ total_low rnd ds flt L t ∧
        TC_TRAIN_MIN_SPLIT ≤ total_high rnd ds flt L t) ?_ _ tr ?_ h
    · intro t h1 h2 hc
      refine ⟨t, h1, h2, rfl, ?_, ?_⟩
      · unfold total_low
        omega
      · unfold total_high
        omega
    · intro t ht
      rw [List.mem_range'_1] at ht
      have : N_THRESH.toNat = 512 := rfl
      omega

/-- A split that the search returns has passed the test of the two totals. -/
theorem tc_search_checked (sc : ScoreOps) (rnd : ℚ → ℚ) (ds : tc_dataset)
    (candidates : List (List tc_filter)) (L : List Nat) (flt : tc_filter) (thr : Int)
    (h : tc_search sc rnd ds candidates L = some (flt, thr)) :
    ∃ t : Nat, 1 ≤ t ∧ t ≤ 510 ∧ thr = index_to_threshold (t : Int) MIN_THRESH ∧
      TC_TRAIN_MIN_SPLIT ≤ total_low rnd ds flt L t ∧
      TC_TRAIN_MIN_SPLIT ≤ total_high rnd ds flt L t := by
  unfold tc_search at h
  split at h
  · cases h
  · rename_i w hw
    split at h
    · cases h
    · rename_i hv
      injection h with h
      injection h with h1 h2
      have hm := List.getElem?_mem hw
      rw [List.mem_map] at hm
      obtain ⟨cands, _, e⟩ := hm
      have := tc_split_search_inv sc rnd ds L cands (tc_init_trainer sc)
        (fun hv0 => absurd rfl hv0)
      unfold tc_split_search at e
      rw [e] at this
      rw [← h1, ← h2]
      exact this hv

theorem float_to_int_floor (x : ℚ) (hx : 0 ≤ x) : float_to_int x = ⌊x⌋ := by
  unfold float_to_int
  rw [Rat.floor_def, Int.tdiv_eq_ediv (Rat.num_nonneg.mpr hx) (Int.ofNat_nonneg _)]

theorem float_to_int_le (x : ℚ) (hx : 0 ≤ x) : ((float_to_int x : Int) : ℚ) ≤ x := by
  rw [float_to_int_floor x hx]
  exact Int.floor_le x

theorem float_to_int_gt (x : ℚ) (hx : 0 ≤ x) : x < ((float_to_int x : Int) : ℚ) + 1 := by
  rw [float_to_int_floor x hx]
  exact Int.lt_floor_add_one x

theorem float_to_int_nonneg (x : ℚ) (hx : 0 ≤ x) : 0 ≤ float_to_int x := by
  rw [float_to_int_floor x hx]
  exact Int.floor_nonneg.mpr hx

/-- Summing over the keys below `n` the masses of the entries with that key
gives the masses of the entries with a key below `n`. -/
theorem sum_by_key {α : Type} (key : α → Nat) (P : α → Prop) [DecidablePred P] (f : α → ℚ)
    (n : Nat) (E : List α) :
    ((List.range n).map fun k => (E.map fun e => if key e = k ∧ P e then f e else 0).sum).sum =
      (E.map fun e => if key e < n ∧ P e then f e else 0).sum := by
  induction E with
  | nil => simp
  | cons e E ih =>
    simp only [List.map_cons, List.sum_cons]
    rw [List.sum_map_add, ih]
    congr 1
    clear ih
    induction n with
    | zero => simp
    | succ n ihn =>
      rw [List.range_succ, List.map_append, List.sum_append, ihn]
      simp only [List.map_cons, List.map_nil, List.sum_cons, List.sum_nil, add_zero]
      by_cases hP : P e
      · by_cases h1 : key e < n
        · have h2 : key e ≠ n := by omega
          have h3 : key e < n + 1 := by omega
          simp [h1, h2, h3, hP]
        · by_cases h2 : key e = n
          · have h3 : key e < n + 1 := by omega
            simp [h1, h2, hP]
          · have h3 : ¬ key e < n + 1 := by omega
            simp [h1, h2, h3, hP]
      · simp [hP]

theorem tally_filterMap (rnd : ℚ → ℚ) (ds : tc_dataset) (cand : tc_filter) :
    ∀ (L : List Nat) (counts : List (List ℚ)),
      L.foldl (search_tally_step rnd ds cand) counts =
        (L.filterMap (search_entry rnd ds cand)).foldl
          (fun cs e => counts_add rnd cs e.1 e.2.1 e.2.2) counts := by
  intro L
  induction L with
  | nil =>
    intro counts
    rfl
  | cons i L ih =>
    intro counts
    rw [List.foldl_cons, ih]
    unfold search_tally_step
    cases h : search_entry rnd ds cand i with
    | none => simp [List.filterMap_cons, h]
    | some e => simp [List.filterMap_cons, h]

/-- The counts are `n` rows of `N_THRESH` floats. -/
theorem counts_add_dims (counts : List (List ℚ)) (n l i : Nat) (m : ℚ)
    (h1 : counts.length = n) (h2 : ∀ c, c < n → (counts.getD c []).length = 512) :
    (counts_add id counts l i m).length = n ∧
    ∀ c, c < n → ((counts_add id counts l i m).getD c []).length = 512 := by
  unfold counts_add
  refine ⟨by simpa using h1, fun c hc => ?_⟩
  by_cases hlc : c = l
  · subst hlc
    rw [getD_set_eq _ _ _ _ _ (by omega), if_pos rfl, List.length_set]
    exact h2 c hc
  · rw [getD_set_ne _ _ _ _ _ hlc]
    exact h2 c hc

theorem counts_add_getD (counts : List (List ℚ)) (n l i : Nat) (m : ℚ)
    (h1 : counts.length = n) (h2 : ∀ c, c < n → (counts.getD c []).length = 512)
    (c k : Nat) (hc : c < n) (hk : k < 512) :
    ((counts_add id counts l i m).getD c []).getD k 0 =
      (counts.getD c []).getD k 0 + if i = k ∧ l = c then m else 0 := by
  unfold counts_add
  by_cases hlc : c = l
  · subst hlc
    rw [getD_set_eq _ _ _ _ _ (by omega), if_pos rfl]
    by_cases hik : k = i
    · subst hik
      rw [getD_set_eq _ _ _ _ _ (by rw [h2 c hc]; exact hk), if_pos rfl]
      simp
    · rw [getD_set_ne _ _ _ _ _ hik]
      have : ¬ (i = k ∧ c = c) := fun h => hik h.1.symm
      rw [if_neg this, add_zero]
  · rw [getD_set_ne _ _ _ _ _ hlc]
    have : ¬ (i = k ∧ l = c) := fun h => hlc h.2.symm
    rw [if_neg this, add_zero]

theorem tally_getD (n : Nat) :
    ∀ (E : List (Nat × Nat × ℚ)) (counts : List (List ℚ)),
      counts.length = n → (∀ c, c < n → (counts.getD c []).length = 512) →
      ((E.foldl (fun cs e => counts_add id cs e.1 e.2.1 e.2.2) counts).length = n ∧
        ∀ c, c < n →
          ((E.foldl (fun cs e => counts_add id cs e.1 e.2.1 e.2.2) counts).getD c []).length =
            512) ∧
      ∀ c k, c < n → k < 512 →
        ((E.foldl (fun cs e => counts_add id cs e.1 e.2.1 e.2.2) counts).getD c []).getD k 0 =
          (counts.getD c []).getD k 0 +
            (E.map fun e => if e.2.1 = k ∧ e.1 = c then e.2.2 else 0).sum := by
  intro E
  induction E with
  | nil =>
    intro counts h1 h2
    exact ⟨⟨h1, h2⟩, fun c k _ _ => by simp⟩
  | cons e E ih =>
    intro counts h1 h2
    obtain ⟨d1, d2⟩ := counts_add_dims counts n e.1 e.2.1 e.2.2 h1 h2
    obtain ⟨i1, i2⟩ := ih _ d1 d2
    refine ⟨i1, fun c k hc hk => ?_⟩
    rw [List.foldl_cons, i2 c k hc hk, counts_add_getD counts n _ _ _ h1 h2 c k hc hk]
    simp only [List.map_cons, List.sum_cons]
    ring

theorem accumulate_getD :
    ∀ (xs : List ℚ) (acc : ℚ) (t : Nat), t < xs.length →
      (accumulate id acc xs).getD t 0 =
        acc + ((List.range (t + 1)).map fun k => xs.getD k 0).sum := by
  intro xs
  induction xs with
  | nil =>
    intro acc t ht
    cases ht
  | cons x xs ih =>
    intro acc t ht
    cases t with
    | zero =>
      have e : List.range (0 + 1) = [0] := rfl
      rw [e]
      simp [accumulate, add_comm]
    | succ t =>
      have ht2 : t < xs.length := by simpa using ht
      rw [List.range_succ_eq_map]
      simp only [accumulate, List.getD_cons_succ, List.map_cons, List.sum_cons, List.map_map,
        List.getD_cons_zero, id_eq]
      rw [ih (x + acc) t ht2]
      have : ((fun k => (x :: xs).getD k 0) ∘ Nat.succ) = fun k => xs.getD k 0 := by
        funext k
        simp
      rw [this]
      ring

theorem accum_row_getD (row : List ℚ) (t : Nat) (ht : t < row.length) :
    (accum_row id row).getD t 0 = ((List.range (t + 1)).map fun k => row.getD k 0).sum := by
  cases row with
  | nil => cases ht
  | cons x xs =>
    cases t with
    | zero =>
      have e : List.range (0 + 1) = [0] := rfl
      rw [e]
      simp [accum_row]
    | succ t =>
      have ht2 : t < xs.length := by simpa using ht
      rw [List.range_succ_eq_map]
      simp only [accum_row, List.getD_cons_succ, List.map_cons, List.sum_cons, List.map_map,
        List.getD_cons_zero]
      rw [accumulate_getD xs x t ht2]
      have : ((fun k => (x :: xs).getD k 0) ∘ Nat.succ) = fun k => xs.getD k 0 := by
        funext k
        simp
      rw [this]

theorem getD_replicate {α : Type} (n c : Nat) (x d : α) (hc : c < n) :
    (List.replicate n x).getD c d = x := by
  simp [List.getD_eq_getElem?_getD, List.getElem?_replicate, hc]

theorem getD_map_accum_row (counts : List (List ℚ)) (c : Nat) :
    (counts.map (accum_row id)).getD c [] = accum_row id (counts.getD c []) := by
  simp only [List.getD_eq_getElem?_getD, List.getElem?_map]
  cases counts[c]? with
  | none => rfl
  | some row => rfl

/-- In exact arithmetic the element `t` of the row of class `c` of
`accum_counts` is the mass of the data of class `c` whose result index is at
most `t`. -/
theorem accum_counts_getD (ds : tc_dataset) (cand : tc_filter) (L : List Nat) (c t : Nat)
    (hc : c < ds.nclasses.toNat) (ht : t < 512) :
    ((accum_counts id ds cand L).getD c []).getD t 0 =
      ((L.filterMap (search_entry id ds cand)).map
        fun e => if e.2.1 < t + 1 ∧ e.1 = c then e.2.2 else 0).sum := by
  unfold accum_counts
  rw [tally_filterMap, getD_map_accum_row]
  have h512 : N_THRESH.toNat = 512 := rfl
  rw [h512]
  have hrow : ∀ c, c < ds.nclasses.toNat →
      (List.replicate ds.nclasses.toNat (List.replicate 512 (0 : ℚ))).getD c [] =
        List.replicate 512 0 := by
    intro c hc
    exact getD_replicate _ _ _ _ hc
  obtain ⟨⟨_, d2⟩, d3⟩ := tally_getD ds.nclasses.toNat (L.filterMap (search_entry id ds cand))
    (List.replicate ds.nclasses.toNat (List.replicate 512 0)) (List.length_replicate _ _)
    (fun c hc => by rw [hrow c hc]; exact List.length_replicate _ _)
  rw [accum_row_getD _ t (by rw [d2 c hc]; exact ht)]
  rw [← sum_by_key (fun e : Nat × Nat × ℚ => e.2.1) (fun e => e.1 = c) (fun e => e.2.2)]
  congr 1
  refine List.map_congr_left (fun k hk => ?_)
  have hk2 : k < 512 := by
    have := List.mem_range.mp hk
    omega
  rw [d3 c k hc hk2, hrow c hc, getD_replicate _ _ _ _ hk2, zero_add]

theorem max_represented_nonneg (ds : tc_dataset) : 0 ≤ max_represented id ds := by
  unfold max_represented
  generalize List.range ds.nclasses.toNat = l
  have : ∀ (l : List Nat) (m : ℚ), 0 ≤ m →
      0 ≤ l.foldl (fun m i =>
        if id ((ds.represented.getD i 0 : Int) : ℚ) > m then
          id ((ds.represented.getD i 0 : Int) : ℚ)
        else m) m := by
    intro l
    induction l with
    | nil =>
      intro m hm
      exact hm
    | cons i l ih =>
      intro m hm
      rw [List.foldl_cons]
      refine ih _ ?_
      split
      · rename_i h
        exact le_of_lt (lt_of_le_of_lt hm h)
      · exact hm
  exact this l 0 (le_refl _)

/-- An entry of a datum with a valid label: the label is a class, the index is
below `N_THRESH` and the mass is not negative. -/
theorem search_entry_props (ds : tc_dataset) (cand : tc_filter) (i : Nat) (e : Nat × Nat × ℚ)
    (hlab : labels_ok ds) (h : search_entry id ds cand i = some e) :
    e.1 < ds.nclasses.toNat ∧ e.2.1 < 512 ∧ 0 ≤ e.2.2 := by
  unfold search_entry at h
  cases hd : ds.data[i]? with
  | none =>
    rw [hd] at h
    cases h
  | some d =>
    rw [hd] at h
    simp only at h
    obtain ⟨l1, l2, l3⟩ := hlab d (List.getElem?_mem hd)
    split at h
    · cases h
    · split at h
      · cases h
        refine ⟨by omega, ?_, ?_⟩
        · show (get_threshold_index _ MIN_THRESH N_THRESH).toNat < 512
          unfold get_threshold_index MIN_THRESH N_THRESH
          split <;> split <;> omega
        · show 0 ≤ mass_scale id ds d.label.toNat
          unfold mass_scale
          refine div_nonneg (max_represented_nonneg ds) ?_
          show (0 : ℚ) ≤ ((ds.represented.getD d.label.toNat 0 : Int) : ℚ)
          exact_mod_cast le_of_lt l3
      · cases h

theorem sum_filterMap {α β : Type} (g : α → Option β) (f : β → ℚ) (L : List α) :
    ((L.filterMap g).map f).sum =
      (L.map fun a => match g a with
        | some b => f b
        | none => 0).sum := by
  induction L with
  | nil => rfl
  | cons a L ih =>
    rw [List.filterMap_cons]
    cases h : g a with
    | none => simp [h, ih]
    | some b => simp [h, ih]

/-- For the indices the search visits, a result has an index at most `t`
exactly when it is at most the threshold of `t`. -/
theorem threshold_index_le (r : Int) (t : Nat) (h2 : t ≤ 510) :
    (get_threshold_index r MIN_THRESH N_THRESH).toNat < t + 1 ↔
      r ≤ index_to_threshold (t : Int) MIN_THRESH := by
  unfold get_threshold_index index_to_threshold MIN_THRESH N_THRESH
  split <;> split <;> omega

theorem side_mass_low (ds : tc_dataset) (flt : tc_filter) (t i : Nat) (h2 : t ≤ 510) :
    side_mass id ds flt (fun r => decide (r ≤ index_to_threshold (t : Int) MIN_THRESH)) i =
      match search_entry id ds flt i with
      | some e => if e.2.1 < t + 1 then e.2.2 else 0
      | none => 0 := by
  unfold side_mass search_entry
  cases ds.data[i]? with
  | none => rfl
  | some d =>
    simp only
    cases ds.images[d.image.toNat]? with
    | none => rfl
    | some image =>
      simp only
      by_cases hs : (tc_filter_pixel flt image d.r d.c 0).1 ≠ ERR
      · rw [if_pos hs]
        simp only
        by_cases hr : (tc_filter_pixel flt image d.r d.c 0).2 ≤
            index_to_threshold (t : Int) MIN_THRESH
        · rw [if_pos ⟨hs, by simpa using hr⟩, if_pos ((threshold_index_le _ t h2).mpr hr)]
        · rw [if_neg (fun h => hr (by simpa using h.2)),
            if_neg (fun h => hr ((threshold_index_le _ t h2).mp h))]
      · rw [if_neg hs, if_neg (fun h => hs h.1)]

theorem side_mass_high (ds : tc_dataset) (flt : tc_filter) (t i : Nat) (h2 : t ≤ 510) :
    side_mass id ds flt (fun r => decide (r > index_to_threshold (t : Int) MIN_THRESH)) i =
      match search_entry id ds flt i with
      | some e => if e.2.1 < t + 1 then 0 else e.2.2
      | none => 0 := by
  unfold side_mass search_entry
  cases ds.data[i]? with
  | none => rfl
  | some d =>
    simp only
    cases ds.images[d.image.toNat]? with
    | none => rfl
    | some image =>
      simp only
      by_cases hs : (tc_filter_pixel flt image d.r d.c 0).1 ≠ ERR
      · rw [if_pos hs]
        simp only
        by_cases hr : (tc_filter_pixel flt image d.r d.c 0).2 ≤
            index_to_threshold (t : Int) MIN_THRESH
        · rw [if_neg (fun h => by
            have := h.2
            simp only [decide_eq_true_eq] at this
            omega), if_pos ((threshold_index_le _ t h2).mpr hr)]
        · rw [if_pos ⟨hs, by simp only [decide_eq_true_eq]; omega⟩,
            if_neg (fun h => hr ((threshold_index_le _ t h2).mp h))]
      · rw [if_neg hs, if_neg (fun h => hs h.1)]

theorem weight_low_eq (ds : tc_dataset) (flt : tc_filter) (L : List Nat) (t : Nat)
    (h2 : t ≤ 510) :
    weight_low id ds flt (index_to_threshold (t : Int) MIN_THRESH) L =
      ((L.filterMap (search_entry id ds flt)).map
        fun e => if e.2.1 < t + 1 then e.2.2 else 0).sum := by
  unfold weight_low
  rw [sum_filterMap]
  congr 1
  refine List.map_congr_left (fun i _ => ?_)
  rw [side_mass_low ds flt t i h2]
  cases search_entry id ds flt i <;> rfl

theorem weight_high_eq (ds : tc_dataset) (flt : tc_filter) (L : List Nat) (t : Nat)
    (h2 : t ≤ 510) :
    weight_high id ds flt (index_to_threshold (t : Int) MIN_THRESH) L =
      ((L.filterMap (search_entry id ds flt)).map
        fun e => if e.2.1 < t + 1 then 0 else e.2.2).sum := by
  unfold weight_high
  rw [sum_filterMap]
  congr 1
  refine List.map_congr_left (fun i _ => ?_)
  rw [side_mass_high ds flt t i h2]
  cases search_entry id ds flt i <;> rfl

/-- Summed over the classes, the masses of the entries of one class with
property `P` are the masses of all entries with property `P`. -/
theorem sum_over_classes (n : Nat) (P : Nat × Nat × ℚ → Prop) [DecidablePred P]
    (E : List (Nat × Nat × ℚ)) (hE : ∀ e ∈ E, e.1 < n) :
    ((List.range n).map fun c => (E.map fun e => if P e ∧ e.1 = c then e.2.2 else 0).sum).sum =
      (E.map fun e => if P e then e.2.2 else 0).sum := by
  have h := sum_by_key (fun e : Nat × Nat × ℚ => e.1) P (fun e => e.2.2) n E
  have e1 : (fun c => (E.map fun e => if P e ∧ e.1 = c then e.2.2 else 0).sum) =
      fun c => (E.map fun e => if e.1 = c ∧ P e then e.2.2 else 0).sum := by
    funext c
    congr 1
    refine List.map_congr_left (fun e _ => ?_)
    by_cases h1 : P e <;> by_cases h2 : e.1 = c <;> simp [h1, h2]
  rw [e1, h]
  congr 1
  refine List.map_congr_left (fun e he => ?_)
  by_cases h1 : P e <;> simp [h1, hE e he]

theorem class_sum_nonneg (P : Nat × Nat × ℚ → Prop) [DecidablePred P]
    (E : List (Nat × Nat × ℚ)) (hE : ∀ e ∈ E, 0 ≤ e.2.2) :
    0 ≤ (E.map fun e => if P e then e.2.2 else 0).sum := by
  refine List.sum_nonneg (fun x hx => ?_)
  rw [List.mem_map] at hx
  obtain ⟨e, he, rfl⟩ := hx
  split
  · exact hE e he
  · exact le_refl _

theorem search_entries_props (ds : tc_dataset) (flt : tc_filter) (L : List Nat)
    (hlab : labels_ok ds) :
    ∀ e ∈ L.filterMap (search_entry id ds flt),
      e.1 < ds.nclasses.toNat ∧ e.2.1 < 512 ∧ 0 ≤ e.2.2 := by
  intro e he
  rw [List.mem_filterMap] at he
  obtain ⟨i, _, h⟩ := he
  exact search_entry_props ds flt i e hlab h

/-- In exact arithmetic the total `total_low` of the search is at most the
weight of the data with a result at most the threshold. -/
theorem total_low_le (ds : tc_dataset) (flt : tc_filter) (L : List Nat) (t : Nat)
    (hlab : labels_ok ds) (h2 : t ≤ 510) :
    ((total_low id ds flt L t : Int) : ℚ) ≤
      weight_low id ds flt (index_to_threshold (t : Int) MIN_THRESH) L := by
  have hE := search_entries_props ds flt L hlab
  rw [weight_low_eq ds flt L t h2,
    ← sum_over_classes ds.nclasses.toNat (fun e => e.2.1 < t + 1) _ (fun e he => (hE e he).1)]
  unfold total_low lowdist_class_cnts
  rw [Int.cast_list_sum, List.map_map]
  refine List.sum_le_sum (fun c hc => ?_)
  have hc2 := List.mem_range.mp hc
  rw [Function.comp_apply, accum_counts_getD ds flt L c t hc2 (by omega)]
  exact float_to_int_le _ (class_sum_nonneg _ _ (fun e he => (hE e he).2.2))

/-- In exact arithmetic the total `total_high` of the search is below the
weight of the data with a result above the threshold plus the number of
classes. -/
theorem total_high_lt (ds : tc_dataset) (flt : tc_filter) (L : List Nat) (t : Nat)
    (hlab : labels_ok ds) (h2 : t ≤ 510) (hn : 0 < ds.nclasses.toNat) :
    ((total_high id ds flt L t : Int) : ℚ) <
      weight_high id ds flt (index_to_threshold (t : Int) MIN_THRESH) L +
        (ds.nclasses.toNat : ℚ) := by
  have hE := search_entries_props ds flt L hlab
  have hlow := sum_over_classes ds.nclasses.toNat (fun e => e.2.1 < t + 1) _
    (fun e he => (hE e he).1)
  have hall := sum_over_classes ds.nclasses.toNat (fun e => e.2.1 < 511 + 1) _
    (fun e he => (hE e he).1)
  have hsplit : ((L.filterMap (search_entry id ds flt)).map
        fun e => if e.2.1 < 511 + 1 then e.2.2 else 0).sum =
      ((L.filterMap (search_entry id ds flt)).map
        fun e => if e.2.1 < t + 1 then e.2.2 else 0).sum +
      ((L.filterMap (search_entry id ds flt)).map
        fun e => if e.2.1 < t + 1 then 0 else e.2.2).sum := by
    rw [← List.sum_map_add]
    congr 1
    refine List.map_congr_left (fun e he => ?_)
    have := (hE e he).2.1
    by_cases h : e.2.1 < t + 1 <;> simp [h, this]
  rw [weight_high_eq ds flt L t h2]
  have hterm : ∀ c ∈ List.range ds.nclasses.toNat,
      ((float_to_int (id (((accum_counts id ds flt L).getD c []).getD (N_THRESH.toNat - 1) 0 -
        id ((float_to_int (((accum_counts id ds flt L).getD c []).getD t 0) : Int) : ℚ))) :
          Int) : ℚ) <
      ((L.filterMap (search_entry id ds flt)).map
          fun e => if e.2.1 < 511 + 1 ∧ e.1 = c then e.2.2 else 0).sum + 1 -
        ((L.filterMap (search_entry id ds flt)).map
          fun e => if e.2.1 < t + 1 ∧ e.1 = c then e.2.2 else 0).sum := by
    intro c hc
    have hc2 := List.mem_range.mp hc
    have h511 : N_THRESH.toNat - 1 = 511 := rfl
    rw [h511, accum_counts_getD ds flt L c t hc2 (by omega),
      accum_counts_getD ds flt L c 511 hc2 (by omega)]
    have hlo_nonneg := class_sum_nonneg (fun e : Nat × Nat × ℚ => e.2.1 < t + 1 ∧ e.1 = c)
      _ (fun e he => (hE e he).2.2)
    have hle : ((L.filterMap (search_entry id ds flt)).map
          fun e => if e.2.1 < t + 1 ∧ e.1 = c then e.2.2 else 0).sum ≤
        ((L.filterMap (search_entry id ds flt)).map
          fun e => if e.2.1 < 511 + 1 ∧ e.1 = c then e.2.2 else 0).sum := by
      refine List.sum_le_sum (fun e he => ?_)
      have h1 := (hE e he).2.1
      have h3 := (hE e he).2.2
      by_cases h : e.2.1 < t + 1 <;> by_cases h4 : e.1 = c <;> simp [h, h4, h1, h3]
    have f1 := float_to_int_le _ hlo_nonneg
    have f2 := float_to_int_gt _ hlo_nonneg
    simp only [id_eq]
    have f3 := float_to_int_le
      (((L.filterMap (search_entry id ds flt)).map
          fun e => if e.2.1 < 511 + 1 ∧ e.1 = c then e.2.2 else 0).sum -
        ((float_to_int (((L.filterMap (search_entry id ds flt)).map
          fun e => if e.2.1 < t + 1 ∧ e.1 = c then e.2.2 else 0).sum) : Int) : ℚ))
      (by linarith)
    linarith
  unfold total_high highdist_class_cnts
  rw [Int.cast_list_sum, List.map_map]
  have hlt := List.sum_lt_sum_of_ne_nil (by
      intro h
      have := congrArg List.length h
      simp at this
      omega) _ _ hterm
  refine lt_of_lt_of_le hlt (le_of_eq ?_)
  have hsum : ∀ (f g : Nat → ℚ) (n : Nat),
      ((List.range n).map fun c => f c + 1 - g c).sum =
        ((List.range n).map f).sum + (n : ℚ) - ((List.range n).map g).sum := by
    intro f g n
    induction n with
    | zero => simp
    | succ n ih =>
      simp only [List.range_succ, List.map_append, List.sum_append, List.map_cons, List.map_nil,
        List.sum_cons, List.sum_nil, add_zero, ih]
      push_cast
      ring
  rw [hsum, hall, hlow, hsplit]
  ring

/-- A pass of the body of `tc_grow` that changes the node count has installed
the split that the search returned for the bucket of the node. -/
theorem tc_grow_tree_split (M : FloatOps) (search : List Nat → Option (tc_filter × Int))
    (ds : tc_dataset) (tree tree2 : tc_tree M.F) (st st2 : NodeLinks)
    (h : tc_grow_tree M search ds tree st = some (GrowOutcome.grown tree2 st2))
    (hs : tree2.nnodes ≠ tree.nnodes) :
    ∃ n node L flt thr, tree.nodes[n]? = some node ∧
      tc_bucket st.next (st.next.length + 1) (st.heads.getD n none) = some L ∧
      search L = some (flt, thr) ∧ tree2 = split_node M tree n node flt thr := by
  unfold tc_grow_tree at h
  split at h
  · cases h
  · split at h
    · cases h
    · cases h
    · rename_i n _
      split at h
      · rename_i node subset hnode hb
        split at h
        · injection h with h
          injection h with h1 h2
          exact absurd (by rw [← h1]) hs
        · rename_i flt thr hsearch
          cases hp : tc_propagate_node ds (split_node M tree n node flt thr) n
              { st with heads := st.heads ++ [none, none] } with
          | none =>
            rw [hp] at h
            cases h
          | some st3 =>
            rw [hp] at h
            injection h with h
            injection h with h1 h2
            exact ⟨n, node, subset, flt, thr, hnode, hb, hsearch, h1.symm⟩
      · cases h

theorem tc_grow_tree_congr (M : FloatOps) (search search2 : List Nat → Option (tc_filter × Int))
    (ds : tc_dataset) (tree : tc_tree M.F) (st : NodeLinks)
    (h : ∀ n L, tc_next_expansion tree st = some (some n) →
      tc_bucket st.next (st.next.length + 1) (st.heads.getD n none) = some L →
      search L = search2 L) :
    tc_grow_tree M search ds tree st = tc_grow_tree M search2 ds tree st := by
  unfold tc_grow_tree
  split
  · rfl
  · split
    · rfl
    · rfl
    · rename_i n hn
      split
      · rename_i node subset hnode hb
        rw [h n subset hn hb]
      · rfl

/-- C19 amended: for every split that `tc_grow` installs, found by the search
on the bucket `L` of the node, there is a threshold index `t` from 1 to 510
whose threshold is the one installed and for which the totals `total_low` and
`total_high` of `tc_split_search`, sums over the classes of masses truncated
to `int`, are each at least `TC_TRAIN_MIN_SPLIT` = 32.  In exact arithmetic,
for a data set whose labels are classes with a positive count, the total
weight of the data of `L` with a result at most the threshold is therefore at
least 32, and the total weight of those with a result above the threshold is
more than 32 minus the number of classes. -/
theorem min_split_enforced (M : FloatOps) (sc : ScoreOps) (rnd : ℚ → ℚ) (ds : tc_dataset)
    (candidates : List (List tc_filter)) (tree tree2 : tc_tree M.F) (st st2 : NodeLinks)
    (hlab : labels_ok ds)
    (hg : tc_grow_tree M (tc_search sc rnd ds candidates) ds tree st =
      some (GrowOutcome.grown tree2 st2))
    (hs : tree2.nnodes ≠ tree.nnodes) :
    ∃ (n : Nat) (node : tc_node M.F) (L : List Nat) (flt : tc_filter) (thr : Int) (t : Nat),
      tree.nodes[n]? = some node ∧
      tc_bucket st.next (st.next.length + 1) (st.heads.getD n none) = some L ∧
      tree2 = split_node M tree n node flt thr ∧
      1 ≤ t ∧ t ≤ 510 ∧ thr = index_to_threshold (t : Int) MIN_THRESH ∧
      TC_TRAIN_MIN_SPLIT ≤ total_low rnd ds flt L t ∧
      TC_TRAIN_MIN_SPLIT ≤ total_high rnd ds flt L t ∧
      ((∀ x, rnd x = x) →
        (32 : ℚ) ≤ weight_low rnd ds flt thr L ∧
        (32 : ℚ) - (ds.nclasses.toNat : ℚ) < weight_high rnd ds flt thr L) := by
  obtain ⟨n, node, L, flt, thr, hnode, hb, hsearch, htree⟩ :=
    tc_grow_tree_split M _ ds tree tree2 st st2 hg hs
  obtain ⟨t, t1, t2, hthr, hlo, hhi⟩ := tc_search_checked sc rnd ds candidates L flt thr hsearch
  refine ⟨n, node, L, flt, thr, t, hnode, hb, htree, t1, t2, hthr, hlo, hhi, ?_⟩
  intro hr
  have hid : rnd = id := funext hr
  subst hid
  have hlo2 : ((32 : Int) : ℚ) ≤ ((total_low id ds flt L t : Int) : ℚ) := by
    exact_mod_cast hlo
  have hhi2 : ((32 : Int) : ℚ) ≤ ((total_high id ds flt L t : Int) : ℚ) := by
    exact_mod_cast hhi
  have hn : 0 < ds.nclasses.toNat := by
    rcases Nat.eq_zero_or_pos ds.nclasses.toNat with h0 | h0
    · exfalso
      have : total_high id ds flt L t = 0 := by
        unfold total_high highdist_class_cnts
        rw [h0]
        rfl
      rw [this] at hhi
      exact absurd hhi (by decide)
    · exact h0
  rw [hthr]
  have a := total_low_le ds flt L t hlab t2
  have b := total_high_lt ds flt L t hlab t2 hn
  push_cast at hlo2 hhi2
  constructor
  · linarith
  · linarith

theorem total_low_eq (ds : tc_dataset) (flt : tc_filter) (L : List Nat) (t : Nat)
    (ht : t < 512) :
    total_low id ds flt L t =
      ((List.range ds.nclasses.toNat).map fun c =>
        float_to_int (((L.filterMap (search_entry id ds flt)).map
          fun e => if e.2.1 < t + 1 ∧ e.1 = c then e.2.2 else 0).sum)).sum := by
  unfold total_low lowdist_class_cnts
  congr 1
  refine List.map_congr_left (fun c hc => ?_)
  rw [accum_counts_getD ds flt L c t (List.mem_range.mp hc) ht]

theorem total_high_eq (ds : tc_dataset) (flt : tc_filter) (L : List Nat) (t : Nat)
    (ht : t < 512) :
    total_high id ds flt L t =
      ((List.range ds.nclasses.toNat).map fun c =>
        float_to_int (((L.filterMap (search_entry id ds flt)).map
            fun e => if e.2.1 < 511 + 1 ∧ e.1 = c then e.2.2 else 0).sum -
          ((float_to_int (((L.filterMap (search_entry id ds flt)).map
            fun e => if e.2.1 < t + 1 ∧ e.1 = c then e.2.2 else 0).sum) : Int) : ℚ))).sum := by
  unfold total_high highdist_class_cnts
  congr 1
  refine List.map_congr_left (fun c hc => ?_)
  have h511 : N_THRESH.toNat - 1 = 511 := rfl
  rw [h511, accum_counts_getD ds flt L c t (List.mem_range.mp hc) ht,
    accum_counts_getD ds flt L c 511 (List.mem_range.mp hc) (by omega)]
  rfl

theorem exSkewed_totals :
    total_low id exSkewed exDiff (List.range 55).reverse 1 = 34 ∧
    total_high id exSkewed exDiff (List.range 55).reverse 1 = 32 := by
  rw [total_low_eq _ _ _ _ (by omega), total_high_eq _ _ _ _ (by omega)]
  set_option maxRecDepth 100000 in
  with_unfolding_all decide

theorem foldl_fixed {α β : Type} (f : α → β → α) (a : α) (h : ∀ b, f a b = a) :
    ∀ l : List β, l.foldl f a = a := by
  intro l
  induction l with
  | nil => rfl
  | cons b l ih => rw [List.foldl_cons, h b, ih]

/-- With the scores of `exScore` a trainer of score 0 is not replaced. -/
theorem exScore_fixed (rnd : ℚ → ℚ) (nclasses : Nat) (cand : tc_filter)
    (accum : List (List ℚ)) (tr : tc_trainer exScore.S) (h : tr.best_score = (0 : ℚ))
    (t : Nat) : search_threshold_step exScore rnd nclasses cand accum tr t = tr := by
  unfold search_threshold_step
  split
  · rfl
  · split
    · rename_i hgt
      rw [h] at hgt
      have h0 : decide ((0 : ℚ) > 0) = true := hgt
      simp at h0
    · rfl

theorem exScore_init (lo hi : List Int) :
    exScore.gt (exScore.score lo hi) (tc_init_trainer exScore).best_score = true := by
  show decide ((0 : ℚ) > -9 * 10 ^ 99) = true
  rw [decide_eq_true_eq]
  norm_num

theorem exSkewed_trainer :
    tc_split_search exScore id exSkewed (List.range 55).reverse [exDiff] =
      { best_score := (0 : ℚ), best_threshold := -254, best_filter := exDiff, valid := 1 } := by
  unfold tc_split_search
  rw [List.foldl_cons, List.foldl_nil]
  unfold search_candidate_step
  have e : List.range' 1 (N_THRESH.toNat - 2) = 1 :: List.range' 2 509 := rfl
  rw [e, List.foldl_cons]
  have hstep : search_threshold_step exScore id exSkewed.nclasses.toNat exDiff
      (accum_counts id exSkewed exDiff (List.range 55).reverse) (tc_init_trainer exScore) 1 =
      { best_score := (0 : ℚ), best_threshold := -254, best_filter := exDiff, valid := 1 } := by
    unfold search_threshold_step
    have h1 : (lowdist_class_cnts (accum_counts id exSkewed exDiff (List.range 55).reverse)
        exSkewed.nclasses.toNat 1).sum = 34 := exSkewed_totals.1
    have h2 : (highdist_class_cnts id (accum_counts id exSkewed exDiff (List.range 55).reverse)
        exSkewed.nclasses.toNat 1).sum = 32 := exSkewed_totals.2
    rw [h1, h2, if_neg (by decide), if_pos (exScore_init _ _)]
    rfl
  rw [hstep]
  exact foldl_fixed _ _ (exScore_fixed id _ exDiff _ _ rfl) _

/-- With one thread the winner of the reduce step is its trainer. -/
theorem tc_search_single (sc : ScoreOps) (rnd : ℚ → ℚ) (ds : tc_dataset)
    (cands : List tc_filter) (L : List Nat) (w : tc_trainer sc.S)
    (hw : tc_split_search sc rnd ds L cands = w) :
    tc_search sc rnd ds [cands] L =
      if w.valid = 0 then none else some (w.best_filter, w.best_threshold) := by
  unfold tc_search
  simp only [List.map_cons, List.map_nil, List.length_cons, List.length_nil]
  rw [hw]
  have e : List.range (0 + 1) = [0] := rfl
  rw [e, List.foldl_cons, List.foldl_nil]
  have e2 : reduce_step sc [w] 0 0 = 0 := by
    unfold reduce_step
    simp
  rw [e2]
  rfl

theorem exSkewed_search :
    tc_search exScore id exSkewed [[exDiff]] (List.range 55).reverse = some (exDiff, -254) := by
  rw [tc_search_single exScore id exSkewed [exDiff] _ _ exSkewed_trainer]
  rfl

theorem exSkewed_expansion :
    tc_next_expansion (tc_init_tree ratOps) exSkewedLinks = some (some 0) := by
  set_option maxRecDepth 100000 in
  with_unfolding_all rfl

theorem exSkewed_bucket :
    tc_bucket exSkewedLinks.next (exSkewedLinks.next.length + 1)
      (exSkewedLinks.heads.getD 0 none) = some (List.range 55).reverse := by
  set_option maxRecDepth 100000 in
  with_unfolding_all rfl

theorem exSkewed_grown :
    tc_grow_tree ratOps (tc_search exScore id exSkewed [[exDiff]]) exSkewed
      (tc_init_tree ratOps) exSkewedLinks =
      some (GrowOutcome.grown exSkewedTree exSkewedLinks2) := by
  rw [tc_grow_tree_congr ratOps _ (fun _ => some (exDiff, -254)) exSkewed _ exSkewedLinks
    (fun n L hn hb => by
      rw [exSkewed_expansion] at hn
      cases hn
      rw [exSkewed_bucket] at hb
      cases hb
      exact exSkewed_search)]
  set_option maxRecDepth 100000 in
  with_unfolding_all rfl

theorem exSkewed_labels : labels_ok exSkewed := by
  unfold labels_ok
  set_option maxRecDepth 100000 in
  with_unfolding_all decide

/-- C19 as stated fails.  In `exSkewed` the 33 data of class 1 have the mass 1
and the 22 data of class 2 the mass 33/22 = 1.5; the filter `exDiff` gives
-254 for the data of class 1 and one datum of class 2, and 200 for the other
21 data of class 2.  At the threshold -254 the search computes the totals
33 + (int) 1.5 = 34 and (int) (33 - 1) = 32, and `tc_grow` installs the split,
although the weight of the data above the threshold is 21 * 1.5 = 31.5.  All
values are exact in a `float`, and every split has the same score here. -/
theorem min_split_counterexample :
    labels_ok exSkewed ∧
    tc_bucket exSkewedLinks.next (exSkewedLinks.next.length + 1)
      (exSkewedLinks.heads.getD 0 none) = some (List.range 55).reverse ∧
    tc_grow_tree ratOps (tc_search exScore id exSkewed [[exDiff]]) exSkewed
      (tc_init_tree ratOps) exSkewedLinks =
      some (GrowOutcome.grown
        (split_node ratOps (tc_init_tree ratOps) 0 (tc_init_node ratOps) exDiff (-254))
        exSkewedLinks2) ∧
    total_low id exSkewed exDiff (List.range 55).reverse 1 = 34 ∧
    total_high id exSkewed exDiff (List.range 55).reverse 1 = 32 ∧
    weight_low id exSkewed exDiff (-254) (List.range 55).reverse = 69 / 2 ∧
    weight_high id exSkewed exDiff (-254) (List.range 55).reverse = 63 / 2 ∧
    ¬ ((32 : ℚ) ≤ weight_high id exSkewed exDiff (-254) (List.range 55).reverse) := by
  have hw : weight_low id exSkewed exDiff (-254) (List.range 55).reverse = 69 / 2 ∧
      weight_high id exSkewed exDiff (-254) (List.range 55).reverse = 63 / 2 := by
    set_option maxRecDepth 100000 in
    with_unfolding_all decide
  refine ⟨exSkewed_labels, exSkewed_bucket, exSkewed_grown, exSkewed_totals.1,
    exSkewed_totals.2, hw.1, hw.2, ?_⟩
  rw [hw.2]
  norm_num

/-- C19 amended, evaluated on the split that `tc_grow` installs for the data
of `exSkewed`. -/
theorem min_split_enforced_witness :
    ∃ (n : Nat) (node : tc_node ratOps.F) (L : List Nat) (flt : tc_filter) (thr : Int)
      (t : Nat),
      (tc_init_tree ratOps).nodes[n]? = some node ∧
      tc_bucket exSkewedLinks.next (exSkewedLinks.next.length + 1)
        (exSkewedLinks.heads.getD n none) = some L ∧
      exSkewedTree = split_node ratOps (tc_init_tree ratOps) n node flt thr ∧
      1 ≤ t ∧ t ≤ 510 ∧ thr = index_to_threshold (t : Int) MIN_THRESH ∧
      TC_TRAIN_MIN_SPLIT ≤ total_low id exSkewed flt L t ∧
      TC_TRAIN_MIN_SPLIT ≤ total_high id exSkewed flt L t ∧
      ((∀ x : ℚ, id x = x) →
        (32 : ℚ) ≤ weight_low id exSkewed flt thr L ∧
        (32 : ℚ) - (exSkewed.nclasses.toNat : ℚ) < weight_high id exSkewed flt thr L) :=
  min_split_enforced ratOps exScore id exSkewed [[exDiff]] (tc_init_tree ratOps) exSkewedTree
    exSkewedLinks exSkewedLinks2 exSkewed_labels exSkewed_grown (by decide)

/-! ## Theorems: sampling -/

/-- In balanced mode the datum that the loop `while (!label)` accepts has the
current label, which is below `MAX_N_CLASSES`. -/
theorem draw_datum_label (nimages : Int) (images labels : List tc_image)
    (classes : List (List Int)) (cur : Int) :
    ∀ (fuel : Nat) (rands : List Int) (d : tc_datum) (rs : List Int),
      draw_datum TC_BALANCED_SAMPLING nimages images labels classes cur fuel rands =
        some (d, rs) →
      d.label = cur ∧ d.label < MAX_N_CLASSES := by
  intro fuel
  induction fuel with
  | zero =>
    intro rands d rs h
    simp [draw_datum] at h
  | succ fuel ih =>
    intro rands d rs h
    cases rands with
    | nil => cases h
    | cons x rs1 =>
      unfold draw_datum at h
      split at h
      · exact ih _ d rs h
      · split at h
        · rename_i y z rs2 image limage _ _
          by_cases hc : tc_get limage (Int.tmod y image.rows) (Int.tmod z image.cols) 0 ≥
              MAX_N_CLASSES ∨ (TC_BALANCED_SAMPLING = TC_BALANCED_SAMPLING ∧
                tc_get limage (Int.tmod y image.rows) (Int.tmod z image.cols) 0 ≠ cur)
          · rw [if_pos hc, if_pos rfl] at h
            exact ih _ d rs h
          · rw [if_neg hc] at h
            split at h
            · exact ih _ d rs h
            · injection h with h
              injection h with h1 h2
              rw [← h1]
              constructor
              · by_contra hcur
                exact hc (Or.inr ⟨rfl, hcur⟩)
              · by_contra hmax
                exact hc (Or.inl (by
                  show tc_get limage (Int.tmod y image.rows) (Int.tmod z image.cols) 0 ≥
                    (MAX_N_CLASSES : Int)
                  have : ¬ tc_get limage (Int.tmod y image.rows) (Int.tmod z image.cols) 0 <
                    (MAX_N_CLASSES : Int) := hmax
                  omega))
        · cases h

theorem succ_div_mod (i m : Nat) (hm : 0 < m) :
    (i % m + 1 < m ∧ (i + 1) % m = i % m + 1 ∧ (i + 1) / m = i / m) ∨
    (i % m + 1 = m ∧ (i + 1) % m = 0 ∧ (i + 1) / m = i / m + 1) := by
  have h1 := Nat.div_add_mod i m
  have h2 := Nat.mod_lt i hm
  rcases Nat.lt_or_ge (i % m + 1) m with h | h
  · left
    have := (Nat.div_mod_unique hm).mpr
      (show i % m + 1 + m * (i / m) = i + 1 ∧ i % m + 1 < m from ⟨by omega, h⟩)
    exact ⟨h, this.2, this.1⟩
  · right
    have h3 : i % m + 1 = m := by omega
    have : m * (i / m + 1) = i + 1 := by
      rw [Nat.mul_add]
      omega
    have := (Nat.div_mod_unique hm).mpr
      (show 0 + m * (i / m + 1) = i + 1 ∧ 0 < m from ⟨by omega, hm⟩)
    exact ⟨h3, this.2, this.1⟩

/-- Accepting a datum with the current label keeps `balanced_inv`. -/
theorem accept_datum_inv (m i : Nat) (hm : 0 < m) (s : SampleState) (d : tc_datum)
    (hinv : balanced_inv m i s) (hl : d.label = s.current_label)
    (hmax : d.label < MAX_N_CLASSES) :
    balanced_inv m (i + 1) (accept_datum TC_BALANCED_SAMPLING ((m : Int) + 1) s d) := by
  obtain ⟨i1, i2, i3, i4, i5⟩ := hinv
  have hr := Nat.mod_lt i hm
  have hlab : d.label = 1 + ((i % m : Nat) : Int) := hl.trans i3
  have hnat : d.label.toNat = 1 + i % m := by omega
  have hlt8 : 1 + i % m < MAX_N_CLASSES := by
    have : ((1 + i % m : Nat) : Int) < (MAX_N_CLASSES : Int) := by
      rw [← hnat, Int.toNat_of_nonneg (by omega)]
      exact hmax
    exact_mod_cast this
  unfold accept_datum
  refine ⟨?_, ?_, ?_, ?_, ?_⟩
  · simp [i1]
  · intro j d2 hj
    simp only at hj
    by_cases hji : j < s.data.length
    · rw [List.getElem?_append_left hji] at hj
      exact i2 j d2 hj
    · rw [List.getElem?_append_right (by omega)] at hj
      have hj0 : j - s.data.length = 0 := by
        by_contra hne
        rw [List.getElem?_eq_none (by simp; omega)] at hj
        cases hj
      rw [hj0] at hj
      have hd : d2 = d := by simpa using hj.symm
      have hji2 : j = i := by omega
      rw [hd, hji2]
      exact hlab
  · simp only [if_pos]
    rw [i3]
    rcases succ_div_mod i m hm with ⟨h1, h2, _⟩ | ⟨h1, h2, _⟩
    · have e : Int.tmod (1 + ((i % m : Nat) : Int) + 1) ((m : Int) + 1) =
          1 + ((i % m : Nat) : Int) + 1 :=
        Int.tmod_eq_of_lt (by omega) (by omega)
      rw [e, if_neg (by omega), h2]
      push_cast
      ring
    · have e : Int.tmod (1 + ((i % m : Nat) : Int) + 1) ((m : Int) + 1) = 0 := by
        have : 1 + ((i % m : Nat) : Int) + 1 = (m : Int) + 1 := by omega
        rw [this]
        exact Int.tmod_self
      rw [e, if_pos rfl, h2]
      rfl
  · simp [i4]
  · intro k hk1 hk2
    simp only
    rw [hnat]
    by_cases hkc : k = 1 + i % m
    · rw [getD_set_eq _ _ _ _ _ (by rw [i4]; exact hlt8), if_pos hkc,
        i5 (1 + i % m) (by omega) (by omega)]
      rcases succ_div_mod i m hm with ⟨h1, h2, h3⟩ | ⟨h1, h2, h3⟩
      · rw [h2, h3, hkc, if_neg (by omega), if_pos (by omega)]
        ring
      · rw [h2, h3, hkc, if_neg (by omega), if_neg (by omega)]
        push_cast
        ring
    · rw [getD_set_ne _ _ _ _ _ hkc, i5 k hk1 hk2]
      rcases succ_div_mod i m hm with ⟨h1, h2, h3⟩ | ⟨h1, h2, h3⟩
      · rw [h2, h3]
        by_cases hlt : k < 1 + i % m
        · rw [if_pos hlt, if_pos (by omega)]
        · rw [if_neg hlt, if_neg (by omega)]
      · rw [h2, h3, if_pos (by omega), if_neg (by omega)]
        push_cast
        ring

theorem sample_loop_inv (nimages : Int) (images labels : List tc_image)
    (classes : List (List Int)) (m : Nat) (hm : 0 < m) :
    ∀ (n i : Nat) (s s2 : SampleState) (rands : List Int), balanced_inv m i s →
      sample_loop TC_BALANCED_SAMPLING nimages ((m : Int) + 1) images labels classes n s rands =
        some s2 →
      balanced_inv m (i + n) s2 := by
  intro n
  induction n with
  | zero =>
    intro i s s2 rands hinv h
    cases h
    exact hinv
  | succ n ih =>
    intro i s s2 rands hinv h
    unfold sample_loop at h
    split at h
    · cases h
    · rename_i d rs hd
      obtain ⟨l1, l2⟩ := draw_datum_label nimages images labels classes _ _ _ d rs hd
      have := ih (i + 1) _ s2 rs (accept_datum_inv m i hm s d hinv l1 l2) h
      rw [show i + (n + 1) = i + 1 + n from by omega]
      exact this

theorem draw_datum_hit (nimages : Int) (images labels : List tc_image)
    (classes : List (List Int)) (cur : Int) (h : Int × Int × Int) (rs : List Int) (fuel : Nat)
    (hcur : cur ≠ 0) (hh : is_hit nimages images labels classes cur h = true) :
    ∃ d, draw_datum TC_BALANCED_SAMPLING nimages images labels classes cur (fuel + 1)
      (h.1 :: h.2.1 :: h.2.2 :: rs) = some (d, rs) := by
  unfold is_hit at hh
  unfold draw_datum
  cases hi : images[(Int.tmod h.1 nimages).toNat]? with
  | none =>
    rw [hi] at hh
    cases hh
  | some image =>
    cases hl : labels[(Int.tmod h.1 nimages).toNat]? with
    | none =>
      rw [hi, hl] at hh
      cases hh
    | some limage =>
      rw [hi, hl] at hh
      obtain ⟨h1, h2, h3⟩ := of_decide_eq_true hh
      rw [if_neg (fun hc => h1 hc.2)]
      simp only
      have hc : ¬ (tc_get limage (Int.tmod h.2.1 image.rows) (Int.tmod h.2.2 image.cols) 0 ≥
          MAX_N_CLASSES ∨ (True ∧
            tc_get limage (Int.tmod h.2.1 image.rows) (Int.tmod h.2.2 image.cols) 0 ≠ cur)) := by
        rw [h2]
        rintro (hc | hc)
        · omega
        · exact hc.2 rfl
      rw [if_neg hc, if_neg (by rw [h2]; exact hcur)]
      exact ⟨_, rfl⟩

/-- With values of `rand()` that hit the current label at every draw the
sampling loop returns. -/
theorem sample_loop_hits (nimages : Int) (images labels : List tc_image)
    (classes : List (List Int)) (m : Nat) (hm : 0 < m) :
    ∀ (hs : List (Int × Int × Int)) (i : Nat) (s : SampleState), balanced_inv m i s →
      hits_ok nimages images labels classes m i hs = true →
      ∃ s2, sample_loop TC_BALANCED_SAMPLING nimages ((m : Int) + 1) images labels classes
        hs.length s (hit_values hs) = some s2 := by
  intro hs
  induction hs with
  | nil =>
    intro i s _ _
    exact ⟨s, rfl⟩
  | cons h hs ih =>
    intro i s hinv hok
    unfold hits_ok at hok
    rw [Bool.and_eq_true] at hok
    have hcur : s.current_label = 1 + ((i % m : Nat) : Int) := hinv.2.2.1
    obtain ⟨d, hd⟩ := draw_datum_hit nimages images labels classes s.current_label h
      (hit_values hs) (hit_values hs).length.succ.succ (by omega) (hcur ▸ hok.1)
    obtain ⟨l1, l2⟩ := draw_datum_label nimages images labels classes _ _ _ d _ hd
    obtain ⟨s2, h2⟩ := ih (i + 1) _ (accept_datum_inv m i hm s d hinv l1 l2) hok.2
    refine ⟨s2, ?_⟩
    show sample_loop _ _ _ _ _ _ (hs.length + 1) s
      (h.1 :: h.2.1 :: h.2.2 :: hit_values hs) = some s2
    unfold sample_loop
    have hlen : (h.1 :: h.2.1 :: h.2.2 :: hit_values hs).length =
        (hit_values hs).length.succ.succ + 1 := rfl
    rw [hlen, hd]
    exact h2

theorem balanced_start (m : Nat) : balanced_inv m 0 sample_start := by
  refine ⟨rfl, ?_, ?_, List.length_replicate _ _, ?_⟩
  · intro j d hj
    cases hj
  · show (1 : Int) = 1 + ((0 % m : Nat) : Int)
    simp
  · intro k hk1 hk2
    have e : sample_start.represented.getD k 0 = 0 := by
      by_cases hk : k < MAX_N_CLASSES
      · exact getD_replicate _ _ _ _ hk
      · exact List.getD_eq_default _ _ (by
          show (List.replicate MAX_N_CLASSES (0 : Int)).length ≤ k
          rw [List.length_replicate]
          omega)
    rw [e, Nat.zero_div, Nat.zero_mod, if_neg (by omega)]
    rfl

/-- C20: in balanced mode with a colormap of `K ≥ 2` classes, whatever the
values of `rand()`, a data set that `tc_random_dataset` returns has `ndata`
data, datum `i` (from 0) has the label `1 + i mod (K - 1)`, and the count
`represented[k]` of a class `k` of `1 .. K-1` is `ndata / (K - 1)`, plus one
for the classes `k ≤ ndata mod (K - 1)`; so two such counts differ by at most
1.  The function returns when the values of `rand()` hit a pixel of the
current label at every draw. -/
theorem balanced_sampling (images labels : List tc_image) (classes : List (List Int))
    (K nimages ndata : Int) (hK : 2 ≤ K) :
    (∀ (rands : List Int) (ds : tc_dataset),
      tc_random_dataset images labels classes K nimages ndata TC_BALANCED_SAMPLING rands = some ds →
      ds.data.length = ndata.toNat ∧
      (∀ (i : Nat) (d : tc_datum), ds.data[i]? = some d →
        d.label = 1 + (i : Int) % (K - 1)) ∧
      (∀ k : Nat, 1 ≤ k → (k : Int) ≤ K - 1 →
        ds.represented.getD k 0 = ((ndata.toNat / (K - 1).toNat : Nat) : Int) +
          (if k < 1 + ndata.toNat % (K - 1).toNat then 1 else 0)) ∧
      (∀ k1 k2 : Nat, 1 ≤ k1 → (k1 : Int) ≤ K - 1 → 1 ≤ k2 → (k2 : Int) ≤ K - 1 →
        ds.represented.getD k1 0 - ds.represented.getD k2 0 ≤ 1 ∧
        ds.represented.getD k2 0 - ds.represented.getD k1 0 ≤ 1)) ∧
    (∀ hits : List (Int × Int × Int), hits.length = ndata.toNat →
      hits_ok nimages images labels classes (K - 1).toNat 0 hits = true →
      ∃ ds, tc_random_dataset images labels classes K nimages ndata TC_BALANCED_SAMPLING
        (hit_values hits) = some ds) := by
  obtain ⟨m, hm, hKm, hmK⟩ : ∃ m : Nat, 0 < m ∧ K = (m : Int) + 1 ∧ (K - 1).toNat = m :=
    ⟨(K - 1).toNat, by omega, by omega, rfl⟩
  rw [hmK]
  subst hKm
  constructor
  · intro rands ds h
    unfold tc_random_dataset at h
    cases hs : sample_loop TC_BALANCED_SAMPLING nimages ((m : Int) + 1) images labels classes
        ndata.toNat sample_start rands with
    | none =>
      rw [hs] at h
      cases h
    | some s =>
      rw [hs] at h
      cases h
      obtain ⟨i1, i2, _, _, i5⟩ := sample_loop_inv nimages images labels classes m hm
        ndata.toNat 0 _ s rands (balanced_start m) hs
      rw [Nat.zero_add] at i1 i5
      have hcnt : ∀ k : Nat, 1 ≤ k → (k : Int) ≤ (m : Int) + 1 - 1 →
          s.represented.getD k 0 = ((ndata.toNat / m : Nat) : Int) +
            (if k < 1 + ndata.toNat % m then 1 else 0) :=
        fun k hk1 hk2 => i5 k hk1 (by omega)
      refine ⟨i1, ?_, hcnt, ?_⟩
      · intro i d hd
        rw [i2 i d hd]
        simp
      · intro k1 k2 a1 a2 b1 b2
        show s.represented.getD k1 0 - s.represented.getD k2 0 ≤ 1 ∧
          s.represented.getD k2 0 - s.represented.getD k1 0 ≤ 1
        rw [hcnt k1 a1 a2, hcnt k2 b1 b2]
        constructor <;> split <;> split <;> omega
  · intro hits hlen hok
    obtain ⟨s2, h2⟩ := sample_loop_hits nimages images labels classes m hm hits 0 _
      (balanced_start m) hok
    unfold tc_random_dataset
    rw [← hlen, h2]
    exact ⟨_, rfl⟩

/-- C20, evaluated on one image with nine pixels of label 1 and one of label
2, a colormap of three classes and 1000 data: the counts of the classes 1 and
2 are both 500. -/
theorem balanced_sampling_witness :
    (∀ (rands : List Int) (ds : tc_dataset),
      tc_random_dataset [exNineOne] [exNineOne] [[0, 9, 1]] (3 : Int) 1 (1000 : Int) TC_BALANCED_SAMPLING rands = some ds →
      ds.data.length = (1000 : Int).toNat ∧
      (∀ (i : Nat) (d : tc_datum), ds.data[i]? = some d →
        d.label = 1 + (i : Int) % ((3 : Int) - 1)) ∧
      (∀ k : Nat, 1 ≤ k → (k : Int) ≤ (3 : Int) - 1 →
        ds.represented.getD k 0 = (((1000 : Int).toNat / ((3 : Int) - 1).toNat : Nat) : Int) +
          (if k < 1 + (1000 : Int).toNat % ((3 : Int) - 1).toNat then 1 else 0)) ∧
      (∀ k1 k2 : Nat, 1 ≤ k1 → (k1 : Int) ≤ (3 : Int) - 1 → 1 ≤ k2 → (k2 : Int) ≤ (3 : Int) - 1 →
        ds.represented.getD k1 0 - ds.represented.getD k2 0 ≤ 1 ∧
        ds.represented.getD k2 0 - ds.represented.getD k1 0 ≤ 1)) ∧
    (∀ hits : List (Int × Int × Int), hits.length = (1000 : Int).toNat →
      hits_ok 1 [exNineOne] [exNineOne] [[0, 9, 1]] ((3 : Int) - 1).toNat 0 hits = true →
      ∃ ds, tc_random_dataset [exNineOne] [exNineOne] [[0, 9, 1]] (3 : Int) 1 (1000 : Int) TC_BALANCED_SAMPLING
        (hit_values hits) = some ds) :=
  balanced_sampling [exNineOne] [exNineOne] [[0, 9, 1]] 3 1 1000 (by decide)

theorem exNineOne_run :
    (tc_random_dataset [exNineOne] [exNineOne] [[0, 9, 1]] 3 1 4 TC_BALANCED_SAMPLING
      [7, 0, 9, 7, 0, 3, 7, 0, 5, 7, 0, 3, 7, 0, 9, 7, 0, 0, 7, 0, 9]).map
      (fun ds => (ds.data.map fun d => (d.c, d.label), ds.represented, ds.nclasses)) =
      some ([(3, 1), (9, 2), (0, 1), (9, 2)], [0, 2, 2, 0, 0, 0, 0, 0], 3) := by
  set_option maxRecDepth 100000 in
  with_unfolding_all decide

/-! ## Theorems: the data set after sampling -/

/-- The datum that the loop `while (!label)` accepts has a label that is not
0, is below `MAX_N_CLASSES` and is the pixel of its label image. -/
theorem draw_datum_accept (sm nimages : Int) (images labels : List tc_image)
    (classes : List (List Int)) (cur : Int) :
    ∀ (fuel : Nat) (rands : List Int) (d : tc_datum) (rs : List Int),
      draw_datum sm nimages images labels classes cur fuel rands = some (d, rs) →
      d.label ≠ 0 ∧ d.label < MAX_N_CLASSES ∧
      ∃ limage, labels[d.image.toNat]? = some limage ∧ d.label = tc_get limage d.r d.c 0 := by
  intro fuel
  induction fuel with
  | zero =>
    intro rands d rs h
    simp [draw_datum] at h
  | succ fuel ih =>
    intro rands d rs h
    cases rands with
    | nil => cases h
    | cons x rs1 =>
      unfold draw_datum at h
      split at h
      · exact ih _ d rs h
      · split at h
        · rename_i y z rs2 image limage _ hl
          by_cases hc : tc_get limage (Int.tmod y image.rows) (Int.tmod z image.cols) 0 ≥
              MAX_N_CLASSES ∨ (sm = TC_BALANCED_SAMPLING ∧
                tc_get limage (Int.tmod y image.rows) (Int.tmod z image.cols) 0 ≠ cur)
          · rw [if_pos hc, if_pos rfl] at h
            exact ih _ d rs h
          · rw [if_neg hc] at h
            split at h
            · exact ih _ d rs h
            · rename_i hne
              injection h with h
              injection h with h1 h2
              rw [← h1]
              refine ⟨hne, ?_, limage, hl, rfl⟩
              by_contra hmax
              exact hc (Or.inl (by
                show tc_get limage (Int.tmod y image.rows) (Int.tmod z image.cols) 0 ≥
                  (MAX_N_CLASSES : Int)
                have : ¬ tc_get limage (Int.tmod y image.rows) (Int.tmod z image.cols) 0 <
                  (MAX_N_CLASSES : Int) := hmax
                omega))
        · cases h

theorem sum_set_succ : ∀ (l : List Int) (i : Nat), i < l.length →
    (l.set i (l.getD i 0 + 1)).sum = l.sum + 1 := by
  intro l
  induction l with
  | nil =>
    intro i hi
    cases hi
  | cons x l ih =>
    intro i hi
    cases i with
    | zero => simp; ring
    | succ i =>
      have hi2 : i < l.length := by simpa using hi
      simp only [List.set_cons_succ, List.sum_cons, List.getD_cons_succ]
      rw [ih i hi2]
      ring

theorem max_label_append (data : List tc_datum) (d : tc_datum) :
    max_label (data ++ [d]) = if d.label > max_label data then d.label else max_label data := by
  unfold max_label
  rw [List.foldl_append]
  rfl

/-- Accepting a datum keeps `sample_inv`. -/
theorem accept_datum_sample_inv (sm K : Int) (labels : List tc_image) (s : SampleState)
    (d : tc_datum) (hinv : sample_inv labels s) (h0 : d.label ≠ 0)
    (hmax : d.label < MAX_N_CLASSES)
    (hl : ∃ limage, labels[d.image.toNat]? = some limage ∧
      d.label = tc_get limage d.r d.c 0) :
    sample_inv labels (accept_datum sm K s d) := by
  obtain ⟨i1, i2, i3, i4, i5⟩ := hinv
  obtain ⟨limage, hl1, hl2⟩ := hl
  have hnn : 0 ≤ d.label := by
    rw [hl2]
    exact (tc_get_range _ _ _ _).1
  have hlt : d.label.toNat < MAX_N_CLASSES := by
    have : ((d.label.toNat : Nat) : Int) < (MAX_N_CLASSES : Int) := by
      rw [Int.toNat_of_nonneg hnn]
      exact hmax
    exact_mod_cast this
  unfold accept_datum
  refine ⟨?_, ?_, ?_, ?_, ?_⟩
  · intro d2 hd2
    rcases List.mem_append.mp hd2 with hm | hm
    · exact i1 d2 hm
    · rw [List.mem_singleton.mp hm]
      have : d.label < (MAX_N_CLASSES : Int) := hmax
      exact ⟨by omega, by omega, limage, hl1, hl2⟩
  · simp [i2]
  · intro k
    simp only [List.filter_append, List.length_append]
    by_cases hk : k = d.label.toNat
    · rw [getD_set_eq _ _ _ _ _ (by rw [i2]; exact hlt), if_pos hk, ← hk, i3 k]
      have hdk : d.label = (k : Int) := by omega
      simp [hdk]
    · rw [getD_set_ne _ _ _ _ _ hk, i3 k]
      have hdk : ¬ d.label = (k : Int) := by omega
      simp [hdk]
  · show (if d.label + 1 > s.nclasses then d.label + 1 else s.nclasses) =
      1 + max_label (s.data ++ [d])
    rw [max_label_append, i4]
    split <;> split <;> omega
  · show (s.represented.set d.label.toNat (s.represented.getD d.label.toNat 0 + 1)).sum =
      ((s.data ++ [d]).length : Int)
    rw [sum_set_succ _ _ (by rw [i2]; exact hlt), i5]
    simp

theorem sample_loop_sample_inv (sm nimages K : Int) (images labels : List tc_image)
    (classes : List (List Int)) :
    ∀ (n : Nat) (s s2 : SampleState) (rands : List Int), sample_inv labels s →
      sample_loop sm nimages K images labels classes n s rands = some s2 →
      sample_inv labels s2 ∧ s2.data.length = s.data.length + n := by
  intro n
  induction n with
  | zero =>
    intro s s2 rands hinv h
    cases h
    exact ⟨hinv, rfl⟩
  | succ n ih =>
    intro s s2 rands hinv h
    unfold sample_loop at h
    split at h
    · cases h
    · rename_i d rs hd
      obtain ⟨l1, l2, l3⟩ := draw_datum_accept sm nimages images labels classes _ _ _ d rs hd
      obtain ⟨a, b⟩ := ih _ s2 rs (accept_datum_sample_inv sm K labels s d hinv l1 l2 l3) h
      refine ⟨a, ?_⟩
      rw [b]
      unfold accept_datum
      simp
      omega

theorem sample_start_inv (labels : List tc_image) : sample_inv labels sample_start := by
  refine ⟨?_, List.length_replicate _ _, ?_, rfl, ?_⟩
  · intro d hd
    cases hd
  · intro k
    show (List.replicate MAX_N_CLASSES (0 : Int)).getD k 0 = _
    by_cases hk : k < MAX_N_CLASSES
    · rw [getD_replicate _ _ _ _ hk]
      rfl
    · rw [List.getD_eq_default _ _ (by rw [List.length_replicate]; omega)]
      rfl
  · decide

/-- The links of `sample_links` chain the data from `i` on in array order. -/
theorem sample_links_chain (ndata : Int) :
    ∀ (k i : Nat), i + k = ndata.toNat →
      is_list (sample_links ndata) (if k = 0 then none else some i) (List.range' i k) := by
  intro k
  induction k with
  | zero =>
    intro i _
    exact rfl
  | succ k ih =>
    intro i hi
    rw [if_neg (Nat.succ_ne_zero k)]
    refine ⟨rfl, ?_⟩
    have hlt : i < ndata.toNat := by omega
    have hget : (sample_links ndata).getD i none =
        if (i : Int) = ndata - 1 then none else some (i + 1) := by
      unfold sample_links
      rw [List.getD_eq_getElem?_getD, List.getElem?_map, List.getElem?_range hlt]
      rfl
    rw [hget]
    have := ih (i + 1) (by omega)
    by_cases hk : k = 0
    · rw [if_pos hk] at this
      rw [if_pos (by omega)]
      exact this
    · rw [if_neg hk] at this
      rw [if_neg (by omega)]
      exact this

theorem le_max_label : ∀ (data : List tc_datum) (m : Int) (d : tc_datum), d ∈ data →
    d.label ≤ data.foldl (fun m d => if d.label > m then d.label else m) m := by
  have hmono : ∀ (data : List tc_datum) (m : Int),
      m ≤ data.foldl (fun m d => if d.label > m then d.label else m) m := by
    intro data
    induction data with
    | nil =>
      intro m
      exact le_refl _
    | cons x data ih =>
      intro m
      rw [List.foldl_cons]
      refine le_trans ?_ (ih _)
      split <;> omega
  intro data
  induction data with
  | nil =>
    intro m d hd
    cases hd
  | cons x data ih =>
    intro m d hd
    rw [List.foldl_cons]
    rcases List.mem_cons.mp hd with e | hm
    · rw [e]
      refine le_trans ?_ (hmono _ _)
      split <;> omega
    · exact ih _ d hm

/-- C21: a data set that `tc_random_dataset` returns, in either sampling
mode and whatever the values of `rand()`, has `ndata` data; the label of
every datum lies in `1 .. MAX_N_CLASSES-1` and is the pixel of the label image
at the datum; `represented[0]` is 0 and `represented[k]` is the number of data
with the label `k`, so that the counts sum to the number of data and the count
of the label of every datum is at least 1; `nclasses` is 1 plus the largest
label; and the links `next` chain the data in array order, from datum 0 to
the last, whose link is `NULL`. -/
theorem random_dataset_invariants (images labels : List tc_image) (classes : List (List Int))
    (K nimages ndata sampling_method : Int) (rands : List Int) (ds : tc_dataset)
    (h : tc_random_dataset images labels classes K nimages ndata sampling_method rands =
      some ds) :
    ds.data.length = ndata.toNat ∧
    (∀ d ∈ ds.data, 1 ≤ d.label ∧ d.label ≤ (MAX_N_CLASSES : Int) - 1 ∧
      ∃ limage, labels[d.image.toNat]? = some limage ∧ d.label = tc_get limage d.r d.c 0) ∧
    ds.represented.getD 0 0 = 0 ∧
    (∀ k : Nat, ds.represented.getD k 0 =
      ((ds.data.filter fun d => decide (d.label = (k : Int))).length : Int)) ∧
    ds.represented.sum = (ds.data.length : Int) ∧
    (∀ d ∈ ds.data, 1 ≤ ds.represented.getD d.label.toNat 0) ∧
    ds.nclasses = 1 + max_label ds.data ∧
    (∀ d ∈ ds.data, d.label ≤ max_label ds.data) ∧
    (∀ i : Nat, i < ndata.toNat →
      (sample_links ndata).getD i none = if i + 1 = ndata.toNat then none else some (i + 1)) ∧
    tc_bucket (sample_links ndata) ((sample_links ndata).length + 1)
      (if ndata.toNat = 0 then none else some 0) = some (List.range ndata.toNat) := by
  unfold tc_random_dataset at h
  cases hs : sample_loop sampling_method nimages K images labels classes ndata.toNat
      sample_start rands with
  | none =>
    rw [hs] at h
    cases h
  | some s =>
    rw [hs] at h
    cases h
    obtain ⟨⟨i1, i2, i3, i4, i5⟩, hlen⟩ := sample_loop_sample_inv sampling_method nimages K
      images labels classes ndata.toNat sample_start s rands (sample_start_inv labels) hs
    have hlen2 : s.data.length = ndata.toNat := by
      rw [hlen]
      show 0 + ndata.toNat = ndata.toNat
      omega
    refine ⟨hlen2, i1, ?_, i3, i5, ?_, i4, ?_, ?_, ?_⟩
    · show s.represented.getD 0 0 = 0
      rw [i3 0]
      have : (s.data.filter fun d => decide (d.label = ((0 : Nat) : Int))) = [] := by
        rw [List.filter_eq_nil_iff]
        intro d hd
        have := (i1 d hd).1
        simp
        omega
      rw [this]
      rfl
    · intro d hd
      show 1 ≤ s.represented.getD d.label.toNat 0
      rw [i3]
      have hmem : d ∈ s.data.filter fun d2 => decide (d2.label = ((d.label.toNat : Nat) : Int)) := by
        rw [List.mem_filter]
        refine ⟨hd, ?_⟩
        have := (i1 d hd).1
        simp
        omega
      have := List.length_pos_of_mem hmem
      omega
    · intro d hd
      exact le_max_label s.data 0 d hd
    · intro i hi
      unfold sample_links
      rw [List.getD_eq_getElem?_getD, List.getElem?_map, List.getElem?_range hi]
      show (if (i : Int) = ndata - 1 then none else some (i + 1)) = _
      by_cases hc : i + 1 = ndata.toNat
      · rw [if_pos hc, if_pos (by omega)]
      · rw [if_neg hc, if_neg (by omega)]
    · have hc := sample_links_chain ndata ndata.toNat 0 (by omega)
      rw [List.range_eq_range']
      refine tc_bucket_of_is_list _ _ _ _ hc ?_
      unfold sample_links
      simp

theorem exSampled_run :
    tc_random_dataset [exNineOne] [exNineOne] [[0, 9, 1]] 3 1 4 TC_BALANCED_SAMPLING exRands =
      some exSampled := by
  set_option maxRecDepth 100000 in
  with_unfolding_all rfl

/-- C21, evaluated on the four data drawn from the label image `exNineOne`
with the values `exRands` of `rand()`. -/
theorem random_dataset_invariants_witness :
    exSampled.data.length = (4 : Int).toNat ∧
    (∀ d ∈ exSampled.data, 1 ≤ d.label ∧ d.label ≤ (MAX_N_CLASSES : Int) - 1 ∧
      ∃ limage, [exNineOne][d.image.toNat]? = some limage ∧ d.label = tc_get limage d.r d.c 0) ∧
    exSampled.represented.getD 0 0 = 0 ∧
    (∀ k : Nat, exSampled.represented.getD k 0 =
      ((exSampled.data.filter fun d => decide (d.label = (k : Int))).length : Int)) ∧
    exSampled.represented.sum = (exSampled.data.length : Int) ∧
    (∀ d ∈ exSampled.data, 1 ≤ exSampled.represented.getD d.label.toNat 0) ∧
    exSampled.nclasses = 1 + max_label exSampled.data ∧
    (∀ d ∈ exSampled.data, d.label ≤ max_label exSampled.data) ∧
    (∀ i : Nat, i < (4 : Int).toNat →
      (sample_links (4 : Int)).getD i none = if i + 1 = (4 : Int).toNat then none else some (i + 1)) ∧
    tc_bucket (sample_links (4 : Int)) ((sample_links (4 : Int)).length + 1)
      (if (4 : Int).toNat = 0 then none else some 0) = some (List.range (4 : Int).toNat) :=
  random_dataset_invariants [exNineOne] [exNineOne] [[0, 9, 1]] 3 1 4 TC_BALANCED_SAMPLING
    exRands exSampled exSampled_run

/-! ## Theorems: the filters `tc_randomize_filter` draws -/

/-- C22 fails on the code, whose comment asks whether the range is correct:
in the rectangles family an offset is `rand() % (winsize*2) - (halfwidth*2-1)`.
For `winsize` 21 the values 0 and 41 of `rand()` give the offsets -19 and 22,
and 22 is not below `winsize`; for every `winsize` `n + 1` the value
`2 * winsize - 1` of `rand()` gives an offset `rowB` of at least `winsize`. -/
theorem rect_offsets_leave_window :
    tc_randomize_filter [0, 0, 41, 0, 0] tc_init_filter 1 TC_FILTERSET_RECTANGLES 21 0 =
      some (OK, { function := TC_FILTER_RECT, rowA := -19, colA := -19, chanA := 0,
                  rowB := 22, colB := -19, chanB := 0 }, []) ∧
    ¬ ((22 : Int) < 21) ∧
    ∀ n : Nat, ∃ flt,
      tc_randomize_filter [0, 0, 2 * ((n : Int) + 1) - 1, 0, 0] tc_init_filter 1
        TC_FILTERSET_RECTANGLES ((n : Int) + 1) 0 = some (OK, flt, []) ∧
      (n : Int) + 1 ≤ flt.rowB := by
  refine ⟨by decide, by decide, fun n => ⟨_, rfl, ?_⟩⟩
  show (n : Int) + 1 ≤ supm _ _
  have h1 : Int.tmod (2 * ((n : Int) + 1) - 1) (((n : Int) + 1) * 2) =
      2 * ((n : Int) + 1) - 1 := Int.tmod_eq_of_lt (by omega) (by omega)
  have h2 := tdiv_two_range ((n : Int) + 1) (by omega)
  have h3 : Int.tdiv ((n : Int) + 1) 2 * 2 ≤ (n : Int) + 1 := by
    rw [Int.tdiv_eq_ediv (by omega) (by decide)]
    omega
  rw [h1]
  unfold supm
  split <;> omega

theorem infm_le_supm (a b : Int) : infm a b ≤ supm a b := by
  unfold infm supm
  split <;> split <;> omega

/-- C23: in the rectangles family `tc_randomize_filter` with `crosschannel`
0, at least one channel and five values of `rand()` returns `OK` with the
function `TC_FILTER_RECT`, `chanA = chanB` in `[0, chans)`, and for the rows
as for the columns the smaller of the two offsets drawn in A and the larger
in B, so `rowA ≤ rowB` and `colA ≤ colB`; with `crosschannel` not 0 it
returns `ERR`, leaves the filter as it was and draws nothing. -/
theorem rect_filter_canonical (ch a b c d : Int) (rest : List Int) (f0 : tc_filter)
    (chans winsize crosschannel : Int) (hch : 0 ≤ ch) (hc : 1 ≤ chans) :
    (crosschannel ≠ 0 →
      tc_randomize_filter (ch :: a :: b :: c :: d :: rest) f0 chans TC_FILTERSET_RECTANGLES
        winsize crosschannel = some (ERR, f0, ch :: a :: b :: c :: d :: rest)) ∧
    (∃ flt,
      tc_randomize_filter (ch :: a :: b :: c :: d :: rest) f0 chans TC_FILTERSET_RECTANGLES
        winsize 0 = some (OK, flt, rest) ∧
      flt.function = TC_FILTER_RECT ∧ flt.chanA = flt.chanB ∧
      0 ≤ flt.chanA ∧ flt.chanA < chans ∧
      flt.rowA = min (Int.tmod a (winsize * 2) - (Int.tdiv winsize 2 * 2 - 1))
        (Int.tmod b (winsize * 2) - (Int.tdiv winsize 2 * 2 - 1)) ∧
      flt.rowB = max (Int.tmod a (winsize * 2) - (Int.tdiv winsize 2 * 2 - 1))
        (Int.tmod b (winsize * 2) - (Int.tdiv winsize 2 * 2 - 1)) ∧
      flt.colA = min (Int.tmod c (winsize * 2) - (Int.tdiv winsize 2 * 2 - 1))
        (Int.tmod d (winsize * 2) - (Int.tdiv winsize 2 * 2 - 1)) ∧
      flt.colB = max (Int.tmod c (winsize * 2) - (Int.tdiv winsize 2 * 2 - 1))
        (Int.tmod d (winsize * 2) - (Int.tdiv winsize 2 * 2 - 1)) ∧
      flt.rowA ≤ flt.rowB ∧ flt.colA ≤ flt.colB) := by
  have hfs : ¬ TC_FILTERSET_RECTANGLES = TC_FILTERSET_POINTS := by decide
  have hfs2 : ¬ TC_FILTERSET_RECTANGLES = TC_FILTERSET_RATIOS := by decide
  constructor
  · intro hcc
    unfold tc_randomize_filter
    rw [if_neg hfs, if_neg hfs2, if_pos rfl, if_pos hcc]
  · unfold tc_randomize_filter
    rw [if_neg hfs, if_neg hfs2, if_pos rfl, if_neg (fun h => h rfl)]
    have t := tmod_range ch chans hch (by omega)
    have hinf : ∀ x y : Int, infm x y = min x y := by
      intro x y
      unfold infm
      split
      · rename_i h
        exact (min_eq_left h).symm
      · rename_i h
        exact (min_eq_right (by omega)).symm
    have hsup : ∀ x y : Int, supm x y = max x y := by
      intro x y
      unfold supm
      split
      · rename_i h
        exact (max_eq_left h).symm
      · rename_i h
        exact (max_eq_right (by omega)).symm
    exact ⟨_, rfl, rfl, rfl, t.1, t.2, hinf _ _, hsup _ _, hinf _ _, hsup _ _,
      infm_le_supm _ _, infm_le_supm _ _⟩

/-- C23, evaluated on the window size 21 with five values of `rand()`. -/
theorem rect_filter_canonical_witness :
    ((3 : Int) ≠ 0 →
      tc_randomize_filter (7 :: 40 :: 2 :: 5 :: 30 :: []) exRaw 3 TC_FILTERSET_RECTANGLES
        21 3 = some (ERR, exRaw, 7 :: 40 :: 2 :: 5 :: 30 :: [])) ∧
    (∃ flt,
      tc_randomize_filter (7 :: 40 :: 2 :: 5 :: 30 :: []) exRaw 3 TC_FILTERSET_RECTANGLES
        21 0 = some (OK, flt, []) ∧
      flt.function = TC_FILTER_RECT ∧ flt.chanA = flt.chanB ∧
      0 ≤ flt.chanA ∧ flt.chanA < 3 ∧
      flt.rowA = min (Int.tmod 40 (21 * 2) - (Int.tdiv 21 2 * 2 - 1))
        (Int.tmod 2 (21 * 2) - (Int.tdiv 21 2 * 2 - 1)) ∧
      flt.rowB = max (Int.tmod 40 (21 * 2) - (Int.tdiv 21 2 * 2 - 1))
        (Int.tmod 2 (21 * 2) - (Int.tdiv 21 2 * 2 - 1)) ∧
      flt.colA = min (Int.tmod 5 (21 * 2) - (Int.tdiv 21 2 * 2 - 1))
        (Int.tmod 30 (21 * 2) - (Int.tdiv 21 2 * 2 - 1)) ∧
      flt.colB = max (Int.tmod 5 (21 * 2) - (Int.tdiv 21 2 * 2 - 1))
        (Int.tmod 30 (21 * 2) - (Int.tdiv 21 2 * 2 - 1)) ∧
      flt.rowA ≤ flt.rowB ∧ flt.colA ≤ flt.colB) :=
  rect_filter_canonical 7 40 2 5 30 [] exRaw 3 21 3 (by decide) (by decide)

theorem pick_function_kind :
    ∀ (rs : List Int) (f : Int) (rs2 : List Int),
      (∀ r ∈ rs, 0 ≤ r) → pick_function rs = some (f, rs2) →
      (f = TC_FILTER_RAW ∨ f = TC_FILTER_SUM ∨ f = TC_FILTER_DIFF ∨ f = TC_FILTER_ABS ∨
        f = TC_FILTER_RATIO) ∧ ∀ r ∈ rs2, 0 ≤ r := by
  intro rs
  induction rs with
  | nil =>
    intro f rs2 _ h
    simp [pick_function] at h
  | cons r rs ih =>
    intro f rs2 hr h
    unfold pick_function at h
    split at h
    · exact ih f rs2 (fun x hx => hr x (List.mem_cons_of_mem _ hx)) h
    · rename_i hc
      injection h with h
      injection h with h1 h2
      rw [← h1, ← h2]
      refine ⟨?_, fun x hx => hr x (List.mem_cons_of_mem _ hx)⟩
      by_contra hn
      apply hc
      simp only [not_or] at hn
      exact ⟨hn.1, hn.2.1, hn.2.2.1, hn.2.2.2.1, hn.2.2.2.2⟩

theorem pick_channels_range (rands : List Int) (chans crosschannel chanA chanB : Int)
    (rs : List Int) (hr : ∀ r ∈ rands, 0 ≤ r) (hc : 1 ≤ chans)
    (h : pick_channels rands chans crosschannel = some (chanA, chanB, rs)) :
    0 ≤ chanA ∧ chanA < chans ∧ 0 ≤ chanB ∧ chanB < chans ∧
    (crosschannel = 0 → chanB = chanA) ∧ ∀ r ∈ rs, 0 ≤ r := by
  unfold pick_channels at h
  cases rands with
  | nil => simp at h
  | cons r1 rs1 =>
    simp only at h
    have t1 := tmod_range r1 chans (hr r1 (List.mem_cons_self _ _)) (by omega)
    split at h
    · rename_i hcc
      cases rs1 with
      | nil => simp at h
      | cons r2 rs2 =>
        simp only at h
        have t2 := tmod_range r2 chans
          (hr r2 (List.mem_cons_of_mem _ (List.mem_cons_self _ _))) (by omega)
        injection h with h
        injection h with h1 h2
        injection h2 with h2 h3
        rw [← h1, ← h2, ← h3]
        exact ⟨t1.1, t1.2, t2.1, t2.2, fun h0 => absurd h0 hcc,
          fun x hx => hr x (List.mem_cons_of_mem _ (List.mem_cons_of_mem _ hx))⟩
    · injection h with h
      injection h with h1 h2
      injection h2 with h2 h3
      rw [← h1, ← h2, ← h3]
      exact ⟨t1.1, t1.2, t1.1, t1.2, fun _ => rfl, fun x hx => hr x (List.mem_cons_of_mem _ hx)⟩

/-- An offset of the points and ratios families lies in the window. -/
theorem offset_window (a winsize : Int) (ha : 0 ≤ a) (hw : 1 ≤ winsize) :
    -(Int.tdiv winsize 2) ≤ Int.tmod a winsize - Int.tdiv winsize 2 ∧
    Int.tmod a winsize - Int.tdiv winsize 2 < winsize - Int.tdiv winsize 2 := by
  have t := tmod_range a winsize ha (by omega)
  omega

theorem pick_function_skip (rs : List Int) :
    ∀ pre : List Int, (∀ r ∈ pre, Int.tmod r TC_FILTER_NFUNCTIONS = TC_FILTER_RECT) →
      pick_function (pre ++ rs) = pick_function rs := by
  intro pre
  induction pre with
  | nil =>
    intro _
    rfl
  | cons r pre ih =>
    intro h
    have hr := h r (List.mem_cons_self _ _)
    have e : ∀ tl, pick_function (r :: tl) = pick_function tl := by
      intro tl
      rw [pick_function, if_pos (by rw [hr]; decide)]
    show pick_function (r :: (pre ++ rs)) = _
    rw [e]
    exact ih (fun x hx => h x (List.mem_cons_of_mem _ hx))

theorem pick_function_take (f : Int) (rs : List Int) (hf : 0 ≤ f)
    (h : Int.tmod f TC_FILTER_NFUNCTIONS ≠ TC_FILTER_RECT) :
    pick_function (f :: rs) = some (Int.tmod f TC_FILTER_NFUNCTIONS, rs) := by
  unfold pick_function
  have t := tmod_range f TC_FILTER_NFUNCTIONS hf (by decide)
  rw [if_neg]
  intro hc
  unfold TC_FILTER_NFUNCTIONS at t
  unfold TC_FILTER_NFUNCTIONS TC_FILTER_RECT at h
  unfold TC_FILTER_NFUNCTIONS TC_FILTER_RAW TC_FILTER_SUM TC_FILTER_DIFF TC_FILTER_ABS
    TC_FILTER_RATIO at hc
  omega

theorem pick_channels_some (chs rs : List Int) (chans crosschannel : Int)
    (h : chs.length = (if crosschannel ≠ 0 then 2 else 1)) :
    ∃ chanA chanB, pick_channels (chs ++ rs) chans crosschannel = some (chanA, chanB, rs) := by
  unfold pick_channels
  by_cases hcc : crosschannel ≠ 0
  · rw [if_pos hcc] at h
    match chs, h with
    | [r1, r2], _ =>
      simp only [List.cons_append, List.nil_append, if_pos hcc]
      exact ⟨_, _, rfl⟩
  · rw [if_neg hcc] at h
    match chs, h with
    | [r1], _ =>
      simp only [List.cons_append, List.nil_append, if_neg hcc]
      exact ⟨_, _, rfl⟩

/-- C24: for a window size and a channel count of at least 1 and values of
`rand()` that are not negative, a filter that `tc_randomize_filter` returns
for the points or the ratios family comes with the status `OK`; its function
is one of raw, sum, difference, absolute difference and ratio for the points
family and ratio for the ratios family, never the rectangle; its four
offsets lie in `[-(winsize/2), winsize - winsize/2)`; its channels lie in
`[0, chans)`, and `chanB = chanA` when `crosschannel` is 0.  The function
returns when the values hold the channel draws, for the points family any
number of draws of the rectangle function followed by another function, and
four offsets. -/
theorem point_ratio_filters (rands : List Int) (f0 : tc_filter)
    (chans filterset winsize crosschannel : Int) (hw : 1 ≤ winsize) (hc : 1 ≤ chans)
    (hr : ∀ r ∈ rands, 0 ≤ r)
    (hfs : filterset = TC_FILTERSET_POINTS ∨ filterset = TC_FILTERSET_RATIOS) :
    (∀ (status : Int) (flt : tc_filter) (rest : List Int),
      tc_randomize_filter rands f0 chans filterset winsize crosschannel = some (status, flt, rest) →
      status = OK ∧
      (filterset = TC_FILTERSET_POINTS →
        flt.function = TC_FILTER_RAW ∨ flt.function = TC_FILTER_SUM ∨
        flt.function = TC_FILTER_DIFF ∨ flt.function = TC_FILTER_ABS ∨
        flt.function = TC_FILTER_RATIO) ∧
      (filterset = TC_FILTERSET_RATIOS → flt.function = TC_FILTER_RATIO) ∧
      flt.function ≠ TC_FILTER_RECT ∧
      (-(Int.tdiv winsize 2) ≤ flt.rowA ∧ flt.rowA < winsize - Int.tdiv winsize 2) ∧
      (-(Int.tdiv winsize 2) ≤ flt.colA ∧ flt.colA < winsize - Int.tdiv winsize 2) ∧
      (-(Int.tdiv winsize 2) ≤ flt.rowB ∧ flt.rowB < winsize - Int.tdiv winsize 2) ∧
      (-(Int.tdiv winsize 2) ≤ flt.colB ∧ flt.colB < winsize - Int.tdiv winsize 2) ∧
      (0 ≤ flt.chanA ∧ flt.chanA < chans) ∧ (0 ≤ flt.chanB ∧ flt.chanB < chans) ∧
      (crosschannel = 0 → flt.chanB = flt.chanA)) ∧
    (∀ (chs pre : List Int) (f a b c d : Int) (rest : List Int),
      rands = chs ++ (pre ++ f :: a :: b :: c :: d :: rest) →
      chs.length = (if crosschannel ≠ 0 then 2 else 1) →
      (∀ r ∈ pre, Int.tmod r TC_FILTER_NFUNCTIONS = TC_FILTER_RECT) →
      Int.tmod f TC_FILTER_NFUNCTIONS ≠ TC_FILTER_RECT →
      filterset = TC_FILTERSET_POINTS →
      ∃ flt, tc_randomize_filter rands f0 chans filterset winsize crosschannel = some (OK, flt, rest)) ∧
    (∀ (chs : List Int) (a b c d : Int) (rest : List Int),
      rands = chs ++ a :: b :: c :: d :: rest →
      chs.length = (if crosschannel ≠ 0 then 2 else 1) →
      filterset = TC_FILTERSET_RATIOS →
      ∃ flt, tc_randomize_filter rands f0 chans filterset winsize crosschannel = some (OK, flt, rest)) := by
  have hpr : ¬ TC_FILTERSET_RATIOS = TC_FILTERSET_POINTS := by decide
  have hkind : ∀ f : Int, (f = TC_FILTER_RAW ∨ f = TC_FILTER_SUM ∨ f = TC_FILTER_DIFF ∨
      f = TC_FILTER_ABS ∨ f = TC_FILTER_RATIO) → f ≠ TC_FILTER_RECT := by
    intro f hf
    rcases hf with e | e | e | e | e <;> rw [e] <;> decide
  refine ⟨?_, ?_, ?_⟩
  · intro status flt rest h
    unfold tc_randomize_filter at h
    rcases hfs with e | e
    · rw [if_pos e] at h
      cases hpc : pick_channels rands chans crosschannel with
      | none =>
        rw [hpc] at h
        cases h
      | some v =>
        obtain ⟨chanA, chanB, rs⟩ := v
        obtain ⟨c1, c2, c3, c4, c5, c6⟩ :=
          pick_channels_range rands chans crosschannel chanA chanB rs hr hc hpc
        rw [hpc] at h
        simp only at h
        cases hpf : pick_function rs with
        | none =>
          rw [hpf] at h
          cases h
        | some v2 =>
          obtain ⟨f, rs2⟩ := v2
          obtain ⟨k1, k2⟩ := pick_function_kind rs f rs2 c6 hpf
          rw [hpf] at h
          simp only at h
          match rs2, k2, h with
          | a :: b :: c :: d :: tl, k2, h =>
            simp only at h
            injection h with h
            injection h with h1 h2
            injection h2 with h2 h3
            rw [← h1, ← h2]
            have ha := k2 a (by simp)
            have hb := k2 b (by simp)
            have hc2 := k2 c (by simp)
            have hd := k2 d (by simp)
            exact ⟨rfl, fun _ => k1, fun e2 => absurd (e.symm.trans e2) (fun x => hpr x.symm),
              hkind f k1, offset_window a winsize ha hw, offset_window c winsize hc2 hw,
              offset_window b winsize hb hw, offset_window d winsize hd hw,
              ⟨c1, c2⟩, ⟨c3, c4⟩, c5⟩
    · rw [e, if_neg hpr, if_pos rfl] at h
      cases hpc : pick_channels rands chans crosschannel with
      | none =>
        rw [hpc] at h
        cases h
      | some v =>
        obtain ⟨chanA, chanB, rs⟩ := v
        obtain ⟨c1, c2, c3, c4, c5, c6⟩ :=
          pick_channels_range rands chans crosschannel chanA chanB rs hr hc hpc
        rw [hpc] at h
        simp only at h
        match rs, c6, h with
        | a :: b :: c :: d :: tl, k2, h =>
          simp only at h
          injection h with h
          injection h with h1 h2
          injection h2 with h2 h3
          rw [← h1, ← h2, e]
          have ha := k2 a (by simp)
          have hb := k2 b (by simp)
          have hc2 := k2 c (by simp)
          have hd := k2 d (by simp)
          exact ⟨rfl, fun _ => Or.inr (Or.inr (Or.inr (Or.inr rfl))), fun _ => rfl,
            hkind _ (Or.inr (Or.inr (Or.inr (Or.inr rfl)))), offset_window a winsize ha hw, offset_window c winsize hc2 hw,
            offset_window b winsize hb hw, offset_window d winsize hd hw,
            ⟨c1, c2⟩, ⟨c3, c4⟩, c5⟩
  · intro chs pre f a b c d rest hrands hlen hpre hf e
    obtain ⟨chanA, chanB, hpc⟩ := pick_channels_some chs
      (pre ++ f :: a :: b :: c :: d :: rest) chans crosschannel hlen
    have hf0 : 0 ≤ f := hr f (by rw [hrands]; simp)
    unfold tc_randomize_filter
    rw [if_pos e, hrands, hpc]
    simp only
    rw [pick_function_skip _ pre hpre, pick_function_take f _ hf0 hf]
    exact ⟨_, rfl⟩
  · intro chs a b c d rest hrands hlen e
    obtain ⟨chanA, chanB, hpc⟩ := pick_channels_some chs
      (a :: b :: c :: d :: rest) chans crosschannel hlen
    unfold tc_randomize_filter
    rw [e, if_neg hpr, if_pos rfl, hrands, hpc]
    exact ⟨_, rfl⟩

/-- C24, evaluated on the points family with a window of 5, three channels
and values of `rand()` of which two draw the rectangle function. -/
theorem point_ratio_filters_witness :
    (∀ (status : Int) (flt : tc_filter) (rest : List Int),
      tc_randomize_filter [4, 11, 5, 8, 2, 9, 0, 7] exRaw (3 : Int) TC_FILTERSET_POINTS (5 : Int) (0 : Int) = some (status, flt, rest) →
      status = OK ∧
      (TC_FILTERSET_POINTS = TC_FILTERSET_POINTS →
        flt.function = TC_FILTER_RAW ∨ flt.function = TC_FILTER_SUM ∨
        flt.function = TC_FILTER_DIFF ∨ flt.function = TC_FILTER_ABS ∨
        flt.function = TC_FILTER_RATIO) ∧
      (TC_FILTERSET_POINTS = TC_FILTERSET_RATIOS → flt.function = TC_FILTER_RATIO) ∧
      flt.function ≠ TC_FILTER_RECT ∧
      (-(Int.tdiv (5 : Int) 2) ≤ flt.rowA ∧ flt.rowA < (5 : Int) - Int.tdiv (5 : Int) 2) ∧
      (-(Int.tdiv (5 : Int) 2) ≤ flt.colA ∧ flt.colA < (5 : Int) - Int.tdiv (5 : Int) 2) ∧
      (-(Int.tdiv (5 : Int) 2) ≤ flt.rowB ∧ flt.rowB < (5 : Int) - Int.tdiv (5 : Int) 2) ∧
      (-(Int.tdiv (5 : Int) 2) ≤ flt.colB ∧ flt.colB < (5 : Int) - Int.tdiv (5 : Int) 2) ∧
      (0 ≤ flt.chanA ∧ flt.chanA < (3 : Int)) ∧ (0 ≤ flt.chanB ∧ flt.chanB < (3 : Int)) ∧
      ((0 : Int) = 0 → flt.chanB = flt.chanA)) ∧
    (∀ (chs pre : List Int) (f a b c d : Int) (rest : List Int),
      [4, 11, 5, 8, 2, 9, 0, 7] = chs ++ (pre ++ f :: a :: b :: c :: d :: rest) →
      chs.length = (if (0 : Int) ≠ 0 then 2 else 1) →
      (∀ r ∈ pre, Int.tmod r TC_FILTER_NFUNCTIONS = TC_FILTER_RECT) →
      Int.tmod f TC_FILTER_NFUNCTIONS ≠ TC_FILTER_RECT →
      TC_FILTERSET_POINTS = TC_FILTERSET_POINTS →
      ∃ flt, tc_randomize_filter [4, 11, 5, 8, 2, 9, 0, 7] exRaw (3 : Int) TC_FILTERSET_POINTS (5 : Int) (0 : Int) = some (OK, flt, rest)) ∧
    (∀ (chs : List Int) (a b c d : Int) (rest : List Int),
      [4, 11, 5, 8, 2, 9, 0, 7] = chs ++ a :: b :: c :: d :: rest →
      chs.length = (if (0 : Int) ≠ 0 then 2 else 1) →
      TC_FILTERSET_POINTS = TC_FILTERSET_RATIOS →
      ∃ flt, tc_randomize_filter [4, 11, 5, 8, 2, 9, 0, 7] exRaw (3 : Int) TC_FILTERSET_POINTS (5 : Int) (0 : Int) = some (OK, flt, rest)) :=
  point_ratio_filters [4, 11, 5, 8, 2, 9, 0, 7] exRaw 3 TC_FILTERSET_POINTS 5 0 (by decide)
    (by decide) (by decide) (Or.inl rfl)

theorem exPoints_run :
    tc_randomize_filter [4, 11, 5, 8, 2, 9, 0, 7] exRaw 3 TC_FILTERSET_POINTS 5 0 =
      some (OK, { function := TC_FILTER_DIFF, rowA := 0, colA := -2, chanA := 1,
                  rowB := 2, colB := 0, chanB := 1 }, []) ∧
    tc_randomize_filter [4, 2, 9, 0, 7, 3] exRaw 3 TC_FILTERSET_RATIOS 5 1 =
      some (OK, { function := TC_FILTER_RATIO, rowA := 2, colA := 0, chanA := 1,
                  rowB := -2, colB := 1, chanB := 2 }, []) := by
  decide

/-! ## Theorems: a filter that leaves the image -/

/-- The loop over the trees returns at the first tree whose walk meets a
failing filter, when the walks of the trees before it end. -/
theorem classify_trees_abort (M : FloatOps) (fuel : Nat) (image : tc_image) (r c : Int)
    (out : Option (List M.F)) (forest : tc_forest M.F) :
    ∀ (n k j : Nat) (probs : List M.F) (t : tc_tree M.F), j < n →
      forest.trees[k + j]? = some t →
      tc_walk t image r c fuel (some 0) = WalkResult.nodata →
      (∀ i, i < j → ∃ tr, forest.trees[k + i]? = some tr ∧
        tc_walk tr image r c fuel (some 0) ≠ WalkResult.stuck) →
      classify_trees M fuel forest image r c out k n probs =
        some (Sum.inl { status := OK, pixel_class := ERROR_CLASS, class_probs_out := out }) := by
  intro n
  induction n with
  | zero =>
    intro k j probs t hj
    cases hj
  | succ n ih =>
    intro k j probs t hj ht hw hpre
    unfold classify_trees
    cases j with
    | zero =>
      rw [Nat.add_zero] at ht
      rw [ht]
      simp only
      rw [hw]
    | succ j =>
      obtain ⟨tr, h1, h2⟩ := hpre 0 (Nat.succ_pos j)
      rw [Nat.add_zero] at h1
      rw [h1]
      simp only
      cases hwk : tc_walk tr image r c fuel (some 0) with
      | stuck => exact absurd hwk h2
      | nodata => rfl
      | leaf node =>
        simp only
        refine ih (k + 1) j _ t (by omega) ?_ hw ?_
        · rw [show k + 1 + j = k + (j + 1) from by omega]
          exact ht
        · intro i hi
          rw [show k + 1 + i = k + (i + 1) from by omega]
          exact hpre (i + 1) (by omega)

/-- C26 as stated fails: the A-offset (1, 1) of `exCenter` is not (0, 0), and
at pixel (0, 0) of the 3 x 3 image `exNine` it reads the pixel (1, 1), which
is inside the image; `tc_forest_classify` returns class 2. -/
theorem corner_pixel_counterexample :
    exNine.rows = 3 ∧ exNine.cols = 3 ∧
    (∃ tree root, exCenterForest.trees[0]? = some tree ∧ tree.nodes[0]? = some root ∧
      tc_isleaf root = false ∧ (root.filter.rowA, root.filter.colA) ≠ (0, 0)) ∧
    (tc_forest_classify ratOps 3 exCenterForest exNine 0 0 none).map
      (fun res => (res.status, res.pixel_class)) = some (OK, 2) ∧
    (2 : Int) ≠ ERROR_CLASS := by
  refine ⟨rfl, rfl, ⟨_, _, rfl, rfl, rfl, by decide⟩, ?_, by decide⟩
  with_unfolding_all rfl

/-- C26 amended: for every image of 3 rows and 3 columns and every forest of
at most `MAX_N_CLASSES` classes in which the root of tree `t` is a split node
whose filter has an A-offset outside the image, a row or column offset below
0 or above 2, and in which the walks of the trees before `t` end,
`tc_forest_classify` at pixel (0, 0) returns `OK` with the class
`ERROR_CLASS` and leaves the buffer of the caller as it was. -/
theorem corner_pixel_error (M : FloatOps) (fuel : Nat) (forest : tc_forest M.F)
    (image : tc_image) (out : Option (List M.F)) (t : Nat) (tree : tc_tree M.F)
    (root : tc_node M.F) (hrows : image.rows = 3) (hcols : image.cols = 3)
    (hcls : forest.nclasses ≤ MAX_N_CLASSES) (ht : (t : Int) < forest.ntrees)
    (htree : forest.trees[t]? = some tree) (hroot : tree.nodes[0]? = some root)
    (hsplit : tc_isleaf root = false)
    (hoff : root.filter.rowA < 0 ∨ 2 < root.filter.rowA ∨
      root.filter.colA < 0 ∨ 2 < root.filter.colA)
    (hpre : ∀ i, i < t → ∃ tr, forest.trees[i]? = some tr ∧
      tc_walk tr image 0 0 (fuel + 1) (some 0) ≠ WalkResult.stuck) :
    tc_forest_classify M (fuel + 1) forest image 0 0 out =
      some { status := OK, pixel_class := ERROR_CLASS, class_probs_out := out } := by
  have hw : tc_walk tree image 0 0 (fuel + 1) (some 0) = WalkResult.nodata := by
    unfold tc_walk
    have hd : tc_deref tree (some 0) = some root := by
      unfold tc_deref
      simp only [le_refl, if_true]
      exact hroot
    rw [hd]
    simp only [hsplit]
    have he : (tc_filter_pixel root.filter image 0 0 0).1 = ERR := by
      unfold tc_filter_pixel
      simp only [add_zero]
      rw [if_pos (by rw [hrows, hcols]; omega)]
    rw [if_pos he]
    simp
  unfold tc_forest_classify
  rw [if_neg (by omega)]
  simp only
  rw [classify_trees_abort M (fuel + 1) image 0 0 out forest forest.ntrees.toNat 0 t _ tree
    (by omega) (by rw [Nat.zero_add]; exact htree) hw
    (fun i hi => by rw [Nat.zero_add]; exact hpre i hi)]

/-- The amended C26 at the forest `exAboveForest`, whose second tree has a
root filter that leaves the image `exNine` at pixel (0, 0). -/
theorem corner_pixel_error_witness :
    tc_forest_classify ratOps (2 + 1) exAboveForest exNine 0 0 (some exBuf) =
      some { status := OK, pixel_class := ERROR_CLASS, class_probs_out := some exBuf } :=
  corner_pixel_error ratOps 2 exAboveForest exNine (some exBuf) 1
    { exTree with nodes := { exSplit with filter := exAbove } :: exTree.nodes.tail }
    { exSplit with filter := exAbove } rfl rfl (by decide) (by decide) rfl rfl rfl
    (Or.inl (by decide))
    (fun i hi => ⟨exLeafTree, by
      have h0 : i = 0 := by omega
      subst h0
      refine ⟨rfl, ?_⟩
      have hw : tc_walk exLeafTree exNine 0 0 (2 + 1) (some 0) =
          WalkResult.leaf (exLeaf [0, 1, 1, 0, 0, 0, 0, 0] [0, 1/2, 1/2, 0, 0, 0, 0, 0] 1) := by
        with_unfolding_all rfl
      rw [hw]
      intro hn
      cases hn⟩)

/-! ## Theorems: raster addressing (`tc_get`, `tc_set`) -/

/-- The walk of `tc_forest_classify` in terms of the result of the loop of
`tc_find_leaf`. -/
theorem find_leaf_loop_walk {F : Type} (tree : tc_tree F) (image : tc_image) (r c : Int) :
    ∀ (fuel : Nat) (p : Option Int),
      tc_walk tree image r c fuel p =
        match find_leaf_loop tree image r c fuel p with
        | none => WalkResult.stuck
        | some none => WalkResult.nodata
        | some (some i) =>
          match tc_deref tree (some i) with
          | some node => WalkResult.leaf node
          | none => WalkResult.stuck := by
  intro fuel
  induction fuel with
  | zero =>
    intro p
    rfl
  | succ fuel ih =>
    intro p
    unfold tc_walk find_leaf_loop
    cases hd : tc_deref tree p with
    | none => rfl
    | some node =>
      simp only
      by_cases hl : tc_isleaf node = true
      · rw [if_pos hl, if_pos hl]
        cases p with
        | none => simp [tc_deref] at hd
        | some i =>
          simp only
          rw [hd]
      · rw [if_neg hl, if_neg hl]
        by_cases he : (tc_filter_pixel node.filter image r c 0).1 = ERR
        · simp only [he, if_true]
        · simp only [he, if_false]
          by_cases hg : (tc_filter_pixel node.filter image r c 0).2 > node.threshold
          · rw [if_pos hg, if_pos hg]
            exact ih _
          · rw [if_neg hg, if_neg hg]
            exact ih _

/-- A pointer the loop of `tc_find_leaf` returns refers to a leaf of the tree. -/
theorem find_leaf_loop_leaf {F : Type} (tree : tc_tree F) (image : tc_image) (r c : Int)
    (i : Int) :
    ∀ (fuel : Nat) (p : Option Int),
      find_leaf_loop tree image r c fuel p = some (some i) →
      ∃ node, tc_deref tree (some i) = some node ∧ tc_isleaf node = true := by
  intro fuel
  induction fuel with
  | zero =>
    intro p h
    simp [find_leaf_loop] at h
  | succ fuel ih =>
    intro p h
    unfold find_leaf_loop at h
    cases hd : tc_deref tree p with
    | none => simp [hd] at h
    | some node =>
      simp only [hd] at h
      by_cases hl : tc_isleaf node = true
      · rw [if_pos hl] at h
        have hp : p = some i := Option.some.inj h
        rw [hp] at hd
        exact ⟨node, hd, hl⟩
      · rw [if_neg hl] at h
        by_cases he : (tc_filter_pixel node.filter image r c 0).1 = ERR
        · simp [he] at h
        · simp only [he, if_false] at h
          by_cases hg : (tc_filter_pixel node.filter image r c 0).2 > node.threshold
          · rw [if_pos hg] at h
            exact ih _ h
          · rw [if_neg hg] at h
            exact ih _ h

/-- The loop of `tc_find_leaf` returns `NULL` when the filter of a split node
it visits fails, and a node when none does. -/
theorem find_leaf_loop_visited {F : Type} (tree : tc_tree F) (image : tc_image) (r c : Int) :
    ∀ (fuel : Nat) (p : Option Int),
      (find_leaf_loop tree image r c fuel p = some none →
        ∃ node ∈ find_leaf_visited tree image r c fuel p, tc_isleaf node = false ∧
          (tc_filter_pixel node.filter image r c 0).1 = ERR) ∧
      (∀ i, find_leaf_loop tree image r c fuel p = some (some i) →
        ∀ node ∈ find_leaf_visited tree image r c fuel p, tc_isleaf node = false →
          (tc_filter_pixel node.filter image r c 0).1 ≠ ERR) := by
  intro fuel
  induction fuel with
  | zero =>
    intro p
    constructor
    · intro h
      simp [find_leaf_loop] at h
    · intro i h
      simp [find_leaf_loop] at h
  | succ fuel ih =>
    intro p
    unfold find_leaf_loop find_leaf_visited
    cases hd : tc_deref tree p with
    | none =>
      constructor
      · intro h
        simp at h
      · intro i h
        simp at h
    | some node =>
      simp only
      by_cases hl : tc_isleaf node = true
      · rw [if_pos hl, if_pos hl]
        constructor
        · intro h
          have hp : p = none := Option.some.inj h
          rw [hp] at hd
          simp [tc_deref] at hd
        · intro i _ nd hnd hsplit
          rw [List.mem_singleton] at hnd
          rw [hnd, hl] at hsplit
          cases hsplit
      · rw [if_neg hl, if_neg hl]
        have hl2 : tc_isleaf node = false := by
          cases hq : tc_isleaf node with
          | true => exact absurd hq hl
          | false => rfl
        by_cases he : (tc_filter_pixel node.filter image r c 0).1 = ERR
        · simp only [he, if_true]
          constructor
          · intro _
            exact ⟨node, List.mem_singleton.mpr rfl, hl2, he⟩
          · intro i h
            simp at h
        · simp only [he, if_false]
          by_cases hg : (tc_filter_pixel node.filter image r c 0).2 > node.threshold
          · rw [if_pos hg, if_pos hg]
            constructor
            · intro h
              obtain ⟨nd, h1, h2⟩ := (ih node.high).1 h
              exact ⟨nd, List.mem_cons_of_mem _ h1, h2⟩
            · intro i h nd hnd hsplit
              rcases List.mem_cons.mp hnd with h1 | h1
              · rw [h1]
                exact he
              · exact (ih node.high).2 i h nd h1 hsplit
          · rw [if_neg hg, if_neg hg]
            constructor
            · intro h
              obtain ⟨nd, h1, h2⟩ := (ih node.low).1 h
              exact ⟨nd, List.mem_cons_of_mem _ h1, h2⟩
            · intro i h nd hnd hsplit
              rcases List.mem_cons.mp hnd with h1 | h1
              · rw [h1]
                exact he
              · exact (ih node.low).2 i h nd h1 hsplit

/-- On a well-formed tree `tc_find_leaf` returns a pointer to the leaf the
walk of `tc_forest_classify` reaches, or `NULL` when that walk meets a
failing filter. -/
theorem tc_find_leaf_cases {F : Type} (tree : tc_tree F) (hwf : tree_wf tree)
    (image : tc_image) (r c : Int) (fuel : Nat) (hfuel : tree.nodes.length ≤ fuel) :
    (∃ i leaf, tc_find_leaf tree image r c fuel = some (some i) ∧
      tc_deref tree (some i) = some leaf ∧ tc_isleaf leaf = true ∧
      tc_walk tree image r c fuel (some 0) = WalkResult.leaf leaf) ∨
    (tc_find_leaf tree image r c fuel = some none ∧
      tc_walk tree image r c fuel (some 0) = WalkResult.nodata) := by
  have hpos : 0 < tree.nodes.length := by
    obtain ⟨h1, h2, _, _⟩ := hwf
    omega
  have hns := tree_wf_walk tree hwf image r c fuel 0 hpos (by omega)
  have hw := find_leaf_loop_walk tree image r c fuel (some 0)
  simp only [Nat.cast_zero] at hns
  unfold tc_find_leaf
  cases hf : find_leaf_loop tree image r c fuel (some 0) with
  | none =>
    rw [hf] at hw
    exact absurd hw hns
  | some q =>
    cases q with
    | none =>
      rw [hf] at hw
      exact Or.inr ⟨rfl, hw⟩
    | some i =>
      obtain ⟨node, hd, hl⟩ := find_leaf_loop_leaf tree image r c i fuel (some 0) hf
      rw [hf] at hw
      simp only [hd] at hw
      exact Or.inl ⟨i, node, rfl, hd, hl, hw⟩

/-- When the loop over the trees returns from inside, the walk of one of the
trees met a failing filter. -/
theorem classify_trees_inl_tree (M : FloatOps) (fuel : Nat) (image : tc_image) (r c : Int)
    (out : Option (List M.F)) (forest : tc_forest M.F) (res : ClassifyResult M.F) :
    ∀ (n k : Nat) (probs : List M.F),
      classify_trees M fuel forest image r c out k n probs = some (Sum.inl res) →
      ∃ j tree, j < n ∧ forest.trees[k + j]? = some tree ∧
        tc_walk tree image r c fuel (some 0) = WalkResult.nodata := by
  intro n
  induction n with
  | zero =>
    intro k probs h
    simp [classify_trees] at h
  | succ n ih =>
    intro k probs h
    unfold classify_trees at h
    cases ht : forest.trees[k]? with
    | none => simp [ht] at h
    | some tree =>
      simp only [ht] at h
      cases hw : tc_walk tree image r c fuel (some 0) with
      | stuck => simp [hw] at h
      | nodata => exact ⟨0, tree, Nat.succ_pos n, ht, hw⟩
      | leaf node =>
        simp only [hw] at h
        obtain ⟨j, tr, h1, h2, h3⟩ := ih (k + 1) _ h
        refine ⟨j + 1, tr, by omega, ?_, h3⟩
        rw [show k + (j + 1) = k + 1 + j from by omega]
        exact h2

/-- Trees whose walks all reach leaves have a list of the leaves reached. -/
theorem leaves_exist {F : Type} (image : tc_image) (r c : Int) (fuel : Nat)
    (trees : List (tc_tree F)) :
    ∀ (n k : Nat),
      (∀ j, j < n → ∃ tree i leaf, trees[k + j]? = some tree ∧
        tc_find_leaf tree image r c fuel = some (some i) ∧
        tc_deref tree (some i) = some leaf ∧
        tc_walk tree image r c fuel (some 0) = WalkResult.leaf leaf) →
      ∃ leaves : List (tc_node F), leaves.length = n ∧
        ∀ j (h : j < leaves.length), ∃ tree i, trees[k + j]? = some tree ∧
          tc_find_leaf tree image r c fuel = some (some i) ∧
          tc_deref tree (some i) = some (leaves.get ⟨j, h⟩) ∧
          tc_walk tree image r c fuel (some 0) = WalkResult.leaf (leaves.get ⟨j, h⟩) := by
  intro n
  induction n with
  | zero =>
    intro k _
    exact ⟨[], rfl, fun j h => absurd h (Nat.not_lt_zero j)⟩
  | succ n ih =>
    intro k h
    obtain ⟨tree, i, leaf, h1, h2, h3, h4⟩ := h 0 (Nat.succ_pos n)
    obtain ⟨leaves, hlen, hrest⟩ := ih (k + 1) (fun j hj => by
      rw [show k + 1 + j = k + (j + 1) from by omega]
      exact h (j + 1) (by omega))
    refine ⟨leaf :: leaves, by rw [List.length_cons, hlen], ?_⟩
    intro j hj
    cases j with
    | zero => exact ⟨tree, i, h1, h2, h3, h4⟩
    | succ j =>
      have hj2 : j < leaves.length := by
        rw [List.length_cons] at hj
        omega
      obtain ⟨tr, i2, g1, g2, g3, g4⟩ := hrest j hj2
      refine ⟨tr, i2, ?_, g2, g3, g4⟩
      rw [show k + (j + 1) = k + 1 + j from by omega]
      exact g1

/-- C28: the loop of `tc_find_leaf` starts at node 0, returns the pointer to
a leaf, returns `NULL` at a split node whose filter fails, and otherwise
moves to the high child when the filter result is greater than the threshold
and to the low child when it is not.  On a well-formed tree it returns a
pointer to a leaf, the leaf the walk of `tc_forest_classify` reaches, and no
filter of a visited node failed; or it returns `NULL`, that walk met a
failing filter, and the filter of a visited split node failed.  For a forest
of well-formed trees, the loop over the trees of `tc_forest_classify` returns
from inside, with `ERROR_CLASS`, exactly when `tc_find_leaf` returns `NULL`
for one of the trees; otherwise `tc_find_leaf` returns a leaf for every tree
and the function accumulates the `class_probs` of these leaves in the order
of the trees. -/
theorem find_leaf_agrees_with_classify (M : FloatOps) (fuel : Nat) (forest : tc_forest M.F)
    (tree : tc_tree M.F) (image : tc_image) (r c : Int) (out : Option (List M.F))
    (hcls : forest.nclasses ≤ MAX_N_CLASSES) (hwf : tree_wf tree)
    (hfuel : tree.nodes.length ≤ fuel)
    (htrees : ∀ t, t < forest.ntrees.toNat → ∃ tr, forest.trees[t]? = some tr ∧
      tree_wf tr ∧ tr.nodes.length ≤ fuel) :
    tc_find_leaf tree image r c fuel = find_leaf_loop tree image r c fuel (some 0) ∧
    (∀ (n : Nat) (p : Option Int) (node : tc_node M.F), tc_deref tree p = some node →
      find_leaf_loop tree image r c (n + 1) p =
        if tc_isleaf node then some p
        else if (tc_filter_pixel node.filter image r c 0).1 = ERR then some none
        else if (tc_filter_pixel node.filter image r c 0).2 > node.threshold then
          find_leaf_loop tree image r c n node.high
        else find_leaf_loop tree image r c n node.low) ∧
    ((∃ i leaf, tc_find_leaf tree image r c fuel = some (some i) ∧
        tc_deref tree (some i) = some leaf ∧ tc_isleaf leaf = true ∧
        tc_walk tree image r c fuel (some 0) = WalkResult.leaf leaf ∧
        ∀ node ∈ find_leaf_visited tree image r c fuel (some 0), tc_isleaf node = false →
          (tc_filter_pixel node.filter image r c 0).1 ≠ ERR) ∨
      (tc_find_leaf tree image r c fuel = some none ∧
        tc_walk tree image r c fuel (some 0) = WalkResult.nodata ∧
        ∃ node ∈ find_leaf_visited tree image r c fuel (some 0), tc_isleaf node = false ∧
          (tc_filter_pixel node.filter image r c 0).1 = ERR)) ∧
    ((∃ t tr, t < forest.ntrees.toNat ∧ forest.trees[t]? = some tr ∧
        tc_find_leaf tr image r c fuel = some none) ↔
      classify_trees M fuel forest image r c out 0 forest.ntrees.toNat
          (List.replicate forest.nclasses.toNat (M.ofInt 0)) =
        some (Sum.inl { status := OK, pixel_class := ERROR_CLASS, class_probs_out := out })) ∧
    ((∃ t tr, t < forest.ntrees.toNat ∧ forest.trees[t]? = some tr ∧
        tc_find_leaf tr image r c fuel = some none) →
      tc_forest_classify M fuel forest image r c out =
        some { status := OK, pixel_class := ERROR_CLASS, class_probs_out := out }) ∧
    ((¬ ∃ t tr, t < forest.ntrees.toNat ∧ forest.trees[t]? = some tr ∧
        tc_find_leaf tr image r c fuel = some none) →
      ∃ leaves : List (tc_node M.F), leaves.length = forest.ntrees.toNat ∧
        (∀ t (h : t < leaves.length), ∃ tr i, forest.trees[t]? = some tr ∧
          tc_find_leaf tr image r c fuel = some (some i) ∧
          tc_deref tr (some i) = some (leaves.get ⟨t, h⟩)) ∧
        classify_trees M fuel forest image r c out 0 forest.ntrees.toNat
            (List.replicate forest.nclasses.toNat (M.ofInt 0)) =
          some (Sum.inr (leaves.foldl (accumulate_probs M)
            (List.replicate forest.nclasses.toNat (M.ofInt 0)))) ∧
        tc_forest_classify M fuel forest image r c out =
          some { status := OK,
                 pixel_class := (map_loop M forest.ntrees (leaves.foldl (accumulate_probs M)
                   (List.replicate forest.nclasses.toNat (M.ofInt 0)))).pixel_class,
                 class_probs_out := out.map fun buf => copy_probs buf
                   (map_loop M forest.ntrees (leaves.foldl (accumulate_probs M)
                     (List.replicate forest.nclasses.toNat (M.ofInt 0)))).class_probs }) := by
  have habort : (∃ t tr, t < forest.ntrees.toNat ∧ forest.trees[t]? = some tr ∧
        tc_find_leaf tr image r c fuel = some none) →
      classify_trees M fuel forest image r c out 0 forest.ntrees.toNat
          (List.replicate forest.nclasses.toNat (M.ofInt 0)) =
        some (Sum.inl { status := OK, pixel_class := ERROR_CLASS, class_probs_out := out }) := by
    rintro ⟨t, tr, ht, htr, hf⟩
    have hw : tc_walk tr image r c fuel (some 0) = WalkResult.nodata := by
      obtain ⟨tr2, e1, e2, e3⟩ := htrees t ht
      rw [htr] at e1
      cases e1
      rcases tc_find_leaf_cases tr e2 image r c fuel e3 with ⟨i, leaf, g, _⟩ | ⟨_, g⟩
      · rw [hf] at g
        cases g
      · exact g
    refine classify_trees_abort M fuel image r c out forest forest.ntrees.toNat 0 t _ tr ht
      (by rw [Nat.zero_add]; exact htr) hw ?_
    intro i hi
    obtain ⟨tr2, e1, e2, e3⟩ := htrees i (by omega)
    refine ⟨tr2, by rw [Nat.zero_add]; exact e1, ?_⟩
    have hpos : 0 < tr2.nodes.length := by
      obtain ⟨h1, h2, _, _⟩ := e2
      omega
    have := tree_wf_walk tr2 e2 image r c fuel 0 hpos (by omega)
    simpa using this
  refine ⟨rfl, ?_, ?_, ⟨habort, ?_⟩, ?_, ?_⟩
  · intro n p node hd
    rw [find_leaf_loop, hd]
  · rcases tc_find_leaf_cases tree hwf image r c fuel hfuel with ⟨i, leaf, g1, g2, g3, g4⟩ | ⟨g1, g2⟩
    · exact Or.inl ⟨i, leaf, g1, g2, g3, g4,
        (find_leaf_loop_visited tree image r c fuel (some 0)).2 i g1⟩
    · exact Or.inr ⟨g1, g2, (find_leaf_loop_visited tree image r c fuel (some 0)).1 g1⟩
  · intro h
    obtain ⟨j, tr, h1, h2, h3⟩ := classify_trees_inl_tree M fuel image r c out forest _ _ 0 _ h
    rw [Nat.zero_add] at h2
    refine ⟨j, tr, h1, h2, ?_⟩
    obtain ⟨tr2, e1, e2, e3⟩ := htrees j h1
    rw [h2] at e1
    cases e1
    rcases tc_find_leaf_cases tr e2 image r c fuel e3 with ⟨i, leaf, _, _, _, g⟩ | ⟨g, _⟩
    · rw [h3] at g
      cases g
    · exact g
  · intro h
    unfold tc_forest_classify
    rw [if_neg (by omega)]
    simp only
    rw [habort h]
  · intro hno
    obtain ⟨leaves, hlen, hl⟩ := leaves_exist image r c fuel forest.trees forest.ntrees.toNat 0
      (by
        intro j hj
        obtain ⟨tr, e1, e2, e3⟩ := htrees j hj
        rcases tc_find_leaf_cases tr e2 image r c fuel e3 with ⟨i, leaf, g1, g2, _, g4⟩ | ⟨g, _⟩
        · exact ⟨tr, i, leaf, by rw [Nat.zero_add]; exact e1, g1, g2, g4⟩
        · exact absurd ⟨j, tr, hj, e1, g⟩ hno)
    have hwalk : ∀ t (h : t < leaves.length), ∃ tr, forest.trees[0 + t]? = some tr ∧
        tc_walk tr image r c fuel (some 0) = WalkResult.leaf (leaves.get ⟨t, h⟩) := by
      intro t h
      obtain ⟨tr, i, g1, _, _, g4⟩ := hl t h
      exact ⟨tr, g1, g4⟩
    refine ⟨leaves, hlen, ?_, ?_, ?_⟩
    · intro t h
      obtain ⟨tr, i, g1, g2, g3, _⟩ := hl t h
      rw [Nat.zero_add] at g1
      exact ⟨tr, i, g1, g2, g3⟩
    · rw [← hlen]
      exact classify_trees_leaves M fuel image r c out forest leaves 0 _ hwalk
    · exact forest_classify_leaves_eq M fuel forest image r c out leaves hcls hlen
        (fun t h => by
          obtain ⟨tr, g1, g2⟩ := hwalk t h
          rw [Nat.zero_add] at g1
          exact ⟨tr, g1, g2⟩)

theorem exTree_wf : tree_wf exTree := by
  refine ⟨rfl, by decide, by decide, ?_⟩
  intro k node h
  match k with
  | 0 =>
    have e : node = exSplit := (Option.some.inj h).symm
    rw [e]
    exact Or.inr ⟨1, rfl, rfl, by decide, by decide⟩
  | 1 =>
    have e : node = exLeaf [0, 3, 1, 0, 0, 0, 0, 0] [0, 3/4, 1/4, 0, 0, 0, 0, 0] 1 :=
      (Option.some.inj h).symm
    rw [e]
    exact Or.inl ⟨rfl, rfl⟩
  | 2 =>
    have e : node = exLeaf [0, 1, 3, 0, 0, 0, 0, 0] [0, 1/4, 3/4, 0, 0, 0, 0, 0] 2 :=
      (Option.some.inj h).symm
    rw [e]
    exact Or.inl ⟨rfl, rfl⟩
  | k + 3 => cases h

theorem exLeafTree_wf : tree_wf exLeafTree := by
  refine ⟨rfl, by decide, by decide, ?_⟩
  intro k node h
  match k with
  | 0 =>
    have e : node = exLeaf [0, 1, 1, 0, 0, 0, 0, 0] [0, 1/2, 1/2, 0, 0, 0, 0, 0] 1 :=
      (Option.some.inj h).symm
    rw [e]
    exact Or.inl ⟨rfl, rfl⟩
  | k + 1 => cases h

/-- C28 at the forest `exForest`, its tree `exTree` and pixel (0, 0) of
`exImage`: the result of `tc_find_leaf` and of the walk of
`tc_forest_classify`. -/
theorem find_leaf_agrees_with_classify_witness :
    tc_find_leaf exTree exImage 0 0 3 = some (some 1) ∧
    ((∃ i leaf, tc_find_leaf exTree exImage 0 0 3 = some (some i) ∧
        tc_deref exTree (some i) = some leaf ∧ tc_isleaf leaf = true ∧
        tc_walk exTree exImage 0 0 3 (some 0) = WalkResult.leaf leaf ∧
        ∀ node ∈ find_leaf_visited exTree exImage 0 0 3 (some 0), tc_isleaf node = false →
          (tc_filter_pixel node.filter exImage 0 0 0).1 ≠ ERR) ∨
      (tc_find_leaf exTree exImage 0 0 3 = some none ∧
        tc_walk exTree exImage 0 0 3 (some 0) = WalkResult.nodata ∧
        ∃ node ∈ find_leaf_visited exTree exImage 0 0 3 (some 0), tc_isleaf node = false ∧
          (tc_filter_pixel node.filter exImage 0 0 0).1 = ERR)) :=
  ⟨by with_unfolding_all rfl,
    (find_leaf_agrees_with_classify ratOps 3 exForest exTree exImage 0 0 (some exBuf)
      (by decide) exTree_wf (by decide)
      (fun t ht => by
        have h2 : t < 2 := ht
        match t with
        | 0 => exact ⟨exTree, rfl, exTree_wf, by decide⟩
        | 1 => exact ⟨exLeafTree, rfl, exLeafTree_wf, by decide⟩
        | t + 2 => omega)).2.2.1⟩

/-! ## Theorems: the node `tc_next_expansion` chooses -/

theorem exChain_bucket (n : Nat) :
    tc_bucket (exChain n).next ((exChain n).next.length + 1) ((exChain n).heads.getD 0 none) =
      some (List.range n) := by
  have h := sample_links_chain (n : Int) n 0 (by simp)
  rw [← List.range_eq_range'] at h
  exact tc_bucket_of_is_list _ _ _ _ h (by simp [exChain, sample_links])

/-- C29 on the code: the root of the fresh tree of `tc_init_tree` is
expandable; with the bucket of exactly `TC_TRAIN_MIN_SAMPLES = 32` data of
`exChain 32`, `tc_next_expansion` returns `NULL` and the body of the loop of
`tc_grow` returns `ERR` for the tree; with a bucket of `n` data the root is
returned exactly when `32 < n`. -/
theorem next_expansion_skips_min_samples :
    (tc_init_node ratOps).expandable ≠ 0 ∧
    tc_bucket (exChain 32).next ((exChain 32).next.length + 1)
      ((exChain 32).heads.getD 0 none) = some (List.range 32) ∧
    ((List.range 32).length : Int) = TC_TRAIN_MIN_SAMPLES ∧
    tc_next_expansion (tc_init_tree ratOps) (exChain 32) = some none ∧
    (∀ search ds, tc_grow_tree ratOps search ds (tc_init_tree ratOps) (exChain 32) =
      some GrowOutcome.stop) ∧
    tc_next_expansion (tc_init_tree ratOps) (exChain 33) = some (some 0) ∧
    ∀ n : Nat, tc_next_expansion (tc_init_tree ratOps) (exChain n) =
      some (if 32 < n then some 0 else none) := by
  have hall : ∀ n : Nat, tc_next_expansion (tc_init_tree ratOps) (exChain n) =
      some (if 32 < n then some 0 else none) := by
    intro n
    have hb := exChain_bucket n
    unfold tc_next_expansion
    have hr : List.range (tc_init_tree ratOps).nnodes.toNat = [0] := rfl
    rw [hr, List.foldl_cons, List.foldl_nil]
    unfold next_expansion_step
    simp only
    rw [hb]
    have hnode : (tc_init_tree ratOps).nodes[0]? = some (tc_init_node ratOps) := rfl
    simp only [hnode, List.length_range]
    have he : (tc_init_node ratOps).expandable ≠ 0 := by decide
    by_cases hn : 32 < n
    · rw [if_pos ⟨he, by unfold TC_TRAIN_MIN_SAMPLES; omega⟩, if_pos hn]
      rfl
    · rw [if_neg (by unfold TC_TRAIN_MIN_SAMPLES; omega), if_neg hn]
      rfl
  refine ⟨by decide, exChain_bucket 32, rfl, hall 32, ?_, hall 33, hall⟩
  intro search ds
  unfold tc_grow_tree
  rw [if_neg (by decide), hall 32]
  rfl

/-! ## Theorems: a pass of `tc_grow` over the trees -/

/-- On a header of three numbers `sscanf` with the format of
`tc_read_forest` stores three values. -/
theorem sscanf_cat_header (a b c : Int) (ha : is_int a) (hb : is_int b) (hc : is_int c) :
    sscanf_ints format_forest
      (['f', 'o', 'r', 'e', 's', 't', ' '] ++ (fmt_int a ++ ' ' :: (fmt_int b ++ ' ' ::
        fmt_int c))) = [a, b, c] := by
  have h3 := scan_i_fmt_int c hc [] ends_numeral_nil
  have h3d := dropWhile_isspace_fmt_int c []
  rw [List.append_nil] at h3 h3d
  have ef : format_forest =
      [ScanDir.lit 'f', ScanDir.lit 'o', ScanDir.lit 'r', ScanDir.lit 'e', ScanDir.lit 's',
       ScanDir.lit 't', ScanDir.ws, ScanDir.conv_i, ScanDir.ws, ScanDir.conv_i, ScanDir.ws,
       ScanDir.conv_i, ScanDir.ws, ScanDir.conv_i, ScanDir.ws] := rfl
  have et : ['f', 'o', 'r', 'e', 's', 't', ' '] ++ (fmt_int a ++ ' ' :: (fmt_int b ++ ' ' ::
      fmt_int c)) =
      'f' :: 'o' :: 'r' :: 'e' :: 's' :: 't' :: ' ' :: (fmt_int a ++ ' ' :: (fmt_int b ++
        ' ' :: fmt_int c)) := rfl
  have hnil : scan_i ([] : List Char) = none := by decide
  rw [ef, et]
  simp only [sscanf_ints, if_true, dropWhile_isspace_fmt_int,
    scan_i_fmt_int_cons a ha ' ' _ (by decide), scan_i_fmt_int_cons b hb ' ' _ (by decide),
    h3d, h3, List.dropWhile_nil, hnil]

/-- The function `tc_read_forest` returns `ERR` on every stream that starts
with the header line of `tc_catforest.c`. -/
theorem read_cat_header (M : FloatOps) (U : Uninit M.F) (a b c : Int) (ha : is_int a)
    (hb : is_int b) (hc : is_int c) (rest : List Char) :
    tc_read_forest M U (cat_header a b c ++ rest) = none := by
  have hline : line_chars (['f', 'o', 'r', 'e', 's', 't', ' '] ++ (fmt_int a ++
      ' ' :: (fmt_int b ++ ' ' :: fmt_int c))) :=
    line_chars_append _ _ (by intro c hc; revert c; decide) <|
      line_chars_append _ _ (line_chars_fmt_int _) <| line_chars_cons _ _ (by decide) <|
      line_chars_append _ _ (line_chars_fmt_int _) <| line_chars_cons _ _ (by decide)
        (line_chars_fmt_int _)
  have hll : (['f', 'o', 'r', 'e', 's', 't', ' '] ++ (fmt_int a ++
      ' ' :: (fmt_int b ++ ' ' :: fmt_int c))).length < BUF_SIZE := by
    have e1 := fmt_int_length _ ha
    have e2 := fmt_int_length _ hb
    have e3 := fmt_int_length _ hc
    simp only [List.length_append, List.length_cons, List.length_nil]
    unfold BUF_SIZE
    omega
  obtain ⟨hg, _, hgc⟩ := getline_line _ rest (malloc_buf U.mem) hline hll
    (malloc_buf_length U.mem)
  have hs : cat_header a b c ++ rest =
      (['f', 'o', 'r', 'e', 's', 't', ' '] ++ (fmt_int a ++ ' ' :: (fmt_int b ++ ' ' ::
        fmt_int c))) ++ '\n' :: rest := by
    simp only [cat_header, List.append_assoc, List.cons_append, List.nil_append]
  unfold tc_read_forest
  rw [hs, hg]
  simp only
  rw [if_neg (by decide), hgc, sscanf_cat_header a b c ha hb hc]

/-- The loading loop of `tc_catforest.c` ends for forests of the filter set
and number of classes of the first that come with its colormap. -/
theorem cat_load_some {F : Type} (pix : pixel_t) (ignorecolors : Int) (f0 : tc_forest F)
    (cmap0 : Option tc_colormap) :
    ∀ (rest : List (tc_forest F × Option tc_colormap)) (ntrees : Int)
      (master : Option tc_colormap),
      (∀ p ∈ rest, p.1.filterset = f0.filterset ∧ p.1.nclasses = f0.nclasses ∧ p.2 = cmap0) →
      (ignorecolors = 0 → cmap0.isSome = true → master.isSome = true) →
      ∃ master2, cat_load pix ignorecolors f0 rest ntrees master =
        some (ntrees + cat_ntrees rest, master2) := by
  intro rest
  induction rest with
  | nil =>
    intro ntrees master _ _
    exact ⟨master, by simp [cat_load, cat_ntrees]⟩
  | cons p rest ih =>
    intro ntrees master hall hm
    obtain ⟨h1, h2, h3⟩ := hall p (List.mem_cons_self _ _)
    obtain ⟨f, cmap⟩ := p
    simp only at h1 h2 h3
    have hrest : ∀ q ∈ rest, q.1.filterset = f0.filterset ∧ q.1.nclasses = f0.nclasses ∧
        q.2 = cmap0 := fun q hq => hall q (List.mem_cons_of_mem _ hq)
    have hsum : cat_ntrees ((f, cmap) :: rest) = f.ntrees + cat_ntrees rest := by
      simp [cat_ntrees]
    unfold cat_load
    rw [if_neg (by rw [h1]; exact fun h => h rfl), if_neg (by rw [h2]; exact fun h => h rfl)]
    have hmerge : ∃ m2, cat_merge_colormap pix ignorecolors master cmap = some m2 ∧
        (ignorecolors = 0 → cmap0.isSome = true → m2.isSome = true) := by
      unfold cat_merge_colormap
      cases cmap with
      | none => exact ⟨master, rfl, hm⟩
      | some map =>
        simp only
        by_cases hi : ignorecolors = 0
        · rw [if_neg (by rw [hi]; exact fun h => h rfl)]
          have hs : master.isSome = true := hm hi (by rw [← h3]; rfl)
          cases master with
          | none => cases hs
          | some m =>
            simp only
            by_cases hd : map.colordepth = m.colordepth
            · rw [if_neg (by rw [hd]; exact fun h => h rfl)]
              exact ⟨_, rfl, fun _ _ => rfl⟩
            · rw [if_pos hd]
              exact ⟨_, rfl, fun _ _ => rfl⟩
        · rw [if_pos hi]
          exact ⟨master, rfl, fun h => absurd h hi⟩
    obtain ⟨m2, e1, e2⟩ := hmerge
    rw [e1]
    simp only
    obtain ⟨m3, e3⟩ := ih (ntrees + f.ntrees) m2 hrest e2
    exact ⟨m3, by rw [e3, hsum, add_assoc]⟩

/-- C25 on the code: for forests of the filter set and number of classes of
the first that come with its colormap, `tc_catforest.c` returns `OK` and
writes a file that starts with the header line of three numbers
`forest <ntrees> <filter_family> <nclasses>`, where `ntrees` is the sum over
the inputs; `tc_read_forest`, whose `sscanf` has to store four numbers,
returns `ERR` on this file. -/
theorem catforest_output_rejected (M : FloatOps) (U : Uninit M.F) (ignorecolors : Int)
    (f0 : tc_forest M.F) (cmap0 : Option tc_colormap)
    (rest : List (tc_forest M.F × Option tc_colormap))
    (hall : ∀ p ∈ rest, p.1.filterset = f0.filterset ∧ p.1.nclasses = f0.nclasses ∧
      p.2 = cmap0)
    (hn : is_int (f0.ntrees + cat_ntrees rest)) (hf : is_int f0.filterset)
    (hc : is_int f0.nclasses) :
    ∃ out tail, catforest M U ignorecolors f0 cmap0 rest = some (OK, out) ∧
      out = cat_header (f0.ntrees + cat_ntrees rest) f0.filterset f0.nclasses ++ tail ∧
      tc_read_forest M U out = none := by
  obtain ⟨master, hl⟩ := cat_load_some U.pix ignorecolors f0 cmap0 rest (0 + f0.ntrees)
    (cat_first_colormap U.pix ignorecolors cmap0) hall (by
      intro hi hs
      cases cmap0 with
      | none => cases hs
      | some map =>
        unfold cat_first_colormap
        simp only
        rw [if_neg (by rw [hi]; exact fun h => h rfl)]
        rfl)
  rw [zero_add] at hl
  have hcat : catforest M U ignorecolors f0 cmap0 rest =
      some (OK, cat_header (f0.ntrees + cat_ntrees rest) f0.filterset f0.nclasses ++
        (cat_forests M U f0.nclasses (f0 :: rest.map fun p => p.1) 0 ++
          write_colormap_opt (if ignorecolors ≠ 0 then none else master) f0.nclasses)) := by
    unfold catforest
    rw [zero_add, hl]
  exact ⟨_, _, hcat, rfl, read_cat_header M U _ _ _ hn hf hc _⟩

/-- C25 at two copies of the forest `exForest` with the colormap
`exColormap`: the header line written is `forest 4 0 3`. -/
theorem catforest_output_rejected_witness :
    (∃ out tail, catforest ratOps exU 0 exForest (some exColormap)
        [(exForest, some exColormap)] = some (OK, out) ∧
      out = cat_header (exForest.ntrees + cat_ntrees [(exForest, some exColormap)])
        exForest.filterset exForest.nclasses ++ tail ∧
      tc_read_forest ratOps exU out = none) ∧
    cat_header (exForest.ntrees + cat_ntrees [(exForest, some exColormap)])
        exForest.filterset exForest.nclasses =
      ['f', 'o', 'r', 'e', 's', 't', ' ', '4', ' ', '0', ' ', '3', '\n'] :=
  ⟨catforest_output_rejected ratOps exU 0 exForest (some exColormap)
    [(exForest, some exColormap)]
    (fun p hp => by
      rw [List.mem_singleton] at hp
      rw [hp]
      exact ⟨rfl, rfl, rfl⟩)
    (by decide) (by decide) (by decide), by with_unfolding_all rfl⟩

/-! ## Theorems: threshold indices and thresholds -/

theorem tdiv_abs_le (a b : Int) (hb : 1 ≤ b) (m : Int) (ha : -m ≤ a) (ha2 : a ≤ m) :
    -m ≤ Int.tdiv a b ∧ Int.tdiv a b ≤ m := by
  rcases le_or_lt 0 a with h | h
  · rw [Int.tdiv_eq_ediv h (by omega)]
    have h1 : 0 ≤ a / b := Int.ediv_nonneg h (by omega)
    have h2 : a / b ≤ a := Int.ediv_le_self b h
    omega
  · have e : Int.tdiv a b = -Int.tdiv (-a) b := by
      rw [Int.neg_tdiv, neg_neg]
    rw [e, Int.tdiv_eq_ediv (by omega) (by omega)]
    have h1 : 0 ≤ -a / b := Int.ediv_nonneg (by omega) (by omega)
    have h2 : -a / b ≤ -a := Int.ediv_le_self b (by omega)
    omega

/-- A result that `tc_filter_pixel` returns with a status other than `ERR`
lies in `[-25500, 25500]`. -/
theorem filter_result_range (filter : tc_filter) (image : tc_image) (r c result : Int)
    (h : (tc_filter_pixel filter image r c result).1 ≠ ERR) :
    -25500 ≤ (tc_filter_pixel filter image r c result).2 ∧
      (tc_filter_pixel filter image r c result).2 ≤ 25500 := by
  have g := tc_get_range image
  unfold tc_filter_pixel at h ⊢
  simp only at h ⊢
  split
  · rename_i hc
    rw [if_pos hc] at h
    exact absurd rfl h
  · split
    · rename_i hc hc2
      rw [if_neg hc, if_pos hc2] at h
      exact absurd rfl h
    · split
      · have := g (filter.rowA + r) (filter.colA + c) filter.chanA
        simp only
        omega
      · split
        · have := g (filter.rowA + r) (filter.colA + c) filter.chanA
          have := g (filter.rowB + r) (filter.colB + c) filter.chanB
          simp only
          omega
        · split
          · have := g (filter.rowA + r) (filter.colA + c) filter.chanA
            have := g (filter.rowB + r) (filter.colB + c) filter.chanB
            simp only
            omega
          · split
            · have := g (filter.rowA + r) (filter.colA + c) filter.chanA
              have := g (filter.rowB + r) (filter.colB + c) filter.chanB
              simp only
              omega
            · split
              · have h1 := g (filter.rowA + r) (filter.colA + c) filter.chanA
                have h2 := g (filter.rowB + r) (filter.colB + c) filter.chanB
                simp only
                unfold TC_FIXEDPT_PRECIS_FACTOR
                exact tdiv_abs_le _ _ (by omega) 25500 (by omega) (by omega)
              · split
                · have := g (filter.rowA + r) (filter.colA + c) filter.chanA
                  have := g (filter.rowB + r) (filter.colB + c) filter.chanA
                  have := g (filter.rowA + r) (filter.colB + c) filter.chanA
                  have := g (filter.rowB + r) (filter.colA + c) filter.chanA
                  simp only
                  omega
                · rename_i h1 h2 h3 h4 h5 h6 h7 h8
                  rw [if_neg h1, if_neg h2, if_neg h3, if_neg h4, if_neg h5, if_neg h6,
                    if_neg h7, if_neg h8] at h
                  exact absurd rfl h

/-- The entry of a datum in the counts of the search has an index at most
`t` exactly when `tc_propagate_node` sends the datum to the low child of a
node with the candidate filter and the threshold of `t`. -/
theorem search_entry_side {F : Type} (rnd : ℚ → ℚ) (ds : tc_dataset) (node : tc_node F)
    (t i : Nat) (e : Nat × Nat × ℚ) (h2 : t ≤ 510)
    (hthr : node.threshold = index_to_threshold (t : Int) MIN_THRESH)
    (h : search_entry rnd ds node.filter i = some e) :
    (e.2.1 ≤ t ↔ goes_low ds node i = true) ∧ (t < e.2.1 ↔ goes_high ds node i = true) ∧
      goes_nowhere ds node i = false := by
  unfold search_entry at h
  split at h
  · cases h
  · rename_i d hd
    split at h
    · cases h
    · rename_i image hi
      split at h
      · rename_i hs
        cases h
        have hev : datum_eval ds node i = tc_filter_pixel node.filter image d.r d.c 0 := by
          unfold datum_eval
          rw [hd]
          simp only
          rw [hi]
        unfold goes_low goes_high goes_nowhere
        rw [hev]
        simp only
        have hle := threshold_index_le (tc_filter_pixel node.filter image d.r d.c 0).2 t h2
        rw [← hthr] at hle
        simp only [decide_eq_true_eq, decide_eq_false_iff_not]
        refine ⟨⟨fun h1 => ⟨hs, hle.mp (by omega)⟩, fun h1 => ?_⟩,
          ⟨fun h1 => ⟨hs, ?_⟩, fun h1 => ?_⟩, hs⟩
        · have := hle.mpr h1.2
          omega
        · by_contra hc
          have := hle.mpr (by omega)
          omega
        · by_contra hc
          have := hle.mp (by omega)
          omega
      · cases h

/-- C36 as stated fails at the largest 64-bit result: the subtraction
`threshold - min` of `get_threshold_index` leaves the range of `feature_t`,
so the function has no defined value there, while the clamp of the
specification is 511. -/
theorem threshold_index_overflow :
    is_int64 9223372036854775807 ∧
    get_threshold_index_checked 9223372036854775807 MIN_THRESH N_THRESH = none ∧
    spec_clamp (9223372036854775807 + 255) 0 511 = 511 := by
  decide

/-- C36 amended: for every 64-bit result `x` with `x + 255` in the 64-bit
range, `get_threshold_index(x, -255, 512)` is `clamp(x + 255, 0, 511)`;
`index_to_threshold` inverts it on `[-255, 256]`; for every threshold index
`t` in `[1, 510]` the index of `x` is at most `t` exactly when `x` is at most
`index_to_threshold(t)`, that is when `x > threshold` fails.  Every result
that `tc_filter_pixel` returns without `ERR` lies in `[-25500, 25500]`, inside
that range; the entry of a datum in the counts of the search has an index at
most `t` exactly when `tc_propagate_node` sends the datum to the low child of
a node with the candidate filter and the threshold of `t`, and above `t`
exactly when it sends it to the high child; and the walk of
`tc_forest_classify` at such a node enters the low child exactly when the
index of the result is at most `t`. -/
theorem threshold_partition (x : Int) (t : Nat) (hx : is_int64 x)
    (hov : x ≤ 9223372036854775807 - 255) (ht1 : 1 ≤ t) (ht2 : t ≤ 510) :
    get_threshold_index_checked x MIN_THRESH N_THRESH = some (spec_clamp (x + 255) 0 511) ∧
    get_threshold_index x MIN_THRESH N_THRESH = spec_clamp (x + 255) 0 511 ∧
    (-255 ≤ x → x ≤ 256 →
      index_to_threshold (get_threshold_index x MIN_THRESH N_THRESH) MIN_THRESH = x) ∧
    (get_threshold_index x MIN_THRESH N_THRESH ≤ (t : Int) ↔
      x ≤ index_to_threshold (t : Int) MIN_THRESH) ∧
    (get_threshold_index x MIN_THRESH N_THRESH ≤ (t : Int) ↔
      ¬ x > index_to_threshold (t : Int) MIN_THRESH) ∧
    (∀ (filter : tc_filter) (image : tc_image) (r c : Int),
      (tc_filter_pixel filter image r c 0).1 ≠ ERR →
      is_int64 (tc_filter_pixel filter image r c 0).2 ∧
      (tc_filter_pixel filter image r c 0).2 ≤ 9223372036854775807 - 255) ∧
    (∀ (rnd : ℚ → ℚ) (ds : tc_dataset) (node : tc_node ℚ) (i : Nat) (e : Nat × Nat × ℚ),
      node.threshold = index_to_threshold (t : Int) MIN_THRESH →
      search_entry rnd ds node.filter i = some e →
      (e.2.1 ≤ t ↔ goes_low ds node i = true) ∧ (t < e.2.1 ↔ goes_high ds node i = true) ∧
        goes_nowhere ds node i = false) ∧
    (∀ (tree : tc_tree ℚ) (image : tc_image) (r c : Int) (fuel : Nat) (p : Option Int)
      (node : tc_node ℚ), tc_deref tree p = some node → tc_isleaf node = false →
      node.threshold = index_to_threshold (t : Int) MIN_THRESH →
      (tc_filter_pixel node.filter image r c 0).1 ≠ ERR →
      tc_walk tree image r c (fuel + 1) p =
        if get_threshold_index (tc_filter_pixel node.filter image r c 0).2 MIN_THRESH N_THRESH ≤
            (t : Int) then tc_walk tree image r c fuel node.low
        else tc_walk tree image r c fuel node.high) := by
  have hidx : get_threshold_index x MIN_THRESH N_THRESH = spec_clamp (x + 255) 0 511 := by
    unfold get_threshold_index spec_clamp MIN_THRESH N_THRESH
    split <;> split <;> split <;> omega
  have hle : ∀ y : Int, get_threshold_index y MIN_THRESH N_THRESH ≤ (t : Int) ↔
      y ≤ index_to_threshold (t : Int) MIN_THRESH := by
    intro y
    unfold get_threshold_index index_to_threshold MIN_THRESH N_THRESH
    split <;> split <;> omega
  refine ⟨?_, hidx, ?_, hle x, ?_, ?_, ?_, ?_⟩
  · unfold get_threshold_index_checked
    rw [if_pos (by unfold is_int64 MIN_THRESH at *; omega), hidx]
  · intro h1 h2
    unfold get_threshold_index index_to_threshold MIN_THRESH N_THRESH
    split <;> split <;> omega
  · rw [hle x]
    omega
  · intro filter image r c hs
    obtain ⟨h1, h2⟩ := filter_result_range filter image r c 0 hs
    unfold is_int64
    omega
  · intro rnd ds node i e hthr he
    exact search_entry_side rnd ds node t i e ht2 hthr he
  · intro tree image r c fuel p node hd hleaf hthr hs
    rw [tc_walk, hd]
    simp only [hleaf, hs]
    have hl := hle (tc_filter_pixel node.filter image r c 0).2
    rw [← hthr] at hl
    by_cases hg : (tc_filter_pixel node.filter image r c 0).2 > node.threshold
    · rw [if_neg (by decide), if_neg (fun h => h), if_pos hg,
        if_neg (fun h => by have := hl.mp h; omega)]
    · rw [if_neg (by decide), if_neg (fun h => h), if_neg hg, if_pos (hl.mpr (by omega))]

/-- The amended C36 at the result 300, clamped to the index 511, and the
threshold index 200. -/
theorem threshold_partition_witness :
    get_threshold_index_checked 300 MIN_THRESH N_THRESH = some (spec_clamp (300 + 255) 0 511) ∧
    get_threshold_index 300 MIN_THRESH N_THRESH = 511 ∧
    ¬ (300 : Int) ≤ index_to_threshold 200 MIN_THRESH :=
  ⟨(threshold_partition 300 200 (by decide) (by decide) (by decide) (by decide)).1,
    by decide, by decide⟩

/-! ## Theorems: the root buckets after `tc_assign_evenly` -/

theorem filter_range_succ (p : Nat → Bool) (j : Nat) :
    (List.range (j + 1)).filter p =
      (List.range j).filter p ++ (if p j = true then [j] else []) := by
  rw [List.range_succ, List.filter_append]
  by_cases h : p j = true
  · simp [h]
  · simp [h]

/-- The first loop of `tc_assign_evenly` after `j` iterations, when every
tree index is in range: the loop has not failed, and the root bucket of tree
`t` holds the data below `j` of tree `t`, the last one first. -/
theorem assign_loop_order {F : Type} (rnd : ℚ → ℚ) (ds : tc_dataset) (s0 : TrainState F)
    (hnext : s0.next.length = ds.ndata.toNat)
    (hheads : ∀ (t : Nat) (hd : List (Option Nat)), s0.heads[t]? = some hd → hd = [none])
    (hlen : s0.heads.length = s0.forest.ntrees.toNat)
    (hrange : ∀ i, i < ds.ndata.toNat →
      0 ≤ assign_index rnd s0.forest.ntrees ds.ndata i ∧
      assign_index rnd s0.forest.ntrees ds.ndata i < s0.forest.ntrees) :
    ∀ (j : Nat), j ≤ ds.ndata.toNat →
      ∃ s, (List.range j).foldl (assign_step rnd s0.forest.ntrees ds.ndata) (some s0) = some s ∧
        s.forest = s0.forest ∧ s.next.length = ds.ndata.toNat ∧
        s.heads.length = s0.heads.length ∧
        ∀ (t : Nat) (hd : List (Option Nat)), s.heads[t]? = some hd → hd.length = 1 ∧
          is_list s.next (hd.getD 0 none)
            ((List.range j).filter fun i =>
              decide (assign_index rnd s0.forest.ntrees ds.ndata i = (t : Int))).reverse := by
  intro j
  induction j with
  | zero =>
    intro _
    refine ⟨s0, rfl, rfl, hnext, rfl, fun t hd hh => ?_⟩
    rw [hheads t hd hh]
    exact ⟨rfl, rfl⟩
  | succ j ih =>
    intro hj
    obtain ⟨s1, hs, c1, c2, c3, c5⟩ := ih (by omega)
    obtain ⟨r1, r2⟩ := hrange j (by omega)
    have hidx : (assign_index rnd s0.forest.ntrees ds.ndata j).toNat < s1.heads.length := by
      rw [c3, hlen]
      exact (Int.toNat_lt_toNat (lt_of_le_of_lt r1 r2)).mpr r2
    obtain ⟨hd0, hhd0⟩ : ∃ hd0, s1.heads[(assign_index rnd s0.forest.ntrees ds.ndata j).toNat]? =
        some hd0 := ⟨_, List.getElem?_eq_getElem hidx⟩
    obtain ⟨s2, hs2⟩ : ∃ s2 : TrainState F, s2 = { s1 with
        next := s1.next.set j (hd0.getD 0 none),
        heads := s1.heads.set (assign_index rnd s0.forest.ntrees ds.ndata j).toNat
          (hd0.set 0 (some j)) } := ⟨_, rfl⟩
    have hjlt : ¬ (s1.next.length ≤ j) := by
      rw [c2]
      omega
    have hstep : assign_step rnd s0.forest.ntrees ds.ndata (some s1) j = some s2 := by
      unfold assign_step
      simp only
      rw [if_neg (fun h => by rcases h with h | h | h <;> omega), hhd0, hs2]
    have hfold : (List.range (j + 1)).foldl (assign_step rnd s0.forest.ntrees ds.ndata)
        (some s0) = some s2 := by
      rw [List.range_succ, List.foldl_append, hs]
      exact hstep
    refine ⟨s2, hfold, by rw [hs2]; exact c1, by rw [hs2]; simpa using c2,
      by rw [hs2]; simpa using c3, ?_⟩
    rw [hs2]
    intro t hd hh
    have hjn : j < s1.next.length := by omega
    have hnot : ∀ t2 : Nat, j ∉ ((List.range j).filter fun i =>
        decide (assign_index rnd s0.forest.ntrees ds.ndata i = (t2 : Int))).reverse := by
      intro t2 hm
      rw [List.mem_reverse, List.mem_filter, List.mem_range] at hm
      omega
    rw [filter_range_succ]
    rcases getElem?_set_cases _ _ _ _ _ hh with ⟨e1, e2⟩ | ⟨e1, e2⟩
    · obtain ⟨l1, l2⟩ := c5 _ hd0 hhd0
      have hp : decide (assign_index rnd s0.forest.ntrees ds.ndata j = (t : Int)) = true := by
        rw [decide_eq_true_eq, e1, Int.toNat_of_nonneg r1]
      rw [if_pos hp, List.reverse_append, List.reverse_singleton, List.singleton_append, e2]
      refine ⟨by simpa using l1, ?_⟩
      have : (hd0.set 0 (some j)).getD 0 none = some j := by
        rw [getD_set_eq _ _ _ _ _ (by omega), if_pos rfl]
      rw [this, e1]
      exact is_list_push s1.next j _ _ (hnot _) hjn l2
    · obtain ⟨l1, l2⟩ := c5 t hd e2
      have hp : ¬ decide (assign_index rnd s0.forest.ntrees ds.ndata j = (t : Int)) = true := by
        rw [decide_eq_true_eq]
        intro e
        apply e1
        rw [e]
        rfl
      rw [if_neg hp, List.append_nil]
      exact ⟨l1, is_list_set s1.next j _ _ _ (hnot t) l2⟩

theorem filter_range_length_le (p : Nat → Bool) (n : Nat) :
    ((List.range n).filter p).reverse.length ≤ n := by
  rw [List.length_reverse]
  exact (List.length_filter_le _ _).trans (by rw [List.length_range])

theorem filter_range_decreasing (p : Nat → Bool) (n : Nat) :
    ((List.range n).filter p).reverse.Pairwise (fun a b => b < a) := by
  rw [List.pairwise_reverse]
  exact List.Pairwise.filter _ (List.pairwise_lt_range n)

/-- After `tc_assign_evenly` on the forest of `tc_init_forest`, when every
tree index is in range: the function returns, and the walk of the root bucket
of tree `t` visits the data of the tree, the last one first. -/
theorem tc_assign_evenly_order (M : FloatOps) (rnd : ℚ → ℚ) (ds : tc_dataset)
    (ntrees filterset nclasses winsize : Int) (forest : tc_forest M.F)
    (next0 : List (Option Nat))
    (hinit : tc_init_forest M ntrees filterset nclasses winsize = some forest)
    (hnext : next0.length = ds.ndata.toNat)
    (hrange : ∀ i, i < ds.ndata.toNat →
      0 ≤ assign_index rnd ntrees ds.ndata i ∧ assign_index rnd ntrees ds.ndata i < ntrees) :
    ∃ s, tc_assign_evenly rnd ds (train_start forest next0) = some s ∧
      s.forest = forest ∧
      ∀ t, t < ntrees.toNat →
        tc_bucket s.next (s.next.length + 1) ((s.heads.getD t []).getD 0 none) =
          some (assigned_data rnd ntrees ds.ndata t).reverse := by
  unfold tc_init_forest at hinit
  split at hinit
  · cases hinit
  rename_i hnt
  injection hinit with hinit
  have htrees : forest.trees = List.replicate ntrees.toNat (tc_init_tree M) := by
    rw [← hinit]
  have hntrees : forest.ntrees = ntrees := by
    rw [← hinit]
  have hl0 : (train_start forest next0).heads.length = ntrees.toNat := by
    unfold train_start
    simp [htrees]
  obtain ⟨s, hs, c1, c2, c3, c5⟩ := assign_loop_order rnd ds (train_start forest next0) hnext
    (fun t hd hh => by
      have hm := List.getElem?_mem hh
      unfold train_start at hm
      simp only [List.mem_map] at hm
      obtain ⟨_, _, e⟩ := hm
      exact e.symm)
    (by rw [hl0]; show _ = forest.ntrees.toNat; rw [hntrees])
    (by
      show ∀ i, i < ds.ndata.toNat → 0 ≤ assign_index rnd forest.ntrees ds.ndata i ∧
        assign_index rnd forest.ntrees ds.ndata i < forest.ntrees
      rw [hntrees]
      exact hrange)
    ds.ndata.toNat (le_refl _)
  have hf : (train_start forest next0).forest = forest := rfl
  rw [hf, hntrees] at hs c5
  have hb : ∀ t, t < ntrees.toNat →
      tc_bucket s.next (s.next.length + 1) ((s.heads.getD t []).getD 0 none) =
        some (assigned_data rnd ntrees ds.ndata t).reverse := by
    intro t ht
    have hlt : t < s.heads.length := by
      rw [c3, hl0]
      exact ht
    obtain ⟨_, l2⟩ := c5 t _ (List.getElem?_eq_getElem hlt)
    rw [List.getD_eq_getElem _ _ hlt]
    refine tc_bucket_of_is_list _ _ _ _ l2 ?_
    rw [c2]
    exact (filter_range_length_le _ _).trans (Nat.le_succ _)
  have c1b : s.forest = forest := c1
  refine ⟨s, ?_, c1b, hb⟩
  unfold tc_assign_evenly
  rw [hf, hntrees, hs]
  simp only
  rw [if_pos]
  rw [List.all_eq_true]
  intro t ht
  rw [c1b, hntrees, List.mem_range] at ht
  rw [hb t ht]
  rfl

/-- C33 as stated fails: `tc_assign_evenly` puts the forty data of `exForty`
on the root of the one tree of `exOneTree`, and the walk of the bucket from
its head visits datum 39 first and datum 0 last. -/
theorem assign_order_counterexample :
    tc_init_forest ratOps 1 TC_FILTERSET_POINTS 3 61 = some exOneTree ∧
    tc_assign_evenly id exForty (train_start exOneTree (List.replicate 40 none)) =
      some exAssigned ∧
    tc_bucket exAssigned.next (exAssigned.next.length + 1)
      ((exAssigned.heads.getD 0 []).getD 0 none) = some (List.range 40).reverse ∧
    (List.range 40).reverse.take 3 = [39, 38, 37] := by
  set_option maxRecDepth 100000 in
  refine ⟨?_, ?_, ?_, ?_⟩ <;> with_unfolding_all rfl

/-- C33 amended: after `tc_assign_evenly` on the forest of `tc_init_forest`,
when every tree index computed is a tree of the forest, the function has
returned and the walk of the root bucket of every tree from its head along
the `next` links visits the data of the tree, each once, in decreasing order
of their index in the array of the data set: the datum pushed last comes
first. -/
theorem assign_links_decreasing (M : FloatOps) (rnd : ℚ → ℚ) (ds : tc_dataset)
    (ntrees filterset nclasses winsize : Int) (forest : tc_forest M.F)
    (next0 : List (Option Nat))
    (hinit : tc_init_forest M ntrees filterset nclasses winsize = some forest)
    (hnext : next0.length = ds.ndata.toNat)
    (hrange : ∀ i, i < ds.ndata.toNat →
      0 ≤ assign_index rnd ntrees ds.ndata i ∧ assign_index rnd ntrees ds.ndata i < ntrees) :
    ∃ s, tc_assign_evenly rnd ds (train_start forest next0) = some s ∧
      ∀ t, t < ntrees.toNat → ∃ L,
        tc_bucket s.next (s.next.length + 1) ((s.heads.getD t []).getD 0 none) = some L ∧
        L.Pairwise (fun a b => b < a) ∧
        (∀ i, i ∈ L ↔ (i < ds.ndata.toNat ∧ assign_index rnd ntrees ds.ndata i = (t : Int))) ∧
        L = ((List.range ds.ndata.toNat).filter fun i =>
          decide (assign_index rnd ntrees ds.ndata i = (t : Int))).reverse := by
  obtain ⟨s, h1, _, h3⟩ := tc_assign_evenly_order M rnd ds ntrees filterset nclasses winsize
    forest next0 hinit hnext hrange
  refine ⟨s, h1, fun t ht => ⟨_, h3 t ht, filter_range_decreasing _ _, ?_, rfl⟩⟩
  intro i
  unfold assigned_data
  rw [List.mem_reverse, List.mem_filter, List.mem_range, decide_eq_true_eq]

theorem exForty_assign_range : ∀ i, i < exForty.ndata.toNat →
    0 ≤ assign_index id 1 exForty.ndata i ∧ assign_index id 1 exForty.ndata i < 1 := by
  set_option maxRecDepth 100000 in
  with_unfolding_all decide

/-- The amended C33 at the forty data of `exForty` and a forest of one tree. -/
theorem assign_links_decreasing_witness :
    ∃ s, tc_assign_evenly id exForty (train_start exOneTree (List.replicate 40 none)) = some s ∧
      ∀ t, t < (1 : Int).toNat → ∃ L,
        tc_bucket s.next (s.next.length + 1) ((s.heads.getD t []).getD 0 none) = some L ∧
        L.Pairwise (fun a b => b < a) ∧
        (∀ i, i ∈ L ↔ (i < exForty.ndata.toNat ∧ assign_index id 1 exForty.ndata i = (t : Int))) ∧
        L = ((List.range exForty.ndata.toNat).filter fun i =>
          decide (assign_index id 1 exForty.ndata i = (t : Int))).reverse :=
  assign_links_decreasing ratOps id exForty 1 TC_FILTERSET_POINTS 3 61 exOneTree
    (List.replicate 40 none) (by with_unfolding_all rfl) (by with_unfolding_all rfl)
    exForty_assign_range

/-! ## Theorems: the tree index of `tc_assign_evenly` -/

/-- With the laws of `RoundLaws`, and `ndata * ntrees` at most `2 ^ 24`, the
index that `tc_assign_evenly` computes for datum `i` is
`floor(i * ntrees / ndata)`. -/
theorem assign_index_floor (rnd : ℚ → ℚ) (hl : RoundLaws rnd) (ntrees ndata : Int) (i : Nat)
    (hn : 1 ≤ ndata) (ht : 1 ≤ ntrees) (hsmall : ndata * ntrees ≤ 16777216)
    (hi : (i : Int) < ndata) :
    assign_index rnd ntrees ndata i = ((i : Int) * ntrees) / ndata := by
  have hi0 : (0 : Int) ≤ (i : Int) := Int.ofNat_nonneg i
  have ha0 : 0 ≤ (i : Int) * ntrees := Int.mul_nonneg hi0 (by omega)
  have halt : (i : Int) * ntrees < ndata * ntrees := Int.mul_lt_mul_of_pos_right hi (by omega)
  have hb24 : ndata ≤ 16777216 := by nlinarith
  have hk0 : 0 ≤ (i : Int) * ntrees / ndata := Int.ediv_nonneg ha0 (by omega)
  have hkT : (i : Int) * ntrees / ndata < ntrees :=
    (Int.ediv_lt_iff_lt_mul (by omega)).mpr (by rw [mul_comm ntrees ndata]; exact halt)
  have hr0 : 0 ≤ (i : Int) * ntrees % ndata := Int.emod_nonneg _ (by omega)
  have hrb : (i : Int) * ntrees % ndata < ndata := Int.emod_lt_of_pos _ (by omega)
  have hdiv := Int.ediv_add_emod ((i : Int) * ntrees) ndata
  have hkb : ((i : Int) * ntrees / ndata + 1) * ndata ≤ 16777216 := by nlinarith
  unfold assign_index
  rw [hl.int24 _ ha0 (by omega), hl.int24 ndata (by omega) hb24]
  obtain ⟨a, ha⟩ : ∃ a : Int, a = (i : Int) * ntrees := ⟨_, rfl⟩
  rw [← ha] at ha0 halt hk0 hkT hr0 hrb hdiv hkb ⊢
  obtain ⟨k, hk⟩ : ∃ k : Int, k = a / ndata := ⟨_, rfl⟩
  obtain ⟨r, hr⟩ : ∃ r : Int, r = a % ndata := ⟨_, rfl⟩
  rw [← hk] at hk0 hkT hdiv hkb ⊢
  rw [← hr] at hr0 hrb hdiv
  have hbq : (0 : ℚ) < (ndata : ℚ) := by exact_mod_cast (by omega : (0 : Int) < ndata)
  have hq : (a : ℚ) / (ndata : ℚ) = (k : ℚ) + (r : ℚ) / (ndata : ℚ) := by
    have : (a : ℚ) = (ndata : ℚ) * (k : ℚ) + (r : ℚ) := by exact_mod_cast hdiv.symm
    rw [this]
    field_simp
    ring
  have hkq : (0 : ℚ) ≤ (k : ℚ) := by exact_mod_cast hk0
  rcases eq_or_lt_of_le hr0 with h0 | hpos
  · have hqk : (a : ℚ) / (ndata : ℚ) = (k : ℚ) := by
      rw [hq, ← h0]
      simp
    rw [hqk, hl.int24 k hk0 (by nlinarith), float_to_int_floor _ hkq]
    exact Int.floor_intCast k
  · have hr1 : (1 : ℚ) ≤ (r : ℚ) := by exact_mod_cast (by omega : (1 : Int) ≤ r)
    have hr2 : (r : ℚ) ≤ (ndata : ℚ) - 1 := by exact_mod_cast (by omega : r ≤ ndata - 1)
    have hd1 : 1 / (ndata : ℚ) ≤ (r : ℚ) / (ndata : ℚ) :=
      div_le_div_of_nonneg_right hr1 (le_of_lt hbq)
    have hd2 : (r : ℚ) / (ndata : ℚ) ≤ 1 - 1 / (ndata : ℚ) := by
      rw [div_le_iff₀ hbq]
      have : (1 - 1 / (ndata : ℚ)) * (ndata : ℚ) = (ndata : ℚ) - 1 := by field_simp
      rw [this]
      exact hr2
    have hb24q : (ndata : ℚ) ≤ 16777216 := by exact_mod_cast hb24
    have hkbq : ((k : ℚ) + 1) * (ndata : ℚ) ≤ 16777216 := by exact_mod_cast hkb
    have hinv : 1 / 16777216 ≤ 1 / (ndata : ℚ) :=
      one_div_le_one_div_of_le hbq hb24q
    have hqlo : 1 / 16777216 ≤ (a : ℚ) / (ndata : ℚ) := by
      rw [hq]
      linarith
    have hqlt : (a : ℚ) / (ndata : ℚ) < (k : ℚ) + 1 := by
      rw [hq]
      have : 0 < 1 / (ndata : ℚ) := by positivity
      linarith
    have hk1 : ((k : ℚ) + 1) / 16777216 ≤ 1 / (ndata : ℚ) := by
      rw [div_le_div_iff₀ (by norm_num) hbq]
      linarith
    have hqhi : (a : ℚ) / (ndata : ℚ) ≤ 16777216 := by
      have h1 : (k : ℚ) + 1 ≤ 16777216 := by
        have : (1 : ℚ) ≤ (ndata : ℚ) := by exact_mod_cast hn
        nlinarith
      linarith
    have hnear := hl.near _ hqlo hqhi
    rw [abs_le] at hnear
    have herr : (a : ℚ) / (ndata : ℚ) / 16777216 < 1 / (ndata : ℚ) := by
      have : (a : ℚ) / (ndata : ℚ) / 16777216 < ((k : ℚ) + 1) / 16777216 :=
        div_lt_div_of_pos_right hqlt (by norm_num)
      linarith
    have hlo : (k : ℚ) ≤ rnd ((a : ℚ) / (ndata : ℚ)) := by
      have := hnear.1
      rw [hq] at this herr ⊢
      linarith
    have hhi : rnd ((a : ℚ) / (ndata : ℚ)) < (k : ℚ) + 1 := by
      have := hnear.2
      rw [hq] at this herr ⊢
      linarith
    rw [float_to_int_floor _ (le_trans hkq hlo)]
    exact Int.floor_eq_iff.mpr ⟨hlo, hhi⟩

theorem ceil_div_bounds (x T : Int) (hT : 1 ≤ T) :
    ((x + T - 1) / T - 1) * T < x ∧ x ≤ (x + T - 1) / T * T := by
  have h1 := Int.ediv_mul_le (x + T - 1) (by omega : T ≠ 0)
  have h2 := Int.lt_ediv_add_one_mul_self (x + T - 1) (by omega : 0 < T)
  constructor
  · nlinarith
  · nlinarith

theorem block_start_cast (ntrees ndata : Int) (t : Nat) (hn : 1 ≤ ndata) (ht : 1 ≤ ntrees) :
    ((block_start ntrees ndata t : Nat) : Int) = ((t : Int) * ndata + ntrees - 1) / ntrees := by
  unfold block_start
  refine Int.toNat_of_nonneg (Int.ediv_nonneg ?_ (by omega))
  have : 0 ≤ (t : Int) * ndata := Int.mul_nonneg (Int.ofNat_nonneg t) (by omega)
  omega

/-- Datum `i` has the index `t` exactly when it lies in the block of `t`. -/
theorem block_iff (ntrees ndata : Int) (t i : Nat) (hn : 1 ≤ ndata) (ht : 1 ≤ ntrees) :
    (i : Int) * ntrees / ndata = (t : Int) ↔
      block_start ntrees ndata t ≤ i ∧ i < block_start ntrees ndata (t + 1) := by
  have e1 : (i : Int) * ntrees / ndata = (t : Int) ↔
      (t : Int) * ndata ≤ (i : Int) * ntrees ∧ (i : Int) * ntrees < ((t : Int) + 1) * ndata := by
    constructor
    · intro h
      refine ⟨(Int.le_ediv_iff_mul_le (by omega)).mp (le_of_eq h.symm), ?_⟩
      exact (Int.ediv_lt_iff_lt_mul (by omega)).mp (by omega)
    · rintro ⟨h1, h2⟩
      have a1 := (Int.le_ediv_iff_mul_le (by omega : 0 < ndata)).mpr h1
      have a2 := (Int.ediv_lt_iff_lt_mul (by omega : 0 < ndata)).mpr h2
      omega
  obtain ⟨c1, c2⟩ := ceil_div_bounds ((t : Int) * ndata) ntrees ht
  obtain ⟨d1, d2⟩ := ceil_div_bounds (((t : Int) + 1) * ndata) ntrees ht
  have b1 := block_start_cast ntrees ndata t hn ht
  have b2 := block_start_cast ntrees ndata (t + 1) hn ht
  push_cast at b2
  rw [← b1] at c1 c2
  rw [← b2] at d1 d2
  rw [e1]
  have hA : ((block_start ntrees ndata t : Nat) : Int) ≤ (i : Int) ↔
      (t : Int) * ndata ≤ (i : Int) * ntrees := by
    constructor
    · intro h
      nlinarith
    · intro h
      by_contra hc
      have : (i : Int) + 1 ≤ (block_start ntrees ndata t : Nat) := by omega
      nlinarith
  have hB : (i : Int) < ((block_start ntrees ndata (t + 1) : Nat) : Int) ↔
      (i : Int) * ntrees < ((t : Int) + 1) * ndata := by
    constructor
    · intro h
      have : (i : Int) ≤ (block_start ntrees ndata (t + 1) : Nat) - 1 := by omega
      nlinarith
    · intro h
      by_contra hc
      have : ((block_start ntrees ndata (t + 1) : Nat) : Int) ≤ i := by omega
      nlinarith
  rw [← hA, ← hB]
  omega

/-- The size of a block is `floor(ndata / ntrees)` or `ceil(ndata / ntrees)`. -/
theorem block_size (ntrees ndata : Int) (t : Nat) (hn : 1 ≤ ndata) (ht : 1 ≤ ntrees) :
    block_start ntrees ndata t ≤ block_start ntrees ndata (t + 1) ∧
    ((((block_start ntrees ndata (t + 1) - block_start ntrees ndata t : Nat) : Int) =
        ndata / ntrees) ∨
      (((block_start ntrees ndata (t + 1) - block_start ntrees ndata t : Nat) : Int) =
        (ndata + ntrees - 1) / ntrees)) ∧
    (ndata + ntrees - 1) / ntrees ≤ ndata / ntrees + 1 := by
  obtain ⟨c1, c2⟩ := ceil_div_bounds ((t : Int) * ndata) ntrees ht
  obtain ⟨d1, d2⟩ := ceil_div_bounds (((t : Int) + 1) * ndata) ntrees ht
  obtain ⟨f1, f2⟩ := ceil_div_bounds ndata ntrees ht
  have b1 := block_start_cast ntrees ndata t hn ht
  have b2 := block_start_cast ntrees ndata (t + 1) hn ht
  push_cast at b2
  rw [← b1] at c1 c2
  rw [← b2] at d1 d2
  have q1 := Int.ediv_mul_le ndata (by omega : ntrees ≠ 0)
  have q2 := Int.lt_ediv_add_one_mul_self ndata (by omega : 0 < ntrees)
  obtain ⟨A, hA⟩ : ∃ A : Int, A = (block_start ntrees ndata t : Nat) := ⟨_, rfl⟩
  obtain ⟨B, hB⟩ : ∃ B : Int, B = (block_start ntrees ndata (t + 1) : Nat) := ⟨_, rfl⟩
  obtain ⟨Q, hQ⟩ : ∃ Q : Int, Q = ndata / ntrees := ⟨_, rfl⟩
  obtain ⟨C, hC⟩ : ∃ C : Int, C = (ndata + ntrees - 1) / ntrees := ⟨_, rfl⟩
  rw [← hA] at c1 c2
  rw [← hB] at d1 d2
  rw [← hQ] at q1 q2
  rw [← hC] at f1 f2
  have hT : (0 : Int) < ntrees := by omega
  have hlo : A + Q ≤ B := by
    by_contra hc
    have h1 : B ≤ A + Q - 1 := by omega
    have h2 : B * ntrees ≤ (A + Q - 1) * ntrees := Int.mul_le_mul_of_nonneg_right h1 (by omega)
    nlinarith
  have hhi : B ≤ A + C := by
    by_contra hc
    have h1 : A + C ≤ B - 1 := by omega
    have h2 : (A + C) * ntrees ≤ (B - 1) * ntrees := Int.mul_le_mul_of_nonneg_right h1 (by omega)
    nlinarith
  have hCQ : C ≤ Q + 1 := by
    by_contra hc
    have h1 : Q + 1 ≤ C - 1 := by omega
    have h2 : (Q + 1) * ntrees ≤ (C - 1) * ntrees := Int.mul_le_mul_of_nonneg_right h1 (by omega)
    nlinarith
  have hQ0 : 0 ≤ Q := by
    rw [hQ]
    exact Int.ediv_nonneg (by omega) (by omega)
  have hAB : block_start ntrees ndata t ≤ block_start ntrees ndata (t + 1) := by
    have : A ≤ B := by omega
    rw [hA, hB] at this
    exact_mod_cast this
  refine ⟨hAB, ?_, ?_⟩
  · rw [Nat.cast_sub hAB, ← hA, ← hB, ← hQ, ← hC]
    omega
  · rw [← hQ, ← hC]
    exact hCQ

theorem filter_range_block (p : Nat → Bool) :
    ∀ (n a b : Nat), a ≤ b → b ≤ n → (∀ i, i < n → (p i = true ↔ a ≤ i ∧ i < b)) →
      (List.range n).filter p = List.range' a (b - a) := by
  intro n
  induction n with
  | zero =>
    intro a b hab hb _
    have : b - a = 0 := by omega
    rw [this]
    rfl
  | succ n ih =>
    intro a b hab hb hp
    rw [filter_range_succ]
    rcases Nat.lt_or_ge n b with hlt | hge
    · have hbn : b = n + 1 := by omega
      rcases Nat.lt_or_ge n a with hna | han
      · have hpn : ¬ p n = true := fun h => by
          have := (hp n (Nat.lt_succ_self n)).mp h
          omega
        rw [if_neg hpn, List.append_nil,
          ih n n (le_refl _) (le_refl _) (fun i hi => by
            rw [hp i (by omega)]
            omega)]
        have e1 : n - n = 0 := by omega
        have e2 : b - a = 0 := by omega
        rw [e1, e2]
        rfl
      · have hpn : p n = true := (hp n (Nat.lt_succ_self n)).mpr ⟨han, by omega⟩
        rw [if_pos hpn, ih a n han (le_refl _) (fun i hi => by
          rw [hp i (by omega)]
          omega)]
        have e : b - a = (n - a) + 1 := by omega
        rw [e, List.range'_concat]
        congr 2
        omega
    · have hpn : ¬ p n = true := fun h => by
        have := (hp n (Nat.lt_succ_self n)).mp h
        omega
      rw [if_neg hpn, List.append_nil]
      exact ih a b hab hge (fun i hi => hp i (by omega))

theorem block_start_le (ntrees ndata : Int) (t : Nat) (hn : 1 ≤ ndata) (ht : 1 ≤ ntrees)
    (htt : (t : Int) ≤ ntrees) : block_start ntrees ndata t ≤ ndata.toNat := by
  obtain ⟨c1, _⟩ := ceil_div_bounds ((t : Int) * ndata) ntrees ht
  have b1 := block_start_cast ntrees ndata t hn ht
  rw [← b1] at c1
  have h1 : (t : Int) * ndata ≤ ntrees * ndata := Int.mul_le_mul_of_nonneg_right htt (by omega)
  have h2 : ((block_start ntrees ndata t : Nat) : Int) ≤ ndata := by
    by_contra hc
    have h3 : ndata ≤ (block_start ntrees ndata t : Nat) - 1 := by omega
    have h4 : ndata * ntrees ≤ (((block_start ntrees ndata t : Nat) : Int) - 1) * ntrees :=
      Int.mul_le_mul_of_nonneg_right h3 (by omega)
    nlinarith
  omega

/-- With the laws of `RoundLaws`, and `ndata * ntrees` at most `2 ^ 24`, the
data of tree `t` are a block of consecutive data. -/
theorem assigned_data_block (rnd : ℚ → ℚ) (hl : RoundLaws rnd) (ntrees ndata : Int) (t : Nat)
    (hn : 1 ≤ ndata) (ht : 1 ≤ ntrees) (hsmall : ndata * ntrees ≤ 16777216)
    (htt : (t : Int) < ntrees) :
    assigned_data rnd ntrees ndata t =
      List.range' (block_start ntrees ndata t)
        (block_start ntrees ndata (t + 1) - block_start ntrees ndata t) := by
  unfold assigned_data
  refine filter_range_block _ _ _ _ (block_size ntrees ndata t hn ht).1
    (block_start_le ntrees ndata (t + 1) hn ht (by push_cast; omega)) ?_
  intro i hi
  rw [decide_eq_true_eq, assign_index_floor rnd hl ntrees ndata i hn ht hsmall (by omega)]
  exact block_iff ntrees ndata t i hn ht

/-- C32 as stated fails in the arithmetic of `float`: with one tree and
`2 ^ 24 + 1` data, the last datum gets the index 1, which is no tree of the
forest, while `floor(i * ntrees / ndata)` is 0. -/
theorem assign_index_counterexample :
    assign_index round_f32 1 16777217 16777216 = 1 ∧
    ((16777216 : Nat) : Int) * 1 / 16777217 = 0 ∧ ¬ ((1 : Int) < 1) ∧
    round_f32 16777217 = 16777216 := by
  set_option maxRecDepth 1000000 in
  refine ⟨?_, by decide, by decide, ?_⟩ <;> with_unfolding_all rfl

/-- C32 amended: with a rounding to `float` that follows `RoundLaws`, for
`ndata ≥ 1` and `ntrees ≥ 1` with `ndata * ntrees ≤ 2 ^ 24`, the index that
`tc_assign_evenly` computes for datum `i` is `floor(i * ntrees / ndata)`, lies
in `[0, ntrees)` and does not decrease with `i`; on the forest of
`tc_init_forest` the function returns, every datum is in the root bucket of
exactly one tree, the root bucket of tree `t` holds the block of consecutive
data from `block_start t` up to `block_start (t + 1)`, and its size is
`floor(ndata / ntrees)` or `ceil(ndata / ntrees)`, which differ by at most
1. -/
theorem assign_evenly_blocks (M : FloatOps) (rnd : ℚ → ℚ) (hl : RoundLaws rnd) (ds : tc_dataset)
    (ntrees filterset nclasses winsize : Int) (forest : tc_forest M.F)
    (next0 : List (Option Nat))
    (hinit : tc_init_forest M ntrees filterset nclasses winsize = some forest)
    (hnext : next0.length = ds.ndata.toNat)
    (hn : 1 ≤ ds.ndata) (ht : 1 ≤ ntrees) (hsmall : ds.ndata * ntrees ≤ 16777216) :
    (∀ i : Nat, (i : Int) < ds.ndata →
      assign_index rnd ntrees ds.ndata i = (i : Int) * ntrees / ds.ndata ∧
      0 ≤ assign_index rnd ntrees ds.ndata i ∧ assign_index rnd ntrees ds.ndata i < ntrees) ∧
    (∀ i j : Nat, i ≤ j → (j : Int) < ds.ndata →
      assign_index rnd ntrees ds.ndata i ≤ assign_index rnd ntrees ds.ndata j) ∧
    ∃ s, tc_assign_evenly rnd ds (train_start forest next0) = some s ∧
      (∀ i : Nat, (i : Int) < ds.ndata → ∃ t, t < ntrees.toNat ∧ i ∈ bucket_of s t 0 ∧
        ∀ t2, t2 < ntrees.toNat → i ∈ bucket_of s t2 0 → t2 = t) ∧
      (∀ t, t < ntrees.toNat →
        tc_bucket s.next (s.next.length + 1) ((s.heads.getD t []).getD 0 none) =
          some (bucket_of s t 0) ∧
        bucket_of s t 0 = (List.range' (block_start ntrees ds.ndata t)
          (block_start ntrees ds.ndata (t + 1) - block_start ntrees ds.ndata t)).reverse ∧
        (((bucket_of s t 0).length : Int) = ds.ndata / ntrees ∨
          ((bucket_of s t 0).length : Int) = (ds.ndata + ntrees - 1) / ntrees)) ∧
      (ds.ndata + ntrees - 1) / ntrees ≤ ds.ndata / ntrees + 1 ∧
      ∀ t t2, t < ntrees.toNat → t2 < ntrees.toNat →
        ((bucket_of s t 0).length : Int) ≤ ((bucket_of s t2 0).length : Int) + 1 := by
  have hidx : ∀ i : Nat, (i : Int) < ds.ndata →
      assign_index rnd ntrees ds.ndata i = (i : Int) * ntrees / ds.ndata ∧
      0 ≤ assign_index rnd ntrees ds.ndata i ∧ assign_index rnd ntrees ds.ndata i < ntrees := by
    intro i hi
    have e := assign_index_floor rnd hl ntrees ds.ndata i hn ht hsmall hi
    rw [e]
    refine ⟨rfl, Int.ediv_nonneg (Int.mul_nonneg (Int.ofNat_nonneg i) (by omega)) (by omega), ?_⟩
    refine (Int.ediv_lt_iff_lt_mul (by omega)).mpr ?_
    rw [mul_comm ntrees ds.ndata]
    exact Int.mul_lt_mul_of_pos_right hi (by omega)
  refine ⟨hidx, ?_, ?_⟩
  · intro i j hij hj
    rw [(hidx i (by omega)).1, (hidx j hj).1]
    refine Int.ediv_le_ediv (by omega) (Int.mul_le_mul_of_nonneg_right ?_ (by omega))
    exact_mod_cast hij
  obtain ⟨s, h1, _, h3⟩ := tc_assign_evenly_order M rnd ds ntrees filterset nclasses winsize
    forest next0 hinit hnext (fun i hi => (hidx i (by omega)).2)
  have hb : ∀ t, t < ntrees.toNat →
      bucket_of s t 0 = (assigned_data rnd ntrees ds.ndata t).reverse := by
    intro t ht2
    unfold bucket_of
    rw [h3 t ht2]
    rfl
  have hblock : ∀ t, t < ntrees.toNat →
      bucket_of s t 0 = (List.range' (block_start ntrees ds.ndata t)
        (block_start ntrees ds.ndata (t + 1) - block_start ntrees ds.ndata t)).reverse := by
    intro t ht2
    rw [hb t ht2, assigned_data_block rnd hl ntrees ds.ndata t hn ht hsmall (by omega)]
  have hsize : ∀ t, t < ntrees.toNat →
      (((bucket_of s t 0).length : Int) = ds.ndata / ntrees ∨
        ((bucket_of s t 0).length : Int) = (ds.ndata + ntrees - 1) / ntrees) := by
    intro t ht2
    rw [hblock t ht2, List.length_reverse, List.length_range']
    exact (block_size ntrees ds.ndata t hn ht).2.1
  have hmem : ∀ t i, t < ntrees.toNat →
      (i ∈ bucket_of s t 0 ↔ (i < ds.ndata.toNat ∧
        assign_index rnd ntrees ds.ndata i = (t : Int))) := by
    intro t i ht2
    rw [hb t ht2]
    unfold assigned_data
    rw [List.mem_reverse, List.mem_filter, List.mem_range, decide_eq_true_eq]
  have hCQ := (block_size ntrees ds.ndata 0 hn ht).2.2
  have hQC : ds.ndata / ntrees ≤ (ds.ndata + ntrees - 1) / ntrees :=
    Int.ediv_le_ediv (by omega) (by omega)
  refine ⟨s, h1, ?_, fun t ht2 => ⟨?_, hblock t ht2, hsize t ht2⟩, hCQ, ?_⟩
  · intro i hi
    obtain ⟨_, e2, e3⟩ := hidx i hi
    refine ⟨(assign_index rnd ntrees ds.ndata i).toNat,
      (Int.toNat_lt_toNat (by omega)).mpr e3, ?_, ?_⟩
    · rw [hmem _ i ((Int.toNat_lt_toNat (by omega)).mpr e3)]
      exact ⟨by omega, (Int.toNat_of_nonneg e2).symm⟩
    · intro t2 ht2 hi2
      have := ((hmem t2 i ht2).mp hi2).2
      rw [this]
      rfl
  · rw [h3 t ht2, hb t ht2]
  · intro t t2 ht2 ht3
    rcases hsize t ht2 with e | e <;> rcases hsize t2 ht3 with e2 | e2 <;> omega

/-! ## Theorems: the rounding `round_f32` -/

/-- The fold of `f32_exponent` over the exponents below `n - 126`. -/
theorem f32_exponent_fold (q : ℚ) (a : Int) (ha : -126 ≤ a) (h1 : (2 : ℚ) ^ a ≤ |q|)
    (h2 : |q| < (2 : ℚ) ^ (a + 1)) :
    ∀ n : Nat, ((List.range n).map fun (k : Nat) => (k : Int) - 126).foldl
        (fun e k => if (2 : ℚ) ^ k ≤ |q| then k else e) (-126) =
      if (n : Int) - 127 ≤ a then max (-126) ((n : Int) - 127) else a := by
  intro n
  induction n with
  | zero =>
    rw [if_pos (by push_cast; omega)]
    rfl
  | succ n ih =>
    rw [List.range_succ, List.map_append, List.foldl_append, ih]
    simp only [List.map_cons, List.map_nil, List.foldl_cons, List.foldl_nil]
    have e : ((n + 1 : Nat) : Int) - 127 = (n : Int) - 126 := by
      push_cast
      omega
    rw [e]
    by_cases hc : ((n : Int) - 126) ≤ a
    · have hp : (2 : ℚ) ^ ((n : Int) - 126) ≤ |q| :=
        le_trans (zpow_le_zpow_right₀ (by norm_num) hc) h1
      rw [if_pos hp, if_pos hc]
      have hn : (0 : Int) ≤ (n : Int) := Int.ofNat_nonneg n
      exact (max_eq_right (by omega)).symm
    · have hp : ¬ (2 : ℚ) ^ ((n : Int) - 126) ≤ |q| := by
        intro h
        have : (2 : ℚ) ^ (a + 1) ≤ (2 : ℚ) ^ ((n : Int) - 126) :=
          zpow_le_zpow_right₀ (by norm_num) (by omega)
        linarith
      rw [if_neg hp, if_neg hc]
      by_cases hc2 : (n : Int) - 127 ≤ a
      · rw [if_pos hc2]
        have : a = (n : Int) - 127 := by omega
        rw [this]
        exact max_eq_right (by omega)
      · rw [if_neg hc2]

theorem f32_exponent_eq (q : ℚ) (a : Int) (ha : -126 ≤ a) (ha2 : a ≤ 127)
    (h1 : (2 : ℚ) ^ a ≤ |q|) (h2 : |q| < (2 : ℚ) ^ (a + 1)) : f32_exponent q = a := by
  unfold f32_exponent
  rw [f32_exponent_fold q a ha h1 h2 254]
  split
  · push_cast at *
    omega
  · rfl

theorem round_half_even_int (z : Int) : round_half_even (z : ℚ) = z := by
  unfold round_half_even
  rw [Int.floor_intCast, if_pos (by norm_num)]

/-- A positive number in the normal range of binary32 is rounded by
`round_f32` to a value at most half a unit in the last place away. -/
theorem round_f32_pos (q : ℚ) (a : Int) (ha : -126 ≤ a) (ha2 : a ≤ 127)
    (h1 : (2 : ℚ) ^ a ≤ q) (h2 : q < (2 : ℚ) ^ (a + 1)) :
    round_f32 q = (round_half_even (q / 2 ^ (a - 23)) : ℚ) * 2 ^ (a - 23) := by
  have hq : 0 < q := lt_of_lt_of_le (zpow_pos (by norm_num) a) h1
  have habs : |q| = q := abs_of_pos hq
  unfold round_f32
  rw [f32_exponent_eq q a ha ha2 (by rw [habs]; exact h1) (by rw [habs]; exact h2), habs,
    if_neg (by linarith), one_mul]

theorem round_f32_laws : RoundLaws round_f32 := by
  constructor
  · intro n hn0 hn
    rcases eq_or_lt_of_le hn0 with h0 | hpos
    · rw [← h0]
      have : f32_exponent ((0 : Int) : ℚ) = -126 := by
        unfold f32_exponent
        have hf : ∀ l : List Int, l.foldl
            (fun e k => if (2 : ℚ) ^ k ≤ |(((0 : Int) : ℚ))| then k else e) (-126) = -126 := by
          intro l
          induction l with
          | nil => rfl
          | cons k l ih =>
            rw [List.foldl_cons, if_neg]
            · exact ih
            · have : (0 : ℚ) < (2 : ℚ) ^ k := zpow_pos (by norm_num) k
              simp only [Int.cast_zero, abs_zero]
              linarith
        exact hf _
      unfold round_f32
      rw [this]
      simp [round_half_even]
    · have hq : (0 : ℚ) < (n : ℚ) := by exact_mod_cast hpos
      have hq1 : (1 : ℚ) ≤ (n : ℚ) := by exact_mod_cast (by omega : (1 : Int) ≤ n)
      have hq24 : (n : ℚ) ≤ 16777216 := by exact_mod_cast hn
      have l1 := Int.zpow_log_le_self (b := 2) (by norm_num) hq
      have l2 := Int.lt_zpow_succ_log_self (b := 2) (by norm_num) (n : ℚ)
      push_cast at l1 l2
      obtain ⟨a, hadef⟩ : ∃ a : Int, a = Int.log 2 (n : ℚ) := ⟨_, rfl⟩
      rw [← hadef] at l1 l2
      have ha0 : 0 ≤ a := by
        rw [hadef]
        refine (Int.zpow_le_iff_le_log (b := 2) (by norm_num) hq).mp ?_
        simpa using hq1
      have ha24 : a ≤ 24 := by
        by_contra hc
        have : (2 : ℚ) ^ (25 : Int) ≤ (2 : ℚ) ^ a := zpow_le_zpow_right₀ (by norm_num) (by omega)
        have e : (2 : ℚ) ^ (25 : Int) = 33554432 := by norm_num
        linarith
      rw [round_f32_pos (n : ℚ) a (by omega) (by omega) l1 l2]
      have hint : ∃ z : Int, (n : ℚ) / 2 ^ (a - 23) = (z : ℚ) := by
        rcases le_or_lt a 23 with h23 | h24
        · refine ⟨n * 2 ^ (23 - a).toNat, ?_⟩
          have e : a - 23 = -((23 - a).toNat : Int) := by omega
          rw [e, zpow_neg, zpow_natCast]
          push_cast
          field_simp
        · have ea : a = 24 := by omega
          subst ea
          have e24 : (2 : ℚ) ^ (24 : Int) = 16777216 := by norm_num
          have hn2 : (n : ℚ) = 16777216 := by linarith
          refine ⟨8388608, ?_⟩
          rw [hn2]
          norm_num
      obtain ⟨z, hz⟩ := hint
      rw [hz, round_half_even_int, ← hz]
      have : (2 : ℚ) ^ (a - 23) ≠ 0 := (zpow_pos (by norm_num) _).ne'
      field_simp
  · intro q hlo hhi
    have hq : 0 < q := lt_of_lt_of_le (by norm_num) hlo
    have l1 := Int.zpow_log_le_self (b := 2) (by norm_num) hq
    have l2 := Int.lt_zpow_succ_log_self (b := 2) (by norm_num) q
    push_cast at l1 l2
    obtain ⟨a, hadef⟩ : ∃ a : Int, a = Int.log 2 q := ⟨_, rfl⟩
    rw [← hadef] at l1 l2
    have halo : -24 ≤ a := by
      rw [hadef]
      refine (Int.zpow_le_iff_le_log (b := 2) (by norm_num) hq).mp ?_
      have e : ((2 : Nat) : ℚ) ^ (-24 : Int) = 1 / 16777216 := by norm_num
      rw [e]
      exact hlo
    have hahi : a ≤ 24 := by
      by_contra hc
      have : (2 : ℚ) ^ (25 : Int) ≤ (2 : ℚ) ^ a := zpow_le_zpow_right₀ (by norm_num) (by omega)
      have e : (2 : ℚ) ^ (25 : Int) = 33554432 := by norm_num
      linarith
    rw [round_f32_pos q a (by omega) (by omega) l1 l2]
    have hu : (0 : ℚ) < 2 ^ (a - 23) := zpow_pos (by norm_num) _
    have hnear := round_half_even_near (q / 2 ^ (a - 23))
    have hsplit : (2 : ℚ) ^ a = 2 ^ (a - 23) * 8388608 := by
      have : a = (a - 23) + 23 := by omega
      rw [this, zpow_add₀ (by norm_num)]
      norm_num
    have e1 : (round_half_even (q / 2 ^ (a - 23)) : ℚ) * 2 ^ (a - 23) - q =
        ((round_half_even (q / 2 ^ (a - 23)) : ℚ) - q / 2 ^ (a - 23)) * 2 ^ (a - 23) := by
      field_simp
    rw [e1, abs_mul, abs_of_pos hu]
    have h3 : |(round_half_even (q / 2 ^ (a - 23)) : ℚ) - q / 2 ^ (a - 23)| * 2 ^ (a - 23) ≤
        1 / 2 * 2 ^ (a - 23) := mul_le_mul_of_nonneg_right hnear (le_of_lt hu)
    have h4 : 1 / 2 * (2 : ℚ) ^ (a - 23) ≤ q / 16777216 := by
      rw [le_div_iff₀ (by norm_num)]
      linarith
    linarith


/-- The amended C32 in binary32 arithmetic at the forty data of `exForty`
and a forest of three trees: the blocks start at the data 0, 14 and 27. -/
theorem assign_evenly_blocks_witness :
    ∃ s, tc_assign_evenly round_f32 exForty
        (train_start exThreeTrees (List.replicate 40 none)) = some s ∧
      (∀ t, t < 3 → bucket_of s t 0 = (List.range' (block_start 3 40 t)
        (block_start 3 40 (t + 1) - block_start 3 40 t)).reverse) ∧
      [block_start 3 40 0, block_start 3 40 1, block_start 3 40 2, block_start 3 40 3] =
        [0, 14, 27, 40] := by
  obtain ⟨_, _, s, h1, _, h3, _⟩ := assign_evenly_blocks ratOps round_f32 round_f32_laws exForty
    3 TC_FILTERSET_POINTS 3 61 exThreeTrees (List.replicate 40 none) rfl rfl (by decide)
    (by decide) (by decide)
  exact ⟨s, h1, fun t ht => (h3 t ht).2.1, by decide⟩

/-! ## Theorems: the reduce step of `tc_grow` -/

theorem tc_search_reduce (sc : ScoreOps) (rnd : ℚ → ℚ) (ds : tc_dataset)
    (candidates : List (List tc_filter)) (L : List Nat) :
    tc_search sc rnd ds candidates L =
      reduce_result sc (candidates.map (tc_split_search sc rnd ds L)) := by
  unfold tc_search reduce_result tc_reduce
  rw [List.length_map]

/-- The loop of the reduce step after the trainers below `k`: without a
valid trainer the winner is 0; otherwise it is a valid trainer whose score
no valid trainer exceeds and which exceeds the score of every valid trainer
before it. -/
theorem reduce_loop_inv (sc : ScoreOps) (hl : ScoreLaws sc)
    (trainers : List (tc_trainer sc.S)) :
    ∀ k, k ≤ trainers.length →
      ((∀ i tr, i < k → trainers[i]? = some tr → tr.valid = 0) ∧
        (List.range k).foldl (reduce_step sc trainers) 0 = 0) ∨
      (∃ w, trainers[(List.range k).foldl (reduce_step sc trainers) 0]? = some w ∧
        (List.range k).foldl (reduce_step sc trainers) 0 < k ∧ w.valid ≠ 0 ∧
        (∀ i tr, i < k → trainers[i]? = some tr → tr.valid ≠ 0 →
          sc.gt tr.best_score w.best_score = false) ∧
        (∀ i tr, i < (List.range k).foldl (reduce_step sc trainers) 0 →
          trainers[i]? = some tr → tr.valid ≠ 0 →
          sc.gt w.best_score tr.best_score = true)) := by
  intro k
  induction k with
  | zero =>
    intro _
    exact Or.inl ⟨fun i tr hi => absurd hi (Nat.not_lt_zero i), rfl⟩
  | succ k ih =>
    intro hk
    have hklt : k < trainers.length := by omega
    obtain ⟨t, ht⟩ : ∃ t, trainers[k]? = some t := ⟨_, List.getElem?_eq_getElem hklt⟩
    rw [List.range_succ, List.foldl_append]
    simp only [List.foldl_cons, List.foldl_nil]
    rcases ih (by omega) with ⟨hnone, hw0⟩ | ⟨w, hw, hwk, hwv, hmax, hfirst⟩
    · rw [hw0]
      obtain ⟨w0, hw0t⟩ : ∃ w0, trainers[0]? = some w0 :=
        ⟨_, List.getElem?_eq_getElem (by omega)⟩
      by_cases htv : t.valid = 0
      · left
        have hstep : reduce_step sc trainers 0 k = 0 := by
          unfold reduce_step
          rw [hw0t, ht]
          simp only
          rw [if_neg]
          rintro (⟨_, h⟩ | ⟨_, h, _⟩) <;> exact h htv
        refine ⟨fun i tr hi htr => ?_, hstep⟩
        rcases Nat.lt_succ_iff_lt_or_eq.mp hi with h | h
        · exact hnone i tr h htr
        · subst h
          rw [ht] at htr
          cases htr
          exact htv
      · right
        have hstep : reduce_step sc trainers 0 k = k := by
          unfold reduce_step
          rw [hw0t, ht]
          simp only
          by_cases hk0 : k = 0
          · subst hk0
            rw [hw0t] at ht
            cases ht
            rw [hl.irrefl]
            split <;> rfl
          · rw [if_pos (Or.inl ⟨hnone 0 w0 (by omega) hw0t, htv⟩)]
        rw [hstep]
        refine ⟨t, ht, Nat.lt_succ_self k, htv, fun i tr hi htr hv => ?_,
          fun i tr hi htr hv => absurd (hnone i tr hi htr) hv⟩
        rcases Nat.lt_succ_iff_lt_or_eq.mp hi with h | h
        · exact absurd (hnone i tr h htr) hv
        · subst h
          rw [ht] at htr
          cases htr
          exact hl.irrefl _
    · obtain ⟨w', hw'⟩ : ∃ w', w' = (List.range k).foldl (reduce_step sc trainers) 0 := ⟨_, rfl⟩
      rw [← hw'] at hw hwk hfirst ⊢
      right
      by_cases hc : t.valid ≠ 0 ∧ sc.gt t.best_score w.best_score = true
      · have hstep : reduce_step sc trainers w' k = k := by
          unfold reduce_step
          rw [hw, ht]
          simp only
          rw [if_pos (Or.inr ⟨hwv, hc.1, hc.2⟩)]
        rw [hstep]
        refine ⟨t, ht, Nat.lt_succ_self k, hc.1, fun i tr hi htr hv => ?_,
          fun i tr hi htr hv => ?_⟩
        · rcases Nat.lt_succ_iff_lt_or_eq.mp hi with h | h
          · cases hg : sc.gt tr.best_score t.best_score with
            | false => rfl
            | true =>
              rcases hl.neg_trans _ w.best_score _ hg with h1 | h1
              · rw [hmax i tr h htr hv] at h1
                cases h1
              · have := hl.trans _ _ _ h1 hc.2
                rw [hl.irrefl] at this
                cases this
          · subst h
            rw [ht] at htr
            cases htr
            exact hl.irrefl _
        · rcases hl.neg_trans _ tr.best_score _ hc.2 with h1 | h1
          · exact h1
          · rw [hmax i tr hi htr hv] at h1
            cases h1
      · have hstep : reduce_step sc trainers w' k = w' := by
          unfold reduce_step
          rw [hw, ht]
          simp only
          rw [if_neg]
          rintro (⟨h, _⟩ | ⟨_, h1, h2⟩)
          · exact hwv h
          · exact hc ⟨h1, h2⟩
        rw [hstep]
        refine ⟨w, hw, by omega, hwv, fun i tr hi htr hv => ?_, hfirst⟩
        rcases Nat.lt_succ_iff_lt_or_eq.mp hi with h | h
        · exact hmax i tr h htr hv
        · subst h
          rw [ht] at htr
          cases htr
          cases hg : sc.gt t.best_score w.best_score with
          | false => rfl
          | true => exact absurd ⟨hv, hg⟩ hc

theorem exScore_laws : ScoreLaws exScore := by
  refine ⟨fun (a : ℚ) => ?_, fun (a b c : ℚ) h1 h2 => ?_, fun (a b c : ℚ) h => ?_⟩
  · show decide (a > a) = false
    simp
  · have e1 : b < a := by
      change decide (a > b) = true at h1
      simpa using h1
    have e2 : c < b := by
      change decide (b > c) = true at h2
      simpa using h2
    show decide (a > c) = true
    simpa using lt_trans e2 e1
  · have e : c < a := by
      change decide (a > c) = true at h
      simpa using h
    rcases lt_or_le b a with h1 | h1
    · left
      show decide (a > b) = true
      simpa using h1
    · right
      show decide (b > c) = true
      simpa using lt_of_lt_of_le e h1

/-- C31: for every array of at least one finished trainer and a comparison
of scores without incomparable values, the winner of the reduce step is a
trainer of the array; when no trainer is valid it is trainer 0, and when one
is valid the winner is valid, no valid trainer has a greater score, and the
winner has a greater score than every valid trainer before it.  On a tree
that is not full, whose node `n` is the node to expand with the bucket
`subset`: when the winner is valid the body of the loop of `tc_grow` returns
the tree in which node `n` has the filter and the threshold of the winner,
the old node count as low child and the next index as high child, two nodes
have been appended and the other nodes are as before; when the winner is not
valid it returns the tree in which only the member `expandable` of node `n`
has changed, to 0, with the links of the data untouched. -/
theorem reduce_installs_winner (M : FloatOps) (sc : ScoreOps) (hl : ScoreLaws sc)
    (trainers : List (tc_trainer sc.S)) (ds : tc_dataset) (tree : tc_tree M.F)
    (st : NodeLinks) (n : Nat) (node : tc_node M.F) (subset : List Nat)
    (hn : 1 ≤ trainers.length) (hfull : tree.nnodes < MAX_TREE_NODES - 2)
    (hexp : tc_next_expansion tree st = some (some n)) (hnode : tree.nodes[n]? = some node)
    (hb : tc_bucket st.next (st.next.length + 1) (st.heads.getD n none) = some subset)
    (hnn : tree.nnodes = (st.heads.length : Int)) (hv : data_valid ds st.next subset) :
    ∃ w, trainers[tc_reduce sc trainers]? = some w ∧
      ((∀ tr ∈ trainers, tr.valid = 0) → tc_reduce sc trainers = 0 ∧ w.valid = 0) ∧
      ((∃ tr ∈ trainers, tr.valid ≠ 0) → w.valid ≠ 0 ∧
        (∀ (i : Nat) (tr : tc_trainer sc.S), trainers[i]? = some tr → tr.valid ≠ 0 →
          sc.gt tr.best_score w.best_score = false) ∧
        (∀ (i : Nat) (tr : tc_trainer sc.S), i < tc_reduce sc trainers →
          trainers[i]? = some tr → tr.valid ≠ 0 →
          sc.gt w.best_score tr.best_score = true)) ∧
      (w.valid ≠ 0 →
        (∃ st2, tc_grow_tree M (fun _ => reduce_result sc trainers) ds tree st =
          some (GrowOutcome.grown
            (split_node M tree n node w.best_filter w.best_threshold) st2)) ∧
        (split_node M tree n node w.best_filter w.best_threshold).nnodes = tree.nnodes + 2 ∧
        (split_node M tree n node w.best_filter w.best_threshold).nodes.length =
          tree.nodes.length + 2 ∧
        (split_node M tree n node w.best_filter w.best_threshold).nodes[n]? =
          some { node with threshold := w.best_threshold, filter := w.best_filter,
                           low := some tree.nnodes, high := some (tree.nnodes + 1) } ∧
        (∀ k, k ≠ n → k < tree.nodes.length →
          (split_node M tree n node w.best_filter w.best_threshold).nodes[k]? =
            tree.nodes[k]?) ∧
        (∀ k, tree.nodes.length ≤ k → k < tree.nodes.length + 2 →
          (split_node M tree n node w.best_filter w.best_threshold).nodes[k]? =
            some (tc_init_node M))) ∧
      (w.valid = 0 →
        tc_grow_tree M (fun _ => reduce_result sc trainers) ds tree st =
          some (GrowOutcome.grown
            { tree with nodes := tree.nodes.set n { node with expandable := 0 } } st)) := by
  have hinv := reduce_loop_inv sc hl trainers trainers.length (le_refl _)
  have hlt : tc_reduce sc trainers < trainers.length := by
    unfold tc_reduce
    rcases hinv with ⟨_, h⟩ | ⟨_, _, h, _⟩
    · rw [h]
      omega
    · exact h
  obtain ⟨w, hw⟩ : ∃ w, trainers[tc_reduce sc trainers]? = some w :=
    ⟨_, List.getElem?_eq_getElem hlt⟩
  have hnl : n < tree.nodes.length := (List.getElem?_eq_some_iff.mp hnode).1
  have hgrow : ∀ search : List Nat → Option (tc_filter × Int),
      tc_grow_tree M search ds tree st =
        match search subset with
        | none =>
          some (GrowOutcome.grown
            { tree with nodes := tree.nodes.set n { node with expandable := 0 } } st)
        | some (flt, thr) =>
          (tc_propagate_node ds (split_node M tree n node flt thr) n
            { st with heads := st.heads ++ [none, none] }).map fun st2 =>
              GrowOutcome.grown (split_node M tree n node flt thr) st2 := by
    intro search
    unfold tc_grow_tree
    rw [if_neg (by omega), hexp]
    simp only
    rw [hnode, hb]
  refine ⟨w, hw, ?_, ?_, ?_, ?_⟩
  · intro hall
    have hwv : w.valid = 0 := hall w (List.getElem?_mem hw)
    refine ⟨?_, hwv⟩
    unfold tc_reduce
    rcases hinv with ⟨_, h⟩ | ⟨w2, h1, _, h2, _⟩
    · exact h
    · exact absurd (hall w2 (List.getElem?_mem h1)) h2
  · rintro ⟨tr, htr, hv2⟩
    obtain ⟨i, hi, hget⟩ := List.getElem_of_mem htr
    have hget2 : trainers[i]? = some tr := by
      rw [List.getElem?_eq_getElem hi, hget]
    rcases hinv with ⟨h, _⟩ | ⟨w2, h1, _, h2, h3, h4⟩
    · exact absurd (h i tr hi hget2) hv2
    · have e : w2 = w := by
        have : trainers[tc_reduce sc trainers]? = some w2 := h1
        rw [hw] at this
        exact (Option.some.inj this).symm
      subst e
      refine ⟨h2, fun i tr hget hv => ?_, h4⟩
      exact h3 i tr (List.getElem?_eq_some_iff.mp hget).1 hget hv
  · intro hwv
    have hres : reduce_result sc trainers = some (w.best_filter, w.best_threshold) := by
      unfold reduce_result
      rw [hw]
      simp only
      rw [if_neg hwv]
    obtain ⟨node2, hnode2⟩ : ∃ node2 : tc_node M.F, node2 =
        { node with threshold := w.best_threshold, filter := w.best_filter,
                    low := some tree.nnodes, high := some (tree.nnodes + 1) } := ⟨_, rfl⟩
    have hget := split_node_get M tree n node w.best_filter w.best_threshold hnl
    refine ⟨?_, rfl, ?_, hget, ?_, ?_⟩
    · obtain ⟨st3, e, _⟩ :=
        tc_propagate_node_spec ds (split_node M tree n node w.best_filter w.best_threshold) n
          (st.heads.length + 1) st.heads.length node2
          { st with heads := st.heads ++ [none, none] } subset
          (hnode2 ▸ hget)
          (by rw [hnode2]; show some (tree.nnodes + 1) = _; rw [hnn]; push_cast; rfl)
          (by rw [hnode2]; show some tree.nnodes = _; rw [hnn])
          (by omega) (by simp) (by simp)
          (by
            show (st.heads ++ [none, none]).getD _ none = none
            rw [getD_append_none]
            exact List.getD_eq_default _ _ (by omega))
          (by
            show (st.heads ++ [none, none]).getD _ none = none
            rw [getD_append_none]
            exact List.getD_eq_default _ _ (by omega))
          (by
            show is_list st.next ((st.heads ++ [none, none]).getD n none) subset
            rw [getD_append_none]
            exact is_list_of_tc_bucket _ _ _ _ hb)
          hv
      refine ⟨st3, ?_⟩
      rw [hgrow, hres]
      simp only
      rw [e]
      rfl
    · unfold split_node
      simp
    · intro k hk hkl
      unfold split_node
      simp only
      rw [List.getElem?_append_left (by simpa using hkl), List.getElem?_set,
        if_neg (fun e => hk e.symm)]
    · intro k hk1 hk2
      unfold split_node
      simp only
      rw [List.getElem?_append_right (by simpa using hk1)]
      simp only [List.length_set]
      rcases Nat.lt_or_ge (k - tree.nodes.length) 1 with h | h
      · have : k - tree.nodes.length = 0 := by omega
        rw [this]
        rfl
      · have : k - tree.nodes.length = 1 := by omega
        rw [this]
        rfl
  · intro hwv
    have hres : reduce_result sc trainers = none := by
      unfold reduce_result
      rw [hw]
      simp only
      rw [if_pos hwv]
    rw [hgrow, hres]

theorem exLinks_valid : data_valid exForty exLinks.next (List.range 40).reverse := by
  unfold data_valid
  set_option maxRecDepth 100000 in
  with_unfolding_all decide

/-- C31 at the three trainers of `exTrainers`, of which the second and the
third are valid with equal scores: the winner is the second, and its split
is installed on the root of a fresh tree with the forty data of `exForty`. -/
theorem reduce_installs_winner_witness :
    tc_reduce exScore exTrainers = 1 ∧
    ∃ w, exTrainers[tc_reduce exScore exTrainers]? = some w ∧ w.valid ≠ 0 ∧
      ∃ st2, tc_grow_tree ratOps (fun _ => reduce_result exScore exTrainers) exForty
          (tc_init_tree ratOps) exLinks =
        some (GrowOutcome.grown
          (split_node ratOps (tc_init_tree ratOps) 0 (tc_init_node ratOps) w.best_filter
            w.best_threshold) st2) := by
  obtain ⟨w, h1, _, h3, h4, _⟩ := reduce_installs_winner ratOps exScore exScore_laws exTrainers
    exForty (tc_init_tree ratOps) exLinks 0 (tc_init_node ratOps) (List.range 40).reverse
    (by decide) (by decide)
    (by
      set_option maxRecDepth 100000 in
      with_unfolding_all rfl)
    rfl
    (by
      set_option maxRecDepth 100000 in
      with_unfolding_all rfl)
    rfl exLinks_valid
  have hv := (h3 ⟨_, List.mem_cons_of_mem _ (List.mem_cons_self _ _), by decide⟩).1
  exact ⟨by with_unfolding_all rfl, w, h1, hv, (h4 hv).1⟩

/-! ## Theorems: the best split of `tc_split_search` -/

theorem mem_scan_pairs (candidates : List tc_filter) (p : tc_filter × Nat) :
    p ∈ scan_pairs candidates ↔ p.1 ∈ candidates ∧ 1 ≤ p.2 ∧ p.2 ≤ 510 := by
  unfold scan_pairs
  have h : N_THRESH.toNat - 2 = 510 := rfl
  rw [h]
  simp only [List.mem_flatMap, List.mem_map, List.mem_range']
  constructor
  · rintro ⟨cand, hc, t, ⟨i, hi, rfl⟩, rfl⟩
    exact ⟨hc, by omega, by omega⟩
  · rintro ⟨hc, h1, h2⟩
    exact ⟨p.1, hc, p.2, ⟨p.2 - 1, by omega, by omega⟩, rfl⟩

/-- The search is the loop over the pairs in scan order. -/
theorem split_search_pairs (sc : ScoreOps) (rnd : ℚ → ℚ) (ds : tc_dataset) (L : List Nat) :
    ∀ (candidates : List tc_filter) (tr : tc_trainer sc.S),
      candidates.foldl (search_candidate_step sc rnd ds L) tr =
        (scan_pairs candidates).foldl
          (fun tr p => search_threshold_step sc rnd ds.nclasses.toNat p.1
            (accum_counts rnd ds p.1 L) tr p.2) tr := by
  intro candidates
  induction candidates with
  | nil =>
    intro tr
    rfl
  | cons cand rest ih =>
    intro tr
    unfold scan_pairs
    rw [List.foldl_cons, List.flatMap_cons, List.foldl_append, List.foldl_map]
    exact ih _

theorem pair_step_eq (sc : ScoreOps) (rnd : ℚ → ℚ) (ds : tc_dataset) (L : List Nat)
    (tr : tc_trainer sc.S) (p : tc_filter × Nat) :
    search_threshold_step sc rnd ds.nclasses.toNat p.1 (accum_counts rnd ds p.1 L) tr p.2 =
      if passes_gate rnd ds L p ∧ sc.gt (pair_score sc rnd ds L p) tr.best_score = true then
        pair_trainer sc rnd ds L p
      else tr := by
  unfold search_threshold_step passes_gate total_low total_high pair_trainer pair_score
  by_cases h1 : (lowdist_class_cnts (accum_counts rnd ds p.1 L) ds.nclasses.toNat p.2).sum <
      TC_TRAIN_MIN_SPLIT ∨
      (highdist_class_cnts rnd (accum_counts rnd ds p.1 L) ds.nclasses.toNat p.2).sum <
        TC_TRAIN_MIN_SPLIT
  · rw [if_pos h1, if_neg]
    rintro ⟨⟨a, b⟩, _⟩
    rcases h1 with h | h <;> omega
  · rw [if_neg h1]
    have hg : TC_TRAIN_MIN_SPLIT ≤
        (lowdist_class_cnts (accum_counts rnd ds p.1 L) ds.nclasses.toNat p.2).sum ∧
        TC_TRAIN_MIN_SPLIT ≤
        (highdist_class_cnts rnd (accum_counts rnd ds p.1 L) ds.nclasses.toNat p.2).sum := by
      constructor
      · by_contra hc
        exact h1 (Or.inl (by omega))
      · by_contra hc
        exact h1 (Or.inr (by omega))
    by_cases h2 : sc.gt (sc.score
        (lowdist_class_cnts (accum_counts rnd ds p.1 L) ds.nclasses.toNat p.2)
        (highdist_class_cnts rnd (accum_counts rnd ds p.1 L) ds.nclasses.toNat p.2))
        tr.best_score = true
    · rw [if_pos h2, if_pos ⟨hg, h2⟩]
    · rw [if_neg h2, if_neg (fun h => h2 h.2)]

/-- The loop over the pairs after the pairs of `done`: the trainer is the
one of `tc_init_trainer` when no pair passed the test on the totals, and
otherwise the trainer of a pair of `done` that passed it, whose score no
passing pair of `done` exceeds and which exceeds the score of every passing
pair before it. -/
theorem search_pairs_inv (sc : ScoreOps) (hl : ScoreLaws sc)
    (habove : ∀ l h, sc.gt (sc.score l h) sc.init = true)
    (rnd : ℚ → ℚ) (ds : tc_dataset) (L : List Nat) :
    ∀ (rest done : List (tc_filter × Nat)) (tr : tc_trainer sc.S),
      ((tr = tc_init_trainer sc ∧ ∀ p ∈ done, ¬ passes_gate rnd ds L p) ∨
        ∃ pre p post, done = pre ++ p :: post ∧ passes_gate rnd ds L p ∧
          tr = pair_trainer sc rnd ds L p ∧
          (∀ y ∈ done, passes_gate rnd ds L y →
            sc.gt (pair_score sc rnd ds L y) (pair_score sc rnd ds L p) = false) ∧
          (∀ y ∈ pre, passes_gate rnd ds L y →
            sc.gt (pair_score sc rnd ds L p) (pair_score sc rnd ds L y) = true)) →
      (((rest.foldl (fun tr p => search_threshold_step sc rnd ds.nclasses.toNat p.1
            (accum_counts rnd ds p.1 L) tr p.2) tr) = tc_init_trainer sc ∧
          ∀ p ∈ done ++ rest, ¬ passes_gate rnd ds L p) ∨
        ∃ pre p post, done ++ rest = pre ++ p :: post ∧ passes_gate rnd ds L p ∧
          (rest.foldl (fun tr p => search_threshold_step sc rnd ds.nclasses.toNat p.1
            (accum_counts rnd ds p.1 L) tr p.2) tr) = pair_trainer sc rnd ds L p ∧
          (∀ y ∈ done ++ rest, passes_gate rnd ds L y →
            sc.gt (pair_score sc rnd ds L y) (pair_score sc rnd ds L p) = false) ∧
          (∀ y ∈ pre, passes_gate rnd ds L y →
            sc.gt (pair_score sc rnd ds L p) (pair_score sc rnd ds L y) = true)) := by
  intro rest
  induction rest with
  | nil =>
    intro done tr h
    rw [List.append_nil]
    exact h
  | cons x rest ih =>
    intro done tr h
    rw [List.foldl_cons, pair_step_eq]
    have happ : done ++ x :: rest = (done ++ [x]) ++ rest := by simp
    rw [happ]
    refine ih (done ++ [x]) _ ?_
    rcases h with ⟨h1, h2⟩ | ⟨pre, p, post, e, hp, htr, hmax, hfirst⟩
    · by_cases hx : passes_gate rnd ds L x
      · right
        have hg : sc.gt (pair_score sc rnd ds L x) tr.best_score = true := by
          rw [h1]
          exact habove _ _
        rw [if_pos ⟨hx, hg⟩]
        refine ⟨done, x, [], rfl, hx, rfl, fun y hy hpy => ?_,
          fun y hy hpy => absurd hpy (h2 y hy)⟩
        rcases List.mem_append.mp hy with h | h
        · exact absurd hpy (h2 y h)
        · rw [List.mem_singleton] at h
          rw [h]
          exact hl.irrefl _
      · left
        rw [if_neg (fun h => hx h.1)]
        refine ⟨h1, fun y hy => ?_⟩
        rcases List.mem_append.mp hy with h | h
        · exact h2 y h
        · rw [List.mem_singleton] at h
          rw [h]
          exact hx
    · right
      have hbest : tr.best_score = pair_score sc rnd ds L p := by
        rw [htr]
        rfl
      by_cases hc : passes_gate rnd ds L x ∧
          sc.gt (pair_score sc rnd ds L x) tr.best_score = true
      · rw [if_pos hc]
        have hg := hc.2
        rw [hbest] at hg
        refine ⟨done, x, [], rfl, hc.1, rfl, fun y hy hpy => ?_, fun y hy hpy => ?_⟩
        · rcases List.mem_append.mp hy with h | h
          · cases hgy : sc.gt (pair_score sc rnd ds L y) (pair_score sc rnd ds L x) with
            | false => rfl
            | true =>
              rcases hl.neg_trans _ (pair_score sc rnd ds L p) _ hgy with h1 | h1
              · rw [hmax y h hpy] at h1
                cases h1
              · have := hl.trans _ _ _ h1 hg
                rw [hl.irrefl] at this
                cases this
          · rw [List.mem_singleton] at h
            rw [h]
            exact hl.irrefl _
        · rcases hl.neg_trans _ (pair_score sc rnd ds L y) _ hg with h1 | h1
          · exact h1
          · rw [hmax y hy hpy] at h1
            cases h1
      · rw [if_neg hc]
        refine ⟨pre, p, post ++ [x], by rw [e]; simp, hp, htr, fun y hy hpy => ?_, hfirst⟩
        rcases List.mem_append.mp hy with h | h
        · exact hmax y h hpy
        · rw [List.mem_singleton] at h
          rw [h] at hpy ⊢
          cases hgx : sc.gt (pair_score sc rnd ds L x) (pair_score sc rnd ds L p) with
          | false => rfl
          | true =>
            rw [← hbest] at hgx
            exact absurd ⟨hpy, hgx⟩ hc

/-- C35: with a comparison of scores without incomparable values, in which
every score is greater than the initial `best_score`, after the search the
member `valid` is 1 exactly when for one of the candidates and some threshold
index `t` in `[1, 510]` both totals are at least 32, and 0 otherwise, and
then the trainer is as `tc_init_trainer` left it.  When `valid` is 1 the
trainer holds a pair (candidate, `t`) of the scan that passes this test:
`best_score` is its score, `best_filter` its filter and `best_threshold` is
`t + MIN_THRESH`, in `[-254, 255]`; no passing pair of the scan has a greater
score, and the score is greater than that of every passing pair visited
before it. -/
theorem split_search_best (sc : ScoreOps) (hl : ScoreLaws sc)
    (habove : ∀ l h, sc.gt (sc.score l h) sc.init = true)
    (rnd : ℚ → ℚ) (ds : tc_dataset) (L : List Nat) (candidates : List tc_filter) :
    ((tc_split_search sc rnd ds L candidates).valid = 1 ↔
      ∃ cand ∈ candidates, ∃ t : Nat, 1 ≤ t ∧ t ≤ 510 ∧
        TC_TRAIN_MIN_SPLIT ≤ total_low rnd ds cand L t ∧
        TC_TRAIN_MIN_SPLIT ≤ total_high rnd ds cand L t) ∧
    ((tc_split_search sc rnd ds L candidates).valid = 0 ∨
      (tc_split_search sc rnd ds L candidates).valid = 1) ∧
    ((tc_split_search sc rnd ds L candidates).valid = 0 →
      tc_split_search sc rnd ds L candidates = tc_init_trainer sc) ∧
    ((tc_split_search sc rnd ds L candidates).valid = 1 →
      ∃ pre cand t post, scan_pairs candidates = pre ++ (cand, t) :: post ∧
        cand ∈ candidates ∧ 1 ≤ t ∧ t ≤ 510 ∧
        TC_TRAIN_MIN_SPLIT ≤ total_low rnd ds cand L t ∧
        TC_TRAIN_MIN_SPLIT ≤ total_high rnd ds cand L t ∧
        (tc_split_search sc rnd ds L candidates).best_score =
          pair_score sc rnd ds L (cand, t) ∧
        (tc_split_search sc rnd ds L candidates).best_filter = cand ∧
        (tc_split_search sc rnd ds L candidates).best_threshold = (t : Int) + MIN_THRESH ∧
        -254 ≤ (tc_split_search sc rnd ds L candidates).best_threshold ∧
        (tc_split_search sc rnd ds L candidates).best_threshold ≤ 255 ∧
        (∀ y ∈ scan_pairs candidates, passes_gate rnd ds L y →
          sc.gt (pair_score sc rnd ds L y)
            (tc_split_search sc rnd ds L candidates).best_score = false) ∧
        (∀ y ∈ pre, passes_gate rnd ds L y →
          sc.gt (tc_split_search sc rnd ds L candidates).best_score
            (pair_score sc rnd ds L y) = true)) := by
  have hinv := search_pairs_inv sc hl habove rnd ds L (scan_pairs candidates) []
    (tc_init_trainer sc) (Or.inl ⟨rfl, fun p hp => absurd hp (List.not_mem_nil p)⟩)
  rw [List.nil_append] at hinv
  have hs : tc_split_search sc rnd ds L candidates =
      (scan_pairs candidates).foldl (fun tr p => search_threshold_step sc rnd ds.nclasses.toNat
        p.1 (accum_counts rnd ds p.1 L) tr p.2) (tc_init_trainer sc) := by
    unfold tc_split_search
    exact split_search_pairs sc rnd ds L candidates _
  rw [← hs] at hinv
  rcases hinv with ⟨h1, h2⟩ | ⟨pre, p, post, e, hp, htr, hmax, hfirst⟩
  · have hv : (tc_split_search sc rnd ds L candidates).valid = 0 := by
      rw [h1]
      rfl
    refine ⟨⟨fun h => ?_, ?_⟩, Or.inl hv, fun _ => h1, fun h => ?_⟩
    · rw [hv] at h
      cases h
    · rintro ⟨cand, hc, t, t1, t2, g1, g2⟩
      exact absurd ⟨g1, g2⟩ (h2 (cand, t) ((mem_scan_pairs candidates (cand, t)).mpr ⟨hc, t1, t2⟩))
    · rw [hv] at h
      cases h
  · have hv : (tc_split_search sc rnd ds L candidates).valid = 1 := by
      rw [htr]
      rfl
    have hmem : p ∈ scan_pairs candidates := by
      rw [e]
      exact List.mem_append_right _ (List.mem_cons_self _ _)
    obtain ⟨m1, m2, m3⟩ := (mem_scan_pairs candidates p).mp hmem
    have hbest : (tc_split_search sc rnd ds L candidates).best_score =
        pair_score sc rnd ds L p := by
      rw [htr]
      rfl
    have hthr : (tc_split_search sc rnd ds L candidates).best_threshold =
        (p.2 : Int) + MIN_THRESH := by
      rw [htr]
      rfl
    refine ⟨⟨fun _ => ⟨p.1, m1, p.2, m2, m3, hp.1, hp.2⟩, fun _ => hv⟩, Or.inr hv, fun h => ?_,
      fun _ => ⟨pre, p.1, p.2, post, e, m1, m2, m3, hp.1, hp.2, hbest, by rw [htr]; rfl, hthr,
        ?_, ?_, ?_, ?_⟩⟩
    · rw [hv] at h
      cases h
    · rw [hthr]
      unfold MIN_THRESH
      omega
    · rw [hthr]
      unfold MIN_THRESH
      omega
    · rw [hbest]
      exact hmax
    · rw [hbest]
      exact hfirst

/-- The comparison of the scores of `entropy_score` is that of a linear order
with a least value. -/
theorem entropy_score_laws {α : Type} [LinearOrderedField α] (A : ScoreArith α) :
    ScoreLaws (entropy_score A) := by
  refine ⟨fun (a : WithBot α) => ?_, fun (a b c : WithBot α) h1 h2 => ?_,
    fun (a b c : WithBot α) h => ?_⟩
  · show decide (a < a) = false
    simp
  · have e1 : b < a := by
      change decide (b < a) = true at h1
      simpa using h1
    have e2 : c < b := by
      change decide (c < b) = true at h2
      simpa using h2
    show decide (c < a) = true
    simpa using lt_trans e2 e1
  · have e : c < a := by
      change decide (c < a) = true at h
      simpa using h
    rcases lt_or_le b a with h1 | h1
    · left
      show decide (b < a) = true
      simpa using h1
    · right
      show decide (c < b) = true
      simpa using lt_of_lt_of_le e h1

/-- Every score of `entropy_score` exceeds the initial `best_score`. -/
theorem entropy_score_above {α : Type} [LinearOrderedField α] (A : ScoreArith α)
    (l h : List Int) :
    (entropy_score A).gt ((entropy_score A).score l h) (entropy_score A).init = true := by
  show decide ((⊥ : WithBot α) < ((split_score A l h : α) : WithBot α)) = true
  rw [decide_eq_true_eq]
  exact WithBot.bot_lt_coe _

/-- C35 at the data of `exSkewed`, the candidate `exDiff` and the score of the
code in exact arithmetic with `p - 1` in the place of `log`. -/
theorem split_search_best_witness :
    ((tc_split_search (entropy_score exArith) id exSkewed (List.range 54) [exDiff]).valid = 1 ↔
      ∃ cand ∈ [exDiff], ∃ t : Nat, 1 ≤ t ∧ t ≤ 510 ∧
        TC_TRAIN_MIN_SPLIT ≤ total_low id exSkewed cand (List.range 54) t ∧
        TC_TRAIN_MIN_SPLIT ≤ total_high id exSkewed cand (List.range 54) t) :=
  (split_search_best (entropy_score exArith) (entropy_score_laws exArith)
    (entropy_score_above exArith) id exSkewed (List.range 54) [exDiff]).1

/-! ## Theorems: the score of a split -/

theorem max_represented_ge_zero (rnd : ℚ → ℚ) (ds : tc_dataset) :
    0 ≤ max_represented rnd ds := by
  unfold max_represented
  have h : ∀ (l : List Nat) (m : ℚ), 0 ≤ m →
      0 ≤ l.foldl (fun m i =>
        if rnd ((ds.represented.getD i 0 : Int) : ℚ) > m then
          rnd ((ds.represented.getD i 0 : Int) : ℚ)
        else m) m := by
    intro l
    induction l with
    | nil => intro m hm; exact hm
    | cons i l ih =>
      intro m hm
      rw [List.foldl_cons]
      refine ih _ ?_
      split
      · rename_i hgt
        exact le_of_lt (lt_of_le_of_lt hm hgt)
      · exact hm
  exact h _ 0 le_rfl

theorem round_nonneg {α : Type} [LinearOrderedField α] (rnd : α → α) (hl : RoundMono rnd)
    (x : α) (hx : 0 ≤ x) : 0 ≤ rnd x := by
  have := hl.mono 0 x hx
  rwa [hl.zero] at this

theorem round_nonpos {α : Type} [LinearOrderedField α] (rnd : α → α) (hl : RoundMono rnd)
    (x : α) (hx : x ≤ 0) : rnd x ≤ 0 := by
  have := hl.mono x 0 hx
  rwa [hl.zero] at this

theorem search_entry_nonneg (rnd : ℚ → ℚ) (hl : RoundMono rnd) (ds : tc_dataset)
    (hlab : labels_ok ds) (cand : tc_filter) (i : Nat) (e : Nat × Nat × ℚ)
    (h : search_entry rnd ds cand i = some e) : 0 ≤ e.2.2 := by
  unfold search_entry at h
  split at h
  · cases h
  · rename_i d hd
    split at h
    · cases h
    · split at h
      · cases h
        have hmem : d ∈ ds.data := List.getElem?_mem hd
        have hrep := (hlab d hmem).2.2
        show 0 ≤ mass_scale rnd ds d.label.toNat
        unfold mass_scale
        refine round_nonneg rnd hl _ (div_nonneg (max_represented_ge_zero rnd ds)
          (round_nonneg rnd hl _ ?_))
        exact_mod_cast le_of_lt hrep
      · cases h

/-- Every element of the array `counts` is a non-negative `float` and every
row has `N_THRESH` elements. -/
theorem search_tally_good (rnd : ℚ → ℚ) (hl : RoundMono rnd) (ds : tc_dataset)
    (hlab : labels_ok ds) (cand : tc_filter) :
    ∀ (L : List Nat) (counts : List (List ℚ)),
      (∀ row ∈ counts, row.length = 512 ∧ ∀ x ∈ row, 0 ≤ x ∧ rnd x = x) →
      ∀ row ∈ L.foldl (search_tally_step rnd ds cand) counts,
        row.length = 512 ∧ ∀ x ∈ row, 0 ≤ x ∧ rnd x = x := by
  intro L
  induction L with
  | nil => intro counts h; exact h
  | cons i L ih =>
    intro counts h
    rw [List.foldl_cons]
    refine ih _ ?_
    unfold search_tally_step
    cases he : search_entry rnd ds cand i with
    | none => exact h
    | some e =>
      have hm := search_entry_nonneg rnd hl ds hlab cand i e he
      show ∀ row ∈ counts_add rnd counts e.1 e.2.1 e.2.2, _
      unfold counts_add
      intro row hrow
      by_cases hlen : e.1 < counts.length
      · have hget : counts.getD e.1 [] = counts[e.1] := by
          simp [List.getD_eq_getElem?_getD, List.getElem?_eq_getElem hlen]
        have hin : counts[e.1] ∈ counts := List.getElem_mem hlen
        rcases List.mem_or_eq_of_mem_set hrow with h1 | h1
        · exact h row h1
        · rw [h1, hget]
          refine ⟨by rw [List.length_set]; exact (h _ hin).1, fun x hx => ?_⟩
          rcases List.mem_or_eq_of_mem_set hx with h2 | h2
          · exact (h _ hin).2 x h2
          · rw [h2]
            have h0 : 0 ≤ counts[e.1].getD e.2.1 0 := by
              rw [List.getD_eq_getElem?_getD]
              cases hx2 : counts[e.1][e.2.1]? with
              | none => exact le_rfl
              | some v => exact ((h _ hin).2 v (List.getElem?_mem hx2)).1
            exact ⟨round_nonneg rnd hl _ (add_nonneg h0 hm), hl.idem _⟩
      · rw [List.set_eq_of_length_le (by omega)] at hrow
        exact h row hrow

theorem accumulate_props (rnd : ℚ → ℚ) (hl : RoundMono rnd) :
    ∀ (xs : List ℚ) (acc : ℚ), rnd acc = acc → (∀ x ∈ xs, 0 ≤ x) →
      (∀ y ∈ accumulate rnd acc xs, acc ≤ y ∧ rnd y = y) ∧
      List.Pairwise (fun a b => a ≤ b) (accumulate rnd acc xs) ∧
      (accumulate rnd acc xs).length = xs.length := by
  intro xs
  induction xs with
  | nil =>
    intro acc _ _
    exact ⟨fun y hy => absurd hy (List.not_mem_nil y), List.Pairwise.nil, rfl⟩
  | cons x xs ih =>
    intro acc hacc hxs
    have hx := hxs x (List.mem_cons_self _ _)
    have hr : acc ≤ rnd (x + acc) := by
      have := hl.mono acc (x + acc) (by linarith)
      rwa [hacc] at this
    obtain ⟨i1, i2, i3⟩ := ih (rnd (x + acc)) (hl.idem _)
      (fun y hy => hxs y (List.mem_cons_of_mem _ hy))
    show (∀ y ∈ rnd (x + acc) :: accumulate rnd (rnd (x + acc)) xs, acc ≤ y ∧ rnd y = y) ∧
      List.Pairwise (fun a b => a ≤ b) (rnd (x + acc) :: accumulate rnd (rnd (x + acc)) xs) ∧
      (rnd (x + acc) :: accumulate rnd (rnd (x + acc)) xs).length = (x :: xs).length
    refine ⟨fun y hy => ?_, List.Pairwise.cons (fun y hy => (i1 y hy).1) i2, by simp [i3]⟩
    rcases List.mem_cons.mp hy with h | h
    · rw [h]
      exact ⟨hr, hl.idem _⟩
    · exact ⟨le_trans hr (i1 y h).1, (i1 y h).2⟩

theorem accum_row_props (rnd : ℚ → ℚ) (hl : RoundMono rnd) (row : List ℚ)
    (hrow : ∀ x ∈ row, 0 ≤ x ∧ rnd x = x) :
    (∀ y ∈ accum_row rnd row, 0 ≤ y ∧ rnd y = y) ∧
    List.Pairwise (fun a b => a ≤ b) (accum_row rnd row) ∧
    (accum_row rnd row).length = row.length := by
  cases row with
  | nil => exact ⟨fun y hy => absurd hy (List.not_mem_nil y), List.Pairwise.nil, rfl⟩
  | cons x xs =>
    have hx := hrow x (List.mem_cons_self _ _)
    obtain ⟨i1, i2, i3⟩ := accumulate_props rnd hl xs x hx.2
      (fun y hy => (hrow y (List.mem_cons_of_mem _ hy)).1)
    show (∀ y ∈ x :: accumulate rnd x xs, 0 ≤ y ∧ rnd y = y) ∧
      List.Pairwise (fun a b => a ≤ b) (x :: accumulate rnd x xs) ∧
      (x :: accumulate rnd x xs).length = (x :: xs).length
    refine ⟨fun y hy => ?_, List.Pairwise.cons (fun y hy => (i1 y hy).1) i2, by simp [i3]⟩
    rcases List.mem_cons.mp hy with h | h
    · rw [h]
      exact hx
    · exact ⟨le_trans hx.1 (i1 y h).1, (i1 y h).2⟩

theorem getD_good (rnd : ℚ → ℚ) (hl : RoundMono rnd) (R : List ℚ)
    (hR : ∀ y ∈ R, 0 ≤ y ∧ rnd y = y) (t : Nat) :
    0 ≤ R.getD t 0 ∧ rnd (R.getD t 0) = R.getD t 0 := by
  rw [List.getD_eq_getElem?_getD]
  cases hx : R[t]? with
  | none => exact ⟨le_rfl, hl.zero⟩
  | some v => exact hR v (List.getElem?_mem hx)

theorem getD_le_last (rnd : ℚ → ℚ) (hl : RoundMono rnd) (R : List ℚ)
    (hR : ∀ y ∈ R, 0 ≤ y ∧ rnd y = y) (hp : List.Pairwise (fun a b => a ≤ b) R)
    (hlen : R = [] ∨ R.length = 512) (t : Nat) :
    R.getD t 0 ≤ R.getD 511 0 := by
  rcases hlen with h | h
  · rw [h]
    simp
  · by_cases ht : t < 512
    · have h511 : R.getD 511 0 = R[511] := by
        simp [List.getD_eq_getElem?_getD, List.getElem?_eq_getElem (show 511 < R.length by omega)]
      have htt : R.getD t 0 = R.get ⟨t, by omega⟩ := by
        simp [List.getD_eq_getElem?_getD, List.getElem?_eq_getElem (show t < R.length by omega)]
      rw [h511, htt]
      by_cases h2 : t = 511
      · subst h2
        exact le_rfl
      · exact (List.pairwise_iff_getElem.mp hp) t 511 (by omega) (by omega) (by omega)
    · have htt : R.getD t 0 = 0 := by
        simp [List.getD_eq_getElem?_getD, List.getElem?_eq_none (show R.length ≤ t by omega)]
      rw [htt]
      exact (getD_good rnd hl R hR 511).1

/-- With a monotone rounding the counts of every class on the two sides of a
threshold are not negative. -/
theorem search_counts_nonneg (rnd : ℚ → ℚ) (hl : RoundMono rnd) (ds : tc_dataset)
    (hlab : labels_ok ds) (L : List Nat) (p : tc_filter × Nat) :
    (∀ x ∈ pair_low rnd ds L p, 0 ≤ x) ∧ (∀ x ∈ pair_high rnd ds L p, 0 ≤ x) := by
  have hgood := search_tally_good rnd hl ds hlab p.1 L
    (List.replicate ds.nclasses.toNat (List.replicate N_THRESH.toNat 0)) (by
      intro row hrow
      rw [List.eq_of_mem_replicate hrow]
      refine ⟨List.length_replicate _ _, fun x hx => ?_⟩
      rw [List.eq_of_mem_replicate hx]
      exact ⟨le_rfl, hl.zero⟩)
  have hrowc : ∀ c : Nat, ∃ R : List ℚ, (accum_counts rnd ds p.1 L).getD c [] = R ∧
      (∀ y ∈ R, 0 ≤ y ∧ rnd y = y) ∧ List.Pairwise (fun a b => a ≤ b) R ∧
      (R = [] ∨ R.length = 512) := by
    intro c
    unfold accum_counts
    rw [List.getD_eq_getElem?_getD, List.getElem?_map]
    cases hx : (L.foldl (search_tally_step rnd ds p.1)
        (List.replicate ds.nclasses.toNat (List.replicate N_THRESH.toNat 0)))[c]? with
    | none =>
      exact ⟨[], rfl, fun y hy => absurd hy (List.not_mem_nil y), List.Pairwise.nil, Or.inl rfl⟩
    | some row =>
      have hg := hgood row (List.getElem?_mem hx)
      obtain ⟨i1, i2, i3⟩ := accum_row_props rnd hl row hg.2
      exact ⟨accum_row rnd row, rfl, i1, i2, Or.inr (by rw [i3]; exact hg.1)⟩
  constructor
  · intro x hx
    unfold pair_low lowdist_class_cnts at hx
    rw [List.mem_map] at hx
    obtain ⟨c, _, rfl⟩ := hx
    obtain ⟨R, e, g1, _, _⟩ := hrowc c
    rw [e]
    exact float_to_int_nonneg _ (getD_good rnd hl R g1 p.2).1
  · intro x hx
    unfold pair_high highdist_class_cnts at hx
    rw [List.mem_map] at hx
    obtain ⟨c, _, rfl⟩ := hx
    obtain ⟨R, e, g1, g2, g3⟩ := hrowc c
    rw [e]
    have h511 : N_THRESH.toNat - 1 = 511 := rfl
    rw [h511]
    have ht := getD_good rnd hl R g1 p.2
    have hle := float_to_int_le _ ht.1
    have h1 := hl.mono _ _ hle
    rw [ht.2] at h1
    have h2 := getD_le_last rnd hl R g1 g2 g3 p.2
    exact float_to_int_nonneg _ (round_nonneg rnd hl _ (by linarith))

theorem round_id {α : Type} [LinearOrderedField α] : RoundMono (id : α → α) :=
  ⟨fun _ _ h => h, fun _ => rfl, rfl, rfl⟩

theorem small_cast {α : Type} [LinearOrderedField α] :
    (0 : α) < ((SMALL : ℚ) : α) ∧ ((SMALL : ℚ) : α) ≤ 1 := by
  have h1 : (0 : ℚ) < SMALL := by unfold SMALL; norm_num
  have h2 : SMALL ≤ (1 : ℚ) := by unfold SMALL; norm_num
  constructor
  · exact_mod_cast h1
  · exact_mod_cast h2

/-- The test `cnt >= SMALL` on a count that is not negative: the count is at
least 1. -/
theorem small_le_round {α : Type} [LinearOrderedField α] (rnd : α → α) (hl : RoundMono rnd)
    (c : Int) (hc : 0 ≤ c) : ((SMALL : ℚ) : α) ≤ rnd (c : α) ↔ 1 ≤ c := by
  have hs := @small_cast α _
  constructor
  · intro h
    by_contra hn
    have h0 : c = 0 := by omega
    rw [h0, Int.cast_zero, hl.zero] at h
    exact absurd h (not_le.mpr hs.1)
  · intro h
    have h1 : (1 : α) ≤ (c : α) := by exact_mod_cast h
    have h2 := hl.mono _ _ h1
    rw [hl.one] at h2
    exact le_trans hs.2 h2

theorem mem_zip_nonneg (low high : List Int) (h1 : ∀ x ∈ low, 0 ≤ x) (h2 : ∀ x ∈ high, 0 ≤ x)
    (c : Int × Int) (hc : c ∈ low.zip high) :
    0 ≤ c.1 ∧ c.1 ≤ low.sum ∧ 0 ≤ c.2 ∧ c.2 ≤ high.sum := by
  obtain ⟨a, b⟩ := c
  obtain ⟨m1, m2⟩ := List.of_mem_zip hc
  exact ⟨h1 a m1, List.single_le_sum h1 a m1, h2 b m2, List.single_le_sum h2 b m2⟩

/-- In exact arithmetic the loop over the classes adds `p · log p` for the
classes whose counts on both sides are not zero. -/
theorem entropy_fold_exact {α : Type} [LinearOrderedField α] (log : α → α) (tl th : Int) :
    ∀ (cs : List (Int × Int)) (e : α × α), (∀ c ∈ cs, 0 ≤ c.1 ∧ 0 ≤ c.2) →
      cs.foldl (entropy_step (ScoreArith.mk id id log) tl th) e =
        (e.1 + (cs.map fun c => if c.1 ≠ 0 ∧ c.2 ≠ 0 then
            ((c.1 : α) / (tl : α)) * log ((c.1 : α) / (tl : α)) else 0).sum,
          e.2 + (cs.map fun c => if c.1 ≠ 0 ∧ c.2 ≠ 0 then
            ((c.2 : α) / (th : α)) * log ((c.2 : α) / (th : α)) else 0).sum) := by
  intro cs
  induction cs with
  | nil =>
    intro e _
    simp
  | cons c cs ih =>
    intro e h
    rw [List.foldl_cons, ih _ (fun x hx => h x (List.mem_cons_of_mem _ hx))]
    have hc := h c (List.mem_cons_self _ _)
    have e1 := small_le_round (id : α → α) round_id c.1 hc.1
    have e2 := small_le_round (id : α → α) round_id c.2 hc.2
    unfold entropy_step
    by_cases hb : 1 ≤ c.1 ∧ 1 ≤ c.2
    · rw [if_pos ⟨e1.mpr hb.1, e2.mpr hb.2⟩]
      simp only [List.map_cons, List.sum_cons]
      rw [if_pos ⟨by omega, by omega⟩, if_pos ⟨by omega, by omega⟩]
      simp only [entropy_add, prob_class, id]
      refine Prod.ext ?_ ?_
      · simp only
        ring
      · simp only
        ring
    · rw [if_neg (fun hh => hb ⟨e1.mp hh.1, e2.mp hh.2⟩)]
      simp only [List.map_cons, List.sum_cons]
      rw [if_neg (fun hh => hb ⟨by omega, by omega⟩), if_neg (fun hh => hb ⟨by omega, by omega⟩)]
      simp

/-- In exact arithmetic the score of the code is the score of the
specification, for counts that are not negative. -/
theorem split_score_exact {α : Type} [LinearOrderedField α] (log : α → α) (low high : List Int)
    (h1 : ∀ x ∈ low, 0 ≤ x) (h2 : ∀ x ∈ high, 0 ≤ x) :
    split_score (ScoreArith.mk id id log) low high = spec_split_score log low high := by
  unfold split_score expected_posterior_entropy class_entropies
  rw [entropy_fold_exact log low.sum high.sum (low.zip high) (0, 0)
    (fun c hc => ⟨(mem_zip_nonneg low high h1 h2 c hc).1, (mem_zip_nonneg low high h1 h2 c hc).2.2.1⟩)]
  have hswap : spec_entropy log high low =
      ((low.zip high).map fun c => if c.1 ≠ 0 ∧ c.2 ≠ 0 then
        ((c.2 : α) / (high.sum : α)) * log ((c.2 : α) / (high.sum : α)) else 0).sum := by
    unfold spec_entropy
    rw [← List.zip_swap low high, List.map_map]
    congr 1
    refine List.map_congr_left (fun c _ => ?_)
    simp only [Function.comp_apply, Prod.fst_swap, Prod.snd_swap]
    by_cases hb : c.1 ≠ 0 ∧ c.2 ≠ 0
    · rw [if_pos hb, if_pos ⟨hb.2, hb.1⟩]
    · rw [if_neg hb, if_neg (fun hh => hb ⟨hh.2, hh.1⟩)]
  unfold spec_split_score
  rw [hswap]
  unfold spec_entropy
  simp only [id, zero_add, Int.cast_add]
  rw [neg_div, neg_neg, add_comm (low.sum : α) (high.sum : α)]

/-- C37 amended: in exact arithmetic, for every candidate and threshold index
whose two totals pass the test against `TC_TRAIN_MIN_SPLIT`, both totals are
positive and the score that `tc_split_search` compares with `best_score` is
`(total_high · H_high + total_low · H_low) / (total_high + total_low)`, where
`low_k` and `high_k` are the counts of the `int` arrays `lowdist_class_cnts`
and `highdist_class_cnts`, the class masses truncated to `int`, the totals
are the sums of these counts, `H_low` is the sum of `p · log p` with
`p = low_k / total_low` over the classes whose counts on both sides are not
zero, and `H_high` likewise; the score is minus `expected_posterior_entropy`,
and of two splits the one with the lower `expected_posterior_entropy` has the
greater score. -/
theorem split_score_formula {α : Type} [LinearOrderedField α] (A : ScoreArith α)
    (hr : A.rnd = id) (hd : A.rnd64 = id) (ds : tc_dataset) (hlab : labels_ok ds)
    (L : List Nat) (p : tc_filter × Nat) (hp : passes_gate id ds L p) :
    0 < (pair_low id ds L p).sum ∧ 0 < (pair_high id ds L p).sum ∧
    pair_score (entropy_score A) id ds L p =
      ((spec_split_score A.log (pair_low id ds L p) (pair_high id ds L p) : α) : WithBot α) ∧
    spec_split_score A.log (pair_low id ds L p) (pair_high id ds L p) =
      ((pair_high id ds L p).sum * spec_entropy A.log (pair_high id ds L p) (pair_low id ds L p) +
        (pair_low id ds L p).sum * spec_entropy A.log (pair_low id ds L p) (pair_high id ds L p)) /
      ((pair_high id ds L p).sum + (pair_low id ds L p).sum) ∧
    split_score A (pair_low id ds L p) (pair_high id ds L p) =
      -expected_posterior_entropy A (pair_low id ds L p) (pair_high id ds L p) ∧
    ∀ q : tc_filter × Nat,
      ((entropy_score A).gt (pair_score (entropy_score A) id ds L p)
          (pair_score (entropy_score A) id ds L q) = true ↔
        expected_posterior_entropy A (pair_low id ds L p) (pair_high id ds L p) <
          expected_posterior_entropy A (pair_low id ds L q) (pair_high id ds L q)) := by
  obtain ⟨r, r64, lg⟩ := A
  dsimp only at hr hd
  subst hr
  subst hd
  have hn := search_counts_nonneg id round_id ds hlab L p
  have hsum1 : (32 : Int) ≤ (pair_low id ds L p).sum := hp.1
  have hsum2 : (32 : Int) ≤ (pair_high id ds L p).sum := hp.2
  refine ⟨by omega, by omega, ?_, rfl, rfl, fun q => ?_⟩
  · show ((split_score (ScoreArith.mk id id lg) (pair_low id ds L p) (pair_high id ds L p) : α) :
        WithBot α) = _
    rw [split_score_exact lg _ _ hn.1 hn.2]
  · show decide (((split_score (ScoreArith.mk id id lg) (pair_low id ds L q)
        (pair_high id ds L q) : α) : WithBot α) <
      ((split_score (ScoreArith.mk id id lg) (pair_low id ds L p) (pair_high id ds L p) : α) :
        WithBot α)) = true ↔ _
    rw [decide_eq_true_eq, WithBot.coe_lt_coe]
    unfold split_score
    exact neg_lt_neg_iff

theorem exSkewed_gate : passes_gate id exSkewed (List.range 55).reverse (exDiff, 1) := by
  unfold passes_gate
  show TC_TRAIN_MIN_SPLIT ≤ total_low id exSkewed exDiff (List.range 55).reverse 1 ∧
    TC_TRAIN_MIN_SPLIT ≤ total_high id exSkewed exDiff (List.range 55).reverse 1
  rw [exSkewed_totals.1, exSkewed_totals.2]
  decide

/-- The amended C37 at the data of `exSkewed`, the filter `exDiff` and the
threshold index 1, on the real numbers with the natural logarithm. -/
theorem split_score_formula_witness :
    passes_gate id exSkewed (List.range 55).reverse (exDiff, 1) ∧
    pair_score (entropy_score (ScoreArith.mk id id Real.log)) id exSkewed
        (List.range 55).reverse (exDiff, 1) =
      ((spec_split_score Real.log (pair_low id exSkewed (List.range 55).reverse (exDiff, 1))
        (pair_high id exSkewed (List.range 55).reverse (exDiff, 1)) : ℝ) : WithBot ℝ) :=
  ⟨exSkewed_gate,
    (split_score_formula (ScoreArith.mk id id Real.log) rfl rfl exSkewed exSkewed_labels
      (List.range 55).reverse (exDiff, 1) exSkewed_gate).2.2.1⟩

/-! ## Theorems: the sign of the score -/

theorem round64_nonpos {α : Type} [LinearOrderedField α] (A : ScoreArith α) (hl : ArithLaws A)
    (x : α) (hx : x ≤ 0) : A.rnd64 x ≤ 0 := by
  have := hl.rnd64_mono x 0 hx
  rwa [hl.rnd64_zero] at this

/-- The proportion of a class with a count from 1 on is in `(0, 1]`. -/
theorem prob_class_range {α : Type} [LinearOrderedField α] (A : ScoreArith α) (hl : ArithLaws A)
    (c total : Int) (h1 : 1 ≤ c) (h2 : c ≤ total) (h3 : total ≤ 2147483647) :
    0 < prob_class A c total ∧ prob_class A c total ≤ 1 := by
  have c1 : (1 : α) ≤ A.rnd (c : α) := by
    have := hl.rnd.mono 1 (c : α) (by exact_mod_cast h1)
    rwa [hl.rnd.one] at this
  have c2 : A.rnd (c : α) ≤ A.rnd (total : α) := hl.rnd.mono _ _ (by exact_mod_cast h2)
  have c3 : A.rnd (total : α) ≤ 2147483648 := by
    have h4 : (total : α) ≤ 2147483648 := by
      have : total ≤ 2147483648 := by omega
      exact_mod_cast this
    have := hl.rnd.mono _ _ h4
    rwa [hl.big] at this
  have hpos : (0 : α) < A.rnd (total : α) := lt_of_lt_of_le one_pos (le_trans c1 c2)
  unfold prob_class
  constructor
  · refine hl.tiny _ ?_
    rw [div_le_div_iff₀ (by norm_num) hpos]
    nlinarith
  · have hq : A.rnd (c : α) / A.rnd (total : α) ≤ 1 := (div_le_one hpos).mpr c2
    have := hl.rnd.mono _ _ hq
    rwa [hl.rnd.one] at this

theorem entropy_add_nonpos {α : Type} [LinearOrderedField α] (A : ScoreArith α)
    (hl : ArithLaws A) (e p : α) (he : e ≤ 0) (h1 : 0 < p) (h2 : p ≤ 1) :
    entropy_add A e p ≤ 0 := by
  unfold entropy_add
  have hm : p * A.log p ≤ 0 :=
    mul_nonpos_iff.mpr (Or.inl ⟨le_of_lt h1, hl.log_nonpos p h1 h2⟩)
  have h3 := round64_nonpos A hl _ hm
  exact round_nonpos A.rnd hl.rnd _ (round64_nonpos A hl _ (by linarith))

theorem entropy_fold_nonpos {α : Type} [LinearOrderedField α] (A : ScoreArith α)
    (hl : ArithLaws A) (tl th : Int) (htl : tl ≤ 2147483647) (hth : th ≤ 2147483647) :
    ∀ (cs : List (Int × Int)) (e : α × α),
      (∀ c ∈ cs, 0 ≤ c.1 ∧ c.1 ≤ tl ∧ 0 ≤ c.2 ∧ c.2 ≤ th) → e.1 ≤ 0 → e.2 ≤ 0 →
      (cs.foldl (entropy_step A tl th) e).1 ≤ 0 ∧ (cs.foldl (entropy_step A tl th) e).2 ≤ 0 := by
  intro cs
  induction cs with
  | nil =>
    intro e _ h1 h2
    exact ⟨h1, h2⟩
  | cons c cs ih =>
    intro e h h1 h2
    rw [List.foldl_cons]
    have hc := h c (List.mem_cons_self _ _)
    have hstep : (entropy_step A tl th e c).1 ≤ 0 ∧ (entropy_step A tl th e c).2 ≤ 0 := by
      unfold entropy_step
      split
      · rename_i hb
        have b1 := (small_le_round A.rnd hl.rnd c.1 hc.1).mp hb.1
        have b2 := (small_le_round A.rnd hl.rnd c.2 hc.2.2.1).mp hb.2
        have p1 := prob_class_range A hl c.1 tl b1 hc.2.1 htl
        have p2 := prob_class_range A hl c.2 th b2 hc.2.2.2 hth
        exact ⟨entropy_add_nonpos A hl _ _ h1 p1.1 p1.2, entropy_add_nonpos A hl _ _ h2 p2.1 p2.2⟩
      · exact ⟨h1, h2⟩
    exact ih _ (fun x hx => h x (List.mem_cons_of_mem _ hx)) hstep.1 hstep.2

theorem entropy_fold_skip {α : Type} [LinearOrderedField α] (A : ScoreArith α)
    (hl : ArithLaws A) (tl th : Int) :
    ∀ (cs : List (Int × Int)) (e : α × α),
      (∀ c ∈ cs, 0 ≤ c.1 ∧ 0 ≤ c.2 ∧ ¬ (1 ≤ c.1 ∧ 1 ≤ c.2)) →
      cs.foldl (entropy_step A tl th) e = e := by
  intro cs
  induction cs with
  | nil =>
    intro e _
    rfl
  | cons c cs ih =>
    intro e h
    rw [List.foldl_cons]
    have hc := h c (List.mem_cons_self _ _)
    have hstep : entropy_step A tl th e c = e := by
      unfold entropy_step
      rw [if_neg]
      intro hb
      exact hc.2.2 ⟨(small_le_round A.rnd hl.rnd c.1 hc.1).mp hb.1,
        (small_le_round A.rnd hl.rnd c.2 hc.2.1).mp hb.2⟩
    rw [hstep]
    exact ih e (fun x hx => h x (List.mem_cons_of_mem _ hx))

/-- The score of two arrays of counts that are not negative, with totals in
the range of an `int`, is not positive, and it is 0 when no class has a count
from 1 on in both arrays. -/
theorem split_score_sign {α : Type} [LinearOrderedField α] (A : ScoreArith α)
    (hl : ArithLaws A) (low high : List Int) (h1 : ∀ x ∈ low, 0 ≤ x) (h2 : ∀ x ∈ high, 0 ≤ x)
    (i1 : low.sum ≤ 2147483647) (i2 : high.sum ≤ 2147483647) :
    (class_entropies A low high).1 ≤ 0 ∧ (class_entropies A low high).2 ≤ 0 ∧
    split_score A low high ≤ 0 ∧
    ((∀ c ∈ low.zip high, ¬ (1 ≤ c.1 ∧ 1 ≤ c.2)) → split_score A low high = 0) := by
  have hz := mem_zip_nonneg low high h1 h2
  have he : (class_entropies A low high).1 ≤ 0 ∧ (class_entropies A low high).2 ≤ 0 :=
    entropy_fold_nonpos A hl low.sum high.sum i1 i2 (low.zip high) (0, 0) hz le_rfl le_rfl
  have s1 : 0 ≤ low.sum := List.sum_nonneg h1
  have s2 : 0 ≤ high.sum := List.sum_nonneg h2
  refine ⟨he.1, he.2, ?_, fun hno => ?_⟩
  · unfold split_score expected_posterior_entropy
    rw [neg_nonpos]
    refine round_nonneg A.rnd hl.rnd _ (div_nonneg ?_ ?_)
    · rw [neg_nonneg]
      refine round_nonpos A.rnd hl.rnd _ (add_nonpos ?_ ?_)
      · exact round_nonpos A.rnd hl.rnd _ (mul_nonpos_iff.mpr (Or.inl
          ⟨round_nonneg A.rnd hl.rnd _ (by exact_mod_cast s2), he.2⟩))
      · exact round_nonpos A.rnd hl.rnd _ (mul_nonpos_iff.mpr (Or.inl
          ⟨round_nonneg A.rnd hl.rnd _ (by exact_mod_cast s1), he.1⟩))
    · refine round_nonneg A.rnd hl.rnd _ ?_
      have : 0 ≤ low.sum + high.sum := by omega
      exact_mod_cast this
  · have hskip : class_entropies A low high = (0, 0) := by
      unfold class_entropies
      exact entropy_fold_skip A hl _ _ _ _
        (fun c hc => ⟨(hz c hc).1, (hz c hc).2.2.1, hno c hc⟩)
    unfold split_score expected_posterior_entropy
    rw [hskip]
    simp only [mul_zero, hl.rnd.zero, add_zero, neg_zero, zero_div]

/-- C38: with a monotone rounding and a `log` that is not positive on
`(0, 1]`, for every candidate and threshold index whose totals pass the test
against `TC_TRAIN_MIN_SPLIT` and are in the range of an `int`, the proportion
of each class that the loop includes is in `(0, 1]` on both sides,
`entropy_low` and `entropy_high` are not positive and the score is not
positive; when no class has a count from 1 on on both sides of the threshold
the score is 0, and then no split of the search has a greater score. -/
theorem split_score_nonpos {α : Type} [LinearOrderedField α] (rnd : ℚ → ℚ) (hc : RoundMono rnd)
    (A : ScoreArith α) (hl : ArithLaws A) (ds : tc_dataset) (hlab : labels_ok ds)
    (L : List Nat) (p : tc_filter × Nat) (hp : passes_gate rnd ds L p)
    (i1 : (pair_low rnd ds L p).sum ≤ 2147483647)
    (i2 : (pair_high rnd ds L p).sum ≤ 2147483647) :
    (∀ c ∈ (pair_low rnd ds L p).zip (pair_high rnd ds L p),
      ((SMALL : ℚ) : α) ≤ A.rnd (c.1 : α) ∧ ((SMALL : ℚ) : α) ≤ A.rnd (c.2 : α) →
      0 < prob_class A c.1 (pair_low rnd ds L p).sum ∧
      prob_class A c.1 (pair_low rnd ds L p).sum ≤ 1 ∧
      0 < prob_class A c.2 (pair_high rnd ds L p).sum ∧
      prob_class A c.2 (pair_high rnd ds L p).sum ≤ 1) ∧
    (class_entropies A (pair_low rnd ds L p) (pair_high rnd ds L p)).1 ≤ 0 ∧
    (class_entropies A (pair_low rnd ds L p) (pair_high rnd ds L p)).2 ≤ 0 ∧
    split_score A (pair_low rnd ds L p) (pair_high rnd ds L p) ≤ 0 ∧
    pair_score (entropy_score A) rnd ds L p =
      ((split_score A (pair_low rnd ds L p) (pair_high rnd ds L p) : α) : WithBot α) ∧
    ((∀ c ∈ (pair_low rnd ds L p).zip (pair_high rnd ds L p), ¬ (1 ≤ c.1 ∧ 1 ≤ c.2)) →
      split_score A (pair_low rnd ds L p) (pair_high rnd ds L p) = 0 ∧
      ∀ q : tc_filter × Nat, passes_gate rnd ds L q →
        (pair_low rnd ds L q).sum ≤ 2147483647 → (pair_high rnd ds L q).sum ≤ 2147483647 →
        (entropy_score A).gt (pair_score (entropy_score A) rnd ds L q)
          (pair_score (entropy_score A) rnd ds L p) = false) := by
  have hn := search_counts_nonneg rnd hc ds hlab L p
  have hz := mem_zip_nonneg _ _ hn.1 hn.2
  have hs := split_score_sign A hl _ _ hn.1 hn.2 i1 i2
  have hsum1 : (32 : Int) ≤ (pair_low rnd ds L p).sum := hp.1
  refine ⟨fun c hcm hb => ?_, hs.1, hs.2.1, hs.2.2.1, rfl, fun hno => ⟨hs.2.2.2 hno, ?_⟩⟩
  · have b1 := (small_le_round A.rnd hl.rnd c.1 (hz c hcm).1).mp hb.1
    have b2 := (small_le_round A.rnd hl.rnd c.2 (hz c hcm).2.2.1).mp hb.2
    have p1 := prob_class_range A hl c.1 _ b1 (hz c hcm).2.1 i1
    have p2 := prob_class_range A hl c.2 _ b2 (hz c hcm).2.2.2 i2
    exact ⟨p1.1, p1.2, p2.1, p2.2⟩
  · intro q _ j1 j2
    have hnq := search_counts_nonneg rnd hc ds hlab L q
    have hq := (split_score_sign A hl _ _ hnq.1 hnq.2 j1 j2).2.2.1
    show decide (((split_score A (pair_low rnd ds L p) (pair_high rnd ds L p) : α) :
        WithBot α) <
      ((split_score A (pair_low rnd ds L q) (pair_high rnd ds L q) : α) : WithBot α)) = false
    rw [decide_eq_false_iff_not, WithBot.coe_lt_coe, hs.2.2.2 hno]
    exact not_lt.mpr hq

theorem exArith_laws : ArithLaws exArith := by
  refine ⟨round_id, rfl, fun x hx => ?_, fun _ _ h => h, rfl, fun p _ h2 => ?_⟩
  · show 0 < x
    exact lt_of_lt_of_le (by norm_num) hx
  · show p - 1 ≤ 0
    linarith

/-- C38 at the data of `exSkewed`, the filter `exDiff` and the threshold
index 1, in exact arithmetic with `p - 1` in the place of `log`. -/
theorem split_score_nonpos_witness :
    passes_gate id exSkewed (List.range 55).reverse (exDiff, 1) ∧
    split_score exArith (pair_low id exSkewed (List.range 55).reverse (exDiff, 1))
      (pair_high id exSkewed (List.range 55).reverse (exDiff, 1)) ≤ 0 :=
  ⟨exSkewed_gate,
    (split_score_nonpos id round_id exArith exArith_laws exSkewed exSkewed_labels
      (List.range 55).reverse (exDiff, 1) exSkewed_gate
      (by
        show total_low id exSkewed exDiff (List.range 55).reverse 1 ≤ 2147483647
        rw [exSkewed_totals.1]
        decide)
      (by
        show total_high id exSkewed exDiff (List.range 55).reverse 1 ≤ 2147483647
        rw [exSkewed_totals.2]
        decide)).2.2.2.1⟩

/-! ## Theorems: the leaves of a trained tree -/

theorem nodes_below_succ {F : Type} (tree : tc_tree F) :
    ∀ (fuel : Nat) (p : Option Int) (L : List Nat), nodes_below tree fuel p = some L →
      nodes_below tree (fuel + 1) p = some L := by
  intro fuel
  induction fuel with
  | zero =>
    intro p L h
    cases h
  | succ fuel ih =>
    intro p L h
    cases p with
    | none => cases h
    | some j =>
      rw [nodes_below] at h
      rw [nodes_below]
      by_cases hj : j < 0
      · rw [if_pos hj] at h
        cases h
      · rw [if_neg hj] at h
        rw [if_neg hj]
        cases hn : tree.nodes[j.toNat]? with
        | none =>
          rw [hn] at h
          cases h
        | some node =>
          rw [hn] at h
          dsimp only at h ⊢
          by_cases hleaf : tc_isleaf node = true
          · rw [if_pos hleaf] at h
            rw [if_pos hleaf]
            exact h
          · rw [if_neg hleaf] at h
            rw [if_neg hleaf]
            cases ha : nodes_below tree fuel node.low with
            | none =>
              rw [ha] at h
              cases h
            | some a =>
              cases hb : nodes_below tree fuel node.high with
              | none =>
                rw [ha, hb] at h
                cases h
              | some b =>
                rw [ha, hb] at h
                rw [ih _ _ ha, ih _ _ hb]
                exact h

theorem nodes_below_mono {F : Type} (tree : tc_tree F) (fuel : Nat) (p : Option Int)
    (L : List Nat) (h : nodes_below tree fuel p = some L) :
    ∀ fuel2, fuel ≤ fuel2 → nodes_below tree fuel2 p = some L := by
  intro fuel2 hle
  induction fuel2 with
  | zero =>
    have : fuel = 0 := by omega
    subst this
    exact h
  | succ k ih =>
    by_cases hk : fuel ≤ k
    · exact nodes_below_succ tree k p L (ih hk)
    · have : fuel = k + 1 := by omega
      subst this
      exact h

/-- The result of `tc_num_leaves_below` is the number of leaves among the
nodes visited, and these are one less than twice as many. -/
theorem num_leaves_below_count {F : Type} (tree : tc_tree F) :
    ∀ (fuel : Nat) (p : Option Int) (L : List Nat), nodes_below tree fuel p = some L →
      tc_num_leaves_below tree fuel p = some ((L.filter (leaf_at tree)).length : Int) ∧
      L.length + 1 = 2 * (L.filter (leaf_at tree)).length := by
  intro fuel
  induction fuel with
  | zero =>
    intro p L h
    cases h
  | succ fuel ih =>
    intro p L h
    cases p with
    | none => cases h
    | some j =>
      rw [nodes_below] at h
      rw [tc_num_leaves_below]
      by_cases hj : j < 0
      · rw [if_pos hj] at h
        cases h
      · rw [if_neg hj] at h
        rw [if_neg hj]
        cases hn : tree.nodes[j.toNat]? with
        | none =>
          rw [hn] at h
          cases h
        | some node =>
          rw [hn] at h
          dsimp only at h ⊢
          have hla : leaf_at tree j.toNat = tc_isleaf node := by
            unfold leaf_at
            rw [hn]
          by_cases hleaf : tc_isleaf node = true
          · rw [if_pos hleaf] at h
            rw [if_pos hleaf]
            cases h
            have hf : [j.toNat].filter (leaf_at tree) = [j.toNat] := by
              rw [List.filter_cons, hla, hleaf]
              rfl
            rw [hf]
            exact ⟨rfl, rfl⟩
          · rw [if_neg hleaf] at h
            rw [if_neg hleaf]
            cases ha : nodes_below tree fuel node.low with
            | none =>
              rw [ha] at h
              cases h
            | some a =>
              cases hb : nodes_below tree fuel node.high with
              | none =>
                rw [ha, hb] at h
                cases h
              | some b =>
                rw [ha, hb] at h
                cases h
                obtain ⟨a1, a2⟩ := ih _ _ ha
                obtain ⟨b1, b2⟩ := ih _ _ hb
                rw [a1, b1]
                have hf : (j.toNat :: (a ++ b)).filter (leaf_at tree) =
                    a.filter (leaf_at tree) ++ b.filter (leaf_at tree) := by
                  rw [List.filter_cons, hla]
                  simp only [hleaf, Bool.false_eq_true, if_false, List.filter_append]
                rw [hf]
                simp only [List.length_append, List.length_cons]
                refine ⟨?_, by omega⟩
                push_cast
                rfl

/-- A tree with the same links has the same recursion. -/
theorem nodes_below_congr {F : Type} (tree tree2 : tc_tree F)
    (hl : ∀ k : Nat, (tree2.nodes[k]?).map (fun (nd : tc_node F) => (nd.low, nd.high)) =
      (tree.nodes[k]?).map (fun (nd : tc_node F) => (nd.low, nd.high))) :
    ∀ (fuel : Nat) (p : Option Int), nodes_below tree2 fuel p = nodes_below tree fuel p := by
  intro fuel
  induction fuel with
  | zero =>
    intro p
    rfl
  | succ fuel ih =>
    intro p
    cases p with
    | none => rfl
    | some j =>
      rw [nodes_below, nodes_below]
      by_cases hj : j < 0
      · rw [if_pos hj, if_pos hj]
      · rw [if_neg hj, if_neg hj]
        have hk := hl j.toNat
        cases h2 : tree2.nodes[j.toNat]? with
        | none =>
          cases h1 : tree.nodes[j.toNat]? with
          | none => rfl
          | some nd =>
            rw [h1, h2] at hk
            cases hk
        | some nd2 =>
          cases h1 : tree.nodes[j.toNat]? with
          | none =>
            rw [h1, h2] at hk
            cases hk
          | some nd =>
            rw [h1, h2] at hk
            simp only [Option.map_some', Option.some.injEq, Prod.mk.injEq] at hk
            simp only [tc_isleaf, hk.1, hk.2, ih]

theorem split_node_get_same (M : FloatOps) (tree : tc_tree M.F) (n k : Nat)
    (node : tc_node M.F) (flt : tc_filter) (thr : Int) (hkn : k ≠ n)
    (hk : k < tree.nodes.length) :
    (split_node M tree n node flt thr).nodes[k]? = tree.nodes[k]? := by
  unfold split_node
  simp only
  rw [List.getElem?_append_left (by simpa using hk), List.getElem?_set, if_neg (fun e => hkn e.symm)]

theorem split_node_get_new (M : FloatOps) (tree : tc_tree M.F) (n : Nat)
    (node : tc_node M.F) (flt : tc_filter) (thr : Int) :
    (split_node M tree n node flt thr).nodes[tree.nodes.length]? = some (tc_init_node M) ∧
    (split_node M tree n node flt thr).nodes[tree.nodes.length + 1]? =
      some (tc_init_node M) := by
  unfold split_node
  simp only
  constructor
  · rw [List.getElem?_append_right (by simp)]
    simp
  · rw [List.getElem?_append_right (by simp)]
    simp

theorem nodes_below_new_leaf (M : FloatOps) (tree2 : tc_tree M.F) (a : Nat) (fuel : Nat)
    (h : tree2.nodes[a]? = some (tc_init_node M)) :
    nodes_below tree2 (fuel + 1) (some (a : Int)) = some [a] := by
  rw [nodes_below, if_neg (by omega)]
  have e : ((a : Int)).toNat = a := Int.toNat_natCast a
  rw [e, h]
  rfl

/-- The recursion after the split of the leaf `n`: where it visited `n` it
visits `n` and the two new leaves. -/
theorem nodes_below_split (M : FloatOps) (tree : tc_tree M.F) (n : Nat) (node : tc_node M.F)
    (flt : tc_filter) (thr : Int) (hnn : tree.nnodes = (tree.nodes.length : Int))
    (hnode : tree.nodes[n]? = some node) (hleaf : tc_isleaf node = true) :
    ∀ (fuel : Nat) (p : Option Int) (L : List Nat), nodes_below tree fuel p = some L →
      nodes_below (split_node M tree n node flt thr) (fuel + 1) p =
        some (L.flatMap fun k =>
          if k = n then [n, tree.nodes.length, tree.nodes.length + 1] else [k]) := by
  have hnlt : n < tree.nodes.length := by
    by_contra hc
    rw [List.getElem?_eq_none (by omega)] at hnode
    cases hnode
  have hnew := split_node_get_new M tree n node flt thr
  intro fuel
  induction fuel with
  | zero =>
    intro p L h
    cases h
  | succ fuel ih =>
    intro p L h
    cases p with
    | none => cases h
    | some j =>
      rw [nodes_below] at h
      rw [nodes_below]
      by_cases hj : j < 0
      · rw [if_pos hj] at h
        cases h
      · rw [if_neg hj] at h
        rw [if_neg hj]
        cases hn : tree.nodes[j.toNat]? with
        | none =>
          rw [hn] at h
          cases h
        | some nd =>
          rw [hn] at h
          dsimp only at h
          have hjlt : j.toNat < tree.nodes.length := by
            by_contra hc
            rw [List.getElem?_eq_none (by omega)] at hn
            cases hn
          by_cases hjn : j.toNat = n
          · rw [hjn] at hn h ⊢
            rw [hnode] at hn
            cases hn
            rw [if_pos hleaf] at h
            cases h
            rw [split_node_get M tree n node flt thr hnlt]
            dsimp only
            rw [if_neg (by simp [tc_isleaf]), hnn]
            rw [nodes_below_new_leaf M _ tree.nodes.length fuel hnew.1]
            have e1 : ((tree.nodes.length : Int) + 1) = ((tree.nodes.length + 1 : Nat) : Int) := by
              push_cast
              rfl
            rw [e1, nodes_below_new_leaf M _ (tree.nodes.length + 1) fuel hnew.2]
            simp
          · rw [split_node_get_same M tree n j.toNat node flt thr hjn hjlt, hn]
            dsimp only
            by_cases hlf : tc_isleaf nd = true
            · rw [if_pos hlf] at h
              rw [if_pos hlf]
              cases h
              simp [hjn]
            · rw [if_neg hlf] at h
              rw [if_neg hlf]
              cases ha : nodes_below tree fuel nd.low with
              | none =>
                rw [ha] at h
                cases h
              | some a =>
                cases hb : nodes_below tree fuel nd.high with
                | none =>
                  rw [ha, hb] at h
                  cases h
                | some b =>
                  rw [ha, hb] at h
                  cases h
                  rw [ih _ _ ha, ih _ _ hb]
                  simp [hjn]

theorem flatMap_split_id (n a : Nat) :
    ∀ L : List Nat, n ∉ L →
      (L.flatMap fun k => if k = n then [n, a, a + 1] else [k]) = L := by
  intro L
  induction L with
  | nil =>
    intro _
    rfl
  | cons x xs ih =>
    intro h
    have hx : x ≠ n := fun e => h (e ▸ List.mem_cons_self _ _)
    rw [List.flatMap_cons, if_neg hx, ih (fun hm => h (List.mem_cons_of_mem _ hm))]
    rfl

theorem flatMap_split_perm (n a : Nat) :
    ∀ L : List Nat, L.Nodup → n ∈ L →
      (L.flatMap fun k => if k = n then [n, a, a + 1] else [k]).Perm (L ++ [a, a + 1]) := by
  intro L
  induction L with
  | nil =>
    intro _ h
    cases h
  | cons x xs ih =>
    intro hnd hm
    rw [List.nodup_cons] at hnd
    rw [List.flatMap_cons]
    by_cases hx : x = n
    · rw [if_pos hx, flatMap_split_id n a xs (hx ▸ hnd.1)]
      subst hx
      show (x :: ([a, a + 1] ++ xs)).Perm (x :: (xs ++ [a, a + 1]))
      exact List.Perm.cons _ List.perm_append_comm
    · rw [if_neg hx]
      have hm2 : n ∈ xs := by
        rcases List.mem_cons.mp hm with h | h
        · exact absurd h.symm hx
        · exact h
      exact List.Perm.cons _ (ih hnd.2 hm2)

/-- The node `tc_next_expansion` returns has a bucket that is not empty. -/
theorem next_expansion_bucket {F : Type} (tree : tc_tree F) (st : NodeLinks) (n : Nat)
    (h : tc_next_expansion tree st = some (some n)) :
    ∃ b, tc_bucket st.next (st.next.length + 1) (st.heads.getD n none) = some b ∧ b ≠ [] := by
  have hfold : ∀ (l : List Nat) (acc : Option (Option Nat × Int)),
      (∀ best size, acc = some (best, size) → 32 ≤ size ∧ ∀ n, best = some n →
        ∃ b, tc_bucket st.next (st.next.length + 1) (st.heads.getD n none) = some b ∧ b ≠ []) →
      ∀ best size, l.foldl (next_expansion_step tree st) acc = some (best, size) →
        32 ≤ size ∧ ∀ n, best = some n →
          ∃ b, tc_bucket st.next (st.next.length + 1) (st.heads.getD n none) = some b ∧
            b ≠ [] := by
    intro l
    induction l with
    | nil =>
      intro acc hacc best size hres
      exact hacc best size hres
    | cons k l ih =>
      intro acc hacc best size hres
      rw [List.foldl_cons] at hres
      refine ih _ ?_ best size hres
      intro best2 size2 hstep
      unfold next_expansion_step at hstep
      cases acc with
      | none => cases hstep
      | some a =>
        obtain ⟨bn, bs⟩ := a
        dsimp only at hstep
        have ha := hacc bn bs rfl
        cases hb : tc_bucket st.next (st.next.length + 1) (st.heads.getD k none) with
        | none =>
          rw [hb] at hstep
          cases hstep
        | some b =>
          rw [hb] at hstep
          dsimp only at hstep
          cases hnd : tree.nodes[k]? with
          | none =>
            rw [hnd] at hstep
            cases hstep
          | some node =>
            rw [hnd] at hstep
            dsimp only at hstep
            split at hstep
            · rename_i hc
              cases hstep
              refine ⟨by omega, fun m hm => ?_⟩
              cases hm
              refine ⟨b, hb, fun e => ?_⟩
              rw [e] at hc
              have := hc.2
              simp only [List.length_nil, Nat.cast_zero] at this
              omega
            · cases hstep
              exact ha
  unfold tc_next_expansion at h
  cases hr : (List.range tree.nnodes.toNat).foldl (next_expansion_step tree st)
      (some (none, TC_TRAIN_MIN_SAMPLES)) with
  | none =>
    rw [hr] at h
    cases h
  | some r =>
    rw [hr] at h
    obtain ⟨best, size⟩ := r
    have hbest : best = some n := by
      simpa using h
    refine (hfold _ _ ?_ best size hr).2 n hbest
    intro best2 size2 e
    cases e
    exact ⟨by decide, fun m hm => by cases hm⟩

theorem full_tree_init (M : FloatOps) : full_tree (tc_init_tree M) := by
  refine ⟨rfl, [0], ?_, List.Perm.refl _⟩
  show nodes_below (tc_init_tree M) 1 (some 0) = some [0]
  rw [nodes_below, if_neg (by decide)]
  rfl

/-- The body of the loop of `tc_grow` expands a leaf: with the buckets as
`tree_inv` says, the recursion of `tc_num_leaves` on the tree it leaves
visits every node once. -/
theorem full_tree_grown (M : FloatOps) (search : List Nat → Option (tc_filter × Int))
    (ds : tc_dataset) (tree tree2 : tc_tree M.F) (st st2 : NodeLinks) (A : Nat → Prop)
    (hinv : tree_inv st.next st.heads st.dropped tree A) (hf : full_tree tree)
    (h : tc_grow_tree M search ds tree st = some (GrowOutcome.grown tree2 st2)) :
    full_tree tree2 := by
  obtain ⟨hnn, L, hL, hperm⟩ := hf
  unfold tc_grow_tree at h
  split at h
  · cases h
  · split at h
    · cases h
    · cases h
    · rename_i n hexp
      split at h
      · rename_i node subset hnode _
        have hnlt : n < tree.nodes.length := by
          by_contra hc
          rw [List.getElem?_eq_none (by omega)] at hnode
          cases hnode
        split at h
        · injection h with h
          injection h with h1 _
          subst h1
          refine ⟨by simpa using hnn, L, ?_, by simpa using hperm⟩
          have hcongr := nodes_below_congr tree
            { tree with nodes := tree.nodes.set n { node with expandable := 0 } }
            (fun k => by
              show ((tree.nodes.set n { node with expandable := 0 })[k]?).map _ = _
              rw [List.getElem?_set]
              by_cases hk : n = k
              · rw [if_pos hk, if_pos (by omega), ← hk, hnode]
                rfl
              · rw [if_neg hk])
          show nodes_below { tree with nodes := tree.nodes.set n { node with expandable := 0 } }
            (tree.nodes.set n { node with expandable := 0 }).length (some 0) = some L
          rw [hcongr, List.length_set]
          exact hL
        · rename_i flt thr _
          cases hp : tc_propagate_node ds (split_node M tree n node flt thr) n
              { st with heads := st.heads ++ [none, none] } with
          | none =>
            rw [hp] at h
            cases h
          | some st3 =>
            rw [hp] at h
            injection h with h
            injection h with h1 _
            subst h1
            have hleaf : tc_isleaf node = true := by
              obtain ⟨b, hb, hne⟩ := next_expansion_bucket tree st n hexp
              obtain ⟨_, _, B, b1, b2, _⟩ := hinv
              have hBn := is_list_unique st.next _ _ _ (is_list_of_tc_bucket _ _ _ _ hb) (b1 n)
              cases hlf : tc_isleaf node with
              | true => rfl
              | false =>
                rw [b2 n node hnode hlf] at hBn
                exact absurd hBn hne
            have hlen : (split_node M tree n node flt thr).nodes.length =
                tree.nodes.length + 2 := by
              unfold split_node
              simp
            have hstep := nodes_below_split M tree n node flt thr hnn hnode hleaf
              tree.nodes.length (some 0) L hL
            refine ⟨?_, L.flatMap (fun k =>
              if k = n then [n, tree.nodes.length, tree.nodes.length + 1] else [k]), ?_, ?_⟩
            · rw [hlen]
              show tree.nnodes + 2 = _
              rw [hnn]
              push_cast
              rfl
            · rw [hlen]
              exact nodes_below_mono _ _ _ _ hstep _ (by omega)
            · rw [hlen]
              have hnd : L.Nodup := (List.Perm.nodup_iff hperm).mpr (List.nodup_range _)
              have hm : n ∈ L := (List.Perm.mem_iff hperm).mpr (List.mem_range.mpr hnlt)
              refine (flatMap_split_perm n tree.nodes.length L hnd hm).trans ?_
              rw [List.range_succ, List.range_succ, List.append_assoc]
              exact List.Perm.append_right _ hperm
      · cases h

theorem grow_loop_full (M : FloatOps) (rnd : ℚ → ℚ) (ds : tc_dataset)
    (search : Nat → List Nat → Option (tc_filter × Int))
    (hds : ∀ i, i < ds.ndata.toNat → datum_ok ds i = true) :
    ∀ (k t : Nat) (s : TrainState M.F) (r : Int × TrainState M.F),
      train_inv rnd ds s → (∀ tree ∈ s.forest.trees, full_tree tree) →
      grow_loop M search ds k t s = some r → ∀ tree ∈ r.2.forest.trees, full_tree tree := by
  intro k
  induction k with
  | zero =>
    intro t s r _ hfull h
    cases h
    exact hfull
  | succ k ih =>
    intro t s r hinv hfull h
    unfold grow_loop at h
    split at h
    · rename_i tree hd dr ht hh hdr
      split at h
      · cases h
      · exact ih (t + 1) s r hinv hfull h
      · cases h
        exact hfull
      · rename_i tree2 st2 hg
        refine ih (t + 1) _ r
          (train_inv_grown M rnd ds (search t) s t tree tree2 hd dr st2 hds hinv ht hh hdr hg)
          ?_ h
        intro tree3 hm
        rcases List.mem_or_eq_of_mem_set hm with h1 | h1
        · exact hfull tree3 h1
        · rw [h1]
          exact full_tree_grown M (search t) ds tree tree2
            { next := s.next, heads := hd, dropped := dr } st2
            (assigned rnd s.forest.ntrees ds t) (hinv.2.2.2.2 t tree hd dr ht hh hdr)
            (hfull tree (List.getElem?_mem ht)) hg
    · cases h

/-- In every memory state of the trainer the recursion of `tc_num_leaves`
visits every node of every tree once. -/
theorem trained_full (M : FloatOps) (rnd : ℚ → ℚ) (ds : tc_dataset) (s : TrainState M.F)
    (hds : ∀ i, i < ds.ndata.toNat → datum_ok ds i = true) (h : Trained M rnd ds s) :
    ∀ tree ∈ s.forest.trees, full_tree tree := by
  induction h with
  | start ntrees filterset nclasses winsize forest next0 s hinit hnext hassign =>
    unfold tc_init_forest at hinit
    split at hinit
    · cases hinit
    injection hinit with hinit
    have htrees : forest.trees = List.replicate ntrees.toNat (tc_init_tree M) := by
      rw [← hinit]
    unfold tc_assign_evenly at hassign
    split at hassign
    · cases hassign
    rename_i s2 hfold
    split at hassign
    · cases hassign
      obtain ⟨c1, _⟩ := assign_loop_inv rnd ds (train_start forest next0) hnext
        (fun t hd hh => by
          have hm := List.getElem?_mem hh
          unfold train_start at hm
          simp only [List.mem_map] at hm
          obtain ⟨_, _, e⟩ := hm
          exact e.symm)
        ds.ndata.toNat s (le_refl _) hfold
      have d1 : s.forest = forest := c1
      intro tree hm
      rw [d1, htrees] at hm
      rw [(List.mem_replicate.mp hm).2]
      exact full_tree_init M
    · cases hassign
  | grow s s2 search status htr hgrow ih =>
    exact grow_loop_full M rnd ds search hds _ 0 s (status, s2)
      (trained_inv M rnd ds s hds htr) ih hgrow

/-- C40: for every tree of a memory state of the trainer, reached by
`tc_assign_evenly` on the forest of `tc_init_forest` and any number of passes
of `tc_grow` over a data set whose data name images of the set, the recursion
of `tc_num_leaves` ends within a depth of the number of nodes and returns
`(nnodes + 1) / 2`; the node count is odd and is the number of nodes written,
the recursion visits every node once, `(nnodes + 1) / 2` of the nodes are
leaves and `(nnodes - 1) / 2` are not. -/
theorem num_leaves_trained (M : FloatOps) (rnd : ℚ → ℚ) (ds : tc_dataset)
    (s : TrainState M.F) (hds : ∀ i, i < ds.ndata.toNat → datum_ok ds i = true)
    (h : Trained M rnd ds s) (t : Nat) (tree : tc_tree M.F)
    (ht : s.forest.trees[t]? = some tree) :
    (∀ fuel, tree.nodes.length ≤ fuel → tc_num_leaves tree fuel = some ((tree.nnodes + 1) / 2)) ∧
    tree.nnodes = (tree.nodes.length : Int) ∧ tree.nnodes % 2 = 1 ∧
    (∃ L, nodes_below tree tree.nodes.length (some 0) = some L ∧
      L.Perm (List.range tree.nnodes.toNat)) ∧
    (((List.range tree.nnodes.toNat).filter (leaf_at tree)).length : Int) =
      (tree.nnodes + 1) / 2 ∧
    (((List.range tree.nnodes.toNat).filter fun k => !leaf_at tree k).length : Int) =
      (tree.nnodes - 1) / 2 := by
  obtain ⟨hnn, L, hL, hperm⟩ := trained_full M rnd ds s hds h tree (List.getElem?_mem ht)
  obtain ⟨c1, c2⟩ := num_leaves_below_count tree _ _ L hL
  have hlen : L.length = tree.nodes.length := by
    rw [hperm.length_eq, List.length_range]
  have hto : tree.nnodes.toNat = tree.nodes.length := by
    rw [hnn]
    exact Int.toNat_natCast _
  have hfl : ((List.range tree.nodes.length).filter (leaf_at tree)).length =
      (L.filter (leaf_at tree)).length := (hperm.filter _).length_eq.symm
  have hfn : ((List.range tree.nodes.length).filter fun k => !leaf_at tree k).length +
      ((List.range tree.nodes.length).filter (leaf_at tree)).length = tree.nodes.length := by
    have := List.length_eq_length_filter_add (l := List.range tree.nodes.length) (leaf_at tree)
    rw [List.length_range] at this
    omega
  refine ⟨fun fuel hfuel => ?_, hnn, by omega, ⟨L, hL, by rw [hto]; exact hperm⟩, ?_, ?_⟩
  · have hL2 := nodes_below_mono tree _ _ L hL fuel hfuel
    unfold tc_num_leaves
    rw [(num_leaves_below_count tree _ _ L hL2).1]
    congr 1
    omega
  · rw [hto]
    omega
  · rw [hto]
    omega

/-- C40 at the tree that one pass of `tc_grow` makes of the one tree of
`exAssigned`: it has three nodes and `tc_num_leaves` returns 2. -/
theorem num_leaves_trained_witness :
    exGrownState.forest.trees[0]? = some exSplitTree ∧
    tc_num_leaves exSplitTree 3 = some 2 :=
  ⟨by
    set_option maxRecDepth 100000 in
    with_unfolding_all rfl,
  (num_leaves_trained ratOps id exForty exGrownState exForty_ok exGrownState_trained 0
    exSplitTree (by
      set_option maxRecDepth 100000 in
      with_unfolding_all rfl)).1 3 (by
        show exSplitTree.nodes.length ≤ 3
        exact Nat.le_of_eq rfl)⟩

/-! ## Theorems: the counts of `tc_tally_classes` -/

theorem links_kept_refl {F : Type} (a : List (tc_node F)) : links_kept a a :=
  ⟨rfl, fun _ nd h => ⟨nd, h, rfl, rfl, rfl, rfl, rfl⟩⟩

theorem links_kept_trans {F : Type} (a b c : List (tc_node F)) (h1 : links_kept a b)
    (h2 : links_kept b c) : links_kept a c := by
  refine ⟨h2.1.trans h1.1, fun j nd hj => ?_⟩
  obtain ⟨nd2, e2, m2⟩ := h1.2 j nd hj
  obtain ⟨nd3, e3, m3⟩ := h2.2 j nd2 e2
  exact ⟨nd3, e3, m3.1.trans m2.1, m3.2.1.trans m2.2.1, m3.2.2.1.trans m2.2.2.1,
    m3.2.2.2.1.trans m2.2.2.2.1, m3.2.2.2.2.trans m2.2.2.2.2⟩

theorem links_kept_tally_add (M : FloatOps) (ds : tc_dataset) (label : Int)
    (nodes : List (tc_node M.F)) (i : Nat) :
    links_kept nodes (tally_add M ds label nodes i) := by
  unfold tally_add
  cases hi : nodes[i]? with
  | none => exact links_kept_refl nodes
  | some node =>
    dsimp only
    refine ⟨List.length_set _ _ _, fun j nd hj => ?_⟩
    rw [List.getElem?_set]
    by_cases hij : i = j
    · subst hij
      rw [hi] at hj
      cases hj
      have hlt : i < nodes.length := by
        by_contra hc
        rw [List.getElem?_eq_none (by omega)] at hi
        cases hi
      rw [if_pos rfl, if_pos hlt]
      exact ⟨_, rfl, rfl, rfl, rfl, rfl, rfl⟩
    · rw [if_neg hij]
      exact ⟨nd, hj, rfl, rfl, rfl, rfl, rfl⟩

theorem links_kept_fold (M : FloatOps) (ds : tc_dataset) (label : Int) :
    ∀ (P : List Nat) (nodes : List (tc_node M.F)),
      links_kept nodes (P.foldl (tally_add M ds label) nodes) := by
  intro P
  induction P with
  | nil =>
    intro nodes
    exact links_kept_refl nodes
  | cons i P ih =>
    intro nodes
    rw [List.foldl_cons]
    exact links_kept_trans _ _ _ (links_kept_tally_add M ds label nodes i) (ih _)

theorem links_kept_none {F : Type} (a b : List (tc_node F)) (h : links_kept a b) (j : Nat)
    (hj : a[j]? = none) : b[j]? = none := by
  rw [List.getElem?_eq_none_iff] at hj ⊢
  rw [h.1]
  exact hj

/-- The walk reads the thresholds, filters and child pointers only. -/
theorem walk_tail_congr {F : Type} (a b : List (tc_node F)) (h : links_kept a b)
    (image : tc_image) (d : tc_datum) :
    ∀ (fuel i : Nat), walk_tail b image d fuel i = walk_tail a image d fuel i := by
  intro fuel
  induction fuel with
  | zero =>
    intro i
    rfl
  | succ fuel ih =>
    intro i
    rw [walk_tail, walk_tail]
    cases ha : a[i]? with
    | none => rw [links_kept_none a b h i ha]
    | some nd =>
      obtain ⟨nd2, e2, m1, m2, m3, m4, m5⟩ := h.2 i nd ha
      rw [e2]
      dsimp only
      rw [m1, m2, m3, m4, m5]
      by_cases hleaf : tc_isleaf nd = true
      · rw [if_pos hleaf, if_pos hleaf]
      · rw [if_neg hleaf, if_neg hleaf]
        by_cases herr : (tc_filter_pixel nd.filter image d.r d.c 0).1 = ERR
        · rw [if_pos herr, if_pos herr]
        · rw [if_neg herr, if_neg herr]
          cases (if (tc_filter_pixel nd.filter image d.r d.c 0).2 > nd.threshold
              then nd.high else nd.low) with
          | none => rfl
          | some j =>
            dsimp only
            rw [ih]

/-- The walk of `tc_tally_classes` through a well-formed tree ends and
increments the counts of the nodes of `walk_tail`. -/
theorem tally_walk_eq (ds : tc_dataset) (image : tc_image) (d : tc_datum)
    (a : List (tc_node ℚ)) (hwf : links_wf a) :
    ∀ (fuel i : Nat) (b : List (tc_node ℚ)), links_kept a b → i < a.length →
      a.length ≤ fuel + i →
      tally_walk ratOps ds image d fuel i b =
        some ((walk_tail a image d fuel i).foldl (tally_add ratOps ds d.label) b) := by
  intro fuel
  induction fuel with
  | zero =>
    intro i b _ hi hf
    omega
  | succ fuel ih =>
    intro i b hk hi hf
    rw [tally_walk, walk_tail]
    have ha : a[i]? = some a[i] := List.getElem?_eq_getElem hi
    obtain ⟨nd2, e2, m1, m2, m3, m4, m5⟩ := hk.2 i _ ha
    rw [e2, ha]
    dsimp only
    rw [m1, m2, m3, m4, m5]
    by_cases hleaf : tc_isleaf a[i] = true
    · rw [if_pos hleaf, if_pos hleaf]
      rfl
    · rw [if_neg hleaf, if_neg hleaf]
      by_cases herr : (tc_filter_pixel a[i].filter image d.r d.c 0).1 = ERR
      · rw [if_pos herr, if_pos herr]
        rfl
      · rw [if_neg herr, if_neg herr]
        rcases hwf i _ ha with ⟨w1, _⟩ | ⟨l, w1, w2, w3, w4⟩
        · exact absurd (by simp [tc_isleaf, w1]) hleaf
        · have hchild : ∃ j : Int, (if (tc_filter_pixel a[i].filter image d.r d.c 0).2 >
                a[i].threshold then a[i].high else a[i].low) = some j ∧ (i : Int) < j ∧
              j < (a.length : Int) := by
            by_cases hgt : (tc_filter_pixel a[i].filter image d.r d.c 0).2 > a[i].threshold
            · rw [if_pos hgt]
              exact ⟨l + 1, w2, by omega, w4⟩
            · rw [if_neg hgt]
              exact ⟨l, w1, w3, by omega⟩
          obtain ⟨j, hj, j1, j2⟩ := hchild
          rw [hj]
          dsimp only
          rw [if_neg (by omega), if_neg (by omega)]
          rw [ih j.toNat _ (links_kept_trans _ _ _ hk (links_kept_tally_add ratOps ds d.label b _))
            (by omega) (by omega)]
          rfl

/-- The statement `node->class_counts[label] += 1.0f / ((float) represented[label])`
in exact arithmetic: the count of the class of the label at the node grows by
the weight, every other count stays. -/
theorem tally_add_node (ds : tc_dataset) (label : Int) (nodes : List (tc_node ℚ)) (i n : Nat)
    (nd : tc_node ℚ) (hn : nodes[n]? = some nd) :
    ∃ nd2, (tally_add ratOps ds label nodes i)[n]? = some nd2 ∧
      nd2.class_counts.length = nd.class_counts.length ∧ nd2.class_probs = nd.class_probs ∧
      ∀ k, k < nd.class_counts.length →
        nd2.class_counts.getD k 0 = nd.class_counts.getD k 0 +
          (if i = n ∧ label.toNat = k then
            1 / ((ds.represented.getD label.toNat 0 : Int) : ℚ) else 0) := by
  have hnlt : n < nodes.length := by
    by_contra hc
    rw [List.getElem?_eq_none (by omega)] at hn
    cases hn
  unfold tally_add
  cases hi : nodes[i]? with
  | none =>
    refine ⟨nd, hn, rfl, rfl, fun k _ => ?_⟩
    have hne : i ≠ n := fun e => by
      rw [e, hn] at hi
      cases hi
    rw [if_neg (fun h => hne h.1), add_zero]
  | some node =>
    dsimp only
    rw [List.getElem?_set]
    by_cases hin : i = n
    · subst hin
      rw [hi] at hn
      cases hn
      rw [if_pos rfl, if_pos hnlt]
      refine ⟨_, rfl, List.length_set _ _ _, rfl, fun k hk => ?_⟩
      dsimp only
      rw [Int.cast_zero, Int.cast_one]
      by_cases hlk : label.toNat = k
      · rw [if_pos ⟨rfl, hlk⟩, getD_set_eq _ _ _ _ _ (by omega), if_pos hlk.symm, hlk]
      · rw [if_neg (fun h => hlk h.2), getD_set_ne _ _ _ _ _ (fun e => hlk e.symm), add_zero]
    · rw [if_neg hin]
      refine ⟨nd, hn, rfl, rfl, fun k _ => ?_⟩
      rw [if_neg (fun h => hin h.1), add_zero]

theorem tally_fold_node (ds : tc_dataset) (label : Int) :
    ∀ (P : List Nat) (nodes : List (tc_node ℚ)) (n : Nat) (nd : tc_node ℚ),
      nodes[n]? = some nd →
      ∃ nd2, (P.foldl (tally_add ratOps ds label) nodes)[n]? = some nd2 ∧
        nd2.class_counts.length = nd.class_counts.length ∧ nd2.class_probs = nd.class_probs ∧
        ∀ k, k < nd.class_counts.length →
          nd2.class_counts.getD k 0 = nd.class_counts.getD k 0 +
            (if label.toNat = k then
              (P.count n : ℚ) * (1 / ((ds.represented.getD label.toNat 0 : Int) : ℚ)) else 0) := by
  intro P
  induction P with
  | nil =>
    intro nodes n nd hn
    refine ⟨nd, hn, rfl, rfl, fun k _ => ?_⟩
    simp
  | cons i P ih =>
    intro nodes n nd hn
    rw [List.foldl_cons]
    obtain ⟨nd1, e1, l1, p1, c1⟩ := tally_add_node ds label nodes i n nd hn
    obtain ⟨nd2, e2, l2, p2, c2⟩ := ih _ n nd1 e1
    refine ⟨nd2, e2, l2.trans l1, p2.trans p1, fun k hk => ?_⟩
    rw [c2 k (by omega), c1 k hk, List.count_cons]
    by_cases hlk : label.toNat = k
    · by_cases hin : i = n
      · rw [if_pos hlk, if_pos ⟨hin, hlk⟩, if_pos hlk]
        have : (i == n) = true := by simpa using hin
        rw [this]
        push_cast
        simp only [if_true]
        ring
      · rw [if_pos hlk, if_neg (fun h => hin h.1), if_pos hlk]
        have : (i == n) = false := by simpa using hin
        rw [this]
        simp
    · rw [if_neg hlk, if_neg (fun h => hlk h.2), if_neg hlk]
      ring

/-- The body of the loop over the trees for one datum: the walk ends and the
counts of the nodes of `tally_path` are incremented. -/
theorem tally_datum_eq (ds : tc_dataset) (d : tc_datum) (tree : tc_tree ℚ)
    (hwf : links_wf tree.nodes) (hlen : 0 < tree.nodes.length)
    (himg : ∃ image, ds.images[d.image.toNat]? = some image) :
    tally_datum ratOps ds d tree =
      some { tree with
        nodes := (tally_path ds tree d).foldl (tally_add ratOps ds d.label) tree.nodes } := by
  obtain ⟨image, hi⟩ := himg
  unfold tally_datum tally_path
  rw [hi]
  dsimp only
  rw [tally_walk_eq ds image d tree.nodes hwf (tree.nodes.length + 1) 0 _
    (links_kept_tally_add ratOps ds d.label tree.nodes 0) hlen (by omega)]
  rfl

theorem mapM_option_spec {α β : Type} (f : α → Option β) (R : α → β → Prop) :
    ∀ l : List α, (∀ a ∈ l, ∃ b, f a = some b ∧ R a b) →
      ∃ l2, l.mapM f = some l2 ∧ List.Forall₂ R l l2 := by
  intro l
  induction l with
  | nil =>
    intro _
    exact ⟨[], rfl, List.Forall₂.nil⟩
  | cons a l ih =>
    intro h
    obtain ⟨b, hb, hr⟩ := h a (List.mem_cons_self _ _)
    obtain ⟨l2, hl, hf⟩ := ih (fun x hx => h x (List.mem_cons_of_mem _ hx))
    refine ⟨b :: l2, ?_, List.Forall₂.cons hr hf⟩
    rw [List.mapM_cons, hb, hl]
    rfl

theorem forall2_comp {α β γ : Type} (R : α → β → Prop) (S : β → γ → Prop) (T : α → γ → Prop)
    (h : ∀ a b c, R a b → S b c → T a c) :
    ∀ (l1 : List α) (l2 : List β) (l3 : List γ), List.Forall₂ R l1 l2 → List.Forall₂ S l2 l3 →
      List.Forall₂ T l1 l3 := by
  intro l1 l2 l3 h1
  induction h1 generalizing l3 with
  | nil =>
    intro h2
    cases h2
    exact List.Forall₂.nil
  | cons hab _ ih =>
    intro h2
    cases h2 with
    | cons hbc h2 => exact List.Forall₂.cons (h _ _ _ hab hbc) (ih _ h2)

theorem forall2_getElem {α β : Type} (R : α → β → Prop) :
    ∀ (l1 : List α) (l2 : List β), List.Forall₂ R l1 l2 → ∀ (t : Nat) (a : α),
      l1[t]? = some a → ∃ b, l2[t]? = some b ∧ R a b := by
  intro l1 l2 h
  induction h with
  | nil =>
    intro t a ha
    cases ha
  | cons hab _ ih =>
    intro t a ha
    cases t with
    | zero =>
      rw [List.getElem?_cons_zero] at ha
      cases ha
      exact ⟨_, List.getElem?_cons_zero, hab⟩
    | succ t =>
      rw [List.getElem?_cons_succ] at ha
      obtain ⟨b, hb, hr⟩ := ih t a ha
      exact ⟨b, by rw [List.getElem?_cons_succ]; exact hb, hr⟩

theorem links_wf_kept {F : Type} (a b : List (tc_node F)) (hwf : links_wf a)
    (hk : links_kept a b) : links_wf b := by
  intro k node hnode
  have hklt : k < a.length := by
    by_contra hc
    rw [List.getElem?_eq_none (by rw [hk.1]; omega)] at hnode
    cases hnode
  obtain ⟨nd2, e2, _, _, _, m4, m5⟩ := hk.2 k _ (List.getElem?_eq_getElem hklt)
  rw [hnode] at e2
  cases e2
  rw [m4, m5, hk.1]
  exact hwf k _ (List.getElem?_eq_getElem hklt)

theorem tally_path_congr {F : Type} (ds : tc_dataset) (tree tree2 : tc_tree F)
    (hk : links_kept tree.nodes tree2.nodes) (d : tc_datum) :
    tally_path ds tree2 d = tally_path ds tree d := by
  unfold tally_path
  cases ds.images[d.image.toNat]? with
  | none => rfl
  | some image =>
    dsimp only
    rw [walk_tail_congr tree.nodes tree2.nodes hk, hk.1]

theorem tallied_nil (ds : tc_dataset) (tree : tc_tree ℚ) : tallied ds [] tree tree := by
  refine ⟨rfl, links_kept_refl _, fun n nd hn => ⟨nd, hn, rfl, rfl, fun k _ => ?_⟩⟩
  simp

theorem tallied_one (ds : tc_dataset) (d : tc_datum) (tree : tc_tree ℚ) :
    tallied ds [d] tree
      { tree with
        nodes := (tally_path ds tree d).foldl (tally_add ratOps ds d.label) tree.nodes } := by
  refine ⟨rfl, links_kept_fold ratOps ds d.label _ _, fun n nd hn => ?_⟩
  obtain ⟨nd2, e2, l2, p2, c2⟩ := tally_fold_node ds d.label (tally_path ds tree d) tree.nodes
    n nd hn
  refine ⟨nd2, e2, l2, p2, fun k hk => ?_⟩
  rw [c2 k hk]
  by_cases hlk : d.label.toNat = k
  · rw [if_pos hlk, List.filter_cons_of_pos (by simpa using hlk), hlk]
    simp
  · rw [if_neg hlk, List.filter_cons_of_neg (by simpa using hlk)]
    simp

theorem tallied_cons (ds : tc_dataset) (d : tc_datum) (rest : List tc_datum)
    (tree tree1 tree2 : tc_tree ℚ) (h1 : tallied ds [d] tree tree1)
    (h2 : tallied ds rest tree1 tree2) : tallied ds (d :: rest) tree tree2 := by
  obtain ⟨a1, a2, a3⟩ := h1
  obtain ⟨b1, b2, b3⟩ := h2
  refine ⟨b1.trans a1, links_kept_trans _ _ _ a2 b2, fun n nd hn => ?_⟩
  obtain ⟨nd1, e1, l1, p1, c1⟩ := a3 n nd hn
  obtain ⟨nd2, e2, l2, p2, c2⟩ := b3 n nd1 e1
  refine ⟨nd2, e2, l2.trans l1, p2.trans p1, fun k hk => ?_⟩
  rw [c2 k (by omega), c1 k hk]
  have hpath : ∀ x : tc_datum, tally_path ds tree1 x = tally_path ds tree x :=
    fun x => tally_path_congr ds tree tree1 a2 x
  simp only [hpath]
  by_cases hlk : d.label.toNat = k
  · rw [List.filter_cons_of_pos (by simpa using hlk), List.filter_cons_of_pos (by simpa using hlk)]
    simp only [List.filter_nil, List.map_cons, List.map_nil, List.sum_cons, List.sum_nil]
    ring
  · rw [List.filter_cons_of_neg (by simpa using hlk), List.filter_cons_of_neg (by simpa using hlk)]
    simp

/-- The loop of `tc_tally_classes` over the data ends on well-formed trees
and leaves every tree as `tallied` says. -/
theorem tally_data_spec (ds : tc_dataset) :
    ∀ (data : List tc_datum) (trees : List (tc_tree ℚ)),
      (∀ tree ∈ trees, links_wf tree.nodes ∧ 0 < tree.nodes.length) →
      (∀ d ∈ data, ∃ image, ds.images[d.image.toNat]? = some image) →
      ∃ trees2, tally_data ratOps ds data trees = some trees2 ∧
        List.Forall₂ (tallied ds data) trees trees2 := by
  intro data
  induction data with
  | nil =>
    intro trees _ _
    exact ⟨trees, rfl, List.forall₂_same.mpr (fun tree _ => tallied_nil ds tree)⟩
  | cons d rest ih =>
    intro trees hwf himg
    obtain ⟨trees1, m1, f1⟩ := mapM_option_spec (tally_datum ratOps ds d)
      (fun tree tree1 => tallied ds [d] tree tree1 ∧ links_wf tree1.nodes ∧
        0 < tree1.nodes.length) trees
      (fun tree hm => by
        have hd := tally_datum_eq ds d tree (hwf tree hm).1 (hwf tree hm).2
          (himg d (List.mem_cons_self _ _))
        have ht := tallied_one ds d tree
        refine ⟨_, hd, ht, links_wf_kept _ _ (hwf tree hm).1 ht.2.1, ?_⟩
        rw [ht.2.1.1]
        exact (hwf tree hm).2)
    have hwf1 : ∀ tree ∈ trees1, links_wf tree.nodes ∧ 0 < tree.nodes.length := by
      intro tree1 hm
      obtain ⟨t, ht⟩ := List.getElem?_of_mem hm
      have hflip := List.Forall₂.flip f1
      obtain ⟨tree, _, hr⟩ := forall2_getElem _ _ _ hflip t tree1 ht
      exact hr.2
    obtain ⟨trees2, m2, f2⟩ := ih trees1 hwf1 (fun x hx => himg x (List.mem_cons_of_mem _ hx))
    refine ⟨trees2, ?_, ?_⟩
    · rw [tally_data, m1]
      exact m2
    · exact forall2_comp _ _ _ (fun a b c hab hbc => tallied_cons ds d rest a b c hab.1 hbc)
        _ _ _ f1 f2

/-- In a well-formed tree the walk goes to nodes of increasing index. -/
theorem walk_tail_increasing {F : Type} (a : List (tc_node F)) (hwf : links_wf a)
    (image : tc_image) (d : tc_datum) :
    ∀ (fuel i : Nat), (∀ x ∈ walk_tail a image d fuel i, i < x) ∧
      (walk_tail a image d fuel i).Nodup := by
  intro fuel
  induction fuel with
  | zero =>
    intro i
    exact ⟨fun x hx => absurd hx (List.not_mem_nil x), List.nodup_nil⟩
  | succ fuel ih =>
    intro i
    rw [walk_tail]
    cases ha : a[i]? with
    | none => exact ⟨fun x hx => absurd hx (List.not_mem_nil x), List.nodup_nil⟩
    | some nd =>
      dsimp only
      split
      · exact ⟨fun x hx => absurd hx (List.not_mem_nil x), List.nodup_nil⟩
      · split
        · exact ⟨fun x hx => absurd hx (List.not_mem_nil x), List.nodup_nil⟩
        · split
          · exact ⟨fun x hx => absurd hx (List.not_mem_nil x), List.nodup_nil⟩
          · rename_i j hj
            split
            · exact ⟨fun x hx => absurd hx (List.not_mem_nil x), List.nodup_nil⟩
            · have hij : (i : Int) < j := by
                rcases hwf i nd ha with ⟨w1, w2⟩ | ⟨l, w1, w2, w3, _⟩
                · rw [w1, w2] at hj
                  split at hj <;> cases hj
                · rw [w1, w2] at hj
                  split at hj
                  · cases hj
                    omega
                  · cases hj
                    exact w3
              obtain ⟨g1, g2⟩ := ih j.toNat
              refine ⟨fun x hx => ?_, List.nodup_cons.mpr ⟨fun hm => ?_, g2⟩⟩
              · rcases List.mem_cons.mp hx with h | h
                · omega
                · have := g1 x h
                  omega
              · have := g1 _ hm
                omega

theorem tally_path_nodup {F : Type} (ds : tc_dataset) (tree : tc_tree F)
    (hwf : links_wf tree.nodes) (d : tc_datum) : (tally_path ds tree d).Nodup := by
  unfold tally_path
  cases ds.images[d.image.toNat]? with
  | none => exact List.nodup_nil
  | some image =>
    dsimp only
    obtain ⟨g1, g2⟩ := walk_tail_increasing tree.nodes hwf image d (tree.nodes.length + 1) 0
    refine List.nodup_cons.mpr ⟨fun hm => ?_, g2⟩
    have := g1 0 hm
    omega

/-- The sum of the visits of the data of class `k` to a node is the number of
the data of the class whose walk visits the node, when no walk visits a node
twice. -/
theorem visits_sum {F : Type} (ds : tc_dataset) (tree : tc_tree F)
    (hnd : ∀ d, (tally_path ds tree d).Nodup) (n k : Nat) (hk : 1 ≤ k) (w : ℚ) :
    ∀ data : List tc_datum,
      ((data.filter fun d => decide (d.label.toNat = k)).map fun d =>
        ((tally_path ds tree d).count n : ℚ) * w).sum =
      ((data.filter fun d =>
        decide (d.label = (k : Int)) && decide (n ∈ tally_path ds tree d)).length : ℚ) * w := by
  intro data
  induction data with
  | nil => simp
  | cons d rest ih =>
    by_cases hl : d.label.toNat = k
    · have hl2 : d.label = (k : Int) := by omega
      rw [List.filter_cons_of_pos (by simpa using hl), List.map_cons, List.sum_cons, ih]
      by_cases hm : n ∈ tally_path ds tree d
      · rw [List.filter_cons_of_pos (by simp [hl2, hm]), List.count_eq_one_of_mem (hnd d) hm]
        simp only [List.length_cons]
        push_cast
        ring
      · rw [List.filter_cons_of_neg (by simp [hm]), List.count_eq_zero_of_not_mem hm]
        simp
    · have hl2 : d.label ≠ (k : Int) := by omega
      rw [List.filter_cons_of_neg (by simpa using hl), List.filter_cons_of_neg (by simp [hl2]), ih]

theorem tree_wf_links {F : Type} (tree : tc_tree F) (hwf : tree_wf tree) :
    links_wf tree.nodes ∧ 0 < tree.nodes.length := by
  obtain ⟨w1, w2, _, w4⟩ := hwf
  refine ⟨fun k node hk => ?_, by omega⟩
  rw [← w1]
  exact w4 k node hk

theorem links_kept_zero (M : FloatOps) (nclasses : Int) (nodes : List (tc_node M.F)) :
    links_kept nodes (nodes.map (tally_zero M nclasses)) := by
  refine ⟨List.length_map _ _, fun j nd hj => ?_⟩
  rw [List.getElem?_map, hj]
  exact ⟨_, rfl, rfl, rfl, rfl, rfl, rfl⟩

theorem node_match_eq {F : Type} (a b : List (tc_node F)) (hk : links_kept a b) (n : Nat)
    (nd nd2 : tc_node F) (ha : a[n]? = some nd) (hb : b[n]? = some nd2) : node_match nd nd2 := by
  obtain ⟨nd3, e3, m⟩ := hk.2 n nd ha
  rw [hb] at e3
  cases e3
  exact m

/-- The function `tc_tally_classes` in exact arithmetic, on a forest of
well-formed trees whose nodes have room for the classes and a data set whose
data name images of the set: the call returns, and node `n` of tree `t` is
what `tc_update_probs` makes of a node with the threshold, filter and child
pointers it had, whose count of every class `k` from 1 below `nclasses` is
the number of the data of the class whose walk visits the node, divided by
`represented[k]`. -/
theorem tc_tally_classes_spec (ds : tc_dataset) (forest : tc_forest ℚ)
    (hwf : ∀ tree ∈ forest.trees, tree_wf tree)
    (hroom : ∀ tree ∈ forest.trees, ∀ node ∈ tree.nodes, node_room forest.nclasses node)
    (himg : ∀ d ∈ ds.data.take ds.ndata.toNat, ∃ image, ds.images[d.image.toNat]? = some image) :
    ∃ forest2, tc_tally_classes ratOps ds forest = some forest2 ∧
      forest2.nclasses = forest.nclasses ∧
      ∀ (t : Nat) (tree : tc_tree ℚ), forest.trees[t]? = some tree →
        ∃ tree2, forest2.trees[t]? = some tree2 ∧ tree2.nnodes = tree.nnodes ∧
          ∀ (n : Nat) (node : tc_node ℚ), tree.nodes[n]? = some node →
            ∃ node1, tree2.nodes[n]? = some (tc_update_probs ratOps node1 forest.nclasses) ∧
              node_match node node1 ∧ node_room forest.nclasses node1 ∧
              ∀ k : Nat, 1 ≤ k → (k : Int) < forest.nclasses →
                node1.class_counts.getD k 0 =
                  ((visitors ds tree n k).length : ℚ) /
                    ((ds.represented.getD k 0 : Int) : ℚ) := by
  obtain ⟨trees1, m1, f1⟩ := tally_data_spec ds (ds.data.take ds.ndata.toNat)
    (forest.trees.map fun tree =>
      { tree with nodes := tree.nodes.map (tally_zero ratOps forest.nclasses) })
    (fun tree0 hm => by
      rw [List.mem_map] at hm
      obtain ⟨tree, hmem, rfl⟩ := hm
      have hl := tree_wf_links tree (hwf tree hmem)
      refine ⟨links_wf_kept _ _ hl.1 (links_kept_zero ratOps forest.nclasses tree.nodes), ?_⟩
      show 0 < (tree.nodes.map (tally_zero ratOps forest.nclasses)).length
      rw [List.length_map]
      exact hl.2) himg
  have hcall : ∃ f2, tc_tally_classes ratOps ds forest = some f2 ∧
      f2.nclasses = forest.nclasses ∧
      f2.trees = trees1.map (fun tree =>
        { tree with nodes := tree.nodes.map fun node => tc_update_probs ratOps node forest.nclasses }) := by
    unfold tc_tally_classes
    rw [m1]
    exact ⟨_, rfl, rfl, rfl⟩
  obtain ⟨forest2, c1, c2, c3⟩ := hcall
  refine ⟨forest2, c1, c2, fun t tree ht => ?_⟩
  have ht0 : (forest.trees.map fun tree =>
      { tree with nodes := tree.nodes.map (tally_zero ratOps forest.nclasses) })[t]? =
      some { tree with nodes := tree.nodes.map (tally_zero ratOps forest.nclasses) } := by
    rw [List.getElem?_map, ht]
    rfl
  obtain ⟨tree1, e1, r1, r2, r3⟩ := forall2_getElem _ _ _ f1 t _ ht0
  have hmem := List.getElem?_mem ht
  have hl := tree_wf_links tree (hwf tree hmem)
  have hkz := links_kept_zero ratOps forest.nclasses tree.nodes
  obtain ⟨tree2, htree2⟩ : ∃ tree2 : tc_tree ℚ, tree2 =
      { tree1 with nodes := tree1.nodes.map fun node => tc_update_probs ratOps node forest.nclasses } :=
    ⟨_, rfl⟩
  have hn2 : tree2.nodes =
      tree1.nodes.map fun node => tc_update_probs ratOps node forest.nclasses := by
    rw [htree2]
  refine ⟨tree2, by
    rw [c3, List.getElem?_map, e1, htree2]
    rfl, by rw [htree2]; exact r1, fun n node hn => ?_⟩
  have hn0 : (tree.nodes.map (tally_zero ratOps forest.nclasses))[n]? =
      some (tally_zero ratOps forest.nclasses node) := by
    rw [List.getElem?_map, hn]
    rfl
  obtain ⟨node1, g1, g2, g3, g4⟩ := r3 n _ hn0
  have hrm := hroom tree hmem node (List.getElem?_mem hn)
  have hzlen : (tally_zero ratOps forest.nclasses node).class_counts.length =
      node.class_counts.length := foldl_set_length _ _ _
  have hzplen : (tally_zero ratOps forest.nclasses node).class_probs.length =
      node.class_probs.length := foldl_set_length _ _ _
  refine ⟨node1, by
    rw [hn2, List.getElem?_map, g1]
    rfl, node_match_eq _ _ (links_kept_trans _ _ _ hkz r2) n node node1 hn g1,
    ⟨by rw [g2, hzlen]; exact hrm.1, by rw [g3, hzplen]; exact hrm.2⟩, fun k k1 k2 => ?_⟩
  have hklt : k < node.class_counts.length := by
    have := hrm.1
    omega
  rw [g4 k (by rw [hzlen]; exact hklt)]
  have hz : (tally_zero ratOps forest.nclasses node).class_counts.getD k 0 = 0 := by
    show ((List.range forest.nclasses.toNat).foldl (fun cs c => cs.set c (ratOps.ofInt 0))
      node.class_counts).getD k 0 = 0
    have h0 : (0 : ℚ) = ratOps.ofInt 0 := Int.cast_zero.symm
    rw [foldl_set_getD (fun _ => ratOps.ofInt 0) 0, if_pos ⟨List.mem_range.mpr (by omega), hklt⟩]
    exact h0.symm
  rw [hz, zero_add]
  have hpath : ∀ x : tc_datum,
      tally_path ds { tree with nodes := tree.nodes.map (tally_zero ratOps forest.nclasses) } x =
        tally_path ds tree x :=
    fun x => tally_path_congr ds tree _ hkz x
  simp only [hpath]
  rw [visits_sum ds tree (fun x => tally_path_nodup ds tree hl.1 x) n k k1]
  unfold visitors
  rw [mul_one_div]

theorem tree_wf_kept {F : Type} (a b : tc_tree F) (hwf : tree_wf a) (hn : b.nnodes = a.nnodes)
    (hk : links_kept a.nodes b.nodes) : tree_wf b := by
  have hl := links_wf_kept _ _ (tree_wf_links a hwf).1 hk
  obtain ⟨w1, w2, w3, _⟩ := hwf
  refine ⟨by rw [hn, hk.1]; exact w1, by rw [hn]; exact w2, by rw [hn]; exact w3,
    fun k node hnode => ?_⟩
  have : b.nnodes = (b.nodes.length : Int) := by
    rw [hn, hk.1]
    exact w1
  rw [this]
  exact hl k node hnode

theorem visitors_congr {F : Type} (ds : tc_dataset) (tree tree2 : tc_tree F)
    (hk : links_kept tree.nodes tree2.nodes) (n k : Nat) :
    visitors ds tree2 n k = visitors ds tree n k := by
  unfold visitors
  have hpath : ∀ x : tc_datum, tally_path ds tree2 x = tally_path ds tree x :=
    fun x => tally_path_congr ds tree tree2 hk x
  simp only [hpath]

theorem visitors_represented {F : Type} (ds : tc_dataset) (hok : tally_ok ds) (tree : tc_tree F)
    (n k : Nat) (h : visitors ds tree n k ≠ []) : ds.represented.getD k 0 ≠ 0 := by
  obtain ⟨d, hd⟩ := List.exists_mem_of_ne_nil _ h
  unfold visitors at hd
  rw [List.mem_filter] at hd
  obtain ⟨hm, hp⟩ := hd
  have hl : d.label = (k : Int) := by
    simp only [Bool.and_eq_true, decide_eq_true_eq] at hp
    exact hp.1
  have := (hok d hm).2.2.1
  rw [hl, Int.toNat_natCast] at this
  exact this

/-- C34: in exact arithmetic, on a forest of well-formed trees whose nodes
have room for the classes and a data set with valid labels and images,
`tc_tally_classes` returns; node `n` of tree `t` of the result is what
`tc_update_probs` makes of a node `node1` with the threshold, filter and
child pointers the node had, so its probabilities and its MAP class are
those `tc_update_probs` derives from the counts of `node1`; and for every
class `k` from 1 below `nclasses` the count of the class in `node1` and in
the result is the number of the data of label `k` among the first `ndata`
whose walk from the root visits node `n`, divided by `represented[k]`, which
is not zero when there is such a datum.  The walk is that of `tally_path`:
the root, then at a node that is not a leaf and whose filter evaluation does
not fail the high child when the result exceeds the threshold and the low
child otherwise.  A forest `forestB` with the same thresholds, filters and
child pointers and any counts yields the same counts. -/
theorem tally_counts_whole_path (ds : tc_dataset) (forest forestB : tc_forest ℚ)
    (hwf : ∀ tree ∈ forest.trees, tree_wf tree)
    (hroom : ∀ tree ∈ forest.trees, ∀ node ∈ tree.nodes, node_room forest.nclasses node)
    (hok : tally_ok ds) (hcls : forestB.nclasses = forest.nclasses)
    (hB : List.Forall₂ (same_links forest.nclasses) forest.trees forestB.trees) :
    ∃ forest2 forest2B, tc_tally_classes ratOps ds forest = some forest2 ∧
      tc_tally_classes ratOps ds forestB = some forest2B ∧
      ∀ (t n : Nat) (tree : tc_tree ℚ) (node : tc_node ℚ), forest.trees[t]? = some tree →
        tree.nodes[n]? = some node →
        ∃ tree2 node1 tree2B node2B, forest2.trees[t]? = some tree2 ∧
          tree2.nodes[n]? = some (tc_update_probs ratOps node1 forest.nclasses) ∧
          node_match node node1 ∧
          probs_updated ratOps forest.nclasses (tc_update_probs ratOps node1 forest.nclasses) ∧
          (tc_update_probs ratOps node1 forest.nclasses).MAP_class =
            (tally_counts ratOps node1.class_counts forest.nclasses).2.2 ∧
          forest2B.trees[t]? = some tree2B ∧ tree2B.nodes[n]? = some node2B ∧
          ∀ k : Nat, 1 ≤ k → (k : Int) < forest.nclasses →
            node1.class_counts.getD k 0 =
              ((visitors ds tree n k).length : ℚ) / ((ds.represented.getD k 0 : Int) : ℚ) ∧
            (tc_update_probs ratOps node1 forest.nclasses).class_counts.getD k 0 =
              ((visitors ds tree n k).length : ℚ) / ((ds.represented.getD k 0 : Int) : ℚ) ∧
            node2B.class_counts.getD k 0 =
              ((visitors ds tree n k).length : ℚ) / ((ds.represented.getD k 0 : Int) : ℚ) ∧
            (visitors ds tree n k ≠ [] → ds.represented.getD k 0 ≠ 0) := by
  have himg : ∀ d ∈ ds.data.take ds.ndata.toNat,
      ∃ image, ds.images[d.image.toNat]? = some image :=
    fun d hd => Option.isSome_iff_exists.mp (hok d hd).2.2.2
  have hwfB : ∀ tree ∈ forestB.trees, tree_wf tree := by
    intro treeB hm
    obtain ⟨t, ht⟩ := List.getElem?_of_mem hm
    obtain ⟨tree, e, r⟩ := forall2_getElem _ _ _ (List.Forall₂.flip hB) t treeB ht
    exact tree_wf_kept tree treeB (hwf tree (List.getElem?_mem e)) r.1 r.2.1
  have hroomB : ∀ tree ∈ forestB.trees, ∀ node ∈ tree.nodes,
      node_room forestB.nclasses node := by
    intro treeB hm
    obtain ⟨t, ht⟩ := List.getElem?_of_mem hm
    obtain ⟨tree, _, r⟩ := forall2_getElem _ _ _ (List.Forall₂.flip hB) t treeB ht
    rw [hcls]
    exact r.2.2
  obtain ⟨forest2, a1, _, a3⟩ := tc_tally_classes_spec ds forest hwf hroom himg
  obtain ⟨forest2B, b1, _, b3⟩ := tc_tally_classes_spec ds forestB hwfB hroomB himg
  refine ⟨forest2, forest2B, a1, b1, fun t n tree node ht hn => ?_⟩
  obtain ⟨tree2, c1, _, c3⟩ := a3 t tree ht
  obtain ⟨node1, d1, d2, d3, d4⟩ := c3 n node hn
  obtain ⟨treeB, e1, e2⟩ := forall2_getElem _ _ _ hB t tree ht
  obtain ⟨tree2B, f1, _, f3⟩ := b3 t treeB e1
  obtain ⟨nodeB, g1, _⟩ := e2.2.1.2 n node hn
  obtain ⟨node1B, h1, _, _, h4⟩ := f3 n nodeB g1
  refine ⟨tree2, node1, tree2B, _, c1, d1, d2, update_probs_updated ratOps node1 _ d3.2,
    update_probs_MAP ratOps node1 _, f1, h1, fun k k1 k2 => ?_⟩
  have hu : ∀ nd : tc_node ℚ, (tc_update_probs ratOps nd forest.nclasses).class_counts.getD k 0 =
      nd.class_counts.getD k 0 := by
    intro nd
    have := update_probs_counts_getD ratOps nd forest.nclasses k k1
    rw [show ratOps.ofInt 0 = (0 : ℚ) from Int.cast_zero] at this
    exact this
  refine ⟨d4 k k1 k2, by rw [hu]; exact d4 k k1 k2, ?_, visitors_represented ds hok tree n k⟩
  rw [hcls, hu, h4 k k1 (by rw [hcls]; exact k2), visitors_congr ds tree treeB e2.2.1]

theorem grow_loop_grown (M : FloatOps) (ds : tc_dataset)
    (search : Nat → List Nat → Option (tc_filter × Int)) :
    ∀ (k t : Nat) (s : TrainState M.F) (r : Int × TrainState M.F),
      (∀ tree ∈ s.forest.trees, Grown M tree) →
      grow_loop M search ds k t s = some r → ∀ tree ∈ r.2.forest.trees, Grown M tree := by
  intro k
  induction k with
  | zero =>
    intro t s r hg h
    cases h
    exact hg
  | succ k ih =>
    intro t s r hg h
    unfold grow_loop at h
    split at h
    · rename_i tree hd dr ht hh hdr
      split at h
      · cases h
      · exact ih (t + 1) s r hg h
      · cases h
        exact hg
      · rename_i tree2 st2 hgrow
        refine ih (t + 1) _ r ?_ h
        intro tree3 hm
        rcases List.mem_or_eq_of_mem_set hm with h1 | h1
        · exact hg tree3 h1
        · rw [h1]
          exact Grown.step tree tree2 (search t) ds _ st2 (hg tree (List.getElem?_mem ht)) hgrow
    · cases h

/-- Every tree of a memory state of the trainer is a tree of `tc_init_tree`
and passes of the body of `tc_grow`. -/
theorem trained_grown (M : FloatOps) (rnd : ℚ → ℚ) (ds : tc_dataset) (s : TrainState M.F)
    (h : Trained M rnd ds s) : ∀ tree ∈ s.forest.trees, Grown M tree := by
  induction h with
  | start ntrees filterset nclasses winsize forest next0 s hinit hnext hassign =>
    unfold tc_init_forest at hinit
    split at hinit
    · cases hinit
    injection hinit with hinit
    have htrees : forest.trees = List.replicate ntrees.toNat (tc_init_tree M) := by
      rw [← hinit]
    unfold tc_assign_evenly at hassign
    split at hassign
    · cases hassign
    rename_i s2 hfold
    split at hassign
    · cases hassign
      obtain ⟨c1, _⟩ := assign_loop_inv rnd ds (train_start forest next0) hnext
        (fun t hd hh => by
          have hm := List.getElem?_mem hh
          unfold train_start at hm
          simp only [List.mem_map] at hm
          obtain ⟨_, _, e⟩ := hm
          exact e.symm)
        ds.ndata.toNat s (le_refl _) hfold
      have d1 : s.forest = forest := c1
      intro tree hm
      rw [d1, htrees] at hm
      rw [(List.mem_replicate.mp hm).2]
      exact Grown.init
    · cases hassign
  | grow s s2 search status _ hgrow ih =>
    exact grow_loop_grown M ds search _ 0 s (status, s2) ih hgrow

theorem exGrownState_trees : exGrownState.forest.trees = [exSplitTree] ∧
    exGrownState.forest.nclasses = 3 := by
  constructor
  · set_option maxRecDepth 100000 in
    with_unfolding_all rfl
  · set_option maxRecDepth 100000 in
    with_unfolding_all rfl

theorem exGrownState_room : ∀ tree ∈ exGrownState.forest.trees, ∀ node ∈ tree.nodes,
    node_room exGrownState.forest.nclasses node := by
  rw [exGrownState_trees.1, exGrownState_trees.2]
  intro tree hm node hn
  rw [List.mem_singleton] at hm
  subst hm
  have h : exSplitTree.nodes.map (fun nd => (nd.class_counts.length, nd.class_probs.length)) =
      [(8, 8), (8, 8), (8, 8)] := by
    with_unfolding_all rfl
  have hmem : (node.class_counts.length, node.class_probs.length) ∈
      exSplitTree.nodes.map (fun nd => (nd.class_counts.length, nd.class_probs.length)) :=
    List.mem_map.mpr ⟨node, hn, rfl⟩
  rw [h] at hmem
  have h8 : node.class_counts.length = 8 ∧ node.class_probs.length = 8 := by
    simp only [List.mem_cons, Prod.mk.injEq, List.mem_singleton, or_self, List.not_mem_nil,
      or_false] at hmem
    exact hmem
  unfold node_room
  rw [h8.1, h8.2]
  decide

theorem exForty_tally_ok : tally_ok exForty := by
  unfold tally_ok
  set_option maxRecDepth 100000 in
  with_unfolding_all decide

/-- C34 at the data set `exForty` and the forest that one pass of `tc_grow`
made of it: `tc_tally_classes` returns. -/
theorem tally_counts_whole_path_witness :
    ∃ forest2, tc_tally_classes ratOps exForty exGrownState.forest = some forest2 :=
  let ⟨forest2, _, h, _⟩ := tally_counts_whole_path exForty exGrownState.forest
    exGrownState.forest
    (fun tree hm => grown_wf ratOps tree
      (trained_grown ratOps id exForty exGrownState exGrownState_trained tree hm))
    exGrownState_room exForty_tally_ok rfl
    (List.forall₂_same.mpr
      (fun tree hm => ⟨rfl, links_kept_refl _, exGrownState_room tree hm⟩))
  ⟨forest2, h⟩

/-! ## Theorems: the counts of a node and of its children -/

theorem walk_tail_step {F : Type} (nodes : List (tc_node F)) (image : tc_image) (d : tc_datum)
    (fuel i : Nat) :
    walk_tail nodes image d (fuel + 1) i =
      match next_node nodes image d i with
      | none => []
      | some j => j :: walk_tail nodes image d fuel j := by
  rw [walk_tail]
  unfold next_node
  cases nodes[i]? with
  | none => rfl
  | some node =>
    dsimp only
    by_cases hleaf : tc_isleaf node = true
    · simp only [if_pos hleaf]
    · simp only [if_neg hleaf]
      by_cases herr : (tc_filter_pixel node.filter image d.r d.c 0).1 = ERR
      · simp only [if_pos herr]
      · simp only [if_neg herr]
        cases (if (tc_filter_pixel node.filter image d.r d.c 0).2 > node.threshold
            then node.high else node.low) with
        | none => rfl
        | some j =>
          dsimp only
          by_cases hj : j < 0
          · simp only [if_pos hj]
          · simp only [if_neg hj]

theorem next_node_spec {F : Type} (nodes : List (tc_node F)) (image : tc_image) (d : tc_datum)
    (i c : Nat) (h : next_node nodes image d i = some c) :
    ∃ (node : tc_node F) (j : Int), nodes[i]? = some node ∧ tc_isleaf node = false ∧
      (tc_filter_pixel node.filter image d.r d.c 0).1 ≠ ERR ∧
      (if (tc_filter_pixel node.filter image d.r d.c 0).2 > node.threshold
        then node.high else node.low) = some j ∧ 0 ≤ j ∧ j.toNat = c := by
  unfold next_node at h
  split at h
  · cases h
  · rename_i node hnode
    split at h
    · cases h
    · rename_i hleaf
      split at h
      · cases h
      · rename_i herr
        split at h
        · cases h
        · rename_i j hj
          split at h
          · cases h
          · rename_i hneg
            cases h
            exact ⟨node, j, hnode, by simpa using hleaf, herr, hj, by omega, rfl⟩

theorem next_node_gt {F : Type} (nodes : List (tc_node F)) (hwf : links_wf nodes)
    (image : tc_image) (d : tc_datum) (i c : Nat) (h : next_node nodes image d i = some c) :
    i < c := by
  obtain ⟨node, j, hnode, _, _, hj, j0, jc⟩ := next_node_spec nodes image d i c h
  rcases hwf i node hnode with ⟨w1, w2⟩ | ⟨l, w1, w2, w3, _⟩
  · rw [w1, w2] at hj
    split at hj <;> cases hj
  · rw [w1, w2] at hj
    split at hj
    · cases hj
      omega
    · cases hj
      omega

/-- Every node the walk enters is entered from a node of the walk. -/
theorem walk_tail_pred {F : Type} (nodes : List (tc_node F)) (image : tc_image) (d : tc_datum) :
    ∀ (fuel i c : Nat), c ∈ walk_tail nodes image d fuel i →
      ∃ p, (p = i ∨ p ∈ walk_tail nodes image d fuel i) ∧
        next_node nodes image d p = some c := by
  intro fuel
  induction fuel with
  | zero =>
    intro i c h
    cases h
  | succ fuel ih =>
    intro i c h
    rw [walk_tail_step] at h ⊢
    cases hn : next_node nodes image d i with
    | none =>
      rw [hn] at h
      cases h
    | some j =>
      rw [hn] at h
      dsimp only at h ⊢
      rcases List.mem_cons.mp h with h1 | h1
      · exact ⟨i, Or.inl rfl, by rw [h1]; exact hn⟩
      · obtain ⟨p, hp, hpn⟩ := ih j c h1
        refine ⟨p, Or.inr ?_, hpn⟩
        rcases hp with hp | hp
        · rw [hp]
          exact List.mem_cons_self _ _
        · exact List.mem_cons_of_mem _ hp

/-- In a well-formed tree the walk enters the node after every node it
visits, as long as there is one. -/
theorem walk_tail_succ {F : Type} (nodes : List (tc_node F)) (hwf : links_wf nodes)
    (image : tc_image) (d : tc_datum) :
    ∀ (fuel i p c : Nat), nodes.length ≤ fuel + i →
      (p = i ∨ p ∈ walk_tail nodes image d fuel i) → next_node nodes image d p = some c →
      c ∈ walk_tail nodes image d fuel i := by
  intro fuel
  induction fuel with
  | zero =>
    intro i p c hf hp hn
    rcases hp with hp | hp
    · obtain ⟨node, _, hnode, _⟩ := next_node_spec nodes image d p c hn
      rw [hp, List.getElem?_eq_none (by omega)] at hnode
      cases hnode
    · cases hp
  | succ fuel ih =>
    intro i p c hf hp hn
    rw [walk_tail_step]
    rcases hp with hp | hp
    · rw [hp] at hn
      rw [hn]
      exact List.mem_cons_self _ _
    · rw [walk_tail_step] at hp
      cases hi : next_node nodes image d i with
      | none =>
        rw [hi] at hp
        cases hp
      | some j =>
        rw [hi] at hp
        dsimp only at hp ⊢
        have hij := next_node_gt nodes hwf image d i j hi
        refine List.mem_cons_of_mem _ (ih j p c (by omega) ?_ hn)
        rcases List.mem_cons.mp hp with h1 | h1
        · exact Or.inl h1
        · exact Or.inr h1

theorem filter_length_split {α : Type} (p a b c : α → Bool) :
    ∀ l : List α,
      (∀ x ∈ l, (p x = true ↔ (a x = true ∨ b x = true ∨ c x = true)) ∧
        ¬ (a x = true ∧ b x = true) ∧ ¬ (a x = true ∧ c x = true) ∧
        ¬ (b x = true ∧ c x = true)) →
      (l.filter p).length = (l.filter a).length + (l.filter b).length + (l.filter c).length := by
  intro l
  induction l with
  | nil =>
    intro _
    rfl
  | cons x xs ih =>
    intro h
    have hx := h x (List.mem_cons_self _ _)
    have ih2 := ih (fun y hy => h y (List.mem_cons_of_mem _ hy))
    simp only [List.filter_cons]
    cases hp : p x <;> cases ha : a x <;> cases hb : b x <;> cases hc : c x <;>
      simp [hp, ha, hb, hc] at hx ⊢ <;> omega

/-- The walk visits a child of node `n` exactly when it visits `n`, the
filter of `n` does not fail and the result is on the side of the child, in a
well-formed tree in which no node has two parents. -/
theorem child_visit {F : Type} (ds : tc_dataset) (tree : tc_tree F)
    (hwf : links_wf tree.nodes) (hpu : parents_unique tree.nodes) (n : Nat) (node : tc_node F)
    (l : Int) (hnode : tree.nodes[n]? = some node) (hlow : node.low = some l)
    (hhigh : node.high = some (l + 1)) (hnl : (n : Int) < l) (d : tc_datum) (image : tc_image)
    (himg : ds.images[d.image.toNat]? = some image) :
    (l.toNat ∈ tally_path ds tree d ↔
      n ∈ tally_path ds tree d ∧ (tc_filter_pixel node.filter image d.r d.c 0).1 ≠ ERR ∧
        ¬ (tc_filter_pixel node.filter image d.r d.c 0).2 > node.threshold) ∧
    ((l + 1).toNat ∈ tally_path ds tree d ↔
      n ∈ tally_path ds tree d ∧ (tc_filter_pixel node.filter image d.r d.c 0).1 ≠ ERR ∧
        (tc_filter_pixel node.filter image d.r d.c 0).2 > node.threshold) := by
  have hpath : tally_path ds tree d =
      0 :: walk_tail tree.nodes image d (tree.nodes.length + 1) 0 := by
    unfold tally_path
    rw [himg]
  have hleaf : tc_isleaf node = false := by
    unfold tc_isleaf
    rw [hhigh]
    rfl
  have hback : ∀ c : Int, 0 ≤ c →
      (if (tc_filter_pixel node.filter image d.r d.c 0).2 > node.threshold
        then node.high else node.low) = some c →
      n ∈ tally_path ds tree d → (tc_filter_pixel node.filter image d.r d.c 0).1 ≠ ERR →
      c.toNat ∈ tally_path ds tree d := by
    intro c hc hch hn herr
    have hnext : next_node tree.nodes image d n = some c.toNat := by
      unfold next_node
      rw [hnode]
      dsimp only
      rw [hleaf, if_neg (by simp), if_neg herr, hch]
      dsimp only
      rw [if_neg (by omega)]
    rw [hpath] at hn ⊢
    refine List.mem_cons_of_mem _ (walk_tail_succ tree.nodes hwf image d _ 0 n c.toNat (by omega)
      ?_ hnext)
    rcases List.mem_cons.mp hn with h | h
    · exact Or.inl h
    · exact Or.inr h
  have hfwd : ∀ c : Int, (n : Int) < c → (node.low = some c ∨ node.high = some c) →
      c.toNat ∈ tally_path ds tree d →
      n ∈ tally_path ds tree d ∧ (tc_filter_pixel node.filter image d.r d.c 0).1 ≠ ERR ∧
        (if (tc_filter_pixel node.filter image d.r d.c 0).2 > node.threshold
          then node.high else node.low) = some c := by
    intro c hc hnc hm
    rw [hpath] at hm
    have hm2 : c.toNat ∈ walk_tail tree.nodes image d (tree.nodes.length + 1) 0 := by
      rcases List.mem_cons.mp hm with h | h
      · omega
      · exact h
    obtain ⟨p, hp, hpn⟩ := walk_tail_pred tree.nodes image d _ 0 c.toNat hm2
    obtain ⟨ndp, j, hndp, _, herr, hj, j0, jc⟩ := next_node_spec tree.nodes image d p c.toNat hpn
    have hjc : j = c := by omega
    rw [hjc] at hj
    have hpc : ndp.low = some c ∨ ndp.high = some c := by
      split at hj
      · exact Or.inr hj
      · exact Or.inl hj
    have hpn2 : p = n := hpu p n ndp node c hndp hnode hpc hnc
    rw [hpn2, hnode] at hndp
    cases hndp
    refine ⟨?_, herr, hj⟩
    rw [hpath, ← hpn2]
    rcases hp with hp | hp
    · rw [hp]
      exact List.mem_cons_self _ _
    · exact List.mem_cons_of_mem _ hp
  constructor
  · constructor
    · intro hm
      obtain ⟨g1, g2, g3⟩ := hfwd l hnl (Or.inl hlow) hm
      refine ⟨g1, g2, fun hgt => ?_⟩
      rw [if_pos hgt, hhigh] at g3
      injection g3 with g3
      omega
    · rintro ⟨g1, g2, g3⟩
      exact hback l (by omega) (by rw [if_neg g3]; exact hlow) g1 g2
  · constructor
    · intro hm
      obtain ⟨g1, g2, g3⟩ := hfwd (l + 1) (by omega) (Or.inr hhigh) hm
      refine ⟨g1, g2, ?_⟩
      by_contra hgt
      rw [if_neg hgt, hlow] at g3
      injection g3 with g3
      omega
    · rintro ⟨g1, g2, g3⟩
      exact hback (l + 1) (by omega) (by rw [if_pos g3]; exact hhigh) g1 g2

/-- The visitors of a node with children are the visitors of the low child,
those of the high child and the data whose walk ends at the node. -/
theorem visitors_split {F : Type} (ds : tc_dataset) (hok : tally_ok ds) (tree : tc_tree F)
    (hwf : links_wf tree.nodes) (hpu : parents_unique tree.nodes) (n : Nat) (node : tc_node F)
    (l : Int) (hnode : tree.nodes[n]? = some node) (hlow : node.low = some l)
    (hhigh : node.high = some (l + 1)) (hnl : (n : Int) < l) (k : Nat) :
    (visitors ds tree n k).length =
      (visitors ds tree l.toNat k).length + (visitors ds tree (l + 1).toNat k).length +
        (stopped ds tree n k).length := by
  unfold visitors stopped
  refine filter_length_split _ _ _ _ _ (fun d hd => ?_)
  obtain ⟨image, himg⟩ := Option.isSome_iff_exists.mp (hok d hd).2.2.2
  obtain ⟨c1, c2⟩ := child_visit ds tree hwf hpu n node l hnode hlow hhigh hnl d image himg
  have hstop : stops_at ds tree n d =
      decide ((tc_filter_pixel node.filter image d.r d.c 0).1 = ERR) := by
    unfold stops_at
    rw [himg, hnode]
  rw [hstop]
  simp only [Bool.and_eq_true, decide_eq_true_eq]
  rw [c1, c2]
  by_cases hlab : d.label = (k : Int) <;>
    by_cases hn : n ∈ tally_path ds tree d <;>
    by_cases herr : (tc_filter_pixel node.filter image d.r d.c 0).1 = ERR <;>
    by_cases hgt : (tc_filter_pixel node.filter image d.r d.c 0).2 > node.threshold <;>
    simp [hlab, hn, herr, hgt]

theorem visitors_root {F : Type} (ds : tc_dataset) (hok : tally_ok ds) (tree : tc_tree F)
    (k : Nat) :
    visitors ds tree 0 k =
      (ds.data.take ds.ndata.toNat).filter fun d => decide (d.label = (k : Int)) := by
  unfold visitors
  refine List.filter_congr (fun d hd => ?_)
  obtain ⟨image, himg⟩ := Option.isSome_iff_exists.mp (hok d hd).2.2.2
  have : 0 ∈ tally_path ds tree d := by
    unfold tally_path
    rw [himg]
    exact List.mem_cons_self _ _
  simp [this]

theorem parents_unique_kept {F : Type} (a b : List (tc_node F)) (hpu : parents_unique a)
    (hk : links_kept a b) : parents_unique b := by
  intro p q ndp ndq c hp hq hpc hqc
  have hback : ∀ (j : Nat) (nd : tc_node F), b[j]? = some nd →
      ∃ nd0, a[j]? = some nd0 ∧ nd.high = nd0.high ∧ nd.low = nd0.low := by
    intro j nd hj
    have hjlt : j < a.length := by
      by_contra hc
      rw [List.getElem?_eq_none (by rw [hk.1]; omega)] at hj
      cases hj
    obtain ⟨nd2, e2, _, _, _, m4, m5⟩ := hk.2 j _ (List.getElem?_eq_getElem hjlt)
    rw [hj] at e2
    cases e2
    exact ⟨_, List.getElem?_eq_getElem hjlt, m4, m5⟩
  obtain ⟨p0, hp0, p1, p2⟩ := hback p ndp hp
  obtain ⟨q0, hq0, q1, q2⟩ := hback q ndq hq
  rw [p1, p2] at hpc
  rw [q1, q2] at hqc
  exact hpu p q p0 q0 c hp0 hq0 hpc hqc

/-- In a tree of `tc_init_tree` and passes of the body of `tc_grow` no node
has two parents. -/
theorem grown_parents_unique (M : FloatOps) (tree : tc_tree M.F) (h : Grown M tree) :
    parents_unique tree.nodes := by
  induction h with
  | init =>
    intro p q ndp ndq c hp _ hpc _
    have hm : ndp ∈ [tc_init_node M] := List.getElem?_mem hp
    rw [List.mem_singleton] at hm
    rw [hm] at hpc
    rcases hpc with h | h <;> cases h
  | step tree tree2 search ds st st2 hg hstep ih =>
    have hwf := grown_wf M tree hg
    obtain ⟨n, node, hnode, ⟨e1, _⟩ | ⟨flt, thr, e1, _⟩⟩ :=
      tc_grow_tree_cases M search ds tree tree2 st st2 hstep
    · rw [e1]
      refine parents_unique_kept tree.nodes _ ih ⟨List.length_set _ _ _, fun j nd hj => ?_⟩
      show ∃ nd2, (tree.nodes.set n { node with expandable := 0 })[j]? = some nd2 ∧ _
      rw [List.getElem?_set]
      by_cases hnj : n = j
      · subst hnj
        rw [hnode] at hj
        cases hj
        have hlt : n < tree.nodes.length := by
          by_contra hc
          rw [List.getElem?_eq_none (by omega)] at hnode
          cases hnode
        rw [if_pos rfl, if_pos hlt]
        exact ⟨_, rfl, rfl, rfl, rfl, rfl, rfl⟩
      · rw [if_neg hnj]
        exact ⟨nd, hj, rfl, rfl, rfl, rfl, rfl⟩
    · rw [e1]
      have hnlt : n < tree.nodes.length := by
        by_contra hc
        rw [List.getElem?_eq_none (by omega)] at hnode
        cases hnode
      obtain ⟨w1, _, _, w4⟩ := hwf
      have hold : ∀ (j : Nat) (nd : tc_node M.F) (c : Int),
          (split_node M tree n node flt thr).nodes[j]? = some nd →
          (nd.low = some c ∨ nd.high = some c) →
          (j = n ∧ tree.nnodes ≤ c) ∨ (j ≠ n ∧ tree.nodes[j]? = some nd ∧ c < tree.nnodes) := by
        intro j nd c hj hc
        by_cases hjn : j = n
        · left
          rw [hjn, split_node_get M tree n node flt thr hnlt] at hj
          cases hj
          refine ⟨hjn, ?_⟩
          rcases hc with h | h
          · injection h with h
            omega
          · injection h with h
            omega
        · right
          rcases split_node_get_other M tree n j node nd flt thr hjn hj with h | h
          · refine ⟨hjn, h, ?_⟩
            rcases w4 j nd h with ⟨g1, g2⟩ | ⟨l, g1, g2, _, g4⟩
            · rw [g1, g2] at hc
              rcases hc with h | h <;> cases h
            · rw [g1, g2] at hc
              rcases hc with h | h
              · injection h with h
                omega
              · injection h with h
                omega
          · exfalso
            by_cases hjl : j < tree.nodes.length
            · rw [split_node_get_same M tree n j node flt thr hjn hjl] at hj
              rcases w4 j nd hj with ⟨g1, g2⟩ | ⟨l, g1, g2, _, _⟩
              · rw [g1, g2] at hc
                rcases hc with h | h <;> cases h
              · unfold tc_isleaf at h
                rw [g2] at h
                cases h
            · have hm : nd ∈ [tc_init_node M, tc_init_node M] := by
                unfold split_node at hj
                simp only at hj
                rw [List.getElem?_append_right (by simpa using hjl)] at hj
                exact List.getElem?_mem hj
              have hnd : nd = tc_init_node M := by
                simpa using hm
              rw [hnd] at hc
              rcases hc with h | h <;> cases h
      intro p q ndp ndq c hp hq hpc hqc
      rcases hold p ndp c hp hpc with ⟨a1, a2⟩ | ⟨a1, a2, a3⟩
      · rcases hold q ndq c hq hqc with ⟨b1, _⟩ | ⟨_, _, b3⟩
        · rw [a1, b1]
        · omega
      · rcases hold q ndq c hq hqc with ⟨_, b2⟩ | ⟨_, b2, _⟩
        · omega
        · exact ih p q ndp ndq c a2 b2 hpc hqc

/-- C39: in exact arithmetic, on a forest of well-formed trees in which no
node has two parents, whose nodes have room for the classes, and a data set
with valid labels and images, `tc_tally_classes` returns, and in every tree,
for every class `k` from 1 below `nclasses`, before and after
`tc_update_probs`: the count of the class at the root is the number of the
data of label `k` among the first `ndata`, divided by `represented[k]`,
which is 1 when `represented[k]` is that number and not zero; and the count
at a node with children is the count at its low child plus the count at its
high child plus the number of the data of label `k` whose walk visits the
node and whose filter evaluation fails there, divided by `represented[k]`. -/
theorem tally_mass_conserved (ds : tc_dataset) (forest : tc_forest ℚ)
    (hwf : ∀ tree ∈ forest.trees, tree_wf tree ∧ parents_unique tree.nodes)
    (hroom : ∀ tree ∈ forest.trees, ∀ node ∈ tree.nodes, node_room forest.nclasses node)
    (hok : tally_ok ds) :
    ∃ forest2, tc_tally_classes ratOps ds forest = some forest2 ∧
      ∀ (t : Nat) (tree : tc_tree ℚ), forest.trees[t]? = some tree →
        ∃ tree2 root1, forest2.trees[t]? = some tree2 ∧
          tree2.nodes[0]? = some (tc_update_probs ratOps root1 forest.nclasses) ∧
          (∀ k : Nat, 1 ≤ k → (k : Int) < forest.nclasses →
            root1.class_counts.getD k 0 =
              (((ds.data.take ds.ndata.toNat).filter fun d =>
                decide (d.label = (k : Int))).length : ℚ) /
                ((ds.represented.getD k 0 : Int) : ℚ) ∧
            (tc_update_probs ratOps root1 forest.nclasses).class_counts.getD k 0 =
              root1.class_counts.getD k 0 ∧
            (ds.represented.getD k 0 = (((ds.data.take ds.ndata.toNat).filter fun d =>
                decide (d.label = (k : Int))).length : Int) →
              ds.represented.getD k 0 ≠ 0 → root1.class_counts.getD k 0 = 1)) ∧
          ∀ (n : Nat) (node : tc_node ℚ), tree.nodes[n]? = some node →
            tc_isleaf node = false →
            ∃ (l : Int) (node1 low1 high1 : tc_node ℚ), node.low = some l ∧
              node.high = some (l + 1) ∧
              tree2.nodes[n]? = some (tc_update_probs ratOps node1 forest.nclasses) ∧
              tree2.nodes[l.toNat]? = some (tc_update_probs ratOps low1 forest.nclasses) ∧
              tree2.nodes[(l + 1).toNat]? =
                some (tc_update_probs ratOps high1 forest.nclasses) ∧
              ∀ k : Nat, 1 ≤ k → (k : Int) < forest.nclasses →
                node1.class_counts.getD k 0 =
                  low1.class_counts.getD k 0 + high1.class_counts.getD k 0 +
                    ((stopped ds tree n k).length : ℚ) /
                      ((ds.represented.getD k 0 : Int) : ℚ) ∧
                (tc_update_probs ratOps node1 forest.nclasses).class_counts.getD k 0 =
                  (tc_update_probs ratOps low1 forest.nclasses).class_counts.getD k 0 +
                    (tc_update_probs ratOps high1 forest.nclasses).class_counts.getD k 0 +
                    ((stopped ds tree n k).length : ℚ) /
                      ((ds.represented.getD k 0 : Int) : ℚ) := by
  have himg : ∀ d ∈ ds.data.take ds.ndata.toNat,
      ∃ image, ds.images[d.image.toNat]? = some image :=
    fun d hd => Option.isSome_iff_exists.mp (hok d hd).2.2.2
  obtain ⟨forest2, a1, _, a3⟩ := tc_tally_classes_spec ds forest (fun tree hm => (hwf tree hm).1)
    hroom himg
  refine ⟨forest2, a1, fun t tree ht => ?_⟩
  obtain ⟨tree2, c1, _, c3⟩ := a3 t tree ht
  have hmem := List.getElem?_mem ht
  have hl := tree_wf_links tree (hwf tree hmem).1
  have hu : ∀ (nd : tc_node ℚ) (k : Nat), 1 ≤ k →
      (tc_update_probs ratOps nd forest.nclasses).class_counts.getD k 0 =
        nd.class_counts.getD k 0 := by
    intro nd k k1
    have := update_probs_counts_getD ratOps nd forest.nclasses k k1
    rw [show ratOps.ofInt 0 = (0 : ℚ) from Int.cast_zero] at this
    exact this
  obtain ⟨root1, r1, _, _, r4⟩ := c3 0 _ (List.getElem?_eq_getElem hl.2)
  refine ⟨tree2, root1, c1, r1, fun k k1 k2 => ?_, fun n node hn hleaf => ?_⟩
  · have hroot : root1.class_counts.getD k 0 =
        (((ds.data.take ds.ndata.toNat).filter fun d =>
          decide (d.label = (k : Int))).length : ℚ) /
          ((ds.represented.getD k 0 : Int) : ℚ) := by
      rw [r4 k k1 k2, visitors_root ds hok tree k]
    refine ⟨hroot, hu root1 k k1, fun hrep hne => ?_⟩
    rw [hroot, hrep]
    have hne2 : ((((ds.data.take ds.ndata.toNat).filter fun d =>
        decide (d.label = (k : Int))).length : Int) : ℚ) ≠ 0 := by
      rw [← hrep]
      exact_mod_cast hne
    rw [Int.cast_natCast] at hne2 ⊢
    exact div_self hne2
  · obtain ⟨w1, _, _, w4⟩ := (hwf tree hmem).1
    rcases w4 n node hn with ⟨g1, _⟩ | ⟨l, g1, g2, g3, g4⟩
    · unfold tc_isleaf at hleaf
      rw [g1] at hleaf
      cases hleaf
    · have hl1 : l.toNat < tree.nodes.length := by omega
      have hl2 : (l + 1).toNat < tree.nodes.length := by omega
      obtain ⟨node1, n1, _, _, n4⟩ := c3 n node hn
      obtain ⟨low1, l1, _, _, l4⟩ := c3 l.toNat _ (List.getElem?_eq_getElem hl1)
      obtain ⟨high1, h1, _, _, h4⟩ := c3 (l + 1).toNat _ (List.getElem?_eq_getElem hl2)
      have hcount : ∀ k : Nat, 1 ≤ k → (k : Int) < forest.nclasses →
          node1.class_counts.getD k 0 =
            low1.class_counts.getD k 0 + high1.class_counts.getD k 0 +
              ((stopped ds tree n k).length : ℚ) / ((ds.represented.getD k 0 : Int) : ℚ) := by
        intro k k1 k2
        rw [n4 k k1 k2, l4 k k1 k2, h4 k k1 k2,
          visitors_split ds hok tree hl.1 (hwf tree hmem).2 n node l hn g1 g2 g3 k]
        push_cast
        ring
      refine ⟨l, node1, low1, high1, g1, g2, n1, l1, h1, fun k k1 k2 => ⟨hcount k k1 k2, ?_⟩⟩
      rw [hu node1 k k1, hu low1 k k1, hu high1 k k1]
      exact hcount k k1 k2

/-- C39 at the data set `exForty` and the forest that one pass of `tc_grow`
made of it: `tc_tally_classes` returns a forest with a tree for its tree. -/
theorem tally_mass_conserved_witness :
    ∃ forest2, tc_tally_classes ratOps exForty exGrownState.forest = some forest2 ∧
      ∀ (t : Nat) (tree : tc_tree ℚ), exGrownState.forest.trees[t]? = some tree →
        ∃ tree2, forest2.trees[t]? = some tree2 :=
  let ⟨forest2, h, h2⟩ := tally_mass_conserved exForty exGrownState.forest
    (fun tree hm =>
      ⟨grown_wf ratOps tree
        (trained_grown ratOps id exForty exGrownState exGrownState_trained tree hm),
      grown_parents_unique ratOps tree
        (trained_grown ratOps id exForty exGrownState exGrownState_trained tree hm)⟩)
    exGrownState_room exForty_tally_ok
  ⟨forest2, h, fun t tree ht => let ⟨tree2, _, h3, _⟩ := h2 t tree ht; ⟨tree2, h3⟩⟩

/-! ## Theorems: the score on class masses and on the counts of the code -/

theorem pair_mass_low_eq (ds : tc_dataset) (L : List Nat) (p : tc_filter × Nat)
    (ht : p.2 < 512) :
    pair_mass_low id ds L p =
      (List.range ds.nclasses.toNat).map fun c =>
        ((L.filterMap (search_entry id ds p.1)).map
          fun e => if e.2.1 < p.2 + 1 ∧ e.1 = c then e.2.2 else 0).sum := by
  unfold pair_mass_low
  refine List.map_congr_left (fun c hc => ?_)
  rw [accum_counts_getD ds p.1 L c p.2 (List.mem_range.mp hc) ht]

theorem pair_mass_high_eq (ds : tc_dataset) (L : List Nat) (p : tc_filter × Nat)
    (ht : p.2 < 512) :
    pair_mass_high id ds L p =
      (List.range ds.nclasses.toNat).map fun c =>
        ((L.filterMap (search_entry id ds p.1)).map
            fun e => if e.2.1 < 511 + 1 ∧ e.1 = c then e.2.2 else 0).sum -
          ((L.filterMap (search_entry id ds p.1)).map
            fun e => if e.2.1 < p.2 + 1 ∧ e.1 = c then e.2.2 else 0).sum := by
  unfold pair_mass_high
  refine List.map_congr_left (fun c hc => ?_)
  have h511 : N_THRESH.toNat - 1 = 511 := rfl
  rw [h511, accum_counts_getD ds p.1 L c p.2 (List.mem_range.mp hc) ht,
    accum_counts_getD ds p.1 L c 511 (List.mem_range.mp hc) (by omega)]

theorem pair_low_eq (ds : tc_dataset) (L : List Nat) (p : tc_filter × Nat) (ht : p.2 < 512) :
    pair_low id ds L p =
      (List.range ds.nclasses.toNat).map fun c =>
        float_to_int (((L.filterMap (search_entry id ds p.1)).map
          fun e => if e.2.1 < p.2 + 1 ∧ e.1 = c then e.2.2 else 0).sum) := by
  unfold pair_low lowdist_class_cnts
  refine List.map_congr_left (fun c hc => ?_)
  rw [accum_counts_getD ds p.1 L c p.2 (List.mem_range.mp hc) ht]

theorem pair_high_eq (ds : tc_dataset) (L : List Nat) (p : tc_filter × Nat) (ht : p.2 < 512) :
    pair_high id ds L p =
      (List.range ds.nclasses.toNat).map fun c =>
        float_to_int (((L.filterMap (search_entry id ds p.1)).map
            fun e => if e.2.1 < 511 + 1 ∧ e.1 = c then e.2.2 else 0).sum -
          ((float_to_int (((L.filterMap (search_entry id ds p.1)).map
            fun e => if e.2.1 < p.2 + 1 ∧ e.1 = c then e.2.2 else 0).sum) : Int) : ℚ)) := by
  unfold pair_high highdist_class_cnts
  refine List.map_congr_left (fun c hc => ?_)
  have h511 : N_THRESH.toNat - 1 = 511 := rfl
  rw [h511, accum_counts_getD ds p.1 L c p.2 (List.mem_range.mp hc) ht,
    accum_counts_getD ds p.1 L c 511 (List.mem_range.mp hc) (by omega)]
  rfl

theorem exSixty_counts :
    pair_low id exSixty (List.range 60).reverse (exDiff, 1) = [0, 36, 1] ∧
    pair_high id exSixty (List.range 60).reverse (exDiff, 1) = [0, 0, 35] ∧
    pair_mass_low id exSixty (List.range 60).reverse (exDiff, 1) = [0, 36, 3 / 2] ∧
    pair_mass_high id exSixty (List.range 60).reverse (exDiff, 1) = [0, 0, 69 / 2] := by
  rw [pair_low_eq _ _ _ (by decide), pair_high_eq _ _ _ (by decide),
    pair_mass_low_eq _ _ _ (by decide), pair_mass_high_eq _ _ _ (by decide)]
  set_option maxRecDepth 100000 in
  refine ⟨?_, ?_, ?_, ?_⟩ <;> with_unfolding_all decide

theorem exSixty_labels : labels_ok exSixty := by
  unfold labels_ok
  set_option maxRecDepth 100000 in
  with_unfolding_all decide

theorem exSixty_gate : passes_gate id exSixty (List.range 60).reverse (exDiff, 1) := by
  have h1 : total_low id exSixty exDiff (List.range 60).reverse 1 =
      (pair_low id exSixty (List.range 60).reverse (exDiff, 1)).sum := rfl
  have h2 : total_high id exSixty exDiff (List.range 60).reverse 1 =
      (pair_high id exSixty (List.range 60).reverse (exDiff, 1)).sum := rfl
  unfold passes_gate
  show TC_TRAIN_MIN_SPLIT ≤ total_low id exSixty exDiff (List.range 60).reverse 1 ∧
    TC_TRAIN_MIN_SPLIT ≤ total_high id exSixty exDiff (List.range 60).reverse 1
  rw [h1, h2, exSixty_counts.1, exSixty_counts.2.1]
  decide

/-- C37 as stated fails.  In `exSixty` the 36 data of class 1 have the mass 1
and the 24 data of class 2 the mass 36/24 = 3/2; at the threshold index 1 the
filter `exDiff` puts the data of class 1 and one datum of class 2 on the low
side.  The class masses are `[0, 36, 3/2]` and `[0, 0, 69/2]`, with totals
above 32, and the `int` arrays of the code hold `[0, 36, 1]` and `[0, 0, 35]`,
which pass the test of the code.  In exact arithmetic with the natural
logarithm the score of the code is `-ln 37 / 72` and the formula on the class
masses gives `-(3/2) ln 25 / 72`, and these differ.  In binary32 the
proportion `lowdist_prob_class` of a count 1 in a total 37 is not `1/37`. -/
theorem split_score_counterexample :
    labels_ok exSixty ∧
    passes_gate id exSixty (List.range 60).reverse (exDiff, 1) ∧
    pair_low id exSixty (List.range 60).reverse (exDiff, 1) = [0, 36, 1] ∧
    pair_high id exSixty (List.range 60).reverse (exDiff, 1) = [0, 0, 35] ∧
    pair_mass_low id exSixty (List.range 60).reverse (exDiff, 1) = [0, 36, 3 / 2] ∧
    pair_mass_high id exSixty (List.range 60).reverse (exDiff, 1) = [0, 0, 69 / 2] ∧
    (32 : ℚ) ≤ (pair_mass_low id exSixty (List.range 60).reverse (exDiff, 1)).sum ∧
    (32 : ℚ) ≤ (pair_mass_high id exSixty (List.range 60).reverse (exDiff, 1)).sum ∧
    pair_score (entropy_score (ScoreArith.mk id id Real.log)) id exSixty
        (List.range 60).reverse (exDiff, 1) =
      ((-Real.log 37 / 72 : ℝ) : WithBot ℝ) ∧
    spec_mass_score Real.log
        ((pair_mass_low id exSixty (List.range 60).reverse (exDiff, 1)).map fun q => (q : ℝ))
        ((pair_mass_high id exSixty (List.range 60).reverse (exDiff, 1)).map fun q => (q : ℝ)) =
      -(3 / 2 * Real.log 25) / 72 ∧
    pair_score (entropy_score (ScoreArith.mk id id Real.log)) id exSixty
        (List.range 60).reverse (exDiff, 1) ≠
      ((spec_mass_score Real.log
        ((pair_mass_low id exSixty (List.range 60).reverse (exDiff, 1)).map fun q => (q : ℝ))
        ((pair_mass_high id exSixty (List.range 60).reverse (exDiff, 1)).map fun q => (q : ℝ)) :
          ℝ) : WithBot ℝ) ∧
    prob_class (ScoreArith.mk round_f32 id id) 1 37 ≠ 1 / 37 := by
  obtain ⟨c1, c2, c3, c4⟩ := exSixty_counts
  have hcode : pair_score (entropy_score (ScoreArith.mk id id Real.log)) id exSixty
      (List.range 60).reverse (exDiff, 1) = ((-Real.log 37 / 72 : ℝ) : WithBot ℝ) := by
    show ((split_score (ScoreArith.mk id id Real.log)
      (pair_low id exSixty (List.range 60).reverse (exDiff, 1))
      (pair_high id exSixty (List.range 60).reverse (exDiff, 1)) : ℝ) : WithBot ℝ) = _
    rw [c1, c2, split_score_exact Real.log [0, 36, 1] [0, 0, 35] (by decide) (by decide)]
    congr 1
    simp [spec_split_score, spec_entropy]
    norm_num
  have hspec : spec_mass_score Real.log
      ((pair_mass_low id exSixty (List.range 60).reverse (exDiff, 1)).map fun q => (q : ℝ))
      ((pair_mass_high id exSixty (List.range 60).reverse (exDiff, 1)).map fun q => (q : ℝ)) =
      -(3 / 2 * Real.log 25) / 72 := by
    rw [c3, c4]
    simp [spec_mass_score, spec_mass_entropy]
    norm_num
    rw [show Real.log (1 / 25 : ℝ) = -Real.log 25 by rw [one_div, Real.log_inv]]
    ring
  have hne : (-Real.log 37 / 72 : ℝ) ≠ -(3 / 2 * Real.log 25) / 72 := by
    intro h
    have h2 : (2 : ℕ) * Real.log 37 = (3 : ℕ) * Real.log 25 := by
      push_cast
      linarith
    rw [← Real.log_pow, ← Real.log_pow] at h2
    have h3 := Real.log_injOn_pos (Set.mem_Ioi.mpr (by norm_num)) (Set.mem_Ioi.mpr (by norm_num)) h2
    norm_num at h3
  refine ⟨exSixty_labels, exSixty_gate, c1, c2, c3, c4, ?_, ?_, hcode, hspec, ?_, ?_⟩
  · rw [c3]
    norm_num
  · rw [c4]
    norm_num
  · rw [hcode, hspec]
    exact fun h => hne (WithBot.coe_injective h)
  · show round_f32 (round_f32 ((1 : Int) : ℚ) / round_f32 ((37 : Int) : ℚ)) ≠ 1 / 37
    set_option maxRecDepth 1000000 in
    with_unfolding_all decide

end TextureCam
